import Mathlib

/-!
DGD memory manager and hash table: a verification development

Shallow embedding of `src/alloc.c` (non-DEBUG build) and `src/hash.cpp`.

Conventions of the embedding
* a pointer is a natural number, `0` is the null pointer;
* memory is split by field: one map per struct field, indexed by the address
  of the struct (`long` words are indexed by their own byte address);
* a function that can call `fatal` returns a `Res`, whose `fatal` case keeps
  the message and the state at the moment of the call;
* loops over linked structures take a fuel argument and return `none` when
  the fuel runs out.
-/

namespace Dgd

/-! ## alloc.c: constants and memory -/

/-- The values the source takes from the platform and from `config.h`:
`sizeof(long)`, `sizeof(char *)`, the alignment `STRUCT_AL` (2 unless
configured) and the string size `STRINGSZ`. -/
structure Config where
  sizeofLong : Nat
  sizeofPtr : Nat
  STRUCT_AL : Nat
  STRINGSZ : Nat

/-- An LP64 platform with the default alignment. -/
def lp64 : Config := { sizeofLong := 8, sizeofPtr := 8, STRUCT_AL := 2, STRINGSZ := 256 }

/-- Values of type `unsigned int` are taken modulo this. -/
def UINT_MOD : Nat := 2 ^ 32

/-- Values of type `size_t` are taken modulo this. -/
def SIZE_MOD : Nat := 2 ^ 64

def MAGIC_MASK : Nat := 0xff000000
def SIZE_MASK : Nat := 0x00ffffff
def SM_MAGIC : Nat := 0xc5000000
def DM_MAGIC : Nat := 0xc6000000

/-- In the non-DEBUG build `OFFSET` is `sizeof(chunk)`: a `long` and a pointer. -/
def Config.OFFSET (C : Config) : Nat := C.sizeofLong + C.sizeofPtr

/-- Modelled from the spec: the macro `ALIGN(x, s)` of `dgd.h`, which rounds
`x` up to the alignment `s` ("bytes handed out are aligned to a configured
struct alignment"). -/
def ALIGN (x s : Nat) : Nat := (x + s - 1) / s * s

def INIT_MEM : Nat := 16384
def Config.SLIMIT (C : Config) : Nat := C.STRINGSZ + C.OFFSET
def Config.SSMALL (C : Config) : Nat := C.OFFSET + C.STRINGSZ / 8
def Config.SCHUNKS (C : Config) : Nat := C.STRINGSZ / C.STRUCT_AL - 1
def LCHUNKS : Nat := 16
def DSMALL : Nat := 48
def Config.DLIMIT (C : Config) : Nat := DSMALL + C.OFFSET
def Config.DCHUNKS (C : Config) : Nat := DSMALL / C.STRUCT_AL - 1
def DCHUNKSZ : Nat := 16384

/-- The index expression `(size - OFFSET) / STRUCT_AL - 1`, computed in
`size_t` arithmetic as in C (a subtraction below zero wraps around). -/
def chunkIndex (C : Config) (size : Nat) : Nat :=
  ((size + SIZE_MOD - C.OFFSET % SIZE_MOD) % SIZE_MOD / C.STRUCT_AL + SIZE_MOD - 1) % SIZE_MOD

/-- An element of `lchunks`: the type `clist`. -/
structure Clist where
  size : Nat
  list : Nat
  deriving DecidableEq

/-- The memory and the root of the splay tree. `size` holds every `long`
word (the `size` field of a `chunk` or `spnode` at its address, and the
boundary words of the dynamic blocks); `next` is `chunk.next`; `parent`,
`left` and `right` are the links of an `spnode`; `dtree` is the static
variable of that name. -/
structure Heap where
  size : Nat → Nat
  next : Nat → Nat
  parent : Nat → Nat
  left : Nat → Nat
  right : Nat → Nat
  dtree : Nat

def Heap.setSize (h : Heap) (a v : Nat) : Heap := { h with size := Function.update h.size a v }
def Heap.setNext (h : Heap) (a v : Nat) : Heap := { h with next := Function.update h.next a v }
def Heap.setParent (h : Heap) (a v : Nat) : Heap :=
  { h with parent := Function.update h.parent a v }
def Heap.setLeft (h : Heap) (a v : Nat) : Heap := { h with left := Function.update h.left a v }
def Heap.setRight (h : Heap) (a v : Nat) : Heap :=
  { h with right := Function.update h.right a v }
def Heap.setDtree (h : Heap) (v : Nat) : Heap := { h with dtree := v }

/-- The statement `if (child != NULL) child->parent = p;`. -/
def Heap.setParentIf (h : Heap) (child p : Nat) : Heap :=
  if child = 0 then h else h.setParent child p

/-! ## alloc.c: the splay tree of large dynamic free chunks -/

/-- The loop `for (;;)` of `insert`, with the locals `n`, `l`, `r` and the
size of the new node. The result is the memory at the `break`. -/
def insertLoop (size : Nat) : Nat → Heap → Nat → Nat → Nat → Option Heap
  | 0, _, _, _, _ => none
  | fuel + 1, h, n, l, r =>
    if h.size n < size then
      let t := h.right n
      if t = 0 then
        some (((h.setRight l n).setParent n l).setLeft r 0)
      else if h.size t ≥ size then
        insertLoop size fuel ((h.setRight l n).setParent n l) t n r
      else
        /- rotate -/
        let h := (h.setRight n (h.left t)).setParentIf (h.left t) n
        let h := (((h.setLeft t n).setParent n t).setRight l t).setParent t l
        let l := t
        let n := h.right t
        if n = 0 then some (h.setLeft r 0)
        else insertLoop size fuel h n l r
    else
      let t := h.left n
      if t = 0 then
        some (((h.setLeft r n).setParent n r).setRight l 0)
      else if h.size t < size then
        insertLoop size fuel ((h.setLeft r n).setParent n r) t l n
      else
        /- rotate -/
        let h := (h.setLeft n (h.right t)).setParentIf (h.right t) n
        let h := (((h.setRight t n).setParent n t).setLeft r t).setParent t r
        let r := t
        let n := h.left t
        if n = 0 then some (h.setRight l 0)
        else insertLoop size fuel h n l r

/-- The function `insert`: insert a chunk in the splay tree. -/
def insert (fuel : Nat) (h : Heap) (c : Nat) : Option Heap :=
  let n := h.dtree
  let h := (h.setDtree c).setParent c 0
  if n = 0 then
    some ((h.setLeft c 0).setRight c 0)
  else
    match insertLoop (h.size c) fuel h n c c with
    | none => none
    | some h =>
      /- exchange left and right subtree -/
      let n := h.dtree
      let t := h.left n
      let h := h.setLeft n (h.right n)
      some (h.setRight n t)

/-- The statements `dtree = dummy.right; dtree->parent = NULL; return NULL;`
of `seek` (all chunks are too small). -/
def seekNone (dummy : Nat) (h : Heap) : Nat × Heap :=
  let h := h.setDtree (h.right dummy)
  (0, h.setParent h.dtree 0)

/-- The statements of `seek` that take `r` out of the right tree:
`if ((r->parent->left=r->right) != NULL) r->right->parent = r->parent;`. -/
def seekUnlink (h : Heap) (r : Nat) : Heap :=
  (h.setLeft (h.parent r) (h.right r)).setParentIf (h.right r) (h.parent r)

/-- The statements of `seek` after its loop: `n` becomes the root, with the
right tree `dummy.left` and the left tree `dummy.right` below it. -/
def seekFinish (dummy : Nat) (h : Heap) (n : Nat) : Nat × Heap :=
  let h := h.setParent n 0
  let h := (h.setRight n (h.left dummy)).setParentIf (h.left dummy) n
  let h := (h.setLeft n (h.right dummy)).setParentIf (h.right dummy) n
  (n, h.setDtree n)

/-- The loop `for (;;)` of `seek`, with the locals `n`, `l`, `r`; `dummy` is
the address of the local variable of that name. The result is the value
`seek` returns and the memory then. -/
def seekLoop (dummy size : Nat) : Nat → Heap → Nat → Nat → Nat → Option (Nat × Heap)
  | 0, _, _, _, _ => none
  | fuel + 1, h, n, l, r =>
    if h.size n < size then
      let t := h.right n
      if t = 0 then
        let h := (h.setRight l n).setParent n l
        if r = dummy then some (seekNone dummy h)
        else some (seekFinish dummy (seekUnlink h r) r)
      else if h.size t ≥ size then
        seekLoop dummy size fuel ((h.setRight l n).setParent n l) t n r
      else
        /- rotate -/
        let h := (h.setRight n (h.left t)).setParentIf (h.left t) n
        let h := (((h.setLeft t n).setParent n t).setRight l t).setParent t l
        let l := t
        let n := h.right t
        if n = 0 then
          if r = dummy then some (seekNone dummy h)
          else some (seekFinish dummy (seekUnlink h r) r)
        else seekLoop dummy size fuel h n l r
    else
      let t := h.left n
      if t = 0 then
        let h := (h.setLeft r (h.right n)).setParentIf (h.right n) r
        some (seekFinish dummy (h.setRight l 0) n)
      else if h.size t < size then
        seekLoop dummy size fuel ((h.setLeft r n).setParent n r) t l n
      else
        /- rotate -/
        let h := (h.setLeft n (h.right t)).setParentIf (h.right t) n
        if h.left t = 0 then
          some (seekFinish dummy (((h.setLeft r n).setParent n r).setRight l 0) t)
        else
          let h := (((h.setRight t n).setParent n t).setLeft r t).setParent t r
          seekLoop dummy size fuel h (h.left t) l t

/-- The function `seek`: find a chunk of the proper size in the splay tree.
Returns the chunk (0 for NULL) and the memory afterwards. -/
def seek (dummy fuel : Nat) (h : Heap) (size : Nat) : Option (Nat × Heap) :=
  if h.dtree = 0 then some (0, h)
  else seekLoop dummy size fuel h h.dtree dummy dummy

/-- The loop of `delete` that walks to the right in the left subtree. The
result is the memory and the final `t`. -/
def deleteLoop : Nat → Heap → Nat → Option (Heap × Nat)
  | 0, _, _ => none
  | fuel + 1, h, t =>
    let r := h.right t
    if r = 0 then some (h, t)
    else
      let h := (h.setRight t (h.left r)).setParentIf (h.left r) t
      deleteLoop fuel ((h.setLeft r t).setParent t r) r

/-- The function `delete`: delete a chunk from the splay tree. -/
def delete (fuel : Nat) (h : Heap) (c : Nat) : Option Heap :=
  let n := c
  let p := h.parent n
  if h.left n = 0 then
    /- there is no left subtree -/
    if p = 0 then
      let h := h.setDtree (h.right n)
      some (h.setParentIf h.dtree 0)
    else if n = h.left p then
      let h := h.setLeft p (h.right n)
      some (h.setParentIf (h.left p) p)
    else
      let h := h.setRight p (h.right n)
      some (h.setParentIf (h.right p) p)
  else
    match deleteLoop fuel h (h.left n) with
    | none => none
    | some (h, t) =>
      let h := if p = 0 then h.setDtree t
               else if n = h.left p then h.setLeft p t
               else h.setRight p t
      let h := h.setParent t p
      let h := h.setRight t (h.right n)
      some (h.setParentIf (h.right t) t)

/-! ## The splay tree as a tree: the shape the links of the memory describe -/

/-- A binary tree of node addresses. -/
inductive Tree where
  | nil
  | node (l : Tree) (a : Nat) (r : Tree)
  deriving DecidableEq

/-- The addresses of the nodes, in order (left subtree, node, right subtree). -/
def Tree.nodes : Tree → List Nat
  | .nil => []
  | .node l a r => l.nodes ++ a :: r.nodes

/-- The number of nodes. -/
def Tree.card : Tree → Nat
  | .nil => 0
  | .node l _ r => l.card + 1 + r.card

/-- The address of the root, 0 for the empty tree. -/
def Tree.root : Tree → Nat
  | .nil => 0
  | .node _ a _ => a

/-- `Repr h par p t`: in the memory `h` the pointer `p` is the root of a tree
of shape `t`, whose root has the parent link `par` and whose other nodes have
the parent links of their position. -/
def Repr (h : Heap) : Nat → Nat → Tree → Prop
  | _, p, .nil => p = 0
  | par, p, .node l a r =>
    p = a ∧ a ≠ 0 ∧ h.parent a = par ∧ Repr h a (h.left a) l ∧ Repr h a (h.right a) r

instance Repr.instDecidable (h : Heap) : ∀ par p t, Decidable (Repr h par p t)
  | _, p, .nil => inferInstanceAs (Decidable (p = 0))
  | par, p, .node l a r =>
    have := Repr.instDecidable h a (h.left a) l
    have := Repr.instDecidable h a (h.right a) r
    inferInstanceAs (Decidable (p = a ∧ a ≠ 0 ∧ h.parent a = par
      ∧ Repr h a (h.left a) l ∧ Repr h a (h.right a) r))

/-- The splay tree of the memory `h` has the shape `t`: `dtree` is its root,
the root has no parent, and no node occurs twice. -/
def IsTree (h : Heap) (t : Tree) : Prop :=
  Repr h 0 h.dtree t ∧ t.nodes.Nodup

/-- The search order of the splay tree: every size in the left subtree of a
node is at most the size of the node, which is at most every size in its
right subtree. -/
def Ordered (sz : Nat → Nat) : Tree → Prop
  | .nil => True
  | .node l a r =>
    (∀ x ∈ l.nodes, sz x ≤ sz a) ∧ (∀ x ∈ r.nodes, sz a ≤ sz x) ∧ Ordered sz l ∧ Ordered sz r

instance IsTree.instDecidable (h : Heap) (t : Tree) : Decidable (IsTree h t) :=
  inferInstanceAs (Decidable (Repr h 0 h.dtree t ∧ t.nodes.Nodup))

instance Ordered.instDecidable (sz : Nat → Nat) : ∀ t, Decidable (Ordered sz t)
  | .nil => inferInstanceAs (Decidable True)
  | .node l a r =>
    have := Ordered.instDecidable sz l
    have := Ordered.instDecidable sz r
    inferInstanceAs (Decidable ((∀ x ∈ l.nodes, sz x ≤ sz a) ∧ (∀ x ∈ r.nodes, sz a ≤ sz x)
      ∧ Ordered sz l ∧ Ordered sz r))

/-- Example: a memory with a splay tree of three free chunks, of the sizes 50
(at 100), 80 (at 200, the root) and 120 (at 300). -/
def exTreeHeap : Heap :=
  { size := fun a => if a = 100 then 50 else if a = 200 then 80 else if a = 300 then 120 else 0,
    next := fun _ => 0,
    parent := fun a => if a = 100 then 200 else if a = 300 then 200 else 0,
    left := fun a => if a = 200 then 100 else 0,
    right := fun a => if a = 200 then 300 else 0,
    dtree := 200 }

/-- Example: the shape of the tree of `exTreeHeap`. -/
def exTree : Tree := .node (.node .nil 100 .nil) 200 (.node .nil 300 .nil)

/-- The left tree a top-down splay assembles, innermost frame first: a frame
`(A, a)` is the node `a` with the left subtree `A`; its right child is the
next inner frame. `plugL L hole` is the tree with `hole` below the innermost
frame. -/
def plugL : List (Tree × Nat) → Tree → Tree
  | [], hole => hole
  | (A, a) :: L, hole => plugL L (.node A a hole)

/-- The right tree a top-down splay assembles, innermost frame first: a frame
`(a, B)` is the node `a` with the right subtree `B`; its left child is the
next inner frame. -/
def plugR : List (Nat × Tree) → Tree → Tree
  | [], hole => hole
  | (a, B) :: R, hole => plugR R (.node hole a B)

/-- The nodes of the frames of a left tree. -/
def nodesL : List (Tree × Nat) → List Nat
  | [] => []
  | (A, a) :: L => A.nodes ++ a :: nodesL L

/-- The nodes of the frames of a right tree. -/
def nodesR : List (Nat × Tree) → List Nat
  | [] => []
  | (a, B) :: R => a :: B.nodes ++ nodesR R

/-- The innermost node of a left tree: the node the local `l` points to (`d`,
the dummy, when the left tree is empty). -/
def topL (d : Nat) : List (Tree × Nat) → Nat
  | [] => d
  | (_, a) :: _ => a

/-- The innermost node of a right tree: the node the local `r` points to. -/
def topR (d : Nat) : List (Nat × Tree) → Nat
  | [] => d
  | (a, _) :: _ => a

/-- The memory holds the left tree `L` below the right link of `d`: every
frame is linked from the right link of the frame outside it. The right link
of the innermost node is not constrained. -/
def LSpine (h : Heap) (d : Nat) : List (Tree × Nat) → Prop
  | [] => True
  | (A, a) :: L =>
    a ≠ 0 ∧ Repr h a (h.left a) A ∧ h.right (topL d L) = a ∧ h.parent a = topL d L
      ∧ LSpine h d L

/-- The memory holds the right tree `R` below the left link of `d`. -/
def RSpine (h : Heap) (d : Nat) : List (Nat × Tree) → Prop
  | [] => True
  | (a, B) :: R =>
    a ≠ 0 ∧ Repr h a (h.right a) B ∧ h.left (topR d R) = a ∧ h.parent a = topR d R
      ∧ RSpine h d R

/-- The invariant of the loops of `seek` and `insert`: the memory holds the
left tree `L` and the right tree `R` below the links of `d` (the dummy of
`seek`, the new node of `insert`), the subtree `t` at `n`, and these share no
node. -/
def SplayInv (h : Heap) (d : Nat) (t : Tree) (L : List (Tree × Nat)) (R : List (Nat × Tree))
    (n : Nat) : Prop :=
  d ≠ 0 ∧ LSpine h d L ∧ RSpine h d R ∧ (∃ par, Repr h par n t)
    ∧ (d :: (nodesL L ++ (nodesR R ++ t.nodes))).Nodup

/-- What `seek` returns and the tree it leaves when the search has run off
the right end of the tree: NULL and the left tree when the right tree is
empty, and otherwise the innermost node of the right tree, taken out of it
and made the root. -/
def seekEnd (L : List (Tree × Nat)) : List (Nat × Tree) → Nat × Tree
  | [] => (0, plugL L .nil)
  | (r, B) :: R => (r, .node (plugL L .nil) r (plugR R B))

/-- The loop of `seek` on the shape of the tree: the first tree is the subtree
at `n`, `L` and `R` are the left and right trees assembled so far. The result
is the node returned (0 for NULL) and the tree afterwards. -/
def seekA (sz : Nat → Nat) (size : Nat) :
    Tree → List (Tree × Nat) → List (Nat × Tree) → Nat × Tree
  | .nil, _, _ => (0, .nil)
  | .node A a B, L, R =>
    if sz a < size then
      match B with
      | .nil => seekEnd ((A, a) :: L) R
      | .node B1 b B2 =>
        if sz b ≥ size then seekA sz size (.node B1 b B2) ((A, a) :: L) R
        else
          match B2 with
          | .nil => seekEnd ((.node A a B1, b) :: L) R
          | .node C1 c C2 => seekA sz size (.node C1 c C2) ((.node A a B1, b) :: L) R
    else
      match A with
      | .nil => (a, .node (plugL L .nil) a (plugR R B))
      | .node A1 t A2 =>
        if sz t < size then seekA sz size (.node A1 t A2) L ((a, B) :: R)
        else
          match A1 with
          | .nil => (t, .node (plugL L .nil) t (plugR R (.node A2 a B)))
          | .node C1 c C2 => seekA sz size (.node C1 c C2) L ((t, .node A2 a B) :: R)

/-- The loop of `insert` on the shape of the tree: the first tree is the
subtree at `n`, `L` and `R` are the left and right trees assembled so far
below the new node. The result is the pair of the finished left tree (the
nodes smaller than the new one) and right tree. -/
def insertA (sz : Nat → Nat) (size : Nat) :
    Tree → List (Tree × Nat) → List (Nat × Tree) → Tree × Tree
  | .nil, L, R => (plugL L .nil, plugR R .nil)
  | .node A a B, L, R =>
    if sz a < size then
      match B with
      | .nil => (plugL ((A, a) :: L) .nil, plugR R .nil)
      | .node B1 b B2 =>
        if sz b ≥ size then insertA sz size (.node B1 b B2) ((A, a) :: L) R
        else
          match B2 with
          | .nil => (plugL ((.node A a B1, b) :: L) .nil, plugR R .nil)
          | .node C1 c C2 => insertA sz size (.node C1 c C2) ((.node A a B1, b) :: L) R
    else
      match A with
      | .nil => (plugL L .nil, plugR ((a, B) :: R) .nil)
      | .node A1 t A2 =>
        if sz t < size then insertA sz size (.node A1 t A2) L ((a, B) :: R)
        else
          match A1 with
          | .nil => (plugL L .nil, plugR ((t, .node A2 a B) :: R) .nil)
          | .node C1 c C2 => insertA sz size (.node C1 c C2) L ((t, .node A2 a B) :: R)

/-- The tree after `insert(c)`: the new node is the root over the two trees
the loop has assembled. -/
def insertT (sz : Nat → Nat) (c : Nat) (t : Tree) : Tree :=
  .node (insertA sz (sz c) t [] []).1 c (insertA sz (sz c) t [] []).2

/-- The loop of `delete` on the shape of the tree: the walk to the right in
the subtree that has the node `t` at its root, with the left subtree `X` and
the right subtree `Y`. Every step rotates the right child above `t`. The
result is the last node, which has no right child, and its left subtree. -/
def rotUp : Tree → Nat → Tree → Tree × Nat
  | X, t, .nil => (X, t)
  | X, t, .node Y1 r Y2 => rotUp (.node X t Y1) r Y2

/-- The subtree `delete` puts in the place of a node with the subtrees `l`
and `r`: `r` when there is no left subtree, and otherwise the largest node of
`l`, rotated to the top of `l`, with `r` as its right subtree. -/
def joinA : Tree → Tree → Tree
  | .nil, r => r
  | .node X t Y, r => .node (rotUp X t Y).1 (rotUp X t Y).2 r

/-- The subtree that has the node `c` at its root. -/
def Tree.subtreeAt : Tree → Nat → Tree
  | .nil, _ => .nil
  | .node l a r, c =>
    if a = c then .node l a r else if c ∈ l.nodes then l.subtreeAt c else r.subtreeAt c

/-- The tree with the subtree at the node `c` replaced by `S`. -/
def Tree.replaceAt : Tree → Nat → Tree → Tree
  | .nil, _, _ => .nil
  | .node l a r, c, S => if a = c then S else .node (l.replaceAt c S) a (r.replaceAt c S)

/-- The left subtree of the root. -/
def Tree.leftSub : Tree → Tree
  | .nil => .nil
  | .node l _ _ => l

/-- The right subtree of the root. -/
def Tree.rightSub : Tree → Tree
  | .nil => .nil
  | .node _ _ r => r

/-- The tree after `delete(c)`. -/
def deleteT (T : Tree) (c : Nat) : Tree :=
  T.replaceAt c (joinA (T.subtreeAt c).leftSub (T.subtreeAt c).rightSub)

/-! ## alloc.c: the allocator state -/

/-- The static variables of `alloc.c` together with the memory. `brk` and
`memlimit` stand for the C library: `malloc` hands out the addresses from
`brk` on and fails beyond `memlimit`; `dlist` is the list of dynamic blocks,
each linked to the next through its first word. -/
structure Alloc extends Heap where
  brk : Nat
  memlimit : Nat
  schunk : Nat
  schunksz : Nat
  schunks : Nat → Nat
  lchunks : Nat → Clist
  nlc : Nat
  slist : Nat
  slevel : Int
  smemsize : Int
  dchunksz : Nat
  dlist : List Nat
  dchunks : Nat → Nat
  dchunk : Nat
  dmemsize : Int
  dmemused : Int

/-- Outcome of a function of the allocator: a normal return with a value, a
call of `fatal` with its message and the state at that moment, or a loop
that ran out of fuel. -/
inductive Res (α : Type) where
  | ok (a : α) (st : Alloc)
  | fatal (msg : String) (st : Alloc)
  | nofuel

/-- Writes one `long` word. -/
def Alloc.wr (st : Alloc) (a v : Nat) : Alloc := { st with toHeap := st.toHeap.setSize a v }

/-- Writes the `next` field of a chunk. -/
def Alloc.wrNext (st : Alloc) (a v : Nat) : Alloc := { st with toHeap := st.toHeap.setNext a v }

/-- The function `newmem`: allocate new memory. -/
def newmem (st : Alloc) (size : Nat) : Res Nat :=
  if st.memlimit < st.brk + size then .fatal "out of memory" st
  else .ok st.brk { st with brk := st.brk + size }

/-! ## alloc.c: static memory manager -/

/-- The binary search of `lchunk` over `lchunks[l .. h)`. The result is
`(true, m)` when the size is found at index `m` and `(false, m)` with the
final value of `m` otherwise. The interval shrinks at every iteration, so
`nlc` rounds of fuel are enough. -/
def lchunkSearch (lchunks : Nat → Clist) (size : Nat) : Nat → Nat → Nat → Nat → Bool × Nat
  | 0, _, _, m => (false, m)
  | fuel + 1, l, h, m =>
    if l < h then
      let m := (l + h) >>> 1
      if (lchunks m).size = size then (true, m)
      else if (lchunks m).size > size then lchunkSearch lchunks size fuel l m m
      else lchunkSearch lchunks size fuel (m + 1) h (m + 1)
    else (false, m)

/-- The loop `for (l = nlc++; l > m; --l) lchunks[l] = lchunks[l - 1];`. -/
def lchunkShift (m : Nat) : Nat → (Nat → Clist) → (Nat → Clist)
  | 0, lchunks => lchunks
  | l + 1, lchunks =>
    if l + 1 > m then lchunkShift m l (Function.update lchunks (l + 1) (lchunks l))
    else lchunks

/-- The function `lchunk`: get the address of a list of large chunks. The
address `&lchunks[m].list` is the index `m`; `none` is NULL. -/
def lchunk (st : Alloc) (size : Nat) (new : Bool) : Res (Option Nat) :=
  match lchunkSearch st.lchunks size st.nlc 0 st.nlc 0 with
  | (true, m) => .ok (some m) st
  | (false, m) =>
    if !new then .ok none st
    else if st.nlc = LCHUNKS then .fatal "too many different large static chunks" st
    else
      let lc := lchunkShift m st.nlc st.lchunks
      .ok (some m) { st with nlc := st.nlc + 1,
                             lchunks := Function.update lc m { size := size, list := 0 } }

/-- The statement `*lc = v` for a list address returned by `lchunk`. -/
def Alloc.setLlist (st : Alloc) (m v : Nat) : Alloc :=
  { st with lchunks := Function.update st.lchunks m { st.lchunks m with list := v } }

/-- The statement `schunks[i] = v`. -/
def Alloc.setSchunks (st : Alloc) (i v : Nat) : Alloc :=
  { st with schunks := Function.update st.schunks i v }

/-- The last part of `salloc`: "try current chunk" and "allocate static
memory directly". -/
def sallocCurrent (C : Config) (st : Alloc) (size : Nat) : Res Nat :=
  let r : Res Unit :=
    if st.schunk = 0 ∨ (st.size st.schunk < size ∧ st.schunksz ≠ 0) then
      /- allocate default static memory block -/
      let st := if st.schunk ≠ 0 then
          { st.wrNext st.schunk st.slist with slist := st.schunk }
        else st
      match newmem st INIT_MEM with
      | .ok p st => .ok () { st.wr p INIT_MEM with schunk := p, smemsize := st.smemsize + INIT_MEM }
      | .fatal msg st => .fatal msg st
      | .nofuel => .nofuel
    else .ok () st
  match r with
  | .fatal msg st => .fatal msg st
  | .nofuel => .nofuel
  | .ok _ st =>
    if st.size st.schunk ≥ size then
      if st.size st.schunk - size ≤ C.OFFSET then
        /- remainder is too small -/
        .ok st.schunk { st with schunk := 0 }
      else
        let c := st.schunk
        let st := { st with schunk := st.schunk + size }
        let st := st.wr st.schunk (st.size c - size)
        let st :=
          if st.size st.schunk ≤ C.SSMALL then
            /- small chunk -/
            let i := chunkIndex C (st.size st.schunk)
            let st := st.wrNext st.schunk (st.schunks i)
            { st.setSchunks i st.schunk with schunk := 0 }
          else st
        .ok c (st.wr c size)
    else
      /- allocate static memory directly -/
      match newmem st size with
      | .ok c st => .ok c { st.wr c size with smemsize := st.smemsize + size }
      | .fatal msg st => .fatal msg st
      | .nofuel => .nofuel

/-- The middle part of `salloc`: "try unused chunk list", then the rest. -/
def sallocUnused (C : Config) (st : Alloc) (size : Nat) : Res Nat :=
  if st.slist ≠ 0 ∧ st.size st.slist ≥ size then
    if st.size st.slist - size ≤ C.OFFSET then
      /- remainder is too small to put in free list -/
      .ok st.slist { st with slist := st.next st.slist }
    else
      /- split the chunk in two -/
      let c := st.slist
      let n := st.slist + size
      let st := st.wr n (st.size c - size)
      let st :=
        if st.size n ≤ C.SSMALL then
          /- small chunk -/
          let i := chunkIndex C (st.size n)
          let st := st.wrNext n (st.schunks i)
          { st.setSchunks i n with slist := st.next c }
        else
          /- large enough chunk -/
          { st.wrNext n (st.next c) with slist := n }
      .ok c (st.wr c size)
  else sallocCurrent C st size

/-- The function `salloc`: allocate static memory. -/
def salloc (C : Config) (st : Alloc) (size : Nat) : Res Nat :=
  /- try lists of free chunks -/
  if size ≥ C.SLIMIT then
    match lchunk st size false with
    | .ok (some lc) st =>
      if (st.lchunks lc).list ≠ 0 then
        /- large chunk -/
        let c := (st.lchunks lc).list
        .ok c (st.setLlist lc (st.next c))
      else sallocUnused C st size
    | .ok none st => sallocUnused C st size
    | .fatal msg st => .fatal msg st
    | .nofuel => .nofuel
  else
    let c := st.schunks (chunkIndex C size)
    if c ≠ 0 then
      /- small chunk -/
      .ok c (st.setSchunks (chunkIndex C size) (st.next c))
    else sallocUnused C st size

/-- The function `sfree`: free static memory. -/
def sfree (C : Config) (st : Alloc) (c : Nat) : Res Unit :=
  if st.size c < C.SLIMIT then
    /- small chunk -/
    let i := chunkIndex C (st.size c)
    let st := st.wrNext c (st.schunks i)
    .ok () (st.setSchunks i c)
  else
    /- large chunk -/
    match lchunk st (st.size c % UINT_MOD) true with
    | .ok (some lc) st =>
      let st := st.wrNext c (st.lchunks lc).list
      .ok () (st.setLlist lc c)
    | .ok none st => .ok () st
    | .fatal msg st => .fatal msg st
    | .nofuel => .nofuel

/-- The function `mstatic`: enter static mode. -/
def mstatic (st : Alloc) : Alloc := { st with slevel := st.slevel + 1 }

/-- The function `mdynamic`: reenter dynamic mode. -/
def mdynamic (st : Alloc) : Alloc := { st with slevel := st.slevel - 1 }

/-! ## alloc.c: dynamic memory manager -/

/-- The statement `dchunks[i] = v`. -/
def Alloc.setDchunks (st : Alloc) (i v : Nat) : Alloc :=
  { st with dchunks := Function.update st.dchunks i v }

/-- Runs a function of the splay tree on the memory of the state. -/
def Alloc.onHeap (st : Alloc) (r : Option Heap) : Res Unit :=
  match r with
  | none => .nofuel
  | some h => .ok () { st with toHeap := h }

/-- The last part of `dalloc`, after a chunk `c` has been taken from the tree
or from a new block: "split block, put second part in free list". -/
def dallocSplit (C : Config) (fuel : Nat) (st : Alloc) (c size : Nat) : Res Nat :=
  let sz := ((st.size c + UINT_MOD - size) % UINT_MOD)
  if sz ≥ C.DLIMIT + C.sizeofLong then
    let st := st.wr c size
    let p := c + size - C.sizeofLong
    let st := st.wr p size
    let p := p + C.sizeofLong
    let st := st.wr p sz
    let st := st.wr (p + sz - C.sizeofLong) sz
    match st.onHeap (insert fuel st.toHeap p) with
    | .ok _ st => .ok c st
    | .fatal msg st => .fatal msg st
    | .nofuel => .nofuel
  else .ok c st

/-- The large-chunk part of `dalloc` (from `size += sizeof(long)` on). -/
def dallocLarge (C : Config) (dummy fuel : Nat) (st : Alloc) (size : Nat) : Res Nat :=
  let size := (size + C.sizeofLong) % UINT_MOD
  match seek dummy fuel st.toHeap size with
  | none => .nofuel
  | some (c, h) =>
    let st := { st with toHeap := h }
    if c ≠ 0 then
      /- remove from free list -/
      match st.onHeap (delete fuel st.toHeap c) with
      | .ok _ st => dallocSplit C fuel st c size
      | .fatal msg st => .fatal msg st
      | .nofuel => .nofuel
    else
      /- get new dynamic chunk -/
      match newmem st st.dchunksz with
      | .fatal msg st => .fatal msg st
      | .nofuel => .nofuel
      | .ok p st =>
        let st := { st with dmemsize := st.dmemsize + st.dchunksz, dlist := p :: st.dlist }
        let p := p + C.sizeofPtr
        /- no previous chunk -/
        let st := st.wr p 0
        let c := p + C.sizeofLong
        /- initialize chunk -/
        let st := st.wr c
          ((st.dchunksz + 2 * SIZE_MOD - 2 * C.sizeofLong - C.sizeofPtr) % SIZE_MOD)
        let p := p + st.size c
        let st := st.wr p (st.size c)
        /- no following chunk -/
        let p := p + C.sizeofLong
        let st := st.wr p 0
        /- `c->size < size` compares as `long`: a chunk size that wrapped
           around in the `size_t` subtraction above is negative -/
        if (st.dchunksz : Int) - 2 * C.sizeofLong - C.sizeofPtr < (size : Int) then
          .fatal "too small dynamic_chunk" st
        else dallocSplit C fuel st c size

/-- The function `dalloc`: allocate dynamic memory. The fuel bounds the loops
of the splay tree and the depth of the call of `dalloc` by itself. -/
def dalloc (C : Config) (dummy : Nat) : Nat → Alloc → Nat → Res Nat
  | 0, _, _ => .nofuel
  | fuel + 1, st, size =>
    if st.dchunksz = 0 then
      /- memory manager hasn't been initialized yet -/
      match newmem st size with
      | .ok c st => .ok c (st.wr c size)
      | .fatal msg st => .fatal msg st
      | .nofuel => .nofuel
    else if size < C.DLIMIT then
      /- small chunk -/
      let c := st.dchunks (chunkIndex C size)
      if c ≠ 0 then
        /- small chunk from free list -/
        .ok c (st.setDchunks (chunkIndex C size) (st.next c))
      else
        let r : Res Unit :=
          if st.dchunk = 0 then
            /- get new chunks chunk -/
            match dalloc C dummy fuel st DCHUNKSZ with
            | .ok d st =>
              let st := { st with dchunk := d }
              let p := st.dchunk + ALIGN C.sizeofLong C.STRUCT_AL
              let st := st.wr p ((st.size st.dchunk + 2 * SIZE_MOD
                          - ALIGN C.sizeofLong C.STRUCT_AL - C.sizeofLong) % SIZE_MOD)
              let st := st.wr st.dchunk (st.size st.dchunk ||| DM_MAGIC)
              .ok () { st with dchunk := p }
            | .fatal msg st => .fatal msg st
            | .nofuel => .nofuel
          else .ok () st
        match r with
        | .fatal msg st => .fatal msg st
        | .nofuel => .nofuel
        | .ok _ st =>
          let sz := (st.size st.dchunk + UINT_MOD - size) % UINT_MOD
          let c := st.dchunk
          let st := st.wr c size
          if sz ≥ C.DLIMIT - C.STRUCT_AL then
            /- enough is left for another small chunk -/
            let st := { st with dchunk := c + size }
            .ok c (st.wr st.dchunk sz)
          else .ok c { st with dchunk := 0 }
    else dallocLarge C dummy fuel st size

/-- The statements of `dfree` under "merge with previous block", with the
test before them: `p` is the word before the chunk, the size of the previous
chunk unless it is 0. The result is the chunk `c` of `dfree` after them. -/
def dfreePrev (C : Config) (fuel : Nat) (st : Alloc) (c : Nat) : Res Nat :=
  let p := c - C.sizeofLong
  if st.size p ≠ 0 then
    let p := p + C.sizeofLong - st.size p
    if st.size p &&& MAGIC_MASK = 0 then
      /- merge with previous block -/
      match st.onHeap (delete fuel st.toHeap p) with
      | .ok _ st =>
        let st := st.wr p (st.size p + st.size c)
        let c := p
        .ok c (st.wr (p + st.size c - C.sizeofLong) (st.size c))
      | .fatal msg st => .fatal msg st
      | .nofuel => .nofuel
    else .ok c st
  else .ok c st

/-- The statements of `dfree` under "merge with next block", with the test
before them. -/
def dfreeNext (C : Config) (fuel : Nat) (st : Alloc) (c : Nat) : Res Unit :=
  let p := c + st.size c
  if st.size p ≠ 0 ∧ st.size p &&& MAGIC_MASK = 0 then
    /- merge with next block -/
    match st.onHeap (delete fuel st.toHeap p) with
    | .ok _ st =>
      let st := st.wr c (st.size c + st.size p)
      .ok () (st.wr (c + st.size c - C.sizeofLong) (st.size c))
    | .fatal msg st => .fatal msg st
    | .nofuel => .nofuel
  else .ok () st

/-- The function `dfree`: free dynamic memory. -/
def dfree (C : Config) (fuel : Nat) (st : Alloc) (c : Nat) : Res Unit :=
  if st.dchunksz = 0 then
    /- memory manager not yet initialized: free((char *) c) -/
    .ok () st
  else if st.size c < C.DLIMIT then
    /- small chunk -/
    let i := chunkIndex C (st.size c)
    let st := st.wrNext c (st.dchunks i)
    .ok () (st.setDchunks i c)
  else
    match dfreePrev C fuel st c with
    | .fatal msg st => .fatal msg st
    | .nofuel => .nofuel
    | .ok c st =>
      match dfreeNext C fuel st c with
      | .fatal msg st => .fatal msg st
      | .nofuel => .nofuel
      | .ok _ st => st.onHeap (insert fuel st.toHeap c)

/-! ## The chunks of a block of the dynamic pool

`dalloc` lays a new block out as one chunk between a word 0 ("no previous
chunk") and a header 0 ("no following chunk"), and splits chunks in two; every
chunk has its size in its first word, with the magic tag of `alloc` while it
is in use, and in its last word. -/

/-- One chunk of a block: the chunk at `x` of `s` bytes. Its header is not 0,
its last word holds `s`, and a header without a magic tag holds `s` too. -/
def ChunkAt (sz : Nat → Nat) (SL x s : Nat) : Prop :=
  SL ≤ s ∧ sz x ≠ 0 ∧ sz (x + s - SL) = s ∧ (sz x &&& MAGIC_MASK = 0 → sz x = s)

instance ChunkAt.instDecidable (sz : Nat → Nat) (SL x s : Nat) : Decidable (ChunkAt sz SL x s) :=
  inferInstanceAs (Decidable (SL ≤ s ∧ sz x ≠ 0 ∧ sz (x + s - SL) = s
    ∧ (sz x &&& MAGIC_MASK = 0 → sz x = s)))

/-- Chunks that follow each other in the memory from the address `a` up to
the address `b`, each given as its address and its size. -/
def Seg (sz : Nat → Nat) (SL : Nat) : Nat → List (Nat × Nat) → Nat → Prop
  | a, [], b => a = b
  | a, p :: rest, b => p.1 = a ∧ ChunkAt sz SL p.1 p.2 ∧ Seg sz SL (a + p.2) rest b

instance Seg.instDecidable (sz : Nat → Nat) (SL : Nat) :
    ∀ (a : Nat) (l : List (Nat × Nat)) (b : Nat), Decidable (Seg sz SL a l b)
  | a, [], b => inferInstanceAs (Decidable (a = b))
  | a, p :: rest, b =>
    have := Seg.instDecidable sz SL (a + p.2) rest b
    inferInstanceAs (Decidable (p.1 = a ∧ ChunkAt sz SL p.1 p.2 ∧ Seg sz SL (a + p.2) rest b))

/-- A block of the dynamic pool: the chunks `blk` from `a` to `b`, with the
word 0 before the first chunk and the header 0 after the last. -/
def Block (sz : Nat → Nat) (SL a : Nat) (blk : List (Nat × Nat)) (b : Nat) : Prop :=
  SL ≤ a ∧ sz (a - SL) = 0 ∧ Seg sz SL a blk b ∧ sz b = 0

instance Block.instDecidable (sz : Nat → Nat) (SL a : Nat) (blk : List (Nat × Nat)) (b : Nat) :
    Decidable (Block sz SL a blk b) :=
  inferInstanceAs (Decidable (SL ≤ a ∧ sz (a - SL) = 0 ∧ Seg sz SL a blk b ∧ sz b = 0))

/-- No two chunks that follow each other in the block are both free. -/
def NoAdjacentFree (free : Nat → Prop) : List (Nat × Nat) → Prop
  | [] => True
  | [_] => True
  | p :: q :: rest => ¬ (free p.1 ∧ free q.1) ∧ NoAdjacentFree free (q :: rest)

instance NoAdjacentFree.instDecidable (free : Nat → Prop) [DecidablePred free] :
    ∀ (blk : List (Nat × Nat)), Decidable (NoAdjacentFree free blk)
  | [] => isTrue trivial
  | [_] => isTrue trivial
  | p :: q :: rest =>
    have := NoAdjacentFree.instDecidable free (q :: rest)
    inferInstanceAs (Decidable (¬ (free p.1 ∧ free q.1) ∧ NoAdjacentFree free (q :: rest)))

/-- The chunk before the one released, when it is free (a node of the
tree): the last of the chunks `pre` before the one released. -/
def freePrev (T : Tree) (pre : List (Nat × Nat)) : List (Nat × Nat) :=
  pre.getLast?.toList.filter (fun p => decide (p.1 ∈ T.nodes))

/-- The chunk after the one released, when it is free (a node of the tree):
the first of the chunks `post` after the one released. -/
def freeNext (T : Tree) (post : List (Nat × Nat)) : List (Nat × Nat) :=
  post.head?.toList.filter (fun p => decide (p.1 ∈ T.nodes))

/-- The address of the merged chunk: that of the free chunk before `c`, or
`c` itself. -/
def mergedStart (mp : List (Nat × Nat)) (c : Nat) : Nat :=
  match mp with
  | [] => c
  | p :: _ => p.1

/-- What `dfree` has done when it has released the chunk `c` that stands in
a block between the chunks `pre` and `post`, from the state `st` with the
tree `T` to the state `st1` with the tree `T1`: the free chunks next to `c`
have left the tree and the merged chunk is its root, the size of the merged
chunk is the sum of the sizes of the chunks merged and stands in its first
and its last word, the block holds the merged chunk in their place, and when
no two chunks of the block that followed each other were free before, none
are afterwards. -/
def Coalesced (C : Config) (st st1 : Alloc) (T T1 : Tree) (c a b : Nat)
    (pre post : List (Nat × Nat)) : Prop :=
  let mp := freePrev T pre
  let mn := freeNext T post
  let c1 := mergedStart mp c
  let total := ((mp ++ (c, st.size c) :: mn).map Prod.snd).sum
  let blk := pre.rdrop mp.length ++ (c1, total) :: post.drop mn.length
  IsTree st1.toHeap T1 ∧ st1.dtree = c1
    ∧ (T1.nodes ++ (mp ++ mn).map Prod.fst).Perm (c1 :: T.nodes)
    ∧ st1.size c1 = total ∧ st1.size (c1 + total - C.sizeofLong) = total
    ∧ Block st1.size C.sizeofLong a blk b
    ∧ (NoAdjacentFree (fun x => x ∈ T.nodes) (pre ++ (c, st.size c) :: post) →
        NoAdjacentFree (fun x => x ∈ T1.nodes) blk)

/-! ## alloc.c: the interface -/

/-- The state before any call: every static variable is zero. -/
def Alloc.init (h : Heap) (brk memlimit : Nat) : Alloc :=
  { toHeap := { h with dtree := 0 }, brk := brk, memlimit := memlimit,
    schunk := 0, schunksz := 0, schunks := fun _ => 0,
    lchunks := fun _ => { size := 0, list := 0 }, nlc := 0, slist := 0, slevel := 0,
    smemsize := 0, dchunksz := 0, dlist := [], dchunks := fun _ => 0, dchunk := 0,
    dmemsize := 0, dmemused := 0 }

/-- The function `minit`: initialize memory manager. -/
def minit (st : Alloc) (ssz dsz : Nat) : Res Unit :=
  let st := { st with schunksz := ssz, dchunksz := dsz }
  let st := if st.schunk ≠ 0 then
      { st.wrNext st.schunk st.slist with slist := st.schunk }
    else st
  match newmem st ssz with
  | .ok p st => .ok () { st.wr p ssz with schunk := p, smemsize := st.smemsize + ssz }
  | .fatal msg st => .fatal msg st
  | .nofuel => .nofuel

/-- The chunk size `alloc` computes from the requested size (non-DEBUG
build): `ALIGN(size + OFFSET, STRUCT_AL)`, at least `sizeof(chunk)`. -/
def allocSize (C : Config) (size : Nat) : Nat :=
  let size := ALIGN (size + C.OFFSET) C.STRUCT_AL % UINT_MOD
  if size < C.OFFSET then C.OFFSET else size

/-- The function `alloc`: allocate memory (non-DEBUG build). -/
def alloc (C : Config) (dummy fuel : Nat) (st : Alloc) (size : Nat) : Res Nat :=
  let size := allocSize C size
  if st.slevel > 0 then
    match salloc C st size with
    | .ok c st => .ok (c + C.sizeofLong) (st.wr c (st.size c ||| SM_MAGIC))
    | .fatal msg st => .fatal msg st
    | .nofuel => .nofuel
  else
    match dalloc C dummy fuel st size with
    | .ok c st =>
      let st := { st with dmemused := st.dmemused + st.size c }
      .ok (c + C.sizeofLong) (st.wr c (st.size c ||| DM_MAGIC))
    | .fatal msg st => .fatal msg st
    | .nofuel => .nofuel

/-- The function `mfree`: free memory (non-DEBUG build). -/
def mfree (C : Config) (fuel : Nat) (st : Alloc) (mem : Nat) : Res Unit :=
  let c := mem - C.sizeofLong
  if st.size c &&& MAGIC_MASK = SM_MAGIC then
    let st := st.wr c (st.size c &&& SIZE_MASK)
    sfree C st c
  else if st.size c &&& MAGIC_MASK = DM_MAGIC then
    let st := st.wr c (st.size c &&& SIZE_MASK)
    let st := { st with dmemused := st.dmemused - st.size c }
    dfree C fuel st c
  else .fatal "bad pointer in mfree" st

/-- The function `mcheck`: is there enough static memory left. -/
def mcheck (st : Alloc) : Bool :=
  if st.schunk = 0 then false else decide (st.size st.schunk ≥ st.schunksz)

/-- The loop of `mpurge` that unlinks and frees every dynamic block; the
result is the final value of `dlist`. -/
def mpurgeLoop : List Nat → List Nat
  | [] => []
  | _ :: dlist => mpurgeLoop dlist

/-- The function `mpurge`: purge dynamic memory (non-DEBUG build). -/
def mpurge (C : Config) (st : Alloc) : Alloc :=
  let st := { st with dchunks := fun i => if i < C.DCHUNKS then 0 else st.dchunks i }
  let st := { st with dchunk := 0 }
  let st := { st with toHeap := st.toHeap.setDtree 0 }
  let st := { st with dlist := mpurgeLoop st.dlist }
  { st with dmemsize := 0, dmemused := 0 }

/-- The function `mexpand`: expand the static memory area. -/
def mexpand (st : Alloc) : Res Unit :=
  let st := if st.schunk ≠ 0 then
      { st.wrNext st.schunk st.slist with slist := st.schunk }
    else st
  match newmem st st.schunksz with
  | .ok p st =>
    let st := st.wr p st.schunksz
    .ok () { st with schunk := p, smemsize := st.smemsize + st.schunksz }
  | .fatal msg st => .fatal msg st
  | .nofuel => .nofuel

/-- The function `memsize`: the amount of memory allocated. -/
def memsize (st : Alloc) : Int := st.smemsize + st.dmemsize

/-- The function `memused`: the amount of memory used. -/
def memused (st : Alloc) : Int := st.smemsize + st.dmemused

/-- A call of `mstatic()` or of `mdynamic()`. -/
inductive ModeCall where
  | mstatic
  | mdynamic
  deriving DecidableEq

/-- The effect of one call on the state. -/
def ModeCall.run : ModeCall → Alloc → Alloc
  | .mstatic, st => Dgd.mstatic st
  | .mdynamic, st => Dgd.mdynamic st

/-- The effect of a sequence of calls of `mstatic()` and `mdynamic()`. -/
def runModes (calls : List ModeCall) (st : Alloc) : Alloc :=
  calls.foldl (fun st c => c.run st) st

/-- The state a call has left, or `d` when the call did not return. -/
def Res.state {α : Type} (r : Res α) (d : Alloc) : Alloc :=
  match r with
  | .ok _ st => st
  | _ => d

/-- The value a call has returned, or `d` when the call did not return. -/
def Res.value {α : Type} (r : Res α) (d : α) : α :=
  match r with
  | .ok a _ => a
  | _ => d

/-- A memory that holds 0 everywhere. -/
def zeroHeap : Heap :=
  { size := fun _ => 0, next := fun _ => 0, parent := fun _ => 0, left := fun _ => 0,
    right := fun _ => 0, dtree := 0 }

/-- Example: the initial state, with the C library handing out the
addresses 4096 .. 2^20. -/
def exInit : Alloc := Alloc.init zeroHeap 4096 (2 ^ 20)

/-- Example: the state after `minit(8192, 65536)`. -/
def exReady : Alloc := (minit exInit 8192 65536).state exInit

/-- Example: the state after `alloc(100)` in dynamic mode on `exReady`. -/
def exDynamic : Alloc := (alloc lp64 1 2 exReady 100).state exReady

/-- Example: the state after `mstatic(); alloc(100)` on `exReady`. -/
def exStatic : Alloc := (alloc lp64 1 2 (mstatic exReady) 100).state exReady

/-- Example: the state after `mfree` of the block of `exDynamic`. -/
def exDynamicFreed : Alloc := (mfree lp64 2 exDynamic 12312).state exInit

/-- Example: the state after `mfree` of the block of `exStatic`. -/
def exStaticFreed : Alloc := (mfree lp64 2 exStatic 4104).state exInit

/-- Example: the state after a second `alloc(100)` in dynamic mode, on
`exDynamic`: the chunk at 12428 follows the chunk at 12304, which is in use. -/
def exDynamicTwo : Alloc := (alloc lp64 1 2 exDynamic 100).state exDynamic

/-- Example: the state after `mfree` of the second block of `exDynamicTwo`. -/
def exDynamicTwoFreed : Alloc := (mfree lp64 2 exDynamicTwo 12436).state exInit

/-- Example: the state in which `mfree` calls `dfree` for the block of
`exDynamic`: the magic tag is gone from the header of the chunk at 12304. -/
def exDfreeArg : Alloc :=
  { exDynamic.wr 12304 124 with dmemused := exDynamic.dmemused - 124 }

/-- Example: the initial state, with the C library handing out the
addresses 4096 .. 2^26. -/
def exBigInit : Alloc := Alloc.init zeroHeap 4096 (2 ^ 26)

/-- Example: the state after `minit(8192, 1 << 25)`, with dynamic blocks of
32 MB. -/
def exBigReady : Alloc := (minit exBigInit 8192 (2 ^ 25)).state exBigInit

/-- Example: the state after `alloc(100)` in dynamic mode on `exBigReady`. -/
def exBigDynamic : Alloc := (alloc lp64 1 2 exBigReady 100).state exBigReady

/-- Example: the state in which `mfree` calls `dfree` for the block of
`exBigDynamic`. -/
def exBigDfreeArg : Alloc :=
  { exBigDynamic.wr 12304 124 with dmemused := exBigDynamic.dmemused - 124 }

/-! ## hash.cpp -/

/-- The table `Hashtab::tab[256]` (octal constants as in the source). -/
def tab : List Nat := [
    0o001, 0o127, 0o061, 0o014, 0o260, 0o262, 0o146, 0o246,
    0o171, 0o301, 0o006, 0o124, 0o371, 0o346, 0o054, 0o243,
    0o016, 0o305, 0o325, 0o265, 0o241, 0o125, 0o332, 0o120,
    0o100, 0o357, 0o030, 0o342, 0o354, 0o216, 0o046, 0o310,
    0o156, 0o261, 0o150, 0o147, 0o215, 0o375, 0o377, 0o062,
    0o115, 0o145, 0o121, 0o022, 0o055, 0o140, 0o037, 0o336,
    0o031, 0o153, 0o276, 0o106, 0o126, 0o355, 0o360, 0o042,
    0o110, 0o362, 0o024, 0o326, 0o364, 0o343, 0o225, 0o353,
    0o141, 0o352, 0o071, 0o026, 0o074, 0o372, 0o122, 0o257,
    0o320, 0o005, 0o177, 0o307, 0o157, 0o076, 0o207, 0o370,
    0o256, 0o251, 0o323, 0o072, 0o102, 0o232, 0o152, 0o303,
    0o365, 0o253, 0o021, 0o273, 0o266, 0o263, 0o000, 0o363,
    0o204, 0o070, 0o224, 0o113, 0o200, 0o205, 0o236, 0o144,
    0o202, 0o176, 0o133, 0o015, 0o231, 0o366, 0o330, 0o333,
    0o167, 0o104, 0o337, 0o116, 0o123, 0o130, 0o311, 0o143,
    0o172, 0o013, 0o134, 0o040, 0o210, 0o162, 0o064, 0o012,
    0o212, 0o036, 0o060, 0o267, 0o234, 0o043, 0o075, 0o032,
    0o217, 0o112, 0o373, 0o136, 0o201, 0o242, 0o077, 0o230,
    0o252, 0o007, 0o163, 0o247, 0o361, 0o316, 0o003, 0o226,
    0o067, 0o073, 0o227, 0o334, 0o132, 0o065, 0o027, 0o203,
    0o175, 0o255, 0o017, 0o356, 0o117, 0o137, 0o131, 0o020,
    0o151, 0o211, 0o341, 0o340, 0o331, 0o240, 0o045, 0o173,
    0o166, 0o111, 0o002, 0o235, 0o056, 0o164, 0o011, 0o221,
    0o206, 0o344, 0o317, 0o324, 0o312, 0o327, 0o105, 0o345,
    0o033, 0o274, 0o103, 0o174, 0o250, 0o374, 0o052, 0o004,
    0o035, 0o154, 0o025, 0o367, 0o023, 0o315, 0o047, 0o313,
    0o351, 0o050, 0o272, 0o223, 0o306, 0o300, 0o233, 0o041,
    0o244, 0o277, 0o142, 0o314, 0o245, 0o264, 0o165, 0o114,
    0o214, 0o044, 0o322, 0o254, 0o051, 0o066, 0o237, 0o010,
    0o271, 0o350, 0o161, 0o304, 0o347, 0o057, 0o222, 0o170,
    0o063, 0o101, 0o034, 0o220, 0o376, 0o335, 0o135, 0o275,
    0o302, 0o213, 0o160, 0o053, 0o107, 0o155, 0o270, 0o321
]

/-- The loop of `Hashtab::hashmem`: `mem` is the memory from the pointer on
(bytes past the end of the list read as 0), the result is the pair `(h, l)`. -/
def hashmemLoop : List Nat → Nat → Nat → Nat → Nat × Nat
  | _, 0, h, l => (h, l)
  | mem, len + 1, _, l =>
    hashmemLoop mem.tail len l (tab.getD (l ^^^ (mem.headD 0 % 256)) 0)

/-- The function `Hashtab::hashmem`: `(unsigned short) ((h << 8) | l)`. -/
def hashmem (mem : List Nat) (len : Nat) : Nat :=
  let hl := hashmemLoop mem len 0 0
  ((hl.1 <<< 8) ||| hl.2) % 65536

/-- The loop of `Hashtab::hashstr`: stops at a NUL character (the end of the
list reads as NUL) or when `len` reaches 0. -/
def hashstrLoop : List Nat → Nat → Nat → Nat → Nat × Nat
  | [], _, h, l => (h, l)
  | _ :: _, 0, h, l => (h, l)
  | c :: str, len + 1, h, l =>
    if c = 0 then (h, l)
    else hashstrLoop str len l (tab.getD (l ^^^ (c % 256)) 0)

/-- The function `Hashtab::hashstr`. -/
def hashstr (str : List Nat) (len : Nat) : Nat :=
  let hl := hashstrLoop str len 0 0
  ((hl.1 <<< 8) ||| hl.2) % 65536

/-- The length of a C string: the number of characters before the first NUL. -/
def strlen (s : List Nat) : Nat := (s.takeWhile (fun c => c != 0)).length

/-- The fold `P` of Pearson's hash: `P(empty) = 0`, `P(x c) = tab[P(x) xor c]`. -/
def pearson (b : List Nat) : Nat :=
  b.foldl (fun p c => tab.getD (p ^^^ c) 0) 0

/-- The test `memcmp(a, b, n) == 0`: the first `n` bytes agree. -/
def memcmpEq (a b : List Nat) (n : Nat) : Bool :=
  (List.range n).all fun i => a.getD i 0 % 256 == b.getD i 0 % 256

/-- The test `strcmp(a, b) == 0`: the characters before the first NUL agree. -/
def strcmpEq (a b : List Nat) : Bool :=
  a.takeWhile (fun c => c != 0) == b.takeWhile (fun c => c != 0)

/-- A value of type `Entry **`: the address of the head cell `m_table[i]` of
a bucket, or the address of the `next` field of the entry at `e`. -/
inductive Slot where
  | bucket (i : Nat)
  | next (e : Nat)
  deriving DecidableEq

/-- The class `HashtabImpl` with the entries it links: `m_table[i]` is the
head of bucket `i`; `next e` and `name e` are the fields of the `Entry` at
address `e` (`name e` is the memory its `name` pointer points to). -/
structure HashtabImpl where
  m_size : Nat
  m_maxlen : Nat
  m_mem : Bool
  m_table : Nat → Nat
  next : Nat → Nat
  name : Nat → List Nat

/-- The value `*e` of a slot. -/
def HashtabImpl.deref (ht : HashtabImpl) : Slot → Nat
  | .bucket i => ht.m_table i
  | .next e => ht.next e

/-- The statement `*e = v` for a slot. -/
def HashtabImpl.store (ht : HashtabImpl) (e : Slot) (v : Nat) : HashtabImpl :=
  match e with
  | .bucket i => { ht with m_table := Function.update ht.m_table i v }
  | .next a => { ht with next := Function.update ht.next a v }

/-- The statements of `HashtabImpl::lookup` under "move to first position",
for the slot `e` that holds the match and the head slot `first`. -/
def HashtabImpl.moveFirst (ht : HashtabImpl) (first e : Slot) : HashtabImpl :=
  let next := ht.next (ht.deref e)
  let ht := ht.store (.next (ht.deref e)) (ht.deref first)
  let ht := ht.store first (ht.deref e)
  ht.store e next

/-- The `while` loop of `HashtabImpl::lookup` (the two loops of the source
differ in the comparison only, which `m_mem` selects here). -/
def lookupLoop (name : List Nat) (move : Bool) (first : Slot) :
    Nat → HashtabImpl → Slot → Option (Slot × HashtabImpl)
  | 0, _, _ => none
  | fuel + 1, ht, e =>
    if ht.deref e = 0 then some (e, ht)
    else if (if ht.m_mem then memcmpEq (ht.name (ht.deref e)) name ht.m_maxlen
             else strcmpEq (ht.name (ht.deref e)) name) then
      if move && e != first then
        /- move to first position -/
        some (first, ht.moveFirst first e)
      else some (e, ht)
    else lookupLoop name move first fuel ht (.next (ht.deref e))

/-- The function `HashtabImpl::lookup`: lookup a name in a hashtable, return
the address of the entry or &NULL if none found. -/
def lookup (fuel : Nat) (ht : HashtabImpl) (name : List Nat) (move : Bool) :
    Option (Slot × HashtabImpl) :=
  if ht.m_mem then
    lookupLoop name move (.bucket (hashmem name ht.m_maxlen % ht.m_size)) fuel ht
      (.bucket (hashmem name ht.m_maxlen % ht.m_size))
  else
    lookupLoop name move (.bucket (hashstr name ht.m_maxlen % ht.m_size)) fuel ht
      (.bucket (hashstr name ht.m_maxlen % ht.m_size))

/-- The comparison `lookup` makes between the name of the entry at `e` and the
key: `memcmp` over `m_maxlen` bytes in memory mode, `strcmp` otherwise. -/
def HashtabImpl.nameMatches (ht : HashtabImpl) (name : List Nat) (e : Nat) : Bool :=
  if ht.m_mem then memcmpEq (ht.name e) name ht.m_maxlen else strcmpEq (ht.name e) name

/-- The index of the bucket `lookup` selects for a key. -/
def HashtabImpl.bucketOf (ht : HashtabImpl) (name : List Nat) : Nat :=
  (if ht.m_mem then hashmem name ht.m_maxlen else hashstr name ht.m_maxlen) % ht.m_size

/-- The chain that starts at the pointer `p`: following `next` from `p` visits
the entries `es`, in this order, and then reaches NULL. -/
def Chain (next : Nat → Nat) : Nat → List Nat → Prop
  | p, [] => p = 0
  | p, e :: es => p = e ∧ e ≠ 0 ∧ Chain next (next e) es

instance Chain.instDecidable (next : Nat → Nat) : ∀ p es, Decidable (Chain next p es)
  | p, [] => inferInstanceAs (Decidable (p = 0))
  | p, e :: es =>
    have := Chain.instDecidable next (next e) es
    inferInstanceAs (Decidable (p = e ∧ e ≠ 0 ∧ Chain next (next e) es))

/-- The slot that holds position `k` of the chain `es` hanging from the slot
`first`: `first` itself for `k = 0`, the `next` field of entry `k - 1`
otherwise. -/
def slotAt (first : Slot) (es : List Nat) : Nat → Slot
  | 0 => first
  | k + 1 => .next (es.getD k 0)

/-- A table of 4 buckets in memory mode with two entries, at the addresses
10 and 20, chained in bucket 1. -/
def exampleTable : HashtabImpl :=
  { m_size := 4, m_maxlen := 2, m_mem := true,
    m_table := fun i => if i = 1 then 10 else 0,
    next := fun e => if e = 10 then 20 else 0,
    name := fun e => if e = 10 then [1, 2] else if e = 20 then [3, 4] else [] }

/-- Modelled from the spec: the type tags `T_NIL`, `T_INT`, ... of a `Value`
of `interpret.h`, one for each variant of the table of the data model. -/
inductive VType where
  | nil
  | int
  | float
  | string
  | object
  | array
  | mapping
  | lwobject
  | lvalue
  deriving DecidableEq

/-- Modelled from the spec: the struct `Value` of `interpret.h`, a tag and a
payload: the fields `type`, `modified`, `oindex` (the object index of an
Object) and the union `u`: the number of an Int, the generation count
`u.objcnt` of an Object, the handle `u.string` of a String and the handle
`u.array` of an Array, a Mapping or an LWObject. -/
structure Value where
  type : VType
  modified : Bool
  oindex : Nat
  u : Nat
  deriving DecidableEq

/-- Modelled from the spec: the struct `Frame` of `interpret.h`, with the
fields the functions below use; `funcAtomic` is the test
`f->func->sclass & C_ATOMIC`, `oindex` the index of the object the frame
runs in and `lwobj` the handle of its lightweight object, or 0. -/
structure Frame where
  prev : Nat
  sp : Nat
  fp : Nat
  stack : Nat
  sos : Bool
  atomic : Bool
  funcAtomic : Bool
  nargs : Nat
  level : Nat
  depth : Int
  rlim : Nat
  oindex : Nat := 0
  lwobj : Nat := 0
  deriving DecidableEq

/-- Modelled from the spec: the struct `rlinfo` of `interpret.h`, a scope of
resource limits ("max depth (or unlimited), remaining ticks (or unlimited),
previous-scope back-pointer"). -/
structure Rlinfo where
  maxdepth : Int
  ticks : Int
  nodepth : Bool
  noticks : Bool
  next : Nat

/-- The memory the functions of `interpret.cpp` below work on: the flag
`stricttc`, the address `stack0` of the static array `stack`, the values, the
frames and the scopes by address, the reference counts of the strings and of
the arrays by handle, the first element of each array (`d_get_elts(a)[0]`,
which is `a->elts[0]` where the source reads the field itself), the
generation count `OBJR(i)->count` of each object, the addresses handed to
`FREE` and `AFREE`, the last one first, the variable `cframe`, the
elements `a->elts[i]` and the size of each array (`elt0` is kept equal to the
element 0 where an element is stored), the field `argp` of each frame by the
address of the frame, and the bytes `s->text` of each string by its handle,
`s->len` being their number. The number `nesting` is no variable of the
program: it bounds the depth to which `arr_del` follows arrays held by the
array it releases (see `arr_delDepth`). -/
structure Interp where
  stricttc : Bool
  stack0 : Nat
  mem : Nat → Value
  frame : Nat → Frame
  rl : Nat → Rlinfo
  strRef : Nat → Int
  arrRef : Nat → Int
  elt0 : Nat → Value
  objCount : Nat → Nat
  freed : List Nat
  cframe : Nat := 0
  elts : Nat → Nat → Value :=
    fun _ _ => { type := .nil, modified := false, oindex := 0, u := 0 }
  arrSize : Nat → Nat := fun _ => 0
  argp : Nat → Nat := fun _ => 0
  strText : Nat → List Nat := fun _ => []
  nesting : Nat := 0

/-- The variable `nil_value`, `{ T_NIL, TRUE }`, with the type `i_init` gives
it: `nil_type = (stricttc) ? T_NIL : T_INT`. -/
def nil_value (stricttc : Bool) : Value :=
  { type := if stricttc then .nil else .int, modified := true, oindex := 0, u := 0 }

/-- Modelled from the spec: the macro `DESTRUCTED(v)` of `object.h` for an
Object value ("destructed iff stored generation ≠ current"). -/
def DESTRUCTED (st : Interp) (v : Value) : Bool := st.objCount v.oindex != v.u

/-- Modelled from the spec: `str_ref(s)` of `str.h`, one more reference to
the string ("copying a Value requires `ref`"). -/
def str_ref (st : Interp) (s : Nat) : Interp :=
  { st with strRef := Function.update st.strRef s (st.strRef s + 1) }

/-- Modelled from the spec: `arr_ref(a)` of `array.h`, one more reference to
the array. -/
def arr_ref (st : Interp) (a : Nat) : Interp :=
  { st with arrRef := Function.update st.arrRef a (st.arrRef a + 1) }

/-- Modelled from the spec: `str_del(s)` of `str.cpp`, one reference to the
string less ("destroying one requires `del`"); what becomes of a string
without references is not part of this model. -/
def str_del (st : Interp) (s : Nat) : Interp :=
  { st with strRef := Function.update st.strRef s (st.strRef s - 1) }

/-- The statements of `i_del_value`, "dereference a value (not an lvalue)",
with the function called for an Array, a Mapping and an LWObject as an
argument. -/
def delValue (del : Interp → Nat → Interp) (st : Interp) (v : Value) : Interp :=
  match v.type with
  | .string => str_del st v.u
  | .array => del st v.u
  | .mapping => del st v.u
  | .lwobject => del st v.u
  | _ => st

/-- Modelled from the spec: `arr_del(a)` of `array.cpp`, one reference to the
array less; an array that has lost its last reference is released with its
contents ("their last reference triggers recursive release of contents"):
`i_del_value` is called for each of its elements, which calls `arr_del` for an
element that is an Array, a Mapping or an LWObject. The first argument is the
number of levels this recursion may descend: with `d + 1` the contents of the
array are released, and arrays released among them are followed `d` levels
further; with 0 the reference is dropped and the contents are not
released. -/
def arr_delDepth : Nat → Interp → Nat → Interp
  | 0, st, a => { st with arrRef := Function.update st.arrRef a (st.arrRef a - 1) }
  | d + 1, st, a =>
    /- if (--(a->ref) == 0) -/
    let st := { st with arrRef := Function.update st.arrRef a (st.arrRef a - 1) }
    if st.arrRef a = 0 then
      (List.range (st.arrSize a)).foldl
        (fun s i => delValue (arr_delDepth d) s (s.elts a i)) st
    else st

/-- Modelled from the spec: `arr_del(a)` of `array.cpp`, see `arr_delDepth`:
the contents of an array that has lost its last reference are released, and
arrays released among them are followed `nesting` levels further. -/
def arr_del (st : Interp) (a : Nat) : Interp := arr_delDepth (st.nesting + 1) st a

/-- The assignment `*p = v` to a value in the memory. -/
def Interp.wrVal (st : Interp) (p : Nat) (v : Value) : Interp :=
  { st with mem := Function.update st.mem p v }

/-- The assignment `f->sp = p`. -/
def Interp.setSp (st : Interp) (f p : Nat) : Interp :=
  { st with frame := Function.update st.frame f { st.frame f with sp := p } }

/-- The function `i_push_value`: push a value on the stack. `v` is the
address of the value. -/
def i_push_value (st : Interp) (f v : Nat) : Interp :=
  /- *--f->sp = *v -/
  let st := st.setSp f ((st.frame f).sp - 1)
  let st := st.wrVal (st.frame f).sp (st.mem v)
  match (st.mem v).type with
  | .string => str_ref st (st.mem v).u
  | .object =>
    if DESTRUCTED st (st.mem v) then st.wrVal (st.frame f).sp (nil_value st.stricttc)
    else st
  | .lwobject =>
    let o := st.elt0 (st.mem v).u
    if o.type = .object && DESTRUCTED st o then
      st.wrVal (st.frame f).sp (nil_value st.stricttc)
    else arr_ref st (st.mem v).u
  | .array => arr_ref st (st.mem v).u
  | .mapping => arr_ref st (st.mem v).u
  | _ => st

/-- The `switch` in the loop of `i_pop`, for the value at `v`. -/
def popSlot (st : Interp) (v : Nat) : Interp :=
  match (st.mem v).type with
  | .string => str_del st (st.mem v).u
  | .array => arr_del st (st.mem v).u
  | .mapping => arr_del st (st.mem v).u
  | .lwobject => arr_del st (st.mem v).u
  | _ => st

/-- The loop `for (v = f->sp; --n >= 0; v++)` of `i_pop`, for `n` more
values from `v`; the result has the final `v`. -/
def i_popLoop : Nat → Interp → Nat → Interp × Nat
  | 0, st, v => (st, v)
  | n + 1, st, v => i_popLoop n (popSlot st v) (v + 1)

/-- The function `i_pop`: pop a number of values from the stack. -/
def i_pop (st : Interp) (f : Nat) (n : Int) : Interp :=
  let r := i_popLoop n.toNat st (st.frame f).sp
  r.1.setSp f r.2

/-- The values the loop of `i_pop` passes: the `n` values from `sp` on. -/
def popped (st : Interp) (sp n : Nat) : List Value :=
  (List.range n).map fun i => st.mem (sp + i)

/-- The elements of the array `a`: the values `a->elts[0 .. a->size - 1]`. -/
def contents (st : Interp) (a : Nat) : List Value :=
  (List.range (st.arrSize a)).map fun i => st.elts a i

/-- A value holds a reference to the string `s`. -/
def Value.refsStr (s : Nat) (v : Value) : Bool := v.type = .string && v.u = s

/-- A value holds a reference to the array `a`: an Array, a Mapping or an
LWObject with that handle. -/
def Value.refsArr (a : Nat) (v : Value) : Bool :=
  (v.type = .array || v.type = .mapping || v.type = .lwobject) && v.u = a

/-- A value that refers to a destructed object: an Object whose object is
destructed, or an LWObject whose element 0 is an Object whose object is
destructed. -/
def Interp.refersDestructed (st : Interp) (v : Value) : Bool :=
  (v.type = .object && DESTRUCTED st v)
    || (v.type = .lwobject && ((st.elt0 v.u).type = .object && DESTRUCTED st (st.elt0 v.u)))

/-- A memory and frames for examples: the frame at address 1 has its stack
at 100 .. 108 with two values, a String with handle 5 at 106 and an Int at
107; the value at address 200 is an Array with handle 7, the value at 201 an
Object with index 3 and generation count 4, and object 3 has the count 9. -/
def exInterp : Interp :=
  { stricttc := true, stack0 := 100,
    mem := fun a =>
      if a = 106 then { type := .string, modified := false, oindex := 0, u := 5 }
      else if a = 107 then { type := .int, modified := false, oindex := 0, u := 42 }
      else if a = 200 then { type := .array, modified := false, oindex := 0, u := 7 }
      else if a = 201 then { type := .object, modified := false, oindex := 3, u := 4 }
      else { type := .nil, modified := false, oindex := 0, u := 0 },
    frame := fun _ =>
      { prev := 0, sp := 106, fp := 108, stack := 100, sos := true, atomic := false,
        funcAtomic := false, nargs := 0, level := 0, depth := 1, rlim := 1 },
    rl := fun _ => { maxdepth := 0, ticks := 100, nodepth := true, noticks := false, next := 0 },
    strRef := fun _ => 1, arrRef := fun _ => 1,
    elt0 := fun _ => { type := .int, modified := false, oindex := 0, u := 0 },
    objCount := fun i => if i = 3 then 9 else 0,
    freed := [] }

/-- Modelled from the spec: the macro `ALGN(x, s)` of `dgd.h`, which rounds
`x` up to a multiple of `s`. -/
def ALGN (x s : Nat) : Nat := (x + s - 1) / s * s

/-- The call `memcpy(dst, src, n * sizeof(Value))`: the `n` values from `src`
are copied to `dst`. -/
def copyVals (mem : Nat → Value) (dst src n : Nat) : Nat → Value :=
  fun a => if dst ≤ a ∧ a < dst + n then mem (src + (a - dst)) else mem a

/-- The assignment of its fields to the frame at `f`. -/
def Interp.setFrame (st : Interp) (f : Nat) (fr : Frame) : Interp :=
  { st with frame := Function.update st.frame f fr }

/-- The calls `FREE(p)` and `AFREE(p)`. -/
def Interp.free (st : Interp) (p : Nat) : Interp := { st with freed := p :: st.freed }

/-- The function `i_grow_stack`: check if there is room on the stack for new
values; if not, make space. `MIN_STACK` is the constant of `interpret.h` and
`stk` the address `ALLOC(Value, size)` returns. -/
def i_grow_stack (MIN_STACK stk : Nat) (st : Interp) (f : Nat) (size : Int) : Interp :=
  if ((st.frame f).sp : Int) < (st.frame f).stack + size + MIN_STACK then
    /- extend the local stack -/
    let spsize : Int := ((st.frame f).fp : Int) - (st.frame f).sp
    let size := ALGN (spsize + size + MIN_STACK).toNat 8
    /- move stack values -/
    let v := stk + size
    let st := if spsize ≠ 0 then
        { st with mem := copyVals st.mem (v - spsize.toNat) (st.frame f).sp spsize.toNat }
      else st
    let st := st.setSp f (v - spsize.toNat)
    /- replace old stack -/
    let st := if (st.frame f).sos then
        (st.free (st.frame f).stack).setFrame f { st.frame f with sos := false }
      else if (st.frame f).stack ≠ st.stack0 then st.free (st.frame f).stack
      else st
    let st := st.setFrame f { st.frame f with stack := stk }
    st.setFrame f { st.frame f with fp := stk + size }
  else st

/-- The `switch` in the loops of `i_odest`, for the value at `v`: an Object
with the generation count `count`, or an LWObject whose element 0 is one, is
replaced by `nil_value`. -/
def odestSlot (st : Interp) (count v : Nat) : Interp :=
  match (st.mem v).type with
  | .object =>
    if (st.mem v).u = count then st.wrVal v (nil_value st.stricttc) else st
  | .lwobject =>
    if (st.elt0 (st.mem v).u).type = .object && (st.elt0 (st.mem v).u).u = count then
      (arr_del st (st.mem v).u).wrVal v (nil_value st.stricttc)
    else st
  | _ => st

/-- The loops `for (v = f->sp; v < f->fp; v++)` and
`for (n = f->nargs, v = prev->sp; n != 0; --n, v++)` of `i_odest`, for `n`
more values from `v`. -/
def odestLoop (count : Nat) : Nat → Interp → Nat → Interp
  | 0, st, _ => st
  | n + 1, st, v => odestLoop count n (odestSlot st count v) (v + 1)

/-- The function `i_odest`: replace all occurrences of an object on the stack
by nil. `count` is `obj->count`; the loop `for (;;)` runs at most `fuel`
times. -/
def i_odest : Nat → Interp → Nat → Nat → Option Interp
  | 0, _, _, _ => none
  | fuel + 1, st, prev, count =>
    /- wipe out objects in stack frames -/
    let f := prev
    let st := odestLoop count ((st.frame f).fp - (st.frame f).sp) st (st.frame f).sp
    let prev := (st.frame f).prev
    if prev = 0 then some st
    else if (st.frame f).funcAtomic && !(st.frame prev).atomic then
      /- wipe out objects in arguments to atomic function call -/
      some (odestLoop count (st.frame f).nargs st (st.frame prev).sp)
    else i_odest fuel st prev count

/-- A value that refers to the object with the generation count `count`: an
Object with that count, or an LWObject whose element 0 is one. -/
def Interp.refersCount (st : Interp) (count : Nat) (v : Value) : Bool :=
  (v.type = .object && v.u = count)
    || (v.type = .lwobject && ((st.elt0 v.u).type = .object && (st.elt0 v.u).u = count))

/-- The test `i_odest` ends its walk with, after the frame `f`: the frame has
a caller, its function is atomic and the caller is not atomic. -/
def Interp.atomicBoundary (st : Interp) (f : Nat) : Bool :=
  (st.frame f).prev != 0 && ((st.frame f).funcAtomic && !(st.frame (st.frame f).prev).atomic)

/-- Frames for examples: the frame at address 1, of an atomic function with
one argument, has the values 110 .. 112 and is called from the frame at
address 2, which is not atomic, has the values 120 .. 123 and no caller. The
values at 110, 120 and 121 are Objects with index 3 and generation count 4. -/
def exAtomic : Interp :=
  { exInterp with
    mem := fun a =>
      if a = 110 ∨ a = 120 ∨ a = 121 then
        { type := .object, modified := false, oindex := 3, u := 4 }
      else { type := .int, modified := false, oindex := 0, u := 7 },
    frame := fun f =>
      if f = 1 then
        { prev := 2, sp := 110, fp := 112, stack := 100, sos := false, atomic := true,
          funcAtomic := true, nargs := 1, level := 1, depth := 2, rlim := 1 }
      else
        { prev := 0, sp := 120, fp := 123, stack := 113, sos := false, atomic := false,
          funcAtomic := false, nargs := 0, level := 0, depth := 1, rlim := 1 } }

/-- The assignment of its fields to the scope at `r`. -/
def Interp.setRl (st : Interp) (r : Nat) (x : Rlinfo) : Interp :=
  { st with rl := Function.update st.rl r x }

/-- The value of type `Int` (32 bits, two's complement) that the result of an
addition of two values of type `Int` is reduced to. -/
def wrapInt (x : Int) : Int := (x + 2 ^ 31) % 2 ^ 32 - 2 ^ 31

/-- The function `i_new_rlimits`: create new rlimits scope. `rlim` is the
address `ALLOC(rlinfo, 1)` returns. The sum `f->depth + depth` is a value of
type `Int`, of 32 bits. -/
def i_new_rlimits (rlim : Nat) (st : Interp) (f : Nat) (depth t : Int) : Interp :=
  /- memset(rlim, 0, sizeof(rlinfo)) -/
  let st := st.setRl rlim
    { maxdepth := 0, ticks := 0, nodepth := false, noticks := false, next := 0 }
  let st :=
    if depth ≠ 0 then
      if depth < 0 then st.setRl rlim { st.rl rlim with nodepth := true }
      else
        let st := st.setRl rlim
          { st.rl rlim with maxdepth := wrapInt ((st.frame f).depth + depth) }
        st.setRl rlim { st.rl rlim with nodepth := false }
    else
      let st := st.setRl rlim
        { st.rl rlim with maxdepth := (st.rl (st.frame f).rlim).maxdepth }
      st.setRl rlim { st.rl rlim with nodepth := (st.rl (st.frame f).rlim).nodepth }
  let st :=
    if t ≠ 0 then
      if t < 0 then st.setRl rlim { st.rl rlim with noticks := true }
      else
        let t := t >>> (st.frame f).level
        let st := st.setRl (st.frame f).rlim
          { st.rl (st.frame f).rlim with ticks := (st.rl (st.frame f).rlim).ticks - t }
        let st := st.setRl rlim { st.rl rlim with ticks := t }
        st.setRl rlim { st.rl rlim with noticks := false }
    else
      let st := st.setRl rlim { st.rl rlim with ticks := (st.rl (st.frame f).rlim).ticks }
      let st := st.setRl rlim { st.rl rlim with noticks := (st.rl (st.frame f).rlim).noticks }
      st.setRl (st.frame f).rlim { st.rl (st.frame f).rlim with ticks := 0 }
  let st := st.setRl rlim { st.rl rlim with next := (st.frame f).rlim }
  st.setFrame f { st.frame f with rlim := rlim }

/-- The loop `while (r != rlim)` of `i_set_rlimits`, which runs at most
`fuel` times. -/
def i_set_rlimitsLoop (rlim : Nat) : Nat → Interp → Nat → Option Interp
  | 0, _, _ => none
  | fuel + 1, st, r =>
    if r ≠ rlim then
      let next := (st.rl r).next
      let st :=
        if !(st.rl r).noticks then
          st.setRl next { st.rl next with ticks := (st.rl next).ticks + (st.rl r).ticks }
        else st
      let st := st.free r
      i_set_rlimitsLoop rlim fuel st next
    else some st

/-- The statement `if (r->ticks < 0) r->ticks = 0` of `i_set_rlimits`. -/
def Interp.clampTicks (st : Interp) (r : Nat) : Interp :=
  if (st.rl r).ticks < 0 then st.setRl r { st.rl r with ticks := 0 } else st

/-- The function `i_set_rlimits`: restore rlimits to an earlier state. -/
def i_set_rlimits (fuel : Nat) (st : Interp) (f rlim : Nat) : Option Interp :=
  let r := (st.frame f).rlim
  let st := st.clampTicks r
  match i_set_rlimitsLoop rlim fuel st r with
  | some st => some (st.setFrame f { st.frame f with rlim := rlim })
  | none => none

/-- Scopes for examples: the frame at address 1 has the scope at 3, with 5
ticks, whose parent is the scope at 2, with unlimited ticks and the count 7,
whose parent is the scope at 1, with 100 ticks. -/
def exScopes : Interp :=
  { exInterp with
    frame := fun _ =>
      { prev := 0, sp := 106, fp := 108, stack := 100, sos := true, atomic := false,
        funcAtomic := false, nargs := 0, level := 0, depth := 1, rlim := 3 },
    rl := fun r =>
      if r = 3 then { maxdepth := 0, ticks := 5, nodepth := true, noticks := false, next := 2 }
      else if r = 2 then
        { maxdepth := 0, ticks := 7, nodepth := true, noticks := true, next := 1 }
      else { maxdepth := 0, ticks := 100, nodepth := true, noticks := false, next := 0 } }

/-- The scopes from `r` down to `target`: following `next` from `r` visits
the scopes `rs`, in this order, none of them `target`, and then reaches
`target`. -/
def ScopeSeg (next : Nat → Nat) (target : Nat) : Nat → List Nat → Prop
  | r, [] => r = target
  | r, x :: xs => r = x ∧ x ≠ target ∧ ScopeSeg next target (next x) xs

instance ScopeSeg.instDecidable (next : Nat → Nat) (target : Nat) :
    ∀ r rs, Decidable (ScopeSeg next target r rs)
  | r, [] => inferInstanceAs (Decidable (r = target))
  | r, x :: xs =>
    have := ScopeSeg.instDecidable next target (next x) xs
    inferInstanceAs (Decidable (r = x ∧ x ≠ target ∧ ScopeSeg next target (next x) xs))

/-- The ticks that the scopes `rs`, freed in this order, hand on to the scope
below them, when the first of them has received `c` ticks from above: a scope
with unlimited ticks hands on nothing, another scope its own count and what
it has received. -/
def carried (rl : Nat → Rlinfo) : List Nat → Int → Int
  | [], c => c
  | r :: rs, c => carried rl rs (if (rl r).noticks then 0 else (rl r).ticks + c)

/-- How one pass of the loop of `i_interpret1` ends: with `continue`, with a
`return`, or in `error(msg)`. -/
inductive Outcome where
  | running (st : Interp)
  | returned (st : Interp)
  | error (msg : String) (st : Interp)

/-- The head of the loop `for (;;)` of `i_interpret1`, up to the fetch of the
opcode: `if (--f->rlim->ticks <= 0)`, with the state in which the opcode is
executed, or the error. -/
def tickCheck (st : Interp) (f : Nat) : Outcome :=
  let r := (st.frame f).rlim
  let st := st.setRl r { st.rl r with ticks := (st.rl r).ticks - 1 }
  if (st.rl r).ticks ≤ 0 then
    if (st.rl r).noticks then .running (st.setRl r { st.rl r with ticks := 0x7fffffff })
    else .error "Out of ticks" st
  else .running st

/-- The loop `for (;;)` of the function `i_interpret1`, for at most `fuel`
opcodes. The statement `switch (instr & I_INSTR_MASK)` with the fetch before
it is the parameter `exec`: the effect of the next opcode on the state, which
ends with `continue`, with `return`, or in an error. -/
def i_interpret1 (exec : Interp → Nat → Outcome) : Nat → Interp → Nat → Option Outcome
  | 0, _, _ => none
  | fuel + 1, st, f =>
    match tickCheck st f with
    | .running st =>
      match exec st f with
      | .running st => i_interpret1 exec fuel st f
      | o => some o
    | o => some o

/-- Modelled from the spec: the macros `FETCH1U`, `FETCH2U` of `interpret.h`,
which read an unsigned number of `n` bytes, the high byte first, at `pc`. -/
def fetchU (prog : Nat → Nat) (pc : Nat) : Nat → Nat
  | 0 => 0
  | n + 1 => fetchU prog pc n * 256 + prog (pc + n) % 256

/-- Modelled from the spec: the macros `FETCH1S`, `FETCH2S`, `FETCH3S` and
`FETCH4S` of `interpret.h`, which read a number of `n` bytes, the high byte
first, and extend its sign. -/
def fetchS (prog : Nat → Nat) (pc n : Nat) : Int :=
  if fetchU prog pc n < 2 ^ (8 * n - 1) then (fetchU prog pc n : Int)
  else (fetchU prog pc n : Int) - 2 ^ (8 * n)

/-- The member `u.number` of the union of a value: the word `u` read as a
32-bit number in two's complement. -/
def Value.number (v : Value) : Int :=
  if v.u % 2 ^ 32 < 2 ^ 31 then ((v.u % 2 ^ 32 : Nat) : Int)
  else ((v.u % 2 ^ 32 : Nat) : Int) - 2 ^ 32

/-- The statement `--h` on an `unsigned short`. -/
def decU16 (h : Nat) : Nat := (h + 65535) % 65536

/-- The loop `while (l < h)` of `i_switch_int` for the key size `sz`, whose
entries have `sz + 2` bytes; it runs at most `fuel` times. The result is
`some (some t)` when the loop returns the target `t`, and `some none` when it
ends without a match. -/
def switchIntLoop (prog : Nat → Nat) (pc sz : Nat) (number : Int) :
    Nat → Nat → Nat → Option (Option Nat)
  | 0, _, _ => none
  | fuel + 1, l, h =>
    if l < h then
      let m := (l + h) >>> 1
      let p := pc + (sz + 2) * m
      let num := fetchS prog p sz
      if number = num then some (some (fetchU prog (p + sz) 2))
      else if number < num then
        switchIntLoop prog pc sz number fuel l m /- search in lower half -/
      else switchIntLoop prog pc sz number fuel (m + 1) h /- search in upper half -/
    else some none

/-- The function `i_switch_int`: handle an int switch. The four cases of
`switch (sz)` are the same loop for the entry sizes 3, 4, 5 and 6. -/
def i_switch_int (prog : Nat → Nat) (fuel : Nat) (st : Interp) (f pc : Nat) : Option Nat :=
  let h := fetchU prog pc 2
  let sz := fetchU prog (pc + 2) 1
  let dflt := fetchU prog (pc + 3) 2
  let pc := pc + 5
  if (st.mem (st.frame f).sp).type ≠ .int then some dflt
  else
    let h := decU16 h
    if 1 ≤ sz ∧ sz ≤ 4 then
      match switchIntLoop prog pc sz (st.mem (st.frame f).sp).number fuel 0 h with
      | some (some t) => some t
      | some none => some dflt
      | none => none
    else some dflt

/-- The loop `while (l < h)` of `i_switch_range` for the bound size `sz`,
whose entries have `2 * sz + 2` bytes; it runs at most `fuel` times. -/
def switchRangeLoop (prog : Nat → Nat) (pc sz : Nat) (number : Int) :
    Nat → Nat → Nat → Option (Option Nat)
  | 0, _, _ => none
  | fuel + 1, l, h =>
    if l < h then
      let m := (l + h) >>> 1
      let p := pc + (2 * sz + 2) * m
      let num := fetchS prog p sz
      if number < num then
        switchRangeLoop prog pc sz number fuel l m /- search in lower half -/
      else
        let num := fetchS prog (p + sz) sz
        if number ≤ num then some (some (fetchU prog (p + sz + sz) 2))
        else switchRangeLoop prog pc sz number fuel (m + 1) h /- search in upper half -/
    else some none

/-- The function `i_switch_range`: handle a range switch. The four cases of
`switch (sz)` are the same loop for the entry sizes 4, 6, 8 and 10. -/
def i_switch_range (prog : Nat → Nat) (fuel : Nat) (st : Interp) (f pc : Nat) : Option Nat :=
  let h := fetchU prog pc 2
  let sz := fetchU prog (pc + 2) 1
  let dflt := fetchU prog (pc + 3) 2
  let pc := pc + 5
  if (st.mem (st.frame f).sp).type ≠ .int then some dflt
  else
    let h := decU16 h
    if 1 ≤ sz ∧ sz ≤ 4 then
      match switchRangeLoop prog pc sz (st.mem (st.frame f).sp).number fuel 0 h with
      | some (some t) => some t
      | some none => some dflt
      | none => none
    else some dflt

/-- Modelled from the spec: the macro `VAL_NIL(v)` of `interpret.h`, the test
for the nil value, whose tag is "distinct from Int under strict, identical to
Int 0 otherwise". -/
def VAL_NIL (st : Interp) (v : Value) : Bool :=
  v.type = (nil_value st.stricttc).type && v.number = 0

/-- The loop `while (l < h)` of `i_switch_str`, whose entries have 5 bytes; it
runs at most `fuel` times. `strconst u i` is the string
`d_get_strconst(f->p_ctrl, u, i)` and `str_cmp` the comparison of two strings,
both of them not among the sources. -/
def switchStrLoop (strconst : Nat → Nat → Nat) (str_cmp : Nat → Nat → Int) (prog : Nat → Nat)
    (pc : Nat) (str : Nat) : Nat → Nat → Nat → Option (Option Nat)
  | 0, _, _ => none
  | fuel + 1, l, h =>
    if l < h then
      let m := (l + h) >>> 1
      let p := pc + 5 * m
      let u := fetchU prog p 1
      let cmp := str_cmp str (strconst u (fetchU prog (p + 1) 2))
      if cmp = 0 then some (some (fetchU prog (p + 3) 2))
      else if cmp < 0 then
        switchStrLoop strconst str_cmp prog pc str fuel l m /- search in lower half -/
      else
        switchStrLoop strconst str_cmp prog pc str fuel (m + 1) h /- search in upper half -/
    else some none

/-- The part of `i_switch_str` from `if (f->sp->type != T_STRING)` on, for
the table at `pc` with the count `h`. -/
def switchStrTable (strconst : Nat → Nat → Nat) (str_cmp : Nat → Nat → Int) (prog : Nat → Nat)
    (fuel : Nat) (st : Interp) (f pc h dflt : Nat) : Option Nat :=
  if (st.mem (st.frame f).sp).type ≠ .string then some dflt
  else
    match switchStrLoop strconst str_cmp prog pc (st.mem (st.frame f).sp).u fuel 0
        (decU16 h) with
    | some (some t) => some t
    | some none => some dflt
    | none => none

/-- The function `i_switch_str`: handle a string switch. -/
def i_switch_str (strconst : Nat → Nat → Nat) (str_cmp : Nat → Nat → Int) (prog : Nat → Nat)
    (fuel : Nat) (st : Interp) (f pc : Nat) : Option Nat :=
  let h := fetchU prog pc 2
  let dflt := fetchU prog (pc + 2) 2
  if fetchU prog (pc + 4) 1 = 0 then
    let l := fetchU prog (pc + 5) 2
    if VAL_NIL st (st.mem (st.frame f).sp) then some l
    else switchStrTable strconst str_cmp prog fuel st f (pc + 7) (decU16 h) dflt
  else switchStrTable strconst str_cmp prog fuel st f (pc + 5) h dflt

/-- An int switch table for examples, at address 0: the count 4, the key
size 1, the default target 99 and the three entries -3 → 10, 42 → 20 and
100 → 30. -/
def exSwitchInt (a : Nat) : Nat :=
  [0, 4, 1, 0, 99, 253, 0, 10, 42, 0, 20, 100, 0, 30].getD a 0

/-- A range switch table for examples, at address 0: the count 3, the bound
size 1, the default target 99 and the two entries -3 .. 5 → 10 and
40 .. 50 → 20. -/
def exSwitchRange (a : Nat) : Nat :=
  [0, 3, 1, 0, 99, 253, 5, 0, 10, 40, 50, 0, 20].getD a 0

/-- A state for examples whose frame at address 1 has the Int 42 on top of
its stack. -/
def exIntTop : Interp := exInterp.setSp 1 107

/-- The address of the first string entry of the string switch table at `pc`:
behind the nil branch when the table has one (the byte at `pc + 4` is 0). -/
def strTablePc (prog : Nat → Nat) (pc : Nat) : Nat :=
  if fetchU prog (pc + 4) 1 = 0 then pc + 7 else pc + 5

/-- The number of string entries of the string switch table at `pc`: the count
it starts with, less one, and less one more for the nil branch. -/
def strTableCount (prog : Nat → Nat) (pc : Nat) : Nat :=
  if fetchU prog (pc + 4) 1 = 0 then decU16 (decU16 (fetchU prog pc 2))
  else decU16 (fetchU prog pc 2)

/-- The string constant of the entry `i` of a string switch table: the
inherit index and the index of the entry, looked up with `strconst`. -/
def strEntry (strconst : Nat → Nat → Nat) (prog : Nat → Nat) (tpc i : Nat) : Nat :=
  strconst (fetchU prog (tpc + 5 * i) 1) (fetchU prog (tpc + 5 * i + 1) 2)

/-- A string switch table for examples, at address 0: the count 4, the default
target 99, a nil branch with the target 7, and the two entries with the
strings (1, 3) → 10 and (1, 5) → 20. -/
def exSwitchStr (a : Nat) : Nat :=
  [0, 4, 0, 99, 0, 0, 7, 1, 0, 3, 0, 10, 1, 0, 5, 0, 20].getD a 0

/-- String constants for examples: the constant with the index `i` is the
string with the handle `i`. -/
def exStrconst (_ i : Nat) : Nat := i

/-- A comparison of strings for examples: by their handles. -/
def exStrCmp (a b : Nat) : Int := (a : Int) - b

/-! ## interpret.cpp: function calls

The control blocks, the object table and the dataspaces with their planes are
not among the sources. What `i_funcall` and `i_call` take from them is a
parameter: the function a call resolves to, with the address of its prototype
in the program text, the constants of the headers, the addresses the
allocators return, and the effect of the opcodes of the callee. -/

/-- Modelled from the spec: the function `&d_get_funcdefs(f.p_ctrl)[funci]` a
call resolves to: the tests `sclass & C_UNDEFINED`, `sclass & C_TYPECHECKED`,
`sclass & C_ATOMIC` and `sclass & C_STATIC` of its class bits, and the address
`d_get_prog(f.p_ctrl) + f.func->offset` of its prototype. -/
structure Funcdef where
  undefined : Bool
  typechecked : Bool
  atomic : Bool
  static : Bool
  pc : Nat

/-- The parameters of a function call: the constants `OBJ_NONE`, `MIN_STACK`,
`EXTRA_STACK`, `C_ELLIPSIS`, `T_TYPE`, `T_CLASS`, `T_INT` and `T_FLOAT` of the
headers; the address `fa` of the local variable `f` of `i_funcall`, the
address `gstk` that `ALLOC` returns in `i_grow_stack`, the address `stk` that
`ALLOCA` returns for the local stack and the handle `arr` that `arr_new`
returns; the program text; the function `funcdef` the call resolves to and
its name; the result of `i_typecheck` (an error message, or none); the
effect `exec` of the opcodes of the callee; and for `i_call` the name
`creator`, the symbol `ctrl_symb(o_control(obj), func, len)` as the pair of its
inherit index and its index, and the effect of the statements that upgrade
and touch a lightweight object (`touchLw`) and that initialize or touch an
object (`touchObj`), which may end in an error. -/
structure CallEnv where
  OBJ_NONE : Nat
  MIN_STACK : Nat
  EXTRA_STACK : Nat
  C_ELLIPSIS : Nat
  T_TYPE : Nat
  T_CLASS : Nat
  T_INT : Nat
  T_FLOAT : Nat
  fa : Nat
  gstk : Nat
  stk : Nat
  arr : Nat
  prog : Nat → Nat
  funcdef : Interp → Nat → Option Nat → Nat → Nat → Nat → Funcdef
  name : String
  typecheck : Interp → Nat → Nat → Int → Option String
  exec : Interp → Nat → Outcome
  creator : String
  symb : Interp → Option Nat → String → Option (Nat × Nat)
  touchLw : Interp → Nat → Nat → Option String → Except (String × Interp) Interp
  touchObj : Interp → Nat → Option Nat → Option String → Except (String × Interp) Interp

/-- The variable `zero_int`, `{ T_INT, TRUE }`. -/
def zero_int : Value := { type := .int, modified := true, oindex := 0, u := 0 }

/-- The variable `zero_float`, `{ T_FLOAT, TRUE }`. -/
def zero_float : Value := { type := .float, modified := true, oindex := 0, u := 0 }

/-- The statement `*--f->sp = v`. -/
def Interp.pushVal (st : Interp) (f : Nat) (v : Value) : Interp :=
  let st := st.setSp f ((st.frame f).sp - 1)
  st.wrVal (st.frame f).sp v

/-- The assignment `a->elts[i] = v` to an element of an array. -/
def Interp.setElt (st : Interp) (a i : Nat) (v : Value) : Interp :=
  { st with
    elts := Function.update st.elts a (Function.update (st.elts a) i v)
    elt0 := if i = 0 then Function.update st.elt0 a v else st.elt0 }

/-- Modelled from the spec: `arr_new(data, size)` of `array.cpp`, a new array
of the given size, which no value holds yet: its reference count is 0. The
handle `a` is the one the allocator returns. -/
def arr_new (st : Interp) (a size : Nat) : Interp :=
  { st with
    arrSize := Function.update st.arrSize a size
    arrRef := Function.update st.arrRef a 0 }

/-- Modelled from the spec: the macro `PUSH_ARRVAL(f, a)` of `interpret.h`,
which pushes the array `a` as a value that counts as one reference:
`(--f->sp)->u.array = a, arr_ref(a), f->sp->type = T_ARRAY`. -/
def PUSH_ARRVAL (st : Interp) (f a : Nat) : Interp :=
  let st := st.setSp f ((st.frame f).sp - 1)
  let st := st.wrVal (st.frame f).sp { st.mem (st.frame f).sp with u := a }
  let st := arr_ref st a
  st.wrVal (st.frame f).sp { st.mem (st.frame f).sp with type := .array }

/-- Modelled from the spec: `d_ref_imports(a)` of `data.cpp`, which notes the
arrays of other dataspaces among the elements of `a`; the imports of a
dataspace are not part of this memory. -/
def d_ref_imports (st : Interp) (_ : Nat) : Interp := st

/-- Modelled from the spec: the macro `i_add_ticks(f, t)` of `interpret.h`,
which charges `t` ticks to the current scope of the frame. -/
def i_add_ticks (st : Interp) (f : Nat) (t : Int) : Interp :=
  st.setRl (st.frame f).rlim
    { st.rl (st.frame f).rlim with ticks := (st.rl (st.frame f).rlim).ticks - t }

/-- Modelled from the spec: the macros `PROTO_NARGS(pc) + PROTO_VARGS(pc)` of
`control.h`, the two bytes behind the class byte of the prototype header
("class byte, nargs, vargs, size, return-type byte, and per-parameter type
descriptors"). -/
def PROTO_NARGS (prog : Nat → Nat) (pc : Nat) : Nat := fetchU prog (pc + 1) 1

/-- Modelled from the spec: the macro `PROTO_VARGS(pc)` of `control.h`. -/
def PROTO_VARGS (prog : Nat → Nat) (pc : Nat) : Nat := fetchU prog (pc + 2) 1

/-- Modelled from the spec: the macro `PROTO_SIZE(pc)` of `control.h`, the two
size bytes of the prototype header, the high byte first. -/
def PROTO_SIZE (prog : Nat → Nat) (pc : Nat) : Nat := fetchU prog (pc + 3) 2

/-- Modelled from the spec: the address `&PROTO_FTYPE(pc)` of the return-type
byte of the prototype at `pc`, behind the class byte, nargs, vargs and the two
size bytes; the type descriptors of the parameters follow it. -/
def PROTO_FTYPE (pc : Nat) : Nat := pc + 5

/-- The statement `if ((FETCH1U(pc) & T_TYPE) == T_CLASS) pc += 3` of
`i_funcall`: the address behind the type descriptor at `pc`. -/
def skipType (E : CallEnv) (pc : Nat) : Nat :=
  if fetchU E.prog pc 1 &&& E.T_TYPE = E.T_CLASS then pc + 1 + 3 else pc + 1

/-- The loop `do ... while (--i >= 0)` of `i_funcall` over the type
descriptors, for `k` more passes. -/
def skipTypes (E : CallEnv) : Nat → Nat → Nat
  | 0, pc => pc
  | k + 1, pc => skipTypes E k (skipType E pc)

/-- The type byte of the parameter `j` (from 0) of the prototype at `pc`: the
first byte of the type descriptor behind the return type and the descriptors
of the `j` parameters before it, each of one byte and, for a class type,
three more. -/
def paramType (E : CallEnv) (pc j : Nat) : Nat :=
  fetchU E.prog (skipTypes E (j + 1) (PROTO_FTYPE pc)) 1

/-- The value the loop `while (nargs < n)` of `i_funcall` pushes for the type
byte `i`. -/
def missingValue (E : CallEnv) (st : Interp) (i : Nat) : Value :=
  if i = E.T_INT then zero_int
  else if i = E.T_FLOAT then zero_float
  else nil_value st.stricttc

/-- The loop `while (nargs < n)` of `i_funcall`, "add missing arguments", for
`k` more arguments; the result has the final `pc`. -/
def pushMissing (E : CallEnv) (prev_f : Nat) : Nat → Interp → Nat → Interp × Nat
  | 0, st, pc => (st, pc)
  | k + 1, st, pc =>
    let i := fetchU E.prog pc 1
    let pc := pc + 1
    if i = E.T_INT then pushMissing E prev_f k (st.pushVal prev_f zero_int) pc
    else if i = E.T_FLOAT then pushMissing E prev_f k (st.pushVal prev_f zero_float) pc
    else
      let pc := if i &&& E.T_TYPE = E.T_CLASS then pc + 3 else pc
      pushMissing E prev_f k (st.pushVal prev_f (nil_value st.stricttc)) pc

/-- The loop `do { *--v = *prev_f->sp++; } while (--nargs > 0)` of
`i_funcall`, "put additional arguments in array", for `k` more values; `v` is
the index in the array `a`. -/
def packArgs (prev_f a : Nat) : Nat → Interp → Nat → Interp
  | 0, st, _ => st
  | k + 1, st, v =>
    let st := st.setElt a (v - 1) (st.mem (st.frame prev_f).sp)
    let st := st.setSp prev_f ((st.frame prev_f).sp + 1)
    packArgs prev_f a k st (v - 1)

/-- The first statements of `i_funcall`, which fill in the frame `f` of the
callee up to `f.rlim = prev_f->rlim`. An object is given by its index, and
`none` is the null pointer. -/
def funcallFrame (E : CallEnv) (st : Interp) (prev_f : Nat) (obj : Option Nat) (lwobj : Nat) :
    Interp :=
  let st := st.setFrame E.fa { st.frame E.fa with prev := prev_f }
  let st :=
    if (st.frame prev_f).oindex = E.OBJ_NONE then
      /- top level call -/
      st.setFrame E.fa { st.frame E.fa with oindex := obj.getD 0, lwobj := 0 }
    else if lwobj ≠ 0 then
      /- call_other to lightweight object -/
      st.setFrame E.fa { st.frame E.fa with oindex := obj.getD 0, lwobj := lwobj }
    else if obj ≠ none then
      /- call_other to persistent object -/
      st.setFrame E.fa { st.frame E.fa with oindex := obj.getD 0, lwobj := 0 }
    else
      /- local function call -/
      st.setFrame E.fa
        { st.frame E.fa with
          oindex := (st.frame prev_f).oindex, lwobj := (st.frame prev_f).lwobj }
  let st := st.setFrame E.fa { st.frame E.fa with depth := (st.frame prev_f).depth + 1 }
  st.setFrame E.fa { st.frame E.fa with rlim := (st.frame prev_f).rlim }

/-- The two checks of `i_funcall` on the limits of the scope `f.rlim`. -/
def funcallLimits (st : Interp) (fa : Nat) : Except (String × Interp) Interp :=
  if (st.rl (st.frame fa).rlim).maxdepth ≤ (st.frame fa).depth
      ∧ (st.rl (st.frame fa).rlim).nodepth = false then
    .error ("Stack overflow", st)
  else if (st.rl (st.frame fa).rlim).ticks < 100 then
    if (st.rl (st.frame fa).rlim).noticks then
      .ok (st.setRl (st.frame fa).rlim { st.rl (st.frame fa).rlim with ticks := 0x7fffffff })
    else .error ("Out of ticks", st)
  else .ok st

/-- The statements "set the program control block", "get the function" and
"typecheck arguments" of `i_funcall`; the result has the address `pc` of the
prototype. -/
def funcallFunc (E : CallEnv) (st : Interp) (prev_f : Nat) (obj : Option Nat)
    (lwobj p_ctrli funci : Nat) (nargs : Int) : Except (String × Interp) (Interp × Nat) :=
  let fd := E.funcdef st prev_f obj lwobj p_ctrli funci
  let st := st.setFrame E.fa { st.frame E.fa with funcAtomic := fd.atomic }
  if fd.undefined then .error ("Undefined function " ++ E.name, st)
  else if fd.typechecked then
    match E.typecheck st prev_f fd.pc nargs with
    | some msg => .error (msg, st)
    | none => .ok (st, fd.pc)
  else .ok (st, fd.pc)

/-- The statements "handle arguments" of `i_funcall`; the result has the
final `nargs` and `pc`. -/
def funcallArgs (E : CallEnv) (st : Interp) (prev_f pc : Nat) (nargs : Int) :
    Except (String × Interp) (Interp × Int × Nat) :=
  let ellipsis : Bool := fetchU E.prog pc 1 &&& E.C_ELLIPSIS != 0
  let n := PROTO_NARGS E.prog pc + PROTO_VARGS E.prog pc
  if nargs < n then
    /- if fewer actual than formal parameters, check for varargs -/
    if nargs < PROTO_NARGS E.prog pc ∧ st.stricttc = true then
      .error ("Insufficient arguments for function " ++ E.name, st)
    else
      /- add missing arguments -/
      let st := i_grow_stack E.MIN_STACK E.gstk st prev_f ((n : Int) - nargs)
      let n := if ellipsis then decU16 n else n
      let pc := skipTypes E (nargs.toNat + 1) (PROTO_FTYPE pc)
      let r := pushMissing E prev_f ((n : Int) - nargs).toNat st pc
      let nargs := nargs + (((n : Int) - nargs).toNat : Int)
      if ellipsis then
        .ok (PUSH_ARRVAL (arr_new r.1 E.arr 0) prev_f E.arr, nargs + 1, skipType E r.2)
      else .ok (r.1, nargs, r.2)
  else if ellipsis then
    /- put additional arguments in array -/
    let nargs := nargs - ((n : Int) - 1)
    let st := arr_new st E.arr nargs.toNat
    let st := packArgs prev_f E.arr (max 1 nargs.toNat) st nargs.toNat
    let st := d_ref_imports st E.arr
    .ok (PUSH_ARRVAL st prev_f E.arr, n, pc + PROTO_SIZE E.prog pc)
  else if nargs > n then
    if st.stricttc then .error ("Too many arguments for function " ++ E.name, st)
    else
      /- pop superfluous arguments -/
      .ok (i_pop st prev_f (nargs - n), n, pc + PROTO_SIZE E.prog pc)
  else .ok (st, nargs, pc + PROTO_SIZE E.prog pc)

/-- The statements "deal with atomic functions" of `i_funcall`. The planes
of the object table and of the dataspace are not part of this memory. -/
def funcallAtomic (E : CallEnv) (st : Interp) (prev_f : Nat) : Interp :=
  let st := st.setFrame E.fa { st.frame E.fa with level := (st.frame prev_f).level }
  if (st.frame E.fa).funcAtomic && !(st.frame prev_f).atomic then
    let st := st.setFrame E.fa { st.frame E.fa with level := (st.frame E.fa).level + 1 }
    let st := st.setFrame E.fa { st.frame E.fa with atomic := true }
    if !(st.rl (st.frame E.fa).rlim).noticks then
      st.setRl (st.frame E.fa).rlim
        { st.rl (st.frame E.fa).rlim with ticks := (st.rl (st.frame E.fa).rlim).ticks >>> 1 }
    else st
  else st.setFrame E.fa { st.frame E.fa with atomic := (st.frame prev_f).atomic }

/-- The loop `do { *--f.sp = nil_value; } while (--n > 0)` of `i_funcall`,
"initialize local variables", for `n` more variables. -/
def pushNils (f : Nat) : Nat → Interp → Interp
  | 0, st => st
  | n + 1, st => pushNils f n (st.pushVal f (nil_value st.stricttc))

/-- The statements `f.sp = prev_f->sp` up to `arr_ref(f.lwobj)` of
`i_funcall`. -/
def funcallSp (E : CallEnv) (st : Interp) (prev_f : Nat) (nargs : Int) : Interp :=
  let st := st.setFrame E.fa { st.frame E.fa with sp := (st.frame prev_f).sp }
  let st := st.setFrame E.fa { st.frame E.fa with nargs := nargs.toNat }
  let st := { st with cframe := E.fa }
  if (st.frame E.fa).lwobj ≠ 0 then arr_ref st (st.frame E.fa).lwobj else st

/-- The statements "create new local stack" of `i_funcall`, for the size `n`
that `FETCH2U(pc, n)` reads. -/
def funcallStack (E : CallEnv) (st : Interp) (n : Nat) : Interp :=
  let st := { st with argp := Function.update st.argp E.fa (st.frame E.fa).sp }
  let st := st.setFrame E.fa { st.frame E.fa with stack := E.stk }
  let st := st.setFrame E.fa
    { st.frame E.fa with
      sp := (st.frame E.fa).stack + n + E.MIN_STACK + E.EXTRA_STACK,
      fp := (st.frame E.fa).stack + n + E.MIN_STACK + E.EXTRA_STACK }
  st.setFrame E.fa { st.frame E.fa with sos := true }

/-- The statements of `i_funcall` from `f.sp = prev_f->sp` up to the call of
`i_interpret1`: the frame of the callee with its new local stack. -/
def funcallEnter (E : CallEnv) (st : Interp) (prev_f pc : Nat) (nargs : Int) : Interp :=
  let st := funcallSp E st prev_f nargs
  /- deal with atomic functions -/
  let st := funcallAtomic E st prev_f
  let st := i_add_ticks st E.fa 10
  /- create new local stack -/
  let st := funcallStack E st (fetchU E.prog pc 2)
  /- initialize local variables -/
  pushNils E.fa (fetchU E.prog (pc + 2) 1) st

/-- The statements of `i_funcall` up to the call of `i_interpret1`: the state
in which the callee starts, or the error that rejects the call. -/
def funcallPrepare (E : CallEnv) (st : Interp) (prev_f : Nat) (obj : Option Nat)
    (lwobj p_ctrli funci : Nat) (nargs : Int) : Except (String × Interp) Interp :=
  match funcallLimits (funcallFrame E st prev_f obj lwobj) E.fa with
  | .error e => .error e
  | .ok st =>
    match funcallFunc E st prev_f obj lwobj p_ctrli funci nargs with
    | .error e => .error e
    | .ok (st, pc) =>
      match funcallArgs E st prev_f pc nargs with
      | .error e => .error e
      | .ok (st, nargs, pc) => .ok (funcallEnter E st prev_f pc nargs)

/-- The statements `val = *f.sp++` up to `cframe = prev_f` of `i_funcall`:
"clean up stack", with the local stack released. -/
def funcallClean (E : CallEnv) (st : Interp) (prev_f : Nat) : Interp :=
  let st := st.setSp E.fa ((st.frame E.fa).sp + 1)
  let st := i_pop st E.fa (((st.frame E.fa).fp : Int) - (st.frame E.fa).sp)
  let st :=
    if (st.frame E.fa).sos then st.free (st.frame E.fa).stack /- still alloca'd -/
    else st.free (st.frame E.fa).stack /- extended and malloced -/
  let st := if (st.frame E.fa).lwobj ≠ 0 then arr_del st (st.frame E.fa).lwobj else st
  { st with cframe := prev_f }

/-- The statements at the end of `i_funcall` for an atomic function called
from a frame that is not atomic. -/
def funcallCommit (E : CallEnv) (st : Interp) (prev_f : Nat) : Interp :=
  if (st.frame E.fa).funcAtomic && !(st.frame prev_f).atomic then
    if !(st.rl (st.frame E.fa).rlim).noticks then
      st.setRl (st.frame E.fa).rlim
        { st.rl (st.frame E.fa).rlim with ticks := (st.rl (st.frame E.fa).rlim).ticks * 2 }
    else st
  else st

/-- The statements of `i_funcall` behind the call of `i_interpret1`: "clean
up stack, move return value to outer stackframe". -/
def funcallReturn (E : CallEnv) (st : Interp) (prev_f : Nat) : Interp :=
  let val := st.mem (st.frame E.fa).sp
  let st := funcallClean E st prev_f
  let st := i_pop st prev_f (st.frame E.fa).nargs
  let st := st.pushVal prev_f val
  funcallCommit E st prev_f

/-- The function `i_funcall`: call a function in an object. The arguments
must be on the stack already. The callee runs for at most `fuel` opcodes. -/
def i_funcall (E : CallEnv) (fuel : Nat) (st : Interp) (prev_f : Nat) (obj : Option Nat)
    (lwobj p_ctrli funci : Nat) (nargs : Int) : Option Outcome :=
  match funcallPrepare E st prev_f obj lwobj p_ctrli funci nargs with
  | .error (msg, st) => some (.error msg st)
  | .ok st =>
    /- execute code -/
    match i_interpret1 E.exec fuel st E.fa with
    | some (.returned st) => some (.returned (funcallReturn E st prev_f))
    | o => o

/-- The result of `i_call`: the boolean it returns, or an error. -/
inductive CallResult where
  | done (ok : Bool) (st : Interp)
  | error (msg : String) (st : Interp)

/-- The statements of `i_call` from `if (func == NULL)` on: find the function
in the symbol table, check if it can be called, and call it. -/
def callFunction (E : CallEnv) (fuel : Nat) (st : Interp) (f : Nat) (obj : Option Nat)
    (lwobj : Nat) (func : Option String) (call_static : Bool) (nargs : Int) :
    Option CallResult :=
  let func := func.getD E.creator
  /- find the function in the symbol table -/
  match E.symb st obj func with
  | none =>
    /- function doesn't exist in symbol table -/
    some (.done false (i_pop st f nargs))
  | some symb =>
    let fdef := E.funcdef st f obj lwobj symb.1 symb.2
    /- check if the function can be called -/
    if !call_static && fdef.static
        && ((st.frame f).oindex != obj.getD 0 || (st.frame f).lwobj != lwobj) then
      some (.done false (i_pop st f nargs))
    else
      /- call the function -/
      match i_funcall E fuel st f obj lwobj symb.1 symb.2 nargs with
      | some (.returned st) => some (.done true st)
      | some (.error msg st) => some (.error msg st)
      | _ => none

/-- The function `i_call`: attempt to call a function in an object; the
result is TRUE if the call succeeded. -/
def i_call (E : CallEnv) (fuel : Nat) (st : Interp) (f : Nat) (obj : Option Nat) (lwobj : Nat)
    (func : Option String) (call_static : Bool) (nargs : Int) : Option CallResult :=
  if lwobj ≠ 0 then
    let obj := if (st.elt0 lwobj).type = .object then some (st.elt0 lwobj).oindex else obj
    match E.touchLw st f lwobj func with
    | .error (msg, st) => some (.error msg st)
    | .ok st =>
      if (st.elt0 lwobj).type = .int then
        /- no user-callable functions within (right?) -/
        some (.done false (i_pop st f nargs))
      else callFunction E fuel st f obj lwobj func call_static nargs
  else
    match E.touchObj st f obj func with
    | .error (msg, st) => some (.error msg st)
    | .ok st => callFunction E fuel st f obj lwobj func call_static nargs

/-- A program text for examples with four prototypes, each followed by the
size of the local stack, the number of local variables and two more bytes:
at 0 a function with one required and two optional parameters of the types
int, float and a class; at 20 a function with the parameters int and an
ellipsis; at 40 a function with one parameter of type int; at 60 a function
without parameters. -/
def exProg (a : Nat) : Nat :=
  if a < 20 then [0, 1, 2, 0, 12, 1, 1, 2, 7, 0, 0, 5, 0, 2, 1, 0, 0].getD a 0
  else if a < 40 then [8, 1, 1, 0, 8, 1, 1, 0, 0, 2, 0, 0, 0].getD (a - 20) 0
  else if a < 60 then [0, 1, 0, 0, 7, 1, 1, 0, 2, 1, 0, 0].getD (a - 40) 0
  else [0, 0, 0, 0, 6, 1, 0, 2, 0, 0, 0].getD (a - 60) 0

/-- Parameters of a call for examples: the function with the index `funci`
has its prototype at `20 * funci` in `exProg`; the function 3 is atomic and
the function 4 undefined, the functions from 5 on are static; the only symbol
is "f", the function 2; the callee pushes the integer 7 and returns. -/
def exEnv : CallEnv :=
  { OBJ_NONE := 65535, MIN_STACK := 5, EXTRA_STACK := 1, C_ELLIPSIS := 8,
    T_TYPE := 15, T_CLASS := 7, T_INT := 1, T_FLOAT := 2,
    fa := 9, gstk := 1000, stk := 2000, arr := 50,
    prog := exProg,
    funcdef := fun _ _ _ _ _ funci =>
      { undefined := funci == 4, typechecked := false, atomic := funci == 3,
        static := decide (5 ≤ funci), pc := 20 * funci },
    name := "f",
    typecheck := fun _ _ _ _ => none,
    exec := fun st f =>
      .returned (st.pushVal f { type := .int, modified := false, oindex := 0, u := 7 }),
    creator := "create",
    symb := fun _ _ func => if func = "f" then some (0, 2) else none,
    touchLw := fun st _ _ _ => .ok st,
    touchObj := fun st _ _ _ => .ok st }

/-- The state `exInterp` without strict typechecking. -/
def exLax : Interp := { exInterp with stricttc := false }

/-- The state of a call from the frame 1 of `exInterp` after the first
statements of `i_funcall`. -/
def exCallS1 : Interp := funcallFrame exEnv exInterp 1 none 0

/-- The state `exCallS1` with the atomic function 3 of `exEnv` noted in the
frame of the callee. -/
def exAtomS2 : Interp := exCallS1.setFrame 9 { exCallS1.frame 9 with funcAtomic := true }

/-- The state in which the callee of `exEnv` returns from the atomic function
3, called without arguments from the frame 1 of `exInterp`: one tick is
charged and the integer 7 pushed. -/
def exAtomRet : Interp :=
  ((funcallEnter exEnv exAtomS2 1 66 0).setRl 1
    { (funcallEnter exEnv exAtomS2 1 66 0).rl 1 with
      ticks := ((funcallEnter exEnv exAtomS2 1 66 0).rl 1).ticks - 1 }).pushVal 9
    { type := .int, modified := false, oindex := 0, u := 7 }

/-- The state of a call from the frame 1 of `exLax` after the first
statements of `i_funcall`. -/
def exLaxS1 : Interp := funcallFrame exEnv exLax 1 none 0

/-- The state `exLaxS1` with the function 0 of `exEnv` noted in the frame of
the callee. -/
def exLaxS2 : Interp := exLaxS1.setFrame 9 { exLaxS1.frame 9 with funcAtomic := false }

/-- The state `exLaxS2` after the handling of the arguments of a call of the
function 0 with one argument: the stack of the frame 1 has been moved to the
block at 1000 and the two missing arguments pushed. -/
def exLaxS3 : Interp := (pushMissing exEnv 1 2 (i_grow_stack 5 1000 exLaxS2 1 2) 7).1

/-- The state in which the callee of `exEnv` returns from the function 0,
called with one argument from the frame 1 of `exLax`: one tick is charged and
the integer 7 pushed. -/
def exLaxRet : Interp :=
  ((funcallEnter exEnv exLaxS3 1 12 3).setRl 1
    { (funcallEnter exEnv exLaxS3 1 12 3).rl 1 with
      ticks := ((funcallEnter exEnv exLaxS3 1 12 3).rl 1).ticks - 1 }).pushVal 9
    { type := .int, modified := false, oindex := 0, u := 7 }

/-- Example: the memory of `exTreeHeap` with one more chunk, at 400, of the
size 80, the size of the root of the tree. -/
def exTieHeap : Heap := exTreeHeap.setSize 400 80

/-- Example: the state `exReady` with two large static free lists in the
table, for the size 300 (empty) and for the size 500 (the chunk at 7000). -/
def exLchunks : Alloc :=
  { exReady with
    nlc := 2,
    lchunks := fun i =>
      if i = 0 then { size := 300, list := 0 }
      else if i = 1 then { size := 500, list := 7000 }
      else { size := 0, list := 0 } }

/-! ## interpret.cpp: `instanceof` -/

/-- Modelled from the spec: an element of `ctrl->inherits`, with the fields
`instanceof` reads: the index `oindex` of the inherited object and the flag
`priv` of a private inherit ("resolves against the inherit list of the
argument's control block"). -/
structure Inherit where
  oindex : Nat
  priv : Bool
  deriving DecidableEq

/-- What `instanceof` takes from the platform and from the object table:
whether the type `char` is signed, the constants `INHASHSZ` and `OBJHASHSZ`,
for each object the test `obj->flags & O_MASTER`, the field `u_master`, its
name, and of its control block `o_control(obj)` the field `ninherits` and
the memory at `inherits`; `classname f sclass` is `i_classname(f, sclass)`. -/
structure InstEnv where
  charSigned : Bool
  INHASHSZ : Nat
  OBJHASHSZ : Nat
  master : Nat → Bool
  u_master : Nat → Nat
  ninherits : Nat → Nat
  inherits : Nat → Nat → Inherit
  name : Nat → List Nat
  classname : Nat → Nat → List Nat

/-- The value of a `char` that holds the byte `b`, as the comparison
`*h < ctrl->ninherits` reads it: with a signed `char` the bytes from 128 on
are negative. -/
def InstEnv.charVal (E : InstEnv) (b : Nat) : Int :=
  if E.charSigned = true ∧ 128 ≤ b % 256 then (b % 256 : Int) - 256 else (b % 256 : Int)

/-- Modelled from the spec: the macro `UCHAR(c)` of `dgd.h`, the `char` as
an unsigned value. -/
def UCHAR (b : Nat) : Nat := b % 256

/-- The object whose control block `instanceof` searches: the object
itself, or its master when it is not one. -/
def InstEnv.masterOf (E : InstEnv) (oindex : Nat) : Nat :=
  if !E.master oindex then E.u_master oindex else oindex

/-- The index `((oindex << 2) ^ hash) % INHASHSZ` of the cell of `ihash`,
for the object whose control block is searched. -/
def InstEnv.slot (E : InstEnv) (oindex hash : Nat) : Nat :=
  (((oindex <<< 2) % UINT_MOD) ^^^ hash) % E.INHASHSZ

/-- The loop `for (i = ctrl->ninherits, ...; i != 0; )` of `instanceof`,
with `i` more elements below: the index of the element found, if any. -/
def instanceofLoop (E : InstEnv) (o : Nat) (prog : List Nat) : Nat → Option Nat
  | 0 => none
  | i + 1 =>
    if strcmpEq prog (E.name (E.inherits o i).oindex) then some i
    else instanceofLoop E o prog i

/-- The element of `ctrl->inherits` the test of the cache reads: the one at
`UCHAR(*h)` when `*h < ctrl->ninherits` holds, none otherwise. -/
def instanceofProbe (E : InstEnv) (ihash : Nat → Nat) (oindex hash : Nat) : Option Nat :=
  let oindex := E.masterOf oindex
  let h := E.slot oindex hash
  if E.charVal (ihash h) < (E.ninherits oindex : Int) then some (UCHAR (ihash h)) else none

/-- The function `instanceof`: is an object an instance of the named
program? `ihash` holds the bytes of the static array of that name; the
result is the value returned and the array afterwards. -/
def instanceof (E : InstEnv) (ihash : Nat → Nat) (oindex : Nat) (prog : List Nat)
    (hash : Nat) : Int × (Nat → Nat) :=
  /- first try hash table -/
  let oindex := E.masterOf oindex
  let h := E.slot oindex hash
  if E.charVal (ihash h) < (E.ninherits oindex : Int)
      ∧ strcmpEq (E.name (E.inherits oindex (UCHAR (ihash h))).oindex) prog = true then
    (if (E.inherits oindex (UCHAR (ihash h))).priv then -1 else 1, ihash)
  else
    /- next, search for it the hard way -/
    match instanceofLoop E oindex prog (E.ninherits oindex % 65536) with
    | some i =>
      /- found it; update hashtable -/
      (if (E.inherits oindex i).priv then -1 else 1, Function.update ihash h (i % 256))
    | none => (0, ihash)

/-- The function `i_instanceof`. -/
def i_instanceof (E : InstEnv) (ihash : Nat → Nat) (f oindex sclass : Nat) :
    Int × (Nat → Nat) :=
  instanceof E ihash oindex (E.classname f sclass) sclass

/-- The function `i_instancestr`. -/
def i_instancestr (E : InstEnv) (ihash : Nat → Nat) (oindex : Nat) (prog : List Nat) :
    Int × (Nat → Nat) :=
  instanceof E ihash oindex prog (hashstr prog E.OBJHASHSZ)

/-- The search without the cache, as the specification describes it: the
inherit list of the control block of the object, or of its master, is
searched for the named program; the result is 1 for a public inherit, -1 for
a private one and 0 when the program is not inherited. -/
def instanceofSpec (E : InstEnv) (oindex : Nat) (prog : List Nat) : Int :=
  match (List.range (E.ninherits (E.masterOf oindex))).find?
      (fun i => strcmpEq (E.name (E.inherits (E.masterOf oindex) i).oindex) prog) with
  | some i => if (E.inherits (E.masterOf oindex) i).priv then -1 else 1
  | none => 0

/-- Example: a platform with a signed `char`; every object is a master with
the two inherits "a" (object 10, public) and "b" (object 11, private); the
memory behind the two elements of `inherits` holds the index 12 of an object
named "c". -/
def exInst : InstEnv :=
  { charSigned := true, INHASHSZ := 256, OBJHASHSZ := 256,
    master := fun _ => true, u_master := fun _ => 0,
    ninherits := fun _ => 2,
    inherits := fun _ i =>
      if i = 0 then { oindex := 10, priv := false }
      else if i = 1 then { oindex := 11, priv := true }
      else { oindex := 12, priv := false },
    name := fun o =>
      if o = 10 then [97, 0] else if o = 11 then [98, 0] else if o = 12 then [99, 0] else [0],
    classname := fun _ _ => [99, 0] }

/-- Example: a cache whose every byte is 200, the index an object with more
than 200 inherits has left. -/
def exIhash : Nat → Nat := fun _ => 200

/-! ## interpret.cpp: stores -/

/-- The function `i_ref_value`: reference a value. `v` is the value `*v`. -/
def i_ref_value (st : Interp) (v : Value) : Interp :=
  match v.type with
  | .string => str_ref st v.u
  | .array => arr_ref st v.u
  | .mapping => arr_ref st v.u
  | .lwobject => arr_ref st v.u
  | _ => st

/-- The function `i_del_value`: dereference a value (not an lvalue). `v` is
the value `*v`. -/
def i_del_value (st : Interp) (v : Value) : Interp :=
  match v.type with
  | .string => str_del st v.u
  | .array => arr_del st v.u
  | .mapping => arr_del st v.u
  | .lwobject => arr_del st v.u
  | _ => st

/-- What the stores take from outside `interpret.cpp`. A frame is given by
its address: `p_index f` is `f->p_index`, `imap f i` is `f->ctrl->imap[i]`,
`varoffset f i` is `f->ctrl->inherits[i].varoffset`, `d_get_variable f
offset` is the address `d_get_variable(f->data, offset)` returns; `assign_var st f var
val` is the effect of `d_assign_var(f->data, var, val)` and `assign_elt st f
arr i val` that of `d_assign_elt(f->data, arr, &elts[i], val)`, with the
addresses of the values; `str` is the handle `str_new` returns; `str_index`
and `arr_index` are the functions of that name, which return the index or
raise an error; `map_index st f arr ival val var` and `operator st f arr var
ival val`, the call of `i_operator` for "[]=", return or raise an error. -/
structure StoreEnv where
  p_index : Nat → Int
  imap : Nat → Int → Int
  varoffset : Nat → Int → Int
  d_get_variable : Nat → Nat → Nat
  assign_var : Interp → Nat → Nat → Nat → Interp
  assign_elt : Interp → Nat → Nat → Nat → Nat → Interp
  str : Nat
  str_index : Interp → Nat → Int → Except String Nat
  arr_index : Interp → Nat → Int → Except String Nat
  map_index : Interp → Nat → Nat → Nat → Nat → Nat → Except (String × Interp) Interp
  operator : Interp → Nat → Nat → Nat → Nat → Nat → Except (String × Interp) Interp

/-- The address `(local < 0) ? f->fp + local : f->argp + local` of the local
variable with the number `loc`. -/
def localVar (st : Interp) (f : Nat) (loc : Int) : Nat :=
  if loc < 0 then ((st.frame f).fp + loc).toNat else (st.argp f + loc).toNat

/-- The function `i_store_local`: assign a value to a local variable. `val`
and `verify` are addresses of values, and `verify` is 0 for NULL. -/
def i_store_local (S : StoreEnv) (st : Interp) (f : Nat) (loc : Int) (val verify : Nat) :
    Interp :=
  let st := i_add_ticks st f 1
  let var := localVar st f loc
  if verify = 0 ∨ ((st.mem var).type = .string ∧ (st.mem var).u = (st.mem verify).u) then
    S.assign_var st f var val
  else st

/-- The offset of a global variable, an `unsigned short`:
`inherit = f->ctrl->imap[f->p_index + inherit]` and
`offset = f->ctrl->inherits[inherit].varoffset + index`. -/
def globalOffset (S : StoreEnv) (f : Nat) (inherit index : Int) : Nat :=
  let inherit := S.imap f (S.p_index f + inherit)
  ((S.varoffset f inherit + index) % 65536).toNat

/-- The function `i_store_global`: assign a value to a global variable. The
variable of a lightweight object is the element `2 + offset` of its array. -/
def i_store_global (S : StoreEnv) (st : Interp) (f : Nat) (inherit index : Int)
    (val verify : Nat) : Interp :=
  let st := i_add_ticks st f 5
  let offset := globalOffset S f inherit index
  if (st.frame f).lwobj = 0 then
    let var := S.d_get_variable f offset
    if verify = 0 ∨ ((st.mem var).type = .string ∧ (st.mem var).u = (st.mem verify).u) then
      S.assign_var st f var val
    else st
  else
    let var := st.elts (st.frame f).lwobj (2 + offset)
    if verify = 0 ∨ (var.type = .string ∧ var.u = (st.mem verify).u) then
      S.assign_elt st f (st.frame f).lwobj (2 + offset) val
    else st

/-- Modelled from the spec: `str_new(text, len)` of `str.cpp`, a new string
with a copy of the `len` bytes at `text`, which no value holds yet: its
reference count is 0. The handle `s` is the one the allocator returns. -/
def str_new (st : Interp) (s : Nat) (text : List Nat) (len : Nat) : Interp :=
  { st with
    strText := Function.update st.strText s (text.take len)
    strRef := Function.update st.strRef s 0 }

/-- The assignment `str->text[i] = c` of a `char`. -/
def Interp.setText (st : Interp) (s i : Nat) (c : Int) : Interp :=
  { st with strText := Function.update st.strText s ((st.strText s).set i (c % 256).toNat) }

/-- Modelled from the spec: the macro `PUT_STRVAL(v, s)` of `interpret.h`,
which makes the value at `v` a String that counts as one reference to `s`:
`(v)->u.string = s, str_ref(s), (v)->type = T_STRING`. -/
def PUT_STRVAL (st : Interp) (v s : Nat) : Interp :=
  let st := st.wrVal v { st.mem v with u := s }
  let st := str_ref st s
  st.wrVal v { st.mem v with type := .string }

/-- The function `i_store_index`: perform an indexed assignment. The
arguments are addresses of values; the result is the value returned, or the
error raised, with the state. -/
def i_store_index (S : StoreEnv) (st : Interp) (f var aval ival val : Nat) :
    Except (String × Interp) (Bool × Interp) :=
  let st := i_add_ticks st f 3
  match (st.mem aval).type with
  | .string =>
    if (st.mem ival).type ≠ .int then .error ("Non-numeric string index", st)
    else if (st.mem val).type ≠ .int then
      .error ("Non-numeric value in indexed string assignment", st)
    else
      match S.str_index st (st.mem aval).u (st.mem ival).number with
      | .error msg => .error (msg, st)
      | .ok i =>
        let st := str_new st S.str (st.strText (st.mem aval).u)
          (st.strText (st.mem aval).u).length
        let st := st.setText S.str i (st.mem val).number
        .ok (true, PUT_STRVAL st var S.str)
  | .array =>
    if (st.mem ival).type ≠ .int then .error ("Non-numeric array index", st)
    else
      let arr := (st.mem aval).u
      match S.arr_index st arr (st.mem ival).number with
      | .error msg => .error (msg, st)
      | .ok i =>
        let st :=
          if (st.mem var).type ≠ .string
              ∨ ((st.elts arr i).type = .string ∧ (st.mem var).u = (st.elts arr i).u) then
            S.assign_elt st f arr i val
          else st
        .ok (false, arr_del st arr)
  | .mapping =>
    let arr := (st.mem aval).u
    let var := if (st.mem var).type ≠ .string then 0 else var
    match S.map_index st f arr ival val var with
    | .error e => .error e
    | .ok st => .ok (false, arr_del (i_del_value st (st.mem ival)) arr)
  | .lwobject =>
    let arr := (st.mem aval).u
    match S.operator st f arr var ival val with
    | .error e => .error e
    | .ok st =>
      .ok (false, arr_del (i_del_value (i_del_value st (st.mem var)) (st.mem ival)) arr)
  | _ => .error ("Index on bad type", st)

/-- Example: stores whose `d_assign_var` and `d_assign_elt` copy the value,
whose new string has the handle 6 and whose `str_index` accepts the indices
of the string. -/
def exStore : StoreEnv :=
  { p_index := fun _ => 0, imap := fun _ i => i, varoffset := fun _ _ => 0,
    d_get_variable := fun _ offset => 400 + offset,
    assign_var := fun st _ var val => st.wrVal var (st.mem val),
    assign_elt := fun st _ arr i val => st.setElt arr i (st.mem val),
    str := 6,
    str_index := fun st s i =>
      if 0 ≤ i ∧ i < ((st.strText s).length : Int) then .ok i.toNat
      else .error "String index out of range",
    arr_index := fun st a i =>
      if 0 ≤ i ∧ i < (st.arrSize a : Int) then .ok i.toNat
      else .error "Array index out of range",
    map_index := fun st _ _ _ _ _ => .ok st,
    operator := fun st _ _ _ _ _ => .ok st }

/-- Example: the memory of `exInterp` where the string 5 is "abc", the
values at 301 and 302 are the Ints 1 and 120, the value at 300 is the
String 5 and the value at 303 is the String 8, "xy". -/
def exStrings : Interp :=
  { exInterp with
    mem := fun a =>
      if a = 300 then { type := .string, modified := false, oindex := 0, u := 5 }
      else if a = 301 then { type := .int, modified := false, oindex := 0, u := 1 }
      else if a = 302 then { type := .int, modified := false, oindex := 0, u := 120 }
      else if a = 303 then { type := .string, modified := false, oindex := 0, u := 8 }
      else exInterp.mem a,
    strText := fun s => if s = 5 then [97, 98, 99] else if s = 8 then [120, 121] else [] }

/-! ## interpret.cpp: `i_aggregate` and `i_spread1` -/

/-- The loop `do { *--elts = *v++; } while (--size != 0)` of `i_aggregate`,
for `k` more values: `e` is the index in the array `a` that `elts` points
to; the result has the final `v`. -/
def aggregateLoop (a : Nat) : Nat → Interp → Nat → Nat → Interp × Nat
  | 0, st, _, v => (st, v)
  | k + 1, st, e, v => aggregateLoop a k (st.setElt a (e - 1) (st.mem v)) (e - 1) (v + 1)

/-- The function `i_aggregate`: create an array on the stack. `a` is the
handle `arr_new` returns. -/
def i_aggregate (a : Nat) (st : Interp) (f size : Nat) : Interp :=
  let st :=
    if size = 0 then arr_new st a 0
    else
      let st := i_add_ticks st f size
      let st := arr_new st a size
      let r := aggregateLoop a size st size (st.frame f).sp
      let st := d_ref_imports r.1 a
      st.setSp f r.2
  PUSH_ARRVAL st f a

/-- The function `i_push_value` for a value that is not in the memory of
values, such as an element of an array: `v` is the value `*v`. -/
def i_push_elt (st : Interp) (f : Nat) (v : Value) : Interp :=
  /- *--f->sp = *v -/
  let st := st.setSp f ((st.frame f).sp - 1)
  let st := st.wrVal (st.frame f).sp v
  match v.type with
  | .string => str_ref st v.u
  | .object =>
    if DESTRUCTED st v then st.wrVal (st.frame f).sp (nil_value st.stricttc)
    else st
  | .lwobject =>
    let o := st.elt0 v.u
    if o.type = .object && DESTRUCTED st o then
      st.wrVal (st.frame f).sp (nil_value st.stricttc)
    else arr_ref st v.u
  | .array => arr_ref st v.u
  | .mapping => arr_ref st v.u
  | _ => st

/-- The loop `for (i = 0, v = d_get_elts(a); i < n; i++, v++)` of
`i_spread1`, for `k` more elements from the index `i`. -/
def spreadLoop (f a : Nat) : Nat → Interp → Nat → Interp
  | 0, st, _ => st
  | k + 1, st, i => spreadLoop f a k (i_push_elt st f (st.elts a i)) (i + 1)

/-- Modelled from the spec: the macro `PUT_ARRVAL_NOREF(v, a)` of
`interpret.h`, which makes the value at `v` an Array with the handle `a`
without a new reference. -/
def PUT_ARRVAL_NOREF (st : Interp) (v a : Nat) : Interp :=
  st.wrVal v { st.mem v with type := .array, u := a }

/-- The function `i_spread1`: push the values in an array on the stack,
return the number of extra arguments pushed. `MIN_STACK` and `stk` are those
of `i_grow_stack`. -/
def i_spread1 (MIN_STACK stk : Nat) (st : Interp) (f : Nat) (n : Int) :
    Except (String × Interp) (Int × Interp) :=
  if (st.mem (st.frame f).sp).type ≠ .array then .error ("Spread of non-array", st)
  else
    let a := (st.mem (st.frame f).sp).u
    if n < 0 then
      /- no lvalues -/
      let n : Int := st.arrSize a
      let st := i_add_ticks st f n
      let st := st.setSp f ((st.frame f).sp + 1)
      let st := i_grow_stack MIN_STACK stk st f n
      let st := spreadLoop f a n.toNat st 0
      let st := arr_del st a
      .ok (n - 1, st)
    else
      /- including lvalues -/
      let n : Int := if n > st.arrSize a then st.arrSize a else n
      let st := i_add_ticks st f n
      let st := i_grow_stack MIN_STACK stk st f n
      let st := st.setSp f ((st.frame f).sp + 1)
      let st := spreadLoop f a n.toNat st 0
      let st := st.setSp f ((st.frame f).sp - 1)
      .ok (n, PUT_ARRVAL_NOREF st (st.frame f).sp a)

/-- Example: the frame at address 1 of `exInterp` with one value on its
stack, at 107: the lightweight object with the handle 7, whose element 0 is
an Object with index 3 and generation count 4; object 3 has the count 9, so
the master of the lightweight object is destructed. -/
def exLwDead : Interp :=
  { (exInterp.setSp 1 107) with
    mem := fun a =>
      if a = 107 then { type := .lwobject, modified := false, oindex := 0, u := 7 }
      else exInterp.mem a,
    elt0 := fun a =>
      if a = 7 then { type := .object, modified := false, oindex := 3, u := 4 }
      else { type := .int, modified := false, oindex := 0, u := 0 } }

/-- Example: the frame at address 1 of `exInterp` with two values on its
stack: at 106 the Array with the handle 7 and at 107 an Int. The array 7 has
one reference, that of the stack, and two elements: the String 5 and the
Array 8, which has one reference, that of the array 7, and one element, the
String 6. The strings 5 and 6 have one reference each. -/
def exNested : Interp :=
  { exInterp with
    mem := fun a =>
      if a = 106 then { type := .array, modified := false, oindex := 0, u := 7 }
      else exInterp.mem a,
    arrSize := fun a => if a = 7 then 2 else if a = 8 then 1 else 0,
    elts := fun a i =>
      if a = 7 ∧ i = 0 then { type := .string, modified := false, oindex := 0, u := 5 }
      else if a = 7 ∧ i = 1 then { type := .array, modified := false, oindex := 0, u := 8 }
      else if a = 8 ∧ i = 0 then { type := .string, modified := false, oindex := 0, u := 6 }
      else { type := .nil, modified := false, oindex := 0, u := 0 },
    nesting := 1 }

end Dgd

namespace Dgd

/-! ## Theorems: the hash function -/

set_option maxRecDepth 100000 in
theorem tab_mem_lt : ∀ x ∈ tab, x < 256 := by decide

theorem tab_getD_lt (i : Nat) : tab.getD i 0 < 256 := by
  rw [List.getD_eq_getElem?_getD]
  cases h : tab[i]? with
  | none => simp
  | some x =>
    have hx : x ∈ tab := List.getElem?_mem h
    simpa using tab_mem_lt x hx

/-- Packing of the two byte registers: `(h << 8) | l` read as `unsigned short`. -/
theorem pack_eq (h l : Nat) (hh : h < 256) (hl : l < 256) :
    ((h <<< 8) ||| l) % 65536 = 256 * h + l := by
  have h1 : h <<< 8 = 2 ^ 8 * h := by rw [Nat.shiftLeft_eq, Nat.mul_comm]
  have h2 : l < 2 ^ 8 := by simpa using hl
  rw [h1, ← Nat.mul_add_lt_is_or h2]
  omega

/-- Pearson's fold started from the register value `l`. -/
theorem hashmemLoop_snd (b : List Nat) (hb : ∀ c ∈ b, c < 256) (h l : Nat) :
    (hashmemLoop b b.length h l).2 = b.foldl (fun p c => tab.getD (p ^^^ c) 0) l := by
  induction b generalizing h l with
  | nil => simp [hashmemLoop]
  | cons c b ih =>
    have hc : c < 256 := hb c (List.mem_cons_self _ _)
    simp only [List.length_cons, hashmemLoop, List.tail_cons, List.headD_cons, List.foldl_cons,
      Nat.mod_eq_of_lt hc]
    exact ih (fun x hx => hb x (List.mem_cons_of_mem _ hx)) _ _

theorem hashmemLoop_fst (b : List Nat) (hb : ∀ c ∈ b, c < 256) (h l : Nat) (hne : b ≠ []) :
    (hashmemLoop b b.length h l).1 = b.dropLast.foldl (fun p c => tab.getD (p ^^^ c) 0) l := by
  induction b generalizing h l with
  | nil => exact absurd rfl hne
  | cons c b ih =>
    have hc : c < 256 := hb c (List.mem_cons_self _ _)
    simp only [List.length_cons, hashmemLoop, List.tail_cons, List.headD_cons,
      Nat.mod_eq_of_lt hc]
    cases b with
    | nil => simp [hashmemLoop]
    | cons d b =>
      rw [ih (fun x hx => hb x (List.mem_cons_of_mem _ hx)) _ _ (by simp)]
      simp [List.dropLast]

theorem foldl_tab_lt (b : List Nat) (l : Nat) (hl : l < 256) :
    b.foldl (fun p c => tab.getD (p ^^^ c) 0) l < 256 := by
  induction b generalizing l with
  | nil => simpa using hl
  | cons c b ih => exact ih _ (tab_getD_lt _)

theorem pearson_lt (b : List Nat) : pearson b < 256 :=
  foldl_tab_lt b 0 (by decide)

theorem hashmem_eq (b : List Nat) (hb : ∀ c ∈ b, c < 256) :
    hashmem b b.length = 256 * pearson (b.take (b.length - 1)) + pearson b := by
  unfold hashmem
  simp only
  rw [hashmemLoop_snd b hb]
  cases hbe : b with
  | nil => simp [hashmemLoop, pearson]
  | cons c b' =>
    rw [← hbe, hashmemLoop_fst b hb 0 0 (by simp [hbe]), ← List.dropLast_eq_take]
    exact pack_eq _ _ (pearson_lt _) (pearson_lt _)

/-- The loop of `hashstr` is the loop of `hashmem` over the characters that
precede the first NUL, cut at `len`. -/
theorem hashstrLoop_eq (s : List Nat) (len h l : Nat) :
    hashstrLoop s len h l = hashmemLoop s (min len (strlen s)) h l := by
  induction s generalizing len h l with
  | nil => simp [hashstrLoop, strlen, hashmemLoop]
  | cons c s ih =>
    cases len with
    | zero => simp [hashstrLoop, hashmemLoop]
    | succ len =>
      by_cases hc : c = 0
      · subst hc
        simp [hashstrLoop, strlen, hashmemLoop]
      · have hs : strlen (c :: s) = strlen s + 1 := by
          simp [strlen, List.takeWhile_cons, hc]
        rw [hs, Nat.succ_min_succ]
        simp only [hashstrLoop, hc, if_false, hashmemLoop, List.tail_cons, List.headD_cons]
        exact ih _ _ _

/-- C9: for every byte sequence `b`, `hashmem(b, n)` with `n` the length of
`b` is `256 * P(b[0..n-1)) + P(b)` for Pearson's fold `P` over the table; the
hash of the empty sequence is 0 and the hash of one byte `c` is `tab[c]`;
`hashstr(s, len)` is `hashmem` over the first `min(len, strlen(s))` bytes
of `s`. -/
theorem hashmem_is_pearson (b : List Nat) (hb : ∀ x ∈ b, x < 256) (c : Nat) (hc : c < 256)
    (s : List Nat) (len : Nat) :
    hashmem b b.length = 256 * pearson (b.take (b.length - 1)) + pearson b
    ∧ pearson [] = 0
    ∧ (∀ x, pearson (b ++ [x]) = tab.getD (pearson b ^^^ x) 0)
    ∧ hashmem [] 0 = 0
    ∧ hashmem [c] 1 = tab.getD c 0
    ∧ hashstr s len = hashmem s (min len (strlen s)) := by
  refine ⟨hashmem_eq b hb, rfl, ?_, ?_, ?_, ?_⟩
  · intro x
    simp [pearson, List.foldl_append]
  · simp [hashmem, hashmemLoop]
  · have h := hashmem_eq [c] (by simpa using hc)
    simp only [List.length_singleton, Nat.sub_self, List.take_zero] at h
    rw [h]
    simp [pearson]
  · unfold hashstr hashmem
    rw [hashstrLoop_eq]

theorem hashmem_is_pearson_witness :
    (∀ x ∈ [100, 103, 100], x < 256) ∧ 65 < 256
    ∧ hashmem [100, 103, 100] 3 = 256 * pearson [100, 103] + pearson [100, 103, 100]
    ∧ hashmem [65] 1 = tab.getD 65 0
    ∧ hashstr [100, 103, 100, 0, 7] 9 = hashmem [100, 103, 100, 0, 7] 3 :=
  have h := hashmem_is_pearson [100, 103, 100] (by decide) 65 (by decide)
    [100, 103, 100, 0, 7] 9
  ⟨by decide, by decide, h.1, h.2.2.2.2.1, h.2.2.2.2.2⟩

end Dgd

namespace Dgd

/-! ## Theorems: the hash table -/

theorem chain_unique (next : Nat → Nat) (es : List Nat) :
    ∀ (p : Nat) (es' : List Nat), Chain next p es → Chain next p es' → es = es' := by
  induction es with
  | nil =>
    intro p es' h h'
    cases es' with
    | nil => rfl
    | cons a es' =>
      simp only [Chain] at h h'
      exact absurd (h'.1 ▸ h) h'.2.1
  | cons a es ih =>
    intro p es' h h'
    cases es' with
    | nil =>
      simp only [Chain] at h h'
      exact absurd (h.1 ▸ h') h.2.1
    | cons b es' =>
      simp only [Chain] at h h'
      have hab : a = b := h.1.symm.trans h'.1
      subst hab
      rw [ih _ _ h.2.2 h'.2.2]

theorem chain_suffix (next : Nat → Nat) (es : List Nat) :
    ∀ (p a : Nat), Chain next p es → a ∈ es →
      ∃ suf, Chain next a suf ∧ suf.length ≤ es.length := by
  induction es with
  | nil => intro p a _ ha; simp at ha
  | cons b es ih =>
    intro p a h ha
    simp only [Chain] at h
    rcases List.mem_cons.1 ha with hab | hin
    · subst hab
      exact ⟨a :: es, ⟨rfl, h.2.1, h.2.2⟩, le_refl _⟩
    · obtain ⟨suf, hs, hl⟩ := ih _ a h.2.2 hin
      exact ⟨suf, hs, by simp; omega⟩

theorem chain_nodup (next : Nat → Nat) (es : List Nat) :
    ∀ (p : Nat), Chain next p es → es.Nodup := by
  induction es with
  | nil => intro _ _; exact List.nodup_nil
  | cons a es ih =>
    intro p h
    simp only [Chain] at h
    refine List.nodup_cons.2 ⟨?_, ih _ h.2.2⟩
    intro ha
    obtain ⟨suf, hs, hl⟩ := chain_suffix next es _ a h.2.2 ha
    have h1 : Chain next a (a :: es) := ⟨rfl, h.2.1, h.2.2⟩
    have := chain_unique next _ _ _ h1 hs
    rw [← this] at hl
    simp at hl

theorem lookupLoop_nomove (name : List Nat) (first : Slot) (es : List Nat) :
    ∀ (fuel : Nat) (ht : HashtabImpl) (e : Slot), Chain ht.next (ht.deref e) es →
      es.length < fuel →
      lookupLoop name false first fuel ht e
        = some (slotAt e es (es.findIdx (ht.nameMatches name)), ht) := by
  induction es with
  | nil =>
    intro fuel ht e hc hf
    cases fuel with
    | zero => simp at hf
    | succ fuel =>
      simp only [Chain] at hc
      simp [lookupLoop, hc, slotAt]
  | cons a es ih =>
    intro fuel ht e hc hf
    cases fuel with
    | zero => simp at hf
    | succ fuel =>
      obtain ⟨h1, h2, h3⟩ := hc
      have hf' : es.length < fuel := by simpa using hf
      by_cases hm : ht.nameMatches name a = true
      · have hm' := hm
        unfold HashtabImpl.nameMatches at hm'
        simp [lookupLoop, h1, h2, hm', List.findIdx_cons, hm, slotAt]
      · have hm' := hm
        unfold HashtabImpl.nameMatches at hm'
        have := ih fuel ht (.next a) h3 hf'
        simp only [lookupLoop, h1, h2, if_false, hm', this, List.findIdx_cons, hm]
        cases List.findIdx (ht.nameMatches name) es <;> simp [slotAt]

theorem slotAt_cons_succ (e : Slot) (a : Nat) (es : List Nat) (j : Nat) :
    slotAt e (a :: es) (j + 1) = slotAt (.next a) es j := by
  cases j with
  | zero => simp [slotAt]
  | succ j => simp [slotAt]

theorem slotAt_end_cons (e : Slot) (a : Nat) (es : List Nat) :
    slotAt e (a :: es) (a :: es).length = slotAt (.next a) es es.length :=
  slotAt_cons_succ e a es es.length

/-- The slot at position `k` of a chain holds entry `k`, and NULL at the end. -/
theorem chain_deref_slotAt (ht : HashtabImpl) (es : List Nat) :
    ∀ (e : Slot) (k : Nat), Chain ht.next (ht.deref e) es → k ≤ es.length →
      ht.deref (slotAt e es k) = es.getD k 0 := by
  induction es with
  | nil =>
    intro e k hc hk
    have hk0 : k = 0 := by simpa using hk
    subst hk0
    simpa [slotAt, Chain] using hc
  | cons a es ih =>
    intro e k hc hk
    obtain ⟨h1, _, h3⟩ := hc
    cases k with
    | zero => simpa [slotAt] using h1
    | succ j =>
      rw [slotAt_cons_succ, ih (.next a) j h3 (by simpa using hk)]
      simp

/-- Storing through the slot that ends a chain appends to the chain. -/
theorem chain_store_end (ht : HashtabImpl) (new : Nat) (hn : new ≠ 0)
    (hnext : ht.next new = 0) (es : List Nat) :
    ∀ (e : Slot), Chain ht.next (ht.deref e) es → new ∉ es →
      (∀ x, e = .next x → x ∉ es ∧ x ≠ new) →
      Chain (ht.store (slotAt e es es.length) new).next
        ((ht.store (slotAt e es es.length) new).deref e) (es ++ [new]) := by
  induction es with
  | nil =>
    intro e hc _ he
    cases e with
    | bucket i => simp [slotAt, HashtabImpl.store, HashtabImpl.deref, Chain, hn, hnext]
    | next x =>
      have hx := (he x rfl).2
      simp [slotAt, HashtabImpl.store, HashtabImpl.deref, Chain, hn, hnext,
        Function.update_noteq (Ne.symm hx)]
  | cons a es ih =>
    intro e hc hnew he
    obtain ⟨h1, h2, h3⟩ := hc
    have hnd : (a :: es).Nodup := chain_nodup ht.next _ _ ⟨h1, h2, h3⟩
    have ha : a ∉ es := (List.nodup_cons.1 hnd).1
    have hnew' : new ∉ es := fun h => hnew (List.mem_cons_of_mem _ h)
    have hane : a ≠ new := fun h => hnew (h ▸ List.mem_cons_self _ _)
    have := ih (.next a) h3 hnew' (by
      intro x hx
      cases hx
      exact ⟨ha, hane⟩)
    rw [slotAt_end_cons]
    refine ⟨?_, h2, this⟩
    -- the head cell is not the slot written
    cases e with
    | bucket i =>
      cases es with
      | nil => simpa [slotAt, HashtabImpl.store, HashtabImpl.deref] using h1
      | cons b es => simpa [slotAt, HashtabImpl.store, HashtabImpl.deref] using h1
    | next x =>
      have hx := (he x rfl).1
      have hxa : x ≠ a := fun h => hx (h ▸ List.mem_cons_self _ _)
      cases es with
      | nil =>
        simpa [slotAt, HashtabImpl.store, HashtabImpl.deref, Function.update_noteq hxa]
          using h1
      | cons b es =>
        have hmem : (b :: es).getD es.length 0 ∈ a :: b :: es := by
          rw [List.getD_eq_getElem _ _ (by simp)]
          exact List.mem_cons_of_mem _ (List.getElem_mem _)
        have hxl : x ≠ (b :: es).getD es.length 0 := fun h => hx (h ▸ hmem)
        simp only [slotAt, HashtabImpl.store, HashtabImpl.deref, List.length_cons]
        rw [Function.update_noteq hxl]
        exact h1

/-- C10: `lookup(key, FALSE)` returns the slot of the first entry of the
bucket chain selected by the hash of the key whose name matches the key, and
the empty slot that ends the chain when no entry matches; a new entry stored
through that empty slot is appended to the chain; the table is unchanged. -/
theorem lookup_without_move (ht : HashtabImpl) (name es : List Nat) (fuel : Nat)
    (hsize : 0 < ht.m_size)
    (hc : Chain ht.next (ht.m_table (ht.bucketOf name)) es) (hf : es.length < fuel) :
    lookup fuel ht name false
      = some (slotAt (.bucket (ht.bucketOf name)) es (es.findIdx (ht.nameMatches name)), ht)
    ∧ ht.bucketOf name < ht.m_size
    ∧ (∀ j, j < es.findIdx (ht.nameMatches name) → ht.nameMatches name (es.getD j 0) = false)
    ∧ ((∃ x ∈ es, ht.nameMatches name x = true) →
        es.findIdx (ht.nameMatches name) < es.length
        ∧ ht.nameMatches name (es.getD (es.findIdx (ht.nameMatches name)) 0) = true
        ∧ ht.deref (slotAt (.bucket (ht.bucketOf name)) es (es.findIdx (ht.nameMatches name)))
            = es.getD (es.findIdx (ht.nameMatches name)) 0)
    ∧ ((∀ x ∈ es, ht.nameMatches name x = false) →
        es.findIdx (ht.nameMatches name) = es.length
        ∧ ht.deref (slotAt (.bucket (ht.bucketOf name)) es es.length) = 0
        ∧ ∀ new, new ≠ 0 → new ∉ es → ht.next new = 0 →
            Chain (ht.store (slotAt (.bucket (ht.bucketOf name)) es es.length) new).next
              ((ht.store (slotAt (.bucket (ht.bucketOf name)) es es.length) new).m_table
                (ht.bucketOf name))
              (es ++ [new])) := by
  have hc' : Chain ht.next (ht.deref (.bucket (ht.bucketOf name))) es := hc
  refine ⟨?_, ?_, ?_, ?_, ?_⟩
  · unfold lookup
    cases hm : ht.m_mem
    · have := lookupLoop_nomove name (.bucket (hashstr name ht.m_maxlen % ht.m_size)) es fuel ht
        (.bucket (hashstr name ht.m_maxlen % ht.m_size))
        (by simpa [HashtabImpl.bucketOf, hm] using hc') hf
      simpa [HashtabImpl.bucketOf, hm] using this
    · have := lookupLoop_nomove name (.bucket (hashmem name ht.m_maxlen % ht.m_size)) es fuel ht
        (.bucket (hashmem name ht.m_maxlen % ht.m_size))
        (by simpa [HashtabImpl.bucketOf, hm] using hc') hf
      simpa [HashtabImpl.bucketOf, hm] using this
  · exact Nat.mod_lt _ hsize
  · intro j hj
    have hlt : j < es.length := Nat.lt_of_lt_of_le hj (List.findIdx_le_length _)
    have := List.not_of_lt_findIdx hj
    rw [List.getD_eq_getElem _ _ hlt]
    exact this
  · intro hex
    have hlt : es.findIdx (ht.nameMatches name) < es.length := List.findIdx_lt_length.2 hex
    refine ⟨hlt, ?_, chain_deref_slotAt ht es _ _ hc' (Nat.le_of_lt hlt)⟩
    rw [List.getD_eq_getElem _ _ hlt]
    exact List.findIdx_getElem
  · intro hall
    refine ⟨List.findIdx_eq_length.2 hall, ?_, ?_⟩
    · rw [chain_deref_slotAt ht es _ _ hc' (le_refl _)]
      simp
    · intro new hn hnew hnext
      exact chain_store_end ht new hn hnext es (.bucket (ht.bucketOf name)) hc' hnew
        (by intro x hx; cases hx)

theorem lookup_without_move_witness :
    0 < exampleTable.m_size
    ∧ Chain exampleTable.next (exampleTable.m_table (exampleTable.bucketOf [3, 4])) [10, 20]
    ∧ lookup 3 exampleTable [3, 4] false = some (Slot.next 10, exampleTable)
    ∧ exampleTable.deref (Slot.next 10) = 20 :=
  have hc : Chain exampleTable.next (exampleTable.m_table (exampleTable.bucketOf [3, 4]))
      [10, 20] := by decide
  have h := lookup_without_move exampleTable [3, 4] [10, 20] 3 (by decide) hc (by decide)
  ⟨by decide, hc, h.1, (h.2.2.2.1 ⟨20, by decide, by decide⟩).2.2⟩

end Dgd

namespace Dgd

/-! ## Theorems: the magic numbers and the mode counter -/

theorem and_split (n a b c d : Nat) (hb : b < 2 ^ n) (hd : d < 2 ^ n) :
    (2 ^ n * a + b) &&& (2 ^ n * c + d) = 2 ^ n * (a &&& c) + (b &&& d) := by
  apply Nat.eq_of_testBit_eq
  intro i
  have hbd : b &&& d < 2 ^ n := Nat.and_lt_two_pow b hd
  rw [Nat.testBit_and, Nat.testBit_mul_pow_two_add a hb, Nat.testBit_mul_pow_two_add c hd,
    Nat.testBit_mul_pow_two_add (a &&& c) hbd]
  split <;> simp [Nat.testBit_and]

theorem or_magic (v m : Nat) (hv : v < 2 ^ 24) : v ||| 2 ^ 24 * m = 2 ^ 24 * m + v := by
  rw [Nat.or_comm, Nat.mul_add_lt_is_or hv]

theorem stamp_static (v : Nat) (hv : v < 2 ^ 24) :
    (v ||| SM_MAGIC) &&& MAGIC_MASK = SM_MAGIC ∧ (v ||| SM_MAGIC) &&& SIZE_MASK = v := by
  have h1 : SM_MAGIC = 2 ^ 24 * 0xc5 := by decide
  have h2 : MAGIC_MASK = 2 ^ 24 * 0xff + 0 := by decide
  have h3 : SIZE_MASK = 2 ^ 24 * 0 + (2 ^ 24 - 1) := by decide
  constructor
  · rw [h1, or_magic v _ hv, h2, and_split 24 _ _ _ _ hv (by decide)]
    simp only [Nat.and_zero, Nat.add_zero]
    decide
  · rw [h1, or_magic v _ hv, h3, and_split 24 _ _ _ _ hv (by decide)]
    simp only [Nat.and_zero, Nat.mul_zero, Nat.zero_add]
    rw [Nat.and_pow_two_sub_one_eq_mod, Nat.mod_eq_of_lt hv]

theorem stamp_dynamic (v : Nat) (hv : v < 2 ^ 24) :
    (v ||| DM_MAGIC) &&& MAGIC_MASK = DM_MAGIC ∧ (v ||| DM_MAGIC) &&& SIZE_MASK = v := by
  have h1 : DM_MAGIC = 2 ^ 24 * 0xc6 := by decide
  have h2 : MAGIC_MASK = 2 ^ 24 * 0xff + 0 := by decide
  have h3 : SIZE_MASK = 2 ^ 24 * 0 + (2 ^ 24 - 1) := by decide
  constructor
  · rw [h1, or_magic v _ hv, h2, and_split 24 _ _ _ _ hv (by decide)]
    simp only [Nat.and_zero, Nat.add_zero]
    decide
  · rw [h1, or_magic v _ hv, h3, and_split 24 _ _ _ _ hv (by decide)]
    simp only [Nat.and_zero, Nat.mul_zero, Nat.zero_add]
    rw [Nat.and_pow_two_sub_one_eq_mod, Nat.mod_eq_of_lt hv]

theorem runModes_eq (calls : List ModeCall) :
    ∀ st : Alloc, runModes calls st
      = { st with slevel := st.slevel + calls.count .mstatic - calls.count .mdynamic } := by
  induction calls with
  | nil => intro st; simp [runModes]
  | cons c calls ih =>
    intro st
    have h : runModes (c :: calls) st = runModes calls (c.run st) := rfl
    rw [h, ih]
    cases c
    · simp only [ModeCall.run, mstatic, List.count_cons_self, List.count_cons_of_ne (by decide :
        ModeCall.mdynamic ≠ ModeCall.mstatic)]
      congr 1
      push_cast
      omega
    · simp only [ModeCall.run, mdynamic, List.count_cons_self, List.count_cons_of_ne (by decide :
        ModeCall.mstatic ≠ ModeCall.mdynamic)]
      congr 1
      push_cast
      omega

/-- C3: after any sequence of `mstatic()` and `mdynamic()` calls the mode
counter is its old value (0 in the initial state) plus the number of
`mstatic` calls minus the number of `mdynamic` calls, nothing else has
changed, and `alloc` takes the block from `salloc` and stamps `SM_MAGIC`
exactly when the counter is positive, and from `dalloc` with `DM_MAGIC`
otherwise; the two stamps can be told apart. -/
theorem alloc_pool_by_counter (C : Config) (dummy fuel : Nat) (st0 : Alloc)
    (calls : List ModeCall) (n : Nat) (h : Heap) (brk memlimit : Nat) :
    (Alloc.init h brk memlimit).slevel = 0
    ∧ runModes calls st0
        = { st0 with slevel := st0.slevel + calls.count .mstatic - calls.count .mdynamic }
    ∧ alloc C dummy fuel (runModes calls st0) n
        = (if 0 < st0.slevel + calls.count .mstatic - calls.count .mdynamic then
            match salloc C (runModes calls st0) (allocSize C n) with
            | .ok c st => .ok (c + C.sizeofLong) (st.wr c (st.size c ||| SM_MAGIC))
            | .fatal msg st => .fatal msg st
            | .nofuel => .nofuel
          else
            match dalloc C dummy fuel (runModes calls st0) (allocSize C n) with
            | .ok c st =>
              .ok (c + C.sizeofLong)
                ({ st with dmemused := st.dmemused + st.size c }.wr c (st.size c ||| DM_MAGIC))
            | .fatal msg st => .fatal msg st
            | .nofuel => .nofuel)
    ∧ (∀ v, v < 2 ^ 24 → (v ||| SM_MAGIC) &&& MAGIC_MASK = SM_MAGIC
        ∧ (v ||| DM_MAGIC) &&& MAGIC_MASK = DM_MAGIC)
    ∧ SM_MAGIC ≠ DM_MAGIC := by
  refine ⟨rfl, runModes_eq calls st0, ?_, ?_, by decide⟩
  · have hs : (runModes calls st0).slevel
        = st0.slevel + calls.count .mstatic - calls.count .mdynamic := by
      rw [runModes_eq]
    rw [← hs]
    rfl
  · intro v hv
    exact ⟨(stamp_static v hv).1, (stamp_dynamic v hv).1⟩

end Dgd

namespace Dgd

/-! ## Theorems: what the allocator functions leave unchanged -/

theorem onHeap_ok (st st' : Alloc) (r : Option Heap) (u : Unit)
    (h : st.onHeap r = .ok u st') : ∃ hp, r = some hp ∧ st' = { st with toHeap := hp } := by
  cases r with
  | none => simp [Alloc.onHeap] at h
  | some hp =>
    simp only [Alloc.onHeap, Res.ok.injEq] at h
    exact ⟨hp, rfl, h.2.symm⟩

theorem onHeap_not_fatal (st st' : Alloc) (r : Option Heap) (msg : String) :
    st.onHeap r ≠ .fatal msg st' := by
  cases r <;> simp [Alloc.onHeap]

theorem newmem_ok (st st' : Alloc) (size p : Nat) (h : newmem st size = .ok p st') :
    p = st.brk ∧ st' = { st with brk := st.brk + size } := by
  unfold newmem at h
  split at h
  · simp at h
  · simp only [Res.ok.injEq] at h
    exact ⟨h.1.symm, h.2.symm⟩

theorem dallocSplit_counters (C : Config) (fuel : Nat) (st st' : Alloc) (c size c' : Nat)
    (h : dallocSplit C fuel st c size = .ok c' st') :
    c' = c ∧ st'.dmemused = st.dmemused ∧ st'.smemsize = st.smemsize
      ∧ st'.slevel = st.slevel := by
  unfold dallocSplit at h
  simp only at h
  split at h
  · split at h
    · rename_i u st2 heq
      obtain ⟨hp, _, rfl⟩ := onHeap_ok _ _ _ _ heq
      simp only [Res.ok.injEq] at h
      obtain ⟨rfl, rfl⟩ := h
      simp [Alloc.wr]
    · simp at h
    · simp at h
  · simp only [Res.ok.injEq] at h
    obtain ⟨rfl, rfl⟩ := h
    simp

theorem dallocLarge_counters (C : Config) (dummy fuel : Nat) (st st' : Alloc) (size c' : Nat)
    (h : dallocLarge C dummy fuel st size = .ok c' st') :
    st'.dmemused = st.dmemused ∧ st'.smemsize = st.smemsize ∧ st'.slevel = st.slevel := by
  unfold dallocLarge at h
  simp only at h
  split at h
  · simp at h
  · rename_i c hp _
    split at h
    · split at h
      · rename_i u st2 heq
        obtain ⟨hp2, _, rfl⟩ := onHeap_ok _ _ _ _ heq
        obtain ⟨_, h1, h2, h3⟩ := dallocSplit_counters _ _ _ _ _ _ _ h
        exact ⟨h1, h2, h3⟩
      · simp at h
      · simp at h
    · split at h
      · simp at h
      · simp at h
      · rename_i p st2 heq
        obtain ⟨_, rfl⟩ := newmem_ok _ _ _ _ heq
        split at h
        · simp at h
        · obtain ⟨_, h1, h2, h3⟩ := dallocSplit_counters _ _ _ _ _ _ _ h
          exact ⟨h1, h2, h3⟩

theorem dalloc_counters (C : Config) (dummy : Nat) :
    ∀ (fuel : Nat) (st st' : Alloc) (size c' : Nat),
      dalloc C dummy fuel st size = .ok c' st' →
      st'.dmemused = st.dmemused ∧ st'.smemsize = st.smemsize ∧ st'.slevel = st.slevel := by
  intro fuel
  induction fuel with
  | zero => intro st st' size c' h; simp [dalloc] at h
  | succ fuel ih =>
    intro st st' size c' h
    unfold dalloc at h
    split at h
    · split at h
      · rename_i c st2 heq
        obtain ⟨_, rfl⟩ := newmem_ok _ _ _ _ heq
        simp only [Res.ok.injEq] at h
        obtain ⟨_, rfl⟩ := h
        simp [Alloc.wr]
      · simp at h
      · simp at h
    · split at h
      · simp only at h
        split at h
        · simp only [Res.ok.injEq] at h
          obtain ⟨_, rfl⟩ := h
          simp [Alloc.setDchunks]
        · split at h
          · simp at h
          · simp at h
          · rename_i u st2 heq
            have hst2 : st2.dmemused = st.dmemused ∧ st2.smemsize = st.smemsize
                ∧ st2.slevel = st.slevel := by
              split at heq
              · split at heq
                · rename_i d st3 heq3
                  have := ih _ _ _ _ heq3
                  simp only [Res.ok.injEq] at heq
                  obtain ⟨_, rfl⟩ := heq
                  simpa [Alloc.wr] using this
                · simp at heq
                · simp at heq
              · simp only [Res.ok.injEq] at heq
                obtain ⟨_, rfl⟩ := heq
                simp
            split at h
            · simp only [Res.ok.injEq] at h
              obtain ⟨_, rfl⟩ := h
              simpa [Alloc.wr] using hst2
            · simp only [Res.ok.injEq] at h
              obtain ⟨_, rfl⟩ := h
              simpa [Alloc.wr] using hst2
      · exact dallocLarge_counters _ _ _ _ _ _ _ h


@[simp] theorem setLeft_size (h : Heap) (a v : Nat) : (h.setLeft a v).size = h.size := rfl
@[simp] theorem setRight_size (h : Heap) (a v : Nat) : (h.setRight a v).size = h.size := rfl
@[simp] theorem setParent_size (h : Heap) (a v : Nat) : (h.setParent a v).size = h.size := rfl
@[simp] theorem setDtree_size (h : Heap) (v : Nat) : (h.setDtree v).size = h.size := rfl
@[simp] theorem setParentIf_size (h : Heap) (a v : Nat) : (h.setParentIf a v).size = h.size := by
  unfold Heap.setParentIf; split <;> rfl
@[simp] theorem setLeft_next (h : Heap) (a v : Nat) : (h.setLeft a v).next = h.next := rfl
@[simp] theorem setRight_next (h : Heap) (a v : Nat) : (h.setRight a v).next = h.next := rfl
@[simp] theorem setParent_next (h : Heap) (a v : Nat) : (h.setParent a v).next = h.next := rfl
@[simp] theorem setDtree_next (h : Heap) (v : Nat) : (h.setDtree v).next = h.next := rfl
@[simp] theorem setParentIf_next (h : Heap) (a v : Nat) : (h.setParentIf a v).next = h.next := by
  unfold Heap.setParentIf; split <;> rfl

theorem insertLoop_size (size : Nat) :
    ∀ (fuel : Nat) (h h' : Heap) (n l r : Nat), insertLoop size fuel h n l r = some h' →
      h'.size = h.size ∧ h'.next = h.next := by
  intro fuel
  induction fuel with
  | zero => intro h h' n l r hh; simp [insertLoop] at hh
  | succ fuel ih =>
    intro h h' n l r hh
    unfold insertLoop at hh
    simp only at hh
    repeat' split at hh
    all_goals first
      | (simp only [Option.some.injEq] at hh; subst hh; simp)
      | (have hi := ih _ _ _ _ _ hh; simpa using hi)

theorem insert_size (fuel : Nat) (h h' : Heap) (c : Nat) (hh : insert fuel h c = some h') :
    h'.size = h.size ∧ h'.next = h.next := by
  unfold insert at hh
  simp only at hh
  split at hh
  · simp only [Option.some.injEq] at hh; subst hh; simp
  · split at hh
    · simp at hh
    · rename_i h2 heq
      have := insertLoop_size _ _ _ _ _ _ _ heq
      simp only [Option.some.injEq] at hh; subst hh
      simpa using this

theorem deleteLoop_size :
    ∀ (fuel : Nat) (h h' : Heap) (t t' : Nat), deleteLoop fuel h t = some (h', t') →
      h'.size = h.size ∧ h'.next = h.next := by
  intro fuel
  induction fuel with
  | zero => intro h h' t t' hh; simp [deleteLoop] at hh
  | succ fuel ih =>
    intro h h' t t' hh
    unfold deleteLoop at hh
    simp only at hh
    split at hh
    · simp only [Option.some.injEq, Prod.mk.injEq] at hh
      obtain ⟨rfl, _⟩ := hh
      simp
    · have := ih _ _ _ _ hh
      simpa using this

theorem delete_size (fuel : Nat) (h h' : Heap) (c : Nat) (hh : delete fuel h c = some h') :
    h'.size = h.size ∧ h'.next = h.next := by
  unfold delete at hh
  simp only at hh
  split at hh
  · repeat' split at hh
    all_goals (simp only [Option.some.injEq] at hh; subst hh; simp)
  · split at hh
    · simp at hh
    · rename_i h2 t heq
      have := deleteLoop_size _ _ _ _ _ heq
      simp only [Option.some.injEq] at hh; subst hh
      repeat' split
      all_goals simpa using this

theorem seekLoop_size (dummy size : Nat) :
    ∀ (fuel : Nat) (h h' : Heap) (n l r c : Nat), seekLoop dummy size fuel h n l r = some (c, h') →
      h'.size = h.size ∧ h'.next = h.next := by
  intro fuel
  induction fuel with
  | zero => intro h h' n l r c hh; simp [seekLoop] at hh
  | succ fuel ih =>
    intro h h' n l r c hh
    unfold seekLoop at hh
    simp only at hh
    repeat' split at hh
    all_goals first
      | (simp only [Option.some.injEq, seekNone, seekFinish, seekUnlink, Prod.mk.injEq] at hh
         obtain ⟨_, rfl⟩ := hh; simp)
      | (have hi := ih _ _ _ _ _ _ hh; simpa using hi)

theorem seek_size (dummy fuel : Nat) (h h' : Heap) (size c : Nat)
    (hh : seek dummy fuel h size = some (c, h')) : h'.size = h.size ∧ h'.next = h.next := by
  unfold seek at hh
  split at hh
  · simp only [Option.some.injEq, Prod.mk.injEq] at hh
    obtain ⟨_, rfl⟩ := hh
    simp
  · exact seekLoop_size _ _ _ _ _ _ _ _ _ hh

end Dgd

namespace Dgd

theorem and_mask_of_lt (x : Nat) (hx : x < 2 ^ 24) : x &&& MAGIC_MASK = 0 := by
  have h2 : MAGIC_MASK = 2 ^ 24 * 0xff + 0 := by decide
  have h0 : x = 2 ^ 24 * 0 + x := by simp
  rw [h0, h2, and_split 24 _ _ _ _ hx (by decide)]
  simp

theorem lt_of_and_mask (x : Nat) (hx : x < 2 ^ 32) (h : x &&& MAGIC_MASK = 0) : x < 2 ^ 24 := by
  have h2 : MAGIC_MASK = 2 ^ 24 * 0xff + 0 := by decide
  have hx0 : x = 2 ^ 24 * (x / 2 ^ 24) + x % 2 ^ 24 := (Nat.div_add_mod x (2 ^ 24)).symm
  have hlt : x % 2 ^ 24 < 2 ^ 24 := Nat.mod_lt _ (by decide)
  have hdiv : x / 2 ^ 24 < 2 ^ 8 := by
    apply Nat.div_lt_of_lt_mul
    simpa using hx
  rw [hx0, h2, and_split 24 _ _ _ _ hlt (by decide)] at h
  have h255 : (0xff : Nat) = 2 ^ 8 - 1 := by decide
  rw [h255, Nat.and_pow_two_sub_one_eq_mod, Nat.mod_eq_of_lt hdiv] at h
  simp only [Nat.and_zero, Nat.add_zero] at h
  have : x / 2 ^ 24 = 0 := by
    rcases Nat.mul_eq_zero.1 h with h' | h'
    · simp at h'
    · exact h'
  omega

theorem mask_ne_magic_of_lt (x : Nat) (hx : x < 2 ^ 25) :
    x &&& MAGIC_MASK ≠ SM_MAGIC ∧ x &&& MAGIC_MASK ≠ DM_MAGIC := by
  have h1 : x &&& MAGIC_MASK ≤ x := Nat.and_le_left
  have h2 : (2 : Nat) ^ 25 < SM_MAGIC := by decide
  have h3 : (2 : Nat) ^ 25 < DM_MAGIC := by decide
  constructor <;> omega

@[simp] theorem wr_size (st : Alloc) (a v : Nat) :
    (st.wr a v).size = Function.update st.size a v := rfl
@[simp] theorem wr_dchunksz (st : Alloc) (a v : Nat) : (st.wr a v).dchunksz = st.dchunksz := rfl
@[simp] theorem wr_dmemused (st : Alloc) (a v : Nat) : (st.wr a v).dmemused = st.dmemused := rfl
@[simp] theorem wr_smemsize (st : Alloc) (a v : Nat) : (st.wr a v).smemsize = st.smemsize := rfl
@[simp] theorem wr_dmemsize (st : Alloc) (a v : Nat) : (st.wr a v).dmemsize = st.dmemsize := rfl
@[simp] theorem wr_slevel (st : Alloc) (a v : Nat) : (st.wr a v).slevel = st.slevel := rfl
@[simp] theorem wrNext_size (st : Alloc) (a v : Nat) : (st.wrNext a v).size = st.size := rfl
@[simp] theorem setDchunks_size (st : Alloc) (a v : Nat) : (st.setDchunks a v).size = st.size :=
  rfl

/-- The outcome of running `delete` or `insert` inside `dfree`: only the links
of the tree change. -/
theorem onHeap_delete_ok (st st' : Alloc) (fuel c : Nat) (u : Unit)
    (h : st.onHeap (delete fuel st.toHeap c) = .ok u st') :
    st'.size = st.size ∧ st'.dmemused = st.dmemused ∧ st'.smemsize = st.smemsize
      ∧ st'.dmemsize = st.dmemsize ∧ st'.slevel = st.slevel := by
  obtain ⟨hp, heq, rfl⟩ := onHeap_ok _ _ _ _ h
  exact ⟨(delete_size _ _ _ _ heq).1, rfl, rfl, rfl, rfl⟩

theorem onHeap_insert_ok (st st' : Alloc) (fuel c : Nat) (u : Unit)
    (h : st.onHeap (insert fuel st.toHeap c) = .ok u st') :
    st'.size = st.size ∧ st'.dmemused = st.dmemused ∧ st'.smemsize = st.smemsize
      ∧ st'.dmemsize = st.dmemsize ∧ st'.slevel = st.slevel := by
  obtain ⟨hp, heq, rfl⟩ := onHeap_ok _ _ _ _ h
  exact ⟨(insert_size _ _ _ _ heq).1, rfl, rfl, rfl, rfl⟩

theorem dfree_counters (C : Config) (fuel : Nat) (st st' : Alloc) (c : Nat)
    (h : dfree C fuel st c = .ok () st') :
    st'.dmemused = st.dmemused ∧ st'.smemsize = st.smemsize ∧ st'.dmemsize = st.dmemsize
      ∧ st'.slevel = st.slevel := by
  unfold dfree dfreePrev dfreeNext at h
  split at h
  · simp only [Res.ok.injEq, true_and] at h; subst h; simp
  · split at h
    · simp only [Res.ok.injEq, true_and] at h; subst h; simp [Alloc.setDchunks, Alloc.wrNext]
    · simp only at h
      split at h
      · simp at h
      · simp at h
      · rename_i c1 st1 heq1
        have h1 : st1.dmemused = st.dmemused ∧ st1.smemsize = st.smemsize
            ∧ st1.dmemsize = st.dmemsize ∧ st1.slevel = st.slevel := by
          split at heq1
          · split at heq1
            · split at heq1
              · rename_i u st2 heq2
                have := (onHeap_delete_ok _ _ _ _ _ heq2).2
                simp only [Res.ok.injEq] at heq1
                obtain ⟨_, rfl⟩ := heq1
                simpa using this
              · simp at heq1
              · simp at heq1
            · simp only [Res.ok.injEq] at heq1
              obtain ⟨_, rfl⟩ := heq1
              simp
          · simp only [Res.ok.injEq] at heq1
            obtain ⟨_, rfl⟩ := heq1
            simp
        split at h
        · simp at h
        · simp at h
        · rename_i u st3 heq3
          have h3 : st3.dmemused = st1.dmemused ∧ st3.smemsize = st1.smemsize
              ∧ st3.dmemsize = st1.dmemsize ∧ st3.slevel = st1.slevel := by
            split at heq3
            · split at heq3
              · rename_i u st2 heq2
                have := (onHeap_delete_ok _ _ _ _ _ heq2).2
                simp only [Res.ok.injEq, true_and] at heq3
                subst heq3
                simpa using this
              · simp at heq3
              · simp at heq3
            · simp only [Res.ok.injEq, true_and] at heq3
              subst heq3
              simp
          have h4 := (onHeap_insert_ok _ _ _ _ _ h).2
          refine ⟨?_, ?_, ?_, ?_⟩
          · rw [h4.1, h3.1, h1.1]
          · rw [h4.2.1, h3.2.1, h1.2.1]
          · rw [h4.2.2.1, h3.2.2.1, h1.2.2.1]
          · rw [h4.2.2.2, h3.2.2.2, h1.2.2.2]


theorem dfree_not_fatal (C : Config) (fuel : Nat) (st st' : Alloc) (c : Nat) (msg : String) :
    dfree C fuel st c ≠ .fatal msg st' := by
  intro h
  unfold dfree dfreePrev dfreeNext at h
  split at h
  · simp at h
  · split at h
    · simp at h
    · simp only at h
      split at h
      · rename_i m st1 heq1
        split at heq1
        · split at heq1
          · split at heq1
            · simp at heq1
            · rename_i m2 st2 heq2
              exact onHeap_not_fatal _ _ _ _ heq2
            · simp at heq1
          · simp at heq1
        · simp at heq1
      · simp at h
      · rename_i c1 st1 heq1
        split at h
        · rename_i m3 st3 heq3
          split at heq3
          · split at heq3
            · simp at heq3
            · rename_i m2 st2 heq2
              exact onHeap_not_fatal _ _ _ _ heq2
            · simp at heq3
          · simp at heq3
        · simp at h
        · exact onHeap_not_fatal _ _ _ _ h

theorem dfree_small_ok (C : Config) (fuel : Nat) (st : Alloc) (c : Nat)
    (h : st.dchunksz = 0 ∨ st.size c < C.DLIMIT) : ∃ st', dfree C fuel st c = .ok () st' := by
  unfold dfree
  split
  · exact ⟨_, rfl⟩
  · rename_i h0
    have h1 : st.size c < C.DLIMIT := h.resolve_left h0
    simp only [h1, if_true]
    exact ⟨_, rfl⟩

/-- After `dfree` the header word of the chunk that was released still holds
no magic number. -/
theorem dfree_header (C : Config) (fuel : Nat) (st st' : Alloc) (c : Nat)
    (h : dfree C fuel st c = .ok () st')
    (hv : st.size c < 2 ^ 24) (hSL : 0 < C.sizeofLong) (hc : C.sizeofLong ≤ c)
    (hprev : C.DLIMIT ≤ st.size c → st.size (c - C.sizeofLong) ≠ 0 →
      st.size (c - C.sizeofLong) ≤ c
        ∧ (st.size (c - st.size (c - C.sizeofLong)) &&& MAGIC_MASK = 0 →
            st.size (c - st.size (c - C.sizeofLong)) = st.size (c - C.sizeofLong)))
    (hnext : C.DLIMIT ≤ st.size c → st.size (c + st.size c) < 2 ^ 32) :
    st'.size c < 2 ^ 25 := by
  have hv25 : st.size c < 2 ^ 25 := by omega
  unfold dfree dfreePrev dfreeNext at h
  split at h
  · simp only [Res.ok.injEq, true_and] at h; subst h; exact hv25
  · split at h
    · simp only [Res.ok.injEq, true_and] at h; subst h; simpa using hv25
    · rename_i hlarge
      replace hprev := hprev (Nat.le_of_not_lt hlarge)
      replace hnext := hnext (Nat.le_of_not_lt hlarge)
      have hbig : C.sizeofLong < st.size c := by
        have : C.DLIMIT ≤ st.size c := Nat.le_of_not_lt hlarge
        unfold Config.DLIMIT Config.OFFSET DSMALL at this
        omega
      simp only at h
      split at h
      · simp at h
      · simp at h
      · rename_i c1 st1 heq1
        -- the state after the merge with the previous block
        have h1 : st1.size c = st.size c ∧ c1 ≤ c ∧ c + st.size c = c1 + st1.size c1
            ∧ st1.size (c + st.size c) = st.size (c + st.size c)
            ∧ (c1 = c ∨ c1 < c) := by
          split at heq1
          · rename_i hw
            obtain ⟨hw1, hw2m⟩ := hprev hw
            have hpp : c - C.sizeofLong + C.sizeofLong - st.size (c - C.sizeofLong)
                = c - st.size (c - C.sizeofLong) := by omega
            rw [hpp] at heq1
            split at heq1
            · rename_i hfree
              have hw2 := hw2m hfree
              split at heq1
              · rename_i u st2 heq2
                have hsz := (onHeap_delete_ok _ _ _ _ _ heq2).1
                simp only [Res.ok.injEq] at heq1
                obtain ⟨rfl, rfl⟩ := heq1
                simp only [wr_size, hsz, Function.update_same]
                have hne1 : c ≠ c - st.size (c - C.sizeofLong) := by omega
                have hne2 : c ≠ c - st.size (c - C.sizeofLong)
                    + (st.size (c - st.size (c - C.sizeofLong)) + st.size c) - C.sizeofLong := by
                  rw [hw2]; omega
                have hne3 : c + st.size c ≠ c - st.size (c - C.sizeofLong) := by omega
                refine ⟨?_, by omega, ?_, ?_, Or.inr (by omega)⟩
                · rw [Function.update_noteq hne2, Function.update_noteq hne1]
                · have hne4 : c - st.size (c - C.sizeofLong) ≠ c - st.size (c - C.sizeofLong)
                    + (st.size (c - st.size (c - C.sizeofLong)) + st.size c) - C.sizeofLong := by
                    rw [hw2]; omega
                  rw [Function.update_noteq hne4, Function.update_same, hw2]
                  omega
                · have hne5 : c + st.size c ≠ c - st.size (c - C.sizeofLong)
                    + (st.size (c - st.size (c - C.sizeofLong)) + st.size c) - C.sizeofLong := by
                    rw [hw2]; omega
                  rw [Function.update_noteq hne5, Function.update_noteq hne3]
              · simp at heq1
              · simp at heq1
            · simp only [Res.ok.injEq] at heq1
              obtain ⟨rfl, rfl⟩ := heq1
              exact ⟨rfl, le_refl _, rfl, rfl, Or.inl rfl⟩
          · simp only [Res.ok.injEq] at heq1
            obtain ⟨rfl, rfl⟩ := heq1
            exact ⟨rfl, le_refl _, rfl, rfl, Or.inl rfl⟩
        obtain ⟨h1a, h1b, h1c, h1d, h1e⟩ := h1
        rw [← h1c] at h
        split at h
        · simp at h
        · simp at h
        · rename_i u st3 heq3
          have h4 := (onHeap_insert_ok _ _ _ _ _ h).1
          rw [h4]
          split at heq3
          · rename_i hfree
            have hq : st.size (c + st.size c) < 2 ^ 24 := by
              rw [← h1d]
              exact lt_of_and_mask _ (by rw [h1d]; exact hnext) hfree.2
            split at heq3
            · rename_i u2 st2 heq2
              have hsz := (onHeap_delete_ok _ _ _ _ _ heq2).1
              simp only [Res.ok.injEq, true_and] at heq3
              subst heq3
              simp only [wr_size, hsz, Function.update_same]
              have hne1 : c ≠ c1 + (st1.size c1 + st1.size (c + st.size c)) - C.sizeofLong := by
                omega
              rw [Function.update_noteq hne1]
              rcases h1e with rfl | hlt
              · rw [Function.update_same, h1a, h1d]
                omega
              · rw [Function.update_noteq (by omega), h1a]
                omega
            · simp at heq3
            · simp at heq3
          · simp only [Res.ok.injEq, true_and] at heq3
            subst heq3
            rw [h1a]
            exact hv25

end Dgd

namespace Dgd

theorem lchunk_heap (st st' : Alloc) (size : Nat) (new : Bool) (r : Option Nat)
    (h : lchunk st size new = .ok r st') : st'.toHeap = st.toHeap := by
  unfold lchunk at h
  split at h
  · simp only [Res.ok.injEq] at h
    obtain ⟨_, rfl⟩ := h
    rfl
  · split at h
    · simp only [Res.ok.injEq] at h
      obtain ⟨_, rfl⟩ := h
      rfl
    · split at h
      · simp at h
      · simp only [Res.ok.injEq] at h
        obtain ⟨_, rfl⟩ := h
        rfl

theorem sfree_size (C : Config) (st st' : Alloc) (c : Nat) (h : sfree C st c = .ok () st') :
    st'.size = st.size := by
  unfold sfree at h
  split at h
  · simp only [Res.ok.injEq, true_and] at h
    subst h
    rfl
  · split at h
    · rename_i lc st2 heq
      have := lchunk_heap _ _ _ _ _ heq
      simp only [Res.ok.injEq, true_and] at h
      subst h
      simp only [Alloc.setLlist, Alloc.wrNext, Heap.setNext]
      rw [this]
    · rename_i st2 heq
      have := lchunk_heap _ _ _ _ _ heq
      simp only [Res.ok.injEq, true_and] at h
      subst h
      rw [this]
    · simp at h
    · simp at h

theorem and_size_mask_lt (x : Nat) : x &&& SIZE_MASK < 2 ^ 24 :=
  Nat.and_lt_two_pow x (by decide)

theorem mpurgeLoop_nil (l : List Nat) : mpurgeLoop l = [] := by
  induction l with
  | nil => rfl
  | cons a l ih => simpa [mpurgeLoop] using ih

/-- C4: a block returned by `alloc` whose chunk size is below `2^24` is given
back by `mfree` to the pool it came from, whatever the state (and the mode
counter) at the time of the free as long as the header is intact: `sfree` for
a block of the static pool and `dfree` for a block of the dynamic pool, each
called after the header has been set back to the chunk size it held before
the magic number was stamped. -/
theorem mfree_returns_to_pool (C : Config) (dummy fuel : Nat) (st st1 : Alloc) (n p : Nat)
    (hal : alloc C dummy fuel st n = .ok p st1) :
    ∃ c st', p = c + C.sizeofLong
      ∧ ((0 < st.slevel ∧ salloc C st (allocSize C n) = .ok c st'
            ∧ st1 = st'.wr c (st'.size c ||| SM_MAGIC))
          ∨ (st.slevel ≤ 0 ∧ dalloc C dummy fuel st (allocSize C n) = .ok c st'
            ∧ st1 = { st' with dmemused := st'.dmemused + st'.size c }.wr c
                      (st'.size c ||| DM_MAGIC)))
      ∧ (st'.size c < 2 ^ 24 → ∀ (st2 : Alloc) (fuel' : Nat), st2.size c = st1.size c →
          mfree C fuel' st2 p
            = if 0 < st.slevel then sfree C (st2.wr c (st'.size c)) c
              else dfree C fuel'
                { st2.wr c (st'.size c) with dmemused := st2.dmemused - st'.size c } c) := by
  unfold alloc at hal
  simp only at hal
  split at hal
  · rename_i hpos
    split at hal
    · rename_i c st' heq
      simp only [Res.ok.injEq] at hal
      obtain ⟨rfl, rfl⟩ := hal
      refine ⟨c, st', rfl, Or.inl ⟨hpos, heq, rfl⟩, ?_⟩
      intro hv st2 fuel' hhdr
      have hs := stamp_static _ hv
      simp only [wr_size, Function.update_same] at hhdr
      unfold mfree
      simp only [Nat.add_sub_cancel, hhdr, hs.1, hs.2, if_true]
      rw [if_pos hpos]
    · simp at hal
    · simp at hal
  · rename_i hpos
    split at hal
    · rename_i c st' heq
      simp only [Res.ok.injEq] at hal
      obtain ⟨rfl, rfl⟩ := hal
      refine ⟨c, st', rfl, Or.inr ⟨by omega, heq, rfl⟩, ?_⟩
      intro hv st2 fuel' hhdr
      have hs := stamp_dynamic _ hv
      simp only [wr_size, Function.update_same] at hhdr
      unfold mfree
      have hne : DM_MAGIC ≠ SM_MAGIC := by decide
      simp only [Nat.add_sub_cancel, hhdr, hs.1, hs.2, hne, if_false, if_true, wr_size,
        Function.update_same]
      rw [if_neg hpos]
      rfl
    · simp at hal
    · simp at hal

theorem mfree_returns_to_pool_witness :
    alloc lp64 1 2 exReady 100 = .ok 12312 exDynamic
    ∧ exDynamic.size 12304 = 124 ||| DM_MAGIC
    ∧ mfree lp64 2 (mstatic exDynamic) 12312
        = dfree lp64 2 { (mstatic exDynamic).wr 12304 124 with
            dmemused := (mstatic exDynamic).dmemused - (124 : Nat) } 12304 := by
  have hal : alloc lp64 1 2 exReady 100 = .ok 12312 exDynamic := rfl
  obtain ⟨c, st', hp, hor, hm⟩ := mfree_returns_to_pool lp64 1 2 exReady exDynamic 100 12312 hal
  have hc : c = 12304 := by
    have : lp64.sizeofLong = 8 := rfl
    omega
  subst hc
  have hd : dalloc lp64 1 2 exReady (allocSize lp64 100)
      = .ok 12304 ((dalloc lp64 1 2 exReady (allocSize lp64 100)).state exInit) := rfl
  rcases hor with ⟨hpos, _⟩ | ⟨_, hdal, _⟩
  · exact absurd hpos (by decide)
  · rw [hd] at hdal
    simp only [Res.ok.injEq, true_and] at hdal
    subst hdal
    refine ⟨hal, by decide, ?_⟩
    have := hm (by decide) (mstatic exDynamic) 2 rfl
    rw [this, if_neg (by decide)]
    rfl

/-- C5: `mfree` of a block whose header holds neither magic number calls
`fatal("bad pointer in mfree")` and leaves the state as it was. In particular
a second `mfree` of a pointer that `mfree` has just released is fatal: for a
static block, and for a dynamic block of an initialised allocator. Of the
chunk before a large dynamic chunk only this is used: the boundary word
before the header is 0 or the distance back to that chunk's header, and that
header, when it has no magic number (the chunk is free), holds the same size;
a chunk in use before the one released is admitted. The word behind the chunk
is a header of 32 bits. -/
theorem mfree_bad_pointer (C : Config) (fuel fuel' : Nat)
    (st : Alloc) (mem : Nat)
    (hs : st.size (mem - C.sizeofLong) &&& MAGIC_MASK ≠ SM_MAGIC)
    (hd : st.size (mem - C.sizeofLong) &&& MAGIC_MASK ≠ DM_MAGIC)
    (sa sa1 : Alloc) (pa : Nat)
    (hsa : sa.size (pa - C.sizeofLong) &&& MAGIC_MASK = SM_MAGIC)
    (hfa : mfree C fuel sa pa = .ok () sa1)
    (sb sb1 : Alloc) (pb : Nat)
    (hsb : sb.size (pb - C.sizeofLong) &&& MAGIC_MASK = DM_MAGIC)
    (_hinit : sb.dchunksz ≠ 0)
    (hfb : mfree C fuel sb pb = .ok () sb1)
    (hSL : 0 < C.sizeofLong) (hpb : 2 * C.sizeofLong ≤ pb)
    (hprev : C.DLIMIT ≤ sb.size (pb - C.sizeofLong) &&& SIZE_MASK →
      sb.size (pb - 2 * C.sizeofLong) ≠ 0 →
      sb.size (pb - 2 * C.sizeofLong) ≤ pb - C.sizeofLong
      ∧ (sb.size (pb - C.sizeofLong - sb.size (pb - 2 * C.sizeofLong)) &&& MAGIC_MASK = 0 →
          sb.size (pb - C.sizeofLong - sb.size (pb - 2 * C.sizeofLong))
            = sb.size (pb - 2 * C.sizeofLong)))
    (hnext : C.DLIMIT ≤ sb.size (pb - C.sizeofLong) &&& SIZE_MASK →
      sb.size (pb - C.sizeofLong + (sb.size (pb - C.sizeofLong) &&& SIZE_MASK)) < 2 ^ 32) :
    mfree C fuel' st mem = .fatal "bad pointer in mfree" st
    ∧ mfree C fuel' sa1 pa = .fatal "bad pointer in mfree" sa1
    ∧ mfree C fuel' sb1 pb = .fatal "bad pointer in mfree" sb1 := by
  have key : ∀ (s : Alloc) (m : Nat), s.size (m - C.sizeofLong) &&& MAGIC_MASK ≠ SM_MAGIC →
      s.size (m - C.sizeofLong) &&& MAGIC_MASK ≠ DM_MAGIC →
      mfree C fuel' s m = .fatal "bad pointer in mfree" s := by
    intro s m h1 h2
    unfold mfree
    simp only [h1, h2, if_false]
  refine ⟨key st mem hs hd, ?_, ?_⟩
  · unfold mfree at hfa
    simp only [hsa, if_true] at hfa
    have hsz := sfree_size _ _ _ _ hfa
    have h25 : sa1.size (pa - C.sizeofLong) < 2 ^ 25 := by
      rw [hsz]
      simp only [wr_size, Function.update_same]
      have := and_size_mask_lt (sa.size (pa - C.sizeofLong))
      omega
    exact key sa1 pa (mask_ne_magic_of_lt _ h25).1 (mask_ne_magic_of_lt _ h25).2
  · unfold mfree at hfb
    have hne : DM_MAGIC ≠ SM_MAGIC := by decide
    simp only [hsb, hne, if_false, if_true] at hfb
    have hmask := and_size_mask_lt (sb.size (pb - C.sizeofLong))
    have e2 : pb - C.sizeofLong - C.sizeofLong = pb - 2 * C.sizeofLong := by omega
    have h25 : sb1.size (pb - C.sizeofLong) < 2 ^ 25 := by
      apply dfree_header C fuel _ sb1 (pb - C.sizeofLong) hfb
      · simpa using hmask
      · exact hSL
      · omega
      · intro hlim
        simp only [wr_size, Function.update_same] at hlim
        simp only [wr_size, e2]
        rw [Function.update_noteq (by omega : pb - 2 * C.sizeofLong ≠ pb - C.sizeofLong)]
        intro hw
        obtain ⟨hw1, hw2⟩ := hprev hlim hw
        refine ⟨hw1, ?_⟩
        rw [Function.update_noteq (by omega)]
        exact hw2
      · intro hlim
        simp only [wr_size, Function.update_same] at hlim
        simp only [wr_size, Function.update_same]
        by_cases he : pb - C.sizeofLong + (sb.size (pb - C.sizeofLong) &&& SIZE_MASK)
            = pb - C.sizeofLong
        · rw [he, Function.update_same]
          omega
        · rw [Function.update_noteq he]
          exact hnext hlim
    exact key sb1 pb (mask_ne_magic_of_lt _ h25).1 (mask_ne_magic_of_lt _ h25).2

theorem mfree_bad_pointer_witness :
    exDynamicTwo.size 12304 &&& MAGIC_MASK = DM_MAGIC
    ∧ exDynamicTwo.size 12420 = 124
    ∧ exDynamicTwo.size 12428 = 124 ||| DM_MAGIC
    ∧ mfree lp64 2 exDynamicTwo 12436 = .ok () exDynamicTwoFreed
    ∧ mfree lp64 2 exStatic 4104 = .ok () exStaticFreed
    ∧ mfree lp64 5 exReady 12312 = .fatal "bad pointer in mfree" exReady
    ∧ mfree lp64 5 exStaticFreed 4104 = .fatal "bad pointer in mfree" exStaticFreed
    ∧ mfree lp64 5 exDynamicTwoFreed 12436
        = .fatal "bad pointer in mfree" exDynamicTwoFreed :=
  ⟨by decide, by decide, by decide, rfl, rfl,
    mfree_bad_pointer lp64 2 5 exReady 12312 (by decide) (by decide)
      exStatic exStaticFreed 4104 (by decide) rfl
      exDynamicTwo exDynamicTwoFreed 12436 (by decide) (by decide) rfl
      (by decide) (by decide) (by decide) (by decide)⟩

/-- C7: after `mpurge()` the dynamic pool is empty (no block, no tree, no small
free list, no arena for small chunks, both dynamic counters 0), `memsize()`
and `memused()` are the static memory size, and the static pool, the mode
counter, the configured chunk sizes and the memory are unchanged. -/
theorem mpurge_empties_dynamic_pool (C : Config) (st : Alloc) :
    (mpurge C st).dlist = [] ∧ (mpurge C st).dtree = 0
    ∧ (∀ i, i < C.DCHUNKS → (mpurge C st).dchunks i = 0)
    ∧ (mpurge C st).dchunk = 0
    ∧ (mpurge C st).dmemsize = 0 ∧ (mpurge C st).dmemused = 0
    ∧ memsize (mpurge C st) = st.smemsize ∧ memused (mpurge C st) = st.smemsize
    ∧ (mpurge C st).schunk = st.schunk ∧ (mpurge C st).schunks = st.schunks
    ∧ (mpurge C st).lchunks = st.lchunks ∧ (mpurge C st).nlc = st.nlc
    ∧ (mpurge C st).slist = st.slist ∧ (mpurge C st).slevel = st.slevel
    ∧ (mpurge C st).smemsize = st.smemsize ∧ (mpurge C st).schunksz = st.schunksz
    ∧ (mpurge C st).dchunksz = st.dchunksz
    ∧ (mpurge C st).size = st.size ∧ (mpurge C st).next = st.next
    ∧ (mpurge C st).brk = st.brk := by
  refine ⟨mpurgeLoop_nil _, rfl, ?_, rfl, rfl, rfl, ?_, ?_, rfl, rfl, rfl, rfl, rfl, rfl, rfl,
    rfl, rfl, rfl, rfl, rfl⟩
  · intro i hi
    simp [mpurge, hi]
  · simp [memsize, mpurge]
  · simp [memused, mpurge]

end Dgd

namespace Dgd

/-! ## Theorems: trees in the memory -/

@[simp] theorem setLeft_left (h : Heap) (a v : Nat) :
    (h.setLeft a v).left = Function.update h.left a v := rfl
@[simp] theorem setLeft_right (h : Heap) (a v : Nat) : (h.setLeft a v).right = h.right := rfl
@[simp] theorem setLeft_parent (h : Heap) (a v : Nat) : (h.setLeft a v).parent = h.parent := rfl
@[simp] theorem setLeft_dtree (h : Heap) (a v : Nat) : (h.setLeft a v).dtree = h.dtree := rfl
@[simp] theorem setRight_left (h : Heap) (a v : Nat) : (h.setRight a v).left = h.left := rfl
@[simp] theorem setRight_right (h : Heap) (a v : Nat) :
    (h.setRight a v).right = Function.update h.right a v := rfl
@[simp] theorem setRight_parent (h : Heap) (a v : Nat) : (h.setRight a v).parent = h.parent :=
  rfl
@[simp] theorem setRight_dtree (h : Heap) (a v : Nat) : (h.setRight a v).dtree = h.dtree := rfl
@[simp] theorem setParent_left (h : Heap) (a v : Nat) : (h.setParent a v).left = h.left := rfl
@[simp] theorem setParent_right (h : Heap) (a v : Nat) : (h.setParent a v).right = h.right :=
  rfl
@[simp] theorem setParent_parent (h : Heap) (a v : Nat) :
    (h.setParent a v).parent = Function.update h.parent a v := rfl
@[simp] theorem setParent_dtree (h : Heap) (a v : Nat) : (h.setParent a v).dtree = h.dtree :=
  rfl
@[simp] theorem setDtree_left (h : Heap) (v : Nat) : (h.setDtree v).left = h.left := rfl
@[simp] theorem setDtree_right (h : Heap) (v : Nat) : (h.setDtree v).right = h.right := rfl
@[simp] theorem setDtree_parent (h : Heap) (v : Nat) : (h.setDtree v).parent = h.parent := rfl
@[simp] theorem setDtree_dtree (h : Heap) (v : Nat) : (h.setDtree v).dtree = v := rfl
@[simp] theorem setParentIf_left (h : Heap) (a v : Nat) : (h.setParentIf a v).left = h.left := by
  unfold Heap.setParentIf; split <;> rfl
@[simp] theorem setParentIf_right (h : Heap) (a v : Nat) :
    (h.setParentIf a v).right = h.right := by
  unfold Heap.setParentIf; split <;> rfl
@[simp] theorem setParentIf_dtree (h : Heap) (a v : Nat) :
    (h.setParentIf a v).dtree = h.dtree := by
  unfold Heap.setParentIf; split <;> rfl

theorem setParentIf_parent_ne (h : Heap) (a v x : Nat) (hx : x ≠ a) :
    (h.setParentIf a v).parent x = h.parent x := by
  unfold Heap.setParentIf
  split
  · rfl
  · simp [Function.update_noteq hx]

theorem setParentIf_parent_self (h : Heap) (a v : Nat) (ha : a ≠ 0) :
    (h.setParentIf a v).parent a = v := by
  unfold Heap.setParentIf
  simp [ha]

theorem repr_root (h : Heap) (par p : Nat) (t : Tree) (hr : Repr h par p t) : p = t.root := by
  cases t with
  | nil => exact hr
  | node l a r => exact hr.1

theorem repr_zero (h : Heap) (par : Nat) (t : Tree) (hr : Repr h par 0 t) : t = .nil := by
  cases t with
  | nil => rfl
  | node l a r => exact absurd hr.1.symm hr.2.1

theorem repr_ne_zero (h : Heap) (par p : Nat) (t : Tree) (hr : Repr h par p t) (hp : p ≠ 0) :
    ∃ l r, t = .node l p r := by
  cases t with
  | nil => exact absurd hr hp
  | node l a r => exact ⟨l, r, by rw [hr.1]⟩

theorem repr_mem_ne_zero (h : Heap) (t : Tree) :
    ∀ (par p : Nat), Repr h par p t → ∀ x ∈ t.nodes, x ≠ 0 := by
  induction t with
  | nil => intro _ _ _ x hx; simp [Tree.nodes] at hx
  | node l a r ihl ihr =>
    intro par p hr x hx
    obtain ⟨_, ha, _, hl, hrr⟩ := hr
    simp only [Tree.nodes, List.mem_append, List.mem_cons] at hx
    rcases hx with hx | rfl | hx
    · exact ihl _ _ hl x hx
    · exact ha
    · exact ihr _ _ hrr x hx

/-- The frame rule for `Repr`: a memory that agrees on the links of the nodes
of a tree holds the same tree. -/
theorem repr_congr (h h' : Heap) (t : Tree) :
    ∀ (par p : Nat), Repr h par p t →
      (∀ x ∈ t.nodes, h'.left x = h.left x ∧ h'.right x = h.right x
        ∧ h'.parent x = h.parent x) →
      Repr h' par p t := by
  induction t with
  | nil => intro _ _ hr _; exact hr
  | node l a r ihl ihr =>
    intro par p hr hag
    obtain ⟨hp, ha, hpar, hl, hrr⟩ := hr
    have haa := hag a (by simp [Tree.nodes])
    refine ⟨hp, ha, by rw [haa.2.2, hpar], ?_, ?_⟩
    · rw [haa.1]
      exact ihl _ _ hl (fun x hx => hag x (by simp [Tree.nodes, hx]))
    · rw [haa.2.1]
      exact ihr _ _ hrr (fun x hx => hag x (by simp [Tree.nodes, hx]))

theorem repr_setLeft (h : Heap) (t : Tree) (par p a v : Nat) (ha : a ∉ t.nodes)
    (hr : Repr h par p t) : Repr (h.setLeft a v) par p t := by
  apply repr_congr h _ t par p hr
  intro x hx
  have : x ≠ a := fun e => ha (e ▸ hx)
  simp [Function.update_noteq this]

theorem repr_setRight (h : Heap) (t : Tree) (par p a v : Nat) (ha : a ∉ t.nodes)
    (hr : Repr h par p t) : Repr (h.setRight a v) par p t := by
  apply repr_congr h _ t par p hr
  intro x hx
  have : x ≠ a := fun e => ha (e ▸ hx)
  simp [Function.update_noteq this]

theorem repr_setParent (h : Heap) (t : Tree) (par p a v : Nat) (ha : a ∉ t.nodes)
    (hr : Repr h par p t) : Repr (h.setParent a v) par p t := by
  apply repr_congr h _ t par p hr
  intro x hx
  have : x ≠ a := fun e => ha (e ▸ hx)
  simp [Function.update_noteq this]

theorem repr_setParentIf (h : Heap) (t : Tree) (par p a v : Nat) (ha : a ≠ 0 → a ∉ t.nodes)
    (hr : Repr h par p t) : Repr (h.setParentIf a v) par p t := by
  unfold Heap.setParentIf
  split
  · exact hr
  · rename_i h0
    exact repr_setParent h t par p a v (ha h0) hr

theorem repr_setDtree (h : Heap) (t : Tree) (par p v : Nat)
    (hr : Repr h par p t) : Repr (h.setDtree v) par p t :=
  repr_congr h _ t par p hr (fun _ _ => ⟨rfl, rfl, rfl⟩)

/-- Giving the root of a tree a new parent link. -/
theorem repr_reparent (h : Heap) (t : Tree) (par par' p : Nat) (hr : Repr h par p t)
    (hnd : t.nodes.Nodup) : Repr (h.setParentIf p par') par' p t := by
  cases t with
  | nil =>
    have : p = 0 := hr
    subst this
    exact rfl
  | node l a r =>
    obtain ⟨hp, ha, _, hl, hrr⟩ := hr
    subst hp
    simp only [Tree.nodes] at hnd
    have hnd' := List.nodup_append.1 hnd
    have hal : p ∉ l.nodes := fun hx => hnd'.2.2 hx (List.mem_cons_self _ _) 
    have har : p ∉ r.nodes := (List.nodup_cons.1 hnd'.2.1).1
    refine ⟨rfl, ha, setParentIf_parent_self h p par' ha, ?_, ?_⟩
    · rw [setParentIf_left]
      exact repr_setParentIf h l p _ p par' (fun _ => hal) hl
    · rw [setParentIf_right]
      exact repr_setParentIf h r p _ p par' (fun _ => har) hrr

/-- The root of a tree in the memory is one of its nodes. -/
theorem repr_count_root (h : Heap) (par p : Nat) (t : Tree) (hr : Repr h par p t)
    (hp : p ≠ 0) : 0 < t.nodes.count p := by
  obtain ⟨l, r, rfl⟩ := repr_ne_zero h par p t hr hp
  exact List.count_pos_iff.2 (by simp [Tree.nodes])


theorem topL_mem (d : Nat) (L : List (Tree × Nat)) : topL d L ∈ d :: nodesL L := by
  cases L with
  | nil => simp [topL]
  | cons f L => obtain ⟨A, a⟩ := f; simp [topL, nodesL]

theorem topR_mem (d : Nat) (R : List (Nat × Tree)) : topR d R ∈ d :: nodesR R := by
  cases R with
  | nil => simp [topR]
  | cons f R => obtain ⟨a, B⟩ := f; simp [topR, nodesR]

/-- The frame rule for the left tree: the left and parent links of its nodes
and the right links of all its nodes but the innermost one matter. -/
theorem lspine_congr (h h' : Heap) (d : Nat) (L : List (Tree × Nat))
    (hnd : (d :: nodesL L).Nodup) (hs : LSpine h d L)
    (hlp : ∀ x ∈ nodesL L, h'.left x = h.left x ∧ h'.parent x = h.parent x)
    (hr : ∀ x ∈ d :: nodesL L, x ≠ topL d L → h'.right x = h.right x) :
    LSpine h' d L := by
  induction L with
  | nil => trivial
  | cons f L ih =>
    obtain ⟨A, a⟩ := f
    obtain ⟨ha, hA, hright, hpar, hs'⟩ := hs
    simp only [nodesL, List.nodup_cons, List.mem_append, List.mem_cons, List.nodup_append,
      not_or] at hnd
    obtain ⟨⟨hdA, hda, hdL⟩, hAnd, ⟨haL, hLnd⟩, hdisj⟩ := hnd
    have haA : a ∉ A.nodes := fun hx => hdisj hx (List.mem_cons_self _ _)
    have htop : topL d L ≠ a := by
      intro e
      have := topL_mem d L
      rw [e] at this
      rcases List.mem_cons.1 this with h1 | h1
      · exact hda h1.symm
      · exact haL h1
    have hAL : ∀ x ∈ A.nodes, x ∉ nodesL L := fun x hx hx' =>
      hdisj hx (List.mem_cons_of_mem _ hx')
    refine ⟨ha, ?_, ?_, ?_, ?_⟩
    · rw [(hlp a (by simp [nodesL])).1]
      apply repr_congr h h' A _ _ hA
      intro x hx
      have hxa : x ≠ a := fun e => haA (e ▸ hx)
      have h1 := hlp x (by simp [nodesL, hx])
      exact ⟨h1.1, hr x (by simp [nodesL, hx]) (by simpa [topL] using hxa), h1.2⟩
    · rw [hr (topL d L) (by
        have := topL_mem d L
        simp only [List.mem_cons] at this
        simp only [nodesL, List.mem_cons, List.mem_append]
        tauto) (by simpa [topL] using htop)]
      exact hright
    · rw [(hlp a (by simp [nodesL])).2]
      exact hpar
    · apply ih (List.nodup_cons.2 ⟨hdL, hLnd⟩) hs'
      · intro x hx
        exact hlp x (by simp [nodesL, hx])
      · intro x hx _
        apply hr x
        · simp only [List.mem_cons] at hx
          simp only [nodesL, List.mem_cons, List.mem_append]
          tauto
        · simp only [topL]
          intro e
          subst e
          rcases List.mem_cons.1 hx with h1 | h1
          · exact hda h1.symm
          · exact haL h1

/-- The frame rule for the right tree. -/
theorem rspine_congr (h h' : Heap) (d : Nat) (R : List (Nat × Tree))
    (hnd : (d :: nodesR R).Nodup) (hs : RSpine h d R)
    (hrp : ∀ x ∈ nodesR R, h'.right x = h.right x ∧ h'.parent x = h.parent x)
    (hl : ∀ x ∈ d :: nodesR R, x ≠ topR d R → h'.left x = h.left x) :
    RSpine h' d R := by
  induction R with
  | nil => trivial
  | cons f R ih =>
    obtain ⟨a, B⟩ := f
    obtain ⟨ha, hB, hleft, hpar, hs'⟩ := hs
    simp only [nodesR, List.nodup_cons, List.mem_append, List.mem_cons, List.nodup_append,
      not_or] at hnd
    obtain ⟨⟨⟨hda, hdB⟩, hdR⟩, ⟨haB, hBnd⟩, hRnd, hdisj⟩ := hnd
    have haR : a ∉ nodesR R := fun hx => hdisj (List.mem_cons_self _ _) hx
    have htop : topR d R ≠ a := by
      intro e
      have := topR_mem d R
      rw [e] at this
      rcases List.mem_cons.1 this with h1 | h1
      · exact hda h1.symm
      · exact haR h1
    refine ⟨ha, ?_, ?_, ?_, ?_⟩
    · rw [(hrp a (by simp [nodesR])).1]
      apply repr_congr h h' B _ _ hB
      intro x hx
      have hxa : x ≠ a := fun e => haB (e ▸ hx)
      have h1 := hrp x (by simp [nodesR, hx])
      exact ⟨hl x (by simp [nodesR, hx]) (by simpa [topR] using hxa), h1.1, h1.2⟩
    · rw [hl (topR d R) (by
        have := topR_mem d R
        simp only [List.mem_cons] at this
        simp only [nodesR, List.mem_cons, List.mem_append]
        tauto) (by simpa [topR] using htop)]
      exact hleft
    · rw [(hrp a (by simp [nodesR])).2]
      exact hpar
    · apply ih (List.nodup_cons.2 ⟨hdR, hRnd⟩) hs'
      · intro x hx
        exact hrp x (by simp [nodesR, hx])
      · intro x hx _
        apply hl x
        · simp only [List.mem_cons] at hx
          simp only [nodesR, List.mem_cons, List.mem_append]
          tauto
        · simp only [topR]
          intro e
          subst e
          rcases List.mem_cons.1 hx with h1 | h1
          · exact hda h1.symm
          · exact haR h1

/-- Filling the hole of the left tree. -/
theorem lspine_plug (h : Heap) (d : Nat) (L : List (Tree × Nat)) :
    ∀ X : Tree, LSpine h d L → Repr h (topL d L) (h.right (topL d L)) X →
      Repr h d (h.right d) (plugL L X) := by
  induction L with
  | nil => intro X _ hX; exact hX
  | cons f L ih =>
    obtain ⟨A, a⟩ := f
    intro X hs hX
    obtain ⟨ha, hA, hright, hpar, hs'⟩ := hs
    apply ih (.node A a X) hs'
    rw [hright]
    exact ⟨rfl, ha, hpar, hA, hX⟩

/-- Filling the hole of the right tree. -/
theorem rspine_plug (h : Heap) (d : Nat) (R : List (Nat × Tree)) :
    ∀ X : Tree, RSpine h d R → Repr h (topR d R) (h.left (topR d R)) X →
      Repr h d (h.left d) (plugR R X) := by
  induction R with
  | nil => intro X _ hX; exact hX
  | cons f R ih =>
    obtain ⟨a, B⟩ := f
    intro X hs hX
    obtain ⟨ha, hB, hleft, hpar, hs'⟩ := hs
    apply ih (.node X a B) hs'
    rw [hleft]
    exact ⟨rfl, ha, hpar, hX, hB⟩

theorem plugL_nodes (L : List (Tree × Nat)) :
    ∀ X : Tree, (plugL L X).nodes.Perm (nodesL L ++ X.nodes) := by
  induction L with
  | nil => intro X; simp [plugL, nodesL]
  | cons f L ih =>
    obtain ⟨A, a⟩ := f
    intro X
    refine (ih (.node A a X)).trans ?_
    simp only [Tree.nodes, nodesL]
    refine (List.perm_append_comm).trans ?_
    simp only [List.append_assoc, List.cons_append]
    exact List.Perm.append_left _ (List.Perm.cons _ List.perm_append_comm)

theorem plugR_nodes (R : List (Nat × Tree)) :
    ∀ X : Tree, (plugR R X).nodes.Perm (nodesR R ++ X.nodes) := by
  induction R with
  | nil => intro X; simp [plugR, nodesR]
  | cons f R ih =>
    obtain ⟨a, B⟩ := f
    intro X
    refine (ih (.node X a B)).trans ?_
    simp only [Tree.nodes, nodesR]
    have h1 : (nodesR R ++ (X.nodes ++ a :: B.nodes)).Perm ((X.nodes ++ a :: B.nodes) ++ nodesR R) :=
      List.perm_append_comm
    refine h1.trans ?_
    have h2 : ((X.nodes ++ a :: B.nodes) ++ nodesR R).Perm (X.nodes ++ (a :: B.nodes ++ nodesR R)) := by
      simp
    refine h2.trans ?_
    exact List.perm_append_comm

end Dgd

namespace Dgd

theorem lspine_setLeft (h : Heap) (d : Nat) (L : List (Tree × Nat)) (x v : Nat)
    (hnd : (d :: nodesL L).Nodup) (hx : x ∉ nodesL L) (hs : LSpine h d L) :
    LSpine (h.setLeft x v) d L := by
  apply lspine_congr h _ d L hnd hs
  · intro y hy
    have : y ≠ x := fun e => hx (e ▸ hy)
    simp [Function.update_noteq this]
  · intro y _ _; rfl

theorem lspine_setParent (h : Heap) (d : Nat) (L : List (Tree × Nat)) (x v : Nat)
    (hnd : (d :: nodesL L).Nodup) (hx : x ∉ nodesL L) (hs : LSpine h d L) :
    LSpine (h.setParent x v) d L := by
  apply lspine_congr h _ d L hnd hs
  · intro y hy
    have : y ≠ x := fun e => hx (e ▸ hy)
    simp [Function.update_noteq this]
  · intro y _ _; rfl

theorem lspine_setParentIf (h : Heap) (d : Nat) (L : List (Tree × Nat)) (x v : Nat)
    (hnd : (d :: nodesL L).Nodup) (hx : x ≠ 0 → x ∉ nodesL L) (hs : LSpine h d L) :
    LSpine (h.setParentIf x v) d L := by
  unfold Heap.setParentIf
  split
  · exact hs
  · rename_i h0
    exact lspine_setParent h d L x v hnd (hx h0) hs

theorem lspine_setRight_top (h : Heap) (d : Nat) (L : List (Tree × Nat)) (v : Nat)
    (hnd : (d :: nodesL L).Nodup) (hs : LSpine h d L) :
    LSpine (h.setRight (topL d L) v) d L := by
  apply lspine_congr h _ d L hnd hs
  · intro y _; exact ⟨rfl, rfl⟩
  · intro y _ hy
    simp [Function.update_noteq hy]

theorem lspine_setRight (h : Heap) (d : Nat) (L : List (Tree × Nat)) (x v : Nat)
    (hnd : (d :: nodesL L).Nodup) (hx : x ∉ d :: nodesL L) (hs : LSpine h d L) :
    LSpine (h.setRight x v) d L := by
  apply lspine_congr h _ d L hnd hs
  · intro y _; exact ⟨rfl, rfl⟩
  · intro y hy _
    have : y ≠ x := fun e => hx (e ▸ hy)
    simp [Function.update_noteq this]

theorem lspine_setDtree (h : Heap) (d : Nat) (L : List (Tree × Nat)) (v : Nat)
    (hnd : (d :: nodesL L).Nodup) (hs : LSpine h d L) : LSpine (h.setDtree v) d L :=
  lspine_congr h _ d L hnd hs (fun _ _ => ⟨rfl, rfl⟩) (fun _ _ _ => rfl)

theorem rspine_setRight (h : Heap) (d : Nat) (R : List (Nat × Tree)) (x v : Nat)
    (hnd : (d :: nodesR R).Nodup) (hx : x ∉ nodesR R) (hs : RSpine h d R) :
    RSpine (h.setRight x v) d R := by
  apply rspine_congr h _ d R hnd hs
  · intro y hy
    have : y ≠ x := fun e => hx (e ▸ hy)
    simp [Function.update_noteq this]
  · intro y _ _; rfl

theorem rspine_setParent (h : Heap) (d : Nat) (R : List (Nat × Tree)) (x v : Nat)
    (hnd : (d :: nodesR R).Nodup) (hx : x ∉ nodesR R) (hs : RSpine h d R) :
    RSpine (h.setParent x v) d R := by
  apply rspine_congr h _ d R hnd hs
  · intro y hy
    have : y ≠ x := fun e => hx (e ▸ hy)
    simp [Function.update_noteq this]
  · intro y _ _; rfl

theorem rspine_setParentIf (h : Heap) (d : Nat) (R : List (Nat × Tree)) (x v : Nat)
    (hnd : (d :: nodesR R).Nodup) (hx : x ≠ 0 → x ∉ nodesR R) (hs : RSpine h d R) :
    RSpine (h.setParentIf x v) d R := by
  unfold Heap.setParentIf
  split
  · exact hs
  · rename_i h0
    exact rspine_setParent h d R x v hnd (hx h0) hs

theorem rspine_setLeft_top (h : Heap) (d : Nat) (R : List (Nat × Tree)) (v : Nat)
    (hnd : (d :: nodesR R).Nodup) (hs : RSpine h d R) :
    RSpine (h.setLeft (topR d R) v) d R := by
  apply rspine_congr h _ d R hnd hs
  · intro y _; exact ⟨rfl, rfl⟩
  · intro y _ hy
    simp [Function.update_noteq hy]

theorem rspine_setLeft (h : Heap) (d : Nat) (R : List (Nat × Tree)) (x v : Nat)
    (hnd : (d :: nodesR R).Nodup) (hx : x ∉ d :: nodesR R) (hs : RSpine h d R) :
    RSpine (h.setLeft x v) d R := by
  apply rspine_congr h _ d R hnd hs
  · intro y _; exact ⟨rfl, rfl⟩
  · intro y hy _
    have : y ≠ x := fun e => hx (e ▸ hy)
    simp [Function.update_noteq this]

theorem rspine_setDtree (h : Heap) (d : Nat) (R : List (Nat × Tree)) (v : Nat)
    (hnd : (d :: nodesR R).Nodup) (hs : RSpine h d R) : RSpine (h.setDtree v) d R :=
  rspine_congr h _ d R hnd hs (fun _ _ => ⟨rfl, rfl⟩) (fun _ _ _ => rfl)

end Dgd

namespace Dgd

theorem nodup_sub_L (d : Nat) (X Y : List Nat) (h : (d :: (X ++ Y)).Nodup) : (d :: X).Nodup := by
  rw [List.nodup_iff_count_le_one] at *
  intro x
  have := h x
  simp only [List.count_cons, List.count_append] at *
  omega

theorem nodup_sub_R (d : Nat) (X Y Z : List Nat) (h : (d :: (X ++ (Y ++ Z))).Nodup) :
    (d :: Y).Nodup := by
  rw [List.nodup_iff_count_le_one] at *
  intro x
  have := h x
  simp only [List.count_cons, List.count_append] at *
  omega

theorem nodup_sub_T (d : Nat) (X Y Z : List Nat) (h : (d :: (X ++ (Y ++ Z))).Nodup) :
    Z.Nodup := by
  rw [List.nodup_iff_count_le_one] at *
  intro x
  have := h x
  simp only [List.count_cons, List.count_append] at *
  omega

theorem count_topL (d : Nat) (L : List (Tree × Nat)) :
    0 < (d :: nodesL L).count (topL d L) := List.count_pos_iff.2 (topL_mem d L)

theorem count_topR (d : Nat) (R : List (Nat × Tree)) :
    0 < (d :: nodesR R).count (topR d R) := List.count_pos_iff.2 (topR_mem d R)

/-- The step `l->right = n; n->parent = l; l = n; n = t;` of the loops. -/
theorem step_linkL (h : Heap) (d : Nat) (A B : Tree) (a : Nat) (L : List (Tree × Nat))
    (R : List (Nat × Tree)) (hinv : SplayInv h d (.node A a B) L R a) :
    SplayInv ((h.setRight (topL d L) a).setParent a (topL d L)) d B ((A, a) :: L) R
      (h.right a) := by
  obtain ⟨hd, hL, hR, ⟨par, _, ha, _, hA, hB⟩, hnd⟩ := hinv
  have hndL := nodup_sub_L _ _ _ hnd
  have hndR := nodup_sub_R _ _ _ _ hnd
  have hc := List.nodup_iff_count_le_one.1 hnd
  have ca := hc a
  have cl := hc (topL d L)
  have cl' := count_topL d L
  simp only [Tree.nodes, List.count_cons, List.count_append, beq_self_eq_true, if_true] at ca cl cl'
  have e1 : a ∉ nodesL L := List.count_eq_zero.1 (by omega)
  have e2 : a ∉ nodesR R := List.count_eq_zero.1 (by omega)
  have e3 : a ∉ A.nodes := List.count_eq_zero.1 (by omega)
  have e4 : a ∉ B.nodes := List.count_eq_zero.1 (by omega)
  have e5 : topL d L ∉ A.nodes := List.count_eq_zero.1 (by omega)
  have e6 : topL d L ∉ B.nodes := List.count_eq_zero.1 (by omega)
  have e7 : topL d L ∉ nodesR R := List.count_eq_zero.1 (by omega)
  have e8 : topL d L ≠ a := by
    intro e
    rw [e] at cl'
    omega
  refine ⟨hd, ⟨ha, ?_, ?_, ?_, ?_⟩, ?_, ⟨a, ?_⟩, ?_⟩
  · exact repr_setParent _ _ _ _ _ _ e3 (repr_setRight _ _ _ _ _ _ e5 hA)
  · simp
  · simp
  · exact lspine_setParent _ _ _ _ _ hndL e1 (lspine_setRight_top _ _ _ _ hndL hL)
  · exact rspine_setParent _ _ _ _ _ hndR e2 (rspine_setRight _ _ _ _ _ hndR e7 hR)
  · have := repr_setParent _ _ _ _ a (topL d L) e4 (repr_setRight _ _ _ _ _ a e6 hB)
    simpa [Function.update_noteq (Ne.symm e8)] using this
  · refine (List.Perm.nodup_iff ?_).2 hnd
    rw [List.perm_iff_count]
    intro x
    simp only [nodesL, Tree.nodes, List.count_append, List.count_cons]
    omega


/-- The rotation to the left followed by `l->right = t; t->parent = l; l = t;`
of the loops. -/
theorem step_rotL (h : Heap) (d : Nat) (A B1 B2 : Tree) (a b : Nat) (L : List (Tree × Nat))
    (R : List (Nat × Tree)) (hinv : SplayInv h d (.node A a (.node B1 b B2)) L R a) :
    SplayInv
      ((((((h.setRight a (h.left b)).setParentIf (h.left b) a).setLeft b a).setParent a b).setRight
        (topL d L) b).setParent b (topL d L))
      d B2 ((.node A a B1, b) :: L) R (h.right b) := by
  obtain ⟨hd, hL, hR, ⟨par, _, ha, _, hA, ⟨hrb, hb, hpb, hB1, hB2⟩⟩, hnd⟩ := hinv
  have hndL := nodup_sub_L _ _ _ hnd
  have hndR := nodup_sub_R _ _ _ _ hnd
  have hndT := nodup_sub_T _ _ _ _ hnd
  have hndB1 : B1.nodes.Nodup := by
    rw [List.nodup_iff_count_le_one] at *
    intro x
    have := hndT x
    simp only [Tree.nodes, List.count_cons, List.count_append] at this
    omega
  have hc := List.nodup_iff_count_le_one.1 hnd
  have ca := hc a
  have cb := hc b
  have cl := hc (topL d L)
  have cl' := count_topL d L
  have cx := hc (h.left b)
  have cx' := repr_count_root _ _ _ _ hB1
  simp only [Tree.nodes, List.count_cons, List.count_append, beq_self_eq_true, if_true]
    at ca cb cl cl' cx
  have hab : a ≠ b := by
    intro e
    rw [e] at ca
    simp only [beq_self_eq_true, if_true] at ca
    omega
  have hla : topL d L ≠ a := by
    intro e
    rw [e] at cl'
    omega
  have hlb : topL d L ≠ b := by
    intro e
    rw [e] at cl'
    omega
  have a1 : a ∉ nodesL L := List.count_eq_zero.1 (by omega)
  have a2 : a ∉ nodesR R := List.count_eq_zero.1 (by omega)
  have a3 : a ∉ A.nodes := List.count_eq_zero.1 (by omega)
  have a4 : a ∉ B1.nodes := List.count_eq_zero.1 (by omega)
  have a5 : a ∉ B2.nodes := List.count_eq_zero.1 (by omega)
  have a6 : a ∉ d :: nodesL L := List.count_eq_zero.1 (by
    simp only [List.count_cons]; omega)
  have b1 : b ∉ nodesL L := List.count_eq_zero.1 (by omega)
  have b2 : b ∉ nodesR R := List.count_eq_zero.1 (by omega)
  have b3 : b ∉ A.nodes := List.count_eq_zero.1 (by omega)
  have b4 : b ∉ B1.nodes := List.count_eq_zero.1 (by omega)
  have b5 : b ∉ B2.nodes := List.count_eq_zero.1 (by omega)
  have b6 : b ∉ d :: nodesR R := List.count_eq_zero.1 (by
    simp only [List.count_cons]; omega)
  have l2 : topL d L ∉ nodesR R := List.count_eq_zero.1 (by omega)
  have l3 : topL d L ∉ A.nodes := List.count_eq_zero.1 (by omega)
  have l4 : topL d L ∉ B1.nodes := List.count_eq_zero.1 (by omega)
  have l5 : topL d L ∉ B2.nodes := List.count_eq_zero.1 (by omega)
  have x1 : h.left b ≠ 0 → h.left b ∉ nodesL L := fun h0 =>
    List.count_eq_zero.1 (by have := cx' h0; omega)
  have x2 : h.left b ≠ 0 → h.left b ∉ nodesR R := fun h0 =>
    List.count_eq_zero.1 (by have := cx' h0; omega)
  have x3 : h.left b ≠ 0 → h.left b ∉ A.nodes := fun h0 =>
    List.count_eq_zero.1 (by have := cx' h0; omega)
  have x5 : h.left b ≠ 0 → h.left b ∉ B2.nodes := fun h0 =>
    List.count_eq_zero.1 (by have := cx' h0; omega)
  refine ⟨hd, ⟨hb, ⟨?_, ha, ?_, ?_, ?_⟩, ?_, ?_, ?_⟩, ?_, ⟨b, ?_⟩, ?_⟩
  · simp
  · simp [Function.update_noteq hab]
  · have := repr_setParent _ _ _ _ b (topL d L) b3 (repr_setRight _ _ _ _ (topL d L) b l3
      (repr_setParent _ _ _ _ a b a3 (repr_setLeft _ _ _ _ b a b3
        (repr_setParentIf _ _ _ _ (h.left b) a x3 (repr_setRight _ _ _ _ a (h.left b) a3 hA)))))
    simpa [Function.update_noteq hab] using this
  · have := repr_setParent _ _ _ _ b (topL d L) b4 (repr_setRight _ _ _ _ (topL d L) b l4
      (repr_setParent _ _ _ _ a b a4 (repr_setLeft _ _ _ _ b a b4
        (repr_reparent _ _ _ a _ (repr_setRight _ _ _ _ a (h.left b) a4 hB1) hndB1))))
    simpa [Function.update_noteq (Ne.symm hla)] using this
  · simp
  · simp
  · exact lspine_setParent _ _ _ _ _ hndL b1 (lspine_setRight_top _ _ _ _ hndL
      (lspine_setParent _ _ _ _ _ hndL a1 (lspine_setLeft _ _ _ _ _ hndL b1
        (lspine_setParentIf _ _ _ _ _ hndL x1 (lspine_setRight _ _ _ _ _ hndL a6 hL)))))
  · exact rspine_setParent _ _ _ _ _ hndR b2 (rspine_setRight _ _ _ _ _ hndR l2
      (rspine_setParent _ _ _ _ _ hndR a2 (rspine_setLeft _ _ _ _ _ hndR b6
        (rspine_setParentIf _ _ _ _ _ hndR x2 (rspine_setRight _ _ _ _ _ hndR a2 hR)))))
  · have := repr_setParent _ _ _ _ b (topL d L) b5 (repr_setRight _ _ _ _ (topL d L) b l5
      (repr_setParent _ _ _ _ a b a5 (repr_setLeft _ _ _ _ b a b5
        (repr_setParentIf _ _ _ _ (h.left b) a x5 (repr_setRight _ _ _ _ a (h.left b) a5 hB2)))))
    simpa [Function.update_noteq (Ne.symm hlb), Function.update_noteq (Ne.symm hab)] using this
  · refine (List.Perm.nodup_iff ?_).2 hnd
    rw [List.perm_iff_count]
    intro x
    simp only [nodesL, Tree.nodes, List.count_append, List.count_cons]
    omega


/-- The step `r->left = n; n->parent = r; r = n; n = t;` of the loops. -/
theorem step_linkR (h : Heap) (d : Nat) (A B : Tree) (a : Nat) (L : List (Tree × Nat))
    (R : List (Nat × Tree)) (hinv : SplayInv h d (.node A a B) L R a) :
    SplayInv ((h.setLeft (topR d R) a).setParent a (topR d R)) d A L ((a, B) :: R)
      (h.left a) := by
  obtain ⟨hd, hL, hR, ⟨par, _, ha, _, hA, hB⟩, hnd⟩ := hinv
  have hndL := nodup_sub_L _ _ _ hnd
  have hndR := nodup_sub_R _ _ _ _ hnd
  have hc := List.nodup_iff_count_le_one.1 hnd
  have ca := hc a
  have cr := hc (topR d R)
  have cr' := count_topR d R
  simp only [Tree.nodes, List.count_cons, List.count_append, beq_self_eq_true, if_true]
    at ca cr cr'
  have e1 : a ∉ nodesL L := List.count_eq_zero.1 (by omega)
  have e2 : a ∉ nodesR R := List.count_eq_zero.1 (by omega)
  have e3 : a ∉ A.nodes := List.count_eq_zero.1 (by omega)
  have e4 : a ∉ B.nodes := List.count_eq_zero.1 (by omega)
  have e5 : topR d R ∉ A.nodes := List.count_eq_zero.1 (by omega)
  have e6 : topR d R ∉ B.nodes := List.count_eq_zero.1 (by omega)
  have e7 : topR d R ∉ nodesL L := List.count_eq_zero.1 (by omega)
  have e8 : topR d R ≠ a := by
    intro e
    rw [e] at cr'
    omega
  refine ⟨hd, ?_, ⟨ha, ?_, ?_, ?_, ?_⟩, ⟨a, ?_⟩, ?_⟩
  · exact lspine_setParent _ _ _ _ _ hndL e1 (lspine_setLeft _ _ _ _ _ hndL e7 hL)
  · exact repr_setParent _ _ _ _ _ _ e4 (repr_setLeft _ _ _ _ _ _ e6 hB)
  · simp
  · simp
  · exact rspine_setParent _ _ _ _ _ hndR e2 (rspine_setLeft_top _ _ _ _ hndR hR)
  · have := repr_setParent _ _ _ _ a (topR d R) e3 (repr_setLeft _ _ _ _ _ a e5 hA)
    simpa [Function.update_noteq (Ne.symm e8)] using this
  · refine (List.Perm.nodup_iff ?_).2 hnd
    rw [List.perm_iff_count]
    intro x
    simp only [nodesR, Tree.nodes, List.count_append, List.count_cons]
    omega

/-- The rotation to the right followed by `r->left = t; t->parent = r; r = t;`
of the loops. -/
theorem step_rotR (h : Heap) (d : Nat) (A1 A2 B : Tree) (a t : Nat) (L : List (Tree × Nat))
    (R : List (Nat × Tree)) (hinv : SplayInv h d (.node (.node A1 t A2) a B) L R a) :
    SplayInv
      ((((((h.setLeft a (h.right t)).setParentIf (h.right t) a).setRight t a).setParent a t).setLeft
        (topR d R) t).setParent t (topR d R))
      d A1 L ((t, .node A2 a B) :: R) (h.left t) := by
  obtain ⟨hd, hL, hR, ⟨par, _, ha, _, ⟨hlt, ht, hpt, hA1, hA2⟩, hB⟩, hnd⟩ := hinv
  have hndL := nodup_sub_L _ _ _ hnd
  have hndR := nodup_sub_R _ _ _ _ hnd
  have hndT := nodup_sub_T _ _ _ _ hnd
  have hndA2 : A2.nodes.Nodup := by
    rw [List.nodup_iff_count_le_one] at *
    intro x
    have := hndT x
    simp only [Tree.nodes, List.count_cons, List.count_append] at this
    omega
  have hc := List.nodup_iff_count_le_one.1 hnd
  have ca := hc a
  have ct := hc t
  have cr := hc (topR d R)
  have cr' := count_topR d R
  have cx := hc (h.right t)
  have cx' := repr_count_root _ _ _ _ hA2
  simp only [Tree.nodes, List.count_cons, List.count_append, beq_self_eq_true, if_true]
    at ca ct cr cr' cx
  have hat : a ≠ t := by
    intro e
    rw [e] at ca
    simp only [beq_self_eq_true, if_true] at ca
    omega
  have hra : topR d R ≠ a := by
    intro e
    rw [e] at cr'
    omega
  have hrt : topR d R ≠ t := by
    intro e
    rw [e] at cr'
    omega
  have a1 : a ∉ nodesL L := List.count_eq_zero.1 (by omega)
  have a2 : a ∉ nodesR R := List.count_eq_zero.1 (by omega)
  have a3 : a ∉ A1.nodes := List.count_eq_zero.1 (by omega)
  have a4 : a ∉ A2.nodes := List.count_eq_zero.1 (by omega)
  have a5 : a ∉ B.nodes := List.count_eq_zero.1 (by omega)
  have a6 : a ∉ d :: nodesR R := List.count_eq_zero.1 (by
    simp only [List.count_cons]; omega)
  have t1 : t ∉ nodesL L := List.count_eq_zero.1 (by omega)
  have t2 : t ∉ nodesR R := List.count_eq_zero.1 (by omega)
  have t3 : t ∉ A1.nodes := List.count_eq_zero.1 (by omega)
  have t4 : t ∉ A2.nodes := List.count_eq_zero.1 (by omega)
  have t5 : t ∉ B.nodes := List.count_eq_zero.1 (by omega)
  have t6 : t ∉ d :: nodesL L := List.count_eq_zero.1 (by
    simp only [List.count_cons]; omega)
  have r1 : topR d R ∉ nodesL L := List.count_eq_zero.1 (by omega)
  have r3 : topR d R ∉ A1.nodes := List.count_eq_zero.1 (by omega)
  have r4 : topR d R ∉ A2.nodes := List.count_eq_zero.1 (by omega)
  have r5 : topR d R ∉ B.nodes := List.count_eq_zero.1 (by omega)
  have x1 : h.right t ≠ 0 → h.right t ∉ nodesL L := fun h0 =>
    List.count_eq_zero.1 (by have := cx' h0; omega)
  have x2 : h.right t ≠ 0 → h.right t ∉ nodesR R := fun h0 =>
    List.count_eq_zero.1 (by have := cx' h0; omega)
  have x3 : h.right t ≠ 0 → h.right t ∉ A1.nodes := fun h0 =>
    List.count_eq_zero.1 (by have := cx' h0; omega)
  have x5 : h.right t ≠ 0 → h.right t ∉ B.nodes := fun h0 =>
    List.count_eq_zero.1 (by have := cx' h0; omega)
  refine ⟨hd, ?_, ⟨ht, ⟨?_, ha, ?_, ?_, ?_⟩, ?_, ?_, ?_⟩, ⟨t, ?_⟩, ?_⟩
  · exact lspine_setParent _ _ _ _ _ hndL t1 (lspine_setLeft _ _ _ _ _ hndL r1
      (lspine_setParent _ _ _ _ _ hndL a1 (lspine_setRight _ _ _ _ _ hndL t6
        (lspine_setParentIf _ _ _ _ _ hndL x1 (lspine_setLeft _ _ _ _ _ hndL a1 hL)))))
  · simp
  · simp [Function.update_noteq hat]
  · have := repr_setParent _ _ _ _ t (topR d R) t4 (repr_setLeft _ _ _ _ (topR d R) t r4
      (repr_setParent _ _ _ _ a t a4 (repr_setRight _ _ _ _ t a t4
        (repr_reparent _ _ _ a _ (repr_setLeft _ _ _ _ a (h.right t) a4 hA2) hndA2))))
    simpa [Function.update_noteq (Ne.symm hra)] using this
  · have := repr_setParent _ _ _ _ t (topR d R) t5 (repr_setLeft _ _ _ _ (topR d R) t r5
      (repr_setParent _ _ _ _ a t a5 (repr_setRight _ _ _ _ t a t5
        (repr_setParentIf _ _ _ _ (h.right t) a x5 (repr_setLeft _ _ _ _ a (h.right t) a5 hB)))))
    simpa [Function.update_noteq hat] using this
  · simp
  · simp
  · exact rspine_setParent _ _ _ _ _ hndR t2 (rspine_setLeft_top _ _ _ _ hndR
      (rspine_setParent _ _ _ _ _ hndR a2 (rspine_setRight _ _ _ _ _ hndR t2
        (rspine_setParentIf _ _ _ _ _ hndR x2 (rspine_setLeft _ _ _ _ _ hndR a6 hR)))))
  · have := repr_setParent _ _ _ _ t (topR d R) t3 (repr_setLeft _ _ _ _ (topR d R) t r3
      (repr_setParent _ _ _ _ a t a3 (repr_setRight _ _ _ _ t a t3
        (repr_setParentIf _ _ _ _ (h.right t) a x3 (repr_setLeft _ _ _ _ a (h.right t) a3 hA1)))))
    simpa [Function.update_noteq (Ne.symm hrt), Function.update_noteq (Ne.symm hat)] using this
  · refine (List.Perm.nodup_iff ?_).2 hnd
    rw [List.perm_iff_count]
    intro x
    simp only [nodesR, Tree.nodes, List.count_append, List.count_cons]
    omega

end Dgd

namespace Dgd

theorem nodup_of_perm_sub (X Y : List Nat) (hX : X.Nodup)
    (hc : ∀ x, Y.count x ≤ X.count x) : Y.Nodup := by
  rw [List.nodup_iff_count_le_one] at *
  intro x
  exact Nat.le_trans (hc x) (hX x)

/-- The statements after the loop of `seek`: with the left tree below
`dummy.right` and the right tree below `dummy.left` complete, `n` becomes the
root over the two. -/
theorem seekFinish_spec (h : Heap) (d n : Nat) (LT RT : Tree)
    (hLT : Repr h d (h.right d) LT) (hRT : Repr h d (h.left d) RT) (hn : n ≠ 0)
    (hnd : (d :: n :: (LT.nodes ++ RT.nodes)).Nodup) :
    (seekFinish d h n).1 = n ∧ (seekFinish d h n).2.dtree = n
      ∧ Repr (seekFinish d h n).2 0 n (.node LT n RT)
      ∧ (seekFinish d h n).2.size = h.size := by
  have hc := List.nodup_iff_count_le_one.1 hnd
  have cn := hc n
  have cd := hc d
  have cl := hc (h.right d)
  have cl' := repr_count_root _ _ _ _ hLT
  have cr := hc (h.left d)
  have cr' := repr_count_root _ _ _ _ hRT
  simp only [List.count_cons, List.count_append, beq_self_eq_true, if_true] at cn cd cl cr
  have hdn : d ≠ n := by
    intro e
    rw [e] at cn
    simp only [beq_self_eq_true, if_true] at cn
    omega
  have n1 : n ∉ LT.nodes := List.count_eq_zero.1 (by omega)
  have n2 : n ∉ RT.nodes := List.count_eq_zero.1 (by omega)
  have l2 : h.right d ≠ 0 → h.right d ∉ RT.nodes := fun h0 =>
    List.count_eq_zero.1 (by have := cl' h0; omega)
  have r1 : h.left d ≠ 0 → h.left d ∉ LT.nodes := fun h0 =>
    List.count_eq_zero.1 (by have := cr' h0; omega)
  have hln : h.right d ≠ n := by
    intro e
    have := cl' (e ▸ hn)
    rw [e] at this
    omega
  have hrn : h.left d ≠ n := by
    intro e
    have := cr' (e ▸ hn)
    rw [e] at this
    omega
  have hndL : LT.nodes.Nodup := nodup_of_perm_sub _ _ hnd (fun x => by
    simp only [List.count_cons, List.count_append]; omega)
  have hndR : RT.nodes.Nodup := nodup_of_perm_sub _ _ hnd (fun x => by
    simp only [List.count_cons, List.count_append]; omega)
  refine ⟨rfl, rfl, ⟨rfl, hn, ?_, ?_, ?_⟩, ?_⟩
  · simp only [seekFinish, setDtree_parent, setParent_left, setParent_right, setRight_left,
      setParentIf_right, setRight_right, Function.update_noteq hdn]
    rw [setParentIf_parent_ne _ _ _ _ (Ne.symm hln), setLeft_parent,
      setParentIf_parent_ne _ _ _ _ (Ne.symm hrn)]
    simp
  · simp only [seekFinish, setDtree_left, setParent_left, setParent_right, setRight_left,
      setParentIf_right, setRight_right, setParentIf_left, setLeft_left,
      Function.update_same, Function.update_noteq hdn]
    apply repr_setDtree
    apply repr_reparent _ _ d n _ _ hndL
    apply repr_setLeft _ _ _ _ _ _ n1
    apply repr_setParentIf _ _ _ _ _ _ r1
    apply repr_setRight _ _ _ _ _ _ n1
    exact repr_setParent _ _ _ _ _ _ n1 hLT
  · simp only [seekFinish, setDtree_right, setParent_left, setParent_right, setRight_left,
      setParentIf_right, setRight_right, setParentIf_left, setLeft_left, setLeft_right,
      Function.update_same, Function.update_noteq hdn]
    apply repr_setDtree
    apply repr_setParentIf _ _ _ _ _ _ l2
    apply repr_setLeft _ _ _ _ _ _ n2
    apply repr_reparent _ _ d n _ _ hndR
    apply repr_setRight _ _ _ _ _ _ n2
    exact repr_setParent _ _ _ _ _ _ n2 hRT
  · simp [seekFinish]


theorem plugL_count (L : List (Tree × Nat)) (X : Tree) (x : Nat) :
    (plugL L X).nodes.count x = (nodesL L).count x + X.nodes.count x := by
  rw [(plugL_nodes L X).count_eq x, List.count_append]

theorem plugR_count (R : List (Nat × Tree)) (X : Tree) (x : Nat) :
    (plugR R X).nodes.count x = (nodesR R).count x + X.nodes.count x := by
  rw [(plugR_nodes R X).count_eq x, List.count_append]

/-- The two ways `seek` ends when the search has run off the right end of the
tree, with the left tree closed by a null link. -/
theorem seekEnd_spec (h : Heap) (d n0 : Nat) (L : List (Tree × Nat)) (R : List (Nat × Tree))
    (hinv : SplayInv h d .nil L R n0) (hhole : h.right (topL d L) = 0) :
    (if topR d R = d then seekNone d h
      else seekFinish d (seekUnlink h (topR d R)) (topR d R)).1 = (seekEnd L R).1
    ∧ Repr (if topR d R = d then seekNone d h
        else seekFinish d (seekUnlink h (topR d R)) (topR d R)).2 0
        (if topR d R = d then seekNone d h
          else seekFinish d (seekUnlink h (topR d R)) (topR d R)).2.dtree (seekEnd L R).2
    ∧ (if topR d R = d then seekNone d h
        else seekFinish d (seekUnlink h (topR d R)) (topR d R)).2.size = h.size := by
  obtain ⟨hd, hL, hR, _, hnd⟩ := hinv
  have hndL := nodup_sub_L _ _ _ hnd
  have hndR := nodup_sub_R _ _ _ _ hnd
  have hc := List.nodup_iff_count_le_one.1 hnd
  cases R with
  | nil =>
    simp only [topR, if_true, seekEnd]
    have hLT : Repr h d (h.right d) (plugL L .nil) := lspine_plug h d L .nil hL hhole
    have hndT : (plugL L .nil).nodes.Nodup := by
      rw [List.nodup_iff_count_le_one]
      intro x
      have := hc x
      rw [plugL_count]
      simp only [List.count_cons, List.count_append, nodesR, Tree.nodes, List.count_nil] at this ⊢
      omega
    refine ⟨rfl, ?_, rfl⟩
    simp only [seekNone, setParent_dtree, setDtree_dtree]
    by_cases h0 : h.right d = 0
    · rw [h0] at hLT ⊢
      rw [repr_zero _ _ _ hLT]
      rfl
    · have := repr_reparent _ _ d 0 _ (repr_setDtree h _ _ _ (h.right d) hLT) hndT
      simpa [Heap.setParentIf, h0] using this
  | cons f R' =>
    obtain ⟨r, B⟩ := f
    obtain ⟨hr, hB, hleft, hpar, hR'⟩ := hR
    have cr := hc r
    have ctl := hc (topL d L)
    have ctl' := count_topL d L
    have ctr := hc (topR d R')
    have ctr' := count_topR d R'
    have cb := hc (h.right r)
    have cb' := repr_count_root _ _ _ _ hB
    simp only [nodesR, Tree.nodes, List.count_cons, List.count_append, List.count_nil,
      beq_self_eq_true, if_true] at cr ctl ctl' ctr ctr' cb
    have hrd : r ≠ d := by
      intro e
      rw [e] at cr
      simp only [beq_self_eq_true, if_true] at cr
      omega
    simp only [topR, hrd, if_false, seekEnd]
    have hndR' : (d :: nodesR R').Nodup := nodup_of_perm_sub _ _ hnd (fun x => by
      simp only [nodesR, List.count_cons, List.count_append]; omega)
    have hndB : B.nodes.Nodup := nodup_of_perm_sub _ _ hnd (fun x => by
      simp only [nodesR, List.count_cons, List.count_append]; omega)
    have t1 : topR d R' ∉ nodesL L := List.count_eq_zero.1 (by omega)
    have t2 : topR d R' ∉ B.nodes := List.count_eq_zero.1 (by omega)
    have b1 : h.right r ≠ 0 → h.right r ∉ nodesL L := fun h0 =>
      List.count_eq_zero.1 (by have := cb' h0; omega)
    have b2 : h.right r ≠ 0 → h.right r ∉ nodesR R' := fun h0 =>
      List.count_eq_zero.1 (by have := cb' h0; omega)
    -- the memory after `r` has been taken out of the right tree
    have hLu : LSpine (seekUnlink h r) d L := by
      unfold seekUnlink
      rw [hpar]
      exact lspine_setParentIf _ _ _ _ _ hndL b1 (lspine_setLeft _ _ _ _ _ hndL t1 hL)
    have hholeu : (seekUnlink h r).right (topL d L) = 0 := by
      simpa [seekUnlink] using hhole
    have hLT : Repr (seekUnlink h r) d ((seekUnlink h r).right d) (plugL L .nil) :=
      lspine_plug _ d L .nil hLu hholeu
    have hRu : RSpine (seekUnlink h r) d R' := by
      unfold seekUnlink
      rw [hpar]
      exact rspine_setParentIf _ _ _ _ _ hndR' b2 (rspine_setLeft_top _ _ _ _ hndR' hR')
    have hBu : Repr (seekUnlink h r) (topR d R') ((seekUnlink h r).left (topR d R')) B := by
      unfold seekUnlink
      rw [hpar]
      simp only [setParentIf_left, setLeft_left, Function.update_same]
      exact repr_reparent _ _ r _ _ (repr_setLeft _ _ _ _ _ _ t2 hB) hndB
    have hRT : Repr (seekUnlink h r) d ((seekUnlink h r).left d) (plugR R' B) :=
      rspine_plug _ d R' B hRu hBu
    have hfin := seekFinish_spec (seekUnlink h r) d r (plugL L .nil) (plugR R' B) hLT hRT hr (by
      rw [List.nodup_iff_count_le_one]
      intro x
      have := hc x
      simp only [nodesR, Tree.nodes, List.count_cons, List.count_append, List.count_nil,
        plugL_count, plugR_count] at this ⊢
      omega)
    refine ⟨hfin.1, ?_, ?_⟩
    · rw [hfin.2.1]
      exact hfin.2.2.1
    · rw [hfin.2.2.2]
      simp [seekUnlink]


/-- The end of `seek` at a node of sufficient size without a left child. -/
theorem seekLeftNull_spec (h : Heap) (d a : Nat) (B : Tree) (L : List (Tree × Nat))
    (R : List (Nat × Tree)) (hinv : SplayInv h d (.node .nil a B) L R a) :
    (seekFinish d (((h.setLeft (topR d R) (h.right a)).setParentIf (h.right a)
        (topR d R)).setRight (topL d L) 0) a).1 = a
    ∧ Repr (seekFinish d (((h.setLeft (topR d R) (h.right a)).setParentIf (h.right a)
        (topR d R)).setRight (topL d L) 0) a).2 0
        (seekFinish d (((h.setLeft (topR d R) (h.right a)).setParentIf (h.right a)
          (topR d R)).setRight (topL d L) 0) a).2.dtree
        (.node (plugL L .nil) a (plugR R B))
    ∧ (seekFinish d (((h.setLeft (topR d R) (h.right a)).setParentIf (h.right a)
        (topR d R)).setRight (topL d L) 0) a).2.size = h.size := by
  obtain ⟨hd, hL, hR, ⟨par, _, ha, _, _, hB⟩, hnd⟩ := hinv
  have hndL := nodup_sub_L _ _ _ hnd
  have hndR := nodup_sub_R _ _ _ _ hnd
  have hc := List.nodup_iff_count_le_one.1 hnd
  have ca := hc a
  have ctl := hc (topL d L)
  have ctl' := count_topL d L
  have ctr := hc (topR d R)
  have ctr' := count_topR d R
  have cb := hc (h.right a)
  have cb' := repr_count_root _ _ _ _ hB
  simp only [Tree.nodes, List.count_cons, List.count_append, List.count_nil, List.nil_append,
    beq_self_eq_true, if_true] at ca ctl ctl' ctr ctr' cb
  have hndB : B.nodes.Nodup := nodup_of_perm_sub _ _ hnd (fun x => by
    simp only [Tree.nodes, List.count_cons, List.count_append]; omega)
  have t1 : topR d R ∉ nodesL L := List.count_eq_zero.1 (by omega)
  have t2 : topR d R ∉ B.nodes := List.count_eq_zero.1 (by omega)
  have l1 : topL d L ∉ nodesR R := List.count_eq_zero.1 (by omega)
  have l2 : topL d L ∉ B.nodes := List.count_eq_zero.1 (by omega)
  have b1 : h.right a ≠ 0 → h.right a ∉ nodesL L := fun h0 =>
    List.count_eq_zero.1 (by have := cb' h0; omega)
  have b2 : h.right a ≠ 0 → h.right a ∉ nodesR R := fun h0 =>
    List.count_eq_zero.1 (by have := cb' h0; omega)
  have hLf : LSpine (((h.setLeft (topR d R) (h.right a)).setParentIf (h.right a)
      (topR d R)).setRight (topL d L) 0) d L :=
    lspine_setRight_top _ _ _ _ hndL (lspine_setParentIf _ _ _ _ _ hndL b1
      (lspine_setLeft _ _ _ _ _ hndL t1 hL))
  have hRf : RSpine (((h.setLeft (topR d R) (h.right a)).setParentIf (h.right a)
      (topR d R)).setRight (topL d L) 0) d R :=
    rspine_setRight _ _ _ _ _ hndR l1 (rspine_setParentIf _ _ _ _ _ hndR b2
      (rspine_setLeft_top _ _ _ _ hndR hR))
  have hLT := lspine_plug _ d L .nil hLf (by simp [Repr])
  have hBf : Repr (((h.setLeft (topR d R) (h.right a)).setParentIf (h.right a)
      (topR d R)).setRight (topL d L) 0) (topR d R)
      ((((h.setLeft (topR d R) (h.right a)).setParentIf (h.right a)
      (topR d R)).setRight (topL d L) 0).left (topR d R)) B := by
    simp only [setRight_left, setParentIf_left, setLeft_left, Function.update_same]
    exact repr_setRight _ _ _ _ _ _ l2
      (repr_reparent _ _ a _ _ (repr_setLeft _ _ _ _ _ _ t2 hB) hndB)
  have hRT := rspine_plug _ d R B hRf hBf
  have hfin := seekFinish_spec _ d a (plugL L .nil) (plugR R B) hLT hRT ha (by
    rw [List.nodup_iff_count_le_one]
    intro x
    have := hc x
    simp only [Tree.nodes, List.count_cons, List.count_append, List.count_nil, List.nil_append,
      plugL_count, plugR_count] at this ⊢
    omega)
  refine ⟨hfin.1, ?_, ?_⟩
  · rw [hfin.2.1]
    exact hfin.2.2.1
  · rw [hfin.2.2.2]
    simp

/-- The end of `seek` after a rotation to the right that leaves no left
child: the rotated node becomes the root. -/
theorem seekRotNull_spec (h : Heap) (d a t : Nat) (A2 B : Tree) (L : List (Tree × Nat))
    (R : List (Nat × Tree)) (hinv : SplayInv h d (.node (.node .nil t A2) a B) L R a) :
    (seekFinish d (((((h.setLeft a (h.right t)).setParentIf (h.right t) a).setLeft (topR d R)
        a).setParent a (topR d R)).setRight (topL d L) 0) t).1 = t
    ∧ Repr (seekFinish d (((((h.setLeft a (h.right t)).setParentIf (h.right t) a).setLeft
        (topR d R) a).setParent a (topR d R)).setRight (topL d L) 0) t).2 0
        (seekFinish d (((((h.setLeft a (h.right t)).setParentIf (h.right t) a).setLeft
          (topR d R) a).setParent a (topR d R)).setRight (topL d L) 0) t).2.dtree
        (.node (plugL L .nil) t (plugR R (.node A2 a B)))
    ∧ (seekFinish d (((((h.setLeft a (h.right t)).setParentIf (h.right t) a).setLeft
        (topR d R) a).setParent a (topR d R)).setRight (topL d L) 0) t).2.size = h.size := by
  obtain ⟨hd, hL, hR, ⟨par, _, ha, _, ⟨_, ht, _, _, hA2⟩, hB⟩, hnd⟩ := hinv
  have hndL := nodup_sub_L _ _ _ hnd
  have hndR := nodup_sub_R _ _ _ _ hnd
  have hc := List.nodup_iff_count_le_one.1 hnd
  have ca := hc a
  have ct := hc t
  have ctl := hc (topL d L)
  have ctl' := count_topL d L
  have ctr := hc (topR d R)
  have ctr' := count_topR d R
  have cx := hc (h.right t)
  have cx' := repr_count_root _ _ _ _ hA2
  simp only [Tree.nodes, List.count_cons, List.count_append, List.count_nil, List.nil_append,
    beq_self_eq_true, if_true] at ca ct ctl ctl' ctr ctr' cx
  have hndA2 : A2.nodes.Nodup := nodup_of_perm_sub _ _ hnd (fun x => by
    simp only [Tree.nodes, List.count_cons, List.count_append]; omega)
  have hra : topR d R ≠ a := by
    intro e
    rw [e] at ctr'
    omega
  have hla : topL d L ≠ a := by
    intro e
    rw [e] at ctl'
    omega
  have a1 : a ∉ nodesL L := List.count_eq_zero.1 (by omega)
  have a2 : a ∉ nodesR R := List.count_eq_zero.1 (by omega)
  have a4 : a ∉ A2.nodes := List.count_eq_zero.1 (by omega)
  have a5 : a ∉ B.nodes := List.count_eq_zero.1 (by omega)
  have a6 : a ∉ d :: nodesR R := List.count_eq_zero.1 (by
    simp only [List.count_cons]; omega)
  have t1 : topR d R ∉ nodesL L := List.count_eq_zero.1 (by omega)
  have t4 : topR d R ∉ A2.nodes := List.count_eq_zero.1 (by omega)
  have t5 : topR d R ∉ B.nodes := List.count_eq_zero.1 (by omega)
  have l2 : topL d L ∉ nodesR R := List.count_eq_zero.1 (by omega)
  have l4 : topL d L ∉ A2.nodes := List.count_eq_zero.1 (by omega)
  have l5 : topL d L ∉ B.nodes := List.count_eq_zero.1 (by omega)
  have x1 : h.right t ≠ 0 → h.right t ∉ nodesL L := fun h0 =>
    List.count_eq_zero.1 (by have := cx' h0; omega)
  have x2 : h.right t ≠ 0 → h.right t ∉ nodesR R := fun h0 =>
    List.count_eq_zero.1 (by have := cx' h0; omega)
  have x5 : h.right t ≠ 0 → h.right t ∉ B.nodes := fun h0 =>
    List.count_eq_zero.1 (by have := cx' h0; omega)
  have hLf : LSpine (((((h.setLeft a (h.right t)).setParentIf (h.right t) a).setLeft (topR d R)
      a).setParent a (topR d R)).setRight (topL d L) 0) d L :=
    lspine_setRight_top _ _ _ _ hndL (lspine_setParent _ _ _ _ _ hndL a1
      (lspine_setLeft _ _ _ _ _ hndL t1 (lspine_setParentIf _ _ _ _ _ hndL x1
        (lspine_setLeft _ _ _ _ _ hndL a1 hL))))
  have hRf : RSpine (((((h.setLeft a (h.right t)).setParentIf (h.right t) a).setLeft (topR d R)
      a).setParent a (topR d R)).setRight (topL d L) 0) d R :=
    rspine_setRight _ _ _ _ _ hndR l2 (rspine_setParent _ _ _ _ _ hndR a2
      (rspine_setLeft_top _ _ _ _ hndR (rspine_setParentIf _ _ _ _ _ hndR x2
        (rspine_setLeft _ _ _ _ _ hndR a6 hR))))
  have hLT := lspine_plug _ d L .nil hLf (by simp [Repr])
  have hXf : Repr (((((h.setLeft a (h.right t)).setParentIf (h.right t) a).setLeft (topR d R)
      a).setParent a (topR d R)).setRight (topL d L) 0) (topR d R)
      ((((((h.setLeft a (h.right t)).setParentIf (h.right t) a).setLeft (topR d R)
      a).setParent a (topR d R)).setRight (topL d L) 0).left (topR d R)) (.node A2 a B) := by
    simp only [setRight_left, setParent_left, setLeft_left, Function.update_same]
    refine ⟨rfl, ha, by simp, ?_, ?_⟩
    · have := repr_setRight _ _ _ _ (topL d L) 0 l4 (repr_setParent _ _ _ _ a (topR d R) a4
        (repr_setLeft _ _ _ _ (topR d R) a t4
          (repr_reparent _ _ t a _ (repr_setLeft _ _ _ _ a (h.right t) a4 hA2) hndA2)))
      simpa [Function.update_noteq (Ne.symm hra)] using this
    · have := repr_setRight _ _ _ _ (topL d L) 0 l5 (repr_setParent _ _ _ _ a (topR d R) a5
        (repr_setLeft _ _ _ _ (topR d R) a t5
          (repr_setParentIf _ _ _ _ (h.right t) a x5
            (repr_setLeft _ _ _ _ a (h.right t) a5 hB))))
      simpa [Function.update_noteq (Ne.symm hla)] using this
  have hRT := rspine_plug _ d R (.node A2 a B) hRf hXf
  have hfin := seekFinish_spec _ d t (plugL L .nil) (plugR R (.node A2 a B)) hLT hRT ht (by
    rw [List.nodup_iff_count_le_one]
    intro x
    have := hc x
    simp only [Tree.nodes, List.count_cons, List.count_append, List.count_nil, List.nil_append,
      plugL_count, plugR_count] at this ⊢
    omega)
  refine ⟨hfin.1, ?_, ?_⟩
  · rw [hfin.2.1]
    exact hfin.2.2.1
  · rw [hfin.2.2.2]
    simp

end Dgd

namespace Dgd

theorem inv_ne (h : Heap) (d : Nat) (t : Tree) (L : List (Tree × Nat)) (R : List (Nat × Tree))
    (n : Nat) (hinv : SplayInv h d t L R n) :
    ∀ x ∈ t.nodes, topL d L ≠ x ∧ topR d R ≠ x ∧ d ≠ x := by
  intro x hx
  obtain ⟨_, _, _, _, hnd⟩ := hinv
  have hc := List.nodup_iff_count_le_one.1 hnd x
  have cx := List.count_pos_iff.2 hx
  have ctl' := count_topL d L
  have ctr' := count_topR d R
  simp only [List.count_cons, List.count_append] at hc ctl' ctr'
  refine ⟨?_, ?_, ?_⟩
  · intro e
    rw [e] at ctl'
    omega
  · intro e
    rw [e] at ctr'
    omega
  · intro e
    rw [e] at hc
    simp only [beq_self_eq_true, if_true] at hc
    omega

theorem inv_child_ne (h : Heap) (d : Nat) (A B : Tree) (a : Nat) (L : List (Tree × Nat))
    (R : List (Nat × Tree)) (n : Nat) (hinv : SplayInv h d (.node A a B) L R n) :
    (∀ x ∈ A.nodes, a ≠ x) ∧ (∀ x ∈ B.nodes, a ≠ x) := by
  obtain ⟨_, _, _, _, hnd⟩ := hinv
  have hc := List.nodup_iff_count_le_one.1 hnd a
  simp only [Tree.nodes, List.count_cons, List.count_append, beq_self_eq_true, if_true] at hc
  constructor
  · intro x hx e
    have := List.count_pos_iff.2 hx
    rw [← e] at this
    omega
  · intro x hx e
    have := List.count_pos_iff.2 hx
    rw [← e] at this
    omega

theorem seekEnd_some (h : Heap) (d n0 : Nat) (L : List (Tree × Nat)) (R : List (Nat × Tree))
    (hinv : SplayInv h d .nil L R n0) (hhole : h.right (topL d L) = 0) :
    ∃ h', (if topR d R = d then some (seekNone d h)
        else some (seekFinish d (seekUnlink h (topR d R)) (topR d R)))
        = some ((seekEnd L R).1, h')
      ∧ Repr h' 0 h'.dtree (seekEnd L R).2 ∧ h'.size = h.size := by
  have hend := seekEnd_spec h d n0 L R hinv hhole
  refine ⟨_, ?_, hend.2.1, hend.2.2⟩
  rw [← hend.1]
  split <;> rfl

theorem seekA_nilR (sz : Nat → Nat) (size : Nat) (A : Tree) (a : Nat) (L : List (Tree × Nat))
    (R : List (Nat × Tree)) (hlt : sz a < size) :
    seekA sz size (.node A a .nil) L R = seekEnd ((A, a) :: L) R := by
  rw [seekA.eq_def]
  simp only [hlt, if_true]

theorem seekA_linkL (sz : Nat → Nat) (size : Nat) (A B1 B2 : Tree) (a b : Nat)
    (L : List (Tree × Nat)) (R : List (Nat × Tree)) (hlt : sz a < size) (hge : sz b ≥ size) :
    seekA sz size (.node A a (.node B1 b B2)) L R
      = seekA sz size (.node B1 b B2) ((A, a) :: L) R := by
  rw [seekA.eq_def]
  simp only [hlt, hge, if_true]

theorem seekA_rotL_nil (sz : Nat → Nat) (size : Nat) (A B1 : Tree) (a b : Nat)
    (L : List (Tree × Nat)) (R : List (Nat × Tree)) (hlt : sz a < size) (hge : ¬sz b ≥ size) :
    seekA sz size (.node A a (.node B1 b .nil)) L R = seekEnd ((.node A a B1, b) :: L) R := by
  rw [seekA.eq_def]
  simp only [hlt, hge, if_true, if_false]

theorem seekA_rotL (sz : Nat → Nat) (size : Nat) (A B1 C1 C2 : Tree) (a b c : Nat)
    (L : List (Tree × Nat)) (R : List (Nat × Tree)) (hlt : sz a < size) (hge : ¬sz b ≥ size) :
    seekA sz size (.node A a (.node B1 b (.node C1 c C2))) L R
      = seekA sz size (.node C1 c C2) ((.node A a B1, b) :: L) R := by
  rw [seekA.eq_def]
  simp only [hlt, hge, if_true, if_false]

theorem seekA_nilL (sz : Nat → Nat) (size : Nat) (B : Tree) (a : Nat) (L : List (Tree × Nat))
    (R : List (Nat × Tree)) (hlt : ¬sz a < size) :
    seekA sz size (.node .nil a B) L R = (a, .node (plugL L .nil) a (plugR R B)) := by
  rw [seekA.eq_def]
  simp only [hlt, if_false]

theorem seekA_linkR (sz : Nat → Nat) (size : Nat) (A1 A2 B : Tree) (a t : Nat)
    (L : List (Tree × Nat)) (R : List (Nat × Tree)) (hlt : ¬sz a < size) (htl : sz t < size) :
    seekA sz size (.node (.node A1 t A2) a B) L R
      = seekA sz size (.node A1 t A2) L ((a, B) :: R) := by
  rw [seekA.eq_def]
  simp only [hlt, htl, if_true, if_false]

theorem seekA_rotR_nil (sz : Nat → Nat) (size : Nat) (A2 B : Tree) (a t : Nat)
    (L : List (Tree × Nat)) (R : List (Nat × Tree)) (hlt : ¬sz a < size) (htl : ¬sz t < size) :
    seekA sz size (.node (.node .nil t A2) a B) L R
      = (t, .node (plugL L .nil) t (plugR R (.node A2 a B))) := by
  rw [seekA.eq_def]
  simp only [hlt, htl, if_false]

theorem seekA_rotR (sz : Nat → Nat) (size : Nat) (C1 C2 A2 B : Tree) (a t c : Nat)
    (L : List (Tree × Nat)) (R : List (Nat × Tree)) (hlt : ¬sz a < size) (htl : ¬sz t < size) :
    seekA sz size (.node (.node (.node C1 c C2) t A2) a B) L R
      = seekA sz size (.node C1 c C2) L ((t, .node A2 a B) :: R) := by
  rw [seekA.eq_def]
  simp only [hlt, htl, if_false]

theorem seekLoop_refines (d size : Nat) :
    ∀ (fuel : Nat) (h : Heap) (t : Tree) (L : List (Tree × Nat)) (R : List (Nat × Tree))
      (n : Nat), SplayInv h d t L R n → n ≠ 0 → t.card ≤ fuel →
      ∃ h', seekLoop d size fuel h n (topL d L) (topR d R)
          = some ((seekA h.size size t L R).1, h')
        ∧ Repr h' 0 h'.dtree (seekA h.size size t L R).2 ∧ h'.size = h.size := by
  intro fuel
  induction fuel with
  | zero =>
    intro h t L R n hinv hn hcard
    cases t with
    | nil =>
      obtain ⟨_, _, _, ⟨par, hr⟩, _⟩ := hinv
      exact absurd hr hn
    | node A a B => simp [Tree.card] at hcard
  | succ fuel ih =>
    intro h t L R n hinv hn hcard
    cases t with
    | nil =>
      obtain ⟨_, _, _, ⟨par, hr⟩, _⟩ := hinv
      exact absurd hr hn
    | node A a B =>
      have hna : n = a := by
        obtain ⟨_, _, _, ⟨par, hr⟩, _⟩ := hinv
        exact hr.1
      subst hna
      have hreprs : ∃ par, Repr h par n (.node A n B) := hinv.2.2.2.1
      obtain ⟨par, _, _, _, hA, hB⟩ := hreprs
      have hne := inv_ne _ _ _ _ _ _ hinv
      have hnn := hne n (by simp [Tree.nodes])
      have hch := inv_child_ne _ _ _ _ _ _ _ _ hinv
      unfold seekLoop
      by_cases hlt : h.size n < size
      · simp only [hlt, if_true]
        cases B with
        | nil =>
          have hr0 : h.right n = 0 := hB
          have hstep := step_linkL h d A .nil n L R hinv
          have hhole : ((h.setRight (topL d L) n).setParent n (topL d L)).right
              (topL d ((A, n) :: L)) = 0 := by
            show Function.update h.right (topL d L) n n = 0
            rw [Function.update_noteq (Ne.symm hnn.1)]
            exact hr0
          obtain ⟨h', h1, h2, h3⟩ := seekEnd_some _ d _ _ R hstep hhole
          rw [seekA_nilR _ _ _ _ _ _ hlt]
          refine ⟨h', ?_, h2, h3⟩
          simp only [hr0, if_true]
          exact h1
        | node B1 b B2 =>
          obtain ⟨hrb, hb, _, hB1, hB2⟩ := hB
          have hnb : n ≠ b := hch.2 b (by simp [Tree.nodes])
          have hlb := (hne b (by simp [Tree.nodes])).1
          simp only [hrb, hb, if_false]
          by_cases hge : h.size b ≥ size
          · have hstep := step_linkL h d A (.node B1 b B2) n L R hinv
            rw [hrb] at hstep
            obtain ⟨h', h1, h2, h3⟩ := ih _ _ _ _ _ hstep hb (by
              simp only [Tree.card] at hcard ⊢; omega)
            rw [seekA_linkL _ _ _ _ _ _ _ _ _ hlt hge]
            refine ⟨h', ?_, h2, h3⟩
            simp only [hge, if_true]
            exact h1
          · have hstep := step_rotL h d A B1 B2 n b L R hinv
            have hrt : ((((((h.setRight n (h.left b)).setParentIf (h.left b) n).setLeft b
                n).setParent n b).setRight (topL d L) b).setParent b (topL d L)).right b
                = h.right b := by
              simp only [setParent_right, setRight_right, setLeft_right, setParentIf_right]
              rw [Function.update_noteq (Ne.symm hlb), Function.update_noteq (Ne.symm hnb)]
            have hsz : ((((((h.setRight n (h.left b)).setParentIf (h.left b) n).setLeft b
                n).setParent n b).setRight (topL d L) b).setParent b (topL d L)).size
                = h.size := by simp
            simp only [hge, if_false, hrt]
            cases B2 with
            | nil =>
              have hr0 : h.right b = 0 := hB2
              obtain ⟨h', h1, h2, h3⟩ := seekEnd_some _ d _ _ R hstep (hrt.trans hr0)
              rw [hsz] at h3
              rw [seekA_rotL_nil _ _ _ _ _ _ _ _ hlt hge]
              refine ⟨h', ?_, h2, h3⟩
              simp only [hr0, if_true]
              exact h1
            | node C1 c C2 =>
              have hc0 : h.right b ≠ 0 := by
                rw [hB2.1]
                exact hB2.2.1
              obtain ⟨h', h1, h2, h3⟩ := ih _ _ _ _ _ hstep hc0 (by
                simp only [Tree.card] at hcard ⊢; omega)
              rw [hsz] at h1 h2 h3
              rw [seekA_rotL _ _ _ _ _ _ _ _ _ _ _ hlt hge]
              refine ⟨h', ?_, h2, h3⟩
              simp only [hc0, if_false]
              exact h1
      · simp only [hlt, if_false]
        cases A with
        | nil =>
          have hl0 : h.left n = 0 := hA
          have hend := seekLeftNull_spec h d n B L R hinv
          rw [seekA_nilL _ _ _ _ _ _ hlt]
          refine ⟨_, ?_, hend.2.1, hend.2.2⟩
          simp only [hl0, if_true]
          rfl
        | node A1 t A2 =>
          obtain ⟨hlt', ht, _, hA1, hA2⟩ := hA
          have hnt : n ≠ t := hch.1 t (by simp [Tree.nodes])
          have hrt := (hne t (by simp [Tree.nodes])).2.1
          simp only [hlt', ht, if_false]
          by_cases htl : h.size t < size
          · have hstep := step_linkR h d (.node A1 t A2) B n L R hinv
            rw [hlt'] at hstep
            obtain ⟨h', h1, h2, h3⟩ := ih _ _ _ _ _ hstep ht (by
              simp only [Tree.card] at hcard ⊢; omega)
            rw [seekA_linkR _ _ _ _ _ _ _ _ _ hlt htl]
            refine ⟨h', ?_, h2, h3⟩
            simp only [htl, if_true]
            exact h1
          · have hl1 : ((h.setLeft n (h.right t)).setParentIf (h.right t) n).left t
                = h.left t := by
              simp only [setParentIf_left, setLeft_left]
              rw [Function.update_noteq (Ne.symm hnt)]
            simp only [htl, if_false, hl1]
            cases A1 with
            | nil =>
              have hl0 : h.left t = 0 := hA1
              have hend := seekRotNull_spec h d n t A2 B L R hinv
              rw [seekA_rotR_nil _ _ _ _ _ _ _ _ hlt htl]
              refine ⟨_, ?_, hend.2.1, hend.2.2⟩
              simp only [hl0, if_true]
              rfl
            | node C1 c C2 =>
              have hc0 : h.left t ≠ 0 := by
                rw [hA1.1]
                exact hA1.2.1
              have hstep := step_rotR h d (.node C1 c C2) A2 B n t L R hinv
              have hl2 : ((((((h.setLeft n (h.right t)).setParentIf (h.right t) n).setRight t
                  n).setParent n t).setLeft (topR d R) t).setParent t (topR d R)).left t
                  = h.left t := by
                simp only [setParent_left, setLeft_left, setRight_left, setParentIf_left]
                rw [Function.update_noteq (Ne.symm hrt), Function.update_noteq (Ne.symm hnt)]
              have hsz : ((((((h.setLeft n (h.right t)).setParentIf (h.right t) n).setRight t
                  n).setParent n t).setLeft (topR d R) t).setParent t (topR d R)).size
                  = h.size := by simp
              obtain ⟨h', h1, h2, h3⟩ := ih _ _ _ _ _ hstep hc0 (by
                simp only [Tree.card] at hcard ⊢; omega)
              rw [hsz] at h1 h2 h3
              rw [seekA_rotR _ _ _ _ _ _ _ _ _ _ _ hlt htl]
              refine ⟨h', ?_, h2, h3⟩
              simp only [hc0, if_false, hl2]
              exact h1

end Dgd

namespace Dgd

/-! ## Theorems: `seek` on the shape of the tree -/

theorem seekEnd_count (L : List (Tree × Nat)) (R : List (Nat × Tree)) (x : Nat) :
    (seekEnd L R).2.nodes.count x = (nodesL L).count x + (nodesR R).count x := by
  cases R with
  | nil => simp [seekEnd, plugL_count, nodesR, Tree.nodes]
  | cons f R =>
    obtain ⟨r, B⟩ := f
    simp only [seekEnd, Tree.nodes, nodesR, List.count_append, List.count_cons, plugL_count,
      plugR_count, List.count_nil]
    omega

/-- `seek` keeps every node exactly once. -/
theorem seekA_count (sz : Nat → Nat) (size : Nat) :
    ∀ (k : Nat) (t : Tree) (L : List (Tree × Nat)) (R : List (Nat × Tree)), t.card ≤ k →
      t ≠ .nil → ∀ x, (seekA sz size t L R).2.nodes.count x
        = (nodesL L).count x + (nodesR R).count x + t.nodes.count x := by
  intro k
  induction k with
  | zero =>
    intro t L R hk hne
    cases t with
    | nil => exact absurd rfl hne
    | node A a B => simp [Tree.card] at hk
  | succ k ih =>
    intro t L R hk hne x
    cases t with
    | nil => exact absurd rfl hne
    | node A a B =>
      simp only [Tree.card] at hk
      by_cases hlt : sz a < size
      · cases B with
        | nil =>
          rw [seekA_nilR _ _ _ _ _ _ hlt, seekEnd_count]
          simp only [nodesL, Tree.nodes, List.count_append, List.count_cons, List.count_nil]
          omega
        | node B1 b B2 =>
          simp only [Tree.card] at hk
          by_cases hge : sz b ≥ size
          · rw [seekA_linkL _ _ _ _ _ _ _ _ _ hlt hge, ih _ _ _ (by simp only [Tree.card]; omega)
              (by simp)]
            simp only [nodesL, Tree.nodes, List.count_append, List.count_cons]
            omega
          · cases B2 with
            | nil =>
              rw [seekA_rotL_nil _ _ _ _ _ _ _ _ hlt hge, seekEnd_count]
              simp only [nodesL, Tree.nodes, List.count_append, List.count_cons, List.count_nil]
              omega
            | node C1 c C2 =>
              simp only [Tree.card] at hk
              rw [seekA_rotL _ _ _ _ _ _ _ _ _ _ _ hlt hge,
                ih _ _ _ (by simp only [Tree.card]; omega) (by simp)]
              simp only [nodesL, Tree.nodes, List.count_append, List.count_cons]
              omega
      · cases A with
        | nil =>
          rw [seekA_nilL _ _ _ _ _ _ hlt]
          simp only [Tree.nodes, List.count_append, List.count_cons, List.count_nil, plugL_count,
            plugR_count]
          omega
        | node A1 t A2 =>
          simp only [Tree.card] at hk
          by_cases htl : sz t < size
          · rw [seekA_linkR _ _ _ _ _ _ _ _ _ hlt htl, ih _ _ _ (by simp only [Tree.card]; omega)
              (by simp)]
            simp only [nodesR, Tree.nodes, List.count_append, List.count_cons]
            omega
          · cases A1 with
            | nil =>
              rw [seekA_rotR_nil _ _ _ _ _ _ _ _ hlt htl]
              simp only [Tree.nodes, List.count_append, List.count_cons, List.count_nil,
                plugL_count, plugR_count]
              omega
            | node C1 c C2 =>
              simp only [Tree.card] at hk
              rw [seekA_rotR _ _ _ _ _ _ _ _ _ _ _ hlt htl,
                ih _ _ _ (by simp only [Tree.card]; omega) (by simp)]
              simp only [nodesR, Tree.nodes, List.count_append, List.count_cons]
              omega


theorem mem_node (A B : Tree) (a x : Nat) :
    x ∈ (Tree.node A a B).nodes ↔ x ∈ A.nodes ∨ x = a ∨ x ∈ B.nodes := by
  simp [Tree.nodes]

theorem seekEnd_fit (sz : Nat → Nat) (size : Nat) (L : List (Tree × Nat)) (R : List (Nat × Tree))
    (hR : ∀ y ∈ nodesR R, size ≤ sz y)
    (hRmin : ∀ y ∈ nodesR R, sz (topR 0 R) ≤ sz y)
    (hnz : ∀ x ∈ nodesR R, x ≠ 0) :
    ((seekEnd L R).1 = 0 ↔ ∀ y ∈ nodesR R, sz y < size)
    ∧ ((seekEnd L R).1 ≠ 0 → (seekEnd L R).1 ∈ nodesR R ∧ size ≤ sz (seekEnd L R).1
        ∧ (seekEnd L R).2.root = (seekEnd L R).1
        ∧ ∀ y ∈ nodesR R, sz (seekEnd L R).1 ≤ sz y) := by
  cases R with
  | nil => simp [seekEnd, nodesR]
  | cons f R =>
    obtain ⟨r, B⟩ := f
    have hr : r ∈ nodesR ((r, B) :: R) := by simp [nodesR]
    have hr0 := hnz r hr
    have hrs := hR r hr
    simp only [seekEnd, Tree.root]
    refine ⟨⟨fun h => absurd h hr0, fun h => ?_⟩, fun _ => ⟨hr, hrs, trivial, hRmin⟩⟩
    have := h r hr
    omega

/-- The node `seek` returns is a best fit, and NULL is returned only when no
node fits. -/
theorem seekA_fit (sz : Nat → Nat) (size : Nat) :
    ∀ (k : Nat) (t : Tree) (L : List (Tree × Nat)) (R : List (Nat × Tree)), t.card ≤ k →
      t ≠ .nil → Ordered sz t →
      (∀ y ∈ nodesR R, size ≤ sz y) →
      (∀ y ∈ nodesR R, sz (topR 0 R) ≤ sz y) →
      (∀ x ∈ t.nodes, ∀ y ∈ nodesR R, sz x ≤ sz y) →
      (∀ x ∈ nodesR R, x ≠ 0) → (∀ x ∈ t.nodes, x ≠ 0) →
      ((seekA sz size t L R).1 = 0 ↔ (∀ y ∈ nodesR R, sz y < size) ∧ ∀ y ∈ t.nodes, sz y < size)
      ∧ ((seekA sz size t L R).1 ≠ 0 →
          ((seekA sz size t L R).1 ∈ nodesR R ∨ (seekA sz size t L R).1 ∈ t.nodes)
          ∧ size ≤ sz (seekA sz size t L R).1
          ∧ (seekA sz size t L R).2.root = (seekA sz size t L R).1
          ∧ (∀ y ∈ nodesR R, sz (seekA sz size t L R).1 ≤ sz y)
          ∧ ∀ y ∈ t.nodes, size ≤ sz y → sz (seekA sz size t L R).1 ≤ sz y) := by
  intro k
  induction k with
  | zero =>
    intro t L R hk hne
    cases t with
    | nil => exact absurd rfl hne
    | node A a B => simp [Tree.card] at hk
  | succ k ih =>
    intro t L R hk hne hord hR hRmin hbound hnzR hnzT
    cases t with
    | nil => exact absurd rfl hne
    | node A a B =>
      simp only [Tree.card] at hk
      obtain ⟨hoA, hoB, hordA, hordB⟩ := hord
      have ha0 : a ≠ 0 := hnzT a (by simp [Tree.nodes])
      by_cases hlt : sz a < size
      · have hAlt : ∀ y ∈ A.nodes, sz y < size := fun y hy => by
          have := hoA y hy; omega
        cases B with
        | nil =>
          rw [seekA_nilR _ _ _ _ _ _ hlt]
          have hend := seekEnd_fit sz size ((A, a) :: L) R hR hRmin hnzR
          refine ⟨⟨fun h => ⟨hend.1.1 h, fun y hy => ?_⟩, fun h => hend.1.2 h.1⟩, fun h => ?_⟩
          · simp only [Tree.nodes, List.mem_append, List.mem_cons, List.not_mem_nil, or_false]
              at hy
            rcases hy with hy | rfl
            · exact hAlt y hy
            · exact hlt
          · obtain ⟨h1, h2, h3, h4⟩ := hend.2 h
            refine ⟨Or.inl h1, h2, h3, h4, fun y hy hys => ?_⟩
            simp only [Tree.nodes, List.mem_append, List.mem_cons, List.not_mem_nil, or_false]
              at hy
            rcases hy with hy | rfl
            · have := hAlt y hy; omega
            · omega
        | node B1 b B2 =>
          simp only [Tree.card] at hk
          obtain ⟨hoB1, hoB2, hordB1, hordB2⟩ := hordB
          by_cases hge : sz b ≥ size
          · rw [seekA_linkL _ _ _ _ _ _ _ _ _ hlt hge]
            have hi := ih (.node B1 b B2) ((A, a) :: L) R (by simp only [Tree.card]; omega)
              (by simp) ⟨hoB1, hoB2, hordB1, hordB2⟩ hR hRmin
              (fun x hx => hbound x ((mem_node _ _ _ _).2 (Or.inr (Or.inr hx))))
              hnzR
              (fun x hx => hnzT x ((mem_node _ _ _ _).2 (Or.inr (Or.inr hx))))
            refine ⟨⟨fun h => ?_, fun h => ?_⟩, fun h => ?_⟩
            · have := (hi.1.1 h).2 b (by simp [Tree.nodes])
              omega
            · have := h.2 b (by simp [Tree.nodes])
              omega
            · obtain ⟨h1, h2, h3, h4, h5⟩ := hi.2 h
              refine ⟨?_, h2, h3, h4, fun y hy hys => ?_⟩
              · rcases h1 with h1 | h1
                · exact Or.inl h1
                · exact Or.inr ((mem_node _ _ _ _).2 (Or.inr (Or.inr h1)))
              · rw [mem_node] at hy
                rcases hy with hy | rfl | hy
                · have := hAlt y hy; omega
                · omega
                · exact h5 y hy hys
          · have hblt : sz b < size := by omega
            have hB1lt : ∀ y ∈ B1.nodes, sz y < size := fun y hy => by
              have := hoB1 y hy; omega
            cases B2 with
            | nil =>
              rw [seekA_rotL_nil _ _ _ _ _ _ _ _ hlt hge]
              have hend := seekEnd_fit sz size ((.node A a B1, b) :: L) R hR hRmin hnzR
              have hall : ∀ y ∈ (Tree.node A a (.node B1 b .nil)).nodes, sz y < size := by
                intro y hy
                simp only [Tree.nodes, List.mem_append, List.mem_cons, List.not_mem_nil,
                  or_false] at hy
                rcases hy with hy | rfl | hy | rfl
                · exact hAlt y hy
                · exact hlt
                · exact hB1lt y hy
                · exact hblt
              refine ⟨⟨fun h => ⟨hend.1.1 h, hall⟩, fun h => hend.1.2 h.1⟩, fun h => ?_⟩
              obtain ⟨h1, h2, h3, h4⟩ := hend.2 h
              refine ⟨Or.inl h1, h2, h3, h4, fun y hy hys => ?_⟩
              have := hall y hy
              omega
            | node C1 c C2 =>
              simp only [Tree.card] at hk
              rw [seekA_rotL _ _ _ _ _ _ _ _ _ _ _ hlt hge]
              have hsub : ∀ x ∈ (Tree.node C1 c C2).nodes,
                  x ∈ (Tree.node A a (.node B1 b (.node C1 c C2))).nodes := by
                intro x hx
                simp only [Tree.nodes, List.mem_append, List.mem_cons] at hx ⊢
                tauto
              have hi := ih (.node C1 c C2) ((.node A a B1, b) :: L) R
                (by simp only [Tree.card]; omega) (by simp) hordB2 hR hRmin
                (fun x hx => hbound x (hsub x hx)) hnzR (fun x hx => hnzT x (hsub x hx))
              refine ⟨⟨fun h => ⟨(hi.1.1 h).1, fun y hy => ?_⟩, fun h => ?_⟩, fun h => ?_⟩
              · simp only [Tree.nodes, List.mem_append, List.mem_cons] at hy
                rcases hy with hy | rfl | hy | rfl | hy
                · exact hAlt y hy
                · exact hlt
                · exact hB1lt y hy
                · exact hblt
                · exact (hi.1.1 h).2 y (by simp only [Tree.nodes, List.mem_append, List.mem_cons]
                                           exact hy)
              · exact hi.1.2 ⟨h.1, fun y hy => h.2 y (hsub y hy)⟩
              · obtain ⟨h1, h2, h3, h4, h5⟩ := hi.2 h
                refine ⟨?_, h2, h3, h4, fun y hy hys => ?_⟩
                · rcases h1 with h1 | h1
                  · exact Or.inl h1
                  · exact Or.inr (hsub _ h1)
                · simp only [Tree.nodes, List.mem_append, List.mem_cons] at hy
                  rcases hy with hy | rfl | hy | rfl | hy
                  · have := hAlt y hy; omega
                  · omega
                  · have := hB1lt y hy; omega
                  · omega
                  · exact h5 y (by simp only [Tree.nodes, List.mem_append, List.mem_cons]
                                   exact hy) hys
      · have hage : size ≤ sz a := by omega
        have hBge : ∀ y ∈ B.nodes, sz a ≤ sz y := hoB
        have haR : ∀ y ∈ nodesR R, sz a ≤ sz y := fun y hy =>
          hbound a (by simp [Tree.nodes]) y hy
        cases A with
        | nil =>
          rw [seekA_nilL _ _ _ _ _ _ hlt]
          simp only [Tree.root]
          refine ⟨⟨fun h => absurd h ha0, fun h => ?_⟩, fun _ => ?_⟩
          · have := h.2 a (by simp [Tree.nodes])
            omega
          · refine ⟨Or.inr (by simp [Tree.nodes]), hage, trivial, haR, fun y hy _ => ?_⟩
            simp only [Tree.nodes, List.nil_append, List.mem_cons] at hy
            rcases hy with rfl | hy
            · exact le_refl _
            · exact hBge y hy
        | node A1 t A2 =>
          simp only [Tree.card] at hk
          obtain ⟨hoA1, hoA2, hordA1, hordA2⟩ := hordA
          have hta : sz t ≤ sz a := hoA t (by simp [Tree.nodes])
          have ht0 : t ≠ 0 := hnzT t (by simp [Tree.nodes])
          by_cases htl : sz t < size
          · rw [seekA_linkR _ _ _ _ _ _ _ _ _ hlt htl]
            have hsub : ∀ x ∈ (Tree.node A1 t A2).nodes,
                x ∈ (Tree.node (.node A1 t A2) a B).nodes := by
              intro x hx
              simp only [Tree.nodes, List.mem_append, List.mem_cons] at hx ⊢
              tauto
            have hi := ih (.node A1 t A2) L ((a, B) :: R) (by simp only [Tree.card]; omega)
              (by simp) ⟨hoA1, hoA2, hordA1, hordA2⟩
              (by
                intro y hy
                simp only [nodesR, List.mem_append, List.mem_cons] at hy
                rcases hy with (rfl | hy) | hy
                · exact hage
                · have := hBge y hy; omega
                · exact hR y hy)
              (by
                intro y hy
                simp only [nodesR, List.mem_append, List.mem_cons] at hy
                simp only [topR]
                rcases hy with (rfl | hy) | hy
                · exact le_refl _
                · exact hBge y hy
                · exact haR y hy)
              (by
                intro x hx y hy
                have hxa : sz x ≤ sz a := hoA x hx
                simp only [nodesR, List.mem_append, List.mem_cons] at hy
                rcases hy with (rfl | hy) | hy
                · exact hxa
                · have := hBge y hy; omega
                · exact hbound x (hsub x hx) y hy)
              (by
                intro x hx
                simp only [nodesR, List.mem_append, List.mem_cons] at hx
                rcases hx with (rfl | hx) | hx
                · exact ha0
                · exact hnzT x (by simp only [Tree.nodes, List.mem_append, List.mem_cons]
                                   exact Or.inr (Or.inr hx))
                · exact hnzR x hx)
              (fun x hx => hnzT x (hsub x hx))
            refine ⟨⟨fun h => ?_, fun h => ?_⟩, fun h => ?_⟩
            · have := (hi.1.1 h).1 a (by simp [nodesR])
              omega
            · have := h.2 a (by simp [Tree.nodes])
              omega
            · obtain ⟨h1, h2, h3, h4, h5⟩ := hi.2 h
              refine ⟨?_, h2, h3, fun y hy => h4 y (by
                simp only [nodesR, List.mem_append, List.mem_cons]; exact Or.inr hy),
                fun y hy _ => ?_⟩
              · rcases h1 with h1 | h1
                · simp only [nodesR, List.mem_append, List.mem_cons] at h1
                  rcases h1 with (h1 | h1) | h1
                  · exact Or.inr (by rw [h1]; simp [Tree.nodes])
                  · exact Or.inr (by simp only [Tree.nodes, List.mem_append, List.mem_cons]
                                     exact Or.inr (Or.inr h1))
                  · exact Or.inl h1
                · exact Or.inr (hsub _ h1)
              · have hca : sz (seekA sz size (.node A1 t A2) L ((a, B) :: R)).1 ≤ sz a :=
                  h4 a (by simp [nodesR])
                simp only [Tree.nodes, List.mem_append, List.mem_cons] at hy
                rcases hy with (hy | rfl | hy) | rfl | hy
                · by_cases hys : size ≤ sz y
                  · exact h5 y (by simp only [Tree.nodes, List.mem_append, List.mem_cons]
                                   exact Or.inl hy) hys
                  · omega
                · omega
                · by_cases hys : size ≤ sz y
                  · exact h5 y (by simp only [Tree.nodes, List.mem_append, List.mem_cons]
                                   exact Or.inr (Or.inr hy)) hys
                  · omega
                · exact hca
                · have := hBge y hy; omega
          · have htge : size ≤ sz t := by omega
            have hA2ge : ∀ y ∈ A2.nodes, sz t ≤ sz y := hoA2
            have hA2a : ∀ y ∈ A2.nodes, sz y ≤ sz a := fun y hy =>
              hoA y (by simp only [Tree.nodes, List.mem_append, List.mem_cons]
                        exact Or.inr (Or.inr hy))
            have htR : ∀ y ∈ nodesR R, sz t ≤ sz y := fun y hy =>
              hbound t (by simp [Tree.nodes]) y hy
            have htall : ∀ y ∈ nodesR ((t, .node A2 a B) :: R), sz t ≤ sz y := by
              intro y hy
              simp only [nodesR, Tree.nodes, List.mem_append, List.mem_cons] at hy
              rcases hy with (rfl | hy | rfl | hy) | hy
              · exact le_refl _
              · exact hA2ge y hy
              · exact hta
              · have := hBge y hy; omega
              · exact htR y hy
            cases A1 with
            | nil =>
              rw [seekA_rotR_nil _ _ _ _ _ _ _ _ hlt htl]
              simp only [Tree.root]
              refine ⟨⟨fun h => absurd h ht0, fun h => ?_⟩, fun _ => ?_⟩
              · have := h.2 t (by simp [Tree.nodes])
                omega
              · refine ⟨Or.inr (by simp [Tree.nodes]), htge, trivial, htR, fun y hy _ => ?_⟩
                simp only [Tree.nodes, List.nil_append, List.mem_append, List.mem_cons] at hy
                rcases hy with (rfl | hy) | rfl | hy
                · exact le_refl _
                · exact hA2ge y hy
                · exact hta
                · have := hBge y hy; omega
            | node C1 c C2 =>
              simp only [Tree.card] at hk
              rw [seekA_rotR _ _ _ _ _ _ _ _ _ _ _ hlt htl]
              have hsub : ∀ x ∈ (Tree.node C1 c C2).nodes,
                  x ∈ (Tree.node (.node (.node C1 c C2) t A2) a B).nodes := by
                intro x hx
                simp only [Tree.nodes, List.mem_append, List.mem_cons] at hx ⊢
                tauto
              have hCt : ∀ x ∈ (Tree.node C1 c C2).nodes, sz x ≤ sz t := hoA1
              have hi := ih (.node C1 c C2) L ((t, .node A2 a B) :: R)
                (by simp only [Tree.card]; omega) (by simp) hordA1
                (fun y hy => by have := htall y hy; omega)
                (by simpa only [topR] using htall)
                (fun x hx y hy => by
                  have := hCt x hx
                  have := htall y hy
                  omega)
                (by
                  intro x hx
                  simp only [nodesR, Tree.nodes, List.mem_append, List.mem_cons] at hx
                  rcases hx with (rfl | hx | rfl | hx) | hx
                  · exact ht0
                  · exact hnzT x (by simp only [Tree.nodes, List.mem_append, List.mem_cons]
                                     tauto)
                  · exact ha0
                  · exact hnzT x (by simp only [Tree.nodes, List.mem_append, List.mem_cons]
                                     tauto)
                  · exact hnzR x hx)
                (fun x hx => hnzT x (hsub x hx))
              refine ⟨⟨fun h => ?_, fun h => ?_⟩, fun h => ?_⟩
              · have := (hi.1.1 h).1 t (by simp [nodesR])
                omega
              · have := h.2 t (by simp [Tree.nodes])
                omega
              · obtain ⟨h1, h2, h3, h4, h5⟩ := hi.2 h
                have hct : sz (seekA sz size (.node C1 c C2) L ((t, .node A2 a B) :: R)).1
                    ≤ sz t := h4 t (by simp [nodesR])
                refine ⟨?_, h2, h3, fun y hy => ?_, fun y hy _ => ?_⟩
                · rcases h1 with h1 | h1
                  · simp only [nodesR, Tree.nodes, List.mem_append, List.mem_cons] at h1
                    rcases h1 with (h1 | h1 | h1 | h1) | h1
                    · exact Or.inr (by rw [h1]; simp [Tree.nodes])
                    · exact Or.inr (by simp only [Tree.nodes, List.mem_append, List.mem_cons]
                                       tauto)
                    · exact Or.inr (by rw [h1]; simp [Tree.nodes])
                    · exact Or.inr (by simp only [Tree.nodes, List.mem_append, List.mem_cons]
                                       tauto)
                    · exact Or.inl h1
                  · exact Or.inr (hsub _ h1)
                · have := htR y hy
                  omega
                · simp only [Tree.nodes, List.mem_append, List.mem_cons] at hy
                  have key : ∀ z, z ∈ nodesR ((t, .node A2 a B) :: R) →
                      sz (seekA sz size (.node C1 c C2) L ((t, .node A2 a B) :: R)).1 ≤ sz z :=
                    fun z hz => by have := htall z hz; omega
                  rcases hy with ((hy | rfl | hy) | rfl | hy) | rfl | hy
                  · by_cases hys : size ≤ sz y
                    · exact h5 y (by simp only [Tree.nodes, List.mem_append, List.mem_cons]
                                     exact Or.inl hy) hys
                    · omega
                  · by_cases hys : size ≤ sz y
                    · exact h5 y (by simp [Tree.nodes]) hys
                    · omega
                  · by_cases hys : size ≤ sz y
                    · exact h5 y (by simp only [Tree.nodes, List.mem_append, List.mem_cons]
                                     exact Or.inr (Or.inr hy)) hys
                    · omega
                  · exact hct
                  · have := hA2ge y hy; omega
                  · omega
                  · have := hBge y hy; omega

end Dgd

namespace Dgd

/-! ## Theorems: `seek` -/

/-- What `seek` does to a splay tree in the memory. -/
theorem seek_correct (d fuel size : Nat) (h : Heap) (T : Tree) (hT : IsTree h T)
    (hd0 : d ≠ 0) (hd : d ∉ T.nodes) (hfuel : T.card ≤ fuel) :
    ∃ c h' T', seek d fuel h size = some (c, h') ∧ IsTree h' T' ∧ T'.nodes.Perm T.nodes
      ∧ h'.size = h.size
      ∧ (Ordered h.size T →
          (c = 0 ↔ ∀ x ∈ T.nodes, h.size x < size)
          ∧ (c ≠ 0 → c ∈ T.nodes ∧ size ≤ h.size c ∧ h'.dtree = c
              ∧ ∀ y ∈ T.nodes, size ≤ h.size y → h.size c ≤ h.size y)) := by
  obtain ⟨hrepr, hnd⟩ := hT
  cases T with
  | nil =>
    have h0 : h.dtree = 0 := hrepr
    refine ⟨0, h, .nil, by simp [seek, h0], ⟨hrepr, hnd⟩, List.Perm.refl _, rfl, fun _ => ?_⟩
    simp [Tree.nodes]
  | node A a B =>
    have hda : h.dtree = a := hrepr.1
    have ha : a ≠ 0 := hrepr.2.1
    have hinv : SplayInv h d (.node A a B) [] [] h.dtree := by
      refine ⟨hd0, trivial, trivial, ⟨0, hrepr⟩, ?_⟩
      simp only [nodesL, nodesR, List.nil_append]
      exact List.nodup_cons.2 ⟨hd, hnd⟩
    obtain ⟨h', h1, h2, h3⟩ := seekLoop_refines d size fuel h _ [] [] h.dtree hinv
      (by rw [hda]; exact ha) hfuel
    have hcount := seekA_count h.size size _ (.node A a B) [] [] (le_refl _) (by simp)
    have hperm : (seekA h.size size (.node A a B) [] []).2.nodes.Perm
        (Tree.node A a B).nodes := by
      rw [List.perm_iff_count]
      intro x
      rw [hcount x]
      simp [nodesL, nodesR]
    refine ⟨(seekA h.size size (.node A a B) [] []).1, h',
      (seekA h.size size (.node A a B) [] []).2, ?_,
      ⟨h2, (List.Perm.nodup_iff hperm).2 hnd⟩, hperm, h3, fun hord => ?_⟩
    · simp only [seek, hda, ha, if_false]
      rw [hda] at h1
      exact h1
    · have hnz : ∀ x ∈ (Tree.node A a B).nodes, x ≠ 0 := repr_mem_ne_zero h _ _ _ hrepr
      have hfit := seekA_fit h.size size _ (.node A a B) [] [] (le_refl _) (by simp) hord
        (by simp [nodesR]) (by simp [nodesR]) (by simp [nodesR]) (by simp [nodesR]) hnz
      refine ⟨?_, fun hc => ?_⟩
      · rw [hfit.1]
        simp [nodesR]
      · obtain ⟨f1, f2, f3, _, f5⟩ := hfit.2 hc
        refine ⟨?_, f2, ?_, f5⟩
        · rcases f1 with f1 | f1
          · simp [nodesR] at f1
          · exact f1
        · rw [← f3]
          exact repr_root _ _ _ _ h2

/-- C1: on a splay tree that satisfies the search order, `seek(s)` returns
NULL exactly when no node has a size of at least `s`; otherwise it returns a
node of the tree whose size is at least `s`, and that node is the root of the
tree afterwards. -/
theorem seek_null_or_fit (d fuel size : Nat) (h : Heap) (T : Tree) (hT : IsTree h T)
    (hord : Ordered h.size T) (hd0 : d ≠ 0) (hd : d ∉ T.nodes) (hfuel : T.card ≤ fuel) :
    ∃ c h' T', seek d fuel h size = some (c, h') ∧ IsTree h' T'
      ∧ (c = 0 ↔ ∀ x ∈ T.nodes, h.size x < size)
      ∧ (c ≠ 0 → c ∈ T.nodes ∧ size ≤ h'.size c ∧ h'.dtree = c ∧ T'.root = c) := by
  obtain ⟨c, h', T', h1, h2, _, h4, h5⟩ := seek_correct d fuel size h T hT hd0 hd hfuel
  obtain ⟨h6, h7⟩ := h5 hord
  refine ⟨c, h', T', h1, h2, h6, fun hc => ?_⟩
  obtain ⟨h8, h9, h10, _⟩ := h7 hc
  refine ⟨h8, by rw [h4]; exact h9, h10, ?_⟩
  rw [← h10]
  exact (repr_root _ _ _ _ h2.1).symm

theorem seek_null_or_fit_witness :
    IsTree exTreeHeap exTree ∧ Ordered exTreeHeap.size exTree
    ∧ (seek 1 3 exTreeHeap 60).map (fun r => r.1) = some 200
    ∧ (seek 1 3 exTreeHeap 121).map (fun r => r.1) = some 0
    ∧ ∃ c h' T', seek 1 3 exTreeHeap 60 = some (c, h') ∧ IsTree h' T'
      ∧ (c = 0 ↔ ∀ x ∈ exTree.nodes, exTreeHeap.size x < 60)
      ∧ (c ≠ 0 → c ∈ exTree.nodes ∧ 60 ≤ h'.size c ∧ h'.dtree = c ∧ T'.root = c) :=
  ⟨by decide, by decide, by decide, by decide,
    seek_null_or_fit 1 3 60 exTreeHeap exTree (by decide) (by decide) (by decide) (by decide)
      (by decide)⟩

/-- C2: on a splay tree that satisfies the search order, when some node has a
size of at least `s` the node `seek(s)` returns is a best fit: its size is the
least of the sizes of the nodes that are at least `s`. -/
theorem seek_best_fit (d fuel size : Nat) (h : Heap) (T : Tree) (hT : IsTree h T)
    (hord : Ordered h.size T) (hd0 : d ≠ 0) (hd : d ∉ T.nodes) (hfuel : T.card ≤ fuel)
    (hex : ∃ x ∈ T.nodes, size ≤ h.size x) :
    ∃ c h', seek d fuel h size = some (c, h') ∧ c ∈ T.nodes ∧ size ≤ h.size c
      ∧ ∀ y ∈ T.nodes, size ≤ h.size y → h.size c ≤ h.size y := by
  obtain ⟨c, h', T', h1, _, _, _, h5⟩ := seek_correct d fuel size h T hT hd0 hd hfuel
  obtain ⟨h6, h7⟩ := h5 hord
  have hc : c ≠ 0 := by
    intro e
    obtain ⟨x, hx, hxs⟩ := hex
    have := h6.1 e x hx
    omega
  obtain ⟨h8, h9, _, h11⟩ := h7 hc
  exact ⟨c, h', h1, h8, h9, h11⟩

theorem seek_best_fit_witness :
    (seek 1 3 exTreeHeap 51).map (fun r => r.1) = some 200
    ∧ ∃ c h', seek 1 3 exTreeHeap 51 = some (c, h') ∧ c ∈ exTree.nodes
      ∧ 51 ≤ exTreeHeap.size c
      ∧ ∀ y ∈ exTree.nodes, 51 ≤ exTreeHeap.size y → exTreeHeap.size c ≤ exTreeHeap.size y :=
  ⟨by decide,
    seek_best_fit 1 3 51 exTreeHeap exTree (by decide) (by decide) (by decide) (by decide)
      (by decide) ⟨200, by decide, by decide⟩⟩

end Dgd

namespace Dgd

/-! ## Theorems: `insert` -/

theorem insertA_nilR (sz : Nat → Nat) (size : Nat) (A : Tree) (a : Nat) (L : List (Tree × Nat))
    (R : List (Nat × Tree)) (hlt : sz a < size) :
    insertA sz size (.node A a .nil) L R = (plugL ((A, a) :: L) .nil, plugR R .nil) := by
  rw [insertA.eq_def]
  simp only [hlt, if_true]

theorem insertA_linkL (sz : Nat → Nat) (size : Nat) (A B1 B2 : Tree) (a b : Nat)
    (L : List (Tree × Nat)) (R : List (Nat × Tree)) (hlt : sz a < size) (hge : sz b ≥ size) :
    insertA sz size (.node A a (.node B1 b B2)) L R
      = insertA sz size (.node B1 b B2) ((A, a) :: L) R := by
  rw [insertA.eq_def]
  simp only [hlt, hge, if_true]

theorem insertA_rotL_nil (sz : Nat → Nat) (size : Nat) (A B1 : Tree) (a b : Nat)
    (L : List (Tree × Nat)) (R : List (Nat × Tree)) (hlt : sz a < size) (hge : ¬sz b ≥ size) :
    insertA sz size (.node A a (.node B1 b .nil)) L R
      = (plugL ((.node A a B1, b) :: L) .nil, plugR R .nil) := by
  rw [insertA.eq_def]
  simp only [hlt, hge, if_true, if_false]

theorem insertA_rotL (sz : Nat → Nat) (size : Nat) (A B1 C1 C2 : Tree) (a b c : Nat)
    (L : List (Tree × Nat)) (R : List (Nat × Tree)) (hlt : sz a < size) (hge : ¬sz b ≥ size) :
    insertA sz size (.node A a (.node B1 b (.node C1 c C2))) L R
      = insertA sz size (.node C1 c C2) ((.node A a B1, b) :: L) R := by
  rw [insertA.eq_def]
  simp only [hlt, hge, if_true, if_false]

theorem insertA_nilL (sz : Nat → Nat) (size : Nat) (B : Tree) (a : Nat) (L : List (Tree × Nat))
    (R : List (Nat × Tree)) (hlt : ¬sz a < size) :
    insertA sz size (.node .nil a B) L R = (plugL L .nil, plugR ((a, B) :: R) .nil) := by
  rw [insertA.eq_def]
  simp only [hlt, if_false]

theorem insertA_linkR (sz : Nat → Nat) (size : Nat) (A1 A2 B : Tree) (a t : Nat)
    (L : List (Tree × Nat)) (R : List (Nat × Tree)) (hlt : ¬sz a < size) (htl : sz t < size) :
    insertA sz size (.node (.node A1 t A2) a B) L R
      = insertA sz size (.node A1 t A2) L ((a, B) :: R) := by
  rw [insertA.eq_def]
  simp only [hlt, htl, if_true, if_false]

theorem insertA_rotR_nil (sz : Nat → Nat) (size : Nat) (A2 B : Tree) (a t : Nat)
    (L : List (Tree × Nat)) (R : List (Nat × Tree)) (hlt : ¬sz a < size) (htl : ¬sz t < size) :
    insertA sz size (.node (.node .nil t A2) a B) L R
      = (plugL L .nil, plugR ((t, .node A2 a B) :: R) .nil) := by
  rw [insertA.eq_def]
  simp only [hlt, htl, if_false]

theorem insertA_rotR (sz : Nat → Nat) (size : Nat) (C1 C2 A2 B : Tree) (a t c : Nat)
    (L : List (Tree × Nat)) (R : List (Nat × Tree)) (hlt : ¬sz a < size) (htl : ¬sz t < size) :
    insertA sz size (.node (.node (.node C1 c C2) t A2) a B) L R
      = insertA sz size (.node C1 c C2) L ((t, .node A2 a B) :: R) := by
  rw [insertA.eq_def]
  simp only [hlt, htl, if_false]

/-- The end of the loop of `insert` with `r->left = NULL`: both trees below
the new node are complete. -/
theorem insertEnd_left (h : Heap) (d n0 : Nat) (L : List (Tree × Nat)) (R : List (Nat × Tree))
    (hinv : SplayInv h d .nil L R n0) (hhole : h.right (topL d L) = 0) :
    Repr (h.setLeft (topR d R) 0) d ((h.setLeft (topR d R) 0).right d) (plugL L .nil)
    ∧ Repr (h.setLeft (topR d R) 0) d ((h.setLeft (topR d R) 0).left d) (plugR R .nil) := by
  obtain ⟨hd, hL, hR, _, hnd⟩ := hinv
  have hndL := nodup_sub_L _ _ _ hnd
  have hndR := nodup_sub_R _ _ _ _ hnd
  have hc := List.nodup_iff_count_le_one.1 hnd
  have ctr := hc (topR d R)
  have ctr' := count_topR d R
  simp only [Tree.nodes, List.count_cons, List.count_append, List.count_nil] at ctr ctr'
  have t1 : topR d R ∉ nodesL L := List.count_eq_zero.1 (by omega)
  constructor
  · exact lspine_plug _ d L .nil (lspine_setLeft _ _ _ _ _ hndL t1 hL) hhole
  · exact rspine_plug _ d R .nil (rspine_setLeft_top _ _ _ _ hndR hR) (by simp [Repr])

/-- The end of the loop of `insert` with `l->right = NULL`. -/
theorem insertEnd_right (h : Heap) (d n0 : Nat) (L : List (Tree × Nat)) (R : List (Nat × Tree))
    (hinv : SplayInv h d .nil L R n0) (hhole : h.left (topR d R) = 0) :
    Repr (h.setRight (topL d L) 0) d ((h.setRight (topL d L) 0).right d) (plugL L .nil)
    ∧ Repr (h.setRight (topL d L) 0) d ((h.setRight (topL d L) 0).left d) (plugR R .nil) := by
  obtain ⟨hd, hL, hR, _, hnd⟩ := hinv
  have hndL := nodup_sub_L _ _ _ hnd
  have hndR := nodup_sub_R _ _ _ _ hnd
  have hc := List.nodup_iff_count_le_one.1 hnd
  have ctl := hc (topL d L)
  have ctl' := count_topL d L
  simp only [Tree.nodes, List.count_cons, List.count_append, List.count_nil] at ctl ctl'
  have t1 : topL d L ∉ nodesR R := List.count_eq_zero.1 (by omega)
  constructor
  · exact lspine_plug _ d L .nil (lspine_setRight_top _ _ _ _ hndL hL) (by simp [Repr])
  · exact rspine_plug _ d R .nil (rspine_setRight _ _ _ _ _ hndR t1 hR) hhole


theorem inv_d_ne_ptr (h : Heap) (d : Nat) (t : Tree) (L : List (Tree × Nat))
    (R : List (Nat × Tree)) (n : Nat) (hinv : SplayInv h d t L R n) (S : Tree) (par p : Nat)
    (hS : Repr h par p S) (hsub : ∀ x ∈ S.nodes, x ∈ t.nodes) : d ≠ p := by
  by_cases hp : p = 0
  · rw [hp]
    exact hinv.1
  · have := List.count_pos_iff.1 (repr_count_root _ _ _ _ hS hp)
    exact (inv_ne _ _ _ _ _ _ hinv p (hsub p this)).2.2

theorem insertLoop_refines (d size : Nat) :
    ∀ (fuel : Nat) (h : Heap) (t : Tree) (L : List (Tree × Nat)) (R : List (Nat × Tree))
      (n : Nat), SplayInv h d t L R n → n ≠ 0 → t.card ≤ fuel →
      ∃ h', insertLoop size fuel h n (topL d L) (topR d R) = some h'
        ∧ Repr h' d (h'.right d) (insertA h.size size t L R).1
        ∧ Repr h' d (h'.left d) (insertA h.size size t L R).2
        ∧ h'.size = h.size ∧ h'.dtree = h.dtree ∧ h'.parent d = h.parent d := by
  intro fuel
  induction fuel with
  | zero =>
    intro h t L R n hinv hn hcard
    cases t with
    | nil =>
      obtain ⟨_, _, _, ⟨par, hr⟩, _⟩ := hinv
      exact absurd hr hn
    | node A a B => simp [Tree.card] at hcard
  | succ fuel ih =>
    intro h t L R n hinv hn hcard
    cases t with
    | nil =>
      obtain ⟨_, _, _, ⟨par, hr⟩, _⟩ := hinv
      exact absurd hr hn
    | node A a B =>
      have hna : n = a := by
        obtain ⟨_, _, _, ⟨par, hr⟩, _⟩ := hinv
        exact hr.1
      subst hna
      have hreprs : ∃ par, Repr h par n (.node A n B) := hinv.2.2.2.1
      obtain ⟨par, _, _, _, hA, hB⟩ := hreprs
      have hne := inv_ne _ _ _ _ _ _ hinv
      have hnn := hne n (by simp [Tree.nodes])
      have hch := inv_child_ne _ _ _ _ _ _ _ _ hinv
      unfold insertLoop
      by_cases hlt : h.size n < size
      · simp only [hlt, if_true]
        cases B with
        | nil =>
          have hr0 : h.right n = 0 := hB
          have hstep := step_linkL h d A .nil n L R hinv
          have hhole : ((h.setRight (topL d L) n).setParent n (topL d L)).right
              (topL d ((A, n) :: L)) = 0 := by
            show Function.update h.right (topL d L) n n = 0
            rw [Function.update_noteq (Ne.symm hnn.1)]
            exact hr0
          have hend := insertEnd_left _ d _ _ R hstep hhole
          rw [insertA_nilR _ _ _ _ _ _ hlt]
          refine ⟨_, ?_, hend.1, hend.2, rfl, rfl, ?_⟩
          · simp only [hr0, if_true]
          · simp [Function.update_noteq hnn.2.2]
        | node B1 b B2 =>
          obtain ⟨hrb, hb, _, hB1, hB2⟩ := hB
          have hnb : n ≠ b := hch.2 b (by simp [Tree.nodes])
          have hlb := (hne b (by simp [Tree.nodes])).1
          have hdb := (hne b (by simp [Tree.nodes])).2.2
          simp only [hrb, hb, if_false]
          by_cases hge : h.size b ≥ size
          · have hstep := step_linkL h d A (.node B1 b B2) n L R hinv
            rw [hrb] at hstep
            obtain ⟨h', h1, h2, h3, h4, h5, h6⟩ := ih _ _ _ _ _ hstep hb (by
              simp only [Tree.card] at hcard ⊢; omega)
            rw [insertA_linkL _ _ _ _ _ _ _ _ _ hlt hge]
            refine ⟨h', ?_, h2, h3, h4, h5, ?_⟩
            · simp only [hge, if_true]
              exact h1
            · rw [h6]
              simp [Function.update_noteq hnn.2.2]
          · have hstep := step_rotL h d A B1 B2 n b L R hinv
            have hdx : d ≠ h.left b := inv_d_ne_ptr _ _ _ _ _ _ hinv B1 _ _ hB1 (by
              intro x hx
              simp only [Tree.nodes, List.mem_append, List.mem_cons]
              tauto)
            have hrt : ((((((h.setRight n (h.left b)).setParentIf (h.left b) n).setLeft b
                n).setParent n b).setRight (topL d L) b).setParent b (topL d L)).right b
                = h.right b := by
              simp only [setParent_right, setRight_right, setLeft_right, setParentIf_right]
              rw [Function.update_noteq (Ne.symm hlb), Function.update_noteq (Ne.symm hnb)]
            have hsz : ((((((h.setRight n (h.left b)).setParentIf (h.left b) n).setLeft b
                n).setParent n b).setRight (topL d L) b).setParent b (topL d L)).size
                = h.size := by simp
            have hpd : ((((((h.setRight n (h.left b)).setParentIf (h.left b) n).setLeft b
                n).setParent n b).setRight (topL d L) b).setParent b (topL d L)).parent d
                = h.parent d := by
              simp only [setParent_parent, setRight_parent, setLeft_parent]
              rw [Function.update_noteq hdb, Function.update_noteq hnn.2.2,
                setParentIf_parent_ne _ _ _ _ hdx, setRight_parent]
            have hdt : ((((((h.setRight n (h.left b)).setParentIf (h.left b) n).setLeft b
                n).setParent n b).setRight (topL d L) b).setParent b (topL d L)).dtree
                = h.dtree := by simp
            simp only [hge, if_false, hrt]
            cases B2 with
            | nil =>
              have hr0 : h.right b = 0 := hB2
              have hend := insertEnd_left _ d _ _ R hstep (hrt.trans hr0)
              rw [insertA_rotL_nil _ _ _ _ _ _ _ _ hlt hge]
              refine ⟨_, ?_, hend.1, hend.2, ?_, ?_, ?_⟩
              · simp only [hr0, if_true]
              · simp
              · simp
              · rw [setLeft_parent, hpd]
            | node C1 c C2 =>
              have hc0 : h.right b ≠ 0 := by
                rw [hB2.1]
                exact hB2.2.1
              obtain ⟨h', h1, h2, h3, h4, h5, h6⟩ := ih _ _ _ _ _ hstep hc0 (by
                simp only [Tree.card] at hcard ⊢; omega)
              rw [hsz] at h2 h3 h4
              rw [hdt] at h5
              rw [hpd] at h6
              rw [insertA_rotL _ _ _ _ _ _ _ _ _ _ _ hlt hge]
              refine ⟨h', ?_, h2, h3, h4, h5, h6⟩
              simp only [hc0, if_false]
              exact h1
      · simp only [hlt, if_false]
        cases A with
        | nil =>
          have hl0 : h.left n = 0 := hA
          have hstep := step_linkR h d .nil B n L R hinv
          have hhole : ((h.setLeft (topR d R) n).setParent n (topR d R)).left
              (topR d ((n, B) :: R)) = 0 := by
            show Function.update h.left (topR d R) n n = 0
            rw [Function.update_noteq (Ne.symm hnn.2.1)]
            exact hl0
          have hend := insertEnd_right _ d _ _ _ hstep hhole
          rw [insertA_nilL _ _ _ _ _ _ hlt]
          refine ⟨_, ?_, hend.1, hend.2, rfl, rfl, ?_⟩
          · simp only [hl0, if_true]
          · simp [Function.update_noteq hnn.2.2]
        | node A1 t A2 =>
          obtain ⟨hlt', ht, _, hA1, hA2⟩ := hA
          have hnt : n ≠ t := hch.1 t (by simp [Tree.nodes])
          have hrt := (hne t (by simp [Tree.nodes])).2.1
          have hdt' := (hne t (by simp [Tree.nodes])).2.2
          simp only [hlt', ht, if_false]
          by_cases htl : h.size t < size
          · have hstep := step_linkR h d (.node A1 t A2) B n L R hinv
            rw [hlt'] at hstep
            obtain ⟨h', h1, h2, h3, h4, h5, h6⟩ := ih _ _ _ _ _ hstep ht (by
              simp only [Tree.card] at hcard ⊢; omega)
            rw [insertA_linkR _ _ _ _ _ _ _ _ _ hlt htl]
            refine ⟨h', ?_, h2, h3, h4, h5, ?_⟩
            · simp only [htl, if_true]
              exact h1
            · rw [h6]
              simp [Function.update_noteq hnn.2.2]
          · have hstep := step_rotR h d A1 A2 B n t L R hinv
            have hdx : d ≠ h.right t := inv_d_ne_ptr _ _ _ _ _ _ hinv A2 _ _ hA2 (by
              intro x hx
              simp only [Tree.nodes, List.mem_append, List.mem_cons]
              tauto)
            have hl2 : ((((((h.setLeft n (h.right t)).setParentIf (h.right t) n).setRight t
                n).setParent n t).setLeft (topR d R) t).setParent t (topR d R)).left t
                = h.left t := by
              simp only [setParent_left, setLeft_left, setRight_left, setParentIf_left]
              rw [Function.update_noteq (Ne.symm hrt), Function.update_noteq (Ne.symm hnt)]
            have hsz : ((((((h.setLeft n (h.right t)).setParentIf (h.right t) n).setRight t
                n).setParent n t).setLeft (topR d R) t).setParent t (topR d R)).size
                = h.size := by simp
            have hpd : ((((((h.setLeft n (h.right t)).setParentIf (h.right t) n).setRight t
                n).setParent n t).setLeft (topR d R) t).setParent t (topR d R)).parent d
                = h.parent d := by
              simp only [setParent_parent, setRight_parent, setLeft_parent]
              rw [Function.update_noteq hdt', Function.update_noteq hnn.2.2,
                setParentIf_parent_ne _ _ _ _ hdx, setLeft_parent]
            have hdt : ((((((h.setLeft n (h.right t)).setParentIf (h.right t) n).setRight t
                n).setParent n t).setLeft (topR d R) t).setParent t (topR d R)).dtree
                = h.dtree := by simp
            simp only [htl, if_false, hl2]
            cases A1 with
            | nil =>
              have hl0 : h.left t = 0 := hA1
              have hend := insertEnd_right _ d _ _ _ hstep (hl2.trans hl0)
              rw [insertA_rotR_nil _ _ _ _ _ _ _ _ hlt htl]
              refine ⟨_, ?_, hend.1, hend.2, ?_, ?_, ?_⟩
              · simp only [hl0, if_true]
              · simp
              · simp
              · rw [setRight_parent, hpd]
            | node C1 c C2 =>
              have hc0 : h.left t ≠ 0 := by
                rw [hA1.1]
                exact hA1.2.1
              obtain ⟨h', h1, h2, h3, h4, h5, h6⟩ := ih _ _ _ _ _ hstep hc0 (by
                simp only [Tree.card] at hcard ⊢; omega)
              rw [hsz] at h2 h3 h4
              rw [hdt] at h5
              rw [hpd] at h6
              rw [insertA_rotR _ _ _ _ _ _ _ _ _ _ _ hlt htl]
              refine ⟨h', ?_, h2, h3, h4, h5, h6⟩
              simp only [hc0, if_false]
              exact h1


/-- The loop of `insert` keeps every node exactly once, in one of the two
trees it assembles. -/
theorem insertA_count (sz : Nat → Nat) (size : Nat) :
    ∀ (k : Nat) (t : Tree) (L : List (Tree × Nat)) (R : List (Nat × Tree)), t.card ≤ k →
      ∀ x, (insertA sz size t L R).1.nodes.count x + (insertA sz size t L R).2.nodes.count x
        = (nodesL L).count x + (nodesR R).count x + t.nodes.count x := by
  intro k
  induction k with
  | zero =>
    intro t L R hk x
    cases t with
    | nil => simp [insertA, plugL_count, plugR_count, Tree.nodes]
    | node A a B => simp [Tree.card] at hk
  | succ k ih =>
    intro t L R hk x
    cases t with
    | nil => simp [insertA, plugL_count, plugR_count, Tree.nodes]
    | node A a B =>
      simp only [Tree.card] at hk
      by_cases hlt : sz a < size
      · cases B with
        | nil =>
          rw [insertA_nilR _ _ _ _ _ _ hlt]
          simp only [nodesL, Tree.nodes, List.count_append, List.count_cons, List.count_nil,
            plugL_count, plugR_count]
          omega
        | node B1 b B2 =>
          simp only [Tree.card] at hk
          by_cases hge : sz b ≥ size
          · rw [insertA_linkL _ _ _ _ _ _ _ _ _ hlt hge,
              ih _ _ _ (by simp only [Tree.card]; omega)]
            simp only [nodesL, Tree.nodes, List.count_append, List.count_cons]
            omega
          · cases B2 with
            | nil =>
              rw [insertA_rotL_nil _ _ _ _ _ _ _ _ hlt hge]
              simp only [nodesL, Tree.nodes, List.count_append, List.count_cons, List.count_nil,
                plugL_count, plugR_count]
              omega
            | node C1 c C2 =>
              simp only [Tree.card] at hk
              rw [insertA_rotL _ _ _ _ _ _ _ _ _ _ _ hlt hge,
                ih _ _ _ (by simp only [Tree.card]; omega)]
              simp only [nodesL, Tree.nodes, List.count_append, List.count_cons]
              omega
      · cases A with
        | nil =>
          rw [insertA_nilL _ _ _ _ _ _ hlt]
          simp only [nodesR, Tree.nodes, List.count_append, List.count_cons, List.count_nil,
            plugL_count, plugR_count]
          omega
        | node A1 t A2 =>
          simp only [Tree.card] at hk
          by_cases htl : sz t < size
          · rw [insertA_linkR _ _ _ _ _ _ _ _ _ hlt htl,
              ih _ _ _ (by simp only [Tree.card]; omega)]
            simp only [nodesR, Tree.nodes, List.count_append, List.count_cons]
            omega
          · cases A1 with
            | nil =>
              rw [insertA_rotR_nil _ _ _ _ _ _ _ _ hlt htl]
              simp only [nodesR, Tree.nodes, List.count_append, List.count_cons, List.count_nil,
                plugL_count, plugR_count]
              omega
            | node C1 c C2 =>
              simp only [Tree.card] at hk
              rw [insertA_rotR _ _ _ _ _ _ _ _ _ _ _ hlt htl,
                ih _ _ _ (by simp only [Tree.card]; omega)]
              simp only [nodesR, Tree.nodes, List.count_append, List.count_cons]
              omega

theorem insertT_count (sz : Nat → Nat) (c : Nat) (T : Tree) (x : Nat) :
    (insertT sz c T).nodes.count x = (c :: T.nodes).count x := by
  have := insertA_count sz (sz c) _ T [] [] (le_refl _) x
  simp only [insertT, Tree.nodes, List.count_append, List.count_cons, nodesL, nodesR,
    List.count_nil] at this ⊢
  omega

/-- What `insert` does to a splay tree in the memory: the new chunk becomes
the root of a tree that holds the old nodes and the new one. -/
theorem insert_correct (fuel : Nat) (h : Heap) (T : Tree) (c : Nat) (hT : IsTree h T)
    (hc0 : c ≠ 0) (hc : c ∉ T.nodes) (hfuel : T.card ≤ fuel) :
    ∃ h', insert fuel h c = some h' ∧ IsTree h' (insertT h.size c T) ∧ h'.dtree = c
      ∧ h'.size = h.size ∧ (insertT h.size c T).nodes.Perm (c :: T.nodes) := by
  obtain ⟨hrepr, hnd⟩ := hT
  have hperm : (insertT h.size c T).nodes.Perm (c :: T.nodes) := by
    rw [List.perm_iff_count]
    exact insertT_count h.size c T
  have hndT : (insertT h.size c T).nodes.Nodup :=
    (List.Perm.nodup_iff hperm).2 (List.nodup_cons.2 ⟨hc, hnd⟩)
  cases T with
  | nil =>
    have h0 : h.dtree = 0 := hrepr
    refine ⟨(((h.setDtree c).setParent c 0).setLeft c 0).setRight c 0,
      by simp only [insert, h0, if_true], ⟨?_, hndT⟩, rfl, rfl, hperm⟩
    simp only [insertT, insertA, plugL, plugR]
    refine ⟨rfl, hc0, ?_, ?_, ?_⟩
    · simp
    · simp [Repr]
    · simp [Repr]
  | node A a B =>
    have hda : h.dtree = a := hrepr.1
    have ha : a ≠ 0 := hrepr.2.1
    have hinv : SplayInv ((h.setDtree c).setParent c 0) c (.node A a B) [] [] a := by
      refine ⟨hc0, trivial, trivial, ⟨0, ?_⟩, ?_⟩
      · have hrepr' : Repr h 0 a (.node A a B) := by
          rw [hda] at hrepr
          exact hrepr
        exact repr_setParent _ _ _ _ _ _ hc (repr_setDtree _ _ _ _ _ hrepr')
      · simp only [nodesL, nodesR, List.nil_append]
        exact List.nodup_cons.2 ⟨hc, hnd⟩
    obtain ⟨h1, e1, e2, e3, e4, e5, e6⟩ := insertLoop_refines c (h.size c) fuel _ _ [] [] a
      hinv ha hfuel
    have e5' : h1.dtree = c := by rw [e5]; rfl
    have e6' : h1.parent c = 0 := by rw [e6]; simp
    have hcL : c ∉ (insertA h.size (h.size c) (.node A a B) [] []).1.nodes := by
      intro hx
      have h1 := List.count_pos_iff.2 hx
      have h2 := insertA_count h.size (h.size c) _ (.node A a B) [] [] (le_refl _) c
      have h3 := List.count_eq_zero.2 hc
      simp only [nodesL, nodesR, List.count_nil] at h2
      omega
    have hcR : c ∉ (insertA h.size (h.size c) (.node A a B) [] []).2.nodes := by
      intro hx
      have h1 := List.count_pos_iff.2 hx
      have h2 := insertA_count h.size (h.size c) _ (.node A a B) [] [] (le_refl _) c
      have h3 := List.count_eq_zero.2 hc
      simp only [nodesL, nodesR, List.count_nil] at h2
      omega
    refine ⟨(h1.setLeft c (h1.right c)).setRight c (h1.left c), ?_, ⟨?_, hndT⟩, ?_, ?_, hperm⟩
    · simp only [insert, hda, ha, if_false]
      have e1' : insertLoop (h.size c) fuel ((h.setDtree c).setParent c 0) a c c = some h1 := e1
      simp only [setParent_size, setDtree_size, e1', e5']
    · simp only [setRight_dtree, setLeft_dtree, e5', insertT]
      refine ⟨rfl, hc0, by simpa using e6', ?_, ?_⟩
      · simp only [setRight_left, setLeft_left, Function.update_same]
        exact repr_setRight _ _ _ _ _ _ hcL (repr_setLeft _ _ _ _ _ _ hcL e2)
      · simp only [setRight_right, Function.update_same]
        exact repr_setRight _ _ _ _ _ _ hcR (repr_setLeft _ _ _ _ _ _ hcR e3)
    · simp [e5']
    · simp [e4]

end Dgd

namespace Dgd

/-! ## Theorems: `delete` -/

theorem setParentIf_parent (h : Heap) (a v x : Nat) :
    (h.setParentIf a v).parent x = if x = a ∧ a ≠ 0 then v else h.parent x := by
  unfold Heap.setParentIf
  by_cases h0 : a = 0
  · simp [h0]
  · by_cases hx : x = a
    · subst hx
      simp [h0]
    · simp [h0, hx, Function.update_noteq hx]

/-- A memory that agrees on the links of the nodes of a tree, the parent link
of the root apart, holds the same tree below another parent. -/
theorem repr_congr_root (h h' : Heap) (t : Tree) (par par' p : Nat) (hr : Repr h par p t)
    (hnd : t.nodes.Nodup)
    (hag : ∀ x ∈ t.nodes, h'.left x = h.left x ∧ h'.right x = h.right x
      ∧ (x ≠ p → h'.parent x = h.parent x))
    (hp : p ≠ 0 → h'.parent p = par') : Repr h' par' p t := by
  cases t with
  | nil => exact hr
  | node l a r =>
    obtain ⟨hpa, ha, _, hl, hrr⟩ := hr
    subst hpa
    have hc := List.nodup_iff_count_le_one.1 hnd
    have hne : ∀ x, x ∈ l.nodes ∨ x ∈ r.nodes → x ≠ p := by
      intro x hx e
      subst e
      have c := hc x
      simp only [Tree.nodes, List.count_append, List.count_cons, beq_self_eq_true, if_true] at c
      rcases hx with hx | hx
      · have := List.count_pos_iff.2 hx
        omega
      · have := List.count_pos_iff.2 hx
        omega
    have haa := hag p (by simp [Tree.nodes])
    refine ⟨rfl, ha, hp ha, ?_, ?_⟩
    · rw [haa.1]
      refine repr_congr h h' l _ _ hl (fun x hx => ?_)
      have hx' := hag x (by simp [Tree.nodes, hx])
      exact ⟨hx'.1, hx'.2.1, hx'.2.2 (hne x (Or.inl hx))⟩
    · rw [haa.2.1]
      refine repr_congr h h' r _ _ hrr (fun x hx => ?_)
      have hx' := hag x (by simp [Tree.nodes, hx])
      exact ⟨hx'.1, hx'.2.1, hx'.2.2 (hne x (Or.inr hx))⟩

/-- One step of the loop of `delete`: the right child `r` of `t` is rotated
above `t`. -/
theorem rotUp_step (h h2 : Heap) (X Y1 Y2 : Tree) (t r par : Nat)
    (hr : Repr h par t (.node X t (.node Y1 r Y2)))
    (hnd : (Tree.node X t (.node Y1 r Y2)).nodes.Nodup)
    (hL : ∀ x, h2.left x = if x = r then t else h.left x)
    (hR : ∀ x, h2.right x = if x = t then h.left r else h.right x)
    (hP : ∀ x, h2.parent x
      = if x = t then r else if x = h.left r ∧ h.left r ≠ 0 then t else h.parent x) :
    Repr h2 (h2.parent r) r (.node (.node X t Y1) r Y2) := by
  obtain ⟨_, ht, hpt, hX, ⟨hrr, hr0, hpr, hY1, hY2⟩⟩ := hr
  have hc := List.nodup_iff_count_le_one.1 hnd
  have ct := hc t
  have cr := hc r
  have cy' := repr_count_root _ _ _ _ hY1
  simp only [Tree.nodes, List.count_cons, List.count_append, beq_self_eq_true, if_true]
    at ct cr
  have hcx : ∀ x, X.nodes.count x + ((if t = x then 1 else 0) + (Y1.nodes.count x
      + ((if r = x then 1 else 0) + Y2.nodes.count x))) ≤ 1 := by
    intro x
    have := hc x
    simp only [Tree.nodes, List.count_cons, List.count_append, beq_iff_eq] at this
    omega
  have htr : t ≠ r := by
    intro e
    have := hcx t
    rw [e] at this
    simp only [if_true] at this
    omega
  have hndX : X.nodes.Nodup := nodup_of_perm_sub _ _ hnd (fun x => by
    simp only [Tree.nodes, List.count_cons, List.count_append]; omega)
  have hndY1 : Y1.nodes.Nodup := nodup_of_perm_sub _ _ hnd (fun x => by
    simp only [Tree.nodes, List.count_cons, List.count_append]; omega)
  have hndY2 : Y2.nodes.Nodup := nodup_of_perm_sub _ _ hnd (fun x => by
    simp only [Tree.nodes, List.count_cons, List.count_append]; omega)
  have key : ∀ x, 0 < X.nodes.count x ∨ 0 < Y2.nodes.count x →
      x ≠ t ∧ x ≠ r ∧ ¬ (x = h.left r ∧ h.left r ≠ 0) := by
    intro x hx
    have c := hcx x
    refine ⟨?_, ?_, ?_⟩
    · intro e; subst e; simp only [if_true] at c; omega
    · intro e; subst e; simp only [if_true] at c; omega
    · rintro ⟨e, h0⟩
      have := cy' h0
      rw [← e] at this
      omega
  have keyY : ∀ x, 0 < Y1.nodes.count x → x ≠ t ∧ x ≠ r := by
    intro x hx
    have c := hcx x
    refine ⟨?_, ?_⟩
    · intro e; subst e; simp only [if_true] at c; omega
    · intro e; subst e; simp only [if_true] at c; omega
  have hl0 : ¬ (r = h.left r ∧ h.left r ≠ 0) := by
    rintro ⟨e, h0⟩
    have := cy' h0
    have c := hcx r
    rw [← e] at this
    simp only [if_true] at c
    omega
  have ht0 : ¬ (t = h.left r ∧ h.left r ≠ 0) := by
    rintro ⟨e, h0⟩
    have := cy' h0
    have c := hcx t
    rw [← e] at this
    simp only [if_true] at c
    omega
  refine ⟨rfl, hr0, rfl, ⟨?_, ht, ?_, ?_, ?_⟩, ?_⟩
  · rw [hL]; simp
  · rw [hP]; simp
  · rw [hL, if_neg htr]
    refine repr_congr h h2 X _ _ hX (fun x hx => ?_)
    obtain ⟨k1, k2, k3⟩ := key x (Or.inl (List.count_pos_iff.2 hx))
    simp only [hL, hR, hP, k1, k2, k3, if_false, and_self]
  · rw [hR, if_pos rfl]
    refine repr_congr_root h h2 Y1 _ _ _ hY1 hndY1 (fun x hx => ?_) (fun h0 => ?_)
    · obtain ⟨k1, k2⟩ := keyY x (List.count_pos_iff.2 hx)
      simp only [hL, hR, hP, k1, k2, if_false, true_and]
      intro hne
      rw [if_neg (fun e => hne e.1)]
    · rw [hP]
      have := keyY _ (cy' h0)
      rw [if_neg this.1, if_pos ⟨rfl, h0⟩]
  · rw [hR, if_neg (Ne.symm htr)]
    refine repr_congr h h2 Y2 _ _ hY2 (fun x hx => ?_)
    obtain ⟨k1, k2, k3⟩ := key x (Or.inr (List.count_pos_iff.2 hx))
    simp only [hL, hR, hP, k1, k2, k3, if_false, and_self]

/-- The loop of `delete`: the right spine of the subtree at `t` is rotated
up; nothing outside the subtree changes. -/
theorem deleteLoop_refines :
    ∀ (Y X : Tree) (t : Nat) (fuel : Nat) (h : Heap) (par : Nat),
      Repr h par t (.node X t Y) → (Tree.node X t Y).nodes.Nodup → Y.card < fuel →
      ∃ h' par', deleteLoop fuel h t = some (h', (rotUp X t Y).2)
        ∧ Repr h' par' (rotUp X t Y).2 (.node (rotUp X t Y).1 (rotUp X t Y).2 .nil)
        ∧ (∀ x, x ∉ (Tree.node X t Y).nodes →
            h'.left x = h.left x ∧ h'.right x = h.right x ∧ h'.parent x = h.parent x)
        ∧ h'.size = h.size ∧ h'.dtree = h.dtree
        ∧ ∀ x, ((Tree.node (rotUp X t Y).1 (rotUp X t Y).2 .nil).nodes).count x
            = (Tree.node X t Y).nodes.count x := by
  intro Y
  induction Y with
  | nil =>
    intro X t fuel h par hr hnd hf
    cases fuel with
    | zero => simp at hf
    | succ fuel =>
      have hr0 : h.right t = 0 := hr.2.2.2.2
      refine ⟨h, par, ?_, hr, fun x _ => ⟨rfl, rfl, rfl⟩, rfl, rfl, fun x => rfl⟩
      simp [deleteLoop, hr0, rotUp]
  | node Y1 r Y2 _ ih2 =>
    intro X t fuel h par hr hnd hf
    cases fuel with
    | zero => simp at hf
    | succ fuel =>
      have hrr : h.right t = r := hr.2.2.2.2.1
      have hr0 : r ≠ 0 := hr.2.2.2.2.2.1
      have hY1 : Repr h r (h.left r) Y1 := hr.2.2.2.2.2.2.2.1
      have hL : ∀ x, ((((h.setRight t (h.left r)).setParentIf (h.left r) t).setLeft r
          t).setParent t r).left x = if x = r then t else h.left x :=
        fun x => by simp [Function.update_apply]
      have hR : ∀ x, ((((h.setRight t (h.left r)).setParentIf (h.left r) t).setLeft r
          t).setParent t r).right x = if x = t then h.left r else h.right x :=
        fun x => by simp [Function.update_apply]
      have hP : ∀ x, ((((h.setRight t (h.left r)).setParentIf (h.left r) t).setLeft r
          t).setParent t r).parent x
            = if x = t then r else if x = h.left r ∧ h.left r ≠ 0 then t else h.parent x :=
        fun x => by
          simp only [setParent_parent, setLeft_parent, Function.update_apply]
          rw [setParentIf_parent]
          rfl
      have hS : ((((h.setRight t (h.left r)).setParentIf (h.left r) t).setLeft r
          t).setParent t r).size = h.size := by simp
      have hD : ((((h.setRight t (h.left r)).setParentIf (h.left r) t).setLeft r
          t).setParent t r).dtree = h.dtree := by simp
      have hloop : deleteLoop (fuel + 1) h t = deleteLoop fuel ((((h.setRight t
          (h.left r)).setParentIf (h.left r) t).setLeft r t).setParent t r) r := by
        simp only [deleteLoop, hrr, hr0, if_false]
      generalize ((((h.setRight t (h.left r)).setParentIf (h.left r) t).setLeft r
          t).setParent t r) = h2 at hL hR hP hS hD hloop
      have hstep := rotUp_step h h2 X Y1 Y2 t r par hr hnd hL hR hP
      have hnd' : (Tree.node (.node X t Y1) r Y2).nodes.Nodup := by
        refine (List.Perm.nodup_iff ?_).2 hnd
        rw [List.perm_iff_count]
        intro x
        simp only [Tree.nodes, List.count_append, List.count_cons]
        omega
      obtain ⟨h', par', e1, e2, e3, e4, e5, e6⟩ := ih2 (.node X t Y1) r fuel h2 _ hstep hnd' (by
        simp only [Tree.card] at hf; omega)
      refine ⟨h', par', ?_, ?_, ?_, ?_, ?_, ?_⟩
      · rw [hloop]
        exact e1
      · exact e2
      · intro x hx
        have hx' : x ∉ (Tree.node (.node X t Y1) r Y2).nodes := by
          simp only [Tree.nodes, List.mem_append, List.mem_cons] at hx ⊢
          tauto
        obtain ⟨f1, f2, f3⟩ := e3 x hx'
        have hxt : x ≠ t := fun e => hx (by rw [e]; simp [Tree.nodes])
        have hxr : x ≠ r := fun e => hx (by rw [e]; simp [Tree.nodes])
        have hxy : ¬ (x = h.left r ∧ h.left r ≠ 0) := by
          rintro ⟨e, h0⟩
          have := List.count_pos_iff.1 (repr_count_root _ _ _ _ hY1 h0)
          exact hx (by
            rw [e]
            simp only [Tree.nodes, List.mem_append, List.mem_cons]
            tauto)
        rw [f1, f2, f3]
        simp only [hL, hR, hP, hxt, hxr, hxy, if_false, and_self]
      · rw [e4, hS]
      · rw [e5, hD]
      · intro x
        show List.count x (Tree.node (rotUp (.node X t Y1) r Y2).1 (rotUp (.node X t Y1) r Y2).2
          .nil).nodes = _
        rw [e6 x]
        simp only [Tree.nodes, List.count_append, List.count_cons]
        omega

end Dgd

namespace Dgd

/-! ## Theorems: the position of a node in the tree -/

theorem nodup_node (l r : Tree) (a : Nat) (hnd : (Tree.node l a r).nodes.Nodup) :
    l.nodes.Nodup ∧ r.nodes.Nodup ∧ a ∉ l.nodes ∧ a ∉ r.nodes
      ∧ (∀ x, x ∈ l.nodes → x ∉ r.nodes) := by
  have hc := List.nodup_iff_count_le_one.1 hnd
  simp only [Tree.nodes, List.count_append, List.count_cons] at hc
  refine ⟨?_, ?_, ?_, ?_, ?_⟩
  · exact List.nodup_iff_count_le_one.2 (fun x => by have := hc x; omega)
  · exact List.nodup_iff_count_le_one.2 (fun x => by have := hc x; omega)
  · intro hx
    have := hc a
    have := List.count_pos_iff.2 hx
    simp only [beq_self_eq_true, if_true] at *
    omega
  · intro hx
    have := hc a
    have := List.count_pos_iff.2 hx
    simp only [beq_self_eq_true, if_true] at *
    omega
  · intro x hx hx'
    have := hc x
    have := List.count_pos_iff.2 hx
    have := List.count_pos_iff.2 hx'
    omega

/-- The root of a tree in the memory is one of its nodes. -/
theorem repr_root_mem (h : Heap) (par p : Nat) (t : Tree) (hr : Repr h par p t)
    (hp : p ≠ 0) : p ∈ t.nodes :=
  List.count_pos_iff.1 (repr_count_root h par p t hr hp)

/-- The children of a node of the tree are nodes of the tree. -/
theorem repr_child_closed (h : Heap) (t : Tree) :
    ∀ (par p : Nat), Repr h par p t → ∀ x ∈ t.nodes,
      (h.left x ≠ 0 → h.left x ∈ t.nodes) ∧ (h.right x ≠ 0 → h.right x ∈ t.nodes) := by
  induction t with
  | nil => intro _ _ _ x hx; simp [Tree.nodes] at hx
  | node l a r ihl ihr =>
    intro par p hr x hx
    obtain ⟨_, ha, _, hl, hrr⟩ := hr
    rw [mem_node] at hx
    rcases hx with hx | rfl | hx
    · have := ihl _ _ hl x hx
      exact ⟨fun h0 => (mem_node _ _ _ _).2 (Or.inl (this.1 h0)),
        fun h0 => (mem_node _ _ _ _).2 (Or.inl (this.2 h0))⟩
    · exact ⟨fun h0 => (mem_node _ _ _ _).2 (Or.inl (repr_root_mem _ _ _ _ hl h0)),
        fun h0 => (mem_node _ _ _ _).2 (Or.inr (Or.inr (repr_root_mem _ _ _ _ hrr h0)))⟩
    · have := ihr _ _ hrr x hx
      exact ⟨fun h0 => (mem_node _ _ _ _).2 (Or.inr (Or.inr (this.1 h0))),
        fun h0 => (mem_node _ _ _ _).2 (Or.inr (Or.inr (this.2 h0)))⟩

/-- The parent link of the root of a tree in the memory. -/
theorem repr_parent_root (h : Heap) (par p : Nat) (t : Tree) (hr : Repr h par p t)
    (hp : p ≠ 0) : h.parent p = par := by
  obtain ⟨l, r, rfl⟩ := repr_ne_zero h par p t hr hp
  exact hr.2.2.1

/-- A node that has `c` as a child is the parent of `c`. -/
theorem repr_child_parent (h : Heap) (c : Nat) (hc0 : c ≠ 0) (t : Tree) :
    ∀ (par p : Nat), Repr h par p t → ∀ x ∈ t.nodes,
      (h.left x = c ∨ h.right x = c) → h.parent c = x := by
  induction t with
  | nil => intro _ _ _ x hx; simp [Tree.nodes] at hx
  | node l a r ihl ihr =>
    intro par p hr x hx hch
    obtain ⟨_, ha, _, hl, hrr⟩ := hr
    rw [mem_node] at hx
    rcases hx with hx | rfl | hx
    · exact ihl _ _ hl x hx hch
    · rcases hch with e | e
      · rw [← e]
        exact repr_parent_root _ _ _ _ hl (by rw [e]; exact hc0)
      · rw [← e]
        exact repr_parent_root _ _ _ _ hrr (by rw [e]; exact hc0)
    · exact ihr _ _ hrr x hx hch

/-- The two children of a node are different. -/
theorem repr_left_ne_right (h : Heap) (c : Nat) (hc0 : c ≠ 0) (t : Tree) :
    ∀ (par p : Nat), Repr h par p t → t.nodes.Nodup → ∀ x ∈ t.nodes,
      h.left x = c → h.right x ≠ c := by
  induction t with
  | nil => intro _ _ _ _ x hx; simp [Tree.nodes] at hx
  | node l a r ihl ihr =>
    intro par p hr hnd x hx hlc hrc
    obtain ⟨_, ha, _, hl, hrr⟩ := hr
    obtain ⟨n1, n2, n3, n4, n5⟩ := nodup_node l r a hnd
    rw [mem_node] at hx
    rcases hx with hx | rfl | hx
    · exact ihl _ _ hl n1 x hx hlc hrc
    · exact n5 c (by rw [← hlc]; exact repr_root_mem _ _ _ _ hl (by rw [hlc]; exact hc0))
        (by rw [← hrc]; exact repr_root_mem _ _ _ _ hrr (by rw [hrc]; exact hc0))
    · exact ihr _ _ hrr n2 x hx hlc hrc

theorem subtreeAt_count (c x : Nat) (t : Tree) :
    (t.subtreeAt c).nodes.count x ≤ t.nodes.count x := by
  induction t with
  | nil => simp [Tree.subtreeAt]
  | node l a r ihl ihr =>
    simp only [Tree.subtreeAt]
    split
    · exact Nat.le_refl _
    · split
      · simp only [Tree.nodes, List.count_append, List.count_cons]
        omega
      · simp only [Tree.nodes, List.count_append, List.count_cons]
        omega

theorem subtreeAt_mem (c x : Nat) (t : Tree) (hx : x ∈ (t.subtreeAt c).nodes) : x ∈ t.nodes := by
  have := subtreeAt_count c x t
  have := List.count_pos_iff.2 hx
  exact List.count_pos_iff.1 (by omega)

/-- The subtree at a node of the tree, in the memory. -/
theorem repr_subtreeAt (h : Heap) (c : Nat) (t : Tree) :
    ∀ (par p : Nat), Repr h par p t → c ∈ t.nodes →
      ∃ l r, t.subtreeAt c = .node l c r ∧ Repr h (h.parent c) c (.node l c r) := by
  induction t with
  | nil => intro _ _ _ hx; simp [Tree.nodes] at hx
  | node l a r ihl ihr =>
    intro par p hr hx
    by_cases hac : a = c
    · subst hac
      refine ⟨l, r, by simp [Tree.subtreeAt], rfl, hr.2.1, rfl, hr.2.2.2.1, hr.2.2.2.2⟩
    · by_cases hcl : c ∈ l.nodes
      · obtain ⟨l', r', e1, e2⟩ := ihl _ _ hr.2.2.2.1 hcl
        exact ⟨l', r', by simp [Tree.subtreeAt, hac, hcl, e1], e2⟩
      · have hcr : c ∈ r.nodes := by
          rw [mem_node] at hx
          rcases hx with hx | hx | hx
          · exact absurd hx hcl
          · exact absurd hx.symm hac
          · exact hx
        obtain ⟨l', r', e1, e2⟩ := ihr _ _ hr.2.2.2.2 hcr
        exact ⟨l', r', by simp [Tree.subtreeAt, hac, hcl, e1], e2⟩

/-- A node that is not the root has its parent in the tree, outside its own
subtree, and is a child of its parent. -/
theorem repr_parent_child (h : Heap) (c : Nat) (t : Tree) :
    ∀ (par p : Nat), Repr h par p t → t.nodes.Nodup → c ∈ t.nodes → p ≠ c →
      h.parent c ∈ t.nodes ∧ h.parent c ∉ (t.subtreeAt c).nodes
        ∧ (h.left (h.parent c) = c ∨ h.right (h.parent c) = c) := by
  induction t with
  | nil => intro _ _ _ _ hx; simp [Tree.nodes] at hx
  | node l a r ihl ihr =>
    intro par p hr hnd hx hpc
    have hc0 : c ≠ 0 := repr_mem_ne_zero h _ par p hr c hx
    obtain ⟨hpa, ha, _, hl, hrr⟩ := hr
    obtain ⟨n1, n2, n3, n4, n5⟩ := nodup_node l r a hnd
    have hac : a ≠ c := by rw [← hpa]; exact hpc
    rw [mem_node] at hx
    rcases hx with hx | hx | hx
    · have hsub : (Tree.node l a r).subtreeAt c = l.subtreeAt c := by
        simp [Tree.subtreeAt, hac, hx]
      rw [hsub]
      by_cases hq : h.left a = c
      · have hp : h.parent c = a := by
          rw [← hq]; exact repr_parent_root _ _ _ _ hl (by rw [hq]; exact hc0)
        rw [hp]
        exact ⟨(mem_node _ _ _ _).2 (Or.inr (Or.inl rfl)),
          fun hm => n3 (subtreeAt_mem _ _ _ hm), Or.inl hq⟩
      · obtain ⟨i1, i2, i3⟩ := ihl _ _ hl n1 hx hq
        exact ⟨(mem_node _ _ _ _).2 (Or.inl i1), i2, i3⟩
    · exact absurd hx.symm hac
    · have hcl : c ∉ l.nodes := fun hm => n5 c hm hx
      have hsub : (Tree.node l a r).subtreeAt c = r.subtreeAt c := by
        simp [Tree.subtreeAt, hac, hcl]
      rw [hsub]
      by_cases hq : h.right a = c
      · have hp : h.parent c = a := by
          rw [← hq]; exact repr_parent_root _ _ _ _ hrr (by rw [hq]; exact hc0)
        rw [hp]
        exact ⟨(mem_node _ _ _ _).2 (Or.inr (Or.inl rfl)),
          fun hm => n4 (subtreeAt_mem _ _ _ hm), Or.inr hq⟩
      · obtain ⟨i1, i2, i3⟩ := ihr _ _ hrr n2 hx hq
        exact ⟨(mem_node _ _ _ _).2 (Or.inr (Or.inr i1)), i2, i3⟩

theorem replaceAt_of_not_mem (c : Nat) (S : Tree) (t : Tree) (hc : c ∉ t.nodes) :
    t.replaceAt c S = t := by
  induction t with
  | nil => rfl
  | node l a r ihl ihr =>
    rw [mem_node] at hc
    have hac : a ≠ c := fun e => hc (Or.inr (Or.inl e.symm))
    simp only [Tree.replaceAt, if_neg hac]
    rw [ihl (fun hm => hc (Or.inl hm)), ihr (fun hm => hc (Or.inr (Or.inr hm)))]

theorem subtreeAt_of_not_mem (c : Nat) (t : Tree) (hc : c ∉ t.nodes) :
    t.subtreeAt c = .nil := by
  induction t with
  | nil => rfl
  | node l a r ihl ihr =>
    rw [mem_node] at hc
    have hac : a ≠ c := fun e => hc (Or.inr (Or.inl e.symm))
    have hcl : c ∉ l.nodes := fun hm => hc (Or.inl hm)
    simp only [Tree.subtreeAt, if_neg hac, if_neg hcl]
    exact ihr (fun hm => hc (Or.inr (Or.inr hm)))

/-- The nodes of the tree with a subtree replaced. -/
theorem replaceAt_count (c x : Nat) (S : Tree) (t : Tree) (hnd : t.nodes.Nodup)
    (hc : c ∈ t.nodes) :
    (t.replaceAt c S).nodes.count x + (t.subtreeAt c).nodes.count x
      = t.nodes.count x + S.nodes.count x := by
  induction t with
  | nil => simp [Tree.nodes] at hc
  | node l a r ihl ihr =>
    obtain ⟨n1, n2, n3, n4, n5⟩ := nodup_node l r a hnd
    by_cases hac : a = c
    · simp only [Tree.replaceAt, Tree.subtreeAt, if_pos hac]
      omega
    · rw [mem_node] at hc
      rcases hc with hc | hc | hc
      · have := ihl n1 hc
        simp only [Tree.replaceAt, Tree.subtreeAt, if_neg hac, if_pos hc, Tree.nodes,
          List.count_append, List.count_cons]
        rw [replaceAt_of_not_mem c S r (n5 c hc)]
        omega
      · exact absurd hc.symm hac
      · have hcl : c ∉ l.nodes := fun hm => n5 c hm hc
        have := ihr n2 hc
        simp only [Tree.replaceAt, Tree.subtreeAt, if_neg hac, if_neg hcl, Tree.nodes,
          List.count_append, List.count_cons]
        rw [replaceAt_of_not_mem c S l hcl]
        omega

/-- Replacing a subtree in the memory: when the new subtree `S` stands at
`q` below the parent of `c`, the child link to `c` leads to `q`, and the
links of the nodes outside the subtree at `c` are the same otherwise, the
memory holds the tree with the subtree at `c` replaced by `S`. -/
theorem repr_replace (h h' : Heap) (c q : Nat) (S : Tree) (hc0 : c ≠ 0) (t : Tree) :
    ∀ (par p : Nat), Repr h par p t → t.nodes.Nodup → c ∈ t.nodes →
      Repr h' (h.parent c) q S →
      (∀ x ∈ t.nodes, x ∉ (t.subtreeAt c).nodes →
        h'.parent x = h.parent x ∧ h'.left x = (if h.left x = c then q else h.left x)
          ∧ h'.right x = (if h.right x = c then q else h.right x)) →
      Repr h' par (if p = c then q else p) (t.replaceAt c S) := by
  induction t with
  | nil => intro _ _ _ _ hx; simp [Tree.nodes] at hx
  | node l a r ihl ihr =>
    intro par p hr hnd hx hS hframe
    obtain ⟨hpa, ha, hpar, hl, hrr⟩ := hr
    obtain ⟨n1, n2, n3, n4, n5⟩ := nodup_node l r a hnd
    subst hpa
    by_cases hac : p = c
    · subst hac
      simp only [Tree.replaceAt, if_true]
      rw [← hpar]
      exact hS
    · simp only [Tree.replaceAt, if_neg hac]
      have hframe_out : ∀ (u : Tree) (par' p' : Nat), Repr h par' p' u → c ∉ u.nodes →
          (∀ x ∈ u.nodes, x ∈ (Tree.node l p r).nodes
            ∧ x ∉ ((Tree.node l p r).subtreeAt c).nodes) → Repr h' par' p' u := by
        intro u par' p' hu hcu hsub
        refine repr_congr h h' u _ _ hu (fun x hxu => ?_)
        obtain ⟨f1, f2, f3⟩ := hframe x (hsub x hxu).1 (hsub x hxu).2
        have cc := repr_child_closed h u _ _ hu x hxu
        have e1 : h.left x ≠ c := fun e => hcu (by rw [← e]; exact cc.1 (by rw [e]; exact hc0))
        have e2 : h.right x ≠ c := fun e => hcu (by rw [← e]; exact cc.2 (by rw [e]; exact hc0))
        rw [f1, f2, f3, if_neg e1, if_neg e2]
        exact ⟨rfl, rfl, rfl⟩
      rw [mem_node] at hx
      rcases hx with hx | hx | hx
      · have hsub : (Tree.node l p r).subtreeAt c = l.subtreeAt c := by
          simp [Tree.subtreeAt, hac, hx]
        have hcr : c ∉ r.nodes := n5 c hx
        have hpn : p ∉ (l.subtreeAt c).nodes := fun hm => n3 (subtreeAt_mem _ _ _ hm)
        obtain ⟨f1, f2, f3⟩ := hframe p ((mem_node _ _ _ _).2 (Or.inr (Or.inl rfl)))
          (by rw [hsub]; exact hpn)
        have er : h.right p ≠ c := fun e =>
          hcr (by rw [← e]; exact repr_root_mem _ _ _ _ hrr (by rw [e]; exact hc0))
        rw [replaceAt_of_not_mem c S r hcr]
        refine ⟨rfl, ha, by rw [f1, hpar], ?_, ?_⟩
        · rw [f2]
          exact ihl _ _ hl n1 hx hS (fun x hxl hxs =>
            hframe x ((mem_node _ _ _ _).2 (Or.inl hxl)) (by rw [hsub]; exact hxs))
        · rw [f3, if_neg er]
          exact hframe_out r _ _ hrr hcr (fun x hxr =>
            ⟨(mem_node _ _ _ _).2 (Or.inr (Or.inr hxr)), by
              rw [hsub]
              exact fun hm => n5 x (subtreeAt_mem _ _ _ hm) hxr⟩)
      · exact absurd hx.symm hac
      · have hcl : c ∉ l.nodes := fun hm => n5 c hm hx
        have hsub : (Tree.node l p r).subtreeAt c = r.subtreeAt c := by
          simp [Tree.subtreeAt, hac, hcl]
        have hpn : p ∉ (r.subtreeAt c).nodes := fun hm => n4 (subtreeAt_mem _ _ _ hm)
        obtain ⟨f1, f2, f3⟩ := hframe p ((mem_node _ _ _ _).2 (Or.inr (Or.inl rfl)))
          (by rw [hsub]; exact hpn)
        have el : h.left p ≠ c := fun e =>
          hcl (by rw [← e]; exact repr_root_mem _ _ _ _ hl (by rw [e]; exact hc0))
        rw [replaceAt_of_not_mem c S l hcl]
        refine ⟨rfl, ha, by rw [f1, hpar], ?_, ?_⟩
        · rw [f2, if_neg el]
          exact hframe_out l _ _ hl hcl (fun x hxl =>
            ⟨(mem_node _ _ _ _).2 (Or.inl hxl), by
              rw [hsub]
              exact fun hm => n5 x hxl (subtreeAt_mem _ _ _ hm)⟩)
        · rw [f3]
          exact ihr _ _ hrr n2 hx hS (fun x hxr hxs =>
            hframe x ((mem_node _ _ _ _).2 (Or.inr (Or.inr hxr))) (by rw [hsub]; exact hxs))

end Dgd

namespace Dgd

/-! ## Theorems: `delete` as a whole -/

theorem rotUp_count (x : Nat) (Y : Tree) : ∀ (X : Tree) (t : Nat),
    (rotUp X t Y).1.nodes.count x + (if (rotUp X t Y).2 = x then 1 else 0)
      = (Tree.node X t Y).nodes.count x := by
  induction Y with
  | nil =>
    intro X t
    simp only [rotUp, Tree.nodes, List.count_append, List.count_cons, List.count_nil, beq_iff_eq]
    omega
  | node Y1 r Y2 _ ih2 =>
    intro X t
    rw [rotUp, ih2]
    simp only [Tree.nodes, List.count_append, List.count_cons]
    omega

theorem joinA_count (x : Nat) (l r : Tree) :
    (joinA l r).nodes.count x = l.nodes.count x + r.nodes.count x := by
  cases l with
  | nil => simp [joinA, Tree.nodes]
  | node X t Y =>
    have := rotUp_count x Y X t
    simp only [joinA, Tree.nodes, List.count_append, List.count_cons, beq_iff_eq] at this ⊢
    omega

theorem subtreeAt_card (c : Nat) (t : Tree) : (t.subtreeAt c).card ≤ t.card := by
  induction t with
  | nil => simp [Tree.subtreeAt]
  | node l a r ihl ihr =>
    simp only [Tree.subtreeAt]
    split
    · exact Nat.le_refl _
    · split
      · simp only [Tree.card]; omega
      · simp only [Tree.card]; omega

/-- The nodes of the tree after `delete(c)`: those before, without `c`. -/
theorem deleteT_count (T : Tree) (c x : Nat) (hnd : T.nodes.Nodup) (hc : c ∈ T.nodes) :
    (deleteT T c).nodes.count x + (if c = x then 1 else 0) = T.nodes.count x := by
  have h1 := replaceAt_count c x (joinA (T.subtreeAt c).leftSub (T.subtreeAt c).rightSub) T hnd hc
  have h2 := joinA_count x (T.subtreeAt c).leftSub (T.subtreeAt c).rightSub
  have h3 := subtreeAt_count c x T
  unfold deleteT
  cases hs : T.subtreeAt c with
  | nil =>
    exfalso
    clear h1 h2 h3
    induction T with
    | nil => simp [Tree.nodes] at hc
    | node l a r ihl ihr =>
      obtain ⟨n1, n2, n3, n4, n5⟩ := nodup_node l r a hnd
      simp only [Tree.subtreeAt] at hs
      split at hs
      · cases hs
      · rename_i hac
        rw [mem_node] at hc
        split at hs
        · rename_i hcl
          exact ihl n1 hcl hs
        · rename_i hcl
          rcases hc with hc | hc | hc
          · exact hcl hc
          · exact hac hc.symm
          · exact ihr n2 hc hs
  | node l a r =>
    rw [hs] at h1 h2 h3
    have ha : a = c := by
      clear h1 h2 h3
      induction T with
      | nil => simp [Tree.nodes] at hc
      | node l' a' r' ihl ihr =>
        obtain ⟨n1, n2, n3, n4, n5⟩ := nodup_node l' r' a' hnd
        simp only [Tree.subtreeAt] at hs
        split at hs
        · rename_i hac
          cases hs
          exact hac
        · rename_i hac
          rw [mem_node] at hc
          split at hs
          · rename_i hcl
            exact ihl n1 hcl hs
          · rename_i hcl
            rcases hc with hc | hc | hc
            · exact absurd hc hcl
            · exact absurd hc.symm hac
            · exact ihr n2 hc hs
    subst ha
    simp only [Tree.leftSub, Tree.rightSub, Tree.nodes, List.count_append, List.count_cons,
      beq_iff_eq] at h1 h2 h3 ⊢
    omega

/-- The links `delete` changes outside the subtree of the deleted node: the
child link of the parent, or `dtree` for the root. -/
theorem redirect_fields (h : Heap) (p c q : Nat) :
    (∀ x, (if p = 0 then h.setDtree q else if c = h.left p then h.setLeft p q
        else h.setRight p q).left x = if p ≠ 0 ∧ x = p ∧ c = h.left p then q else h.left x)
    ∧ (∀ x, (if p = 0 then h.setDtree q else if c = h.left p then h.setLeft p q
        else h.setRight p q).right x = if p ≠ 0 ∧ x = p ∧ c ≠ h.left p then q else h.right x)
    ∧ (if p = 0 then h.setDtree q else if c = h.left p then h.setLeft p q
        else h.setRight p q).parent = h.parent
    ∧ (if p = 0 then h.setDtree q else if c = h.left p then h.setLeft p q
        else h.setRight p q).size = h.size
    ∧ (if p = 0 then h.setDtree q else if c = h.left p then h.setLeft p q
        else h.setRight p q).dtree = if p = 0 then q else h.dtree := by
  by_cases hp : p = 0
  · simp only [hp, if_true, ne_eq, not_true_eq_false, false_and, if_false]
    exact ⟨fun _ => rfl, fun _ => rfl, rfl, rfl, rfl⟩
  · by_cases hc : c = h.left p
    · simp only [if_neg hp, if_pos hc]
      refine ⟨fun x => ?_, fun x => ?_, rfl, rfl, rfl⟩
      · by_cases hx : x = p
        · rw [if_pos ⟨hp, hx, hc⟩, hx]
          simp
        · rw [if_neg (fun hh => hx hh.2.1)]
          simp [Function.update_noteq hx]
      · rw [if_neg (fun hh => hh.2.2 hc)]
        rfl
    · simp only [if_neg hp, if_neg hc]
      refine ⟨fun x => ?_, fun x => ?_, rfl, rfl, rfl⟩
      · rw [if_neg (fun hh => hc hh.2.2)]
        rfl
      · by_cases hx : x = p
        · rw [if_pos ⟨hp, hx, hc⟩, hx]
          simp
        · rw [if_neg (fun hh => hx hh.2.1)]
          simp [Function.update_noteq hx]

/-- The memory after the links around the deleted node `c` have been set:
the tree is the one before, with the subtree at `c` replaced. -/
theorem relink (h h' : Heap) (T S : Tree) (c q : Nat) (hT : Repr h 0 h.dtree T)
    (hnd : T.nodes.Nodup) (hc : c ∈ T.nodes)
    (hS : Repr h' (h.parent c) q S)
    (hout : ∀ x ∈ T.nodes, x ∉ (T.subtreeAt c).nodes →
      h'.parent x = h.parent x
      ∧ h'.left x = (if h.parent c ≠ 0 ∧ x = h.parent c ∧ c = h.left (h.parent c) then q
          else h.left x)
      ∧ h'.right x = (if h.parent c ≠ 0 ∧ x = h.parent c ∧ c ≠ h.left (h.parent c) then q
          else h.right x))
    (hd : h'.dtree = if h.parent c = 0 then q else h.dtree) :
    Repr h' 0 h'.dtree (T.replaceAt c S) := by
  have hc0 : c ≠ 0 := repr_mem_ne_zero h T 0 _ hT c hc
  have hroot : h.parent c = 0 ↔ h.dtree = c := by
    constructor
    · intro hp
      by_contra hne
      have := (repr_parent_child h c T 0 _ hT hnd hc hne).1
      exact repr_mem_ne_zero h T 0 _ hT _ this hp
    · intro e
      rw [← e]
      exact repr_parent_root h 0 _ T hT (by rw [e]; exact hc0)
  have hrep := repr_replace h h' c q S hc0 T 0 h.dtree hT hnd hc hS (fun x hx hxs => by
    obtain ⟨f1, f2, f3⟩ := hout x hx hxs
    refine ⟨f1, ?_, ?_⟩
    · rw [f2]
      by_cases e : h.left x = c
      · have hp := repr_child_parent h c hc0 T 0 _ hT x hx (Or.inl e)
        have hp0 : h.parent c ≠ 0 := by
          rw [hp]; exact repr_mem_ne_zero h T 0 _ hT x hx
        rw [if_pos e, if_pos ⟨hp0, hp.symm, by rw [hp, e]⟩]
      · rw [if_neg e, if_neg (fun hh => e (by rw [hh.2.1]; exact hh.2.2.symm))]
    · rw [f3]
      by_cases e : h.right x = c
      · have hp := repr_child_parent h c hc0 T 0 _ hT x hx (Or.inr e)
        have hp0 : h.parent c ≠ 0 := by
          rw [hp]; exact repr_mem_ne_zero h T 0 _ hT x hx
        have hne : c ≠ h.left (h.parent c) := by
          rw [hp]
          exact fun hh => repr_left_ne_right h c hc0 T 0 _ hT hnd x hx hh.symm e
        rw [if_pos e, if_pos ⟨hp0, hp.symm, hne⟩]
      · rw [if_neg e]
        by_cases hh : h.parent c ≠ 0 ∧ x = h.parent c ∧ c ≠ h.left (h.parent c)
        · exfalso
          have hne : h.dtree ≠ c := fun e' => hh.1 (hroot.2 e')
          have := (repr_parent_child h c T 0 _ hT hnd hc hne).2.2
          rw [← hh.2.1] at this
          rcases this with e1 | e1
          · exact hh.2.2 (by rw [← hh.2.1]; exact e1.symm)
          · exact e e1
        · rw [if_neg hh])
  rw [hd]
  by_cases hp : h.parent c = 0
  · rw [if_pos hp]
    rw [if_pos (hroot.1 hp)] at hrep
    exact hrep
  · rw [if_neg hp]
    rw [if_neg (fun e => hp (hroot.2 e))] at hrep
    exact hrep

/-- The parent of a node that is not the root is a node outside the subtree
of that node. -/
theorem parent_outside (h : Heap) (T : Tree) (c : Nat) (hT : Repr h 0 h.dtree T)
    (hnd : T.nodes.Nodup) (hc : c ∈ T.nodes) (hp : h.parent c ≠ 0) :
    h.parent c ∈ T.nodes ∧ h.parent c ∉ (T.subtreeAt c).nodes := by
  have hc0 : c ≠ 0 := repr_mem_ne_zero h T 0 _ hT c hc
  by_cases hroot : h.dtree = c
  · exfalso
    apply hp
    rw [← hroot]
    exact repr_parent_root h 0 _ T hT (by rw [hroot]; exact hc0)
  · have := repr_parent_child h c T 0 _ hT hnd hc hroot
    exact ⟨this.1, this.2.1⟩

/-- The case of `delete` in which the node has no left subtree: the right
subtree takes the place of the node. -/
theorem delete_noleft (h h' : Heap) (T r : Tree) (c : Nat) (hT : Repr h 0 h.dtree T)
    (hnd : T.nodes.Nodup) (hc : c ∈ T.nodes) (hsub : T.subtreeAt c = .node .nil c r)
    (hL : ∀ x, h'.left x = if h.parent c ≠ 0 ∧ x = h.parent c ∧ c = h.left (h.parent c)
      then h.right c else h.left x)
    (hR : ∀ x, h'.right x = if h.parent c ≠ 0 ∧ x = h.parent c ∧ c ≠ h.left (h.parent c)
      then h.right c else h.right x)
    (hP : ∀ x, h'.parent x = if x = h.right c ∧ h.right c ≠ 0 then h.parent c else h.parent x)
    (hD : h'.dtree = if h.parent c = 0 then h.right c else h.dtree) :
    Repr h' 0 h'.dtree (deleteT T c) := by
  obtain ⟨l', r', e1, hS⟩ := repr_subtreeAt h c T 0 _ hT hc
  rw [hsub] at e1
  cases e1
  obtain ⟨_, hc0, _, hl, hrr⟩ := hS
  have hpS := parent_outside h T c hT hnd hc
  have hSsub : ∀ x, x ∈ r.nodes → x ∈ (T.subtreeAt c).nodes := by
    intro x hx
    rw [hsub, mem_node]
    exact Or.inr (Or.inr hx)
  have hndS : (Tree.node .nil c r).nodes.Nodup := by
    rw [← hsub]
    exact nodup_of_perm_sub _ _ hnd (fun x => subtreeAt_count c x T)
  have hdel : deleteT T c = T.replaceAt c r := by
    unfold deleteT
    rw [hsub]
    rfl
  rw [hdel]
  refine relink h h' T r c (h.right c) hT hnd hc ?_ ?_ hD
  · refine repr_congr_root h h' r c _ _ hrr (nodup_node _ _ _ hndS).2.1 (fun x hx => ?_)
      (fun h0 => ?_)
    · refine ⟨?_, ?_, fun hne => ?_⟩
      · rw [hL, if_neg (fun hh => (hpS hh.1).2 (by rw [← hh.2.1]; exact hSsub x hx))]
      · rw [hR, if_neg (fun hh => (hpS hh.1).2 (by rw [← hh.2.1]; exact hSsub x hx))]
      · rw [hP, if_neg (fun hh => hne hh.1)]
    · rw [hP, if_pos ⟨rfl, h0⟩]
  · intro x hx hxs
    refine ⟨?_, hL x, hR x⟩
    rw [hP, if_neg (fun hh => hxs (by
      rw [hh.1]
      exact hSsub _ (repr_root_mem _ _ _ _ hrr hh.2)))]

/-- The case of `delete` in which the node has a left subtree: the largest
node of the left subtree, rotated to its top, takes the place of the node,
with the right subtree of the node as its right subtree. -/
theorem delete_left (h h1 h' : Heap) (T X Y r : Tree) (c t par' : Nat)
    (hT : Repr h 0 h.dtree T) (hnd : T.nodes.Nodup) (hc : c ∈ T.nodes)
    (hsub : T.subtreeAt c = .node (.node X t Y) c r)
    (hrep1 : Repr h1 par' (rotUp X t Y).2 (.node (rotUp X t Y).1 (rotUp X t Y).2 .nil))
    (hf1 : ∀ x, x ∉ (Tree.node X t Y).nodes →
      h1.left x = h.left x ∧ h1.right x = h.right x ∧ h1.parent x = h.parent x)
    (hd1 : h1.dtree = h.dtree)
    (hL : ∀ x, h'.left x = if h.parent c ≠ 0 ∧ x = h.parent c ∧ c = h1.left (h.parent c)
      then (rotUp X t Y).2 else h1.left x)
    (hR : ∀ x, h'.right x = if x = (rotUp X t Y).2 then h.right c
      else if h.parent c ≠ 0 ∧ x = h.parent c ∧ c ≠ h1.left (h.parent c)
      then (rotUp X t Y).2 else h1.right x)
    (hP : ∀ x, h'.parent x = if x = h.right c ∧ h.right c ≠ 0 then (rotUp X t Y).2
      else if x = (rotUp X t Y).2 then h.parent c else h1.parent x)
    (hD : h'.dtree = if h.parent c = 0 then (rotUp X t Y).2 else h1.dtree) :
    Repr h' 0 h'.dtree (deleteT T c) := by
  obtain ⟨l', r', e1, hS⟩ := repr_subtreeAt h c T 0 _ hT hc
  rw [hsub] at e1
  cases e1
  obtain ⟨_, hc0, _, hl, hrr⟩ := hS
  have hpS := parent_outside h T c hT hnd hc
  have hndS : (Tree.node (.node X t Y) c r).nodes.Nodup := by
    rw [← hsub]
    exact nodup_of_perm_sub _ _ hnd (fun x => subtreeAt_count c x T)
  have cS := List.nodup_iff_count_le_one.1 hndS
  have cl := fun x => rotUp_count x Y X t
  obtain ⟨_, ht0, _, hX1, _⟩ := hrep1
  have hdel : deleteT T c = T.replaceAt c (.node (rotUp X t Y).1 (rotUp X t Y).2 r) := by
    unfold deleteT
    rw [hsub]
    rfl
  generalize (rotUp X t Y).2 = t' at *
  generalize (rotUp X t Y).1 = X' at *
  have cSx : ∀ x, (X'.nodes.count x + (if t' = x then 1 else 0)) + (if c = x then 1 else 0)
      + r.nodes.count x ≤ 1 := by
    intro x
    have := cS x
    have := cl x
    simp only [Tree.nodes, List.count_append, List.count_cons, beq_iff_eq] at *
    omega
  have inl : ∀ x, 0 < X'.nodes.count x + (if t' = x then 1 else 0) →
      x ∈ (Tree.node X t Y).nodes := by
    intro x hx
    rw [cl x] at hx
    exact List.count_pos_iff.1 hx
  have inS : ∀ x, 0 < (X'.nodes.count x + (if t' = x then 1 else 0)) + (if c = x then 1 else 0)
      + r.nodes.count x → x ∈ (T.subtreeAt c).nodes := by
    intro x hx
    rw [hsub]
    apply List.count_pos_iff.1
    have := cl x
    simp only [Tree.nodes, List.count_append, List.count_cons, beq_iff_eq] at *
    omega
  have outl : ∀ x, (Tree.node X t Y).nodes.count x = 0 → x ∉ (Tree.node X t Y).nodes :=
    fun x hx => List.count_eq_zero.1 hx
  have hpne : ∀ x, x ∈ (T.subtreeAt c).nodes →
      ∀ (P : Prop), ¬ (h.parent c ≠ 0 ∧ x = h.parent c ∧ P) :=
    fun x hx P hh => (hpS hh.1).2 (by rw [← hh.2.1]; exact hx)
  have ht'S : t' ∈ (T.subtreeAt c).nodes := inS t' (by simp)
  have hcl : c ∉ (Tree.node X t Y).nodes := outl c (by
    have := cSx c
    have := cl c
    simp only [if_true] at *
    omega)
  have hp1 : h.parent c ≠ 0 → h1.left (h.parent c) = h.left (h.parent c) := fun hp =>
    (hf1 _ (fun hm => (hpS hp).2 (by rw [hsub, mem_node]; exact Or.inl hm))).1
  have hrne : ∀ x, 0 < r.nodes.count x → x ≠ t' := by
    intro x hx e
    have := cSx t'
    rw [e] at hx
    simp only [if_true] at this
    omega
  rw [hdel]
  refine relink h h' T (.node X' t' r) c t' hT hnd hc ?_ ?_ ?_
  · refine ⟨rfl, ht0, ?_, ?_, ?_⟩
    · rw [hP, if_neg (fun hh => hrne _ (repr_count_root _ _ _ _ hrr hh.2) hh.1.symm), if_pos rfl]
    · rw [hL, if_neg (hpne t' ht'S _)]
      refine repr_congr h1 h' X' _ _ hX1 (fun x hx => ?_)
      have hx0 := List.count_pos_iff.2 hx
      have hxS : x ∈ (T.subtreeAt c).nodes := inS x (by omega)
      have hxt : x ≠ t' := by
        intro e
        have := cSx x
        rw [e] at this hx0
        simp only [if_true] at this
        omega
      have hxr : ¬ (x = h.right c ∧ h.right c ≠ 0) := by
        rintro ⟨e, h0⟩
        have := repr_count_root _ _ _ _ hrr h0
        have := cSx x
        rw [← e] at *
        omega
      rw [hL, hR, hP, if_neg (hpne x hxS _), if_neg hxt, if_neg (hpne x hxS _), if_neg hxr,
        if_neg hxt]
      exact ⟨rfl, rfl, rfl⟩
    · rw [hR, if_pos rfl]
      refine repr_congr_root h h' r c _ _ hrr (nodup_node _ _ _ hndS).2.1 (fun x hx => ?_)
        (fun h0 => ?_)
      · have hx0 := List.count_pos_iff.2 hx
        have hxS : x ∈ (T.subtreeAt c).nodes := inS x (by omega)
        have hxt : x ≠ t' := hrne x hx0
        have hxl : x ∉ (Tree.node X t Y).nodes := outl x (by
          have := cSx x
          have := cl x
          omega)
        obtain ⟨f1, f2, f3⟩ := hf1 x hxl
        rw [hL, hR, hP, if_neg (hpne x hxS _), if_neg hxt, if_neg (hpne x hxS _), f1, f2]
        refine ⟨rfl, rfl, fun hne => ?_⟩
        rw [if_neg (fun hh => hne hh.1), if_neg hxt, f3]
      · rw [hP, if_pos ⟨rfl, h0⟩]
  · intro x hx hxs
    have hxt : x ≠ t' := fun e => hxs (by rw [e]; exact ht'S)
    have hxr : ¬ (x = h.right c ∧ h.right c ≠ 0) := by
      rintro ⟨e, h0⟩
      exact hxs (inS x (by
        have := repr_count_root _ _ _ _ hrr h0
        rw [← e] at this
        omega))
    have hxl : x ∉ (Tree.node X t Y).nodes := fun hm =>
      hxs (by rw [hsub, mem_node]; exact Or.inl hm)
    obtain ⟨f1, f2, f3⟩ := hf1 x hxl
    rw [hL, hR, hP, if_neg hxr, if_neg hxt, if_neg hxt, f1, f2, f3]
    refine ⟨rfl, ?_, ?_⟩
    · by_cases hp : h.parent c = 0
      · rw [if_neg (fun hh => hh.1 hp), if_neg (fun hh => hh.1 hp)]
      · rw [hp1 hp]
    · by_cases hp : h.parent c = 0
      · rw [if_neg (fun hh => hh.1 hp), if_neg (fun hh => hh.1 hp)]
      · rw [hp1 hp]
  · rw [hD, hd1]

end Dgd

namespace Dgd

/-! ## Theorems: `delete` on a tree in the memory -/

/-- The function `delete` on a tree in the memory: with enough fuel it
returns, the memory then holds the tree `deleteT T c`, whose nodes are those
of `T` without `c`, and no size field has changed. -/
theorem delete_correct (fuel : Nat) (h : Heap) (T : Tree) (c : Nat) (hT : IsTree h T)
    (hc : c ∈ T.nodes) (hfuel : T.card ≤ fuel) :
    ∃ h', delete fuel h c = some h' ∧ IsTree h' (deleteT T c) ∧ h'.size = h.size
      ∧ ∀ x, (deleteT T c).nodes.count x + (if c = x then 1 else 0) = T.nodes.count x := by
  obtain ⟨hrepr, hnd⟩ := hT
  have hcount := fun x => deleteT_count T c x hnd hc
  have hnd' : (deleteT T c).nodes.Nodup :=
    nodup_of_perm_sub _ _ hnd (fun x => by have := hcount x; omega)
  obtain ⟨l, r, hsub, hS⟩ := repr_subtreeAt h c T 0 _ hrepr hc
  have hpS := parent_outside h T c hrepr hnd hc
  have hcS : c ∈ (T.subtreeAt c).nodes := by
    rw [hsub, mem_node]; exact Or.inr (Or.inl rfl)
  cases l with
  | nil =>
    have hl0 : h.left c = 0 := hS.2.2.2.1
    obtain ⟨g1, g2, g3, g4, g5⟩ := redirect_fields h (h.parent c) c (h.right c)
    have hdef : delete fuel h c = some ((if h.parent c = 0 then h.setDtree (h.right c)
        else if c = h.left (h.parent c) then h.setLeft (h.parent c) (h.right c)
        else h.setRight (h.parent c) (h.right c)).setParentIf (h.right c) (h.parent c)) := by
      unfold delete
      simp only [hl0, if_true]
      by_cases hp : h.parent c = 0
      · simp only [hp, if_true, setDtree_dtree]
      · by_cases hcl : c = h.left (h.parent c)
        · simp only [if_neg hp, if_pos hcl, setLeft_left, Function.update_same]
        · simp only [if_neg hp, if_neg hcl, setRight_right, Function.update_same]
    generalize (if h.parent c = 0 then h.setDtree (h.right c)
        else if c = h.left (h.parent c) then h.setLeft (h.parent c) (h.right c)
        else h.setRight (h.parent c) (h.right c)) = H at *
    refine ⟨_, hdef, ⟨delete_noleft h _ T r c hrepr hnd hc hsub ?_ ?_ ?_ ?_, hnd'⟩, ?_, hcount⟩
    · intro x
      rw [setParentIf_left, g1]
    · intro x
      rw [setParentIf_right, g2]
    · intro x
      rw [setParentIf_parent, g3]
    · rw [setParentIf_dtree, g5]
    · rw [← g4]
      unfold Heap.setParentIf
      split <;> rfl
  | node X t Y =>
    have hl : Repr h c (h.left c) (.node X t Y) := hS.2.2.2.1
    have hlt : h.left c = t := hl.1
    have ht0 : t ≠ 0 := hl.2.1
    have hndS : (Tree.node (.node X t Y) c r).nodes.Nodup := by
      rw [← hsub]
      exact nodup_of_perm_sub _ _ hnd (fun x => subtreeAt_count c x T)
    have hndl := (nodup_node _ _ _ hndS).1
    have hcl : c ∉ (Tree.node X t Y).nodes := (nodup_node _ _ _ hndS).2.2.1
    have hcard : Y.card < fuel := by
      have := subtreeAt_card c T
      rw [hsub] at this
      simp only [Tree.card] at this
      omega
    rw [hlt] at hl
    obtain ⟨h1, par', e1, e2, e3, e4, e5, e6⟩ := deleteLoop_refines Y X t fuel h c hl hndl hcard
    have ht'l : (rotUp X t Y).2 ∈ (Tree.node X t Y).nodes := by
      apply List.count_pos_iff.1
      rw [← e6]
      simp [Tree.nodes]
    have hcp : ¬ (h.parent c ≠ 0 ∧ c = h.parent c ∧ c ≠ h1.left (h.parent c)) :=
      fun hh => (hpS hh.1).2 (by rw [← hh.2.1]; exact hcS)
    obtain ⟨g1, g2, g3, g4, g5⟩ := redirect_fields h1 (h.parent c) c (rotUp X t Y).2
    have hdef : delete fuel h c = some ((((if h.parent c = 0 then h1.setDtree (rotUp X t Y).2
        else if c = h1.left (h.parent c) then h1.setLeft (h.parent c) (rotUp X t Y).2
        else h1.setRight (h.parent c) (rotUp X t Y).2).setParent (rotUp X t Y).2
          (h.parent c)).setRight (rotUp X t Y).2 (h.right c)).setParentIf (h.right c)
            (rotUp X t Y).2) := by
      unfold delete
      simp only [hlt, if_neg ht0, e1, setParent_right, setRight_right, Function.update_same]
      rw [g2, if_neg hcp, (e3 c hcl).2.1]
    generalize (if h.parent c = 0 then h1.setDtree (rotUp X t Y).2
        else if c = h1.left (h.parent c) then h1.setLeft (h.parent c) (rotUp X t Y).2
        else h1.setRight (h.parent c) (rotUp X t Y).2) = H at *
    refine ⟨_, hdef, ⟨delete_left h h1 _ T X Y r c t par' hrepr hnd hc hsub e2 e3 e5
      ?_ ?_ ?_ ?_, hnd'⟩, ?_, hcount⟩
    · intro x
      rw [setParentIf_left, setRight_left, setParent_left, g1]
    · intro x
      rw [setParentIf_right, setRight_right, setParent_right, Function.update_apply, g2]
    · intro x
      rw [setParentIf_parent, setRight_parent, setParent_parent, Function.update_apply, g3]
    · rw [setParentIf_dtree, setRight_dtree, setParent_dtree, g5]
    · rw [← e4, ← g4]
      unfold Heap.setParentIf
      split <;> rfl

end Dgd

namespace Dgd

/-! ## Theorems: the two merges of `dfree` -/

/-- Writing a size word leaves the tree in the memory as it is. -/
theorem isTree_setSize (h : Heap) (T : Tree) (a v : Nat) (hT : IsTree h T) :
    IsTree (h.setSize a v) T :=
  ⟨repr_congr h _ T 0 _ hT.1 (fun _ _ => ⟨rfl, rfl, rfl⟩), hT.2⟩

/-- Without a chunk before `c`, or with one that has a magic tag, `dfree`
leaves the memory as it is up to "merge with next block". -/
theorem dfreePrev_none (C : Config) (fuel : Nat) (st : Alloc) (c : Nat)
    (h : st.size (c - C.sizeofLong) = 0
      ∨ st.size (c - C.sizeofLong + C.sizeofLong - st.size (c - C.sizeofLong))
          &&& MAGIC_MASK ≠ 0) :
    dfreePrev C fuel st c = .ok c st := by
  unfold dfreePrev
  rcases h with h | h
  · simp only [h, ne_eq, not_true_eq_false, if_false]
  · by_cases h0 : st.size (c - C.sizeofLong) = 0
    · simp only [h0, ne_eq, not_true_eq_false, if_false]
    · simp only [ne_eq, h0, not_false_eq_true, if_true, if_neg h]

/-- With a free chunk `pc` before `c`, "merge with previous block" takes `pc`
out of the tree and makes it one chunk with `c`. -/
theorem dfreePrev_merge (C : Config) (fuel : Nat) (st : Alloc) (T : Tree) (c pc : Nat)
    (hw : st.size (c - C.sizeofLong) ≠ 0)
    (hpc : c - C.sizeofLong + C.sizeofLong - st.size (c - C.sizeofLong) = pc)
    (hfree : st.size pc &&& MAGIC_MASK = 0)
    (hT : IsTree st.toHeap T) (hp : pc ∈ T.nodes) (hfuel : T.card ≤ fuel) :
    ∃ st1, dfreePrev C fuel st c = .ok pc st1 ∧ IsTree st1.toHeap (deleteT T pc)
      ∧ st1.size = Function.update (Function.update st.size pc (st.size pc + st.size c))
          (pc + (st.size pc + st.size c) - C.sizeofLong) (st.size pc + st.size c) := by
  obtain ⟨h1, hd, hT1, hsz, _⟩ := delete_correct fuel st.toHeap T pc hT hp hfuel
  unfold dfreePrev
  simp only [ne_eq, hw, not_false_eq_true, if_true, hpc, hfree, hd, Alloc.onHeap]
  refine ⟨_, rfl, ?_, ?_⟩
  · exact isTree_setSize _ _ _ _ (isTree_setSize _ _ _ _ hT1)
  · simp only [Alloc.wr, Heap.setSize, hsz, Function.update_same]

/-- With no chunk after `c`, or one that has a magic tag, `dfree` leaves the
memory as it is up to `insert`. -/
theorem dfreeNext_none (C : Config) (fuel : Nat) (st : Alloc) (c : Nat)
    (h : st.size (c + st.size c) = 0 ∨ st.size (c + st.size c) &&& MAGIC_MASK ≠ 0) :
    dfreeNext C fuel st c = .ok () st := by
  unfold dfreeNext
  have : ¬ (st.size (c + st.size c) ≠ 0 ∧ st.size (c + st.size c) &&& MAGIC_MASK = 0) := by
    rintro ⟨h1, h2⟩
    rcases h with h | h
    · exact h1 h
    · exact h h2
  simp only [if_neg this]

/-- With a free chunk `nc` after `c`, "merge with next block" takes `nc` out
of the tree and makes it one chunk with `c`. -/
theorem dfreeNext_merge (C : Config) (fuel : Nat) (st : Alloc) (T : Tree) (c nc : Nat)
    (hnc : c + st.size c = nc) (hw : st.size nc ≠ 0)
    (hfree : st.size nc &&& MAGIC_MASK = 0)
    (hT : IsTree st.toHeap T) (hp : nc ∈ T.nodes) (hfuel : T.card ≤ fuel) :
    ∃ st1, dfreeNext C fuel st c = .ok () st1 ∧ IsTree st1.toHeap (deleteT T nc)
      ∧ st1.size = Function.update (Function.update st.size c (st.size c + st.size nc))
          (c + (st.size c + st.size nc) - C.sizeofLong) (st.size c + st.size nc) := by
  obtain ⟨h1, hd, hT1, hsz, _⟩ := delete_correct fuel st.toHeap T nc hT hp hfuel
  unfold dfreeNext
  simp only [hnc, ne_eq, hw, not_false_eq_true, hfree, and_self, if_true, hd, Alloc.onHeap]
  refine ⟨_, rfl, ?_, ?_⟩
  · exact isTree_setSize _ _ _ _ (isTree_setSize _ _ _ _ hT1)
  · simp only [Alloc.wr, Heap.setSize, hsz, Function.update_same]

/-- The function `dfree` on a large chunk of an initialised allocator: its
three parts one after the other. -/
theorem dfree_large (C : Config) (fuel : Nat) (st st1 st2 : Alloc) (c c1 : Nat)
    (hinit : st.dchunksz ≠ 0) (hlarge : C.DLIMIT ≤ st.size c)
    (h1 : dfreePrev C fuel st c = .ok c1 st1) (h2 : dfreeNext C fuel st1 c1 = .ok () st2) :
    dfree C fuel st c = st2.onHeap (insert fuel st2.toHeap c1) := by
  unfold dfree
  simp only [if_neg hinit, if_neg (Nat.not_lt.2 hlarge), h1, h2]

end Dgd

namespace Dgd

/-! ## Theorems: the chunks of a block -/

theorem seg_append (sz : Nat → Nat) (SL : Nat) (xs ys : List (Nat × Nat)) :
    ∀ (a b : Nat), Seg sz SL a (xs ++ ys) b ↔ ∃ m, Seg sz SL a xs m ∧ Seg sz SL m ys b := by
  induction xs with
  | nil =>
    intro a b
    constructor
    · intro h; exact ⟨a, rfl, h⟩
    · rintro ⟨m, h1, h2⟩
      have : a = m := h1
      subst this
      exact h2
  | cons p xs ih =>
    intro a b
    constructor
    · rintro ⟨h1, h2, h3⟩
      obtain ⟨m, h4, h5⟩ := (ih _ _).1 h3
      exact ⟨m, ⟨h1, h2, h4⟩, h5⟩
    · rintro ⟨m, ⟨h1, h2, h4⟩, h5⟩
      exact ⟨h1, h2, (ih _ _).2 ⟨m, h4, h5⟩⟩

theorem seg_le (sz : Nat → Nat) (SL : Nat) (xs : List (Nat × Nat)) :
    ∀ (a b : Nat), Seg sz SL a xs b → a ≤ b := by
  induction xs with
  | nil => intro a b h; exact Nat.le_of_eq h
  | cons p xs ih =>
    intro a b h
    have := ih _ _ h.2.2
    omega

/-- Every chunk of a segment lies inside it. -/
theorem seg_mem (sz : Nat → Nat) (SL : Nat) (xs : List (Nat × Nat)) :
    ∀ (a b : Nat), Seg sz SL a xs b → ∀ p ∈ xs,
      a ≤ p.1 ∧ p.1 + p.2 ≤ b ∧ ChunkAt sz SL p.1 p.2 := by
  induction xs with
  | nil => intro a b _ p hp; simp at hp
  | cons q xs ih =>
    intro a b h p hp
    obtain ⟨h1, h2, h3⟩ := h
    rcases List.mem_cons.1 hp with e | hp'
    · subst e
      have := seg_le sz SL xs _ _ h3
      exact ⟨by omega, by omega, h2⟩
    · have := ih _ _ h3 p hp'
      exact ⟨by omega, this.2.1, this.2.2⟩

/-- The frame rule for segments: a memory that agrees on the words from `a`
to `b` holds the same chunks there. -/
theorem seg_congr (sz sz' : Nat → Nat) (SL : Nat) (hSL : 0 < SL) (xs : List (Nat × Nat)) :
    ∀ (a b : Nat), Seg sz SL a xs b → (∀ x, a ≤ x → x < b → sz' x = sz x) →
      Seg sz' SL a xs b := by
  induction xs with
  | nil => intro a b h _; exact h
  | cons p xs ih =>
    intro a b h hag
    obtain ⟨h1, ⟨c1, c2, c3, c4⟩, h3⟩ := h
    have hle := seg_le sz SL xs _ _ h3
    have e1 : sz' p.1 = sz p.1 := hag _ (by omega) (by omega)
    have e2 : sz' (p.1 + p.2 - SL) = sz (p.1 + p.2 - SL) := hag _ (by omega) (by omega)
    refine ⟨h1, ⟨c1, ?_, ?_, ?_⟩, ih _ _ h3 (fun x hx1 hx2 => hag x (by omega) hx2)⟩
    · rw [e1]; exact c2
    · rw [e2]; exact c3
    · rw [e1]; exact c4

theorem seg_concat (sz : Nat → Nat) (SL : Nat) (xs : List (Nat × Nat)) (p : Nat × Nat)
    (a b : Nat) :
    Seg sz SL a (xs ++ [p]) b ↔ Seg sz SL a xs p.1 ∧ ChunkAt sz SL p.1 p.2 ∧ p.1 + p.2 = b := by
  rw [seg_append]
  constructor
  · rintro ⟨m, h1, h2, h3, h4⟩
    have h4' : m + p.2 = b := h4
    rw [← h2] at h1 h4'
    exact ⟨h1, h3, h4'⟩
  · rintro ⟨h1, h2, h3⟩
    exact ⟨p.1, h1, rfl, h2, h3⟩

theorem freePrev_nil (T : Tree) : freePrev T [] = [] := rfl

theorem freePrev_concat (T : Tree) (xs : List (Nat × Nat)) (p : Nat × Nat) :
    freePrev T (xs ++ [p]) = if p.1 ∈ T.nodes then [p] else [] := by
  unfold freePrev
  have e : (xs ++ [p]).getLast? = some p := by simp
  rw [e]
  by_cases h : p.1 ∈ T.nodes
  · simp [h]
  · simp [h]

theorem freeNext_nil (T : Tree) : freeNext T [] = [] := rfl

theorem freeNext_cons (T : Tree) (xs : List (Nat × Nat)) (p : Nat × Nat) :
    freeNext T (p :: xs) = if p.1 ∈ T.nodes then [p] else [] := by
  unfold freeNext
  by_cases h : p.1 ∈ T.nodes
  · simp [h]
  · simp [h]

end Dgd

namespace Dgd

/-! ## Theorems: `dfree` on a block, part by part -/

theorem card_eq_length (T : Tree) : T.card = T.nodes.length := by
  induction T with
  | nil => rfl
  | node l a r ihl ihr =>
    simp only [Tree.card, Tree.nodes, List.length_append, List.length_cons, ihl, ihr]
    omega

theorem deleteT_card (T : Tree) (c : Nat) (hnd : T.nodes.Nodup) (hc : c ∈ T.nodes) :
    (deleteT T c).card + 1 = T.card := by
  have hp : (c :: (deleteT T c).nodes).Perm T.nodes := by
    rw [List.perm_iff_count]
    intro x
    have := deleteT_count T c x hnd hc
    simp only [List.count_cons, beq_iff_eq]
    omega
  have := hp.length_eq
  rw [card_eq_length, card_eq_length]
  simpa using this

/-- The first part of `dfree` on a chunk `c` of a block: the chunk before
`c`, when it is free, leaves the tree and becomes one chunk with `c`. -/
theorem dfree_phase1 (C : Config) (fuel : Nat) (st : Alloc) (T : Tree) (c a : Nat)
    (pre : List (Nat × Nat)) (hSL : 0 < C.sizeofLong) (hT : IsTree st.toHeap T)
    (ha : C.sizeofLong ≤ a) (ha0 : st.size (a - C.sizeofLong) = 0)
    (hseg : Seg st.size C.sizeofLong a pre c)
    (hc : ChunkAt st.size C.sizeofLong c (st.size c))
    (hinv : ∀ p ∈ pre.getLast?, (p.1 ∈ T.nodes ↔ st.size p.1 &&& MAGIC_MASK = 0))
    (hfuel : T.card ≤ fuel) :
    ∃ st1 T1, dfreePrev C fuel st c = .ok (mergedStart (freePrev T pre) c) st1
      ∧ IsTree st1.toHeap T1
      ∧ (∀ x, T1.nodes.count x + ((freePrev T pre).map Prod.fst).count x = T.nodes.count x)
      ∧ T1.card ≤ T.card
      ∧ st1.size (mergedStart (freePrev T pre) c)
          = ((freePrev T pre).map Prod.snd).sum + st.size c
      ∧ st1.size (c + st.size c - C.sizeofLong)
          = ((freePrev T pre).map Prod.snd).sum + st.size c
      ∧ (∀ x, x < mergedStart (freePrev T pre) c ∨ c + st.size c ≤ x → st1.size x = st.size x)
      ∧ Seg st.size C.sizeofLong a (pre.rdrop (freePrev T pre).length)
          (mergedStart (freePrev T pre) c)
      ∧ mergedStart (freePrev T pre) c + ((freePrev T pre).map Prod.snd).sum = c
      ∧ a ≤ mergedStart (freePrev T pre) c := by
  obtain ⟨c1, c2, c3, c4⟩ := hc
  rcases List.eq_nil_or_concat pre with rfl | ⟨pre0, p, rfl⟩
  · have hac : a = c := hseg
    subst hac
    refine ⟨st, T, dfreePrev_none C fuel st a (Or.inl ha0), hT, fun x => by simp [freePrev_nil],
      Nat.le_refl _, by simp [freePrev_nil, mergedStart], by simp [freePrev_nil, c3],
      fun _ _ => rfl, ?_, by simp [freePrev_nil, mergedStart], ?_⟩
    · simp [freePrev_nil, mergedStart, List.rdrop, Seg]
    · simp [freePrev_nil, mergedStart]
  · rw [List.concat_eq_append] at hseg hinv ⊢
    obtain ⟨hs0, ⟨d1, d2, d3, d4⟩, hpc⟩ := (seg_concat _ _ _ _ _ _).1 hseg
    have hap := seg_le _ _ _ _ _ hs0
    have hw : st.size (c - C.sizeofLong) = p.2 := by
      rw [← hpc]; exact d3
    have hp2 : p.2 ≠ 0 := by omega
    have hpcs : c - C.sizeofLong + C.sizeofLong - st.size (c - C.sizeofLong) = p.1 := by
      rw [hw]; omega
    have hi := hinv p (by simp)
    rw [freePrev_concat]
    by_cases hp : p.1 ∈ T.nodes
    · have hfree := hi.1 hp
      have hsz := d4 hfree
      obtain ⟨st1, e1, e2, e3⟩ := dfreePrev_merge C fuel st T c p.1 (by rw [hw]; exact hp2)
        hpcs hfree hT hp hfuel
      simp only [if_pos hp, mergedStart, List.map_cons, List.map_nil, List.sum_cons,
        List.sum_nil, List.length_singleton, Nat.add_zero]
      refine ⟨st1, deleteT T p.1, e1, e2, ?_, ?_, ?_, ?_, ?_, ?_, hpc, hap⟩
      · intro x
        have := deleteT_count T p.1 x hT.2 hp
        simp only [List.count_cons, List.count_nil, beq_iff_eq]
        omega
      · have := deleteT_card T p.1 hT.2 hp
        omega
      · rw [e3, hsz, Function.update_noteq (by omega), Function.update_same]
      · rw [e3, hsz]
        have : c + st.size c - C.sizeofLong = p.1 + (p.2 + st.size c) - C.sizeofLong := by omega
        rw [this, Function.update_same]
      · intro x hx
        rw [e3, hsz, Function.update_noteq (by omega), Function.update_noteq (by omega)]
      · rw [List.rdrop_concat_succ, List.rdrop_zero]
        exact hs0
    · have htag : st.size p.1 &&& MAGIC_MASK ≠ 0 := fun h => hp (hi.2 h)
      simp only [if_neg hp, mergedStart, List.map_nil, List.sum_nil, List.length_nil,
        List.count_nil, Nat.add_zero, Nat.zero_add, List.rdrop_zero]
      refine ⟨st, T, dfreePrev_none C fuel st c (Or.inr (by rw [hpcs]; exact htag)), hT,
        fun _ => rfl, Nat.le_refl _, rfl, c3, fun _ _ => rfl, hseg, trivial, ?_⟩
      omega

/-- The second part of `dfree`: the chunk after the one released, when it is
free, leaves the tree and becomes one chunk with it. -/
theorem dfree_phase2 (C : Config) (fuel : Nat) (st st1 : Alloc) (T T1 : Tree) (c1 s1 e b : Nat)
    (post : List (Nat × Nat)) (hSL : 0 < C.sizeofLong) (hT1 : IsTree st1.toHeap T1)
    (hs1 : st1.size c1 = s1) (he : c1 + s1 = e) (hs1' : C.sizeofLong ≤ s1)
    (htr1 : st1.size (e - C.sizeofLong) = s1)
    (hframe1 : ∀ x, e ≤ x → st1.size x = st.size x)
    (hseg : Seg st.size C.sizeofLong e post b) (hb : st.size b = 0)
    (hinv : ∀ p ∈ post.head?, (p.1 ∈ T.nodes ↔ st.size p.1 &&& MAGIC_MASK = 0))
    (hsub : ∀ p ∈ post.head?, p.1 ∈ T.nodes → p.1 ∈ T1.nodes)
    (hfuel : T1.card ≤ fuel) :
    ∃ st2 T2, dfreeNext C fuel st1 c1 = .ok () st2 ∧ IsTree st2.toHeap T2
      ∧ (∀ x, T2.nodes.count x + ((freeNext T post).map Prod.fst).count x = T1.nodes.count x)
      ∧ T2.card ≤ T1.card
      ∧ st2.size c1 = s1 + ((freeNext T post).map Prod.snd).sum
      ∧ st2.size (e + ((freeNext T post).map Prod.snd).sum - C.sizeofLong)
          = s1 + ((freeNext T post).map Prod.snd).sum
      ∧ (∀ x, x < c1 ∨ e + ((freeNext T post).map Prod.snd).sum ≤ x → st2.size x = st1.size x)
      ∧ Seg st.size C.sizeofLong (e + ((freeNext T post).map Prod.snd).sum)
          (post.drop (freeNext T post).length) b := by
  cases post with
  | nil =>
    have heb : e = b := hseg
    subst heb
    have h0 : st1.size (c1 + st1.size c1) = 0 := by
      rw [hs1, he, hframe1 e (Nat.le_refl _)]; exact hb
    refine ⟨st1, T1, dfreeNext_none C fuel st1 c1 (Or.inl h0), hT1, fun x => by simp [freeNext_nil],
      Nat.le_refl _, by simp [freeNext_nil, hs1], by simp [freeNext_nil, htr1], fun _ _ => rfl, ?_⟩
    simp [freeNext_nil, Seg]
  | cons p post0 =>
    obtain ⟨hpe, ⟨d1, d2, d3, d4⟩, hs0⟩ := hseg
    have hi := hinv p (by simp)
    have hnc : c1 + st1.size c1 = p.1 := by rw [hs1, he, hpe]
    have hszp : st1.size p.1 = st.size p.1 := hframe1 _ (by omega)
    rw [freeNext_cons]
    by_cases hp : p.1 ∈ T.nodes
    · have hfree := hi.1 hp
      have hsz := d4 hfree
      obtain ⟨st2, e1, e2, e3⟩ := dfreeNext_merge C fuel st1 T1 c1 p.1 hnc (by rw [hszp]; exact d2)
        (by rw [hszp]; exact hfree) hT1 (hsub p (by simp) hp) hfuel
      simp only [if_pos hp, List.map_cons, List.map_nil, List.sum_cons,
        List.sum_nil, List.length_singleton, Nat.add_zero, List.drop_succ_cons, List.drop_zero]
      have hp1 := hsub p (by simp) hp
      refine ⟨st2, deleteT T1 p.1, e1, e2, ?_, ?_, ?_, ?_, ?_, ?_⟩
      · intro x
        have := deleteT_count T1 p.1 x hT1.2 hp1
        simp only [List.count_cons, List.count_nil, beq_iff_eq]
        omega
      · have := deleteT_card T1 p.1 hT1.2 hp1
        omega
      · rw [e3, hszp, hsz, hs1, Function.update_noteq (by omega), Function.update_same]
      · rw [e3, hszp, hsz, hs1]
        have : e + p.2 - C.sizeofLong = c1 + (s1 + p.2) - C.sizeofLong := by omega
        rw [this, Function.update_same]
      · intro x hx
        rw [e3, hszp, hsz, hs1, Function.update_noteq (by omega), Function.update_noteq (by omega)]
      · exact hs0
    · have htag : st.size p.1 &&& MAGIC_MASK ≠ 0 := fun h => hp (hi.2 h)
      simp only [if_neg hp, List.map_nil, List.sum_nil, List.length_nil,
        List.count_nil, Nat.add_zero, List.drop_zero]
      refine ⟨st1, T1, dfreeNext_none C fuel st1 c1 (Or.inr (by rw [hnc, hszp]; exact htag)), hT1,
        fun _ => rfl, Nat.le_refl _, hs1, htr1, fun _ _ => rfl, ?_⟩
      exact ⟨hpe, ⟨d1, d2, d3, d4⟩, hs0⟩

end Dgd

namespace Dgd

/-! ## Theorems: `dfree` on a block -/

/-- The chunk before the one released: free and the last of `pre`, or not
there at all. -/
theorem freePrev_cases (T : Tree) (pre : List (Nat × Nat)) :
    (freePrev T pre = [] ∧ pre.rdrop (freePrev T pre).length = pre
        ∧ ∀ x ∈ pre.getLast?, x.1 ∉ T.nodes)
    ∨ (∃ q, freePrev T pre = [q] ∧ pre = pre.rdrop (freePrev T pre).length ++ [q]
        ∧ q.1 ∈ T.nodes) := by
  rcases List.eq_nil_or_concat pre with rfl | ⟨pre0, p, rfl⟩
  · left
    exact ⟨rfl, rfl, by simp⟩
  · rw [List.concat_eq_append, freePrev_concat]
    by_cases hp : p.1 ∈ T.nodes
    · right
      refine ⟨p, by rw [if_pos hp], ?_, hp⟩
      rw [if_pos hp, List.length_singleton, List.rdrop_concat_succ, List.rdrop_zero]
    · left
      refine ⟨by rw [if_neg hp], by rw [if_neg hp, List.length_nil, List.rdrop_zero], ?_⟩
      intro x hx
      have : x = p := by simpa using hx.symm
      rw [this]
      exact hp

/-- The chunk after the one released: free and the first of `post`, or not
there at all. -/
theorem freeNext_cases (T : Tree) (post : List (Nat × Nat)) :
    (freeNext T post = [] ∧ post.drop (freeNext T post).length = post
        ∧ ∀ x ∈ post.head?, x.1 ∉ T.nodes)
    ∨ (∃ q, freeNext T post = [q] ∧ post = q :: post.drop (freeNext T post).length
        ∧ q.1 ∈ T.nodes) := by
  cases post with
  | nil =>
    left
    exact ⟨rfl, rfl, by simp⟩
  | cons p post0 =>
    rw [freeNext_cons]
    by_cases hp : p.1 ∈ T.nodes
    · right
      refine ⟨p, by rw [if_pos hp], ?_, hp⟩
      rw [if_pos hp, List.length_singleton, List.drop_succ_cons, List.drop_zero]
    · left
      refine ⟨by rw [if_neg hp], by rw [if_neg hp, List.length_nil, List.drop_zero], ?_⟩
      intro x hx
      have : x = p := by simpa using hx.symm
      rw [this]
      exact hp

theorem noAdjacentFree_iff (free : Nat → Prop) (blk : List (Nat × Nat)) :
    NoAdjacentFree free blk
      ↔ List.Chain' (fun (p q : Nat × Nat) => ¬ (free p.1 ∧ free q.1)) blk := by
  induction blk with
  | nil => simp [NoAdjacentFree]
  | cons p rest ih =>
    cases rest with
    | nil => simp [NoAdjacentFree]
    | cons q rest =>
      rw [NoAdjacentFree, ih, List.chain'_cons]

/-- Chunks merged into one between two runs of chunks: when the chunks next
to the merged one are not free, no two chunks that follow each other are
free. -/
theorem noAdjacentFree_merge (free free' : Nat → Prop) (pre post : List (Nat × Nat))
    (m : Nat × Nat) (h1 : NoAdjacentFree free pre) (h2 : NoAdjacentFree free post)
    (hF : ∀ p ∈ pre ++ post, free' p.1 → free p.1)
    (hlast : ∀ x ∈ pre.getLast?, ¬ free x.1) (hhead : ∀ y ∈ post.head?, ¬ free y.1) :
    NoAdjacentFree free' (pre ++ m :: post) := by
  rw [noAdjacentFree_iff] at *
  have k1 : List.Chain' (fun (p q : Nat × Nat) => ¬ (free' p.1 ∧ free' q.1)) pre := by
    rw [List.Chain'.iff_mem] at h1 ⊢
    exact h1.imp (fun a b ⟨ha, hb, hr⟩ => ⟨ha, hb, fun hh => hr
      ⟨hF a (List.mem_append_left _ ha) hh.1, hF b (List.mem_append_left _ hb) hh.2⟩⟩)
  have k2 : List.Chain' (fun (p q : Nat × Nat) => ¬ (free' p.1 ∧ free' q.1)) post := by
    rw [List.Chain'.iff_mem] at h2 ⊢
    exact h2.imp (fun a b ⟨ha, hb, hr⟩ => ⟨ha, hb, fun hh => hr
      ⟨hF a (List.mem_append_right _ ha) hh.1, hF b (List.mem_append_right _ hb) hh.2⟩⟩)
  rw [List.chain'_append]
  refine ⟨k1, ?_, ?_⟩
  · rw [List.chain'_cons']
    refine ⟨fun y hy hh => hhead y hy (hF y (List.mem_append_right _ ?_) hh.2), k2⟩
    exact List.mem_of_mem_head? hy
  · intro x hx y hy hh
    exact hlast x hx (hF x (List.mem_append_left _ (List.mem_of_mem_getLast? hx)) hh.1)

/-- The chunks before the one released, without the free chunk merged:
no two that follow each other are free, and the last is not free. -/
theorem noAdjacentFree_prev (T : Tree) (pre rest : List (Nat × Nat))
    (hadj : NoAdjacentFree (fun x => x ∈ T.nodes) (pre ++ rest)) :
    NoAdjacentFree (fun x => x ∈ T.nodes) (pre.rdrop (freePrev T pre).length)
      ∧ ∀ x ∈ (pre.rdrop (freePrev T pre).length).getLast?, x.1 ∉ T.nodes := by
  have hpre : NoAdjacentFree (fun x => x ∈ T.nodes) pre :=
    (noAdjacentFree_iff _ _).2 (List.Chain'.left_of_append ((noAdjacentFree_iff _ _).1 hadj))
  rcases freePrev_cases T pre with ⟨_, e2, e3⟩ | ⟨q, _, e2, e3⟩
  · rw [e2]
    exact ⟨hpre, e3⟩
  · generalize pre.rdrop (freePrev T pre).length = pre0 at e2 ⊢
    subst e2
    rw [noAdjacentFree_iff, List.chain'_append] at hpre
    refine ⟨(noAdjacentFree_iff _ _).2 hpre.1,
      fun x hx hxT => hpre.2.2 x hx q (by simp) ⟨hxT, e3⟩⟩

/-- The chunks after the one released, without the free chunk merged: no
two that follow each other are free, and the first is not free. -/
theorem noAdjacentFree_next (T : Tree) (post : List (Nat × Nat))
    (hadj : NoAdjacentFree (fun x => x ∈ T.nodes) post) :
    NoAdjacentFree (fun x => x ∈ T.nodes) (post.drop (freeNext T post).length)
      ∧ ∀ x ∈ (post.drop (freeNext T post).length).head?, x.1 ∉ T.nodes := by
  rcases freeNext_cases T post with ⟨_, e2, e3⟩ | ⟨q, _, e2, e3⟩
  · rw [e2]
    exact ⟨hadj, e3⟩
  · generalize post.drop (freeNext T post).length = post0 at e2 ⊢
    subst e2
    rw [noAdjacentFree_iff, List.chain'_cons'] at hadj
    exact ⟨(noAdjacentFree_iff _ _).2 hadj.2, fun x hx hxT => hadj.1 x hx ⟨e3, hxT⟩⟩

end Dgd

namespace Dgd

/-! ## Theorems: `dfree` merges the free chunks next to the one released -/

theorem freePrev_sub (T : Tree) (pre : List (Nat × Nat)) (q : Nat × Nat)
    (hq : q ∈ freePrev T pre) : q ∈ pre ∧ q.1 ∈ T.nodes := by
  unfold freePrev at hq
  rw [List.mem_filter] at hq
  refine ⟨?_, by simpa using hq.2⟩
  have : q ∈ pre.getLast? := by simpa using hq.1
  exact List.mem_of_mem_getLast? this

theorem freeNext_sub (T : Tree) (post : List (Nat × Nat)) (q : Nat × Nat)
    (hq : q ∈ freeNext T post) : q ∈ post ∧ q.1 ∈ T.nodes := by
  unfold freeNext at hq
  rw [List.mem_filter] at hq
  refine ⟨?_, by simpa using hq.2⟩
  have : q ∈ post.head? := by simpa using hq.1
  exact List.mem_of_mem_head? this

/-- The function `dfree` on a large chunk `c` of a block, in a state in which
each chunk next to `c` is a node of the tree exactly when its header has no
magic tag. -/
theorem dfree_block (C : Config) (fuel : Nat) (st : Alloc) (T : Tree) (c a b : Nat)
    (pre post : List (Nat × Nat))
    (hSL : 0 < C.sizeofLong) (hinit : st.dchunksz ≠ 0) (hlarge : C.DLIMIT ≤ st.size c)
    (hT : IsTree st.toHeap T) (hcT : c ∉ T.nodes)
    (hblk : Block st.size C.sizeofLong a (pre ++ (c, st.size c) :: post) b)
    (hprev : ∀ p ∈ pre.getLast?, (p.1 ∈ T.nodes ↔ st.size p.1 &&& MAGIC_MASK = 0))
    (hnext : ∀ p ∈ post.head?, (p.1 ∈ T.nodes ↔ st.size p.1 &&& MAGIC_MASK = 0))
    (hfuel : T.card ≤ fuel) :
    ∃ st1 T1, dfree C fuel st c = .ok () st1 ∧ Coalesced C st st1 T T1 c a b pre post := by
  obtain ⟨ha, ha0, hseg, hb⟩ := hblk
  obtain ⟨m, hsegpre, hm, hc, hsegpost⟩ := (seg_append _ _ _ _ _ _).1 hseg
  have hm' : c = m := hm
  subst hm'
  have hsegpost' : Seg st.size C.sizeofLong (c + st.size c) post b := hsegpost
  clear hsegpost hm
  obtain ⟨st1, T1, p1, hT1, cnt1, card1, hs1, htr1, hfr1, hseg1, hcs, hac1⟩ :=
    dfree_phase1 C fuel st T c a pre hSL hT ha ha0 hsegpre hc hprev hfuel
  have hcl := hc.1
  have hprelt : ∀ q ∈ pre, q.1 < c := by
    intro q hq
    have := seg_mem _ _ _ _ _ hsegpre q hq
    have := this.2.2.1
    omega
  have hpostge : ∀ q ∈ post, c + st.size c ≤ q.1 := fun q hq =>
    (seg_mem _ _ _ _ _ hsegpost' q hq).1
  have hsub : ∀ p ∈ post.head?, p.1 ∈ T.nodes → p.1 ∈ T1.nodes := by
    intro p hp hpT
    have h0 : ((freePrev T pre).map Prod.fst).count p.1 = 0 := by
      rw [List.count_eq_zero, List.mem_map]
      rintro ⟨q, hq, e⟩
      have := hprelt q (freePrev_sub T pre q hq).1
      have := hpostge p (List.mem_of_mem_head? hp)
      omega
    have := cnt1 p.1
    have := List.count_pos_iff.2 hpT
    exact List.count_pos_iff.1 (by omega)
  obtain ⟨st2, T2, p2, hT2, cnt2, card2, hs2, htr2, hfr2, hseg2⟩ :=
    dfree_phase2 C fuel st st1 T T1 (mergedStart (freePrev T pre) c)
      (((freePrev T pre).map Prod.snd).sum + st.size c) (c + st.size c) b post hSL hT1 hs1
      (by omega) (by omega) htr1 (fun x hx => hfr1 x (Or.inr hx)) hsegpost' hb hnext hsub
      (by omega)
  have hcn : mergedStart (freePrev T pre) c ∉ T2.nodes := by
    apply List.count_eq_zero.1
    have k1 := cnt1 (mergedStart (freePrev T pre) c)
    have k2 := cnt2 (mergedStart (freePrev T pre) c)
    rcases freePrev_cases T pre with ⟨e1, _, _⟩ | ⟨q, e1, _, e3⟩
    · rw [e1] at k1 k2 ⊢
      have := List.count_eq_zero.2 hcT
      simp only [mergedStart] at k1 k2 ⊢
      omega
    · rw [e1] at k1 k2 ⊢
      have := List.nodup_iff_count_le_one.1 hT.2 q.1
      simp only [mergedStart, List.map_cons, List.map_nil, List.count_cons, List.count_nil,
        beq_self_eq_true, if_true] at k1 k2 ⊢
      omega
  have hc0 : mergedStart (freePrev T pre) c ≠ 0 := by omega
  obtain ⟨h1, hi, hT', hd', hsz', hperm⟩ := insert_correct fuel st2.toHeap T2
    (mergedStart (freePrev T pre) c) hT2 hc0 hcn (by omega)
  have heq : dfree C fuel st c = .ok () { st2 with toHeap := h1 } := by
    rw [dfree_large C fuel st st1 st2 c _ hinit hlarge p1 p2, hi]
    rfl
  have hle2 := seg_le _ _ _ _ _ hseg2
  have hfr : ∀ x, x < mergedStart (freePrev T pre) c
      ∨ c + st.size c + ((freeNext T post).map Prod.snd).sum ≤ x → h1.size x = st.size x := by
    intro x hx
    rw [hsz', hfr2 x hx, hfr1 x (by omega)]
  have htot : (((freePrev T pre) ++ (c, st.size c) :: (freeNext T post)).map Prod.snd).sum
      = ((freePrev T pre).map Prod.snd).sum + st.size c
        + ((freeNext T post).map Prod.snd).sum := by
    simp only [List.map_append, List.map_cons, List.sum_append, List.sum_cons]
    omega
  have hmem' : ∀ x, x ∈ (insertT st2.size (mergedStart (freePrev T pre) c) T2).nodes →
      x = mergedStart (freePrev T pre) c ∨ x ∈ T.nodes := by
    intro x hx
    rcases List.mem_cons.1 (hperm.mem_iff.1 hx) with e | hx2
    · exact Or.inl e
    · right
      have := List.count_pos_iff.2 hx2
      have := cnt1 x
      have := cnt2 x
      exact List.count_pos_iff.1 (by omega)
  refine ⟨{ st2 with toHeap := h1 }, insertT st2.size (mergedStart (freePrev T pre) c) T2,
    heq, ?_⟩
  unfold Coalesced
  simp only []
  rw [htot]
  refine ⟨hT', hd', ?_, ?_, ?_, ⟨ha, ?_, ?_, ?_⟩, ?_⟩
  · rw [List.perm_iff_count]
    intro x
    have := hperm.count_eq x
    have := cnt1 x
    have := cnt2 x
    simp only [List.count_cons, List.count_append, List.map_append, beq_iff_eq] at *
    omega
  · show h1.size _ = _
    rw [hsz', hs2]
  · show h1.size _ = _
    rw [hsz']
    have e : mergedStart (freePrev T pre) c + (((freePrev T pre).map Prod.snd).sum + st.size c
        + ((freeNext T post).map Prod.snd).sum) - C.sizeofLong
        = c + st.size c + ((freeNext T post).map Prod.snd).sum - C.sizeofLong := by omega
    rw [e, htr2]
  · show h1.size _ = _
    rw [hfr _ (by omega)]
    exact ha0
  · rw [seg_append]
    refine ⟨mergedStart (freePrev T pre) c, ?_, rfl, ⟨by omega, ?_, ?_, fun _ => ?_⟩, ?_⟩
    · exact seg_congr _ _ _ hSL _ _ _ hseg1 (fun x _ hx => hfr x (Or.inl hx))
    · show h1.size _ ≠ 0
      rw [hsz', hs2]
      omega
    · show h1.size _ = _
      rw [hsz']
      have e : mergedStart (freePrev T pre) c + (((freePrev T pre).map Prod.snd).sum + st.size c
          + ((freeNext T post).map Prod.snd).sum) - C.sizeofLong
          = c + st.size c + ((freeNext T post).map Prod.snd).sum - C.sizeofLong := by omega
      rw [e, htr2]
    · show h1.size _ = _
      rw [hsz', hs2]
    · have e : mergedStart (freePrev T pre) c + (((freePrev T pre).map Prod.snd).sum + st.size c
          + ((freeNext T post).map Prod.snd).sum)
          = c + st.size c + ((freeNext T post).map Prod.snd).sum := by omega
      show Seg _ _ (mergedStart (freePrev T pre) c + (((freePrev T pre).map Prod.snd).sum
        + st.size c + ((freeNext T post).map Prod.snd).sum)) _ _
      rw [e]
      exact seg_congr _ _ _ hSL _ _ _ hseg2 (fun x hx _ => hfr x (Or.inr hx))
  · show h1.size _ = _
    rw [hfr _ (Or.inr hle2)]
    exact hb
  · intro hadj
    have hpre := noAdjacentFree_prev T pre _ hadj
    have hpost := noAdjacentFree_next T post ((noAdjacentFree_iff _ _).2
      (List.Chain'.right_of_append ((noAdjacentFree_iff _ _).1 hadj)).tail)
    refine noAdjacentFree_merge _ _ _ _ _ hpre.1 hpost.1 ?_ hpre.2 hpost.2
    intro p hp hpT
    rcases hmem' p.1 hpT with e | hT0
    · exfalso
      rcases List.mem_append.1 hp with hp | hp
      · have := (seg_mem _ _ _ _ _ hseg1 p hp).2
        have := this.2.1
        omega
      · have := (seg_mem _ _ _ _ _ hseg2 p hp).1
        omega
    · exact hT0

end Dgd

namespace Dgd

/-! ## C8: `dfree` merges a large chunk with its free neighbours -/

/-- C8 (amended): on an initialised allocator, let `dfree` release a large
chunk `c` that stands in a block between the chunks `pre` and `post`, where
each chunk next to `c` is a node of the splay tree exactly when its header
has no bit of the magic mask set (the test by which `dfree` takes a neighbour
for free). With fuel for the nodes of the tree `dfree` returns, and then each
free chunk next to `c` has left the tree and is merged with `c`; the size of
the merged chunk is the sum of the sizes of the chunks merged and stands in
its first and in its last word; the merged chunk is the root of the tree; the
block holds it in the place of the chunks merged; and when no two chunks of
the block that follow each other were both free before, none are afterwards. -/
theorem dfree_coalesces (C : Config) (fuel : Nat) (st : Alloc) (T : Tree) (c a b : Nat)
    (pre post : List (Nat × Nat))
    (hSL : 0 < C.sizeofLong) (hinit : st.dchunksz ≠ 0) (hlarge : C.DLIMIT ≤ st.size c)
    (hT : IsTree st.toHeap T) (hcT : c ∉ T.nodes)
    (hblk : Block st.size C.sizeofLong a (pre ++ (c, st.size c) :: post) b)
    (hprev : ∀ p ∈ pre.getLast?, (p.1 ∈ T.nodes ↔ st.size p.1 &&& MAGIC_MASK = 0))
    (hnext : ∀ p ∈ post.head?, (p.1 ∈ T.nodes ↔ st.size p.1 &&& MAGIC_MASK = 0))
    (hfuel : T.card ≤ fuel) :
    ∃ st1 T1, dfree C fuel st c = .ok () st1 ∧ Coalesced C st st1 T T1 c a b pre post :=
  dfree_block C fuel st T c a b pre post hSL hinit hlarge hT hcT hblk hprev hnext hfuel

theorem dfree_coalesces_witness :
    mfree lp64 2 exDynamic 12312 = dfree lp64 2 exDfreeArg 12304
    ∧ IsTree exDfreeArg.toHeap (.node .nil 12428 .nil)
    ∧ Block exDfreeArg.size lp64.sizeofLong 12304
        ([] ++ (12304, exDfreeArg.size 12304) :: [(12428, 65388)]) 77816
    ∧ NoAdjacentFree (fun x => x ∈ (Tree.node .nil 12428 .nil).nodes)
        ([] ++ (12304, exDfreeArg.size 12304) :: [(12428, 65388)])
    ∧ ∃ st1 T1, dfree lp64 2 exDfreeArg 12304 = .ok () st1
      ∧ Coalesced lp64 exDfreeArg st1 (.node .nil 12428 .nil) T1 12304 12304 77816 []
          [(12428, 65388)] :=
  ⟨rfl, by decide, by decide, by decide,
    dfree_coalesces lp64 2 exDfreeArg (.node .nil 12428 .nil) 12304 12304 77816 []
      [(12428, 65388)] (by decide) (by decide) (by decide) (by decide) (by decide) (by decide)
      (by decide) (by decide) (by decide)⟩

/-- C8, as stated, fails where a free chunk has a size with a bit of the
magic mask set. After `minit(8192, 1 << 25)` and `alloc(100)` the block holds
the chunk at 12304 and the free chunk at 12428 of 33554284 bytes, which is
the one node of the tree; `mfree` of the block calls `dfree` for 12304, and
`dfree` leaves 12428 in the tree and the size of 12304 at 124: afterwards the
two chunks follow each other and are both in the tree. -/
theorem dfree_large_neighbour_kept :
    mfree lp64 2 exBigDynamic 12312 = dfree lp64 2 exBigDfreeArg 12304
    ∧ exBigDfreeArg.dchunksz ≠ 0 ∧ lp64.DLIMIT ≤ exBigDfreeArg.size 12304
    ∧ IsTree exBigDfreeArg.toHeap (.node .nil 12428 .nil)
    ∧ Block exBigDfreeArg.size lp64.sizeofLong 12304
        [(12304, exBigDfreeArg.size 12304), (12428, 33554284)] 33566712
    ∧ NoAdjacentFree (fun x => x ∈ (Tree.node .nil 12428 .nil).nodes)
        [(12304, exBigDfreeArg.size 12304), (12428, 33554284)]
    ∧ (∃ st1, dfree lp64 2 exBigDfreeArg 12304 = .ok () st1
        ∧ IsTree st1.toHeap (.node .nil 12304 (.node .nil 12428 .nil))
        ∧ st1.size 12304 = 124
        ∧ ¬ NoAdjacentFree (fun x => x ∈ (Tree.node .nil 12304 (.node .nil 12428 .nil)).nodes)
            [(12304, 124), (12428, 33554284)])
    ∧ ¬ ∃ st1 T1, dfree lp64 2 exBigDfreeArg 12304 = .ok () st1
        ∧ Coalesced lp64 exBigDfreeArg st1 (.node .nil 12428 .nil) T1 12304 12304 33566712 []
            [(12428, 33554284)] := by
  have hrun : dfree lp64 2 exBigDfreeArg 12304
      = .ok () ((dfree lp64 2 exBigDfreeArg 12304).state exBigInit) := rfl
  refine ⟨rfl, by decide, by decide, by decide, by decide, by decide,
    ⟨_, hrun, by decide, by decide, by decide⟩, ?_⟩
  rintro ⟨st1, T1, hd, hco⟩
  rw [hrun] at hd
  simp only [Res.ok.injEq, true_and] at hd
  subst hd
  unfold Coalesced at hco
  have hsize := hco.2.2.2.1
  revert hsize
  decide

end Dgd

namespace Dgd

/-! ## C6: `alloc` and `mfree` balance the dynamic usage -/

/-- What `alloc` does in dynamic mode: the chunk `c` of `dalloc`, of size
`v`, gets the magic tag and `v` is added to `dmemused`. -/
theorem alloc_dynamic (C : Config) (dummy fuel : Nat) (st st1 : Alloc) (n p : Nat)
    (hdyn : st.slevel ≤ 0) (hal : alloc C dummy fuel st n = .ok p st1) :
    ∃ c v, p = c + C.sizeofLong ∧ st1.size c = v ||| DM_MAGIC
      ∧ st1.dmemused = st.dmemused + v ∧ st1.smemsize = st.smemsize := by
  unfold alloc at hal
  simp only [gt_iff_lt, if_neg (Int.not_lt.2 hdyn)] at hal
  split at hal
  · rename_i c st' heq
    simp only [Res.ok.injEq] at hal
    obtain ⟨rfl, rfl⟩ := hal
    obtain ⟨k1, k2, _⟩ := dalloc_counters C dummy fuel st st' _ c heq
    refine ⟨c, st'.size c, rfl, ?_, ?_, ?_⟩
    · simp only [wr_size, Function.update_same]
    · simp only [wr_dmemused, k1]
    · simp only [wr_smemsize, k2]
  · simp at hal
  · simp at hal

/-- What `mfree` does with a block of the dynamic pool: the magic tag leaves
the header, the size of the chunk is subtracted from `dmemused`, and `dfree`
is called. -/
theorem mfree_dynamic (C : Config) (fuel : Nat) (st : Alloc) (c v : Nat)
    (hhdr : st.size c = v ||| DM_MAGIC) (hv : v < 2 ^ 24) :
    mfree C fuel st (c + C.sizeofLong)
      = dfree C fuel { st.wr c v with dmemused := st.dmemused - v } c := by
  have hs := stamp_dynamic _ hv
  have hne : DM_MAGIC ≠ SM_MAGIC := by decide
  unfold mfree
  simp only [Nat.add_sub_cancel, hhdr, hs.1, hs.2, hne, if_false, if_true, wr_size,
    Function.update_same]
  rfl

/-- C6: let `alloc(n)` in dynamic mode return the block `p` with the chunk
`c` of size `v`. Then `alloc` has added `v` to `dmemused`, and so to
`memused()`. When `v` is below `2^24`, `mfree(p)` subtracts the same `v`
before it calls `dfree`, which leaves the counters alone: `mfree` does not
call `fatal`, and every return of `mfree` is in a state with `dmemused` and
`memused()` as they were before the `alloc`. `mfree` does return: with any
fuel for a small chunk or an allocator that is not initialised, and with fuel
for the nodes of the tree for a large chunk of a block whose chunks next to
`c` are nodes of the tree exactly when their headers have no magic tag.
`mpurge()` sets `dmemused` to 0 in every state, whatever is allocated. -/
theorem alloc_mfree_balance (C : Config) (dummy fuel : Nat) (st st1 : Alloc) (n p : Nat)
    (hdyn : st.slevel ≤ 0) (hal : alloc C dummy fuel st n = .ok p st1) :
    (∃ c v, p = c + C.sizeofLong ∧ st1.size c = v ||| DM_MAGIC
      ∧ st1.dmemused = st.dmemused + v ∧ memused st1 = memused st + v
      ∧ (v < 2 ^ 24 →
          (∀ fuel1, mfree C fuel1 st1 p
              = dfree C fuel1 { st1.wr c v with dmemused := st1.dmemused - v } c)
          ∧ (∀ fuel1 st2, mfree C fuel1 st1 p = .ok () st2 →
              st2.dmemused = st.dmemused ∧ memused st2 = memused st)
          ∧ (∀ fuel1 msg st2, mfree C fuel1 st1 p ≠ .fatal msg st2)
          ∧ (st1.dchunksz = 0 ∨ v < C.DLIMIT →
              ∀ fuel1, ∃ st2, mfree C fuel1 st1 p = .ok () st2)
          ∧ (∀ (T : Tree) (a b : Nat) (pre post : List (Nat × Nat)) (fuel1 : Nat),
              0 < C.sizeofLong → st1.dchunksz ≠ 0 → C.DLIMIT ≤ v →
              IsTree st1.toHeap T → c ∉ T.nodes →
              Block (st1.wr c v).size C.sizeofLong a (pre ++ (c, v) :: post) b →
              (∀ q ∈ pre.getLast?,
                (q.1 ∈ T.nodes ↔ (st1.wr c v).size q.1 &&& MAGIC_MASK = 0)) →
              (∀ q ∈ post.head?,
                (q.1 ∈ T.nodes ↔ (st1.wr c v).size q.1 &&& MAGIC_MASK = 0)) →
              T.card ≤ fuel1 → ∃ st2, mfree C fuel1 st1 p = .ok () st2)))
    ∧ ∀ s : Alloc, (mpurge C s).dmemused = 0 ∧ memused (mpurge C s) = s.smemsize := by
  refine ⟨?_, fun s => ⟨rfl, by simp [memused, mpurge]⟩⟩
  obtain ⟨c, v, hp, hhdr, hused, hsmem⟩ := alloc_dynamic C dummy fuel st st1 n p hdyn hal
  refine ⟨c, v, hp, hhdr, hused, ?_, ?_⟩
  · simp only [memused, hused, hsmem]
    omega
  · intro hv
    have hmf := fun fuel1 => mfree_dynamic C fuel1 st1 c v hhdr hv
    rw [hp]
    refine ⟨hmf, ?_, ?_, ?_, ?_⟩
    · intro fuel1 st2 h2
      rw [hmf] at h2
      obtain ⟨d1, d2, _, _⟩ := dfree_counters C fuel1 _ st2 c h2
      have d1' : st2.dmemused = st1.dmemused - v := d1
      have d2' : st2.smemsize = st1.smemsize := d2
      refine ⟨by rw [d1', hused]; omega, ?_⟩
      simp only [memused, d1', d2', hused, hsmem]
      omega
    · intro fuel1 msg st2 h2
      rw [hmf] at h2
      exact dfree_not_fatal C fuel1 _ st2 c msg h2
    · intro hsmall fuel1
      rw [hmf]
      apply dfree_small_ok
      rcases hsmall with h0 | h0
      · exact Or.inl h0
      · right
        show (st1.wr c v).size c < C.DLIMIT
        rw [wr_size, Function.update_same]
        exact h0
    · intro T a b pre post fuel1 hSL hinit hlarge hT hcT hblk hprev hnext hfuel
      rw [hmf]
      have hsz : ({ st1.wr c v with dmemused := st1.dmemused - v } : Alloc).size c = v := by
        show (st1.wr c v).size c = v
        rw [wr_size, Function.update_same]
      obtain ⟨st2, T2, e1, _⟩ := dfree_block C fuel1
        { st1.wr c v with dmemused := st1.dmemused - v } T c a b pre post hSL hinit
        (by rw [hsz]; exact hlarge) (isTree_setSize _ _ _ _ hT) hcT (by rw [hsz]; exact hblk)
        hprev hnext hfuel
      exact ⟨st2, e1⟩

theorem alloc_mfree_balance_witness :
    exReady.slevel ≤ 0 ∧ alloc lp64 1 2 exReady 100 = .ok 12312 exDynamic
    ∧ mfree lp64 2 exDynamic 12312 = .ok () exDynamicFreed
    ∧ memused exDynamic = memused exReady + 124
    ∧ memused exDynamicFreed = memused exReady
    ∧ ((∃ c v, 12312 = c + lp64.sizeofLong ∧ exDynamic.size c = v ||| DM_MAGIC
      ∧ exDynamic.dmemused = exReady.dmemused + v ∧ memused exDynamic = memused exReady + v
      ∧ (v < 2 ^ 24 →
          (∀ fuel1, mfree lp64 fuel1 exDynamic 12312
              = dfree lp64 fuel1
                  { exDynamic.wr c v with dmemused := exDynamic.dmemused - v } c)
          ∧ (∀ fuel1 st2, mfree lp64 fuel1 exDynamic 12312 = .ok () st2 →
              st2.dmemused = exReady.dmemused ∧ memused st2 = memused exReady)
          ∧ (∀ fuel1 msg st2, mfree lp64 fuel1 exDynamic 12312 ≠ .fatal msg st2)
          ∧ (exDynamic.dchunksz = 0 ∨ v < lp64.DLIMIT →
              ∀ fuel1, ∃ st2, mfree lp64 fuel1 exDynamic 12312 = .ok () st2)
          ∧ (∀ (T : Tree) (a b : Nat) (pre post : List (Nat × Nat)) (fuel1 : Nat),
              0 < lp64.sizeofLong → exDynamic.dchunksz ≠ 0 → lp64.DLIMIT ≤ v →
              IsTree exDynamic.toHeap T → c ∉ T.nodes →
              Block (exDynamic.wr c v).size lp64.sizeofLong a (pre ++ (c, v) :: post) b →
              (∀ q ∈ pre.getLast?,
                (q.1 ∈ T.nodes ↔ (exDynamic.wr c v).size q.1 &&& MAGIC_MASK = 0)) →
              (∀ q ∈ post.head?,
                (q.1 ∈ T.nodes ↔ (exDynamic.wr c v).size q.1 &&& MAGIC_MASK = 0)) →
              T.card ≤ fuel1 → ∃ st2, mfree lp64 fuel1 exDynamic 12312 = .ok () st2)))
    ∧ ∀ s : Alloc, (mpurge lp64 s).dmemused = 0 ∧ memused (mpurge lp64 s) = s.smemsize) :=
  ⟨by decide, rfl, rfl, by decide, by decide,
    alloc_mfree_balance lp64 1 2 exReady exDynamic 100 12312 (by decide) rfl⟩

end Dgd

namespace Dgd

/-! ## Theorems: `lookup` with move to the front -/

/-- The frame rule for chains: a `next` map that agrees on the entries of a
chain holds the same chain. -/
theorem chain_congr (next next' : Nat → Nat) (es : List Nat) :
    ∀ (p : Nat), Chain next p es → (∀ x ∈ es, next' x = next x) → Chain next' p es := by
  induction es with
  | nil => intro p h _; exact h
  | cons a es ih =>
    intro p h hag
    obtain ⟨h1, h2, h3⟩ := h
    refine ⟨h1, h2, ?_⟩
    rw [hag a (List.mem_cons_self _ _)]
    exact ih _ h3 (fun x hx => hag x (List.mem_cons_of_mem _ hx))

/-- Taking the entry `x` out of a chain: the entry `y` before it is linked
to the entry after it. -/
theorem chain_skip (next : Nat → Nat) (x y : Nat) (suf : List Nat) :
    ∀ (pre : List Nat) (p : Nat), Chain next p (pre ++ y :: x :: suf) →
      (pre ++ y :: x :: suf).Nodup →
      Chain (Function.update next y (next x)) p (pre ++ y :: suf) := by
  intro pre
  induction pre with
  | nil =>
    intro p h hnd
    obtain ⟨h1, h2, h3, h4, h5⟩ := h
    have hy : y ∉ suf := by
      intro hm
      have := (List.nodup_cons.1 hnd).1
      exact this (List.mem_cons_of_mem _ hm)
    refine ⟨h1, h2, ?_⟩
    rw [Function.update_same]
    exact chain_congr next _ suf _ h5 (fun z hz => by
      rw [Function.update_noteq (fun e : z = y => hy (by rw [← e]; exact hz))])
  | cons a pre ih =>
    intro p h hnd
    obtain ⟨h1, h2, h3⟩ := h
    have hnd' := List.nodup_cons.1 hnd
    have hay : a ≠ y := by
      intro e
      exact hnd'.1 (by rw [e]; simp)
    refine ⟨h1, h2, ?_⟩
    rw [Function.update_noteq hay]
    exact ih _ h3 hnd'.2

/-- The slot that holds the entry after the entries `pre` of a chain that
hangs from the slot `e`. -/
theorem slotAt_length_append (e : Slot) (pre rest : List Nat) :
    slotAt e (pre ++ rest) pre.length
      = match pre.getLast? with
        | none => e
        | some y => .next y := by
  rcases List.eq_nil_or_concat pre with rfl | ⟨pre0, y, rfl⟩
  · rfl
  · rw [List.concat_eq_append]
    have e1 : (pre0 ++ [y]).getLast? = some y := by simp
    have e2 : (pre0 ++ [y]).length = pre0.length + 1 := by simp
    rw [e1, e2]
    simp only [slotAt, List.append_assoc, List.singleton_append]
    have e3 : (pre0 ++ y :: rest).getD pre0.length 0 = y := by
      induction pre0 with
      | nil => rfl
      | cons a pre0 ih => simpa using ih
    rw [e3]

/-- The part of a chain from one of its entries on is a chain. -/
theorem chain_at (next : Nat → Nat) (y : Nat) (rest : List Nat) :
    ∀ (pre : List Nat) (p : Nat), Chain next p (pre ++ y :: rest) →
      Chain next y (y :: rest) := by
  intro pre
  induction pre with
  | nil =>
    intro p h
    exact ⟨rfl, h.2.1, h.2.2⟩
  | cons a pre ih =>
    intro p h
    exact ih _ h.2.2

/-- The loop of `lookup` with `move` set: the first match `x`, behind the
entries `pre` that do not match, is moved to the first position unless it
is held by the head slot. -/
theorem lookupLoop_move (name : List Nat) (b x : Nat) (suf : List Nat) :
    ∀ (pre : List Nat) (fuel : Nat) (ht : HashtabImpl) (e : Slot),
      Chain ht.next (ht.deref e) (pre ++ x :: suf) → (pre ++ x :: suf).length < fuel →
      (∀ z ∈ pre, ht.nameMatches name z = false) → ht.nameMatches name x = true →
      (pre = [] → e ≠ .bucket b) →
      lookupLoop name true (.bucket b) fuel ht e
        = some (.bucket b, ht.moveFirst (.bucket b) (slotAt e (pre ++ x :: suf) pre.length)) := by
  intro pre
  induction pre with
  | nil =>
    intro fuel ht e hc hf _ hx he
    cases fuel with
    | zero => simp at hf
    | succ fuel =>
      obtain ⟨h1, h2, _⟩ := hc
      have hx' := hx
      unfold HashtabImpl.nameMatches at hx'
      have hne : (e != Slot.bucket b) = true := by simpa using he rfl
      simp only [lookupLoop, h1, h2, if_false, hx', if_true, Bool.true_and, hne]
      rfl
  | cons a pre ih =>
    intro fuel ht e hc hf hpre hx _
    cases fuel with
    | zero => simp at hf
    | succ fuel =>
      obtain ⟨h1, h2, h3⟩ := hc
      have ha := hpre a (List.mem_cons_self _ _)
      have ha' := ha
      unfold HashtabImpl.nameMatches at ha'
      have hstep : lookupLoop name true (.bucket b) (fuel + 1) ht e
          = lookupLoop name true (.bucket b) fuel ht (.next a) := by
        simp only [lookupLoop, h1, h2, if_false, ha']
        rfl
      rw [hstep, ih fuel ht (.next a) h3 (by simpa using hf)
        (fun z hz => hpre z (List.mem_cons_of_mem _ hz)) hx (fun _ => by simp)]
      rw [List.cons_append, List.length_cons, slotAt_cons_succ]

/-- The table after the match `x` behind `y` has been moved to the first
position of the chain of bucket `b`. -/
theorem moveFirst_chain (ht : HashtabImpl) (b x y : Nat) (pre suf : List Nat)
    (hc : Chain ht.next (ht.m_table b) (pre ++ y :: x :: suf)) :
    Chain (ht.moveFirst (.bucket b) (.next y)).next
        ((ht.moveFirst (.bucket b) (.next y)).m_table b) (x :: (pre ++ y :: suf))
      ∧ (∀ i, i ≠ b → (ht.moveFirst (.bucket b) (.next y)).m_table i = ht.m_table i)
      ∧ (∀ z, z ≠ x → z ≠ y → (ht.moveFirst (.bucket b) (.next y)).next z = ht.next z)
      ∧ (ht.moveFirst (.bucket b) (.next y)).name = ht.name
      ∧ (ht.moveFirst (.bucket b) (.next y)).m_size = ht.m_size
      ∧ (ht.moveFirst (.bucket b) (.next y)).m_maxlen = ht.m_maxlen
      ∧ (ht.moveFirst (.bucket b) (.next y)).m_mem = ht.m_mem := by
  have hnd := chain_nodup ht.next _ _ hc
  have hy := chain_at ht.next y (x :: suf) pre _ hc
  have hyx : ht.next y = x := hy.2.2.1
  have hx0 : x ≠ 0 := hy.2.2.2.1
  have hxy : x ≠ y := by
    intro e
    have := List.nodup_append.1 hnd
    have h2 := List.nodup_cons.1 this.2.1
    exact h2.1 (by rw [e]; simp)
  have hxn : x ∉ pre ++ y :: suf := by
    intro hm
    have hc := List.nodup_iff_count_le_one.1 hnd x
    have h1 := List.count_pos_iff.2 hm
    simp only [List.count_append, List.count_cons, beq_self_eq_true, if_true] at hc h1
    omega
  have hnext : (ht.moveFirst (.bucket b) (.next y)).next
      = Function.update (Function.update ht.next x (ht.m_table b)) y (ht.next x) := by
    simp only [HashtabImpl.moveFirst, HashtabImpl.store, HashtabImpl.deref, hyx]
  have htab : (ht.moveFirst (.bucket b) (.next y)).m_table
      = Function.update ht.m_table b x := by
    simp only [HashtabImpl.moveFirst, HashtabImpl.store, HashtabImpl.deref, hyx,
      Function.update_noteq (Ne.symm hxy)]
  refine ⟨?_, ?_, ?_, rfl, rfl, rfl, rfl⟩
  · rw [hnext, htab, Function.update_same]
    refine ⟨rfl, hx0, ?_⟩
    rw [Function.update_noteq hxy, Function.update_same]
    refine chain_congr _ _ _ _ (chain_skip ht.next x y suf pre _ hc hnd) (fun z hz => ?_)
    have hzx : z ≠ x := fun e => hxn (e ▸ hz)
    by_cases hzy : z = y
    · rw [hzy, Function.update_same, Function.update_same]
    · rw [Function.update_noteq hzy, Function.update_noteq hzy, Function.update_noteq hzx]
  · intro i hi
    rw [htab, Function.update_noteq hi]
  · intro z hzx hzy
    rw [hnext, Function.update_noteq hzy, Function.update_noteq hzx]

/-- The loop of `lookup` on a chain without a match ends at the empty slot
behind the chain and leaves the table as it is. -/
theorem lookupLoop_nomatch (name : List Nat) (move : Bool) (first : Slot) (es : List Nat) :
    ∀ (fuel : Nat) (ht : HashtabImpl) (e : Slot), Chain ht.next (ht.deref e) es →
      es.length < fuel → (∀ z ∈ es, ht.nameMatches name z = false) →
      lookupLoop name move first fuel ht e = some (slotAt e es es.length, ht) := by
  induction es with
  | nil =>
    intro fuel ht e hc hf _
    cases fuel with
    | zero => simp at hf
    | succ fuel =>
      have hc' : ht.deref e = 0 := hc
      simp [lookupLoop, hc', slotAt]
  | cons a es ih =>
    intro fuel ht e hc hf hno
    cases fuel with
    | zero => simp at hf
    | succ fuel =>
      obtain ⟨h1, h2, h3⟩ := hc
      have ha := hno a (List.mem_cons_self _ _)
      unfold HashtabImpl.nameMatches at ha
      have hstep : lookupLoop name move first (fuel + 1) ht e
          = lookupLoop name move first fuel ht (.next a) := by
        simp only [lookupLoop, h1, h2, if_false, ha]
        rfl
      rw [hstep, ih fuel ht (.next a) h3 (by simpa using hf)
        (fun z hz => hno z (List.mem_cons_of_mem _ hz)), slotAt_end_cons]

/-- The function `lookup` starts its loop at the head slot of the bucket of
the key. -/
theorem lookup_eq_loop (fuel : Nat) (ht : HashtabImpl) (name : List Nat) (move : Bool) :
    lookup fuel ht name move
      = lookupLoop name move (.bucket (ht.bucketOf name)) fuel ht
          (.bucket (ht.bucketOf name)) := by
  unfold lookup HashtabImpl.bucketOf
  cases ht.m_mem <;> rfl

/-- C11: let the chain of the bucket of the key be `es`. When the first
entry `x` that matches the key stands behind the entries `pre`, at least one,
`lookup(key, TRUE)` returns the head slot of the bucket, and the chain is
afterwards `x`, then `pre`, then the entries `suf` that stood after `x`: the
entries of before, each once; the heads of the other buckets, the links of the
entries outside the chain (so the chains of the other buckets), the names and
the parameters of the table are unchanged. When the first entry of the chain
matches, or no entry does, `lookup(key, TRUE)` returns what
`lookup(key, FALSE)` returns, the slot of the match or the empty slot behind
the chain, and leaves the table unchanged. -/
theorem lookup_move_to_front (ht : HashtabImpl) (name es : List Nat) (fuel : Nat)
    (hc : Chain ht.next (ht.m_table (ht.bucketOf name)) es) (hf : es.length < fuel) :
    (∀ pre x suf, es = pre ++ x :: suf → pre ≠ [] →
        (∀ z ∈ pre, ht.nameMatches name z = false) → ht.nameMatches name x = true →
        ∃ ht1, lookup fuel ht name true = some (.bucket (ht.bucketOf name), ht1)
          ∧ Chain ht1.next (ht1.m_table (ht.bucketOf name)) (x :: (pre ++ suf))
          ∧ (x :: (pre ++ suf)).Perm es
          ∧ (∀ i, i ≠ ht.bucketOf name → ht1.m_table i = ht.m_table i)
          ∧ (∀ z, z ∉ es → ht1.next z = ht.next z)
          ∧ ht1.name = ht.name ∧ ht1.m_size = ht.m_size ∧ ht1.m_maxlen = ht.m_maxlen
          ∧ ht1.m_mem = ht.m_mem
          ∧ (∀ i cs, i ≠ ht.bucketOf name → Chain ht.next (ht.m_table i) cs →
              (∀ z ∈ cs, z ∉ es) → Chain ht1.next (ht1.m_table i) cs))
    ∧ (((∃ x tl, es = x :: tl ∧ ht.nameMatches name x = true)
          ∨ (∀ z ∈ es, ht.nameMatches name z = false)) →
        lookup fuel ht name true = lookup fuel ht name false
        ∧ lookup fuel ht name true
            = some (slotAt (.bucket (ht.bucketOf name)) es
                (es.findIdx (ht.nameMatches name)), ht)) := by
  have hc' : Chain ht.next (ht.deref (.bucket (ht.bucketOf name))) es := hc
  constructor
  · intro pre x suf hes hpre hno hx
    subst hes
    obtain ⟨pre0, y, rfl⟩ : ∃ pre0 y, pre = pre0 ++ [y] := by
      rcases List.eq_nil_or_concat pre with h | ⟨pre0, y, h⟩
      · exact absurd h hpre
      · exact ⟨pre0, y, by rw [h, List.concat_eq_append]⟩
    have hrun := lookupLoop_move name (ht.bucketOf name) x suf (pre0 ++ [y]) fuel ht
      (.bucket (ht.bucketOf name)) hc' hf hno hx (fun h => absurd h hpre)
    rw [slotAt_length_append] at hrun
    have e1 : (pre0 ++ [y]).getLast? = some y := by simp
    rw [e1] at hrun
    have hc2 : Chain ht.next (ht.m_table (ht.bucketOf name)) (pre0 ++ y :: x :: suf) := by
      simpa using hc
    obtain ⟨m1, m2, m3, m4, m5, m6, m7⟩ := moveFirst_chain ht (ht.bucketOf name) x y pre0 suf hc2
    have hframe : ∀ z, z ∉ pre0 ++ [y] ++ x :: suf →
        (ht.moveFirst (.bucket (ht.bucketOf name)) (.next y)).next z = ht.next z := by
      intro z hz
      exact m3 z (fun e => hz (by rw [e]; simp)) (fun e => hz (by rw [e]; simp))
    refine ⟨_, by rw [lookup_eq_loop]; exact hrun, by simpa using m1, ?_, m2, hframe,
      m4, m5, m6, m7, ?_⟩
    · rw [List.perm_iff_count]
      intro a
      simp only [List.count_cons, List.count_append, List.count_nil]
      omega
    · intro i cs hi hcs hdis
      rw [m2 i hi]
      exact chain_congr _ _ _ _ hcs (fun z hz => hframe z (hdis z hz))
  · intro h
    have hfalse := lookupLoop_nomove name (.bucket (ht.bucketOf name)) es fuel ht
      (.bucket (ht.bucketOf name)) hc' hf
    rw [lookup_eq_loop, lookup_eq_loop, hfalse]
    refine ⟨?_, ?_⟩ <;>
    · rcases h with ⟨x, tl, rfl, hx⟩ | hno
      · cases fuel with
        | zero => simp at hf
        | succ fuel =>
          obtain ⟨h1, h2, _⟩ := hc'
          have hx' := hx
          unfold HashtabImpl.nameMatches at hx'
          simp [lookupLoop, h1, h2, hx', List.findIdx_cons, hx, slotAt]
      · rw [lookupLoop_nomatch name true _ es fuel ht _ hc' hf hno,
          List.findIdx_eq_length.2 (by simpa using hno)]

theorem lookup_move_to_front_witness :
    Chain exampleTable.next (exampleTable.m_table (exampleTable.bucketOf [3, 4])) [10, 20]
    ∧ exampleTable.nameMatches [3, 4] 10 = false ∧ exampleTable.nameMatches [3, 4] 20 = true
    ∧ ∃ ht1, lookup 3 exampleTable [3, 4] true
          = some (.bucket (exampleTable.bucketOf [3, 4]), ht1)
        ∧ Chain ht1.next (ht1.m_table (exampleTable.bucketOf [3, 4])) [20, 10] :=
  have hc : Chain exampleTable.next (exampleTable.m_table (exampleTable.bucketOf [3, 4]))
      [10, 20] := by decide
  have h := (lookup_move_to_front exampleTable [3, 4] [10, 20] 3 hc (by decide)).1
    [10] 20 [] rfl (by decide) (by decide) (by decide)
  match h with
  | ⟨ht1, h1, h2, _⟩ => ⟨hc, by decide, by decide, ht1, h1, h2⟩

end Dgd

namespace Dgd

/-! ## C12: the characters of a key that are significant -/

end Dgd

namespace Dgd

/-! ## C13: `i_push_value` -/

@[simp] theorem wrVal_mem (st : Interp) (p : Nat) (v : Value) :
    (st.wrVal p v).mem = Function.update st.mem p v := rfl
@[simp] theorem wrVal_frame (st : Interp) (p : Nat) (v : Value) :
    (st.wrVal p v).frame = st.frame := rfl
@[simp] theorem wrVal_strRef (st : Interp) (p : Nat) (v : Value) :
    (st.wrVal p v).strRef = st.strRef := rfl
@[simp] theorem wrVal_arrRef (st : Interp) (p : Nat) (v : Value) :
    (st.wrVal p v).arrRef = st.arrRef := rfl
@[simp] theorem wrVal_elt0 (st : Interp) (p : Nat) (v : Value) :
    (st.wrVal p v).elt0 = st.elt0 := rfl
@[simp] theorem wrVal_objCount (st : Interp) (p : Nat) (v : Value) :
    (st.wrVal p v).objCount = st.objCount := rfl
@[simp] theorem wrVal_stricttc (st : Interp) (p : Nat) (v : Value) :
    (st.wrVal p v).stricttc = st.stricttc := rfl
@[simp] theorem setSp_mem (st : Interp) (f p : Nat) : (st.setSp f p).mem = st.mem := rfl
@[simp] theorem setSp_strRef (st : Interp) (f p : Nat) : (st.setSp f p).strRef = st.strRef :=
  rfl
@[simp] theorem setSp_arrRef (st : Interp) (f p : Nat) : (st.setSp f p).arrRef = st.arrRef :=
  rfl
@[simp] theorem setSp_elt0 (st : Interp) (f p : Nat) : (st.setSp f p).elt0 = st.elt0 := rfl
@[simp] theorem setSp_objCount (st : Interp) (f p : Nat) :
    (st.setSp f p).objCount = st.objCount := rfl
@[simp] theorem setSp_stricttc (st : Interp) (f p : Nat) :
    (st.setSp f p).stricttc = st.stricttc := rfl
@[simp] theorem setSp_frame (st : Interp) (f p : Nat) :
    (st.setSp f p).frame = Function.update st.frame f { st.frame f with sp := p } := rfl
@[simp] theorem str_ref_mem (st : Interp) (s : Nat) : (str_ref st s).mem = st.mem := rfl
@[simp] theorem str_ref_frame (st : Interp) (s : Nat) : (str_ref st s).frame = st.frame := rfl
@[simp] theorem str_ref_arrRef (st : Interp) (s : Nat) : (str_ref st s).arrRef = st.arrRef :=
  rfl
@[simp] theorem str_ref_strRef (st : Interp) (s : Nat) :
    (str_ref st s).strRef = Function.update st.strRef s (st.strRef s + 1) := rfl
@[simp] theorem arr_ref_mem (st : Interp) (s : Nat) : (arr_ref st s).mem = st.mem := rfl
@[simp] theorem arr_ref_frame (st : Interp) (s : Nat) : (arr_ref st s).frame = st.frame := rfl
@[simp] theorem arr_ref_strRef (st : Interp) (s : Nat) : (arr_ref st s).strRef = st.strRef :=
  rfl
@[simp] theorem arr_ref_arrRef (st : Interp) (s : Nat) :
    (arr_ref st s).arrRef = Function.update st.arrRef s (st.arrRef s + 1) := rfl
@[simp] theorem str_del_mem (st : Interp) (s : Nat) : (str_del st s).mem = st.mem := rfl
@[simp] theorem str_del_frame (st : Interp) (s : Nat) : (str_del st s).frame = st.frame := rfl
@[simp] theorem str_del_arrRef (st : Interp) (s : Nat) : (str_del st s).arrRef = st.arrRef :=
  rfl
@[simp] theorem str_del_strRef (st : Interp) (s : Nat) :
    (str_del st s).strRef = Function.update st.strRef s (st.strRef s - 1) := rfl

/-- A fold of functions that change the reference counts only changes the
reference counts only. -/
theorem foldl_light {α : Type} (g : Interp → α → Interp)
    (hg : ∀ s x, ∃ sr ar, g s x = { s with strRef := sr, arrRef := ar }) :
    ∀ (l : List α) (st : Interp),
      ∃ sr ar, l.foldl g st = { st with strRef := sr, arrRef := ar } := by
  intro l
  induction l with
  | nil => intro st; exact ⟨st.strRef, st.arrRef, rfl⟩
  | cons x l ih =>
    intro st
    obtain ⟨sr, ar, h⟩ := hg st x
    rw [List.foldl_cons, h]
    obtain ⟨sr1, ar1, h1⟩ := ih { st with strRef := sr, arrRef := ar }
    exact ⟨sr1, ar1, h1⟩

theorem delValue_light (del : Interp → Nat → Interp)
    (hdel : ∀ s h, ∃ sr ar, del s h = { s with strRef := sr, arrRef := ar })
    (st : Interp) (v : Value) :
    ∃ sr ar, delValue del st v = { st with strRef := sr, arrRef := ar } := by
  unfold delValue
  split
  · exact ⟨_, st.arrRef, rfl⟩
  · exact hdel st v.u
  · exact hdel st v.u
  · exact hdel st v.u
  · exact ⟨st.strRef, st.arrRef, rfl⟩

/-- All that `arr_del` changes are reference counts. -/
theorem arr_delDepth_light : ∀ (d : Nat) (st : Interp) (a : Nat),
    ∃ sr ar, arr_delDepth d st a = { st with strRef := sr, arrRef := ar } := by
  intro d
  induction d with
  | zero => intro st a; exact ⟨st.strRef, _, rfl⟩
  | succ d ih =>
    intro st a
    unfold arr_delDepth
    dsimp only
    split
    · obtain ⟨sr, ar, h⟩ := foldl_light
        (fun s i => delValue (arr_delDepth d) s (s.elts a i))
        (fun s i => delValue_light _ ih s _)
        (List.range (st.arrSize a))
        { st with arrRef := Function.update st.arrRef a (st.arrRef a - 1) }
      exact ⟨sr, ar, h⟩
    · exact ⟨st.strRef, _, rfl⟩

theorem arr_del_light (st : Interp) (a : Nat) :
    ∃ sr ar, arr_del st a = { st with strRef := sr, arrRef := ar } :=
  arr_delDepth_light _ st a

/-- The function `i_del_value` is `delValue` with `arr_del`. -/
theorem i_del_value_eq (st : Interp) (v : Value) : i_del_value st v = delValue arr_del st v :=
  rfl

theorem i_del_value_light (st : Interp) (v : Value) :
    ∃ sr ar, i_del_value st v = { st with strRef := sr, arrRef := ar } :=
  delValue_light arr_del arr_del_light st v

/-- An array that keeps a reference, or had none, loses one reference and
nothing else happens. -/
theorem arr_delDepth_plain (d : Nat) (st : Interp) (a : Nat) (h : st.arrRef a ≠ 1) :
    arr_delDepth d st a
      = { st with arrRef := Function.update st.arrRef a (st.arrRef a - 1) } := by
  cases d with
  | zero => rfl
  | succ d =>
    unfold arr_delDepth
    dsimp only
    rw [if_neg]
    rw [Function.update_same]
    omega

theorem arr_del_plain (st : Interp) (a : Nat) (h : st.arrRef a ≠ 1) :
    arr_del st a = { st with arrRef := Function.update st.arrRef a (st.arrRef a - 1) } :=
  arr_delDepth_plain _ st a h

@[simp] theorem arr_del_mem (st : Interp) (s : Nat) : (arr_del st s).mem = st.mem := by
  obtain ⟨sr, ar, h⟩ := arr_del_light st s
  rw [h]
@[simp] theorem arr_del_frame (st : Interp) (s : Nat) : (arr_del st s).frame = st.frame := by
  obtain ⟨sr, ar, h⟩ := arr_del_light st s
  rw [h]
@[simp] theorem arr_del_stricttc (st : Interp) (a : Nat) :
    (arr_del st a).stricttc = st.stricttc := by
  obtain ⟨sr, ar, h⟩ := arr_del_light st a
  rw [h]
@[simp] theorem arr_del_stack0 (st : Interp) (a : Nat) :
    (arr_del st a).stack0 = st.stack0 := by
  obtain ⟨sr, ar, h⟩ := arr_del_light st a
  rw [h]
@[simp] theorem arr_del_rl (st : Interp) (a : Nat) :
    (arr_del st a).rl = st.rl := by
  obtain ⟨sr, ar, h⟩ := arr_del_light st a
  rw [h]
@[simp] theorem arr_del_elt0 (st : Interp) (a : Nat) :
    (arr_del st a).elt0 = st.elt0 := by
  obtain ⟨sr, ar, h⟩ := arr_del_light st a
  rw [h]
@[simp] theorem arr_del_objCount (st : Interp) (a : Nat) :
    (arr_del st a).objCount = st.objCount := by
  obtain ⟨sr, ar, h⟩ := arr_del_light st a
  rw [h]
@[simp] theorem arr_del_freed (st : Interp) (a : Nat) :
    (arr_del st a).freed = st.freed := by
  obtain ⟨sr, ar, h⟩ := arr_del_light st a
  rw [h]
@[simp] theorem arr_del_cframe (st : Interp) (a : Nat) :
    (arr_del st a).cframe = st.cframe := by
  obtain ⟨sr, ar, h⟩ := arr_del_light st a
  rw [h]
@[simp] theorem arr_del_elts (st : Interp) (a : Nat) :
    (arr_del st a).elts = st.elts := by
  obtain ⟨sr, ar, h⟩ := arr_del_light st a
  rw [h]
@[simp] theorem arr_del_arrSize (st : Interp) (a : Nat) :
    (arr_del st a).arrSize = st.arrSize := by
  obtain ⟨sr, ar, h⟩ := arr_del_light st a
  rw [h]
@[simp] theorem arr_del_argp (st : Interp) (a : Nat) :
    (arr_del st a).argp = st.argp := by
  obtain ⟨sr, ar, h⟩ := arr_del_light st a
  rw [h]
@[simp] theorem arr_del_strText (st : Interp) (a : Nat) :
    (arr_del st a).strText = st.strText := by
  obtain ⟨sr, ar, h⟩ := arr_del_light st a
  rw [h]
@[simp] theorem arr_del_nesting (st : Interp) (a : Nat) :
    (arr_del st a).nesting = st.nesting := by
  obtain ⟨sr, ar, h⟩ := arr_del_light st a
  rw [h]

/-- The state after `i_push_value`, field by field. -/
theorem i_push_value_fields (st : Interp) (f v : Nat) :
    (i_push_value st f v).frame = Function.update st.frame f
        { st.frame f with sp := (st.frame f).sp - 1 }
    ∧ (i_push_value st f v).mem = Function.update st.mem ((st.frame f).sp - 1)
        (if st.refersDestructed (st.mem v) then nil_value st.stricttc else st.mem v)
    ∧ (∀ s, (i_push_value st f v).strRef s = st.strRef s
        + (if ¬ st.refersDestructed (st.mem v) ∧ (st.mem v).refsStr s then 1 else 0))
    ∧ (∀ a, (i_push_value st f v).arrRef a = st.arrRef a
        + (if ¬ st.refersDestructed (st.mem v) ∧ (st.mem v).refsArr a then 1 else 0)) := by
  have hsp : ((st.setSp f ((st.frame f).sp - 1)).frame f).sp = (st.frame f).sp - 1 := by
    simp
  have hv : ((st.setSp f ((st.frame f).sp - 1)).wrVal ((st.frame f).sp - 1) (st.mem v)).mem v
      = st.mem v := by
    simp only [wrVal_mem, setSp_mem]
    by_cases e : v = (st.frame f).sp - 1
    · rw [e, Function.update_same]
    · rw [Function.update_noteq e]
  unfold i_push_value
  simp only [hsp, setSp_mem, hv, wrVal_frame]
  cases ht : (st.mem v).type
  case string =>
    simp only [Interp.refersDestructed, Value.refsStr, Value.refsArr, ht, reduceCtorEq,
      decide_False, decide_True, Bool.false_and, Bool.true_and, Bool.or_false, Bool.false_or,
      Bool.false_eq_true, if_false, not_false_eq_true, true_and, false_and, and_false,
      Int.add_zero, decide_eq_true_eq]
    refine ⟨rfl, rfl, fun s => ?_, fun a => rfl⟩
    show Function.update st.strRef (st.mem v).u (st.strRef (st.mem v).u + 1) s = _
    by_cases e : (st.mem v).u = s
    · rw [if_pos e, ← e, Function.update_same]
    · rw [if_neg e, Function.update_noteq (Ne.symm e)]
      omega
  case array =>
    simp only [Interp.refersDestructed, Value.refsStr, Value.refsArr, ht, reduceCtorEq,
      decide_False, decide_True, Bool.false_and, Bool.true_and, Bool.or_false, Bool.false_or,
      Bool.or_true, Bool.true_or,
      Bool.false_eq_true, if_false, not_false_eq_true, true_and, false_and, and_false,
      Int.add_zero, decide_eq_true_eq]
    refine ⟨rfl, rfl, fun s => rfl, fun a => ?_⟩
    show Function.update st.arrRef (st.mem v).u (st.arrRef (st.mem v).u + 1) a = _
    by_cases e : (st.mem v).u = a
    · rw [if_pos e, ← e, Function.update_same]
    · rw [if_neg e, Function.update_noteq (Ne.symm e)]
      omega
  case mapping =>
    simp only [Interp.refersDestructed, Value.refsStr, Value.refsArr, ht, reduceCtorEq,
      decide_False, decide_True, Bool.false_and, Bool.true_and, Bool.or_false, Bool.false_or,
      Bool.or_true, Bool.true_or,
      Bool.false_eq_true, if_false, not_false_eq_true, true_and, false_and, and_false,
      Int.add_zero, decide_eq_true_eq]
    refine ⟨rfl, rfl, fun s => rfl, fun a => ?_⟩
    show Function.update st.arrRef (st.mem v).u (st.arrRef (st.mem v).u + 1) a = _
    by_cases e : (st.mem v).u = a
    · rw [if_pos e, ← e, Function.update_same]
    · rw [if_neg e, Function.update_noteq (Ne.symm e)]
      omega
  case object =>
    have hd : st.refersDestructed (st.mem v) = DESTRUCTED st (st.mem v) := by
      simp [Interp.refersDestructed, ht]
    have hd1 : DESTRUCTED ((st.setSp f ((st.frame f).sp - 1)).wrVal ((st.frame f).sp - 1)
        (st.mem v)) (st.mem v) = DESTRUCTED st (st.mem v) := rfl
    simp only [hd, hd1, Value.refsStr, Value.refsArr, ht, reduceCtorEq, decide_False,
      Bool.false_and, Bool.false_or, Bool.false_eq_true, and_false, if_false, Int.add_zero]
    by_cases hdes : DESTRUCTED st (st.mem v) = true
    · simp only [hdes, if_true]
      refine ⟨rfl, ?_, fun s => rfl, fun a => rfl⟩
      simp only [wrVal_mem, setSp_mem, setSp_frame, Function.update_same, Function.update_idem,
        wrVal_stricttc, setSp_stricttc]
    · simp only [hdes, if_false]
      exact ⟨rfl, rfl, fun s => rfl, fun a => rfl⟩
  case lwobject =>
    have hd : st.refersDestructed (st.mem v)
        = (decide ((st.elt0 (st.mem v).u).type = .object)
            && DESTRUCTED st (st.elt0 (st.mem v).u)) := by
      simp [Interp.refersDestructed, ht]
    have hd1 : ∀ x, DESTRUCTED ((st.setSp f ((st.frame f).sp - 1)).wrVal ((st.frame f).sp - 1)
        (st.mem v)) x = DESTRUCTED st x := fun _ => rfl
    simp only [hd, hd1, wrVal_elt0, setSp_elt0, Value.refsStr, Value.refsArr, ht, reduceCtorEq,
      decide_False, decide_True, Bool.false_and, Bool.true_and, Bool.false_or, Bool.or_true,
      Bool.false_eq_true, and_false, if_false, Int.add_zero, decide_eq_true_eq]
    by_cases hdes : (decide ((st.elt0 (st.mem v).u).type = .object)
        && DESTRUCTED st (st.elt0 (st.mem v).u)) = true
    · simp only [hdes, if_true, not_true_eq_false, false_and, if_false, Int.add_zero]
      refine ⟨rfl, ?_, fun s => rfl, fun a => rfl⟩
      simp only [wrVal_mem, setSp_mem, setSp_frame, Function.update_same, Function.update_idem,
        wrVal_stricttc, setSp_stricttc]
    · simp only [hdes, if_false, not_false_eq_true, true_and, Bool.false_eq_true]
      refine ⟨rfl, rfl, fun s => rfl, fun a => ?_⟩
      show Function.update st.arrRef (st.mem v).u (st.arrRef (st.mem v).u + 1) a = _
      by_cases e : (st.mem v).u = a
      · rw [if_pos e, ← e, Function.update_same]
      · rw [if_neg e, Function.update_noteq (Ne.symm e)]
        omega
  all_goals
    simp only [Interp.refersDestructed, Value.refsStr, Value.refsArr, ht, reduceCtorEq,
      decide_False, Bool.false_and, Bool.or_false, Bool.false_or, Bool.false_eq_true,
      if_false, and_false, Int.add_zero]
    exact ⟨rfl, rfl, fun s => rfl, fun a => rfl⟩

/-- C13: for a frame with room for one push, `i_push_value(f, v)` lowers
`f->sp` by one slot and changes nothing else of the frame. When the value at
`v` is an Object of a destructed object, or an LWObject whose element 0 is one,
the new top slot holds `nil_value` and no reference count changes; otherwise
the new top slot holds a copy of the value, and the reference count of the
string of a String, or of the array of an Array, a Mapping or an LWObject, is
one higher, no other count changes. Every value but the new top slot is
unchanged: the other slots of the stack and, as it is not that slot, the
value at `v`. -/
theorem i_push_value_pushes (st : Interp) (f v : Nat)
    (hroom : (st.frame f).stack < (st.frame f).sp) :
    ((i_push_value st f v).frame f).sp + 1 = (st.frame f).sp
    ∧ (st.frame f).stack ≤ ((i_push_value st f v).frame f).sp
    ∧ (i_push_value st f v).frame f = { st.frame f with sp := (st.frame f).sp - 1 }
    ∧ (∀ g, g ≠ f → (i_push_value st f v).frame g = st.frame g)
    ∧ (st.refersDestructed (st.mem v) = true →
        (i_push_value st f v).mem ((st.frame f).sp - 1) = nil_value st.stricttc
        ∧ (i_push_value st f v).strRef = st.strRef
        ∧ (i_push_value st f v).arrRef = st.arrRef)
    ∧ (st.refersDestructed (st.mem v) = false →
        (i_push_value st f v).mem ((st.frame f).sp - 1) = st.mem v
        ∧ (∀ s, (i_push_value st f v).strRef s
            = st.strRef s + (if (st.mem v).refsStr s then 1 else 0))
        ∧ (∀ a, (i_push_value st f v).arrRef a
            = st.arrRef a + (if (st.mem v).refsArr a then 1 else 0)))
    ∧ (∀ a, a ≠ (st.frame f).sp - 1 → (i_push_value st f v).mem a = st.mem a)
    ∧ (v ≠ (st.frame f).sp - 1 → (i_push_value st f v).mem v = st.mem v) := by
  obtain ⟨h1, h2, h3, h4⟩ := i_push_value_fields st f v
  have hframe : (i_push_value st f v).frame f
      = { st.frame f with sp := (st.frame f).sp - 1 } := by
    rw [h1, Function.update_same]
  refine ⟨?_, ?_, hframe, ?_, ?_, ?_, ?_, ?_⟩
  · rw [hframe]
    show (st.frame f).sp - 1 + 1 = (st.frame f).sp
    omega
  · rw [hframe]
    show (st.frame f).stack ≤ (st.frame f).sp - 1
    omega
  · intro g hg
    rw [h1, Function.update_noteq hg]
  · intro hd
    refine ⟨?_, ?_, ?_⟩
    · rw [h2, Function.update_same, if_pos hd]
    · funext s
      rw [h3 s, hd]
      simp
    · funext a
      rw [h4 a, hd]
      simp
  · intro hd
    refine ⟨?_, ?_, ?_⟩
    · rw [h2, Function.update_same, hd]
      simp
    · intro s
      rw [h3 s, hd]
      simp
    · intro a
      rw [h4 a, hd]
      simp
  · intro a ha
    rw [h2, Function.update_noteq ha]
  · intro hv
    rw [h2, Function.update_noteq hv]

theorem i_push_value_pushes_witness :
    (exInterp.frame 1).stack < (exInterp.frame 1).sp
    ∧ ((i_push_value exInterp 1 200).frame 1).sp = 105
    ∧ (i_push_value exInterp 1 200).mem 105 = exInterp.mem 200
    ∧ (i_push_value exInterp 1 200).arrRef 7 = 2
    ∧ exInterp.refersDestructed (exInterp.mem 201) = true
    ∧ (i_push_value exInterp 1 201).mem 105 = nil_value true
    ∧ (i_push_value exInterp 1 201).arrRef = exInterp.arrRef :=
  have h := i_push_value_pushes exInterp 1 200 (by decide)
  have h1 := i_push_value_pushes exInterp 1 201 (by decide)
  ⟨by decide, by decide, (h.2.2.2.2.2.1 (by decide)).1, by decide, by decide,
    (h1.2.2.2.2.1 (by decide)).1, (h1.2.2.2.2.1 (by decide)).2.2⟩

end Dgd

namespace Dgd

/-! ## C14: `i_pop` -/

theorem update_dec (m : Nat → Int) (h x : Nat) :
    Function.update m h (m h - 1) x = m x - (if h = x then 1 else 0) := by
  by_cases e : h = x
  · rw [if_pos e, ← e, Function.update_same]
  · rw [if_neg e, Function.update_noteq (Ne.symm e)]
    omega

/-- The reference counts after `i_del_value` of a value that does not hold
the last reference to an array: one reference less to the string or to the
array the value holds. -/
theorem delValue_counts (del : Interp → Nat → Interp)
    (hplain : ∀ s h, s.arrRef h ≠ 1 →
      del s h = { s with arrRef := Function.update s.arrRef h (s.arrRef h - 1) })
    (st : Interp) (v : Value) (hv : ∀ a, v.refsArr a = true → st.arrRef a ≠ 1) :
    (∀ s, (delValue del st v).strRef s = st.strRef s - (if v.refsStr s then 1 else 0))
    ∧ (∀ a, (delValue del st v).arrRef a = st.arrRef a - (if v.refsArr a then 1 else 0)) := by
  unfold delValue
  cases ht : v.type
  case array =>
    rw [hplain st v.u (hv v.u (by simp [Value.refsArr, ht]))]
    simp [Value.refsStr, Value.refsArr, ht, update_dec]
  case mapping =>
    rw [hplain st v.u (hv v.u (by simp [Value.refsArr, ht]))]
    simp [Value.refsStr, Value.refsArr, ht, update_dec]
  case lwobject =>
    rw [hplain st v.u (hv v.u (by simp [Value.refsArr, ht]))]
    simp [Value.refsStr, Value.refsArr, ht, update_dec]
  all_goals simp [Value.refsStr, Value.refsArr, ht, update_dec]

/-- The reference counts after `i_del_value` of each value of a list, when
no array loses its last reference: each count is lowered by the number of
values that hold the string or the array. -/
theorem foldl_delValue_counts (del : Interp → Nat → Interp)
    (hplain : ∀ s h, s.arrRef h ≠ 1 →
      del s h = { s with arrRef := Function.update s.arrRef h (s.arrRef h - 1) }) :
    ∀ (vs : List Value) (st : Interp),
      (∀ a, ¬ (1 ≤ st.arrRef a ∧ st.arrRef a ≤ (vs.countP (Value.refsArr a) : Nat))) →
      (∀ s, (vs.foldl (delValue del) st).strRef s
          = st.strRef s - (vs.countP (Value.refsStr s) : Nat))
      ∧ (∀ a, (vs.foldl (delValue del) st).arrRef a
          = st.arrRef a - (vs.countP (Value.refsArr a) : Nat)) := by
  intro vs
  induction vs with
  | nil => intro st _; constructor <;> intro x <;> simp
  | cons v vs ih =>
    intro st hno
    have hv : ∀ a, v.refsArr a = true → st.arrRef a ≠ 1 := by
      intro a ha h1
      apply hno a
      rw [List.countP_cons, if_pos ha, h1]
      constructor
      · exact le_refl _
      · push_cast
        omega
    obtain ⟨d1, d2⟩ := delValue_counts del hplain st v hv
    have hno1 : ∀ a, ¬ (1 ≤ (delValue del st v).arrRef a
        ∧ (delValue del st v).arrRef a ≤ (vs.countP (Value.refsArr a) : Nat)) := by
      intro a
      have := hno a
      rw [d2 a]
      rw [List.countP_cons] at this
      split <;> rename_i hc <;> simp only [hc, if_true, if_false] at this <;>
        push_cast at this <;> omega
    obtain ⟨i1, i2⟩ := ih (delValue del st v) hno1
    rw [List.foldl_cons]
    constructor
    · intro s
      rw [i1 s, d1 s, List.countP_cons]
      split <;> push_cast <;> omega
    · intro a
      rw [i2 a, d2 a, List.countP_cons]
      split <;> push_cast <;> omega

theorem foldl_del_value_counts (vs : List Value) (st : Interp)
    (hno : ∀ a, ¬ (1 ≤ st.arrRef a ∧ st.arrRef a ≤ (vs.countP (Value.refsArr a) : Nat))) :
    (∀ s, (vs.foldl i_del_value st).strRef s
        = st.strRef s - (vs.countP (Value.refsStr s) : Nat))
    ∧ (∀ a, (vs.foldl i_del_value st).arrRef a
        = st.arrRef a - (vs.countP (Value.refsArr a) : Nat)) :=
  foldl_delValue_counts arr_del arr_del_plain vs st hno

theorem foldl_del_value_light (vs : List Value) (st : Interp) :
    ∃ sr ar, vs.foldl i_del_value st = { st with strRef := sr, arrRef := ar } :=
  foldl_light i_del_value i_del_value_light vs st

/-- The loop over the elements of an array that `arr_del` releases
dereferences the elements the array has. -/
theorem foldl_elts (del : Interp → Nat → Interp)
    (hdel : ∀ s h, ∃ sr ar, del s h = { s with strRef := sr, arrRef := ar })
    (st : Interp) (a : Nat) : ∀ (l : List Nat) (s : Interp), s.elts = st.elts →
      l.foldl (fun s i => delValue del s (s.elts a i)) s
        = (l.map fun i => st.elts a i).foldl (delValue del) s := by
  intro l
  induction l with
  | nil => intro s _; rfl
  | cons i l ih =>
    intro s hs
    rw [List.foldl_cons, List.map_cons, List.foldl_cons, hs]
    apply ih
    obtain ⟨sr, ar, h⟩ := delValue_light del hdel s (st.elts a i)
    rw [h]
    exact hs

/-- The call `arr_del(a)` for the last reference to the array `a`: the array
is left without a reference and its contents are released: each element is
dereferenced as by `i_del_value`. -/
theorem arr_del_last (st : Interp) (a : Nat) (h1 : st.arrRef a = 1) :
    arr_del st a
      = (contents st a).foldl (delValue (arr_delDepth st.nesting))
          { st with arrRef := Function.update st.arrRef a 0 } := by
  have e : arr_del st a = arr_delDepth (st.nesting + 1) st a := rfl
  rw [e]
  unfold arr_delDepth
  dsimp only
  rw [if_pos (by rw [Function.update_same, h1]; rfl), h1]
  exact foldl_elts (arr_delDepth st.nesting) (arr_delDepth_light _)
    { st with arrRef := Function.update st.arrRef a ((1 : Int) - 1) } a _ _ rfl

/-- The reference counts after `arr_del(a)` for the last reference to the
array `a`, when no array among its elements loses its last reference: `a`
is left without a reference, and each count is lowered by the number of
elements that hold the string or the array. -/
theorem arr_del_last_counts (st : Interp) (a : Nat) (h1 : st.arrRef a = 1)
    (hno : ∀ h, h ≠ a → ¬ (1 ≤ st.arrRef h
      ∧ st.arrRef h ≤ ((contents st a).countP (Value.refsArr h) : Nat))) :
    (∀ s, (arr_del st a).strRef s
        = st.strRef s - ((contents st a).countP (Value.refsStr s) : Nat))
    ∧ (∀ h, h ≠ a → (arr_del st a).arrRef h
        = st.arrRef h - ((contents st a).countP (Value.refsArr h) : Nat))
    ∧ (arr_del st a).arrRef a = 0 - ((contents st a).countP (Value.refsArr a) : Nat) := by
  rw [arr_del_last st a h1]
  obtain ⟨c1, c2⟩ := foldl_delValue_counts (arr_delDepth st.nesting)
    (fun s h => arr_delDepth_plain _ s h) (contents st a)
    { st with arrRef := Function.update st.arrRef a 0 } (by
      intro h
      show ¬ (1 ≤ Function.update st.arrRef a 0 h ∧ Function.update st.arrRef a 0 h ≤ _)
      by_cases e : h = a
      · subst e
        rw [Function.update_same]
        omega
      · rw [Function.update_noteq e]
        exact hno h e)
  refine ⟨c1, ?_, ?_⟩
  · intro h hh
    rw [c2 h]
    show Function.update st.arrRef a 0 h - _ = _
    rw [Function.update_noteq hh]
  · rw [c2 a]
    show Function.update st.arrRef a 0 a - _ = _
    rw [Function.update_same]

theorem popSlot_eq (st : Interp) (v : Nat) : popSlot st v = i_del_value st (st.mem v) := rfl

theorem popped_succ (st : Interp) (v n : Nat) :
    popped st v (n + 1) = st.mem v :: popped st (v + 1) n := by
  unfold popped
  rw [List.range_succ_eq_map, List.map_cons, List.map_map]
  congr 1
  apply List.map_congr_left
  intro i _
  show st.mem (v + (i + 1)) = st.mem (v + 1 + i)
  congr 1
  omega

theorem popped_congr (st st1 : Interp) (hm : st1.mem = st.mem) (v n : Nat) :
    popped st1 v n = popped st v n := by
  unfold popped
  rw [hm]

/-- The loop of `i_pop`: it ends `n` slots further, and it has dereferenced
each value it has passed, in their order, as `i_del_value` does. -/
theorem i_popLoop_fold : ∀ (n : Nat) (st : Interp) (v : Nat),
    (i_popLoop n st v).2 = v + n
    ∧ (i_popLoop n st v).1 = (popped st v n).foldl i_del_value st := by
  intro n
  induction n with
  | zero => intro st v; exact ⟨rfl, rfl⟩
  | succ n ih =>
    intro st v
    obtain ⟨i1, i2⟩ := ih (popSlot st v) (v + 1)
    have hm : (popSlot st v).mem = st.mem := by
      rw [popSlot_eq]
      obtain ⟨sr, ar, h⟩ := i_del_value_light st (st.mem v)
      rw [h]
    constructor
    · show (i_popLoop n (popSlot st v) (v + 1)).2 = _
      rw [i1]
      omega
    · show (i_popLoop n (popSlot st v) (v + 1)).1 = _
      rw [i2, popped_congr st (popSlot st v) hm, popped_succ, List.foldl_cons, popSlot_eq]

/-- The function `i_pop` dereferences the values it pops and sets `f->sp`. -/
theorem i_pop_eq (st : Interp) (f : Nat) (n : Int) :
    i_pop st f n
      = ((popped st (st.frame f).sp n.toNat).foldl i_del_value st).setSp f
          ((st.frame f).sp + n.toNat) := by
  obtain ⟨i1, i2⟩ := i_popLoop_fold n.toNat st (st.frame f).sp
  unfold i_pop
  dsimp only
  rw [i1, i2]

/-- All that `i_pop` changes are `f->sp` and reference counts. -/
theorem i_pop_light (st : Interp) (f : Nat) (n : Int) :
    ∃ sr ar, i_pop st f n
      = { st with
          strRef := sr, arrRef := ar,
          frame := Function.update st.frame f
            { st.frame f with sp := (st.frame f).sp + n.toNat } } := by
  obtain ⟨sr, ar, h⟩ := foldl_del_value_light (popped st (st.frame f).sp n.toNat) st
  rw [i_pop_eq, h]
  exact ⟨sr, ar, rfl⟩

/-- The state after `i_pop`, field by field: the reference counts are those
after `i_del_value` of each popped value. -/
theorem i_pop_fields (st : Interp) (f : Nat) (n : Int) :
    (i_pop st f n).frame = Function.update st.frame f
        { st.frame f with sp := (st.frame f).sp + n.toNat }
    ∧ (i_pop st f n).mem = st.mem
    ∧ (i_pop st f n).strRef
        = ((popped st (st.frame f).sp n.toNat).foldl i_del_value st).strRef
    ∧ (i_pop st f n).arrRef
        = ((popped st (st.frame f).sp n.toNat).foldl i_del_value st).arrRef := by
  obtain ⟨sr, ar, h⟩ := i_pop_light st f n
  refine ⟨by rw [h], by rw [h], by rw [i_pop_eq]; rfl, by rw [i_pop_eq]; rfl⟩

/-- The reference counts after `i_pop`, when no array loses its last
reference: each count is lowered by the number of popped values that hold
the string or the array. -/
theorem i_pop_counts (st : Interp) (f : Nat) (n : Int)
    (hno : ∀ a, ¬ (1 ≤ st.arrRef a ∧ st.arrRef a
      ≤ ((popped st (st.frame f).sp n.toNat).countP (Value.refsArr a) : Nat))) :
    (∀ s, (i_pop st f n).strRef s = st.strRef s
        - ((popped st (st.frame f).sp n.toNat).countP (Value.refsStr s) : Nat))
    ∧ (∀ a, (i_pop st f n).arrRef a = st.arrRef a
        - ((popped st (st.frame f).sp n.toNat).countP (Value.refsArr a) : Nat)) := by
  obtain ⟨_, _, h3, h4⟩ := i_pop_fields st f n
  rw [h3, h4]
  exact foldl_del_value_counts _ st hno

theorem nil_value_refs (b : Bool) (h : Nat) :
    (nil_value b).refsStr h = false ∧ (nil_value b).refsArr h = false := by
  cases b <;> simp [nil_value, Value.refsStr, Value.refsArr]

/-- C14: `i_pop(f, n)` for `n ≥ 0` raises `f->sp` by `n` slots and changes
nothing else of the frame and no value, and it dereferences each of the `n`
popped values once, in their order from `f->sp` on, as `i_del_value` does:
`str_del` for a String slot, `arr_del` for an Array, Mapping or LWObject slot,
nothing for an Int, Float, Object or nil slot. When every array held by a
popped slot has more references than there are popped slots that hold it, the
reference count of each string is lowered by the number of String slots among
the `n` popped that hold it and the reference count of each array by the
number of Array, Mapping and LWObject slots among them that hold it, and no
other count changes. When `i_pop(f, 1)` pops the last reference to an array,
the array is left without a reference and its contents are released: each
count is lowered by the number of elements of the array that hold the string
or the array (stated for elements that are not themselves last references).
Hence `i_push_value(f, v)` followed by `i_pop(f, 1)`, for a frame with room
for one push and a value whose array, if it holds one, has a reference before
the push, leaves `f->sp` and every reference count as before the push. -/
theorem i_pop_pops (st : Interp) (f : Nat) (n : Int) (hn : 0 ≤ n) :
    (((i_pop st f n).frame f).sp : Int) = (st.frame f).sp + n
    ∧ (i_pop st f n).frame f = { st.frame f with sp := (st.frame f).sp + n.toNat }
    ∧ (∀ g, g ≠ f → (i_pop st f n).frame g = st.frame g)
    ∧ (i_pop st f n).mem = st.mem
    ∧ i_pop st f n
        = ((popped st (st.frame f).sp n.toNat).foldl i_del_value st).setSp f
            ((st.frame f).sp + n.toNat)
    ∧ ((∀ a, 0 < (popped st (st.frame f).sp n.toNat).countP (Value.refsArr a) →
          ((popped st (st.frame f).sp n.toNat).countP (Value.refsArr a) : Int) < st.arrRef a) →
        (∀ s, (i_pop st f n).strRef s = st.strRef s
          - ((popped st (st.frame f).sp n.toNat).countP (Value.refsStr s) : Nat))
        ∧ (∀ a, (i_pop st f n).arrRef a = st.arrRef a
          - ((popped st (st.frame f).sp n.toNat).countP (Value.refsArr a) : Nat)))
    ∧ (∀ a, (st.mem (st.frame f).sp).refsArr a = true → st.arrRef a = 1 →
        (∀ h, h ≠ a → 0 < (contents st a).countP (Value.refsArr h) →
          ((contents st a).countP (Value.refsArr h) : Int) < st.arrRef h) →
        (i_pop st f 1).arrRef a = 0 - ((contents st a).countP (Value.refsArr a) : Nat)
        ∧ (∀ s, (i_pop st f 1).strRef s
            = st.strRef s - ((contents st a).countP (Value.refsStr s) : Nat))
        ∧ (∀ h, h ≠ a → (i_pop st f 1).arrRef h
            = st.arrRef h - ((contents st a).countP (Value.refsArr h) : Nat)))
    ∧ (∀ v, (st.frame f).stack < (st.frame f).sp →
        (∀ a, (st.mem v).refsArr a = true → st.arrRef a ≠ 0) →
        ((i_pop (i_push_value st f v) f 1).frame f).sp = (st.frame f).sp
        ∧ (i_pop (i_push_value st f v) f 1).strRef = st.strRef
        ∧ (i_pop (i_push_value st f v) f 1).arrRef = st.arrRef) := by
  obtain ⟨h1, h2, _, _⟩ := i_pop_fields st f n
  have hframe : (i_pop st f n).frame f
      = { st.frame f with sp := (st.frame f).sp + n.toNat } := by
    rw [h1, Function.update_same]
  refine ⟨?_, hframe, ?_, h2, i_pop_eq st f n, ?_, ?_, ?_⟩
  · rw [hframe]
    show (((st.frame f).sp + n.toNat : Nat) : Int) = _
    push_cast
    rw [Int.toNat_of_nonneg hn]
  · intro g hg
    rw [h1, Function.update_noteq hg]
  · intro hmore
    apply i_pop_counts
    intro a h
    have := hmore a (by omega)
    omega
  · intro a ha ha1 hmore
    have e1 : (1 : Int).toNat = 1 := rfl
    have hpop : popped st (st.frame f).sp 1 = [st.mem (st.frame f).sp] := rfl
    have hdel : i_del_value st (st.mem (st.frame f).sp) = arr_del st a := by
      have hu : (st.mem (st.frame f).sp).u = a := by
        simp only [Value.refsArr, Bool.and_eq_true, decide_eq_true_eq] at ha
        exact ha.2
      have ht : (st.mem (st.frame f).sp).type = .array ∨ (st.mem (st.frame f).sp).type = .mapping
          ∨ (st.mem (st.frame f).sp).type = .lwobject := by
        simp only [Value.refsArr, Bool.and_eq_true, Bool.or_eq_true, decide_eq_true_eq] at ha
        tauto
      unfold i_del_value
      rcases ht with ht | ht | ht <;> simp only [ht, hu]
    obtain ⟨_, _, p3, p4⟩ := i_pop_fields st f 1
    rw [p3, p4, e1, hpop, List.foldl_cons, List.foldl_nil, hdel]
    obtain ⟨c1, c2, c3⟩ := arr_del_last_counts st a ha1 (by
      intro h hh hc
      have := hmore h hh (by omega)
      omega)
    exact ⟨c3, c1, c2⟩
  · intro v hroom hheld
    obtain ⟨q1, q2, q3, q4⟩ := i_push_value_fields st f v
    have hsp : ((i_push_value st f v).frame f).sp = (st.frame f).sp - 1 := by
      rw [q1, Function.update_same]
    have htop : popped (i_push_value st f v) ((st.frame f).sp - 1) 1
        = [if st.refersDestructed (st.mem v) then nil_value st.stricttc else st.mem v] := by
      unfold popped
      rw [q2]
      show [Function.update st.mem ((st.frame f).sp - 1) _ ((st.frame f).sp - 1 + 0)] = _
      rw [Nat.add_zero, Function.update_same]
    have e1 : (1 : Int).toNat = 1 := rfl
    obtain ⟨r1, _, _, _⟩ := i_pop_fields (i_push_value st f v) f 1
    obtain ⟨r3, r4⟩ := i_pop_counts (i_push_value st f v) f 1 (by
      intro a
      rw [hsp, e1, htop, q4 a]
      by_cases hd : st.refersDestructed (st.mem v) = true
      · simp [hd, (nil_value_refs st.stricttc a).2]
        omega
      · simp only [hd, Bool.false_eq_true, if_false, not_false_eq_true, true_and,
          List.countP_cons, List.countP_nil]
        by_cases hr : (st.mem v).refsArr a = true
        · have := hheld a hr
          simp only [hr, if_true]
          push_cast
          omega
        · simp only [hr, Bool.false_eq_true, if_false]
          push_cast
          omega)
    rw [hsp, e1, htop] at r3 r4
    refine ⟨?_, ?_, ?_⟩
    · rw [r1, Function.update_same, hsp, e1]
      show (st.frame f).sp - 1 + 1 = (st.frame f).sp
      omega
    · funext s
      rw [r3 s, q3 s]
      by_cases hd : st.refersDestructed (st.mem v) = true
      · simp [hd, (nil_value_refs st.stricttc s).1]
      · simp only [hd, Bool.false_eq_true, if_false, not_false_eq_true, true_and,
          List.countP_cons, List.countP_nil]
        split <;> simp
    · funext a
      rw [r4 a, q4 a]
      by_cases hd : st.refersDestructed (st.mem v) = true
      · simp [hd, (nil_value_refs st.stricttc a).2]
      · simp only [hd, Bool.false_eq_true, if_false, not_false_eq_true, true_and,
          List.countP_cons, List.countP_nil]
        split <;> simp

theorem i_pop_pops_witness :
    (0 : Int) ≤ 2
    ∧ ((i_pop exInterp 1 2).frame 1).sp = 108
    ∧ (i_pop exInterp 1 2).strRef 5 = 0
    ∧ (i_pop exInterp 1 2).arrRef = exInterp.arrRef
    ∧ ((i_pop (i_push_value exInterp 1 200) 1 1).frame 1).sp = (exInterp.frame 1).sp
    ∧ (i_pop (i_push_value exInterp 1 200) 1 1).arrRef = exInterp.arrRef
    ∧ exNested.mem 106 = { type := .array, modified := false, oindex := 0, u := 7 }
    ∧ exNested.arrRef 7 = 1 ∧ exNested.arrRef 8 = 1
    ∧ exNested.strRef 5 = 1 ∧ exNested.strRef 6 = 1
    ∧ ((i_pop exNested 1 1).frame 1).sp = 107
    ∧ (i_pop exNested 1 1).arrRef 7 = 0 ∧ (i_pop exNested 1 1).strRef 5 = 0
    ∧ (i_pop exNested 1 1).arrRef 8 = 0 ∧ (i_pop exNested 1 1).strRef 6 = 0 :=
  have h := i_pop_pops exInterp 1 2 (by decide)
  have hp := h.2.2.2.2.2.2.2 200 (by decide) (fun _ _ => show (1 : Int) ≠ 0 by decide)
  have hz : ∀ a, (popped exInterp (exInterp.frame 1).sp (2 : Int).toNat).countP
      (Value.refsArr a) = 0 := fun a => by
    simp [popped, exInterp, Value.refsArr, List.range_succ]
  have hc := h.2.2.2.2.2.1 (fun a ha => by rw [hz a] at ha; omega)
  ⟨by decide, by decide, by decide, by
    funext a
    rw [hc.2 a, hz a]
    simp, hp.1, hp.2.2, rfl, rfl, rfl, rfl, rfl, by decide, by decide, by decide, by decide,
    by decide⟩

end Dgd

namespace Dgd

/-! ## `i_grow_stack` -/

@[simp] theorem setFrame_frame (st : Interp) (f : Nat) (fr : Frame) :
    (st.setFrame f fr).frame = Function.update st.frame f fr := rfl
@[simp] theorem setFrame_mem (st : Interp) (f : Nat) (fr : Frame) :
    (st.setFrame f fr).mem = st.mem := rfl
@[simp] theorem setFrame_freed (st : Interp) (f : Nat) (fr : Frame) :
    (st.setFrame f fr).freed = st.freed := rfl
@[simp] theorem setFrame_stack0 (st : Interp) (f : Nat) (fr : Frame) :
    (st.setFrame f fr).stack0 = st.stack0 := rfl
@[simp] theorem setFrame_rl (st : Interp) (f : Nat) (fr : Frame) :
    (st.setFrame f fr).rl = st.rl := rfl
@[simp] theorem setSp_freed (st : Interp) (f p : Nat) : (st.setSp f p).freed = st.freed := rfl
@[simp] theorem setSp_stack0 (st : Interp) (f p : Nat) : (st.setSp f p).stack0 = st.stack0 := rfl
@[simp] theorem free_frame (st : Interp) (p : Nat) : (st.free p).frame = st.frame := rfl
@[simp] theorem free_mem (st : Interp) (p : Nat) : (st.free p).mem = st.mem := rfl
@[simp] theorem free_freed (st : Interp) (p : Nat) : (st.free p).freed = p :: st.freed := rfl
@[simp] theorem free_stack0 (st : Interp) (p : Nat) : (st.free p).stack0 = st.stack0 := rfl
@[simp] theorem free_rl (st : Interp) (p : Nat) : (st.free p).rl = st.rl := rfl

theorem copyVals_zero (mem : Nat → Value) (dst src : Nat) : copyVals mem dst src 0 = mem := by
  funext a
  unfold copyVals
  rw [if_neg]
  omega

theorem ALGN_eight (x : Nat) : 8 ∣ ALGN x 8 ∧ x ≤ ALGN x 8 ∧ ALGN x 8 < x + 8 := by
  unfold ALGN
  refine ⟨Dvd.intro_left _ rfl, ?_, ?_⟩ <;> omega

/-- The frame, the values and the released buffers after `i_grow_stack` has
replaced the stack. -/
theorem i_grow_stack_grown (MIN_STACK stk : Nat) (st : Interp) (f : Nat) (size : Int)
    (h : ((st.frame f).sp : Int) < (st.frame f).stack + size + MIN_STACK) :
    (i_grow_stack MIN_STACK stk st f size).frame f
      = { st.frame f with
          sp := stk + ALGN (((st.frame f).fp : Int) - (st.frame f).sp + size + MIN_STACK).toNat 8
            - (((st.frame f).fp : Int) - (st.frame f).sp).toNat
          sos := false
          stack := stk
          fp := stk
            + ALGN (((st.frame f).fp : Int) - (st.frame f).sp + size + MIN_STACK).toNat 8 }
    ∧ (∀ g, g ≠ f → (i_grow_stack MIN_STACK stk st f size).frame g = st.frame g)
    ∧ (i_grow_stack MIN_STACK stk st f size).mem
      = copyVals st.mem
          (stk + ALGN (((st.frame f).fp : Int) - (st.frame f).sp + size + MIN_STACK).toNat 8
            - (((st.frame f).fp : Int) - (st.frame f).sp).toNat)
          (st.frame f).sp (((st.frame f).fp : Int) - (st.frame f).sp).toNat
    ∧ (i_grow_stack MIN_STACK stk st f size).freed
      = if (st.frame f).sos = true ∨ (st.frame f).stack ≠ st.stack0
        then (st.frame f).stack :: st.freed else st.freed := by
  unfold i_grow_stack
  rw [if_pos h]
  have hg : ∀ (fr : Frame) (g : Nat), ¬ g = f → Function.update st.frame f fr g = st.frame g :=
    fun fr g hg => Function.update_noteq hg _ _
  by_cases hk : ((st.frame f).fp : Int) - (st.frame f).sp = 0
  · have hk0 : (((st.frame f).fp : Int) - (st.frame f).sp).toNat = 0 := by rw [hk]; rfl
    by_cases hs : (st.frame f).sos = true
    · simp [hk, hs, copyVals_zero]
      exact hg _
    · by_cases h0 : (st.frame f).stack = st.stack0
      · simp [hk, hs, h0, copyVals_zero]
        exact hg _
      · simp [hk, hs, h0, copyVals_zero]
        exact hg _
  · by_cases hs : (st.frame f).sos = true
    · simp [hk, hs]
      exact hg _
    · by_cases h0 : (st.frame f).stack = st.stack0
      · simp [hk, hs, h0]
        exact hg _
      · simp [hk, hs, h0]
        exact hg _

/-- C15: for a frame with `stack ≤ sp ≤ fp` and every `size` (`size ≥ 0` is
not needed), after `i_grow_stack(f, size)` the frame has `sp ≥ stack + size + MIN_STACK` and
still `stack ≤ sp ≤ fp`; the number `fp - sp` of live values is unchanged and
the i-th value above `sp` is the one that was there before. If there was
room already, nothing changes at all. Otherwise the frame's stack is the new
buffer `stk`, whose length `fp - stack` is `spsize + size + MIN_STACK` rounded
up to a multiple of 8, its `sos` flag is false, its other fields and the other
frames are as before, and the old buffer is released when it was `sos` or was
not the static stack. -/
theorem i_grow_stack_room (MIN_STACK stk : Nat) (st : Interp) (f : Nat) (size : Int)
    (hinv : (st.frame f).stack ≤ (st.frame f).sp ∧ (st.frame f).sp ≤ (st.frame f).fp) :
    (((i_grow_stack MIN_STACK stk st f size).frame f).stack : Int) + size + MIN_STACK
      ≤ ((i_grow_stack MIN_STACK stk st f size).frame f).sp
    ∧ ((i_grow_stack MIN_STACK stk st f size).frame f).stack
      ≤ ((i_grow_stack MIN_STACK stk st f size).frame f).sp
    ∧ ((i_grow_stack MIN_STACK stk st f size).frame f).sp
      ≤ ((i_grow_stack MIN_STACK stk st f size).frame f).fp
    ∧ ((i_grow_stack MIN_STACK stk st f size).frame f).fp
        - ((i_grow_stack MIN_STACK stk st f size).frame f).sp
      = (st.frame f).fp - (st.frame f).sp
    ∧ (∀ i, i < (st.frame f).fp - (st.frame f).sp →
        (i_grow_stack MIN_STACK stk st f size).mem
            (((i_grow_stack MIN_STACK stk st f size).frame f).sp + i)
          = st.mem ((st.frame f).sp + i))
    ∧ (¬ ((st.frame f).sp : Int) < (st.frame f).stack + size + MIN_STACK →
        i_grow_stack MIN_STACK stk st f size = st)
    ∧ (((st.frame f).sp : Int) < (st.frame f).stack + size + MIN_STACK →
        ((i_grow_stack MIN_STACK stk st f size).frame f).stack = stk
        ∧ (8 : Int) ∣ ((i_grow_stack MIN_STACK stk st f size).frame f).fp - stk
        ∧ (((st.frame f).fp : Int) - (st.frame f).sp) + size + MIN_STACK
          ≤ (((i_grow_stack MIN_STACK stk st f size).frame f).fp : Int) - stk
        ∧ (((i_grow_stack MIN_STACK stk st f size).frame f).fp : Int) - stk
          < (((st.frame f).fp : Int) - (st.frame f).sp) + size + MIN_STACK + 8
        ∧ ((i_grow_stack MIN_STACK stk st f size).frame f).sos = false
        ∧ { (i_grow_stack MIN_STACK stk st f size).frame f with
            sp := (st.frame f).sp, fp := (st.frame f).fp, stack := (st.frame f).stack,
            sos := (st.frame f).sos } = st.frame f
        ∧ (∀ g, g ≠ f → (i_grow_stack MIN_STACK stk st f size).frame g = st.frame g)
        ∧ (i_grow_stack MIN_STACK stk st f size).freed
          = if (st.frame f).sos = true ∨ (st.frame f).stack ≠ st.stack0
            then (st.frame f).stack :: st.freed else st.freed) := by
  by_cases h : ((st.frame f).sp : Int) < (st.frame f).stack + size + MIN_STACK
  · obtain ⟨h1, h2, h3, h4⟩ := i_grow_stack_grown MIN_STACK stk st f size h
    obtain ⟨a1, a2, a3⟩ :=
      ALGN_eight (((st.frame f).fp : Int) - (st.frame f).sp + size + MIN_STACK).toNat
    have hk : ((((st.frame f).fp : Int) - (st.frame f).sp).toNat : Int)
        = ((st.frame f).fp : Int) - (st.frame f).sp := Int.toNat_of_nonneg (by omega)
    have hk1 : (((st.frame f).fp : Int) - (st.frame f).sp).toNat
        = (st.frame f).fp - (st.frame f).sp := by omega
    have ht : ((((st.frame f).fp : Int) - (st.frame f).sp + size + MIN_STACK).toNat : Int)
        = ((st.frame f).fp : Int) - (st.frame f).sp + size + MIN_STACK :=
      Int.toNat_of_nonneg (by omega)
    generalize ALGN (((st.frame f).fp : Int) - (st.frame f).sp + size + MIN_STACK).toNat 8 = N
      at h1 h3 a1 a2 a3
    rw [hk1] at h1 h3
    have e1 : ((i_grow_stack MIN_STACK stk st f size).frame f).sp
        = stk + N - ((st.frame f).fp - (st.frame f).sp) := by rw [h1]
    have e2 : ((i_grow_stack MIN_STACK stk st f size).frame f).stack = stk := by rw [h1]
    have e3 : ((i_grow_stack MIN_STACK stk st f size).frame f).fp = stk + N := by rw [h1]
    have e4 : ((i_grow_stack MIN_STACK stk st f size).frame f).sos = false := by rw [h1]
    have a1i : (8 : Int) ∣ (N : Int) := Int.natCast_dvd_natCast.mpr a1
    refine ⟨?_, ?_, ?_, ?_, ?_, fun hn => absurd h hn, fun _ => ⟨e2, ?_, ?_, ?_, e4, ?_, h2, h4⟩⟩
    · rw [e1, e2]; omega
    · rw [e1, e2]; omega
    · rw [e1, e3]; omega
    · rw [e1, e3]; omega
    · intro i hi
      rw [e1, h3]
      unfold copyVals
      rw [if_pos (by omega)]
      congr 1
      omega
    · rw [e3]
      have : ((stk + N : Nat) : Int) - stk = N := by omega
      rw [this]
      exact a1i
    · rw [e3]; omega
    · rw [e3]; omega
    · rw [h1]
  · have e : i_grow_stack MIN_STACK stk st f size = st := by
      unfold i_grow_stack
      rw [if_neg h]
    rw [e]
    refine ⟨by omega, hinv.1, hinv.2, rfl, fun _ _ => rfl, fun _ => rfl, fun hn => absurd hn h⟩

theorem i_grow_stack_room_witness :
    ((exInterp.frame 1).stack ≤ (exInterp.frame 1).sp
      ∧ (exInterp.frame 1).sp ≤ (exInterp.frame 1).fp)
    ∧ ((i_grow_stack 8 1000 exInterp 1 3).frame 1).stack = 1000
    ∧ ((i_grow_stack 8 1000 exInterp 1 3).frame 1).sp = 1014
    ∧ ((i_grow_stack 8 1000 exInterp 1 3).frame 1).fp = 1016
    ∧ (i_grow_stack 8 1000 exInterp 1 3).mem 1014 = exInterp.mem 106
    ∧ (i_grow_stack 8 1000 exInterp 1 3).mem 1015 = exInterp.mem 107
    ∧ i_grow_stack 2 1000 exInterp 1 3 = exInterp :=
  have h := i_grow_stack_room 8 1000 exInterp 1 3 (by decide)
  have h0 := i_grow_stack_room 2 1000 exInterp 1 3 (by decide)
  ⟨by decide, by decide, by decide, by decide, h.2.2.2.2.1 0 (by decide),
    h.2.2.2.2.1 1 (by decide), h0.2.2.2.2.2.1 (by decide)⟩

end Dgd

namespace Dgd

/-! ## `i_odest` -/

theorem refersCount_nil (st : Interp) (count : Nat) (b : Bool) :
    st.refersCount count (nil_value b) = false := by
  cases b <;> rfl

theorem refersCount_congr {st st1 : Interp} (h : st1.elt0 = st.elt0) (count : Nat) (v : Value) :
    st1.refersCount count v = st.refersCount count v := by
  unfold Interp.refersCount
  rw [h]

theorem atomicBoundary_congr {st st1 : Interp} (h : st1.frame = st.frame) (f : Nat) :
    st1.atomicBoundary f = st.atomicBoundary f := by
  unfold Interp.atomicBoundary
  rw [h]

/-- The `switch` of `i_odest` writes `nil_value` over a value that refers to
the object and leaves every other value, the frames and the arrays. -/
theorem odestSlot_spec (st : Interp) (count v : Nat) :
    (odestSlot st count v).frame = st.frame
    ∧ (odestSlot st count v).elt0 = st.elt0
    ∧ (odestSlot st count v).stricttc = st.stricttc
    ∧ (odestSlot st count v).mem
      = if st.refersCount count (st.mem v) = true
        then Function.update st.mem v (nil_value st.stricttc) else st.mem := by
  unfold odestSlot Interp.refersCount
  generalize ht : (st.mem v).type = t
  cases t <;> simp
  · by_cases h : (st.mem v).u = count
    · simp [h]
    · simp [h]
  · by_cases h : (st.elt0 (st.mem v).u).type = VType.object ∧ (st.elt0 (st.mem v).u).u = count
    · simp [h]
    · simp [h]

/-- The loops of `i_odest` over `n` values from `v`: each of them that refers
to the object becomes `nil_value`, every other value is left. -/
theorem odestLoop_spec (count : Nat) : ∀ (n : Nat) (st : Interp) (v : Nat),
    (odestLoop count n st v).frame = st.frame
    ∧ (odestLoop count n st v).elt0 = st.elt0
    ∧ (odestLoop count n st v).stricttc = st.stricttc
    ∧ ∀ a, (odestLoop count n st v).mem a
      = if v ≤ a ∧ a < v + n ∧ st.refersCount count (st.mem a) = true
        then nil_value st.stricttc else st.mem a := by
  intro n
  induction n with
  | zero =>
    intro st v
    refine ⟨rfl, rfl, rfl, fun a => ?_⟩
    rw [if_neg (by omega)]
    rfl
  | succ n ih =>
    intro st v
    obtain ⟨h1, h2, h3, h4⟩ := ih (odestSlot st count v) (v + 1)
    obtain ⟨s1, s2, s3, s4⟩ := odestSlot_spec st count v
    have e : odestLoop count (n + 1) st v = odestLoop count n (odestSlot st count v) (v + 1) :=
      rfl
    rw [e]
    refine ⟨h1.trans s1, h2.trans s2, h3.trans s3, fun a => ?_⟩
    rw [h4 a, refersCount_congr s2, s3, s4]
    by_cases hav : a = v
    · subst hav
      rw [if_neg (by omega)]
      by_cases hr : st.refersCount count (st.mem a) = true
      · rw [if_pos hr, Function.update_same, if_pos ⟨le_refl _, by omega, hr⟩]
      · rw [if_neg hr, if_neg (fun k => hr k.2.2)]
    · have hm : (if st.refersCount count (st.mem v) = true
          then Function.update st.mem v (nil_value st.stricttc) else st.mem) a = st.mem a := by
        split
        · exact Function.update_noteq hav _ _
        · rfl
      rw [hm]
      by_cases hc : v ≤ a ∧ a < v + (n + 1) ∧ st.refersCount count (st.mem a) = true
      · rw [if_pos hc, if_pos ⟨by omega, by omega, hc.2.2⟩]
      · rw [if_neg hc, if_neg (fun k => hc ⟨by omega, by omega, k.2.2⟩)]

/-- A value that a sweep has passed does not refer to the object. -/
theorem odestLoop_clean (count n : Nat) (st : Interp) (v a : Nat) (h1 : v ≤ a)
    (h2 : a < v + n) : st.refersCount count ((odestLoop count n st v).mem a) = false := by
  rw [(odestLoop_spec count n st v).2.2.2 a]
  by_cases hr : st.refersCount count (st.mem a) = true
  · rw [if_pos ⟨h1, h2, hr⟩]
    exact refersCount_nil st count _
  · rw [if_neg (fun k => hr k.2.2)]
    simpa using hr

/-- A sweep changes a value only to `nil_value`, and only if it refers to the
object. -/
theorem odestLoop_step (count n : Nat) (st : Interp) (v a : Nat) :
    (odestLoop count n st v).mem a = st.mem a
    ∨ (st.refersCount count (st.mem a) = true
      ∧ (odestLoop count n st v).mem a = nil_value st.stricttc) := by
  rw [(odestLoop_spec count n st v).2.2.2 a]
  by_cases hc : v ≤ a ∧ a < v + n ∧ st.refersCount count (st.mem a) = true
  · rw [if_pos hc]
    exact Or.inr ⟨hc.2.2, rfl⟩
  · rw [if_neg hc]
    exact Or.inl rfl

/-- The walk of `i_odest` over the chain `fs` of frames from `f`: it ends, it
changes a value only to `nil_value` and only if it refers to the object, it
sweeps every frame that has no atomic boundary before it in the chain, and at
the atomic boundary the first `nargs` values of the caller. -/
theorem i_odest_spec (count : Nat) : ∀ (fuel : Nat) (st : Interp) (f : Nat) (fs : List Nat),
    Chain (fun g => (st.frame g).prev) f fs → f ≠ 0 → fs.length ≤ fuel →
    ∃ st1, i_odest fuel st f count = some st1
      ∧ st1.frame = st.frame ∧ st1.elt0 = st.elt0 ∧ st1.stricttc = st.stricttc
      ∧ (∀ a, st1.mem a = st.mem a
          ∨ (st.refersCount count (st.mem a) = true ∧ st1.mem a = nil_value st.stricttc))
      ∧ (∀ pre g suf, fs = pre ++ g :: suf → (∀ x ∈ pre, st.atomicBoundary x = false) →
          ∀ a, (st.frame g).sp ≤ a → a < (st.frame g).fp →
            st.refersCount count (st1.mem a) = false)
      ∧ (∀ pre g suf, fs = pre ++ g :: suf → (∀ x ∈ pre, st.atomicBoundary x = false) →
          st.atomicBoundary g = true →
          ∀ i, i < (st.frame g).nargs →
            st.refersCount count (st1.mem ((st.frame (st.frame g).prev).sp + i)) = false) := by
  intro fuel
  induction fuel with
  | zero =>
    intro st f fs hc hf hl
    have : fs = [] := List.length_eq_zero.mp (Nat.le_zero.mp hl)
    subst this
    exact absurd hc hf
  | succ fuel ih =>
    intro st f fs hc hf hl
    cases fs with
    | nil => exact absurd hc hf
    | cons g rest =>
      obtain ⟨hfg, hg0, hrest⟩ := hc
      subst hfg
      obtain ⟨l1, l2, l3, l4⟩ :=
        odestLoop_spec count ((st.frame f).fp - (st.frame f).sp) st (st.frame f).sp
      have hclean : ∀ a, (st.frame f).sp ≤ a → a < (st.frame f).fp →
          st.refersCount count
            ((odestLoop count ((st.frame f).fp - (st.frame f).sp) st (st.frame f).sp).mem a)
            = false :=
        fun a h1 h2 => odestLoop_clean count _ st _ a h1 (by omega)
      have hstep := odestLoop_step count ((st.frame f).fp - (st.frame f).sp) st (st.frame f).sp
      have e : i_odest (fuel + 1) st f count
          = if ((odestLoop count ((st.frame f).fp - (st.frame f).sp) st
                (st.frame f).sp).frame f).prev = 0
            then some (odestLoop count ((st.frame f).fp - (st.frame f).sp) st (st.frame f).sp)
            else if (((odestLoop count ((st.frame f).fp - (st.frame f).sp) st
                  (st.frame f).sp).frame f).funcAtomic
                && !((odestLoop count ((st.frame f).fp - (st.frame f).sp) st
                  (st.frame f).sp).frame
                    ((odestLoop count ((st.frame f).fp - (st.frame f).sp) st
                      (st.frame f).sp).frame f).prev).atomic) = true
              then some (odestLoop count
                ((odestLoop count ((st.frame f).fp - (st.frame f).sp) st
                  (st.frame f).sp).frame f).nargs
                (odestLoop count ((st.frame f).fp - (st.frame f).sp) st (st.frame f).sp)
                ((odestLoop count ((st.frame f).fp - (st.frame f).sp) st
                  (st.frame f).sp).frame
                    ((odestLoop count ((st.frame f).fp - (st.frame f).sp) st
                      (st.frame f).sp).frame f).prev).sp)
              else i_odest fuel
                (odestLoop count ((st.frame f).fp - (st.frame f).sp) st (st.frame f).sp)
                ((odestLoop count ((st.frame f).fp - (st.frame f).sp) st
                  (st.frame f).sp).frame f).prev count := rfl
      generalize odestLoop count ((st.frame f).fp - (st.frame f).sp) st (st.frame f).sp = st1
        at l1 l2 l3 l4 hclean hstep e
      rw [l1] at e
      rw [e]
      have hmono : ∀ (m : Nat → Value) (a : Nat),
          (m a = st1.mem a ∨ (st1.refersCount count (st1.mem a) = true
            ∧ m a = nil_value st1.stricttc)) →
          st.refersCount count (st1.mem a) = false → st.refersCount count (m a) = false := by
        intro m a hm hr
        rcases hm with hm | ⟨_, hm⟩
        · rw [hm]; exact hr
        · rw [hm]; exact refersCount_nil st count _
      have hcomp : ∀ (m : Nat → Value) (a : Nat),
          (m a = st1.mem a ∨ (st1.refersCount count (st1.mem a) = true
            ∧ m a = nil_value st1.stricttc)) →
          m a = st.mem a
            ∨ (st.refersCount count (st.mem a) = true ∧ m a = nil_value st.stricttc) := by
        intro m a hm
        rcases hm with hm | ⟨hr, hm⟩
        · rw [hm]; exact hstep a
        · rcases hstep a with k | ⟨k1, k2⟩
          · rw [refersCount_congr l2, k] at hr
            exact Or.inr ⟨hr, by rw [hm, l3]⟩
          · exact Or.inr ⟨k1, by rw [hm, l3]⟩
      by_cases hp : (st.frame f).prev = 0
      · rw [if_pos hp]
        have hr : rest = [] := by
          cases rest with
          | nil => rfl
          | cons p rest1 =>
            have k : (st.frame f).prev = p ∧ p ≠ 0 ∧ _ := hrest
            exact absurd (k.1 ▸ hp) k.2.1
        subst hr
        have hb : st.atomicBoundary f = false := by
          unfold Interp.atomicBoundary
          rw [hp]
          rfl
        refine ⟨st1, rfl, l1, l2, l3, hstep, ?_, ?_⟩
        · intro pre g suf hfs _ a h1 h2
          cases pre with
          | nil =>
            have hgf : f = g := (List.cons.inj hfs).1
            subst hgf
            exact hclean a h1 h2
          | cons x pre1 =>
            have := congrArg List.length hfs
            simp at this
        · intro pre g suf hfs _ hbg
          cases pre with
          | nil =>
            have hgf : f = g := (List.cons.inj hfs).1
            subst hgf
            rw [hb] at hbg
            exact absurd hbg (by decide)
          | cons x pre1 =>
            have := congrArg List.length hfs
            simp at this
      · rw [if_neg hp]
        by_cases hat : ((st.frame f).funcAtomic && !(st.frame (st.frame f).prev).atomic) = true
        · rw [if_pos hat]
          have hb : st.atomicBoundary f = true := by
            unfold Interp.atomicBoundary
            rw [hat]
            simpa using hp
          obtain ⟨m1, m2, m3, m4⟩ :=
            odestLoop_spec count (st.frame f).nargs st1 (st.frame (st.frame f).prev).sp
          have hstep2 := odestLoop_step count (st.frame f).nargs st1
            (st.frame (st.frame f).prev).sp
          refine ⟨_, rfl, m1.trans l1, m2.trans l2, m3.trans l3,
            fun a => hcomp _ a (hstep2 a), ?_, ?_⟩
          · intro pre g suf hfs hpre a h1 h2
            cases pre with
            | nil =>
              have hgf : f = g := (List.cons.inj hfs).1
              subst hgf
              exact hmono _ a (hstep2 a) (hclean a h1 h2)
            | cons x pre1 =>
              have hxf : f = x := (List.cons.inj hfs).1
              subst hxf
              have := hpre f (List.mem_cons_self _ _)
              rw [hb] at this
              exact absurd this (by decide)
          · intro pre g suf hfs hpre _ i hi
            cases pre with
            | nil =>
              have hgf : f = g := (List.cons.inj hfs).1
              subst hgf
              rw [← refersCount_congr l2]
              exact odestLoop_clean count _ st1 _ _ (Nat.le_add_right _ _) (by omega)
            | cons x pre1 =>
              have hxf : f = x := (List.cons.inj hfs).1
              subst hxf
              have := hpre f (List.mem_cons_self _ _)
              rw [hb] at this
              exact absurd this (by decide)
        · rw [if_neg hat]
          have hb : st.atomicBoundary f = false := by
            unfold Interp.atomicBoundary
            simpa using fun _ => by simpa using hat
          cases rest with
          | nil => exact absurd hrest hp
          | cons p rest1 =>
            have hpp : (st.frame f).prev = p := hrest.1
            have hc1 : Chain (fun g => (st1.frame g).prev) (st.frame f).prev (p :: rest1) := by
              rw [l1]
              exact hrest
            obtain ⟨st2, r1, r2, r3, r4, r5, r6, r7⟩ :=
              ih st1 (st.frame f).prev (p :: rest1) hc1 hp (by simpa using hl)
            rw [l1] at r2
            refine ⟨st2, r1, r2, r3.trans l2, r4.trans l3, fun a => hcomp _ a (r5 a), ?_, ?_⟩
            · intro pre g suf hfs hpre a h1 h2
              cases pre with
              | nil =>
                have hgf : f = g := (List.cons.inj hfs).1
                subst hgf
                exact hmono _ a (r5 a) (hclean a h1 h2)
              | cons x pre1 =>
                have hfs1 : p :: rest1 = pre1 ++ g :: suf := (List.cons.inj hfs).2
                have := r6 pre1 g suf hfs1
                  (fun y hy => by
                    rw [atomicBoundary_congr l1]
                    exact hpre y (List.mem_cons_of_mem _ hy)) a
                  (by rw [l1]; exact h1) (by rw [l1]; exact h2)
                rw [refersCount_congr l2] at this
                exact this
            · intro pre g suf hfs hpre hbg i hi
              cases pre with
              | nil =>
                have hgf : f = g := (List.cons.inj hfs).1
                subst hgf
                rw [hb] at hbg
                exact absurd hbg (by decide)
              | cons x pre1 =>
                have hfs1 : p :: rest1 = pre1 ++ g :: suf := (List.cons.inj hfs).2
                have := r7 pre1 g suf hfs1
                  (fun y hy => by
                    rw [atomicBoundary_congr l1]
                    exact hpre y (List.mem_cons_of_mem _ hy))
                  (by rw [atomicBoundary_congr l1]; exact hbg) i (by rw [l1]; exact hi)
                rw [refersCount_congr l2, l1] at this
                exact this

/-- C16, amended: let `fs` be the chain of frames that starts at `f` and
follows the `prev` links. `i_odest(f, obj)` returns; it leaves the frames, and
a value it changes referred to the object and is now `nil_value`. Afterwards no
slot between `sp` and `fp` refers to the object (holds an Object with the
count of `obj`, or an LWObject whose element 0 is one) in any frame of the
chain up to and including the first frame whose function is atomic while its
caller is not atomic; of the caller of that frame the first `nargs` slots from
its `sp` refer to it no more. The walk ends there: the frames further down the
chain are not swept. -/
theorem i_odest_sweeps (count fuel : Nat) (st : Interp) (f : Nat) (fs : List Nat)
    (hc : Chain (fun g => (st.frame g).prev) f fs) (hf : f ≠ 0) (hl : fs.length ≤ fuel) :
    ∃ st1, i_odest fuel st f count = some st1
      ∧ st1.frame = st.frame ∧ st1.elt0 = st.elt0 ∧ st1.stricttc = st.stricttc
      ∧ (∀ a, st1.mem a = st.mem a
          ∨ (st.refersCount count (st.mem a) = true ∧ st1.mem a = nil_value st.stricttc))
      ∧ (∀ pre g suf, fs = pre ++ g :: suf → (∀ x ∈ pre, st.atomicBoundary x = false) →
          ∀ a, (st1.frame g).sp ≤ a → a < (st1.frame g).fp →
            st1.refersCount count (st1.mem a) = false)
      ∧ (∀ pre g suf, fs = pre ++ g :: suf → (∀ x ∈ pre, st.atomicBoundary x = false) →
          st.atomicBoundary g = true →
          ∀ i, i < (st1.frame g).nargs →
            st1.refersCount count (st1.mem ((st1.frame (st1.frame g).prev).sp + i)) = false) := by
  obtain ⟨st1, h1, h2, h3, h4, h5, h6, h7⟩ := i_odest_spec count fuel st f fs hc hf hl
  refine ⟨st1, h1, h2, h3, h4, h5, ?_, ?_⟩
  · intro pre g suf hfs hpre a ha1 ha2
    rw [refersCount_congr h3]
    rw [h2] at ha1 ha2
    exact h6 pre g suf hfs hpre a ha1 ha2
  · intro pre g suf hfs hpre hb i hi
    rw [refersCount_congr h3, h2]
    rw [h2] at hi
    exact h7 pre g suf hfs hpre hb i hi

theorem i_odest_sweeps_witness :
    Chain (fun g => (exAtomic.frame g).prev) 1 [1, 2] ∧ (1 : Nat) ≠ 0 ∧ [1, 2].length ≤ 2
    ∧ ∃ st1, i_odest 2 exAtomic 1 4 = some st1
      ∧ exAtomic.refersCount 4 (exAtomic.mem 110) = true
      ∧ exAtomic.refersCount 4 (exAtomic.mem 120) = true
      ∧ st1.refersCount 4 (st1.mem 110) = false
      ∧ st1.refersCount 4 (st1.mem 111) = false
      ∧ st1.refersCount 4 (st1.mem 120) = false :=
  ⟨by decide, by decide, by decide,
    match i_odest_sweeps 4 2 exAtomic 1 [1, 2] (by decide) (by decide) (by decide) with
    | ⟨st1, h1, h2, _, _, _, h6, h7⟩ =>
      ⟨st1, h1, by decide, by decide,
        h6 [] 1 [2] rfl (fun _ hx => absurd hx (List.not_mem_nil _)) 110
          (by rw [h2]; decide) (by rw [h2]; decide),
        h6 [] 1 [2] rfl (fun _ hx => absurd hx (List.not_mem_nil _)) 111
          (by rw [h2]; decide) (by rw [h2]; decide),
        by
          have h := h7 [] 1 [2] rfl (fun _ hx => absurd hx (List.not_mem_nil _)) (by decide) 0
            (by rw [h2]; decide)
          rw [h2] at h
          exact h⟩⟩

/-- C16, counterexample: the frame at address 1 runs an atomic function and
its caller, the frame at address 2, is not atomic; the caller holds at 121,
between its `sp` = 120 and its `fp` = 123, an Object with the generation
count 4. After `i_odest` from the frame 1 for the count 4 the frame 2 is still
in the chain and the value at 121 is still that Object: the walk ended at the
atomic boundary, having swept of the frame 2 only its first `nargs` = 1
slot. -/
theorem i_odest_stops_at_atomic :
    Chain (fun g => (exAtomic.frame g).prev) 1 [1, 2]
    ∧ (exAtomic.frame 2).sp ≤ 121 ∧ 121 < (exAtomic.frame 2).fp
    ∧ (i_odest 2 exAtomic 1 4).map (fun st1 => (st1.frame 2).sp) = some 120
    ∧ (i_odest 2 exAtomic 1 4).map (fun st1 => (st1.frame 2).fp) = some 123
    ∧ (i_odest 2 exAtomic 1 4).map (fun st1 => st1.mem 121)
      = some { type := .object, modified := false, oindex := 3, u := 4 }
    ∧ (i_odest 2 exAtomic 1 4).map (fun st1 => st1.refersCount 4 (st1.mem 121)) = some true
    ∧ (i_odest 2 exAtomic 1 4).map (fun st1 => st1.refersCount 4 (st1.mem 120))
      = some false := by
  decide

end Dgd

namespace Dgd

/-! ## `i_new_rlimits` -/

@[simp] theorem setRl_rl (st : Interp) (r : Nat) (x : Rlinfo) :
    (st.setRl r x).rl = Function.update st.rl r x := rfl
@[simp] theorem setRl_frame (st : Interp) (r : Nat) (x : Rlinfo) :
    (st.setRl r x).frame = st.frame := rfl
@[simp] theorem setRl_mem (st : Interp) (r : Nat) (x : Rlinfo) :
    (st.setRl r x).mem = st.mem := rfl
@[simp] theorem setRl_freed (st : Interp) (r : Nat) (x : Rlinfo) :
    (st.setRl r x).freed = st.freed := rfl

/-- The scopes and the frames after `i_new_rlimits`, when the new scope is
not the current one. -/
theorem i_new_rlimits_fields (rlim : Nat) (st : Interp) (f : Nat) (depth t : Int)
    (hfresh : rlim ≠ (st.frame f).rlim) :
    (i_new_rlimits rlim st f depth t).rl rlim
      = { maxdepth := if depth ≠ 0 then
              (if depth < 0 then 0 else wrapInt ((st.frame f).depth + depth))
            else (st.rl (st.frame f).rlim).maxdepth
          ticks := if t ≠ 0 then (if t < 0 then 0 else t >>> (st.frame f).level)
            else (st.rl (st.frame f).rlim).ticks
          nodepth := if depth ≠ 0 then decide (depth < 0)
            else (st.rl (st.frame f).rlim).nodepth
          noticks := if t ≠ 0 then decide (t < 0) else (st.rl (st.frame f).rlim).noticks
          next := (st.frame f).rlim }
    ∧ (i_new_rlimits rlim st f depth t).rl (st.frame f).rlim
      = { st.rl (st.frame f).rlim with
          ticks := if t ≠ 0 then
              (if t < 0 then (st.rl (st.frame f).rlim).ticks
                else (st.rl (st.frame f).rlim).ticks - t >>> (st.frame f).level)
            else 0 }
    ∧ (∀ r, r ≠ rlim → r ≠ (st.frame f).rlim → (i_new_rlimits rlim st f depth t).rl r = st.rl r)
    ∧ (i_new_rlimits rlim st f depth t).frame
      = Function.update st.frame f { st.frame f with rlim := rlim }
    ∧ (i_new_rlimits rlim st f depth t).mem = st.mem
    ∧ (i_new_rlimits rlim st f depth t).freed = st.freed := by
  have hne : (st.frame f).rlim ≠ rlim := fun e => hfresh e.symm
  unfold i_new_rlimits
  by_cases hd : depth = 0 <;> by_cases ht : t = 0
  · subst hd; subst ht
    simp [hne, hfresh]
    intro r h1 h2
    simp [h1, h2]
  · subst hd
    by_cases ht1 : t < 0
    · simp [hne, hfresh, ht, ht1]
      intro r h1 h2
      simp [h1, h2]
    · simp [hne, hfresh, ht, ht1]
      intro r h1 h2
      simp [h1, h2]
  · subst ht
    by_cases hd1 : depth < 0
    · simp [hne, hfresh, hd, hd1]
      intro r h1 h2
      simp [h1, h2]
    · simp [hne, hfresh, hd, hd1]
      intro r h1 h2
      simp [h1, h2]
  · by_cases hd1 : depth < 0 <;> by_cases ht1 : t < 0
    · simp [hne, hfresh, hd, hd1, ht, ht1]
      intro r h1 h2
      simp [h1, h2]
    · simp [hne, hfresh, hd, hd1, ht, ht1]
      intro r h1 h2
      simp [h1, h2]
    · simp [hne, hfresh, hd, hd1, ht, ht1]
      intro r h1 h2
      simp [h1, h2]
    · simp [hne, hfresh, hd, hd1, ht, ht1]
      intro r h1 h2
      simp [h1, h2]

/-- An integer of 32 bits is the value it is reduced to. -/
theorem wrapInt_of_range (x : Int) (h1 : -(2 ^ 31) ≤ x) (h2 : x < 2 ^ 31) : wrapInt x = x := by
  unfold wrapInt
  omega

/-- C17 (amended): `i_new_rlimits(f, depth, ticks)` makes the new scope the
current one of the frame, with the previously current scope as its `next`.
For `depth = 0` the new scope has the depth limit and the unlimited-flag of
the enclosing scope, for `depth < 0` unlimited depth, for `depth > 0` a
bounded depth with `maxdepth` the sum `f->depth + depth` reduced to the 32
bits of an `Int`, which is `f->depth + depth` itself when that sum is an
integer of 32 bits. For `ticks = 0` it has the tick count the enclosing scope
had and its unlimited-flag, for `ticks < 0` unlimited ticks, for `ticks > 0`
a bounded count of `ticks >> f->level`. The other fields of the frame, the
other frames and the scopes other than the new and the enclosing one are
unchanged. -/
theorem i_new_rlimits_scope (rlim : Nat) (st : Interp) (f : Nat) (depth t : Int)
    (hfresh : rlim ≠ (st.frame f).rlim) :
    ((i_new_rlimits rlim st f depth t).frame f).rlim = rlim
    ∧ ((i_new_rlimits rlim st f depth t).rl rlim).next = (st.frame f).rlim
    ∧ (depth = 0 →
        ((i_new_rlimits rlim st f depth t).rl rlim).maxdepth
          = (st.rl (st.frame f).rlim).maxdepth
        ∧ ((i_new_rlimits rlim st f depth t).rl rlim).nodepth
          = (st.rl (st.frame f).rlim).nodepth)
    ∧ (depth < 0 → ((i_new_rlimits rlim st f depth t).rl rlim).nodepth = true)
    ∧ (0 < depth →
        ((i_new_rlimits rlim st f depth t).rl rlim).nodepth = false
        ∧ ((i_new_rlimits rlim st f depth t).rl rlim).maxdepth
          = wrapInt ((st.frame f).depth + depth)
        ∧ (-(2 ^ 31) ≤ (st.frame f).depth + depth → (st.frame f).depth + depth < 2 ^ 31 →
            ((i_new_rlimits rlim st f depth t).rl rlim).maxdepth = (st.frame f).depth + depth))
    ∧ (t = 0 →
        ((i_new_rlimits rlim st f depth t).rl rlim).ticks = (st.rl (st.frame f).rlim).ticks
        ∧ ((i_new_rlimits rlim st f depth t).rl rlim).noticks
          = (st.rl (st.frame f).rlim).noticks)
    ∧ (t < 0 → ((i_new_rlimits rlim st f depth t).rl rlim).noticks = true)
    ∧ (0 < t →
        ((i_new_rlimits rlim st f depth t).rl rlim).noticks = false
        ∧ ((i_new_rlimits rlim st f depth t).rl rlim).ticks = t >>> (st.frame f).level
        ∧ ((i_new_rlimits rlim st f depth t).rl rlim).ticks = t / 2 ^ (st.frame f).level)
    ∧ (i_new_rlimits rlim st f depth t).frame f = { st.frame f with rlim := rlim }
    ∧ (∀ g, g ≠ f → (i_new_rlimits rlim st f depth t).frame g = st.frame g)
    ∧ (∀ r, r ≠ rlim → r ≠ (st.frame f).rlim →
        (i_new_rlimits rlim st f depth t).rl r = st.rl r) := by
  obtain ⟨h1, _, h3, h4, _, _⟩ := i_new_rlimits_fields rlim st f depth t hfresh
  rw [h1, h4]
  refine ⟨?_, rfl, ?_, ?_, ?_, ?_, ?_, ?_, ?_, ?_, h3⟩
  · rw [Function.update_same]
  · intro hd
    simp [hd]
  · intro hd
    have : depth ≠ 0 := by omega
    simp [this, hd]
  · intro hd
    have h0 : depth ≠ 0 := by omega
    have h1 : ¬ depth < 0 := by omega
    refine ⟨by simp [h0, h1], by simp [h0, h1], ?_⟩
    intro hlo hhi
    simp only [h0, h1, ne_eq, not_false_eq_true, if_true, if_false]
    exact wrapInt_of_range _ hlo hhi
  · intro ht
    simp [ht]
  · intro ht
    have : t ≠ 0 := by omega
    simp [this, ht]
  · intro ht
    have h0 : t ≠ 0 := by omega
    have h1 : ¬ t < 0 := by omega
    simp [h0, h1, Int.shiftRight_eq_div_pow]
  · rw [Function.update_same]
  · intro g hg
    rw [Function.update_noteq hg]

theorem i_new_rlimits_scope_witness :
    (2 : Nat) ≠ (exInterp.frame 1).rlim
    ∧ ((i_new_rlimits 2 exInterp 1 5 (-1)).frame 1).rlim = 2
    ∧ ((i_new_rlimits 2 exInterp 1 5 (-1)).rl 2).next = 1
    ∧ ((i_new_rlimits 2 exInterp 1 5 (-1)).rl 2).maxdepth = 6
    ∧ ((i_new_rlimits 2 exInterp 1 5 (-1)).rl 2).nodepth = false
    ∧ ((i_new_rlimits 2 exInterp 1 5 (-1)).rl 2).noticks = true :=
  have h := i_new_rlimits_scope 2 exInterp 1 5 (-1) (by decide)
  ⟨by decide, h.1, h.2.1, (h.2.2.2.2.1 (by decide)).2.2 (by decide) (by decide),
    (h.2.2.2.2.1 (by decide)).1, h.2.2.2.2.2.2.1 (by decide)⟩

/-- C17, counterexample: the frame at address 1 has the depth 1.
`i_new_rlimits(f, 0x7fffffff, -1)` gives the new scope a bounded depth, and
the sum 1 + 0x7fffffff does not fit the 32 bits of an `Int`: `maxdepth` is
-2147483648, not 2147483648. -/
theorem i_new_rlimits_depth_wraps :
    (2 : Nat) ≠ (exInterp.frame 1).rlim
    ∧ (exInterp.frame 1).depth = 1
    ∧ ((i_new_rlimits 2 exInterp 1 2147483647 (-1)).rl 2).nodepth = false
    ∧ ((i_new_rlimits 2 exInterp 1 2147483647 (-1)).rl 2).maxdepth = -2147483648
    ∧ ((i_new_rlimits 2 exInterp 1 2147483647 (-1)).rl 2).maxdepth
        ≠ (exInterp.frame 1).depth + 2147483647 := by
  refine ⟨by decide, rfl, rfl, ?_, ?_⟩ <;> decide

/-- C18, amended: when `i_new_rlimits` newly bounds the ticks (`ticks > 0`),
the new scope gets `ticks >> f->level` ticks and the remaining count of the
enclosing scope is lowered by this number, so that the two counts together
are the count the enclosing scope had. The whole count of the enclosing scope
goes to the new scope, and the enclosing scope is left with 0, when the ticks
are inherited (`ticks = 0`); for `ticks < 0` the count of the enclosing scope
is left. Nothing else of the enclosing scope changes. -/
theorem i_new_rlimits_ticks (rlim : Nat) (st : Interp) (f : Nat) (depth t : Int)
    (hfresh : rlim ≠ (st.frame f).rlim) :
    (0 < t →
        ((i_new_rlimits rlim st f depth t).rl rlim).ticks = t >>> (st.frame f).level
        ∧ ((i_new_rlimits rlim st f depth t).rl (st.frame f).rlim).ticks
          = (st.rl (st.frame f).rlim).ticks - t >>> (st.frame f).level
        ∧ ((i_new_rlimits rlim st f depth t).rl rlim).ticks
            + ((i_new_rlimits rlim st f depth t).rl (st.frame f).rlim).ticks
          = (st.rl (st.frame f).rlim).ticks)
    ∧ (t = 0 →
        ((i_new_rlimits rlim st f depth t).rl rlim).ticks = (st.rl (st.frame f).rlim).ticks
        ∧ ((i_new_rlimits rlim st f depth t).rl (st.frame f).rlim).ticks = 0)
    ∧ (t < 0 →
        ((i_new_rlimits rlim st f depth t).rl (st.frame f).rlim).ticks
          = (st.rl (st.frame f).rlim).ticks)
    ∧ { (i_new_rlimits rlim st f depth t).rl (st.frame f).rlim with
        ticks := (st.rl (st.frame f).rlim).ticks } = st.rl (st.frame f).rlim := by
  obtain ⟨h1, h2, _, _, _, _⟩ := i_new_rlimits_fields rlim st f depth t hfresh
  rw [h1, h2]
  refine ⟨?_, ?_, ?_, rfl⟩
  · intro ht
    have h0 : t ≠ 0 := by omega
    have h1 : ¬ t < 0 := by omega
    simp [h0, h1]
  · intro ht
    simp [ht]
  · intro ht
    have : t ≠ 0 := by omega
    simp [this, ht]

theorem i_new_rlimits_ticks_witness :
    (2 : Nat) ≠ (exInterp.frame 1).rlim
    ∧ ((i_new_rlimits 2 exInterp 1 0 10).rl 2).ticks = 10
    ∧ ((i_new_rlimits 2 exInterp 1 0 10).rl 1).ticks = 90
    ∧ ((i_new_rlimits 2 exInterp 1 0 0).rl 2).ticks = 100
    ∧ ((i_new_rlimits 2 exInterp 1 0 0).rl 1).ticks = 0 :=
  have h := i_new_rlimits_ticks 2 exInterp 1 0 10 (by decide)
  have h0 := i_new_rlimits_ticks 2 exInterp 1 0 0 (by decide)
  ⟨by decide, (h.1 (by decide)).1, (h.1 (by decide)).2.1, (h0.2.1 rfl).1, (h0.2.1 rfl).2⟩

/-- C18, counterexample: the frame at address 1 has the level 0 and the scope
at address 1, which is bounded with 100 ticks left. `i_new_rlimits(f, 0, 10)`
gives the new scope 10 ticks, not the 100 of the enclosing scope, and leaves
the enclosing scope 90 ticks, not 0. -/
theorem i_new_rlimits_debits_parent :
    (exInterp.frame 1).rlim = 1 ∧ (exInterp.frame 1).level = 0
    ∧ (exInterp.rl 1).ticks = 100 ∧ (exInterp.rl 1).noticks = false
    ∧ ((i_new_rlimits 2 exInterp 1 0 10).frame 1).rlim = 2
    ∧ ((i_new_rlimits 2 exInterp 1 0 10).rl 2).next = 1
    ∧ ((i_new_rlimits 2 exInterp 1 0 10).rl 2).noticks = false
    ∧ ((i_new_rlimits 2 exInterp 1 0 10).rl 2).ticks = 10
    ∧ ((i_new_rlimits 2 exInterp 1 0 10).rl 1).ticks = 90 := by
  decide

end Dgd

namespace Dgd

/-! ## `i_set_rlimits` -/

theorem scopeSeg_unique (next : Nat → Nat) (target : Nat) : ∀ (xs ys : List Nat) (r : Nat),
    ScopeSeg next target r xs → ScopeSeg next target r ys → xs = ys := by
  intro xs
  induction xs with
  | nil =>
    intro ys r hx hy
    cases ys with
    | nil => rfl
    | cons y ys =>
      have hx1 : r = target := hx
      exact absurd (hy.1.symm.trans hx1) hy.2.1
  | cons x xs ih =>
    intro ys r hx hy
    cases ys with
    | nil =>
      have hy1 : r = target := hy
      exact absurd (hx.1.symm.trans hy1) hx.2.1
    | cons y ys =>
      have e : x = y := hx.1.symm.trans hy.1
      subst e
      rw [ih ys (next x) hx.2.2 hy.2.2]

theorem scopeSeg_drop (next : Nat → Nat) (target : Nat) : ∀ (a : List Nat) (x : Nat)
    (b : List Nat) (r : Nat),
    ScopeSeg next target r (a ++ x :: b) → ScopeSeg next target x (x :: b) := by
  intro a
  induction a with
  | nil =>
    intro x b r h
    exact ⟨rfl, h.2.1, h.2.2⟩
  | cons y a ih =>
    intro x b r h
    exact ih x b (next y) h.2.2

theorem scopeSeg_not_target (next : Nat → Nat) (target : Nat) : ∀ (xs : List Nat) (r : Nat),
    ScopeSeg next target r xs → target ∉ xs := by
  intro xs
  induction xs with
  | nil => intro r _; exact List.not_mem_nil _
  | cons x xs ih =>
    intro r h hm
    rcases List.mem_cons.mp hm with e | hm
    · exact h.2.1 e.symm
    · exact ih (next x) h.2.2 hm

theorem scopeSeg_nodup (next : Nat → Nat) (target : Nat) : ∀ (xs : List Nat) (r : Nat),
    ScopeSeg next target r xs → xs.Nodup := by
  intro xs
  induction xs with
  | nil => intro r _; exact List.nodup_nil
  | cons x xs ih =>
    intro r h
    refine List.nodup_cons.mpr ⟨?_, ih (next x) h.2.2⟩
    intro hm
    obtain ⟨a, b, e⟩ := List.append_of_mem hm
    have h1 : ScopeSeg next target x (x :: b) := by
      have := h.2.2
      rw [e] at this
      exact scopeSeg_drop next target a x b _ this
    have h2 : ScopeSeg next target x (x :: xs) := ⟨rfl, h.2.1, h.2.2⟩
    have := congrArg List.length (scopeSeg_unique next target _ _ x h1 h2)
    rw [e] at this
    simp at this
    omega

theorem carried_congr (rl1 rl2 : Nat → Rlinfo) : ∀ (rs : List Nat) (c : Int),
    (∀ r ∈ rs, (rl1 r).noticks = (rl2 r).noticks ∧ (rl1 r).ticks = (rl2 r).ticks) →
    carried rl1 rs c = carried rl2 rs c := by
  intro rs
  induction rs with
  | nil => intro c _; rfl
  | cons r rs ih =>
    intro c h
    have hr := h r (List.mem_cons_self _ _)
    show carried rl1 rs _ = carried rl2 rs _
    rw [hr.1, hr.2]
    exact ih _ (fun x hx => h x (List.mem_cons_of_mem _ hx))

/-- The loop of `i_set_rlimits` over the scopes `rs` from `r` down to
`target`: it ends, frees these scopes in order, and `target` receives the
ticks they hand on. -/
theorem i_set_rlimitsLoop_spec (target : Nat) : ∀ (fuel : Nat) (st : Interp) (r : Nat)
    (rs : List Nat),
    ScopeSeg (fun x => (st.rl x).next) target r rs → rs.length < fuel →
    ∃ st1, i_set_rlimitsLoop target fuel st r = some st1
      ∧ st1.frame = st.frame
      ∧ st1.freed = rs.reverse ++ st.freed
      ∧ (∀ x, x ∉ rs → x ≠ target → st1.rl x = st.rl x)
      ∧ st1.rl target
        = { st.rl target with ticks := (st.rl target).ticks + carried st.rl rs 0 } := by
  intro fuel
  induction fuel with
  | zero => intro st r rs _ hl; exact absurd hl (Nat.not_lt_zero _)
  | succ fuel ih =>
    intro st r rs hseg hl
    cases rs with
    | nil =>
      have hr : r = target := hseg
      refine ⟨st, ?_, rfl, rfl, fun _ _ _ => rfl, ?_⟩
      · show (if r ≠ target then _ else some st) = some st
        rw [if_neg (not_not.mpr hr)]
      · show st.rl target = { st.rl target with ticks := (st.rl target).ticks + 0 }
        rw [Int.add_zero]
    | cons x xs =>
      obtain ⟨hrx, hxt, hxs⟩ := hseg
      subst hrx
      have hnd := scopeSeg_nodup _ _ _ _ hxs
      have hnt := scopeSeg_not_target _ _ _ _ hxs
      have e : i_set_rlimitsLoop target (fuel + 1) st r
          = i_set_rlimitsLoop target fuel
              ((if (!(st.rl r).noticks) = true then
                  st.setRl (st.rl r).next
                    { st.rl (st.rl r).next with
                      ticks := (st.rl (st.rl r).next).ticks + (st.rl r).ticks }
                else st).free r) (st.rl r).next := by
        show (if r ≠ target then _ else some st) = _
        rw [if_pos hxt]
      rw [e]
      by_cases hno : (st.rl r).noticks = true
      · have e1 : (if (!(st.rl r).noticks) = true then
              st.setRl (st.rl r).next
                { st.rl (st.rl r).next with
                  ticks := (st.rl (st.rl r).next).ticks + (st.rl r).ticks }
            else st) = st := by
          rw [hno]
          rfl
        rw [e1]
        obtain ⟨st1, k1, k2, k3, k4, k5⟩ := ih (st.free r) (st.rl r).next xs hxs
          (by simpa using hl)
        refine ⟨st1, k1, k2, ?_, ?_, ?_⟩
        · rw [k3]
          simp
        · intro y hy hyt
          exact k4 y (fun h => hy (List.mem_cons_of_mem _ h)) hyt
        · rw [k5]
          show _ = { st.rl target with
            ticks := (st.rl target).ticks
              + carried st.rl xs (if (st.rl r).noticks then 0 else (st.rl r).ticks + 0) }
          rw [hno]
          rfl
      · have hno1 : (st.rl r).noticks = false := by simpa using hno
        have e1 : (if (!(st.rl r).noticks) = true then
              st.setRl (st.rl r).next
                { st.rl (st.rl r).next with
                  ticks := (st.rl (st.rl r).next).ticks + (st.rl r).ticks }
            else st)
            = st.setRl (st.rl r).next
                { st.rl (st.rl r).next with
                  ticks := (st.rl (st.rl r).next).ticks + (st.rl r).ticks } := by
          rw [hno1]
          rfl
        rw [e1]
        have hnext : (fun y => ((((st.setRl (st.rl r).next
            { st.rl (st.rl r).next with
              ticks := (st.rl (st.rl r).next).ticks + (st.rl r).ticks }).free r).rl y).next))
            = fun y => (st.rl y).next := by
          funext y
          show (Function.update st.rl _ _ y).next = _
          by_cases hy : y = (st.rl r).next
          · rw [hy, Function.update_same]
          · rw [Function.update_noteq hy]
        obtain ⟨st1, k1, k2, k3, k4, k5⟩ := ih ((st.setRl (st.rl r).next
            { st.rl (st.rl r).next with
              ticks := (st.rl (st.rl r).next).ticks + (st.rl r).ticks }).free r)
          (st.rl r).next xs (by rw [hnext]; exact hxs) (by simpa using hl)
        have hrl : ((st.setRl (st.rl r).next
            { st.rl (st.rl r).next with
              ticks := (st.rl (st.rl r).next).ticks + (st.rl r).ticks }).free r).rl
            = Function.update st.rl (st.rl r).next
              { st.rl (st.rl r).next with
                ticks := (st.rl (st.rl r).next).ticks + (st.rl r).ticks } := rfl
        rw [hrl] at k4 k5
        refine ⟨st1, k1, k2, ?_, ?_, ?_⟩
        · rw [k3]
          simp
        · intro y hy hyt
          rw [k4 y (fun h => hy (List.mem_cons_of_mem _ h)) hyt]
          have hyn : y ≠ (st.rl r).next := by
            intro e2
            cases xs with
            | nil => exact hyt (e2.trans hxs)
            | cons n xs1 =>
              have hn : (st.rl r).next = n := hxs.1
              exact hy (List.mem_cons_of_mem _ (by rw [e2, hn]; exact List.mem_cons_self _ _))
          rw [Function.update_noteq hyn]
        · rw [k5]
          show _ = { st.rl target with
            ticks := (st.rl target).ticks
              + carried st.rl xs (if (st.rl r).noticks then 0 else (st.rl r).ticks + 0) }
          rw [hno1]
          cases xs with
          | nil =>
            have hn : (st.rl r).next = target := hxs
            rw [hn, Function.update_same]
            show _ = { st.rl target with ticks := (st.rl target).ticks + ((st.rl r).ticks + 0) }
            simp [carried]
          | cons n xs1 =>
            have hn : (st.rl r).next = n := hxs.1
            have hnt1 : target ≠ n := fun e2 => hnt (e2 ▸ List.mem_cons_self _ _)
            rw [hn, Function.update_noteq hnt1]
            have hn1 : n ∉ xs1 := (List.nodup_cons.mp hnd).1
            have c1 : carried (Function.update st.rl n
                  { st.rl n with ticks := (st.rl n).ticks + (st.rl r).ticks }) (n :: xs1) 0
                = carried st.rl (n :: xs1) ((st.rl r).ticks + 0) := by
              show carried _ xs1 _ = carried _ xs1 _
              rw [Function.update_same]
              show carried _ xs1 (if (st.rl n).noticks = true then 0
                  else (st.rl n).ticks + (st.rl r).ticks + 0) = _
              rw [carried_congr _ st.rl xs1 _ (fun y hy => by
                have : y ≠ n := fun e2 => hn1 (e2 ▸ hy)
                rw [Function.update_noteq this]
                exact ⟨rfl, rfl⟩)]
              congr 1
              split <;> omega
            rw [c1]
            rfl

/-- The statement `if (r->ticks < 0) r->ticks = 0` changes the count of the
scope `r` only, to 0 when it is negative. -/
theorem clampTicks_spec (st : Interp) (r : Nat) :
    (st.clampTicks r).frame = st.frame
    ∧ (st.clampTicks r).freed = st.freed
    ∧ ∀ x, (st.clampTicks r).rl x
      = if x = r then { st.rl x with ticks := max (st.rl x).ticks 0 } else st.rl x := by
  unfold Interp.clampTicks
  by_cases h : (st.rl r).ticks < 0
  · rw [if_pos h]
    refine ⟨rfl, rfl, fun x => ?_⟩
    by_cases hx : x = r
    · subst hx
      rw [if_pos rfl, setRl_rl, Function.update_same, max_eq_right (le_of_lt h)]
    · rw [if_neg hx, setRl_rl, Function.update_noteq hx]
  · rw [if_neg h]
    refine ⟨rfl, rfl, fun x => ?_⟩
    by_cases hx : x = r
    · subst hx
      rw [if_pos rfl, max_eq_left (not_lt.mp h)]
    · rw [if_neg hx]

/-- C19, amended: let `rs` be the scopes on the rlimits stack of `f` above
`target`, the current one first. `i_set_rlimits(f, target)` returns; it frees
every scope of `rs`, in this order, and nothing else, sets `f->rlim = target`
and leaves the other frames and the scopes outside `rs` other than `target`.
Each freed scope adds its remaining ticks (a negative count of the current
scope counting as 0, as `clampTicks` sets it) to its parent scope unless the
freed scope itself is unbounded, whatever the parent is: `target` receives
the ticks `carried` down through `rs`. With one scope `r` above `target`, the
count of `target` grows by the remaining ticks of `r` if `r` is bounded and
not at all if `r` is unbounded. -/
theorem i_set_rlimits_unwinds (fuel : Nat) (st : Interp) (f target : Nat) (rs : List Nat)
    (hseg : ScopeSeg (fun x => (st.rl x).next) target (st.frame f).rlim rs)
    (hfuel : rs.length < fuel) :
    ∃ st1, i_set_rlimits fuel st f target = some st1
      ∧ st1.frame f = { st.frame f with rlim := target }
      ∧ (∀ g, g ≠ f → st1.frame g = st.frame g)
      ∧ st1.freed = rs.reverse ++ st.freed
      ∧ (∀ x, x ∉ rs → x ≠ target → st1.rl x = st.rl x)
      ∧ st1.rl target
        = { st.rl target with
            ticks := ((st.clampTicks (st.frame f).rlim).rl target).ticks
              + carried (st.clampTicks (st.frame f).rlim).rl rs 0 }
      ∧ (∀ x, (st.clampTicks (st.frame f).rlim).rl x
          = if x = (st.frame f).rlim then { st.rl x with ticks := max (st.rl x).ticks 0 }
            else st.rl x)
      ∧ (∀ r, rs = [r] →
          (st1.rl target).ticks
            = (st.rl target).ticks
              + if (st.rl r).noticks then 0 else max (st.rl r).ticks 0) := by
  obtain ⟨c1, c2, c3⟩ := clampTicks_spec st (st.frame f).rlim
  have hnext : (fun y => ((st.clampTicks (st.frame f).rlim).rl y).next)
      = fun y => (st.rl y).next := by
    funext y
    show ((st.clampTicks (st.frame f).rlim).rl y).next = _
    rw [c3 y]
    split <;> rfl
  obtain ⟨st1, k1, k2, k3, k4, k5⟩ := i_set_rlimitsLoop_spec target fuel
    (st.clampTicks (st.frame f).rlim) (st.frame f).rlim rs (by rw [hnext]; exact hseg) hfuel
  have e : i_set_rlimits fuel st f target
      = some (st1.setFrame f { st1.frame f with rlim := target }) := by
    unfold i_set_rlimits
    simp only [k1]
  have htgt : (st1.rl target)
      = { st.rl target with
          ticks := ((st.clampTicks (st.frame f).rlim).rl target).ticks
            + carried (st.clampTicks (st.frame f).rlim).rl rs 0 } := by
    rw [k5, c3 target]
    split <;> rfl
  refine ⟨_, e, ?_, ?_, ?_, ?_, htgt, c3, ?_⟩
  · rw [setFrame_frame, Function.update_same, k2, c1]
  · intro g hg
    rw [setFrame_frame, Function.update_noteq hg, k2, c1]
  · rw [setFrame_freed, k3, c2]
  · intro x hx hxt
    rw [setFrame_rl, k4 x hx hxt, c3 x]
    have : x ≠ (st.frame f).rlim := by
      intro e1
      cases rs with
      | nil => exact hxt (e1.trans hseg)
      | cons r rs1 =>
        have hr : (st.frame f).rlim = r := hseg.1
        exact hx (by rw [e1, hr]; exact List.mem_cons_self _ _)
    rw [if_neg this]
  · intro r hr
    subst hr
    have hr0 : (st.frame f).rlim = r := hseg.1
    have hrt : target ≠ r := fun e1 => hseg.2.1 e1.symm
    rw [setFrame_rl, htgt, c3 target, hr0, if_neg hrt]
    show (st.rl target).ticks
        + (if ((st.clampTicks r).rl r).noticks = true then 0
          else ((st.clampTicks r).rl r).ticks + 0) = _
    rw [(clampTicks_spec st r).2.2 r, if_pos rfl]
    simp

theorem i_set_rlimits_unwinds_witness :
    ScopeSeg (fun x => (exScopes.rl x).next) 1 (exScopes.frame 1).rlim [3, 2]
    ∧ [3, 2].length < 3
    ∧ ∃ st1, i_set_rlimits 3 exScopes 1 1 = some st1
      ∧ (st1.frame 1).rlim = 1
      ∧ st1.freed = [2, 3]
      ∧ carried (exScopes.clampTicks (exScopes.frame 1).rlim).rl [3, 2] 0 = 0
      ∧ (st1.rl 1).ticks = 100 :=
  ⟨by decide, by decide,
    match i_set_rlimits_unwinds 3 exScopes 1 1 [3, 2] (by decide) (by decide) with
    | ⟨st1, h1, h2, _, h4, _, h6, _, _⟩ =>
      ⟨st1, h1, by rw [h2], by rw [h4]; rfl, by decide, by rw [h6]; decide⟩⟩

/-- C19, counterexample: the frame at address 1 has the scope 3, bounded with 5
ticks left, whose parent is the scope 2, unbounded with the count 7, whose
parent is the scope 1, bounded with 100 ticks left. `i_set_rlimits(f, 2)`
frees the scope 3 and adds its 5 ticks to the count of its unbounded parent,
which becomes 12. `i_set_rlimits(f, 1)` frees the scopes 3 and 2 and adds
nothing of the unbounded scope 2 to its bounded parent, which keeps its 100
ticks. -/
theorem i_set_rlimits_tests_freed_scope :
    (exScopes.frame 1).rlim = 3
    ∧ (exScopes.rl 3).next = 2 ∧ (exScopes.rl 3).noticks = false ∧ (exScopes.rl 3).ticks = 5
    ∧ (exScopes.rl 2).next = 1 ∧ (exScopes.rl 2).noticks = true ∧ (exScopes.rl 2).ticks = 7
    ∧ (exScopes.rl 1).noticks = false ∧ (exScopes.rl 1).ticks = 100
    ∧ (i_set_rlimits 2 exScopes 1 2).map (fun st1 => st1.freed) = some [3]
    ∧ (i_set_rlimits 2 exScopes 1 2).map (fun st1 => (st1.rl 2).ticks) = some 12
    ∧ (i_set_rlimits 3 exScopes 1 1).map (fun st1 => st1.freed) = some [2, 3]
    ∧ (i_set_rlimits 3 exScopes 1 1).map (fun st1 => (st1.rl 1).ticks) = some 100 := by
  decide

end Dgd

namespace Dgd

/-! ## The tick check of `i_interpret1` -/

/-- The three ways through `if (--f->rlim->ticks <= 0)`. -/
theorem tickCheck_spec (st : Interp) (f : Nat) :
    ((st.rl (st.frame f).rlim).ticks - 1 ≤ 0 → (st.rl (st.frame f).rlim).noticks = false →
      tickCheck st f = .error "Out of ticks"
        (st.setRl (st.frame f).rlim
          { st.rl (st.frame f).rlim with ticks := (st.rl (st.frame f).rlim).ticks - 1 }))
    ∧ ((st.rl (st.frame f).rlim).ticks - 1 ≤ 0 → (st.rl (st.frame f).rlim).noticks = true →
      tickCheck st f = .running
        (st.setRl (st.frame f).rlim { st.rl (st.frame f).rlim with ticks := 0x7fffffff }))
    ∧ (0 < (st.rl (st.frame f).rlim).ticks - 1 →
      tickCheck st f = .running
        (st.setRl (st.frame f).rlim
          { st.rl (st.frame f).rlim with ticks := (st.rl (st.frame f).rlim).ticks - 1 })) := by
  refine ⟨?_, ?_, ?_⟩
  · intro h hn
    unfold tickCheck
    simp [h, hn]
  · intro h hn
    unfold tickCheck
    simp [h, hn, Interp.setRl]
  · intro h
    have : ¬ (st.rl (st.frame f).rlim).ticks - 1 ≤ 0 := by omega
    unfold tickCheck
    simp [this]

/-- One pass of the loop of `i_interpret1`, when the tick check passes. -/
theorem i_interpret1_running (exec : Interp → Nat → Outcome) (fuel : Nat) (st s0 : Interp)
    (f : Nat) (h : tickCheck st f = .running s0) :
    i_interpret1 exec (fuel + 1) st f
      = match exec s0 f with
        | .running s1 => i_interpret1 exec fuel s1 f
        | o => some o := by
  cases hex : exec s0 f <;> simp only [i_interpret1, h, hex]

end Dgd

namespace Dgd

/-! ## The switch tables -/

/-- The binary search of the three switch functions: a loop that at the
middle `m` of `l .. h` returns the target when the entry matches (`E m`),
goes on below `m` when the operand is below the entry (`B m`) and above `m`
otherwise, finds a matching entry if there is one in `l .. h`, provided that
no entry from `m` on matches when the operand is below the entry `m`, and no
entry up to `m` when it is above. -/
theorem bsearch_spec (E B : Nat → Prop) [DecidablePred E] [DecidablePred B] (t : Nat → Nat)
    (L : Nat → Nat → Nat → Option (Option Nat))
    (hL : ∀ fuel l h, L (fuel + 1) l h
      = if l < h then
          (if E ((l + h) >>> 1) then some (some (t ((l + h) >>> 1)))
            else if B ((l + h) >>> 1) then L fuel l ((l + h) >>> 1)
            else L fuel ((l + h) >>> 1 + 1) h)
        else some none)
    (N : Nat)
    (hlow : ∀ i j, i ≤ j → j < N → B i → ¬ E j)
    (hhigh : ∀ i j, i ≤ j → j < N → ¬ E j → ¬ B j → ¬ E i) :
    ∀ fuel l h, h ≤ N → h - l < fuel →
      ((∃ i, l ≤ i ∧ i < h ∧ E i) → ∃ i, l ≤ i ∧ i < h ∧ E i ∧ L fuel l h = some (some (t i)))
      ∧ ((∀ i, l ≤ i → i < h → ¬ E i) → L fuel l h = some none) := by
  intro fuel
  induction fuel with
  | zero => intro l h _ hf; exact absurd hf (Nat.not_lt_zero _)
  | succ fuel ih =>
    intro l h hN hf
    rw [hL]
    by_cases hlh : l < h
    · rw [if_pos hlh]
      have hm : (l + h) >>> 1 = (l + h) / 2 := Nat.shiftRight_eq_div_pow _ 1
      have hm1 : l ≤ (l + h) >>> 1 := by rw [hm]; omega
      have hm2 : (l + h) >>> 1 < h := by rw [hm]; omega
      generalize (l + h) >>> 1 = m at hm1 hm2
      by_cases hE : E m
      · rw [if_pos hE]
        exact ⟨fun _ => ⟨m, hm1, hm2, hE, rfl⟩, fun hno => absurd hE (hno m hm1 hm2)⟩
      · rw [if_neg hE]
        by_cases hB : B m
        · rw [if_pos hB]
          obtain ⟨h1, h2⟩ := ih l m (by omega) (by omega)
          constructor
          · rintro ⟨i, hi1, hi2, hi3⟩
            have him : i < m := by
              by_contra hc
              exact hlow m i (by omega) (by omega) hB hi3
            obtain ⟨k, k1, k2, k3, k4⟩ := h1 ⟨i, hi1, him, hi3⟩
            exact ⟨k, k1, by omega, k3, k4⟩
          · intro hno
            exact h2 (fun i hi1 hi2 => hno i hi1 (by omega))
        · rw [if_neg hB]
          obtain ⟨h1, h2⟩ := ih (m + 1) h hN (by omega)
          constructor
          · rintro ⟨i, hi1, hi2, hi3⟩
            have him : m + 1 ≤ i := by
              by_contra hc
              exact hhigh i m (by omega) (by omega) hE hB hi3
            obtain ⟨k, k1, k2, k3, k4⟩ := h1 ⟨i, him, hi2, hi3⟩
            exact ⟨k, by omega, k2, k3, k4⟩
          · intro hno
            exact h2 (fun i hi1 hi2 => hno i (by omega) hi2)
    · rw [if_neg hlh]
      exact ⟨fun ⟨i, hi1, hi2, _⟩ => absurd (lt_of_le_of_lt hi1 hi2) hlh, fun _ => rfl⟩

/-- One pass of the loop of `i_switch_int`. -/
theorem switchIntLoop_succ (prog : Nat → Nat) (pc sz : Nat) (number : Int) (fuel l h : Nat) :
    switchIntLoop prog pc sz number (fuel + 1) l h
      = if l < h then
          (if number = fetchS prog (pc + (sz + 2) * ((l + h) >>> 1)) sz then
              some (some (fetchU prog (pc + (sz + 2) * ((l + h) >>> 1) + sz) 2))
            else if number < fetchS prog (pc + (sz + 2) * ((l + h) >>> 1)) sz then
              switchIntLoop prog pc sz number fuel l ((l + h) >>> 1)
            else switchIntLoop prog pc sz number fuel ((l + h) >>> 1 + 1) h)
        else some none := rfl

/-- The loop of `i_switch_int` on a table of `N` entries with strictly
ascending keys: it ends, with the target of the entry whose key is the number
if there is one. -/
theorem switchIntLoop_spec (prog : Nat → Nat) (pc sz : Nat) (number : Int) (N fuel : Nat)
    (hsorted : ∀ i j, i < j → j < N →
      fetchS prog (pc + (sz + 2) * i) sz < fetchS prog (pc + (sz + 2) * j) sz)
    (hfuel : N < fuel) :
    (∀ i, i < N → fetchS prog (pc + (sz + 2) * i) sz = number →
      switchIntLoop prog pc sz number fuel 0 N
        = some (some (fetchU prog (pc + (sz + 2) * i + sz) 2)))
    ∧ ((∀ i, i < N → fetchS prog (pc + (sz + 2) * i) sz ≠ number) →
      switchIntLoop prog pc sz number fuel 0 N = some none) := by
  have hle : ∀ i j, i ≤ j → j < N →
      fetchS prog (pc + (sz + 2) * i) sz ≤ fetchS prog (pc + (sz + 2) * j) sz := by
    intro i j hij hj
    rcases Nat.lt_or_eq_of_le hij with h | h
    · exact le_of_lt (hsorted i j h hj)
    · rw [h]
  obtain ⟨h1, h2⟩ := bsearch_spec
    (fun m => number = fetchS prog (pc + (sz + 2) * m) sz)
    (fun m => number < fetchS prog (pc + (sz + 2) * m) sz)
    (fun m => fetchU prog (pc + (sz + 2) * m + sz) 2)
    (switchIntLoop prog pc sz number)
    (fun fuel l h => switchIntLoop_succ prog pc sz number fuel l h) N
    (fun i j hij hj hB hE => by
      have := hle i j hij hj
      simp only at hB hE
      omega)
    (fun i j hij hj hE hB hEi => by
      have := hle i j hij hj
      simp only at hB hE hEi
      omega)
    fuel 0 N (le_refl _) (by omega)
  constructor
  · intro i hi hk
    obtain ⟨k, _, k2, k3, k4⟩ := h1 ⟨i, Nat.zero_le _, hi, hk.symm⟩
    have hki : k = i := by
      rcases Nat.lt_trichotomy k i with h | h | h
      · have := hsorted k i h hi
        omega
      · exact h
      · have := hsorted i k h k2
        omega
    rw [k4, hki]
  · intro hno
    exact h2 (fun i _ hi hE => hno i hi hE.symm)

/-- C28: let the int switch table at `pc` have a key size `sz` of 1 to 4 and
`h - 1` entries, `h` being the count it starts with, whose keys, read with
their sign and the high byte first, are strictly ascending. For an Int on top
of the stack `i_switch_int` returns the 2-byte target of the entry whose key
is the number when there is such an entry, and the default target when there
is none; for an operand that is not an Int it returns the default target. -/
theorem i_switch_int_selects (prog : Nat → Nat) (fuel : Nat) (st : Interp) (f pc : Nat)
    (hsz : 1 ≤ fetchU prog (pc + 2) 1 ∧ fetchU prog (pc + 2) 1 ≤ 4)
    (hsorted : ∀ j, j < decU16 (fetchU prog pc 2) → ∀ i, i < j →
      fetchS prog (pc + 5 + (fetchU prog (pc + 2) 1 + 2) * i) (fetchU prog (pc + 2) 1)
        < fetchS prog (pc + 5 + (fetchU prog (pc + 2) 1 + 2) * j) (fetchU prog (pc + 2) 1))
    (hfuel : decU16 (fetchU prog pc 2) < fuel) :
    ((st.mem (st.frame f).sp).type = .int →
      (∀ i, i < decU16 (fetchU prog pc 2) →
        fetchS prog (pc + 5 + (fetchU prog (pc + 2) 1 + 2) * i) (fetchU prog (pc + 2) 1)
          = (st.mem (st.frame f).sp).number →
        i_switch_int prog fuel st f pc
          = some (fetchU prog
              (pc + 5 + (fetchU prog (pc + 2) 1 + 2) * i + fetchU prog (pc + 2) 1) 2))
      ∧ ((∀ i, i < decU16 (fetchU prog pc 2) →
          fetchS prog (pc + 5 + (fetchU prog (pc + 2) 1 + 2) * i) (fetchU prog (pc + 2) 1)
            ≠ (st.mem (st.frame f).sp).number) →
        i_switch_int prog fuel st f pc = some (fetchU prog (pc + 3) 2)))
    ∧ ((st.mem (st.frame f).sp).type ≠ .int →
      i_switch_int prog fuel st f pc = some (fetchU prog (pc + 3) 2)) := by
  constructor
  · intro hint
    obtain ⟨h1, h2⟩ := switchIntLoop_spec prog (pc + 5) (fetchU prog (pc + 2) 1)
      (st.mem (st.frame f).sp).number (decU16 (fetchU prog pc 2)) fuel
      (fun i j hij hj => hsorted j hj i hij) hfuel
    constructor
    · intro i hi hk
      unfold i_switch_int
      simp only [hint, ne_eq, not_true_eq_false, if_false, hsz, and_self, if_true, h1 i hi hk]
    · intro hno
      unfold i_switch_int
      simp only [hint, ne_eq, not_true_eq_false, if_false, hsz, and_self, if_true, h2 hno]
  · intro hint
    unfold i_switch_int
    simp only [ne_eq, hint, not_false_eq_true, if_true]

theorem i_switch_int_selects_witness :
    (1 ≤ fetchU exSwitchInt (0 + 2) 1 ∧ fetchU exSwitchInt (0 + 2) 1 ≤ 4)
    ∧ decU16 (fetchU exSwitchInt 0 2) = 3
    ∧ fetchS exSwitchInt 5 1 = -3
    ∧ fetchS exSwitchInt 8 1 = (exIntTop.mem (exIntTop.frame 1).sp).number
    ∧ i_switch_int exSwitchInt 4 exIntTop 1 0 = some 20
    ∧ i_switch_int exSwitchInt 4 exInterp 1 0 = some 99 :=
  have h := i_switch_int_selects exSwitchInt 4 exIntTop 1 0 (by decide) (by decide) (by decide)
  have h0 := i_switch_int_selects exSwitchInt 4 exInterp 1 0 (by decide) (by decide)
    (by decide)
  ⟨by decide, by decide, by decide, by decide, (h.1 (by decide)).1 1 (by decide) (by decide),
    h0.2 (by decide)⟩

/-- One pass of the loop of `i_switch_range`. -/
theorem switchRangeLoop_succ (prog : Nat → Nat) (pc sz : Nat) (number : Int)
    (fuel l h : Nat) :
    switchRangeLoop prog pc sz number (fuel + 1) l h
      = if l < h then
          (if fetchS prog (pc + (2 * sz + 2) * ((l + h) >>> 1)) sz ≤ number
                ∧ number ≤ fetchS prog (pc + (2 * sz + 2) * ((l + h) >>> 1) + sz) sz then
              some (some (fetchU prog (pc + (2 * sz + 2) * ((l + h) >>> 1) + sz + sz) 2))
            else if number < fetchS prog (pc + (2 * sz + 2) * ((l + h) >>> 1)) sz then
              switchRangeLoop prog pc sz number fuel l ((l + h) >>> 1)
            else switchRangeLoop prog pc sz number fuel ((l + h) >>> 1 + 1) h)
        else some none := by
  show (if l < h then
      (if number < fetchS prog (pc + (2 * sz + 2) * ((l + h) >>> 1)) sz then
          switchRangeLoop prog pc sz number fuel l ((l + h) >>> 1)
        else if number ≤ fetchS prog (pc + (2 * sz + 2) * ((l + h) >>> 1) + sz) sz then
          some (some (fetchU prog (pc + (2 * sz + 2) * ((l + h) >>> 1) + sz + sz) 2))
        else switchRangeLoop prog pc sz number fuel ((l + h) >>> 1 + 1) h)
      else some none) = _
  by_cases hlh : l < h
  · rw [if_pos hlh, if_pos hlh]
    by_cases hb : number < fetchS prog (pc + (2 * sz + 2) * ((l + h) >>> 1)) sz
    · rw [if_pos hb, if_neg (fun k => absurd k.1 (not_le.mpr hb)), if_pos hb]
    · rw [if_neg hb]
      by_cases he : number ≤ fetchS prog (pc + (2 * sz + 2) * ((l + h) >>> 1) + sz) sz
      · rw [if_pos he, if_pos ⟨not_lt.mp hb, he⟩]
      · rw [if_neg he, if_neg (fun k => he k.2), if_neg hb]
  · rw [if_neg hlh, if_neg hlh]

/-- The loop of `i_switch_range` on a table of `N` ranges that are ascending
and disjoint: it ends, with the target of the range that holds the number if
there is one. -/
theorem switchRangeLoop_spec (prog : Nat → Nat) (pc sz : Nat) (number : Int) (N fuel : Nat)
    (hrange : ∀ i, i < N →
      fetchS prog (pc + (2 * sz + 2) * i) sz ≤ fetchS prog (pc + (2 * sz + 2) * i + sz) sz)
    (hsorted : ∀ i j, i < j → j < N →
      fetchS prog (pc + (2 * sz + 2) * i + sz) sz < fetchS prog (pc + (2 * sz + 2) * j) sz)
    (hfuel : N < fuel) :
    (∀ i, i < N → fetchS prog (pc + (2 * sz + 2) * i) sz ≤ number →
      number ≤ fetchS prog (pc + (2 * sz + 2) * i + sz) sz →
      switchRangeLoop prog pc sz number fuel 0 N
        = some (some (fetchU prog (pc + (2 * sz + 2) * i + sz + sz) 2)))
    ∧ ((∀ i, i < N → ¬ (fetchS prog (pc + (2 * sz + 2) * i) sz ≤ number
          ∧ number ≤ fetchS prog (pc + (2 * sz + 2) * i + sz) sz)) →
      switchRangeLoop prog pc sz number fuel 0 N = some none) := by
  have hle : ∀ i j, i ≤ j → j < N →
      fetchS prog (pc + (2 * sz + 2) * i) sz ≤ fetchS prog (pc + (2 * sz + 2) * j) sz := by
    intro i j hij hj
    rcases Nat.lt_or_eq_of_le hij with h | h
    · have h1 := hsorted i j h hj
      have h2 := hrange i (by omega)
      omega
    · rw [h]
  obtain ⟨h1, h2⟩ := bsearch_spec
    (fun m => fetchS prog (pc + (2 * sz + 2) * m) sz ≤ number
      ∧ number ≤ fetchS prog (pc + (2 * sz + 2) * m + sz) sz)
    (fun m => number < fetchS prog (pc + (2 * sz + 2) * m) sz)
    (fun m => fetchU prog (pc + (2 * sz + 2) * m + sz + sz) 2)
    (switchRangeLoop prog pc sz number)
    (fun fuel l h => switchRangeLoop_succ prog pc sz number fuel l h) N
    (fun i j hij hj hB hE => by
      have := hle i j hij hj
      simp only at hB hE
      omega)
    (fun i j hij hj hE hB hEi => by
      simp only at hB hE hEi
      rcases Nat.lt_or_eq_of_le hij with h | h
      · have := hsorted i j h hj
        omega
      · rw [h] at hEi
        exact hE hEi)
    fuel 0 N (le_refl _) (by omega)
  constructor
  · intro i hi hk1 hk2
    obtain ⟨k, _, k2, k3, k4⟩ := h1 ⟨i, Nat.zero_le _, hi, hk1, hk2⟩
    have hki : k = i := by
      rcases Nat.lt_trichotomy k i with h | h | h
      · have := hsorted k i h hi
        omega
      · exact h
      · have := hsorted i k h k2
        omega
    rw [k4, hki]
  · intro hno
    exact h2 (fun i _ hi hE => hno i hi hE)

/-- C29: let the range switch table at `pc` have a bound size `sz` of 1 to 4
and `h - 1` entries, `h` being the count it starts with, each with
`low ≤ high`, ascending and disjoint (the high bound of an entry is below the
low bound of every later one). For an Int on top of the stack
`i_switch_range` returns the target of the entry with `low ≤ V ≤ high` when
there is such an entry, and the default target when there is none; for an
operand that is not an Int it returns the default target. -/
theorem i_switch_range_selects (prog : Nat → Nat) (fuel : Nat) (st : Interp) (f pc : Nat)
    (hsz : 1 ≤ fetchU prog (pc + 2) 1 ∧ fetchU prog (pc + 2) 1 ≤ 4)
    (hrange : ∀ i, i < decU16 (fetchU prog pc 2) →
      fetchS prog (pc + 5 + (2 * fetchU prog (pc + 2) 1 + 2) * i) (fetchU prog (pc + 2) 1)
        ≤ fetchS prog (pc + 5 + (2 * fetchU prog (pc + 2) 1 + 2) * i + fetchU prog (pc + 2) 1)
            (fetchU prog (pc + 2) 1))
    (hsorted : ∀ j, j < decU16 (fetchU prog pc 2) → ∀ i, i < j →
      fetchS prog (pc + 5 + (2 * fetchU prog (pc + 2) 1 + 2) * i + fetchU prog (pc + 2) 1)
          (fetchU prog (pc + 2) 1)
        < fetchS prog (pc + 5 + (2 * fetchU prog (pc + 2) 1 + 2) * j)
            (fetchU prog (pc + 2) 1))
    (hfuel : decU16 (fetchU prog pc 2) < fuel) :
    ((st.mem (st.frame f).sp).type = .int →
      (∀ i, i < decU16 (fetchU prog pc 2) →
        fetchS prog (pc + 5 + (2 * fetchU prog (pc + 2) 1 + 2) * i) (fetchU prog (pc + 2) 1)
          ≤ (st.mem (st.frame f).sp).number →
        (st.mem (st.frame f).sp).number
          ≤ fetchS prog (pc + 5 + (2 * fetchU prog (pc + 2) 1 + 2) * i
              + fetchU prog (pc + 2) 1) (fetchU prog (pc + 2) 1) →
        i_switch_range prog fuel st f pc
          = some (fetchU prog (pc + 5 + (2 * fetchU prog (pc + 2) 1 + 2) * i
              + fetchU prog (pc + 2) 1 + fetchU prog (pc + 2) 1) 2))
      ∧ ((∀ i, i < decU16 (fetchU prog pc 2) →
          ¬ (fetchS prog (pc + 5 + (2 * fetchU prog (pc + 2) 1 + 2) * i)
                (fetchU prog (pc + 2) 1) ≤ (st.mem (st.frame f).sp).number
            ∧ (st.mem (st.frame f).sp).number
              ≤ fetchS prog (pc + 5 + (2 * fetchU prog (pc + 2) 1 + 2) * i
                  + fetchU prog (pc + 2) 1) (fetchU prog (pc + 2) 1))) →
        i_switch_range prog fuel st f pc = some (fetchU prog (pc + 3) 2)))
    ∧ ((st.mem (st.frame f).sp).type ≠ .int →
      i_switch_range prog fuel st f pc = some (fetchU prog (pc + 3) 2)) := by
  constructor
  · intro hint
    obtain ⟨h1, h2⟩ := switchRangeLoop_spec prog (pc + 5) (fetchU prog (pc + 2) 1)
      (st.mem (st.frame f).sp).number (decU16 (fetchU prog pc 2)) fuel hrange
      (fun i j hij hj => hsorted j hj i hij) hfuel
    constructor
    · intro i hi hk1 hk2
      unfold i_switch_range
      simp only [hint, ne_eq, not_true_eq_false, if_false, hsz, and_self, if_true,
        h1 i hi hk1 hk2]
    · intro hno
      unfold i_switch_range
      simp only [hint, ne_eq, not_true_eq_false, if_false, hsz, and_self, if_true, h2 hno]
  · intro hint
    unfold i_switch_range
    simp only [ne_eq, hint, not_false_eq_true, if_true]

theorem i_switch_range_selects_witness :
    (1 ≤ fetchU exSwitchRange (0 + 2) 1 ∧ fetchU exSwitchRange (0 + 2) 1 ≤ 4)
    ∧ decU16 (fetchU exSwitchRange 0 2) = 2
    ∧ fetchS exSwitchRange 5 1 = -3 ∧ fetchS exSwitchRange 6 1 = 5
    ∧ fetchS exSwitchRange 9 1 = 40 ∧ fetchS exSwitchRange 10 1 = 50
    ∧ (exIntTop.mem (exIntTop.frame 1).sp).number = 42
    ∧ i_switch_range exSwitchRange 3 exIntTop 1 0 = some 20
    ∧ i_switch_range exSwitchRange 3 exInterp 1 0 = some 99 :=
  have h := i_switch_range_selects exSwitchRange 3 exIntTop 1 0 (by decide) (by decide)
    (by decide) (by decide)
  have h0 := i_switch_range_selects exSwitchRange 3 exInterp 1 0 (by decide) (by decide)
    (by decide) (by decide)
  ⟨by decide, by decide, by decide, by decide, by decide, by decide, by decide,
    (h.1 (by decide)).1 1 (by decide) (by decide) (by decide), h0.2 (by decide)⟩

/-- One pass of the loop of `i_switch_str`. -/
theorem switchStrLoop_succ (strconst : Nat → Nat → Nat) (str_cmp : Nat → Nat → Int)
    (prog : Nat → Nat) (pc str fuel l h : Nat) :
    switchStrLoop strconst str_cmp prog pc str (fuel + 1) l h
      = if l < h then
          (if str_cmp str (strEntry strconst prog pc ((l + h) >>> 1)) = 0 then
              some (some (fetchU prog (pc + 5 * ((l + h) >>> 1) + 3) 2))
            else if str_cmp str (strEntry strconst prog pc ((l + h) >>> 1)) < 0 then
              switchStrLoop strconst str_cmp prog pc str fuel l ((l + h) >>> 1)
            else switchStrLoop strconst str_cmp prog pc str fuel ((l + h) >>> 1 + 1) h)
        else some none := rfl

/-- The loop of `i_switch_str` on a table of `N` entries whose strings are
strictly ascending under a comparison that is transitive and compatible with
equality: it ends, with the target of the entry whose string compares equal
to the operand if there is one. -/
theorem switchStrLoop_spec (strconst : Nat → Nat → Nat) (str_cmp : Nat → Nat → Int)
    (prog : Nat → Nat) (pc str N fuel : Nat)
    (htrans : ∀ a b c, str_cmp a b < 0 → str_cmp b c < 0 → str_cmp a c < 0)
    (hequal : ∀ a b c, str_cmp a b = 0 → str_cmp b c < 0 → str_cmp a c < 0)
    (hsorted : ∀ i j, i < j → j < N →
      str_cmp (strEntry strconst prog pc i) (strEntry strconst prog pc j) < 0)
    (hfuel : N < fuel) :
    (∀ i, i < N → str_cmp str (strEntry strconst prog pc i) = 0 →
      switchStrLoop strconst str_cmp prog pc str fuel 0 N
        = some (some (fetchU prog (pc + 5 * i + 3) 2)))
    ∧ ((∀ i, i < N → str_cmp str (strEntry strconst prog pc i) ≠ 0) →
      switchStrLoop strconst str_cmp prog pc str fuel 0 N = some none) := by
  obtain ⟨h1, h2⟩ := bsearch_spec
    (fun m => str_cmp str (strEntry strconst prog pc m) = 0)
    (fun m => str_cmp str (strEntry strconst prog pc m) < 0)
    (fun m => fetchU prog (pc + 5 * m + 3) 2)
    (switchStrLoop strconst str_cmp prog pc str)
    (fun fuel l h => switchStrLoop_succ strconst str_cmp prog pc str fuel l h) N
    (fun i j hij hj hB hE => by
      simp only at hB hE
      rcases Nat.lt_or_eq_of_le hij with h | h
      · have := htrans _ _ _ hB (hsorted i j h hj)
        omega
      · rw [h] at hB
        omega)
    (fun i j hij hj hE hB hEi => by
      simp only at hB hE hEi
      rcases Nat.lt_or_eq_of_le hij with h | h
      · exact hB (hequal _ _ _ hEi (hsorted i j h hj))
      · rw [h] at hEi
        exact hE hEi)
    fuel 0 N (le_refl _) (by omega)
  constructor
  · intro i hi hk
    obtain ⟨k, _, k2, k3, k4⟩ := h1 ⟨i, Nat.zero_le _, hi, hk⟩
    have hki : k = i := by
      rcases Nat.lt_trichotomy k i with h | h | h
      · have := hequal _ _ _ k3 (hsorted k i h hi)
        omega
      · exact h
      · have := hequal _ _ _ hk (hsorted i k h k2)
        omega
    rw [k4, hki]
  · intro hno
    exact h2 (fun i _ hi hE => hno i hi hE)

/-- A String is not the nil value. -/
theorem VAL_NIL_string (st : Interp) (v : Value) (h : v.type = .string) :
    VAL_NIL st v = false := by
  unfold VAL_NIL nil_value
  rw [h]
  cases st.stricttc <;> simp

/-- C30: let the string entries of the string switch table at `pc` be strictly
ascending under the comparison of strings, which is transitive and compatible
with equality. For a nil operand `i_switch_str` returns the target of the nil
branch when the table has one (the byte at `pc + 4` is 0) and the default
target when it has none. For a String operand it returns the target of the
entry whose string constant compares equal to it when there is such an entry
and the default target when there is none, never the target of the nil
branch as such. For an operand that is neither nil nor a String it returns
the default target. -/
theorem i_switch_str_selects (strconst : Nat → Nat → Nat) (str_cmp : Nat → Nat → Int)
    (prog : Nat → Nat) (fuel : Nat) (st : Interp) (f pc : Nat)
    (htrans : ∀ a b c, str_cmp a b < 0 → str_cmp b c < 0 → str_cmp a c < 0)
    (hequal : ∀ a b c, str_cmp a b = 0 → str_cmp b c < 0 → str_cmp a c < 0)
    (hsorted : ∀ j, j < strTableCount prog pc → ∀ i, i < j →
      str_cmp (strEntry strconst prog (strTablePc prog pc) i)
        (strEntry strconst prog (strTablePc prog pc) j) < 0)
    (hfuel : strTableCount prog pc < fuel) :
    (VAL_NIL st (st.mem (st.frame f).sp) = true →
      i_switch_str strconst str_cmp prog fuel st f pc
        = some (if fetchU prog (pc + 4) 1 = 0 then fetchU prog (pc + 5) 2
            else fetchU prog (pc + 2) 2))
    ∧ ((st.mem (st.frame f).sp).type = .string →
      (∀ i, i < strTableCount prog pc →
        str_cmp (st.mem (st.frame f).sp).u
          (strEntry strconst prog (strTablePc prog pc) i) = 0 →
        i_switch_str strconst str_cmp prog fuel st f pc
          = some (fetchU prog (strTablePc prog pc + 5 * i + 3) 2))
      ∧ ((∀ i, i < strTableCount prog pc →
          str_cmp (st.mem (st.frame f).sp).u
            (strEntry strconst prog (strTablePc prog pc) i) ≠ 0) →
        i_switch_str strconst str_cmp prog fuel st f pc = some (fetchU prog (pc + 2) 2)))
    ∧ (VAL_NIL st (st.mem (st.frame f).sp) = false →
      (st.mem (st.frame f).sp).type ≠ .string →
      i_switch_str strconst str_cmp prog fuel st f pc = some (fetchU prog (pc + 2) 2)) := by
  have hnilstr : VAL_NIL st (st.mem (st.frame f).sp) = true →
      (st.mem (st.frame f).sp).type ≠ .string := by
    intro h1 h2
    rw [VAL_NIL_string st _ h2] at h1
    exact absurd h1 (by decide)
  refine ⟨?_, ?_, ?_⟩
  · intro hnil
    unfold i_switch_str
    by_cases hb : fetchU prog (pc + 4) 1 = 0
    · simp only [hb, if_true, hnil]
    · simp only [hb, if_false]
      unfold switchStrTable
      rw [if_pos (hnilstr hnil)]
  · intro hstr
    have hnil := VAL_NIL_string st _ hstr
    obtain ⟨h1, h2⟩ := switchStrLoop_spec strconst str_cmp prog (strTablePc prog pc)
      (st.mem (st.frame f).sp).u (strTableCount prog pc) fuel htrans hequal
      (fun i j hij hj => hsorted j hj i hij) hfuel
    unfold strTablePc strTableCount at h1 h2
    unfold strTablePc strTableCount
    constructor
    · intro i hi hk
      unfold i_switch_str switchStrTable
      by_cases hb : fetchU prog (pc + 4) 1 = 0
      · simp only [hb, if_true] at h1 hi hk ⊢
        simp only [hnil, Bool.false_eq_true, if_false, hstr, ne_eq, not_true_eq_false,
          h1 i hi hk]
      · simp only [hb, if_false] at h1 hi hk ⊢
        simp only [hstr, ne_eq, not_true_eq_false, if_false, h1 i hi hk]
    · intro hno
      unfold i_switch_str switchStrTable
      by_cases hb : fetchU prog (pc + 4) 1 = 0
      · simp only [hb, if_true] at h2 hno ⊢
        simp only [hnil, Bool.false_eq_true, if_false, hstr, ne_eq, not_true_eq_false,
          h2 hno]
      · simp only [hb, if_false] at h2 hno ⊢
        simp only [hstr, ne_eq, not_true_eq_false, if_false, h2 hno]
  · intro hnil hstr
    unfold i_switch_str switchStrTable
    by_cases hb : fetchU prog (pc + 4) 1 = 0
    · simp only [hb, if_true, hnil, Bool.false_eq_true, if_false, ne_eq, hstr,
        not_false_eq_true]
    · simp only [hb, if_false, ne_eq, hstr, not_false_eq_true, if_true]

theorem i_switch_str_selects_witness :
    (∀ a b c, exStrCmp a b < 0 → exStrCmp b c < 0 → exStrCmp a c < 0)
    ∧ (∀ a b c, exStrCmp a b = 0 → exStrCmp b c < 0 → exStrCmp a c < 0)
    ∧ strTableCount exSwitchStr 0 = 2
    ∧ strEntry exStrconst exSwitchStr (strTablePc exSwitchStr 0) 1 = 5
    ∧ (exInterp.mem (exInterp.frame 1).sp).type = .string
    ∧ (exInterp.mem (exInterp.frame 1).sp).u = 5
    ∧ i_switch_str exStrconst exStrCmp exSwitchStr 3 exInterp 1 0 = some 20
    ∧ i_switch_str exStrconst exStrCmp exSwitchStr 3 exIntTop 1 0 = some 99
    ∧ i_switch_str exStrconst exStrCmp exSwitchStr 3 (exInterp.setSp 1 105) 1 0 = some 7 :=
  have ht : ∀ a b c, exStrCmp a b < 0 → exStrCmp b c < 0 → exStrCmp a c < 0 := by
    unfold exStrCmp
    intro a b c h1 h2
    omega
  have he : ∀ a b c, exStrCmp a b = 0 → exStrCmp b c < 0 → exStrCmp a c < 0 := by
    unfold exStrCmp
    intro a b c h1 h2
    omega
  have h := i_switch_str_selects exStrconst exStrCmp exSwitchStr 3 exInterp 1 0 ht he
    (by decide) (by decide)
  have h1 := i_switch_str_selects exStrconst exStrCmp exSwitchStr 3 exIntTop 1 0 ht he
    (by decide) (by decide)
  have h2 := i_switch_str_selects exStrconst exStrCmp exSwitchStr 3 (exInterp.setSp 1 105) 1 0
    ht he (by decide) (by decide)
  ⟨ht, he, by decide, by decide, by decide, by decide,
    (h.2.1 (by decide)).1 1 (by decide) (by decide),
    h1.2.2 (by decide) (by decide), h2.1 (by decide)⟩

end Dgd

namespace Dgd

/-! ## Function calls: the fields the assignments leave -/

@[simp] theorem wrVal_stack0 (st : Interp) (p : Nat) (v : Value) :
    (st.wrVal p v).stack0 = st.stack0 := rfl
@[simp] theorem wrVal_rl (st : Interp) (p : Nat) (v : Value) : (st.wrVal p v).rl = st.rl := rfl
@[simp] theorem wrVal_freed (st : Interp) (p : Nat) (v : Value) :
    (st.wrVal p v).freed = st.freed := rfl
@[simp] theorem wrVal_cframe (st : Interp) (p : Nat) (v : Value) :
    (st.wrVal p v).cframe = st.cframe := rfl
@[simp] theorem wrVal_elts (st : Interp) (p : Nat) (v : Value) :
    (st.wrVal p v).elts = st.elts := rfl
@[simp] theorem wrVal_arrSize (st : Interp) (p : Nat) (v : Value) :
    (st.wrVal p v).arrSize = st.arrSize := rfl
@[simp] theorem setSp_rl (st : Interp) (f p : Nat) : (st.setSp f p).rl = st.rl := rfl
@[simp] theorem setSp_cframe (st : Interp) (f p : Nat) : (st.setSp f p).cframe = st.cframe := rfl
@[simp] theorem setSp_elts (st : Interp) (f p : Nat) : (st.setSp f p).elts = st.elts := rfl
@[simp] theorem setSp_arrSize (st : Interp) (f p : Nat) : (st.setSp f p).arrSize = st.arrSize := rfl
@[simp] theorem setFrame_stricttc (st : Interp) (f : Nat) (fr : Frame) :
    (st.setFrame f fr).stricttc = st.stricttc := rfl
@[simp] theorem setFrame_strRef (st : Interp) (f : Nat) (fr : Frame) :
    (st.setFrame f fr).strRef = st.strRef := rfl
@[simp] theorem setFrame_arrRef (st : Interp) (f : Nat) (fr : Frame) :
    (st.setFrame f fr).arrRef = st.arrRef := rfl
@[simp] theorem setFrame_elt0 (st : Interp) (f : Nat) (fr : Frame) :
    (st.setFrame f fr).elt0 = st.elt0 := rfl
@[simp] theorem setFrame_objCount (st : Interp) (f : Nat) (fr : Frame) :
    (st.setFrame f fr).objCount = st.objCount := rfl
@[simp] theorem setFrame_cframe (st : Interp) (f : Nat) (fr : Frame) :
    (st.setFrame f fr).cframe = st.cframe := rfl
@[simp] theorem setFrame_elts (st : Interp) (f : Nat) (fr : Frame) :
    (st.setFrame f fr).elts = st.elts := rfl
@[simp] theorem setFrame_arrSize (st : Interp) (f : Nat) (fr : Frame) :
    (st.setFrame f fr).arrSize = st.arrSize := rfl
@[simp] theorem setRl_stricttc (st : Interp) (r : Nat) (x : Rlinfo) :
    (st.setRl r x).stricttc = st.stricttc := rfl
@[simp] theorem setRl_stack0 (st : Interp) (r : Nat) (x : Rlinfo) :
    (st.setRl r x).stack0 = st.stack0 := rfl
@[simp] theorem setRl_strRef (st : Interp) (r : Nat) (x : Rlinfo) :
    (st.setRl r x).strRef = st.strRef := rfl
@[simp] theorem setRl_arrRef (st : Interp) (r : Nat) (x : Rlinfo) :
    (st.setRl r x).arrRef = st.arrRef := rfl
@[simp] theorem setRl_elt0 (st : Interp) (r : Nat) (x : Rlinfo) :
    (st.setRl r x).elt0 = st.elt0 := rfl
@[simp] theorem setRl_objCount (st : Interp) (r : Nat) (x : Rlinfo) :
    (st.setRl r x).objCount = st.objCount := rfl
@[simp] theorem setRl_cframe (st : Interp) (r : Nat) (x : Rlinfo) :
    (st.setRl r x).cframe = st.cframe := rfl
@[simp] theorem setRl_elts (st : Interp) (r : Nat) (x : Rlinfo) :
    (st.setRl r x).elts = st.elts := rfl
@[simp] theorem setRl_arrSize (st : Interp) (r : Nat) (x : Rlinfo) :
    (st.setRl r x).arrSize = st.arrSize := rfl
@[simp] theorem free_stricttc (st : Interp) (p : Nat) : (st.free p).stricttc = st.stricttc := rfl
@[simp] theorem free_strRef (st : Interp) (p : Nat) : (st.free p).strRef = st.strRef := rfl
@[simp] theorem free_arrRef (st : Interp) (p : Nat) : (st.free p).arrRef = st.arrRef := rfl
@[simp] theorem free_elt0 (st : Interp) (p : Nat) : (st.free p).elt0 = st.elt0 := rfl
@[simp] theorem free_objCount (st : Interp) (p : Nat) : (st.free p).objCount = st.objCount := rfl
@[simp] theorem free_cframe (st : Interp) (p : Nat) : (st.free p).cframe = st.cframe := rfl
@[simp] theorem free_elts (st : Interp) (p : Nat) : (st.free p).elts = st.elts := rfl
@[simp] theorem free_arrSize (st : Interp) (p : Nat) : (st.free p).arrSize = st.arrSize := rfl
@[simp] theorem str_ref_stricttc (st : Interp) (s : Nat) :
    (str_ref st s).stricttc = st.stricttc := rfl
@[simp] theorem str_ref_stack0 (st : Interp) (s : Nat) : (str_ref st s).stack0 = st.stack0 := rfl
@[simp] theorem str_ref_rl (st : Interp) (s : Nat) : (str_ref st s).rl = st.rl := rfl
@[simp] theorem str_ref_elt0 (st : Interp) (s : Nat) : (str_ref st s).elt0 = st.elt0 := rfl
@[simp] theorem str_ref_objCount (st : Interp) (s : Nat) :
    (str_ref st s).objCount = st.objCount := rfl
@[simp] theorem str_ref_freed (st : Interp) (s : Nat) : (str_ref st s).freed = st.freed := rfl
@[simp] theorem str_ref_cframe (st : Interp) (s : Nat) : (str_ref st s).cframe = st.cframe := rfl
@[simp] theorem str_ref_elts (st : Interp) (s : Nat) : (str_ref st s).elts = st.elts := rfl
@[simp] theorem str_ref_arrSize (st : Interp) (s : Nat) : (str_ref st s).arrSize = st.arrSize := rfl
@[simp] theorem arr_ref_stricttc (st : Interp) (a : Nat) :
    (arr_ref st a).stricttc = st.stricttc := rfl
@[simp] theorem arr_ref_stack0 (st : Interp) (a : Nat) : (arr_ref st a).stack0 = st.stack0 := rfl
@[simp] theorem arr_ref_rl (st : Interp) (a : Nat) : (arr_ref st a).rl = st.rl := rfl
@[simp] theorem arr_ref_elt0 (st : Interp) (a : Nat) : (arr_ref st a).elt0 = st.elt0 := rfl
@[simp] theorem arr_ref_objCount (st : Interp) (a : Nat) :
    (arr_ref st a).objCount = st.objCount := rfl
@[simp] theorem arr_ref_freed (st : Interp) (a : Nat) : (arr_ref st a).freed = st.freed := rfl
@[simp] theorem arr_ref_cframe (st : Interp) (a : Nat) : (arr_ref st a).cframe = st.cframe := rfl
@[simp] theorem arr_ref_elts (st : Interp) (a : Nat) : (arr_ref st a).elts = st.elts := rfl
@[simp] theorem arr_ref_arrSize (st : Interp) (a : Nat) : (arr_ref st a).arrSize = st.arrSize := rfl
@[simp] theorem str_del_stricttc (st : Interp) (s : Nat) :
    (str_del st s).stricttc = st.stricttc := rfl
@[simp] theorem str_del_stack0 (st : Interp) (s : Nat) : (str_del st s).stack0 = st.stack0 := rfl
@[simp] theorem str_del_rl (st : Interp) (s : Nat) : (str_del st s).rl = st.rl := rfl
@[simp] theorem str_del_elt0 (st : Interp) (s : Nat) : (str_del st s).elt0 = st.elt0 := rfl
@[simp] theorem str_del_objCount (st : Interp) (s : Nat) :
    (str_del st s).objCount = st.objCount := rfl
@[simp] theorem str_del_freed (st : Interp) (s : Nat) : (str_del st s).freed = st.freed := rfl
@[simp] theorem str_del_cframe (st : Interp) (s : Nat) : (str_del st s).cframe = st.cframe := rfl
@[simp] theorem str_del_elts (st : Interp) (s : Nat) : (str_del st s).elts = st.elts := rfl
@[simp] theorem str_del_arrSize (st : Interp) (s : Nat) : (str_del st s).arrSize = st.arrSize := rfl
@[simp] theorem setElt_stricttc (st : Interp) (a i : Nat) (v : Value) :
    (st.setElt a i v).stricttc = st.stricttc := rfl
@[simp] theorem setElt_stack0 (st : Interp) (a i : Nat) (v : Value) :
    (st.setElt a i v).stack0 = st.stack0 := rfl
@[simp] theorem setElt_mem (st : Interp) (a i : Nat) (v : Value) :
    (st.setElt a i v).mem = st.mem := rfl
@[simp] theorem setElt_frame (st : Interp) (a i : Nat) (v : Value) :
    (st.setElt a i v).frame = st.frame := rfl
@[simp] theorem setElt_rl (st : Interp) (a i : Nat) (v : Value) :
    (st.setElt a i v).rl = st.rl := rfl
@[simp] theorem setElt_strRef (st : Interp) (a i : Nat) (v : Value) :
    (st.setElt a i v).strRef = st.strRef := rfl
@[simp] theorem setElt_arrRef (st : Interp) (a i : Nat) (v : Value) :
    (st.setElt a i v).arrRef = st.arrRef := rfl
@[simp] theorem setElt_objCount (st : Interp) (a i : Nat) (v : Value) :
    (st.setElt a i v).objCount = st.objCount := rfl
@[simp] theorem setElt_freed (st : Interp) (a i : Nat) (v : Value) :
    (st.setElt a i v).freed = st.freed := rfl
@[simp] theorem setElt_cframe (st : Interp) (a i : Nat) (v : Value) :
    (st.setElt a i v).cframe = st.cframe := rfl
@[simp] theorem setElt_arrSize (st : Interp) (a i : Nat) (v : Value) :
    (st.setElt a i v).arrSize = st.arrSize := rfl
@[simp] theorem arr_new_stricttc (st : Interp) (a n : Nat) :
    (arr_new st a n).stricttc = st.stricttc := rfl
@[simp] theorem arr_new_stack0 (st : Interp) (a n : Nat) :
    (arr_new st a n).stack0 = st.stack0 := rfl
@[simp] theorem arr_new_mem (st : Interp) (a n : Nat) : (arr_new st a n).mem = st.mem := rfl
@[simp] theorem arr_new_frame (st : Interp) (a n : Nat) : (arr_new st a n).frame = st.frame := rfl
@[simp] theorem arr_new_rl (st : Interp) (a n : Nat) : (arr_new st a n).rl = st.rl := rfl
@[simp] theorem arr_new_strRef (st : Interp) (a n : Nat) :
    (arr_new st a n).strRef = st.strRef := rfl
@[simp] theorem arr_new_elt0 (st : Interp) (a n : Nat) : (arr_new st a n).elt0 = st.elt0 := rfl
@[simp] theorem arr_new_objCount (st : Interp) (a n : Nat) :
    (arr_new st a n).objCount = st.objCount := rfl
@[simp] theorem arr_new_freed (st : Interp) (a n : Nat) : (arr_new st a n).freed = st.freed := rfl
@[simp] theorem arr_new_cframe (st : Interp) (a n : Nat) :
    (arr_new st a n).cframe = st.cframe := rfl
@[simp] theorem arr_new_elts (st : Interp) (a n : Nat) : (arr_new st a n).elts = st.elts := rfl
@[simp] theorem pushVal_stricttc (st : Interp) (f : Nat) (v : Value) :
    (st.pushVal f v).stricttc = st.stricttc := rfl
@[simp] theorem pushVal_stack0 (st : Interp) (f : Nat) (v : Value) :
    (st.pushVal f v).stack0 = st.stack0 := rfl
@[simp] theorem pushVal_rl (st : Interp) (f : Nat) (v : Value) : (st.pushVal f v).rl = st.rl := rfl
@[simp] theorem pushVal_strRef (st : Interp) (f : Nat) (v : Value) :
    (st.pushVal f v).strRef = st.strRef := rfl
@[simp] theorem pushVal_arrRef (st : Interp) (f : Nat) (v : Value) :
    (st.pushVal f v).arrRef = st.arrRef := rfl
@[simp] theorem pushVal_elt0 (st : Interp) (f : Nat) (v : Value) :
    (st.pushVal f v).elt0 = st.elt0 := rfl
@[simp] theorem pushVal_objCount (st : Interp) (f : Nat) (v : Value) :
    (st.pushVal f v).objCount = st.objCount := rfl
@[simp] theorem pushVal_freed (st : Interp) (f : Nat) (v : Value) :
    (st.pushVal f v).freed = st.freed := rfl
@[simp] theorem pushVal_cframe (st : Interp) (f : Nat) (v : Value) :
    (st.pushVal f v).cframe = st.cframe := rfl
@[simp] theorem pushVal_elts (st : Interp) (f : Nat) (v : Value) :
    (st.pushVal f v).elts = st.elts := rfl
@[simp] theorem pushVal_arrSize (st : Interp) (f : Nat) (v : Value) :
    (st.pushVal f v).arrSize = st.arrSize := rfl
@[simp] theorem PUSH_ARRVAL_stricttc (st : Interp) (f a : Nat) :
    (PUSH_ARRVAL st f a).stricttc = st.stricttc := rfl
@[simp] theorem PUSH_ARRVAL_stack0 (st : Interp) (f a : Nat) :
    (PUSH_ARRVAL st f a).stack0 = st.stack0 := rfl
@[simp] theorem PUSH_ARRVAL_rl (st : Interp) (f a : Nat) : (PUSH_ARRVAL st f a).rl = st.rl := rfl
@[simp] theorem PUSH_ARRVAL_strRef (st : Interp) (f a : Nat) :
    (PUSH_ARRVAL st f a).strRef = st.strRef := rfl
@[simp] theorem PUSH_ARRVAL_elt0 (st : Interp) (f a : Nat) :
    (PUSH_ARRVAL st f a).elt0 = st.elt0 := rfl
@[simp] theorem PUSH_ARRVAL_objCount (st : Interp) (f a : Nat) :
    (PUSH_ARRVAL st f a).objCount = st.objCount := rfl
@[simp] theorem PUSH_ARRVAL_freed (st : Interp) (f a : Nat) :
    (PUSH_ARRVAL st f a).freed = st.freed := rfl
@[simp] theorem PUSH_ARRVAL_cframe (st : Interp) (f a : Nat) :
    (PUSH_ARRVAL st f a).cframe = st.cframe := rfl
@[simp] theorem PUSH_ARRVAL_elts (st : Interp) (f a : Nat) :
    (PUSH_ARRVAL st f a).elts = st.elts := rfl
@[simp] theorem PUSH_ARRVAL_arrSize (st : Interp) (f a : Nat) :
    (PUSH_ARRVAL st f a).arrSize = st.arrSize := rfl
@[simp] theorem i_add_ticks_stricttc (st : Interp) (f : Nat) (t : Int) :
    (i_add_ticks st f t).stricttc = st.stricttc := rfl
@[simp] theorem i_add_ticks_stack0 (st : Interp) (f : Nat) (t : Int) :
    (i_add_ticks st f t).stack0 = st.stack0 := rfl
@[simp] theorem i_add_ticks_mem (st : Interp) (f : Nat) (t : Int) :
    (i_add_ticks st f t).mem = st.mem := rfl
@[simp] theorem i_add_ticks_frame (st : Interp) (f : Nat) (t : Int) :
    (i_add_ticks st f t).frame = st.frame := rfl
@[simp] theorem i_add_ticks_strRef (st : Interp) (f : Nat) (t : Int) :
    (i_add_ticks st f t).strRef = st.strRef := rfl
@[simp] theorem i_add_ticks_arrRef (st : Interp) (f : Nat) (t : Int) :
    (i_add_ticks st f t).arrRef = st.arrRef := rfl
@[simp] theorem i_add_ticks_elt0 (st : Interp) (f : Nat) (t : Int) :
    (i_add_ticks st f t).elt0 = st.elt0 := rfl
@[simp] theorem i_add_ticks_objCount (st : Interp) (f : Nat) (t : Int) :
    (i_add_ticks st f t).objCount = st.objCount := rfl
@[simp] theorem i_add_ticks_freed (st : Interp) (f : Nat) (t : Int) :
    (i_add_ticks st f t).freed = st.freed := rfl
@[simp] theorem i_add_ticks_cframe (st : Interp) (f : Nat) (t : Int) :
    (i_add_ticks st f t).cframe = st.cframe := rfl
@[simp] theorem i_add_ticks_elts (st : Interp) (f : Nat) (t : Int) :
    (i_add_ticks st f t).elts = st.elts := rfl
@[simp] theorem i_add_ticks_arrSize (st : Interp) (f : Nat) (t : Int) :
    (i_add_ticks st f t).arrSize = st.arrSize := rfl

@[simp] theorem pushVal_frame (st : Interp) (f : Nat) (v : Value) :
    (st.pushVal f v).frame
      = Function.update st.frame f { st.frame f with sp := (st.frame f).sp - 1 } := rfl

theorem pushVal_mem (st : Interp) (f : Nat) (v : Value) :
    (st.pushVal f v).mem = Function.update st.mem ((st.frame f).sp - 1) v := by
  show Function.update st.mem ((Function.update st.frame f _ f).sp) v = _
  rw [Function.update_same]

@[simp] theorem setElt_elts (st : Interp) (a i : Nat) (v : Value) :
    (st.setElt a i v).elts = Function.update st.elts a (Function.update (st.elts a) i v) := rfl

@[simp] theorem arr_new_arrSize (st : Interp) (a n : Nat) :
    (arr_new st a n).arrSize = Function.update st.arrSize a n := rfl

@[simp] theorem arr_new_arrRef (st : Interp) (a n : Nat) :
    (arr_new st a n).arrRef = Function.update st.arrRef a 0 := rfl

@[simp] theorem i_add_ticks_rl (st : Interp) (f : Nat) (t : Int) :
    (i_add_ticks st f t).rl = Function.update st.rl (st.frame f).rlim
      { st.rl (st.frame f).rlim with ticks := (st.rl (st.frame f).rlim).ticks - t } := rfl

@[simp] theorem PUSH_ARRVAL_frame (st : Interp) (f a : Nat) :
    (PUSH_ARRVAL st f a).frame
      = Function.update st.frame f { st.frame f with sp := (st.frame f).sp - 1 } := rfl

@[simp] theorem PUSH_ARRVAL_arrRef (st : Interp) (f a : Nat) :
    (PUSH_ARRVAL st f a).arrRef = Function.update st.arrRef a (st.arrRef a + 1) := rfl

theorem PUSH_ARRVAL_mem (st : Interp) (f a : Nat) :
    (PUSH_ARRVAL st f a).mem
      = Function.update st.mem ((st.frame f).sp - 1)
          { st.mem ((st.frame f).sp - 1) with u := a, type := .array } := by
  unfold PUSH_ARRVAL
  simp only [wrVal_mem, wrVal_frame, arr_ref_frame, arr_ref_mem, setSp_frame, setSp_mem,
    Function.update_same, Function.update_idem]

end Dgd

namespace Dgd

/-! ## `i_funcall`: the limits on entry -/

/-- The first statements of `i_funcall` write the frame of the callee only:
its depth is one more than that of the caller, its scope that of the caller,
and the stack pointer of every frame is as before. -/
theorem funcallFrame_fields (E : CallEnv) (st : Interp) (prev_f : Nat) (obj : Option Nat)
    (lwobj : Nat) :
    (funcallFrame E st prev_f obj lwobj).mem = st.mem
    ∧ (funcallFrame E st prev_f obj lwobj).rl = st.rl
    ∧ (funcallFrame E st prev_f obj lwobj).strRef = st.strRef
    ∧ (funcallFrame E st prev_f obj lwobj).arrRef = st.arrRef
    ∧ (funcallFrame E st prev_f obj lwobj).freed = st.freed
    ∧ (funcallFrame E st prev_f obj lwobj).cframe = st.cframe
    ∧ (funcallFrame E st prev_f obj lwobj).stricttc = st.stricttc
    ∧ (funcallFrame E st prev_f obj lwobj).stack0 = st.stack0
    ∧ (∀ g, g ≠ E.fa → (funcallFrame E st prev_f obj lwobj).frame g = st.frame g)
    ∧ ((funcallFrame E st prev_f obj lwobj).frame E.fa).depth = (st.frame prev_f).depth + 1
    ∧ ((funcallFrame E st prev_f obj lwobj).frame E.fa).rlim = (st.frame prev_f).rlim
    ∧ (∀ g, ((funcallFrame E st prev_f obj lwobj).frame g).sp = (st.frame g).sp
        ∧ ((funcallFrame E st prev_f obj lwobj).frame g).fp = (st.frame g).fp
        ∧ ((funcallFrame E st prev_f obj lwobj).frame g).stack = (st.frame g).stack
        ∧ ((funcallFrame E st prev_f obj lwobj).frame g).sos = (st.frame g).sos
        ∧ ((funcallFrame E st prev_f obj lwobj).frame g).atomic = (st.frame g).atomic
        ∧ ((funcallFrame E st prev_f obj lwobj).frame g).level = (st.frame g).level)
    ∧ ((funcallFrame E st prev_f obj lwobj).frame E.fa).prev = prev_f := by
  have key : ∀ g, (g ≠ E.fa → (funcallFrame E st prev_f obj lwobj).frame g = st.frame g)
      ∧ ((funcallFrame E st prev_f obj lwobj).frame g).sp = (st.frame g).sp
      ∧ ((funcallFrame E st prev_f obj lwobj).frame g).fp = (st.frame g).fp
      ∧ ((funcallFrame E st prev_f obj lwobj).frame g).stack = (st.frame g).stack
      ∧ ((funcallFrame E st prev_f obj lwobj).frame g).sos = (st.frame g).sos
      ∧ ((funcallFrame E st prev_f obj lwobj).frame g).atomic = (st.frame g).atomic
      ∧ ((funcallFrame E st prev_f obj lwobj).frame g).level = (st.frame g).level := by
    intro g
    unfold funcallFrame
    by_cases hg : g = E.fa
    · subst hg
      simp only [setFrame_frame, Function.update_same, ne_eq, not_true_eq_false, false_implies,
        true_and]
      split_ifs <;> simp [Function.update_same]
    · simp only [setFrame_frame, ne_eq, hg, not_false_eq_true, Function.update_noteq,
        true_implies]
      split_ifs <;> simp [Function.update_noteq, hg]
  have hdr : ((funcallFrame E st prev_f obj lwobj).frame E.fa).depth = (st.frame prev_f).depth + 1
      ∧ ((funcallFrame E st prev_f obj lwobj).frame E.fa).rlim = (st.frame prev_f).rlim
      ∧ ((funcallFrame E st prev_f obj lwobj).frame E.fa).prev = prev_f := by
    unfold funcallFrame
    by_cases hp : prev_f = E.fa
    · subst hp
      simp only [setFrame_frame, Function.update_same]
      split_ifs <;> simp [Function.update_same]
    · simp only [setFrame_frame, Function.update_same]
      split_ifs <;> simp [Function.update_same, Function.update_noteq, hp]
  refine ⟨?_, ?_, ?_, ?_, ?_, ?_, ?_, ?_, fun g => (key g).1, hdr.1, hdr.2.1,
    fun g => (key g).2, hdr.2.2⟩ <;>
  · unfold funcallFrame
    simp only [setFrame_mem, setFrame_rl, setFrame_strRef, setFrame_arrRef, setFrame_freed,
      setFrame_cframe, setFrame_stricttc, setFrame_stack0, apply_ite Interp.mem,
      apply_ite Interp.rl, apply_ite Interp.strRef, apply_ite Interp.arrRef,
      apply_ite Interp.freed, apply_ite Interp.cframe, apply_ite Interp.stricttc,
      apply_ite Interp.stack0, ite_self]

/-- The three ways through the two checks of the limits. -/
theorem funcallLimits_spec (st : Interp) (fa : Nat) :
    ((st.rl (st.frame fa).rlim).maxdepth ≤ (st.frame fa).depth
        ∧ (st.rl (st.frame fa).rlim).nodepth = false →
      funcallLimits st fa = .error ("Stack overflow", st))
    ∧ (¬ ((st.rl (st.frame fa).rlim).maxdepth ≤ (st.frame fa).depth
          ∧ (st.rl (st.frame fa).rlim).nodepth = false) →
        (st.rl (st.frame fa).rlim).ticks < 100
          ∧ (st.rl (st.frame fa).rlim).noticks = false →
      funcallLimits st fa = .error ("Out of ticks", st))
    ∧ (¬ ((st.rl (st.frame fa).rlim).maxdepth ≤ (st.frame fa).depth
          ∧ (st.rl (st.frame fa).rlim).nodepth = false) →
        ¬ ((st.rl (st.frame fa).rlim).ticks < 100
          ∧ (st.rl (st.frame fa).rlim).noticks = false) →
      funcallLimits st fa
        = .ok (if (st.rl (st.frame fa).rlim).ticks < 100 then
            st.setRl (st.frame fa).rlim
              { st.rl (st.frame fa).rlim with ticks := 0x7fffffff }
          else st)) := by
  refine ⟨?_, ?_, ?_⟩
  · intro h
    unfold funcallLimits
    rw [if_pos h]
  · intro h1 h2
    unfold funcallLimits
    rw [if_neg h1, if_pos h2.1]
    simp [h2.2]
  · intro h1 h2
    unfold funcallLimits
    rw [if_neg h1]
    by_cases ht : (st.rl (st.frame fa).rlim).ticks < 100
    · have hn : (st.rl (st.frame fa).rlim).noticks = true := by
        cases hno : (st.rl (st.frame fa).rlim).noticks
        · exact absurd ⟨ht, hno⟩ h2
        · rfl
      rw [if_pos ht, if_pos ht]
      simp [hn]
    · rw [if_neg ht, if_neg ht]

/-- An error of the checks of the limits is the result of `i_funcall`. -/
theorem i_funcall_limits_error (E : CallEnv) (fuel : Nat) (st : Interp) (prev_f : Nat)
    (obj : Option Nat) (lwobj p_ctrli funci : Nat) (nargs : Int) (msg : String) (s : Interp)
    (h : funcallLimits (funcallFrame E st prev_f obj lwobj) E.fa = .error (msg, s)) :
    i_funcall E fuel st prev_f obj lwobj p_ctrli funci nargs = some (.error msg s) := by
  unfold i_funcall funcallPrepare
  rw [h]

/-- C21: on entry `i_funcall` checks both limits of the scope of the caller,
having written nothing but fields of the frame of the callee. It raises
"Stack overflow" when the scope is depth-bounded and the depth of the caller
plus 1 is at least `maxdepth`; otherwise it raises "Out of ticks" when the
scope is tick-bounded and has fewer than 100 ticks; in both cases the values,
the stack pointer, the frame pointer and the stack of every frame, the scopes
and the reference counts are those at the call. Otherwise the checks raise no
error (the count of an unbounded scope below 100 is reset to `0x7fffffff`),
in particular not with unlimited depth and unlimited ticks: the checks raise
"Stack overflow" and "Out of ticks" in the cases named and in no other. -/
theorem i_funcall_limits (E : CallEnv) (fuel : Nat) (st : Interp) (prev_f : Nat)
    (obj : Option Nat) (lwobj p_ctrli funci : Nat) (nargs : Int) :
    (∀ msg s, funcallLimits (funcallFrame E st prev_f obj lwobj) E.fa = .error (msg, s) →
      i_funcall E fuel st prev_f obj lwobj p_ctrli funci nargs = some (.error msg s)
      ∧ s.mem = st.mem ∧ s.rl = st.rl ∧ s.strRef = st.strRef ∧ s.arrRef = st.arrRef
      ∧ s.cframe = st.cframe
      ∧ (∀ g, (s.frame g).sp = (st.frame g).sp ∧ (s.frame g).fp = (st.frame g).fp
          ∧ (s.frame g).stack = (st.frame g).stack)
      ∧ (∀ g, g ≠ E.fa → s.frame g = st.frame g))
    ∧ ((∃ s, funcallLimits (funcallFrame E st prev_f obj lwobj) E.fa
          = .error ("Stack overflow", s))
      ↔ ((st.rl (st.frame prev_f).rlim).maxdepth ≤ (st.frame prev_f).depth + 1
        ∧ (st.rl (st.frame prev_f).rlim).nodepth = false))
    ∧ ((∃ s, funcallLimits (funcallFrame E st prev_f obj lwobj) E.fa
          = .error ("Out of ticks", s))
      ↔ (¬ ((st.rl (st.frame prev_f).rlim).maxdepth ≤ (st.frame prev_f).depth + 1
          ∧ (st.rl (st.frame prev_f).rlim).nodepth = false)
        ∧ (st.rl (st.frame prev_f).rlim).ticks < 100
        ∧ (st.rl (st.frame prev_f).rlim).noticks = false))
    ∧ (¬ ((st.rl (st.frame prev_f).rlim).maxdepth ≤ (st.frame prev_f).depth + 1
          ∧ (st.rl (st.frame prev_f).rlim).nodepth = false) →
        ¬ ((st.rl (st.frame prev_f).rlim).ticks < 100
          ∧ (st.rl (st.frame prev_f).rlim).noticks = false) →
      ∃ s, funcallLimits (funcallFrame E st prev_f obj lwobj) E.fa = .ok s
        ∧ s.mem = st.mem
        ∧ (∀ g, (s.frame g).sp = (st.frame g).sp)
        ∧ (s.rl (st.frame prev_f).rlim).ticks
          = if (st.rl (st.frame prev_f).rlim).ticks < 100 then 0x7fffffff
            else (st.rl (st.frame prev_f).rlim).ticks)
    ∧ ((st.rl (st.frame prev_f).rlim).nodepth = true →
        (st.rl (st.frame prev_f).rlim).noticks = true →
      ∃ s, funcallLimits (funcallFrame E st prev_f obj lwobj) E.fa = .ok s) := by
  obtain ⟨f1, f2, f3, f4, f5, f6, f7, f8, f9, f10, f11, f12, f13⟩ :=
    funcallFrame_fields E st prev_f obj lwobj
  obtain ⟨l1, l2, l3⟩ := funcallLimits_spec (funcallFrame E st prev_f obj lwobj) E.fa
  rw [f10, f11, f2] at l1 l2 l3
  have hA : ∀ msg s, funcallLimits (funcallFrame E st prev_f obj lwobj) E.fa = .error (msg, s) →
      s = funcallFrame E st prev_f obj lwobj
      ∧ ((msg = "Stack overflow"
          ∧ (st.rl (st.frame prev_f).rlim).maxdepth ≤ (st.frame prev_f).depth + 1
          ∧ (st.rl (st.frame prev_f).rlim).nodepth = false)
        ∨ (msg = "Out of ticks"
          ∧ ¬ ((st.rl (st.frame prev_f).rlim).maxdepth ≤ (st.frame prev_f).depth + 1
            ∧ (st.rl (st.frame prev_f).rlim).nodepth = false)
          ∧ (st.rl (st.frame prev_f).rlim).ticks < 100
          ∧ (st.rl (st.frame prev_f).rlim).noticks = false)) := by
    intro msg s h
    by_cases c1 : (st.rl (st.frame prev_f).rlim).maxdepth ≤ (st.frame prev_f).depth + 1
        ∧ (st.rl (st.frame prev_f).rlim).nodepth = false
    · rw [l1 c1] at h
      cases h
      exact ⟨rfl, Or.inl ⟨rfl, c1⟩⟩
    · by_cases c2 : (st.rl (st.frame prev_f).rlim).ticks < 100
          ∧ (st.rl (st.frame prev_f).rlim).noticks = false
      · rw [l2 c1 c2] at h
        cases h
        exact ⟨rfl, Or.inr ⟨rfl, c1, c2⟩⟩
      · rw [l3 c1 c2] at h
        cases h
  refine ⟨?_, ?_, ?_, ?_, ?_⟩
  · intro msg s h
    obtain ⟨hs, _⟩ := hA msg s h
    subst hs
    exact ⟨i_funcall_limits_error E fuel st prev_f obj lwobj p_ctrli funci nargs msg _ h,
      f1, f2, f3, f4, f6, fun g => ⟨(f12 g).1, (f12 g).2.1, (f12 g).2.2.1⟩, f9⟩
  · constructor
    · rintro ⟨s, h⟩
      rcases (hA _ s h).2 with ⟨_, k⟩ | ⟨k, _⟩
      · exact k
      · exact absurd k (by decide)
    · intro c1
      exact ⟨_, l1 c1⟩
  · constructor
    · rintro ⟨s, h⟩
      rcases (hA _ s h).2 with ⟨k, _⟩ | ⟨_, k⟩
      · exact absurd k (by decide)
      · exact k
    · rintro ⟨c1, c2⟩
      exact ⟨_, l2 c1 c2⟩
  · intro c1 c2
    refine ⟨_, l3 c1 c2, ?_, ?_, ?_⟩
    · split
      · exact f1
      · exact f1
    · intro g
      split
      · exact (f12 g).1
      · exact (f12 g).1
    · by_cases ht : (st.rl (st.frame prev_f).rlim).ticks < 100
      · rw [if_pos ht, if_pos ht, setRl_rl, Function.update_same]
      · rw [if_neg ht, if_neg ht, f2]
  · intro hd hn
    exact ⟨_, l3 (fun k => by rw [hd] at k; exact absurd k.2 (by decide))
      (fun k => by rw [hn] at k; exact absurd k.2 (by decide))⟩

end Dgd

namespace Dgd

/-! ## `i_funcall`: the frame of the callee -/

theorem popSlot_other (st : Interp) (v : Nat) :
    (popSlot st v).rl = st.rl ∧ (popSlot st v).cframe = st.cframe
    ∧ (popSlot st v).stricttc = st.stricttc ∧ (popSlot st v).freed = st.freed
    ∧ (popSlot st v).elts = st.elts ∧ (popSlot st v).arrSize = st.arrSize
    ∧ (popSlot st v).stack0 = st.stack0 := by
  rw [popSlot_eq]
  obtain ⟨sr, ar, h⟩ := i_del_value_light st (st.mem v)
  rw [h]
  exact ⟨rfl, rfl, rfl, rfl, rfl, rfl, rfl⟩

theorem i_popLoop_other : ∀ (n : Nat) (st : Interp) (v : Nat),
    (i_popLoop n st v).1.rl = st.rl ∧ (i_popLoop n st v).1.cframe = st.cframe
    ∧ (i_popLoop n st v).1.stricttc = st.stricttc ∧ (i_popLoop n st v).1.freed = st.freed
    ∧ (i_popLoop n st v).1.elts = st.elts ∧ (i_popLoop n st v).1.arrSize = st.arrSize
    ∧ (i_popLoop n st v).1.stack0 = st.stack0 := by
  intro n
  induction n with
  | zero => intro st v; exact ⟨rfl, rfl, rfl, rfl, rfl, rfl, rfl⟩
  | succ n ih =>
    intro st v
    obtain ⟨p1, p2, p3, p4, p5, p6, p7⟩ := popSlot_other st v
    obtain ⟨i1, i2, i3, i4, i5, i6, i7⟩ := ih (popSlot st v) (v + 1)
    exact ⟨i1.trans p1, i2.trans p2, i3.trans p3, i4.trans p4, i5.trans p5, i6.trans p6,
      i7.trans p7⟩

/-- What `i_pop` leaves: the scopes, `cframe`, the released addresses and the
arrays. -/
theorem i_pop_other (st : Interp) (f : Nat) (n : Int) :
    (i_pop st f n).rl = st.rl ∧ (i_pop st f n).cframe = st.cframe
    ∧ (i_pop st f n).stricttc = st.stricttc ∧ (i_pop st f n).freed = st.freed
    ∧ (i_pop st f n).elts = st.elts ∧ (i_pop st f n).arrSize = st.arrSize
    ∧ (i_pop st f n).stack0 = st.stack0 := by
  obtain ⟨sr, ar, h⟩ := i_pop_light st f n
  rw [h]
  exact ⟨rfl, rfl, rfl, rfl, rfl, rfl, rfl⟩

/-- The loop that initializes the local variables lowers the stack pointer of
the frame by their number and writes those slots only. -/
theorem pushNils_fields (f : Nat) : ∀ (n : Nat) (st : Interp),
    (pushNils f n st).frame
      = Function.update st.frame f { st.frame f with sp := (st.frame f).sp - n }
    ∧ (n ≤ (st.frame f).sp → ∀ a, ¬ ((st.frame f).sp - n ≤ a ∧ a < (st.frame f).sp) →
        (pushNils f n st).mem a = st.mem a)
    ∧ (pushNils f n st).rl = st.rl ∧ (pushNils f n st).cframe = st.cframe
    ∧ (pushNils f n st).stricttc = st.stricttc ∧ (pushNils f n st).strRef = st.strRef
    ∧ (pushNils f n st).arrRef = st.arrRef ∧ (pushNils f n st).freed = st.freed := by
  intro n
  induction n with
  | zero =>
    intro st
    refine ⟨?_, fun _ _ _ => rfl, rfl, rfl, rfl, rfl, rfl, rfl⟩
    show st.frame = _
    exact (Function.update_eq_self f st.frame).symm
  | succ n ih =>
    intro st
    obtain ⟨i1, i2, i3, i4, i5, i6, i7, i8⟩ := ih (st.pushVal f (nil_value st.stricttc))
    have e : pushNils f (n + 1) st = pushNils f n (st.pushVal f (nil_value st.stricttc)) := rfl
    rw [e]
    have hsp : ((st.pushVal f (nil_value st.stricttc)).frame f).sp = (st.frame f).sp - 1 := by
      rw [pushVal_frame, Function.update_same]
    refine ⟨?_, ?_, i3, i4, i5, i6, i7, i8⟩
    · rw [i1, pushVal_frame, Function.update_same, Function.update_idem]
      have e2 : (st.frame f).sp - 1 - n = (st.frame f).sp - (n + 1) := by omega
      show Function.update st.frame f { st.frame f with sp := (st.frame f).sp - 1 - n } = _
      rw [e2]
    · intro hn a ha
      have h1 : ¬ (((st.pushVal f (nil_value st.stricttc)).frame f).sp - n ≤ a
          ∧ a < ((st.pushVal f (nil_value st.stricttc)).frame f).sp) := by
        rw [hsp]
        omega
      have h2 : a ≠ (st.frame f).sp - 1 := by omega
      rw [i2 (by rw [hsp]; omega) a h1, pushVal_mem, Function.update_noteq h2]

/-- The statements "deal with atomic functions" write the level and the
atomic flag of the frame of the callee, and halve the ticks of its scope when
the function is atomic, the caller is not, and the scope is bounded. -/
theorem funcallAtomic_fields (E : CallEnv) (st : Interp) (prev_f : Nat)
    (hfa : E.fa ≠ prev_f) :
    (∃ l a, (funcallAtomic E st prev_f).frame
      = Function.update st.frame E.fa { st.frame E.fa with level := l, atomic := a })
    ∧ (funcallAtomic E st prev_f).mem = st.mem
    ∧ (funcallAtomic E st prev_f).cframe = st.cframe
    ∧ (funcallAtomic E st prev_f).stricttc = st.stricttc
    ∧ (funcallAtomic E st prev_f).rl
      = if (st.frame E.fa).funcAtomic = true ∧ (st.frame prev_f).atomic = false
          ∧ (st.rl (st.frame E.fa).rlim).noticks = false then
          Function.update st.rl (st.frame E.fa).rlim
            { st.rl (st.frame E.fa).rlim with
              ticks := (st.rl (st.frame E.fa).rlim).ticks >>> 1 }
        else st.rl := by
  have hp : prev_f ≠ E.fa := fun e => hfa e.symm
  refine ⟨?_, ?_, ?_, ?_, ?_⟩
  · unfold funcallAtomic
    simp only [setFrame_frame, Function.update_same, Function.update_noteq hp, setFrame_rl]
    split_ifs
    · exact ⟨_, _, by
        simp only [setRl_frame, setFrame_frame, Function.update_same, Function.update_idem]
        rfl⟩
    · exact ⟨_, _, by
        simp only [setFrame_frame, Function.update_same, Function.update_idem]
        rfl⟩
    · exact ⟨_, _, by
        simp only [setFrame_frame, Function.update_same, Function.update_idem]
        rfl⟩
  · unfold funcallAtomic
    simp only [apply_ite Interp.mem, setFrame_mem, setRl_mem, ite_self]
  · unfold funcallAtomic
    simp only [apply_ite Interp.cframe, setFrame_cframe, setRl_cframe, ite_self]
  · unfold funcallAtomic
    simp only [apply_ite Interp.stricttc, setFrame_stricttc, setRl_stricttc, ite_self]
  · unfold funcallAtomic
    simp only [setFrame_frame, Function.update_same, Function.update_noteq hp, setFrame_rl]
    cases h1 : (st.frame E.fa).funcAtomic <;> cases h2 : (st.frame prev_f).atomic <;>
      cases h3 : (st.rl (st.frame E.fa).rlim).noticks <;> simp

/-- The statements up to `arr_ref(f.lwobj)` write the stack pointer and
`nargs` of the frame of the callee, and `cframe`. -/
theorem funcallSp_fields (E : CallEnv) (st : Interp) (prev_f : Nat) (nargs : Int) :
    (funcallSp E st prev_f nargs).frame
      = Function.update st.frame E.fa
          { st.frame E.fa with sp := (st.frame prev_f).sp, nargs := nargs.toNat }
    ∧ (funcallSp E st prev_f nargs).mem = st.mem
    ∧ (funcallSp E st prev_f nargs).cframe = E.fa
    ∧ (funcallSp E st prev_f nargs).stricttc = st.stricttc
    ∧ (funcallSp E st prev_f nargs).rl = st.rl := by
  unfold funcallSp
  refine ⟨?_, ?_, ?_, ?_, ?_⟩
  · simp only [apply_ite Interp.frame, arr_ref_frame, ite_self, setFrame_frame,
      Function.update_same, Function.update_idem]
  · simp only [apply_ite Interp.mem, arr_ref_mem, ite_self, setFrame_mem]
  · simp only [apply_ite Interp.cframe, arr_ref_cframe, ite_self]
  · simp only [apply_ite Interp.stricttc, arr_ref_stricttc, ite_self, setFrame_stricttc]
  · simp only [apply_ite Interp.rl, arr_ref_rl, ite_self, setFrame_rl]

/-- The statements "create new local stack" write the stack, the stack pointer,
the frame pointer and the flag `sos` of the frame of the callee. -/
theorem funcallStack_fields (E : CallEnv) (st : Interp) (n : Nat) :
    (funcallStack E st n).frame
      = Function.update st.frame E.fa
          { st.frame E.fa with
            stack := E.stk, sp := E.stk + n + E.MIN_STACK + E.EXTRA_STACK,
            fp := E.stk + n + E.MIN_STACK + E.EXTRA_STACK, sos := true }
    ∧ (funcallStack E st n).mem = st.mem
    ∧ (funcallStack E st n).cframe = st.cframe
    ∧ (funcallStack E st n).stricttc = st.stricttc
    ∧ (funcallStack E st n).rl = st.rl := by
  unfold funcallStack
  refine ⟨?_, rfl, rfl, rfl, rfl⟩
  simp only [setFrame_frame, Function.update_same, Function.update_idem]

/-- The state in which the callee starts: the frame of the callee has a new
local stack above `stk`, with the local variables, and the `nargs` found;
`cframe` is that frame; the values outside the slots of the local variables
and the other frames are as before; the scope of the callee is charged 10
ticks, after its count has been halved when the function is atomic, the
caller is not, and the scope is bounded. -/
theorem funcallEnter_fields (E : CallEnv) (st : Interp) (prev_f pc : Nat) (nargs : Int)
    (hfa : E.fa ≠ prev_f) :
    (∃ l a, (funcallEnter E st prev_f pc nargs).frame
      = Function.update st.frame E.fa
          { st.frame E.fa with
            stack := E.stk,
            sp := E.stk + fetchU E.prog pc 2 + E.MIN_STACK + E.EXTRA_STACK
              - fetchU E.prog (pc + 2) 1,
            fp := E.stk + fetchU E.prog pc 2 + E.MIN_STACK + E.EXTRA_STACK,
            sos := true, nargs := nargs.toNat, level := l, atomic := a })
    ∧ (fetchU E.prog (pc + 2) 1 ≤ E.stk + fetchU E.prog pc 2 + E.MIN_STACK + E.EXTRA_STACK →
      ∀ a, ¬ (E.stk + fetchU E.prog pc 2 + E.MIN_STACK + E.EXTRA_STACK
            - fetchU E.prog (pc + 2) 1 ≤ a
          ∧ a < E.stk + fetchU E.prog pc 2 + E.MIN_STACK + E.EXTRA_STACK) →
        (funcallEnter E st prev_f pc nargs).mem a = st.mem a)
    ∧ (funcallEnter E st prev_f pc nargs).cframe = E.fa
    ∧ (funcallEnter E st prev_f pc nargs).stricttc = st.stricttc
    ∧ (∀ x, x ≠ (st.frame E.fa).rlim → (funcallEnter E st prev_f pc nargs).rl x = st.rl x)
    ∧ (funcallEnter E st prev_f pc nargs).rl (st.frame E.fa).rlim
      = { st.rl (st.frame E.fa).rlim with
          ticks := (if (st.frame E.fa).funcAtomic = true ∧ (st.frame prev_f).atomic = false
              ∧ (st.rl (st.frame E.fa).rlim).noticks = false
            then (st.rl (st.frame E.fa).rlim).ticks >>> 1
            else (st.rl (st.frame E.fa).rlim).ticks) - 10 } := by
  have hp : prev_f ≠ E.fa := fun e => hfa e.symm
  obtain ⟨s1, s2, s3, s4, s5⟩ := funcallSp_fields E st prev_f nargs
  obtain ⟨⟨l, a, a1⟩, a2, a3, a4, a5⟩ :=
    funcallAtomic_fields E (funcallSp E st prev_f nargs) prev_f hfa
  rw [s1, Function.update_same, Function.update_noteq hp, s5] at a5
  rw [s1, Function.update_same, Function.update_idem] at a1
  have a5r : (funcallAtomic E (funcallSp E st prev_f nargs) prev_f).rl (st.frame E.fa).rlim
      = { st.rl (st.frame E.fa).rlim with
          ticks := if (st.frame E.fa).funcAtomic = true ∧ (st.frame prev_f).atomic = false
              ∧ (st.rl (st.frame E.fa).rlim).noticks = false
            then (st.rl (st.frame E.fa).rlim).ticks >>> 1
            else (st.rl (st.frame E.fa).rlim).ticks } := by
    rw [a5]
    split
    · rw [Function.update_same]
    · rfl
  have a5o : ∀ x, x ≠ (st.frame E.fa).rlim →
      (funcallAtomic E (funcallSp E st prev_f nargs) prev_f).rl x = st.rl x := by
    intro x hx
    rw [a5]
    split
    · rw [Function.update_noteq hx]
    · rfl
  have hr : ((funcallAtomic E (funcallSp E st prev_f nargs) prev_f).frame E.fa).rlim
      = (st.frame E.fa).rlim := by
    rw [a1, Function.update_same]
  obtain ⟨k1, k2, k3, k4, k5⟩ := funcallStack_fields E
    (i_add_ticks (funcallAtomic E (funcallSp E st prev_f nargs) prev_f) E.fa 10)
    (fetchU E.prog pc 2)
  rw [i_add_ticks_frame, a1, Function.update_same, Function.update_idem] at k1
  obtain ⟨n1, n2, n3, n4, n5, _, _, _⟩ := pushNils_fields E.fa (fetchU E.prog (pc + 2) 1)
    (funcallStack E (i_add_ticks (funcallAtomic E (funcallSp E st prev_f nargs) prev_f) E.fa 10)
      (fetchU E.prog pc 2))
  rw [k1, Function.update_same, Function.update_idem] at n1
  rw [k1, Function.update_same] at n2
  have e : funcallEnter E st prev_f pc nargs
      = pushNils E.fa (fetchU E.prog (pc + 2) 1)
          (funcallStack E
            (i_add_ticks (funcallAtomic E (funcallSp E st prev_f nargs) prev_f) E.fa 10)
            (fetchU E.prog pc 2)) := rfl
  rw [e]
  refine ⟨⟨l, a, ?_⟩, ?_, ?_, ?_, ?_, ?_⟩
  · rw [n1]
  · intro hn x hx
    rw [n2 hn x hx, k2, i_add_ticks_mem, a2, s2]
  · rw [n4, k3, i_add_ticks_cframe, a3, s3]
  · rw [n5, k4, i_add_ticks_stricttc, a4, s4]
  · intro x hx
    rw [n3, k5, i_add_ticks_rl, hr, Function.update_noteq hx, a5o x hx]
  · rw [n3, k5, i_add_ticks_rl, hr, Function.update_same, a5r]

/-- The statements that clean up the local stack change the stack pointer of
the frame of the callee and `cframe`; the values, the other frames and the
scopes are as before. -/
theorem funcallClean_fields (E : CallEnv) (st : Interp) (prev_f : Nat) :
    (∃ p, (funcallClean E st prev_f).frame
      = Function.update st.frame E.fa { st.frame E.fa with sp := p })
    ∧ (funcallClean E st prev_f).mem = st.mem
    ∧ (funcallClean E st prev_f).cframe = prev_f
    ∧ (funcallClean E st prev_f).stricttc = st.stricttc
    ∧ (funcallClean E st prev_f).rl = st.rl := by
  have hpopF : ∀ n : Int, (i_pop (st.setSp E.fa ((st.frame E.fa).sp + 1)) E.fa n).frame
      = Function.update st.frame E.fa
          { st.frame E.fa with sp := (st.frame E.fa).sp + 1 + n.toNat } := by
    intro n
    rw [(i_pop_fields _ E.fa n).1, setSp_frame, Function.update_same, Function.update_idem]
  have hpopM : ∀ n : Int, (i_pop (st.setSp E.fa ((st.frame E.fa).sp + 1)) E.fa n).mem
      = st.mem := fun n => (i_pop_fields _ E.fa n).2.1
  have hpopS : ∀ n : Int, (i_pop (st.setSp E.fa ((st.frame E.fa).sp + 1)) E.fa n).stricttc
      = st.stricttc := fun n => (i_pop_other _ E.fa n).2.2.1
  have hpopR : ∀ n : Int, (i_pop (st.setSp E.fa ((st.frame E.fa).sp + 1)) E.fa n).rl
      = st.rl := fun n => (i_pop_other _ E.fa n).1
  have hF : (funcallClean E st prev_f).frame
      = Function.update st.frame E.fa
          { st.frame E.fa with sp := ((funcallClean E st prev_f).frame E.fa).sp } := by
    unfold funcallClean
    simp only [apply_ite Interp.frame, arr_del_frame, free_frame, ite_self, hpopF,
      Function.update_same]
  refine ⟨⟨_, hF⟩, ?_, rfl, ?_, ?_⟩
  · unfold funcallClean
    simp only [apply_ite Interp.mem, arr_del_mem, free_mem, ite_self, hpopM]
  · unfold funcallClean
    simp only [apply_ite Interp.stricttc, arr_del_stricttc, free_stricttc, ite_self, hpopS]
  · unfold funcallClean
    simp only [apply_ite Interp.rl, arr_del_rl, free_rl, ite_self, hpopR]

/-- The statements at the end of `i_funcall` double the ticks of the scope of
the callee when the function is atomic, the caller is not, and the scope is
bounded, and change nothing else. -/
theorem funcallCommit_fields (E : CallEnv) (st : Interp) (prev_f : Nat) :
    (funcallCommit E st prev_f).frame = st.frame
    ∧ (funcallCommit E st prev_f).mem = st.mem
    ∧ (funcallCommit E st prev_f).cframe = st.cframe
    ∧ (funcallCommit E st prev_f).stricttc = st.stricttc
    ∧ (funcallCommit E st prev_f).rl
      = if (st.frame E.fa).funcAtomic = true ∧ (st.frame prev_f).atomic = false
          ∧ (st.rl (st.frame E.fa).rlim).noticks = false then
          Function.update st.rl (st.frame E.fa).rlim
            { st.rl (st.frame E.fa).rlim with
              ticks := (st.rl (st.frame E.fa).rlim).ticks * 2 }
        else st.rl := by
  unfold funcallCommit
  refine ⟨?_, ?_, ?_, ?_, ?_⟩
  · simp only [apply_ite Interp.frame, setRl_frame, ite_self]
  · simp only [apply_ite Interp.mem, setRl_mem, ite_self]
  · simp only [apply_ite Interp.cframe, setRl_cframe, ite_self]
  · simp only [apply_ite Interp.stricttc, setRl_stricttc, ite_self]
  · cases h1 : (st.frame E.fa).funcAtomic <;> cases h2 : (st.frame prev_f).atomic <;>
      cases h3 : (st.rl (st.frame E.fa).rlim).noticks <;> simp

/-- The return from the callee: the `nargs` arguments of the frame of the
callee are popped from the stack of the caller and the value on top of the
stack of the callee is pushed in their place; `cframe` is the caller; the
ticks are doubled when the function is atomic, the caller is not, and the
scope is bounded. -/
theorem funcallReturn_fields (E : CallEnv) (st : Interp) (prev_f : Nat)
    (hfa : E.fa ≠ prev_f) :
    (funcallReturn E st prev_f).frame prev_f
      = { st.frame prev_f with
          sp := (st.frame prev_f).sp + (st.frame E.fa).nargs - 1 }
    ∧ (∀ g, g ≠ E.fa → g ≠ prev_f → (funcallReturn E st prev_f).frame g = st.frame g)
    ∧ (funcallReturn E st prev_f).mem
      = Function.update st.mem ((st.frame prev_f).sp + (st.frame E.fa).nargs - 1)
          (st.mem (st.frame E.fa).sp)
    ∧ (funcallReturn E st prev_f).cframe = prev_f
    ∧ (funcallReturn E st prev_f).stricttc = st.stricttc
    ∧ (funcallReturn E st prev_f).rl
      = if (st.frame E.fa).funcAtomic = true ∧ (st.frame prev_f).atomic = false
          ∧ (st.rl (st.frame E.fa).rlim).noticks = false then
          Function.update st.rl (st.frame E.fa).rlim
            { st.rl (st.frame E.fa).rlim with
              ticks := (st.rl (st.frame E.fa).rlim).ticks * 2 }
        else st.rl := by
  have hp : prev_f ≠ E.fa := fun e => hfa e.symm
  obtain ⟨⟨p, c1⟩, c2, c3, c4, c5⟩ := funcallClean_fields E st prev_f
  have cn : ((funcallClean E st prev_f).frame E.fa).nargs = (st.frame E.fa).nargs := by
    rw [c1, Function.update_same]
  have cp : (funcallClean E st prev_f).frame prev_f = st.frame prev_f := by
    rw [c1, Function.update_noteq hp]
  obtain ⟨p1, p2, _, _⟩ := i_pop_fields (funcallClean E st prev_f) prev_f
    (((funcallClean E st prev_f).frame E.fa).nargs : Int)
  obtain ⟨q1, q2, q3, _, _, _, _⟩ := i_pop_other (funcallClean E st prev_f) prev_f
    (((funcallClean E st prev_f).frame E.fa).nargs : Int)
  rw [cn] at p1 p2 q1 q2 q3
  rw [Int.toNat_ofNat, cp] at p1
  obtain ⟨m1, m2, m3, m4, m5⟩ := funcallCommit_fields E
    ((i_pop (funcallClean E st prev_f) prev_f ((st.frame E.fa).nargs : Int)).pushVal prev_f
      (st.mem (st.frame E.fa).sp)) prev_f
  have e : funcallReturn E st prev_f
      = funcallCommit E
          ((i_pop (funcallClean E st prev_f) prev_f
            (((funcallClean E st prev_f).frame E.fa).nargs : Int)).pushVal prev_f
            (st.mem (st.frame E.fa).sp)) prev_f := rfl
  rw [cn] at e
  rw [e]
  have hfr : ((i_pop (funcallClean E st prev_f) prev_f ((st.frame E.fa).nargs : Int)).pushVal
      prev_f (st.mem (st.frame E.fa).sp)).frame
      = Function.update (funcallClean E st prev_f).frame prev_f
          { st.frame prev_f with sp := (st.frame prev_f).sp + (st.frame E.fa).nargs - 1 } := by
    rw [pushVal_frame, p1, Function.update_same, Function.update_idem]
  rw [pushVal_rl, q1, c5, hfr, Function.update_noteq hfa, Function.update_same, c1,
    Function.update_same] at m5
  refine ⟨?_, ?_, ?_, ?_, ?_, m5⟩
  · rw [m1, hfr, Function.update_same]
  · intro g h1 h2
    rw [m1, hfr, Function.update_noteq h2, c1, Function.update_noteq h1]
  · rw [m2, pushVal_mem, p2, c2, p1, Function.update_same]
  · rw [m3, pushVal_cframe, q2, c3]
  · rw [m4, pushVal_stricttc, q3, c4]

end Dgd

namespace Dgd

/-! ## `i_funcall`: superfluous arguments -/

/-- When the function is found, defined and its arguments pass the typecheck,
the state is that of the call with the function noted in the frame of the
callee. -/
theorem funcallFunc_ok (E : CallEnv) (st : Interp) (prev_f : Nat) (obj : Option Nat)
    (lwobj p_ctrli funci : Nat) (nargs : Int) (s : Interp) (pc : Nat)
    (h : funcallFunc E st prev_f obj lwobj p_ctrli funci nargs = .ok (s, pc)) :
    s = st.setFrame E.fa
        { st.frame E.fa with
          funcAtomic := (E.funcdef st prev_f obj lwobj p_ctrli funci).atomic }
    ∧ pc = (E.funcdef st prev_f obj lwobj p_ctrli funci).pc
    ∧ (E.funcdef st prev_f obj lwobj p_ctrli funci).undefined = false := by
  unfold funcallFunc at h
  by_cases hu : (E.funcdef st prev_f obj lwobj p_ctrli funci).undefined = true
  · simp only [hu, if_true] at h
    cases h
  · by_cases ht : (E.funcdef st prev_f obj lwobj p_ctrli funci).typechecked = true
    · simp only [hu, ht, if_true, Bool.false_eq_true, if_false] at h
      split at h
      · cases h
      · cases h
        exact ⟨rfl, rfl, by simpa using hu⟩
    · simp only [hu, ht, Bool.false_eq_true, if_false] at h
      cases h
      exact ⟨rfl, rfl, by simpa using hu⟩

/-- An error of the statements "handle arguments" is the result of
`i_funcall`, when the limits are kept and the function is found. -/
theorem i_funcall_args_error (E : CallEnv) (fuel : Nat) (st : Interp) (prev_f : Nat)
    (obj : Option Nat) (lwobj p_ctrli funci : Nat) (nargs : Int) (s1 s2 s3 : Interp) (pc : Nat)
    (msg : String)
    (h1 : funcallLimits (funcallFrame E st prev_f obj lwobj) E.fa = .ok s1)
    (h2 : funcallFunc E s1 prev_f obj lwobj p_ctrli funci nargs = .ok (s2, pc))
    (h3 : funcallArgs E s2 prev_f pc nargs = .error (msg, s3)) :
    i_funcall E fuel st prev_f obj lwobj p_ctrli funci nargs = some (.error msg s3) := by
  unfold i_funcall funcallPrepare
  simp only [h1, h2, h3]

/-- The state in which the callee starts, when the call is not rejected. -/
theorem funcallPrepare_ok (E : CallEnv) (st : Interp) (prev_f : Nat)
    (obj : Option Nat) (lwobj p_ctrli funci : Nat) (nargs : Int) (s1 s2 s3 : Interp)
    (pc pc1 : Nat) (n : Int)
    (h1 : funcallLimits (funcallFrame E st prev_f obj lwobj) E.fa = .ok s1)
    (h2 : funcallFunc E s1 prev_f obj lwobj p_ctrli funci nargs = .ok (s2, pc))
    (h3 : funcallArgs E s2 prev_f pc nargs = .ok (s3, n, pc1)) :
    funcallPrepare E st prev_f obj lwobj p_ctrli funci nargs
      = .ok (funcallEnter E s3 prev_f pc1 n) := by
  unfold funcallPrepare
  simp only [h1, h2, h3]

/-- The callee sees the `nargs` that the statements "handle arguments" leave. -/
theorem funcallEnter_nargs (E : CallEnv) (st : Interp) (prev_f pc : Nat) (nargs : Int)
    (hfa : E.fa ≠ prev_f) :
    ((funcallEnter E st prev_f pc nargs).frame E.fa).nargs = nargs.toNat := by
  obtain ⟨⟨l, a, h⟩, _⟩ := funcallEnter_fields E st prev_f pc nargs hfa
  rw [h, Function.update_same]

/-- C24: for a function without ellipsis called with more arguments than its
`n = NARGS + VARGS` parameters, the statements "handle arguments" of
`i_funcall` raise "Too many arguments for function ..." under strict
typechecking, with the state as it was: nothing is popped, and this is the
error of `i_funcall` when the limits are kept and the function is found.
Without strict typechecking they pop the `nargs - n` arguments pushed last
with `i_pop`, which releases their references: each popped argument is
dereferenced once as `i_del_value` does, `str_del` for a String and `arr_del`
for an Array, Mapping or LWObject, which releases the contents of an array
that loses its last reference. When every array held by a popped argument
has more references than there are popped arguments that hold it, each
reference count is lowered by the number of popped arguments that hold the
string or the array, and no other count changes. The stack pointer of the
caller is `nargs - n` higher, no value is changed, so that the first `n`
arguments are on top, and the callee sees `n` arguments. -/
theorem i_funcall_excess (E : CallEnv) (st : Interp) (prev_f pc : Nat) (nargs : Int)
    (hell : fetchU E.prog pc 1 &&& E.C_ELLIPSIS = 0)
    (hn : ((PROTO_NARGS E.prog pc + PROTO_VARGS E.prog pc : Nat) : Int) < nargs)
    (hfa : E.fa ≠ prev_f) :
    (st.stricttc = true →
      funcallArgs E st prev_f pc nargs
        = .error ("Too many arguments for function " ++ E.name, st)
      ∧ ∀ fuel st0 obj lwobj p_ctrli funci s1,
        funcallLimits (funcallFrame E st0 prev_f obj lwobj) E.fa = .ok s1 →
        funcallFunc E s1 prev_f obj lwobj p_ctrli funci nargs = .ok (st, pc) →
        i_funcall E fuel st0 prev_f obj lwobj p_ctrli funci nargs
          = some (.error ("Too many arguments for function " ++ E.name) st))
    ∧ (st.stricttc = false →
      funcallArgs E st prev_f pc nargs
        = .ok (i_pop st prev_f (nargs - (PROTO_NARGS E.prog pc + PROTO_VARGS E.prog pc : Nat)),
            ((PROTO_NARGS E.prog pc + PROTO_VARGS E.prog pc : Nat) : Int),
            pc + PROTO_SIZE E.prog pc)
      ∧ (((i_pop st prev_f
            (nargs - (PROTO_NARGS E.prog pc + PROTO_VARGS E.prog pc : Nat))).frame prev_f).sp : Int)
        = (st.frame prev_f).sp + (nargs - (PROTO_NARGS E.prog pc + PROTO_VARGS E.prog pc : Nat))
      ∧ (i_pop st prev_f
          (nargs - (PROTO_NARGS E.prog pc + PROTO_VARGS E.prog pc : Nat))).frame prev_f
        = { st.frame prev_f with
            sp := (st.frame prev_f).sp
              + (nargs - (PROTO_NARGS E.prog pc + PROTO_VARGS E.prog pc : Nat)).toNat }
      ∧ (∀ g, g ≠ prev_f →
          (i_pop st prev_f
            (nargs - (PROTO_NARGS E.prog pc + PROTO_VARGS E.prog pc : Nat))).frame g
            = st.frame g)
      ∧ (i_pop st prev_f
          (nargs - (PROTO_NARGS E.prog pc + PROTO_VARGS E.prog pc : Nat))).mem = st.mem
      ∧ i_pop st prev_f (nargs - (PROTO_NARGS E.prog pc + PROTO_VARGS E.prog pc : Nat))
        = ((popped st (st.frame prev_f).sp
              (nargs - (PROTO_NARGS E.prog pc + PROTO_VARGS E.prog pc : Nat)).toNat).foldl
            i_del_value st).setSp prev_f
          ((st.frame prev_f).sp
            + (nargs - (PROTO_NARGS E.prog pc + PROTO_VARGS E.prog pc : Nat)).toNat)
      ∧ ((∀ a, 0 < (popped st (st.frame prev_f).sp
              (nargs - (PROTO_NARGS E.prog pc + PROTO_VARGS E.prog pc : Nat)).toNat).countP
                (Value.refsArr a) →
            ((popped st (st.frame prev_f).sp
              (nargs - (PROTO_NARGS E.prog pc + PROTO_VARGS E.prog pc : Nat)).toNat).countP
                (Value.refsArr a) : Int) < st.arrRef a) →
          (∀ s, (i_pop st prev_f
              (nargs - (PROTO_NARGS E.prog pc + PROTO_VARGS E.prog pc : Nat))).strRef s
            = st.strRef s - ((popped st (st.frame prev_f).sp
                (nargs - (PROTO_NARGS E.prog pc + PROTO_VARGS E.prog pc : Nat)).toNat).countP
                  (Value.refsStr s) : Nat))
          ∧ (∀ a, (i_pop st prev_f
              (nargs - (PROTO_NARGS E.prog pc + PROTO_VARGS E.prog pc : Nat))).arrRef a
            = st.arrRef a - ((popped st (st.frame prev_f).sp
                (nargs - (PROTO_NARGS E.prog pc + PROTO_VARGS E.prog pc : Nat)).toNat).countP
                  (Value.refsArr a) : Nat)))
      ∧ ((funcallEnter E
            (i_pop st prev_f (nargs - (PROTO_NARGS E.prog pc + PROTO_VARGS E.prog pc : Nat)))
            prev_f (pc + PROTO_SIZE E.prog pc)
            ((PROTO_NARGS E.prog pc + PROTO_VARGS E.prog pc : Nat) : Int)).frame E.fa).nargs
        = PROTO_NARGS E.prog pc + PROTO_VARGS E.prog pc) := by
  have hlt : ¬ nargs < ((PROTO_NARGS E.prog pc + PROTO_VARGS E.prog pc : Nat) : Int) := by omega
  constructor
  · intro hs
    have e : funcallArgs E st prev_f pc nargs
        = .error ("Too many arguments for function " ++ E.name, st) := by
      unfold funcallArgs
      simp only [hell, bne_self_eq_false, Bool.false_eq_true, if_false, hlt, gt_iff_lt, hn,
        if_true, hs]
    refine ⟨e, ?_⟩
    intro fuel st0 obj lwobj p_ctrli funci s1 h1 h2
    exact i_funcall_args_error E fuel st0 prev_f obj lwobj p_ctrli funci nargs s1 st st pc _
      h1 h2 e
  · intro hs
    obtain ⟨p1, p2, _, _⟩ := i_pop_fields st prev_f
      (nargs - (PROTO_NARGS E.prog pc + PROTO_VARGS E.prog pc : Nat))
    refine ⟨?_, ?_, ?_, ?_, p2, i_pop_eq st prev_f _, ?_, ?_⟩
    · unfold funcallArgs
      simp only [hell, bne_self_eq_false, Bool.false_eq_true, if_false, hlt, gt_iff_lt, hn,
        if_true, hs]
    · rw [p1, Function.update_same]
      show (((st.frame prev_f).sp + _ : Nat) : Int) = _
      push_cast
      rw [Int.toNat_of_nonneg (by omega)]
    · rw [p1, Function.update_same]
    · intro g hg
      rw [p1, Function.update_noteq hg]
    · intro hmore
      apply i_pop_counts
      intro a h
      have := hmore a (by omega)
      omega
    · rw [funcallEnter_nargs E _ prev_f _ _ hfa, Int.toNat_ofNat]

theorem i_funcall_excess_witness :
    fetchU exEnv.prog 40 1 &&& exEnv.C_ELLIPSIS = 0
    ∧ ((PROTO_NARGS exEnv.prog 40 + PROTO_VARGS exEnv.prog 40 : Nat) : Int) < 2
    ∧ exEnv.fa ≠ 1
    ∧ PROTO_NARGS exEnv.prog 40 + PROTO_VARGS exEnv.prog 40 = 1
    ∧ funcallArgs exEnv exInterp 1 40 2
      = .error ("Too many arguments for function " ++ exEnv.name, exInterp)
    ∧ ((i_pop exLax 1 (2 - (PROTO_NARGS exEnv.prog 40 + PROTO_VARGS exEnv.prog 40 : Nat))).frame
        1).sp = 107
    ∧ (i_pop exLax 1 (2 - (PROTO_NARGS exEnv.prog 40 + PROTO_VARGS exEnv.prog 40 : Nat))).strRef 5
      = 0
    ∧ (i_pop exLax 1 (2 - (PROTO_NARGS exEnv.prog 40 + PROTO_VARGS exEnv.prog 40 : Nat))).arrRef
      = exLax.arrRef
    ∧ exNested.mem 106 = { type := .array, modified := false, oindex := 0, u := 7 }
    ∧ exNested.arrRef 7 = 1 ∧ exNested.strRef 5 = 1
    ∧ (i_pop { exNested with stricttc := false } 1
        (2 - (PROTO_NARGS exEnv.prog 40 + PROTO_VARGS exEnv.prog 40 : Nat))).arrRef 7 = 0
    ∧ (i_pop { exNested with stricttc := false } 1
        (2 - (PROTO_NARGS exEnv.prog 40 + PROTO_VARGS exEnv.prog 40 : Nat))).strRef 5 = 0 :=
  have h := i_funcall_excess exEnv exInterp 1 40 2 (by decide) (by decide) (by decide)
  have h1 := i_funcall_excess exEnv exLax 1 40 2 (by decide) (by decide) (by decide)
  have hz : ∀ a, (popped exLax (exLax.frame 1).sp
      ((2 : Int) - (PROTO_NARGS exEnv.prog 40 + PROTO_VARGS exEnv.prog 40 : Nat)).toNat).countP
        (Value.refsArr a) = 0 := fun a => by
    have e : ((2 : Int) - (PROTO_NARGS exEnv.prog 40 + PROTO_VARGS exEnv.prog 40 : Nat)).toNat
        = 1 := by decide
    rw [e]
    simp [popped, exLax, exInterp, Value.refsArr, List.range_succ]
  have hc := (h1.2 rfl).2.2.2.2.2.2.1 (fun a ha => by rw [hz a] at ha; omega)
  ⟨by decide, by decide, by decide, by decide, (h.1 rfl).1, by
    rw [(h1.2 rfl).2.2.1]
    rfl, by decide, by
    funext a
    rw [hc.2 a, hz a]
    simp, rfl, rfl, rfl, by decide, by decide⟩

end Dgd

namespace Dgd

/-! ## `i_funcall`: the arguments of an ellipsis -/

/-- The loop that moves `k` values from the stack of the caller to the
elements below `v` of the array `a`: the value on top goes to the element
`v - 1`, the next one to the element below, and so on; the stack pointer is
`k` higher and no value and no reference count is changed. -/
theorem packArgs_fields (prev_f a : Nat) : ∀ (k : Nat) (st : Interp) (v : Nat), k ≤ v →
    (packArgs prev_f a k st v).frame
      = Function.update st.frame prev_f
          { st.frame prev_f with sp := (st.frame prev_f).sp + k }
    ∧ (packArgs prev_f a k st v).mem = st.mem
    ∧ (∀ i, (packArgs prev_f a k st v).elts a i
        = if v - k ≤ i ∧ i < v then st.mem ((st.frame prev_f).sp + (v - 1 - i))
          else st.elts a i)
    ∧ (∀ b, b ≠ a → (packArgs prev_f a k st v).elts b = st.elts b)
    ∧ (packArgs prev_f a k st v).elt0 a
      = (if v - k = 0 ∧ 0 < k then st.mem ((st.frame prev_f).sp + (v - 1)) else st.elt0 a)
    ∧ (packArgs prev_f a k st v).strRef = st.strRef
    ∧ (packArgs prev_f a k st v).arrRef = st.arrRef
    ∧ (packArgs prev_f a k st v).arrSize = st.arrSize
    ∧ (packArgs prev_f a k st v).rl = st.rl
    ∧ (packArgs prev_f a k st v).stricttc = st.stricttc
    ∧ (packArgs prev_f a k st v).cframe = st.cframe := by
  intro k
  induction k with
  | zero =>
    intro st v _
    refine ⟨?_, rfl, fun i => ?_, fun _ _ => rfl, ?_, rfl, rfl, rfl, rfl, rfl, rfl⟩
    · show st.frame = _
      exact (Function.update_eq_self prev_f st.frame).symm
    · rw [if_neg (by omega)]
      rfl
    · rw [if_neg (by omega)]
      rfl
  | succ k ih =>
    intro st v hk
    have e : packArgs prev_f a (k + 1) st v
        = packArgs prev_f a k
            ((st.setElt a (v - 1) (st.mem (st.frame prev_f).sp)).setSp prev_f
              ((st.frame prev_f).sp + 1)) (v - 1) := rfl
    rw [e]
    obtain ⟨i1, i2, i3, i4, i5, i6, i7, i8, i9, i10, i11⟩ :=
      ih ((st.setElt a (v - 1) (st.mem (st.frame prev_f).sp)).setSp prev_f
        ((st.frame prev_f).sp + 1)) (v - 1) (by omega)
    have hsp : (((st.setElt a (v - 1) (st.mem (st.frame prev_f).sp)).setSp prev_f
        ((st.frame prev_f).sp + 1)).frame prev_f).sp = (st.frame prev_f).sp + 1 := by
      rw [setSp_frame, Function.update_same]
    rw [hsp] at i3 i5
    refine ⟨?_, i2, fun i => ?_, fun b hb => ?_, ?_, i6, i7, i8, i9, i10, i11⟩
    · rw [i1, setSp_frame, Function.update_same, Function.update_idem]
      show Function.update st.frame prev_f
        { st.frame prev_f with sp := (st.frame prev_f).sp + 1 + k } = _
      rw [Nat.add_assoc, Nat.add_comm 1 k]
    · rw [i3 i]
      show (if v - 1 - k ≤ i ∧ i < v - 1 then st.mem ((st.frame prev_f).sp + 1 + (v - 1 - 1 - i))
        else Function.update st.elts a (Function.update (st.elts a) (v - 1)
          (st.mem (st.frame prev_f).sp)) a i) = _
      rw [Function.update_same]
      by_cases h1 : v - 1 - k ≤ i ∧ i < v - 1
      · rw [if_pos h1, if_pos (by omega)]
        congr 1
        omega
      · rw [if_neg h1]
        by_cases h2 : i = v - 1
        · rw [h2, Function.update_same, if_pos (by omega)]
          congr 1
          omega
        · rw [Function.update_noteq h2, if_neg (by omega)]
    · rw [i4 b hb]
      show Function.update st.elts a _ b = _
      rw [Function.update_noteq hb]
    · rw [i5]
      show (if v - 1 - k = 0 ∧ 0 < k then st.mem ((st.frame prev_f).sp + 1 + (v - 1 - 1))
        else (if v - 1 = 0 then Function.update st.elt0 a (st.mem (st.frame prev_f).sp)
          else st.elt0) a) = _
      by_cases h1 : v - 1 - k = 0 ∧ 0 < k
      · rw [if_pos h1, if_pos (by omega)]
        congr 1
        omega
      · rw [if_neg h1]
        by_cases h2 : v - 1 = 0
        · rw [if_pos h2, Function.update_same, if_pos (by omega), h2]
          rfl
        · rw [if_neg h2, if_neg (by omega)]

/-- The statements "handle arguments" of `i_funcall` for a function with an
ellipsis and at least as many arguments as parameters: the `k` arguments
pushed last are moved to a new array, which is pushed in their place. -/
theorem funcallArgs_ellipsis_spec (E : CallEnv) (st : Interp) (prev_f pc : Nat) (nargs : Int) (k : Nat)
    (hell : fetchU E.prog pc 1 &&& E.C_ELLIPSIS ≠ 0)
    (hk : 1 ≤ k)
    (hnargs : nargs = ((PROTO_NARGS E.prog pc + PROTO_VARGS E.prog pc : Nat) : Int) - 1 + k)
    (hfa : E.fa ≠ prev_f) :
    ∃ st1, funcallArgs E st prev_f pc nargs
        = .ok (st1, ((PROTO_NARGS E.prog pc + PROTO_VARGS E.prog pc : Nat) : Int),
            pc + PROTO_SIZE E.prog pc)
      ∧ st1.frame prev_f
        = { st.frame prev_f with sp := (st.frame prev_f).sp + k - 1 }
      ∧ (∀ g, g ≠ prev_f → st1.frame g = st.frame g)
      ∧ (st1.mem ((st.frame prev_f).sp + k - 1)).type = .array
      ∧ (st1.mem ((st.frame prev_f).sp + k - 1)).u = E.arr
      ∧ (∀ a, a ≠ (st.frame prev_f).sp + k - 1 → st1.mem a = st.mem a)
      ∧ st1.arrSize E.arr = k
      ∧ st1.arrRef E.arr = 1
      ∧ (∀ i, i < k → st1.elts E.arr i = st.mem ((st.frame prev_f).sp + (k - 1 - i)))
      ∧ st1.elt0 E.arr = st1.elts E.arr 0
      ∧ st1.strRef = st.strRef
      ∧ (∀ h, h ≠ E.arr → st1.arrRef h = st.arrRef h)
      ∧ ((funcallEnter E st1 prev_f (pc + PROTO_SIZE E.prog pc)
            ((PROTO_NARGS E.prog pc + PROTO_VARGS E.prog pc : Nat) : Int)).frame E.fa).nargs
        = PROTO_NARGS E.prog pc + PROTO_VARGS E.prog pc := by
  have hlt : ¬ nargs < ((PROTO_NARGS E.prog pc + PROTO_VARGS E.prog pc : Nat) : Int) := by omega
  have hkk : nargs - (((PROTO_NARGS E.prog pc + PROTO_VARGS E.prog pc : Nat) : Int) - 1)
      = (k : Int) := by omega
  have e : funcallArgs E st prev_f pc nargs
      = .ok (PUSH_ARRVAL (d_ref_imports (packArgs prev_f E.arr k (arr_new st E.arr k) k) E.arr)
          prev_f E.arr, ((PROTO_NARGS E.prog pc + PROTO_VARGS E.prog pc : Nat) : Int),
          pc + PROTO_SIZE E.prog pc) := by
    unfold funcallArgs
    have hb : (fetchU E.prog pc 1 &&& E.C_ELLIPSIS != 0) = true := by simpa using hell
    simp only [hlt, if_false, hb, if_true, hkk, Int.toNat_ofNat, Nat.max_eq_right hk]
  obtain ⟨p1, p2, p3, _, p5, p6, p7, p8, _, _, _⟩ :=
    packArgs_fields prev_f E.arr k (arr_new st E.arr k) k (le_refl k)
  rw [arr_new_frame] at p1 p3 p5
  rw [arr_new_mem] at p2 p3 p5
  generalize packArgs prev_f E.arr k (arr_new st E.arr k) k = s at e p1 p2 p3 p5 p6 p7 p8
  have hd : d_ref_imports s E.arr = s := rfl
  rw [hd] at e
  have hsp : (s.frame prev_f).sp - 1 = (st.frame prev_f).sp + k - 1 := by
    rw [p1, Function.update_same]
  have hfr : (PUSH_ARRVAL s prev_f E.arr).frame
      = Function.update st.frame prev_f
          { st.frame prev_f with sp := (st.frame prev_f).sp + k - 1 } := by
    rw [PUSH_ARRVAL_frame, p1, Function.update_same, Function.update_idem]
  have hmem : (PUSH_ARRVAL s prev_f E.arr).mem
      = Function.update st.mem ((st.frame prev_f).sp + k - 1)
          { st.mem ((st.frame prev_f).sp + k - 1) with u := E.arr, type := .array } := by
    rw [PUSH_ARRVAL_mem, hsp, p2]
  refine ⟨_, e, ?_, ?_, ?_, ?_, ?_, ?_, ?_, ?_, ?_, ?_, ?_, ?_⟩
  · rw [hfr, Function.update_same]
  · intro g hg
    rw [hfr, Function.update_noteq hg]
  · rw [hmem, Function.update_same]
  · rw [hmem, Function.update_same]
  · intro a ha
    rw [hmem, Function.update_noteq ha]
  · rw [PUSH_ARRVAL_arrSize, p8, arr_new_arrSize, Function.update_same]
  · rw [PUSH_ARRVAL_arrRef, p7, arr_new_arrRef, Function.update_same, Function.update_same]
    rfl
  · intro i hi
    rw [PUSH_ARRVAL_elts, p3 i, if_pos (by omega)]
  · rw [PUSH_ARRVAL_elt0, PUSH_ARRVAL_elts, p5, p3 0, if_pos (by omega), if_pos (by omega)]
    rfl
  · rw [PUSH_ARRVAL_strRef, p6, arr_new_strRef]
  · intro h hh
    rw [PUSH_ARRVAL_arrRef, Function.update_noteq hh, p7, arr_new_arrRef,
      Function.update_noteq hh]
  · rw [funcallEnter_nargs E _ prev_f _ _ hfa, Int.toNat_ofNat]

/-- C23: for a function with an ellipsis and `n = NARGS + VARGS` parameters
called with `nargs = n - 1 + k` arguments, `k ≥ 1`, the statements "handle
arguments" of `i_funcall` remove the `k` arguments pushed last from the stack
of the caller and push one array in their place: the stack pointer is `k - 1`
higher and the slot on top holds the new array `arr`, of size `k`, with one
reference. The element `i` of the array is the value that was `k - 1 - i`
slots below the top: the earliest of the `k` arguments is the element 0, the
one pushed last the element `k - 1`. No other value is changed, so the first
`n - 1` arguments are as they were; the reference counts of the strings and of
the arrays other than the new one are unchanged; the callee sees `n`
arguments. -/
theorem i_funcall_ellipsis (E : CallEnv) (st : Interp) (prev_f pc : Nat) (nargs : Int) (k : Nat)
    (hell : fetchU E.prog pc 1 &&& E.C_ELLIPSIS ≠ 0)
    (hk : 1 ≤ k)
    (hnargs : nargs = ((PROTO_NARGS E.prog pc + PROTO_VARGS E.prog pc : Nat) : Int) - 1 + k)
    (hfa : E.fa ≠ prev_f) :
    ∃ st1, funcallArgs E st prev_f pc nargs
        = .ok (st1, ((PROTO_NARGS E.prog pc + PROTO_VARGS E.prog pc : Nat) : Int),
            pc + PROTO_SIZE E.prog pc)
      ∧ st1.frame prev_f
        = { st.frame prev_f with sp := (st.frame prev_f).sp + k - 1 }
      ∧ (∀ g, g ≠ prev_f → st1.frame g = st.frame g)
      ∧ (st1.mem ((st.frame prev_f).sp + k - 1)).type = .array
      ∧ (st1.mem ((st.frame prev_f).sp + k - 1)).u = E.arr
      ∧ (∀ a, a ≠ (st.frame prev_f).sp + k - 1 → st1.mem a = st.mem a)
      ∧ st1.arrSize E.arr = k
      ∧ st1.arrRef E.arr = 1
      ∧ (∀ i, i < k → st1.elts E.arr i = st.mem ((st.frame prev_f).sp + (k - 1 - i)))
      ∧ st1.elt0 E.arr = st1.elts E.arr 0
      ∧ st1.strRef = st.strRef
      ∧ (∀ h, h ≠ E.arr → st1.arrRef h = st.arrRef h)
      ∧ ((funcallEnter E st1 prev_f (pc + PROTO_SIZE E.prog pc)
            ((PROTO_NARGS E.prog pc + PROTO_VARGS E.prog pc : Nat) : Int)).frame E.fa).nargs
        = PROTO_NARGS E.prog pc + PROTO_VARGS E.prog pc := by
  obtain ⟨st1, h⟩ := funcallArgs_ellipsis_spec E st prev_f pc nargs k hell hk hnargs hfa
  exact ⟨st1, h⟩

theorem i_funcall_ellipsis_witness :
    fetchU exEnv.prog 20 1 &&& exEnv.C_ELLIPSIS ≠ 0
    ∧ PROTO_NARGS exEnv.prog 20 + PROTO_VARGS exEnv.prog 20 = 2
    ∧ ((exInterp.setSp 1 105).frame 1).sp = 105
    ∧ ∃ st1, funcallArgs exEnv (exInterp.setSp 1 105) 1 20 3 = .ok (st1, 2, 28)
      ∧ (st1.frame 1).sp = 106
      ∧ (st1.mem 106).type = .array ∧ (st1.mem 106).u = 50
      ∧ st1.mem 107 = exInterp.mem 107
      ∧ st1.arrSize 50 = 2
      ∧ st1.elts 50 0 = exInterp.mem 106
      ∧ st1.elts 50 1 = exInterp.mem 105 :=
  ⟨by decide, by decide, by decide,
    match i_funcall_ellipsis exEnv (exInterp.setSp 1 105) 1 20 3 2 (by decide) (by decide)
      (by decide) (by decide) with
    | ⟨st1, h1, h2, _, h4, h5, h6, h7, _, h9, _⟩ =>
      ⟨st1, h1, by rw [h2]; rfl, h4, h5, h6 107 (by decide), h7, h9 0 (by decide),
        h9 1 (by decide)⟩⟩

end Dgd

namespace Dgd

/-! ## `i_funcall`: missing arguments -/

/-- What `i_grow_stack` leaves: the scopes, the reference counts, `cframe`
and the arrays. -/
theorem i_grow_stack_other (MIN_STACK stk : Nat) (st : Interp) (f : Nat) (size : Int) :
    (i_grow_stack MIN_STACK stk st f size).rl = st.rl
    ∧ (i_grow_stack MIN_STACK stk st f size).strRef = st.strRef
    ∧ (i_grow_stack MIN_STACK stk st f size).arrRef = st.arrRef
    ∧ (i_grow_stack MIN_STACK stk st f size).stricttc = st.stricttc
    ∧ (i_grow_stack MIN_STACK stk st f size).cframe = st.cframe
    ∧ (i_grow_stack MIN_STACK stk st f size).arrSize = st.arrSize
    ∧ (i_grow_stack MIN_STACK stk st f size).elts = st.elts := by
  unfold i_grow_stack
  refine ⟨?_, ?_, ?_, ?_, ?_, ?_, ?_⟩
  · simp only [apply_ite Interp.rl, setFrame_rl, free_rl, setSp_rl, ite_self]
  · simp only [apply_ite Interp.strRef, setFrame_strRef, free_strRef, setSp_strRef, ite_self]
  · simp only [apply_ite Interp.arrRef, setFrame_arrRef, free_arrRef, setSp_arrRef, ite_self]
  · simp only [apply_ite Interp.stricttc, setFrame_stricttc, free_stricttc, setSp_stricttc,
      ite_self]
  · simp only [apply_ite Interp.cframe, setFrame_cframe, free_cframe, setSp_cframe, ite_self]
  · simp only [apply_ite Interp.arrSize, setFrame_arrSize, free_arrSize, setSp_arrSize,
      ite_self]
  · simp only [apply_ite Interp.elts, setFrame_elts, free_elts, setSp_elts, ite_self]

/-- After `i_grow_stack` on a frame with `stack ≤ sp ≤ fp` there is room for
`size` values above the headroom, the live values are the same, in the same
order, and the other frames are as before. -/
theorem i_grow_stack_spec (MIN_STACK stk : Nat) (st : Interp) (f : Nat) (size : Int)
    (hinv : (st.frame f).stack ≤ (st.frame f).sp ∧ (st.frame f).sp ≤ (st.frame f).fp) :
    (((i_grow_stack MIN_STACK stk st f size).frame f).stack : Int) + size + MIN_STACK
      ≤ ((i_grow_stack MIN_STACK stk st f size).frame f).sp
    ∧ ((i_grow_stack MIN_STACK stk st f size).frame f).stack
      ≤ ((i_grow_stack MIN_STACK stk st f size).frame f).sp
    ∧ ((i_grow_stack MIN_STACK stk st f size).frame f).sp
      ≤ ((i_grow_stack MIN_STACK stk st f size).frame f).fp
    ∧ ((i_grow_stack MIN_STACK stk st f size).frame f).fp
        - ((i_grow_stack MIN_STACK stk st f size).frame f).sp
      = (st.frame f).fp - (st.frame f).sp
    ∧ (∀ i, i < (st.frame f).fp - (st.frame f).sp →
        (i_grow_stack MIN_STACK stk st f size).mem
            (((i_grow_stack MIN_STACK stk st f size).frame f).sp + i)
          = st.mem ((st.frame f).sp + i))
    ∧ (∀ g, g ≠ f → (i_grow_stack MIN_STACK stk st f size).frame g = st.frame g)
    ∧ (¬ ((st.frame f).sp : Int) < (st.frame f).stack + size + MIN_STACK →
        i_grow_stack MIN_STACK stk st f size = st) := by
  by_cases h : ((st.frame f).sp : Int) < (st.frame f).stack + size + MIN_STACK
  · obtain ⟨h1, h2, h3, _⟩ := i_grow_stack_grown MIN_STACK stk st f size h
    obtain ⟨_, a2, _⟩ :=
      ALGN_eight (((st.frame f).fp : Int) - (st.frame f).sp + size + MIN_STACK).toNat
    have hk1 : (((st.frame f).fp : Int) - (st.frame f).sp).toNat
        = (st.frame f).fp - (st.frame f).sp := by omega
    have ht : ((((st.frame f).fp : Int) - (st.frame f).sp + size + MIN_STACK).toNat : Int)
        = ((st.frame f).fp : Int) - (st.frame f).sp + size + MIN_STACK :=
      Int.toNat_of_nonneg (by omega)
    generalize ALGN (((st.frame f).fp : Int) - (st.frame f).sp + size + MIN_STACK).toNat 8 = N
      at h1 h3 a2
    rw [hk1] at h1 h3
    have e1 : ((i_grow_stack MIN_STACK stk st f size).frame f).sp
        = stk + N - ((st.frame f).fp - (st.frame f).sp) := by rw [h1]
    have e2 : ((i_grow_stack MIN_STACK stk st f size).frame f).stack = stk := by rw [h1]
    have e3 : ((i_grow_stack MIN_STACK stk st f size).frame f).fp = stk + N := by rw [h1]
    refine ⟨?_, ?_, ?_, ?_, ?_, h2, fun hn => absurd h hn⟩
    · rw [e1, e2]; omega
    · rw [e1, e2]; omega
    · rw [e1, e3]; omega
    · rw [e1, e3]; omega
    · intro i hi
      rw [e1, h3]
      unfold copyVals
      rw [if_pos (by omega)]
      congr 1
      omega
  · have e : i_grow_stack MIN_STACK stk st f size = st := by
      unfold i_grow_stack
      rw [if_neg h]
    rw [e]
    exact ⟨by omega, hinv.1, hinv.2, rfl, fun _ _ => rfl, fun _ _ => rfl, fun _ => rfl⟩

/-- A number of one byte is below 256. -/
theorem fetchU_one_lt (prog : Nat → Nat) (pc : Nat) : fetchU prog pc 1 < 256 := by
  show 0 * 256 + prog (pc + 0) % 256 < 256
  omega

theorem skipTypes_add (E : CallEnv) : ∀ (j k pc : Nat),
    skipTypes E k (skipTypes E j pc) = skipTypes E (j + k) pc := by
  intro j
  induction j with
  | zero => intro k pc; rw [Nat.zero_add]; rfl
  | succ j ih =>
    intro k pc
    show skipTypes E k (skipTypes E j (skipType E pc)) = _
    rw [ih, Nat.add_right_comm]
    rfl

/-- The loop that adds `k` missing arguments lowers the stack pointer of the
caller by `k` and writes those slots only: the slot `j` below the old stack
pointer gets the value for the type byte of the `j`-th type descriptor from
`pc`; the loop ends behind the `k` descriptors. -/
theorem pushMissing_fields (E : CallEnv) (prev_f : Nat)
    (hInt : E.T_INT &&& E.T_TYPE ≠ E.T_CLASS) (hFloat : E.T_FLOAT &&& E.T_TYPE ≠ E.T_CLASS) :
    ∀ (k : Nat) (st : Interp) (pc : Nat), k ≤ (st.frame prev_f).sp →
    (pushMissing E prev_f k st pc).2 = skipTypes E k pc
    ∧ (pushMissing E prev_f k st pc).1.frame
      = Function.update st.frame prev_f
          { st.frame prev_f with sp := (st.frame prev_f).sp - k }
    ∧ (∀ a, ¬ ((st.frame prev_f).sp - k ≤ a ∧ a < (st.frame prev_f).sp) →
        (pushMissing E prev_f k st pc).1.mem a = st.mem a)
    ∧ (∀ j, j < k → (pushMissing E prev_f k st pc).1.mem ((st.frame prev_f).sp - 1 - j)
        = missingValue E st (fetchU E.prog (skipTypes E j pc) 1))
    ∧ (pushMissing E prev_f k st pc).1.stricttc = st.stricttc
    ∧ (pushMissing E prev_f k st pc).1.strRef = st.strRef
    ∧ (pushMissing E prev_f k st pc).1.arrRef = st.arrRef
    ∧ (pushMissing E prev_f k st pc).1.rl = st.rl
    ∧ (pushMissing E prev_f k st pc).1.cframe = st.cframe := by
  intro k
  induction k with
  | zero =>
    intro st pc _
    refine ⟨rfl, ?_, fun _ _ => rfl, fun j hj => absurd hj (Nat.not_lt_zero _), rfl, rfl, rfl,
      rfl, rfl⟩
    show st.frame = _
    exact (Function.update_eq_self prev_f st.frame).symm
  | succ k ih =>
    intro st pc hk
    have e : pushMissing E prev_f (k + 1) st pc
        = pushMissing E prev_f k
            (st.pushVal prev_f (missingValue E st (fetchU E.prog pc 1))) (skipType E pc) := by
      show (if fetchU E.prog pc 1 = E.T_INT then _ else _) = _
      unfold missingValue skipType
      by_cases h1 : fetchU E.prog pc 1 = E.T_INT
      · rw [if_pos h1, if_pos h1, h1, if_neg hInt]
      · rw [if_neg h1, if_neg h1]
        by_cases h2 : fetchU E.prog pc 1 = E.T_FLOAT
        · rw [if_pos h2, if_pos h2, h2, if_neg hFloat]
        · rw [if_neg h2, if_neg h2]
    rw [e]
    generalize hv : missingValue E st (fetchU E.prog pc 1) = v
    have hsp : ((st.pushVal prev_f v).frame prev_f).sp = (st.frame prev_f).sp - 1 := by
      rw [pushVal_frame, Function.update_same]
    obtain ⟨i1, i2, i3, i4, i5, i6, i7, i8, i9⟩ :=
      ih (st.pushVal prev_f v) (skipType E pc) (by rw [hsp]; omega)
    rw [hsp] at i3 i4
    refine ⟨?_, ?_, ?_, ?_, i5, i6, i7, i8, i9⟩
    · rw [i1]
      rfl
    · rw [i2, pushVal_frame, Function.update_same, Function.update_idem]
      have e2 : (st.frame prev_f).sp - 1 - k = (st.frame prev_f).sp - (k + 1) := by omega
      show Function.update st.frame prev_f
        { st.frame prev_f with sp := (st.frame prev_f).sp - 1 - k } = _
      rw [e2]
    · intro a ha
      have h2 : a ≠ (st.frame prev_f).sp - 1 := by omega
      rw [i3 a (by omega), pushVal_mem, Function.update_noteq h2]
    · intro j hj
      cases j with
      | zero =>
        rw [i3 _ (by omega), pushVal_mem]
        show Function.update st.mem ((st.frame prev_f).sp - 1) v ((st.frame prev_f).sp - 1) = _
        rw [Function.update_same, ← hv]
        rfl
      | succ j =>
        have := i4 j (by omega)
        have e3 : (st.frame prev_f).sp - 1 - (j + 1) = (st.frame prev_f).sp - 1 - 1 - j := by
          omega
        rw [e3, this]
        show missingValue E (st.pushVal prev_f v) _ = missingValue E st _
        rfl

theorem skipTypes_succ (E : CallEnv) (k pc : Nat) :
    skipType E (skipTypes E k pc) = skipTypes E (k + 1) pc :=
  skipTypes_add E k 1 pc

/-- The statements "handle arguments" of `i_funcall` for fewer arguments than
parameters, when the call is not rejected: the stack is grown, the missing
values are pushed and, for an ellipsis, an empty array. -/
theorem funcallArgs_missing (E : CallEnv) (st : Interp) (prev_f pc m : Nat)
    (hm : m < PROTO_NARGS E.prog pc + PROTO_VARGS E.prog pc)
    (hc : ¬ (m < PROTO_NARGS E.prog pc ∧ st.stricttc = true)) :
    (fetchU E.prog pc 1 &&& E.C_ELLIPSIS = 0 →
      funcallArgs E st prev_f pc m
        = .ok ((pushMissing E prev_f (PROTO_NARGS E.prog pc + PROTO_VARGS E.prog pc - m)
              (i_grow_stack E.MIN_STACK E.gstk st prev_f
                (((PROTO_NARGS E.prog pc + PROTO_VARGS E.prog pc : Nat) : Int) - m))
              (skipTypes E (m + 1) (PROTO_FTYPE pc))).1,
            ((PROTO_NARGS E.prog pc + PROTO_VARGS E.prog pc : Nat) : Int),
            (pushMissing E prev_f (PROTO_NARGS E.prog pc + PROTO_VARGS E.prog pc - m)
              (i_grow_stack E.MIN_STACK E.gstk st prev_f
                (((PROTO_NARGS E.prog pc + PROTO_VARGS E.prog pc : Nat) : Int) - m))
              (skipTypes E (m + 1) (PROTO_FTYPE pc))).2))
    ∧ (fetchU E.prog pc 1 &&& E.C_ELLIPSIS ≠ 0 →
      funcallArgs E st prev_f pc m
        = .ok (PUSH_ARRVAL (arr_new
              (pushMissing E prev_f (PROTO_NARGS E.prog pc + PROTO_VARGS E.prog pc - 1 - m)
                (i_grow_stack E.MIN_STACK E.gstk st prev_f
                  (((PROTO_NARGS E.prog pc + PROTO_VARGS E.prog pc : Nat) : Int) - m))
                (skipTypes E (m + 1) (PROTO_FTYPE pc))).1 E.arr 0) prev_f E.arr,
            ((PROTO_NARGS E.prog pc + PROTO_VARGS E.prog pc : Nat) : Int),
            skipType E (pushMissing E prev_f
              (PROTO_NARGS E.prog pc + PROTO_VARGS E.prog pc - 1 - m)
              (i_grow_stack E.MIN_STACK E.gstk st prev_f
                (((PROTO_NARGS E.prog pc + PROTO_VARGS E.prog pc : Nat) : Int) - m))
              (skipTypes E (m + 1) (PROTO_FTYPE pc))).2)) := by
  have h1 : PROTO_NARGS E.prog pc < 256 := fetchU_one_lt E.prog (pc + 1)
  have h2 : PROTO_VARGS E.prog pc < 256 := fetchU_one_lt E.prog (pc + 2)
  generalize hN : PROTO_NARGS E.prog pc + PROTO_VARGS E.prog pc = N at hm ⊢
  have hlt : ((m : Nat) : Int) < ((N : Nat) : Int) := by omega
  have hc2 : ¬ (((m : Nat) : Int) < ((PROTO_NARGS E.prog pc : Nat) : Int)
      ∧ st.stricttc = true) := fun h => hc ⟨by omega, h.2⟩
  have hd : decU16 N = N - 1 := by unfold decU16; omega
  have k1 : (((N : Nat) : Int) - ((m : Nat) : Int)).toNat = N - m := by omega
  have k2 : (((N - 1 : Nat) : Int) - ((m : Nat) : Int)).toNat = N - 1 - m := by omega
  have k3 : ((m : Nat) : Int) + ((N - m : Nat) : Int) = (N : Int) := by omega
  have k4 : ((m : Nat) : Int) + ((N - 1 - m : Nat) : Int) + 1 = (N : Int) := by omega
  constructor
  · intro hell
    unfold funcallArgs
    have hb : (fetchU E.prog pc 1 &&& E.C_ELLIPSIS != 0) = false := by simpa using hell
    simp only [hN, hlt, if_true, hc2, if_false, hb, Bool.false_eq_true, Int.toNat_ofNat, k1, k3]
  · intro hell
    unfold funcallArgs
    have hb : (fetchU E.prog pc 1 &&& E.C_ELLIPSIS != 0) = true := by simpa using hell
    simp only [hN, hlt, if_true, hc2, if_false, hb, Int.toNat_ofNat, hd, k2, k4]

theorem missingValue_congr (E : CallEnv) (s t : Interp) (i : Nat)
    (h : s.stricttc = t.stricttc) : missingValue E s i = missingValue E t i := by
  unfold missingValue
  rw [h]

/-- The statements "handle arguments" of `i_funcall` for fewer arguments than
parameters: the error under strict typechecking, and otherwise the values
pushed for the missing parameters above the values the caller had. -/
theorem funcallArgs_missing_spec (E : CallEnv) (st : Interp) (prev_f pc m N : Nat)
    (hN : N = PROTO_NARGS E.prog pc + PROTO_VARGS E.prog pc)
    (hm : m < N)
    (hinv : (st.frame prev_f).stack ≤ (st.frame prev_f).sp
      ∧ (st.frame prev_f).sp ≤ (st.frame prev_f).fp)
    (hInt : E.T_INT &&& E.T_TYPE ≠ E.T_CLASS) (hFloat : E.T_FLOAT &&& E.T_TYPE ≠ E.T_CLASS)
    (hfa : E.fa ≠ prev_f) :
    (m < PROTO_NARGS E.prog pc ∧ st.stricttc = true →
      funcallArgs E st prev_f pc m
        = .error ("Insufficient arguments for function " ++ E.name, st))
    ∧ (¬ (m < PROTO_NARGS E.prog pc ∧ st.stricttc = true) →
      ∃ st1, funcallArgs E st prev_f pc m
          = .ok (st1, (N : Int), skipTypes E (N + 1) (PROTO_FTYPE pc))
        ∧ (st1.frame prev_f).stack + E.MIN_STACK ≤ (st1.frame prev_f).sp
        ∧ (st1.frame prev_f).fp - (st1.frame prev_f).sp
          = (st.frame prev_f).fp - (st.frame prev_f).sp + (N - m)
        ∧ (∀ j, m ≤ j → j < N → (fetchU E.prog pc 1 &&& E.C_ELLIPSIS = 0 ∨ j + 1 < N) →
            st1.mem ((st1.frame prev_f).sp + (N - 1 - j))
              = missingValue E st (paramType E pc j))
        ∧ (fetchU E.prog pc 1 &&& E.C_ELLIPSIS ≠ 0 →
            (st1.mem (st1.frame prev_f).sp).type = .array
            ∧ (st1.mem (st1.frame prev_f).sp).u = E.arr
            ∧ st1.arrSize E.arr = 0
            ∧ st1.arrRef E.arr = 1)
        ∧ (∀ i, i < (st.frame prev_f).fp - (st.frame prev_f).sp →
            st1.mem ((st1.frame prev_f).sp + (N - m) + i) = st.mem ((st.frame prev_f).sp + i))
        ∧ (∀ g, g ≠ prev_f → st1.frame g = st.frame g)
        ∧ st1.strRef = st.strRef
        ∧ (∀ h, h ≠ E.arr → st1.arrRef h = st.arrRef h)
        ∧ (fetchU E.prog pc 1 &&& E.C_ELLIPSIS = 0 → st1.arrRef = st.arrRef)
        ∧ ((funcallEnter E st1 prev_f (skipTypes E (N + 1) (PROTO_FTYPE pc)) (N : Int)).frame
            E.fa).nargs = N
        ∧ ((st.frame prev_f).stack + (N - m) + E.MIN_STACK ≤ (st.frame prev_f).sp →
            st1.frame prev_f
              = { st.frame prev_f with sp := (st.frame prev_f).sp - (N - m) }
            ∧ ∀ a, ¬ ((st.frame prev_f).sp - (N - m) ≤ a ∧ a < (st.frame prev_f).sp) →
              st1.mem a = st.mem a)) := by
  have hNm : m < PROTO_NARGS E.prog pc + PROTO_VARGS E.prog pc := by omega
  constructor
  · intro hc
    unfold funcallArgs
    have hlt : ((m : Nat) : Int)
        < ((PROTO_NARGS E.prog pc + PROTO_VARGS E.prog pc : Nat) : Int) := by omega
    have hc1 : ((m : Nat) : Int) < ((PROTO_NARGS E.prog pc : Nat) : Int) := by
      have := hc.1
      omega
    simp only [hlt, if_true, hc1, hc.2, and_self]
  · intro hc
    obtain ⟨hA0, hA1⟩ := funcallArgs_missing E st prev_f pc m hNm hc
    rw [← hN] at hA0 hA1
    obtain ⟨g1, g2, g3, g4, g5, g6, g7⟩ :=
      i_grow_stack_spec E.MIN_STACK E.gstk st prev_f ((N : Int) - m) hinv
    obtain ⟨_, o2, o3, o4, _, _, _⟩ :=
      i_grow_stack_other E.MIN_STACK E.gstk st prev_f ((N : Int) - m)
    generalize i_grow_stack E.MIN_STACK E.gstk st prev_f ((N : Int) - m) = G
      at hA0 hA1 g1 g2 g3 g4 g5 g6 g7 o2 o3 o4
    have hfin : ∀ S : Interp,
        S.frame = Function.update G.frame prev_f
          { G.frame prev_f with sp := (G.frame prev_f).sp - (N - m) } →
        (∀ a, ¬ ((G.frame prev_f).sp - (N - m) ≤ a ∧ a < (G.frame prev_f).sp) →
          S.mem a = G.mem a) →
        (st.frame prev_f).stack + (N - m) + E.MIN_STACK ≤ (st.frame prev_f).sp →
        S.frame prev_f = { st.frame prev_f with sp := (st.frame prev_f).sp - (N - m) }
        ∧ ∀ a, ¬ ((st.frame prev_f).sp - (N - m) ≤ a ∧ a < (st.frame prev_f).sp) →
          S.mem a = st.mem a := by
      intro S hF hM hroom
      have hG : G = st := g7 (by omega)
      rw [hG] at hF hM
      refine ⟨?_, hM⟩
      rw [hF, Function.update_same]
    by_cases hell : fetchU E.prog pc 1 &&& E.C_ELLIPSIS = 0
    · have e := hA0 hell
      obtain ⟨p1, p2, p3, p4, _, p6, p7, _, _⟩ :=
        pushMissing_fields E prev_f hInt hFloat (N - m) G (skipTypes E (m + 1) (PROTO_FTYPE pc))
          (by omega)
      rw [p1, skipTypes_add, show m + 1 + (N - m) = N + 1 by omega] at e
      generalize (pushMissing E prev_f (N - m) G (skipTypes E (m + 1) (PROTO_FTYPE pc))).1 = S
        at e p2 p3 p4 p6 p7
      have hsp : (S.frame prev_f).sp = (G.frame prev_f).sp - (N - m) := by
        rw [p2, Function.update_same]
      have hst : (S.frame prev_f).stack = (G.frame prev_f).stack := by
        rw [p2, Function.update_same]
      have hfp : (S.frame prev_f).fp = (G.frame prev_f).fp := by
        rw [p2, Function.update_same]
      refine ⟨S, e, ?_, ?_, ?_, fun h => absurd hell h, ?_, ?_, ?_, ?_, ?_, ?_, hfin S p2 p3⟩
      · rw [hsp, hst]; omega
      · rw [hsp, hfp]; omega
      · intro j hj1 hj2 _
        have ha : (S.frame prev_f).sp + (N - 1 - j) = (G.frame prev_f).sp - 1 - (j - m) := by
          rw [hsp]; omega
        rw [ha, p4 (j - m) (by omega), skipTypes_add, show m + 1 + (j - m) = j + 1 by omega]
        exact missingValue_congr E G st _ o4
      · intro i hi
        have ha : (S.frame prev_f).sp + (N - m) + i = (G.frame prev_f).sp + i := by
          rw [hsp]; omega
        rw [ha, p3 _ (by omega), g5 i hi]
      · intro g hg
        rw [p2, Function.update_noteq hg, g6 g hg]
      · rw [p6, o2]
      · intro h _
        rw [p7, o3]
      · intro _
        rw [p7, o3]
      · rw [funcallEnter_nargs E _ prev_f _ _ hfa, Int.toNat_ofNat]
    · have e := hA1 hell
      obtain ⟨p1, p2, p3, p4, _, p6, p7, _, _⟩ :=
        pushMissing_fields E prev_f hInt hFloat (N - 1 - m) G
          (skipTypes E (m + 1) (PROTO_FTYPE pc)) (by omega)
      rw [p1, skipTypes_add, skipTypes_succ, show m + 1 + (N - 1 - m) + 1 = N + 1 by omega] at e
      generalize (pushMissing E prev_f (N - 1 - m) G (skipTypes E (m + 1) (PROTO_FTYPE pc))).1
        = R at e p2 p3 p4 p6 p7
      have hx : (G.frame prev_f).sp - (N - 1 - m) - 1 = (G.frame prev_f).sp - (N - m) := by
        omega
      have hF : (PUSH_ARRVAL (arr_new R E.arr 0) prev_f E.arr).frame
          = Function.update G.frame prev_f
              { G.frame prev_f with sp := (G.frame prev_f).sp - (N - m) } := by
        rw [PUSH_ARRVAL_frame, arr_new_frame, p2, Function.update_same, Function.update_idem]
        show Function.update G.frame prev_f
          { G.frame prev_f with sp := (G.frame prev_f).sp - (N - 1 - m) - 1 } = _
        rw [hx]
      have hM : (PUSH_ARRVAL (arr_new R E.arr 0) prev_f E.arr).mem
          = Function.update R.mem ((G.frame prev_f).sp - (N - m))
              { R.mem ((G.frame prev_f).sp - (N - m)) with u := E.arr, type := .array } := by
        rw [PUSH_ARRVAL_mem, arr_new_frame, arr_new_mem, p2, Function.update_same]
        show Function.update R.mem ((G.frame prev_f).sp - (N - 1 - m) - 1) _ = _
        rw [hx]
      have hRef : (PUSH_ARRVAL (arr_new R E.arr 0) prev_f E.arr).arrRef
          = Function.update (Function.update st.arrRef E.arr 0) E.arr 1 := by
        rw [PUSH_ARRVAL_arrRef, arr_new_arrRef, p7, o3, Function.update_same]
        rfl
      have hSize : (PUSH_ARRVAL (arr_new R E.arr 0) prev_f E.arr).arrSize E.arr = 0 := by
        rw [PUSH_ARRVAL_arrSize, arr_new_arrSize, Function.update_same]
      have hStr : (PUSH_ARRVAL (arr_new R E.arr 0) prev_f E.arr).strRef = st.strRef := by
        rw [PUSH_ARRVAL_strRef, arr_new_strRef, p6, o2]
      generalize PUSH_ARRVAL (arr_new R E.arr 0) prev_f E.arr = S at e hF hM hRef hSize hStr
      have hsp : (S.frame prev_f).sp = (G.frame prev_f).sp - (N - m) := by
        rw [hF, Function.update_same]
      have hst : (S.frame prev_f).stack = (G.frame prev_f).stack := by
        rw [hF, Function.update_same]
      have hfp : (S.frame prev_f).fp = (G.frame prev_f).fp := by
        rw [hF, Function.update_same]
      have hM3 : ∀ a, ¬ ((G.frame prev_f).sp - (N - m) ≤ a ∧ a < (G.frame prev_f).sp) →
          S.mem a = G.mem a := by
        intro a ha
        rw [hM, Function.update_noteq (by omega), p3 a (by omega)]
      refine ⟨S, e, ?_, ?_, ?_, fun _ => ⟨?_, ?_, hSize, ?_⟩, ?_, ?_, hStr, ?_,
        fun h => absurd h hell, ?_, hfin S hF hM3⟩
      · rw [hsp, hst]; omega
      · rw [hsp, hfp]; omega
      · intro j hj1 hj2 hj3
        have hj4 : j + 1 < N := hj3.resolve_left hell
        have ha : (S.frame prev_f).sp + (N - 1 - j) = (G.frame prev_f).sp - 1 - (j - m) := by
          rw [hsp]; omega
        rw [ha, hM, Function.update_noteq (by omega), p4 (j - m) (by omega), skipTypes_add,
          show m + 1 + (j - m) = j + 1 by omega]
        exact missingValue_congr E G st _ o4
      · rw [hsp, hM, Function.update_same]
      · rw [hsp, hM, Function.update_same]
      · rw [hRef, Function.update_same]
      · intro i hi
        have ha : (S.frame prev_f).sp + (N - m) + i = (G.frame prev_f).sp + i := by
          rw [hsp]; omega
        rw [ha, hM3 _ (by omega), g5 i hi]
      · intro g hg
        rw [hF, Function.update_noteq hg, g6 g hg]
      · intro h hh
        rw [hRef, Function.update_noteq hh, Function.update_noteq hh]
      · rw [funcallEnter_nargs E _ prev_f _ _ hfa, Int.toNat_ofNat]

/-- C22: for a call with `m` arguments to a function with more parameters,
`m < N = NARGS + VARGS`, on a caller whose frame has `stack ≤ sp ≤ fp`, the
statements "handle arguments" of `i_funcall` raise "Insufficient arguments for
function ..." exactly when `m < NARGS` under strict typechecking, with the
state as it was. Otherwise they end without error and the callee sees `N`
arguments, the parameter `j` in the slot `sp + (N - 1 - j)` of the caller:
for every missing parameter `j`, `m ≤ j < N`, that is not the ellipsis, the
slot holds `zero_int` when the type byte of the parameter is `T_INT`,
`zero_float` when it is `T_FLOAT`, and `nil_value` for every other type
byte, a class type among them; for a function with ellipsis the slot on top,
of the last parameter, holds the new array `arr` of size 0 with one reference.
The values that were on the stack of the caller, the `m` arguments among
them, are the same and in the same order above the `N - m` new slots, also
when the stack had to be moved to a larger block; the other frames and the
reference counts of the strings and of the other arrays are unchanged.
`T_INT` and `T_FLOAT` are not class types. -/
theorem i_funcall_missing (E : CallEnv) (st : Interp) (prev_f pc m N : Nat)
    (hN : N = PROTO_NARGS E.prog pc + PROTO_VARGS E.prog pc)
    (hm : m < N)
    (hinv : (st.frame prev_f).stack ≤ (st.frame prev_f).sp
      ∧ (st.frame prev_f).sp ≤ (st.frame prev_f).fp)
    (hInt : E.T_INT &&& E.T_TYPE ≠ E.T_CLASS) (hFloat : E.T_FLOAT &&& E.T_TYPE ≠ E.T_CLASS)
    (hfa : E.fa ≠ prev_f) :
    (m < PROTO_NARGS E.prog pc ∧ st.stricttc = true →
      funcallArgs E st prev_f pc m
        = .error ("Insufficient arguments for function " ++ E.name, st))
    ∧ (¬ (m < PROTO_NARGS E.prog pc ∧ st.stricttc = true) →
      ∃ st1, funcallArgs E st prev_f pc m
          = .ok (st1, (N : Int), skipTypes E (N + 1) (PROTO_FTYPE pc))
        ∧ (st1.frame prev_f).stack + E.MIN_STACK ≤ (st1.frame prev_f).sp
        ∧ (st1.frame prev_f).fp - (st1.frame prev_f).sp
          = (st.frame prev_f).fp - (st.frame prev_f).sp + (N - m)
        ∧ (∀ j, m ≤ j → j < N → (fetchU E.prog pc 1 &&& E.C_ELLIPSIS = 0 ∨ j + 1 < N) →
            st1.mem ((st1.frame prev_f).sp + (N - 1 - j))
              = missingValue E st (paramType E pc j))
        ∧ (fetchU E.prog pc 1 &&& E.C_ELLIPSIS ≠ 0 →
            (st1.mem (st1.frame prev_f).sp).type = .array
            ∧ (st1.mem (st1.frame prev_f).sp).u = E.arr
            ∧ st1.arrSize E.arr = 0
            ∧ st1.arrRef E.arr = 1)
        ∧ (∀ i, i < (st.frame prev_f).fp - (st.frame prev_f).sp →
            st1.mem ((st1.frame prev_f).sp + (N - m) + i) = st.mem ((st.frame prev_f).sp + i))
        ∧ (∀ g, g ≠ prev_f → st1.frame g = st.frame g)
        ∧ st1.strRef = st.strRef
        ∧ (∀ h, h ≠ E.arr → st1.arrRef h = st.arrRef h)
        ∧ (fetchU E.prog pc 1 &&& E.C_ELLIPSIS = 0 → st1.arrRef = st.arrRef)
        ∧ ((funcallEnter E st1 prev_f (skipTypes E (N + 1) (PROTO_FTYPE pc)) (N : Int)).frame
            E.fa).nargs = N
        ∧ ((st.frame prev_f).stack + (N - m) + E.MIN_STACK ≤ (st.frame prev_f).sp →
            st1.frame prev_f
              = { st.frame prev_f with sp := (st.frame prev_f).sp - (N - m) }
            ∧ ∀ a, ¬ ((st.frame prev_f).sp - (N - m) ≤ a ∧ a < (st.frame prev_f).sp) →
              st1.mem a = st.mem a)) := by
  obtain ⟨herr, hok⟩ := funcallArgs_missing_spec E st prev_f pc m N hN hm hinv hInt hFloat hfa
  refine ⟨herr, fun hc => ?_⟩
  obtain ⟨st1, h⟩ := hok hc
  exact ⟨st1, h⟩

theorem i_funcall_missing_witness :
    3 = PROTO_NARGS exEnv.prog 0 + PROTO_VARGS exEnv.prog 0
    ∧ (exLax.frame 1).stack ≤ (exLax.frame 1).sp ∧ (exLax.frame 1).sp ≤ (exLax.frame 1).fp
    ∧ paramType exEnv 0 1 = exEnv.T_FLOAT
    ∧ paramType exEnv 0 2 &&& exEnv.T_TYPE = exEnv.T_CLASS
    ∧ ∃ st1, funcallArgs exEnv exLax 1 0 1 = .ok (st1, 3, 12)
      ∧ st1.mem ((st1.frame 1).sp + 1) = zero_float
      ∧ st1.mem ((st1.frame 1).sp + 0) = nil_value false
      ∧ st1.mem ((st1.frame 1).sp + 2 + 0) = exLax.mem 106
      ∧ st1.mem ((st1.frame 1).sp + 2 + 1) = exLax.mem 107
      ∧ (st1.frame 1).fp - (st1.frame 1).sp = 4 :=
  ⟨by decide, by decide, by decide, by decide, by decide,
    match (i_funcall_missing exEnv exLax 1 0 1 3 (by decide) (by decide)
      ⟨by decide, by decide⟩ (by decide) (by decide) (by decide)).2 (by decide) with
    | ⟨st1, h1, _, h3, h4, _, h6, _⟩ =>
      ⟨st1, h1, h4 1 (by decide) (by decide) (Or.inl (by decide)),
        h4 2 (by decide) (by decide) (Or.inl (by decide)),
        h6 0 (by decide), h6 1 (by decide), h3⟩⟩

end Dgd

namespace Dgd

/-! ## `i_funcall`: what the handling of the arguments leaves -/

theorem i_grow_stack_atomic (MIN_STACK stk : Nat) (st : Interp) (f : Nat) (size : Int) :
    ((i_grow_stack MIN_STACK stk st f size).frame f).atomic = (st.frame f).atomic := by
  by_cases h : ((st.frame f).sp : Int) < (st.frame f).stack + size + MIN_STACK
  · rw [(i_grow_stack_grown MIN_STACK stk st f size h).1]
  · unfold i_grow_stack
    rw [if_neg h]

theorem i_grow_stack_frames (MIN_STACK stk : Nat) (st : Interp) (f : Nat) (size : Int)
    (g : Nat) (hg : g ≠ f) :
    (i_grow_stack MIN_STACK stk st f size).frame g = st.frame g := by
  by_cases h : ((st.frame f).sp : Int) < (st.frame f).stack + size + MIN_STACK
  · exact (i_grow_stack_grown MIN_STACK stk st f size h).2.1 g hg
  · unfold i_grow_stack
    rw [if_neg h]

/-- The loop that adds the missing arguments leaves the scopes, the other
frames and the atomic flag of the caller. -/
theorem pushMissing_light (E : CallEnv) (prev_f : Nat) : ∀ (k : Nat) (st : Interp) (pc : Nat),
    (pushMissing E prev_f k st pc).1.rl = st.rl
    ∧ (∀ g, g ≠ prev_f → (pushMissing E prev_f k st pc).1.frame g = st.frame g)
    ∧ ((pushMissing E prev_f k st pc).1.frame prev_f).atomic = (st.frame prev_f).atomic := by
  intro k
  induction k with
  | zero => intro st pc; exact ⟨rfl, fun _ _ => rfl, rfl⟩
  | succ k ih =>
    intro st pc
    simp only [pushMissing]
    split_ifs <;>
    · refine ⟨(ih _ _).1.trans ?_, fun g hg => ((ih _ _).2.1 g hg).trans ?_,
        (ih _ _).2.2.trans ?_⟩
      · rfl
      · rw [pushVal_frame, Function.update_noteq hg]
      · rw [pushVal_frame, Function.update_same]

/-- The loop that moves the arguments of an ellipsis to the array leaves the
scopes, the other frames and the atomic flag of the caller. -/
theorem packArgs_light (prev_f a : Nat) : ∀ (k : Nat) (st : Interp) (v : Nat),
    (packArgs prev_f a k st v).rl = st.rl
    ∧ (∀ g, g ≠ prev_f → (packArgs prev_f a k st v).frame g = st.frame g)
    ∧ ((packArgs prev_f a k st v).frame prev_f).atomic = (st.frame prev_f).atomic := by
  intro k
  induction k with
  | zero => intro st v; exact ⟨rfl, fun _ _ => rfl, rfl⟩
  | succ k ih =>
    intro st v
    simp only [packArgs]
    refine ⟨(ih _ _).1.trans ?_, fun g hg => ((ih _ _).2.1 g hg).trans ?_,
      (ih _ _).2.2.trans ?_⟩
    · rfl
    · rw [setSp_frame, Function.update_noteq hg]
      rfl
    · rw [setSp_frame, Function.update_same]
      rfl

/-- The statements "handle arguments" of `i_funcall` leave the scopes, the
frames other than that of the caller and the atomic flag of the caller. -/
theorem funcallArgs_light (E : CallEnv) (st : Interp) (prev_f pc : Nat) (nargs : Int)
    (s3 : Interp) (n : Int) (pc1 : Nat)
    (h3 : funcallArgs E st prev_f pc nargs = .ok (s3, n, pc1)) :
    s3.rl = st.rl
    ∧ (∀ g, g ≠ prev_f → s3.frame g = st.frame g)
    ∧ (s3.frame prev_f).atomic = (st.frame prev_f).atomic := by
  simp only [funcallArgs] at h3
  have hg1 := fun size => (i_grow_stack_other E.MIN_STACK E.gstk st prev_f size).1
  have hg2 := i_grow_stack_frames E.MIN_STACK E.gstk st prev_f
  have hg3 := i_grow_stack_atomic E.MIN_STACK E.gstk st prev_f
  split_ifs at h3 <;> cases h3
  · refine ⟨?_, fun g hg => ?_, ?_⟩
    · rw [PUSH_ARRVAL_rl, arr_new_rl, (pushMissing_light E prev_f _ _ _).1, hg1]
    · rw [PUSH_ARRVAL_frame, Function.update_noteq hg, arr_new_frame,
        (pushMissing_light E prev_f _ _ _).2.1 g hg, hg2 _ g hg]
    · rw [PUSH_ARRVAL_frame, Function.update_same, arr_new_frame]
      exact ((pushMissing_light E prev_f _ _ _).2.2).trans (hg3 _)
  · refine ⟨?_, fun g hg => ?_, ?_⟩
    · rw [(pushMissing_light E prev_f _ _ _).1, hg1]
    · rw [(pushMissing_light E prev_f _ _ _).2.1 g hg, hg2 _ g hg]
    · exact ((pushMissing_light E prev_f _ _ _).2.2).trans (hg3 _)
  · refine ⟨?_, fun g hg => ?_, ?_⟩
    · rw [PUSH_ARRVAL_rl]
      exact (packArgs_light prev_f E.arr _ _ _).1
    · rw [PUSH_ARRVAL_frame, Function.update_noteq hg]
      exact (packArgs_light prev_f E.arr _ _ _).2.1 g hg
    · rw [PUSH_ARRVAL_frame, Function.update_same]
      exact (packArgs_light prev_f E.arr _ _ _).2.2
  · refine ⟨(i_pop_other st prev_f _).1, fun g hg => ?_, ?_⟩
    · rw [(i_pop_fields st prev_f _).1, Function.update_noteq hg]
    · rw [(i_pop_fields st prev_f _).1, Function.update_same]
  · exact ⟨rfl, fun _ _ => rfl, rfl⟩

/-- The state in which `i_funcall` handles the arguments, when the limits are
kept and the function is found: the values and the frames other than that of
the callee are those at the call; the callee has the scope of the caller and
the atomic flag of the function; the count of ticks of that scope is the one
at the call, but for an unbounded scope below 100 ticks. -/
theorem funcallPre_fields (E : CallEnv) (st : Interp) (prev_f : Nat) (obj : Option Nat)
    (lwobj p_ctrli funci : Nat) (nargs : Int) (s1 s2 : Interp) (pc : Nat)
    (h1 : funcallLimits (funcallFrame E st prev_f obj lwobj) E.fa = .ok s1)
    (h2 : funcallFunc E s1 prev_f obj lwobj p_ctrli funci nargs = .ok (s2, pc)) :
    s2.mem = st.mem
    ∧ (∀ g, g ≠ E.fa → s2.frame g = st.frame g)
    ∧ (s2.frame E.fa).rlim = (st.frame prev_f).rlim
    ∧ (s2.frame E.fa).funcAtomic = (E.funcdef s1 prev_f obj lwobj p_ctrli funci).atomic
    ∧ (∀ x, x ≠ (st.frame prev_f).rlim → s2.rl x = st.rl x)
    ∧ s2.rl (st.frame prev_f).rlim
      = (if (st.rl (st.frame prev_f).rlim).ticks < 100 then
          { st.rl (st.frame prev_f).rlim with ticks := 0x7fffffff }
        else st.rl (st.frame prev_f).rlim)
    ∧ ((st.rl (st.frame prev_f).rlim).ticks < 100 →
        (st.rl (st.frame prev_f).rlim).noticks = true)
    ∧ s2.cframe = st.cframe ∧ s2.stricttc = st.stricttc := by
  obtain ⟨f1, f2, _, _, _, f6, f7, _, f9, _, f11, _, _⟩ :=
    funcallFrame_fields E st prev_f obj lwobj
  obtain ⟨l1, l2, l3⟩ := funcallLimits_spec (funcallFrame E st prev_f obj lwobj) E.fa
  obtain ⟨e2, _, _⟩ := funcallFunc_ok E s1 prev_f obj lwobj p_ctrli funci nargs s2 pc h2
  rw [f11, f2] at l1 l2 l3
  generalize funcallFrame E st prev_f obj lwobj = F at h1 f1 f2 f6 f7 f9 f11 l1 l2 l3
  by_cases c1 : (st.rl (st.frame prev_f).rlim).maxdepth ≤ (F.frame E.fa).depth
      ∧ (st.rl (st.frame prev_f).rlim).nodepth = false
  · rw [l1 c1] at h1
    cases h1
  · by_cases c2 : (st.rl (st.frame prev_f).rlim).ticks < 100
        ∧ (st.rl (st.frame prev_f).rlim).noticks = false
    · rw [l2 c1 c2] at h1
      cases h1
    · rw [l3 c1 c2] at h1
      have hs1 : s1 = if (st.rl (st.frame prev_f).rlim).ticks < 100 then
            F.setRl (st.frame prev_f).rlim
              { st.rl (st.frame prev_f).rlim with ticks := 0x7fffffff }
          else F := by
        cases h1
        rfl
      have hnt : (st.rl (st.frame prev_f).rlim).ticks < 100 →
          (st.rl (st.frame prev_f).rlim).noticks = true := by
        intro ht
        cases hno : (st.rl (st.frame prev_f).rlim).noticks
        · exact absurd ⟨ht, hno⟩ c2
        · rfl
      have m1 : s1.mem = st.mem := by
        rw [hs1, apply_ite Interp.mem, setRl_mem, ite_self, f1]
      have m2 : s1.frame = F.frame := by
        rw [hs1, apply_ite Interp.frame, setRl_frame, ite_self]
      have m3 : s1.cframe = st.cframe := by
        rw [hs1, apply_ite Interp.cframe, setRl_cframe, ite_self, f6]
      have m4 : s1.stricttc = st.stricttc := by
        rw [hs1, apply_ite Interp.stricttc, setRl_stricttc, ite_self, f7]
      have m5 : s1.rl = if (st.rl (st.frame prev_f).rlim).ticks < 100 then
            Function.update st.rl (st.frame prev_f).rlim
              { st.rl (st.frame prev_f).rlim with ticks := 0x7fffffff }
          else st.rl := by
        rw [hs1, apply_ite Interp.rl, setRl_rl, f2]
      rw [e2]
      refine ⟨m1, fun g hg => ?_, ?_, ?_, fun x hx => ?_, ?_, hnt, m3, m4⟩
      · rw [setFrame_frame, Function.update_noteq hg, m2, f9 g hg]
      · rw [setFrame_frame, Function.update_same]
        show (s1.frame E.fa).rlim = _
        rw [m2, f11]
      · rw [setFrame_frame, Function.update_same]
      · rw [setFrame_rl, m5]
        split
        · rw [Function.update_noteq hx]
        · rfl
      · rw [setFrame_rl, m5]
        split
        · rw [Function.update_same]
        · rfl

/-- The stack of the caller after the statements "handle arguments" of
`i_funcall`, whatever they do: with the `n` arguments the callee sees on top,
the values the caller had above its `m` arguments are above them, the same
and in the same order, and as many as before; unless the stack was moved to a
larger block for missing arguments, they are at the same addresses. -/
theorem funcallArgs_caller (E : CallEnv) (st : Interp) (prev_f pc m : Nat)
    (s3 : Interp) (n : Int) (pc1 : Nat)
    (hinv : (st.frame prev_f).stack ≤ (st.frame prev_f).sp
      ∧ (st.frame prev_f).sp ≤ (st.frame prev_f).fp)
    (hm : m ≤ (st.frame prev_f).fp - (st.frame prev_f).sp)
    (hInt : E.T_INT &&& E.T_TYPE ≠ E.T_CLASS) (hFloat : E.T_FLOAT &&& E.T_TYPE ≠ E.T_CLASS)
    (hfa : E.fa ≠ prev_f)
    (hellN : fetchU E.prog pc 1 &&& E.C_ELLIPSIS ≠ 0 →
      1 ≤ PROTO_NARGS E.prog pc + PROTO_VARGS E.prog pc)
    (h3 : funcallArgs E st prev_f pc m = .ok (s3, n, pc1)) :
    ∃ k : Nat, n = (k : Int)
      ∧ (s3.frame prev_f).sp + k ≤ (s3.frame prev_f).fp
      ∧ (s3.frame prev_f).fp - ((s3.frame prev_f).sp + k)
        = (st.frame prev_f).fp - ((st.frame prev_f).sp + m)
      ∧ (∀ i, i < (st.frame prev_f).fp - ((st.frame prev_f).sp + m) →
          s3.mem ((s3.frame prev_f).sp + k + i) = st.mem ((st.frame prev_f).sp + m + i))
      ∧ (0 < (st.frame prev_f).sp + m → 0 < (s3.frame prev_f).sp + k)
      ∧ (¬ (m < PROTO_NARGS E.prog pc + PROTO_VARGS E.prog pc
            ∧ (st.frame prev_f).sp
              < (st.frame prev_f).stack + (PROTO_NARGS E.prog pc + PROTO_VARGS E.prog pc - m)
                + E.MIN_STACK) →
          (s3.frame prev_f).sp + k = (st.frame prev_f).sp + m
          ∧ (s3.frame prev_f).fp = (st.frame prev_f).fp) := by
  generalize hN : PROTO_NARGS E.prog pc + PROTO_VARGS E.prog pc = N at hellN ⊢
  by_cases hA : m < N
  · obtain ⟨sp1, sp2⟩ := funcallArgs_missing_spec E st prev_f pc m N hN.symm hA hinv hInt hFloat hfa
    by_cases hc : m < PROTO_NARGS E.prog pc ∧ st.stricttc = true
    · rw [sp1 hc] at h3
      cases h3
    · obtain ⟨st1, e, f1, f2, _, _, f5, _, _, _, _, _, f11⟩ := sp2 hc
      rw [e] at h3
      obtain ⟨h31, rfl, rfl⟩ : st1 = s3 ∧ (N : Int) = n
          ∧ skipTypes E (N + 1) (PROTO_FTYPE pc) = pc1 := by
        simpa using h3
      rw [h31] at f1 f2 f5 f11
      clear h3 e sp1 sp2
      refine ⟨N, rfl, ?_, ?_, ?_, ?_, ?_⟩
      · omega
      · omega
      · intro i hi
        have := f5 (m + i) (by omega)
        have e1 : (s3.frame prev_f).sp + N + i = (s3.frame prev_f).sp + (N - m) + (m + i) := by
          omega
        have e2 : (st.frame prev_f).sp + m + i = (st.frame prev_f).sp + (m + i) := by omega
        rw [e1, e2, this]
      · intro _
        omega
      · intro hno
        have hroom : (st.frame prev_f).stack + (N - m) + E.MIN_STACK ≤ (st.frame prev_f).sp := by
          by_contra hlt
          exact hno ⟨hA, by omega⟩
        obtain ⟨g1, _⟩ := f11 hroom
        have a1 : (s3.frame prev_f).sp = (st.frame prev_f).sp - (N - m) := by rw [g1]
        have a2 : (s3.frame prev_f).fp = (st.frame prev_f).fp := by rw [g1]
        rw [a1, a2]
        omega
  · by_cases hell : fetchU E.prog pc 1 &&& E.C_ELLIPSIS = 0
    · have hlt : ¬ ((m : Nat) : Int) < ((N : Nat) : Int) := by omega
      have hb : (fetchU E.prog pc 1 &&& E.C_ELLIPSIS != 0) = false := by simpa using hell
      simp only [funcallArgs, hN, hlt, if_false, hb, Bool.false_eq_true] at h3
      obtain ⟨p1, p2, _, _⟩ := i_pop_fields st prev_f (((m : Nat) : Int) - ((N : Nat) : Int))
      have ht : (((m : Nat) : Int) - ((N : Nat) : Int)).toNat = m - N := by omega
      rw [ht] at p1
      split_ifs at h3 <;> cases h3
      · have a1 : ((i_pop st prev_f (((m : Nat) : Int) - ((N : Nat) : Int))).frame prev_f).sp
            = (st.frame prev_f).sp + (m - N) := by rw [p1, Function.update_same]
        have a2 : ((i_pop st prev_f (((m : Nat) : Int) - ((N : Nat) : Int))).frame prev_f).fp
            = (st.frame prev_f).fp := by rw [p1, Function.update_same]
        refine ⟨N, rfl, ?_, ?_, ?_, ?_, ?_⟩
        · rw [a1, a2]; omega
        · rw [a1, a2]; omega
        · intro i hi
          have e1 : (st.frame prev_f).sp + (m - N) + N + i = (st.frame prev_f).sp + m + i := by
            omega
          rw [a1, p2, e1]
        · intro _
          rw [a1]; omega
        · intro _
          rw [a1, a2]
          omega
      · refine ⟨m, rfl, by omega, rfl, fun i _ => rfl, fun h => h, fun _ => ⟨rfl, rfl⟩⟩
    · have hN1 : 1 ≤ N := hellN hell
      obtain ⟨st1, e, f1, _, _, _, f5, _⟩ :=
        funcallArgs_ellipsis_spec E st prev_f pc m (m + 1 - N) hell (by omega)
          (by rw [hN]; omega) hfa
      rw [hN] at e
      rw [e] at h3
      obtain ⟨h31, rfl, rfl⟩ : st1 = s3 ∧ (N : Int) = n ∧ pc + PROTO_SIZE E.prog pc = pc1 := by
        simpa using h3
      rw [h31] at f1 f5
      clear h3 e
      have a1 : (s3.frame prev_f).sp = (st.frame prev_f).sp + (m + 1 - N) - 1 := by rw [f1]
      have a2 : (s3.frame prev_f).fp = (st.frame prev_f).fp := by rw [f1]
      refine ⟨N, rfl, ?_, ?_, ?_, ?_, ?_⟩
      · rw [a1, a2]; omega
      · rw [a1, a2]; omega
      · intro i hi
        have e1 : (s3.frame prev_f).sp + N + i = (st.frame prev_f).sp + m + i := by
          rw [a1]
          omega
        rw [f5 _ (by rw [a1]; omega), e1]
      · intro _
        omega
      · intro _
        rw [a1, a2]
        omega

end Dgd

namespace Dgd

/-! ## `i_funcall`: the ticks of an atomic function -/

/-- A call whose callee returns: the result of `i_funcall` is the state of
the return of the callee, cleaned up. -/
theorem i_funcall_returned (E : CallEnv) (fuel : Nat) (st : Interp) (prev_f : Nat)
    (obj : Option Nat) (lwobj p_ctrli funci : Nat) (nargs : Int) (s sR : Interp)
    (hp : funcallPrepare E st prev_f obj lwobj p_ctrli funci nargs = .ok s)
    (hrun : i_interpret1 E.exec fuel s E.fa = some (.returned sR)) :
    i_funcall E fuel st prev_f obj lwobj p_ctrli funci nargs
      = some (.returned (funcallReturn E sR prev_f)) := by
  simp only [i_funcall, hp, hrun]

/-- One pass of the loop of `i_interpret1` in which the tick check passes and
the opcode returns. -/
theorem i_interpret1_returns (exec : Interp → Nat → Outcome) (fuel : Nat) (st : Interp)
    (f : Nat) (s2 : Interp)
    (h1 : 0 < (st.rl (st.frame f).rlim).ticks - 1)
    (h2 : exec (st.setRl (st.frame f).rlim
        { st.rl (st.frame f).rlim with ticks := (st.rl (st.frame f).rlim).ticks - 1 }) f
      = .returned s2) :
    i_interpret1 exec (fuel + 1) st f = some (.returned s2) := by
  rw [i_interpret1_running exec fuel st _ f ((tickCheck_spec st f).2.2 h1), h2]

/-- The scope and the flags of the call that decide on the halving and the
doubling of the ticks, in the state in which the callee starts. -/
theorem funcallEnter_atomic (E : CallEnv) (st : Interp) (prev_f : Nat) (obj : Option Nat)
    (lwobj p_ctrli funci : Nat) (nargs : Int) (s1 s2 s3 : Interp) (pc pc1 : Nat) (n : Int)
    (hfa : E.fa ≠ prev_f)
    (h1 : funcallLimits (funcallFrame E st prev_f obj lwobj) E.fa = .ok s1)
    (h2 : funcallFunc E s1 prev_f obj lwobj p_ctrli funci nargs = .ok (s2, pc))
    (h3 : funcallArgs E s2 prev_f pc nargs = .ok (s3, n, pc1)) :
    (s3.frame E.fa).rlim = (st.frame prev_f).rlim
    ∧ (s3.frame E.fa).funcAtomic = (E.funcdef s1 prev_f obj lwobj p_ctrli funci).atomic
    ∧ (s3.frame prev_f).atomic = (st.frame prev_f).atomic
    ∧ s3.rl (st.frame prev_f).rlim
      = (if (st.rl (st.frame prev_f).rlim).ticks < 100 then
          { st.rl (st.frame prev_f).rlim with ticks := 0x7fffffff }
        else st.rl (st.frame prev_f).rlim)
    ∧ ((st.rl (st.frame prev_f).rlim).ticks < 100 →
        (st.rl (st.frame prev_f).rlim).noticks = true)
    ∧ ((funcallEnter E s3 prev_f pc1 n).frame E.fa).rlim = (st.frame prev_f).rlim
    ∧ ((funcallEnter E s3 prev_f pc1 n).frame E.fa).funcAtomic
      = (E.funcdef s1 prev_f obj lwobj p_ctrli funci).atomic
    ∧ ((funcallEnter E s3 prev_f pc1 n).frame prev_f).atomic = (st.frame prev_f).atomic := by
  have hp : prev_f ≠ E.fa := fun e => hfa e.symm
  obtain ⟨_, q2, q3, q4, _, q6, q7, _, _⟩ :=
    funcallPre_fields E st prev_f obj lwobj p_ctrli funci nargs s1 s2 pc h1 h2
  obtain ⟨a1, a2, a3⟩ := funcallArgs_light E s2 prev_f pc nargs s3 n pc1 h3
  obtain ⟨⟨l, a, e1⟩, _⟩ := funcallEnter_fields E s3 prev_f pc1 n hfa
  have b1 : (s3.frame E.fa).rlim = (st.frame prev_f).rlim := by rw [a2 _ hfa, q3]
  have b2 : (s3.frame E.fa).funcAtomic
      = (E.funcdef s1 prev_f obj lwobj p_ctrli funci).atomic := by rw [a2 _ hfa, q4]
  have b3 : (s3.frame prev_f).atomic = (st.frame prev_f).atomic := by rw [a3, q2 _ hp]
  refine ⟨b1, b2, b3, ?_, q7, ?_, ?_, ?_⟩
  · rw [a1, q6]
  · rw [e1, Function.update_same]
    exact b1
  · rw [e1, Function.update_same]
    exact b2
  · rw [e1, Function.update_noteq hp]
    exact b3

/-- The statement `ticks >>= 1` on a signed number: half of it, rounded down. -/
theorem shiftRight_one_eq (T : Int) : T >>> (1 : Int) = T / 2 := by
  have h1 : ∀ m : Nat, m >>> 1 = m / 2 := fun m => by
    rw [Nat.shiftRight_eq_div_pow]
  cases T with
  | ofNat m =>
    have := Int.shiftRight_coe_nat m 1
    rw [h1] at this
    simpa using this
  | negSucc m =>
    have := Int.shiftRight_negSucc m 1
    rw [h1] at this
    have e : ((1 : Nat) : Int) = 1 := rfl
    rw [e] at this
    rw [this, Int.negSucc_eq, Int.negSucc_eq]
    push_cast
    omega

/-- C26: take a call of `i_funcall` that keeps the limits, finds the function
and handles the arguments, whose callee returns in the state `sR` with the
function, the scope and the flags of the two frames as it found them. Let `T`
be the ticks of the scope of the caller at the call. When the function is
atomic, the caller is not atomic and the scope is tick-bounded, then
`100 ≤ T`, the statements "deal with atomic functions" leave `T / 2` ticks,
rounded down, of which the call itself takes 10 before the callee starts, and
the return doubles the count `r` that the callee leaves to `2 * r`; so a
callee that does not raise the count leaves at most `T` ticks after the call.
In every other case, among them an unbounded scope and a caller that is
atomic already, the statements "deal with atomic functions" leave the scopes
as they are, the callee starts with the count at the call less 10 (the count
of an unbounded scope below 100 is first reset to `0x7fffffff`), and the
return leaves the scopes as the callee left them. -/
theorem i_funcall_atomic_ticks (E : CallEnv) (fuel : Nat) (st : Interp) (prev_f : Nat)
    (obj : Option Nat) (lwobj p_ctrli funci : Nat) (nargs : Int) (s1 s2 s3 sR : Interp)
    (pc pc1 : Nat) (n : Int)
    (hfa : E.fa ≠ prev_f)
    (h1 : funcallLimits (funcallFrame E st prev_f obj lwobj) E.fa = .ok s1)
    (h2 : funcallFunc E s1 prev_f obj lwobj p_ctrli funci nargs = .ok (s2, pc))
    (h3 : funcallArgs E s2 prev_f pc nargs = .ok (s3, n, pc1))
    (hrun : i_interpret1 E.exec fuel (funcallEnter E s3 prev_f pc1 n) E.fa
      = some (.returned sR))
    (hkeep : (sR.frame E.fa).funcAtomic = ((funcallEnter E s3 prev_f pc1 n).frame E.fa).funcAtomic
      ∧ (sR.frame E.fa).rlim = ((funcallEnter E s3 prev_f pc1 n).frame E.fa).rlim
      ∧ (sR.frame prev_f).atomic = ((funcallEnter E s3 prev_f pc1 n).frame prev_f).atomic
      ∧ (sR.rl (st.frame prev_f).rlim).noticks = (st.rl (st.frame prev_f).rlim).noticks) :
    i_funcall E fuel st prev_f obj lwobj p_ctrli funci nargs
      = some (.returned (funcallReturn E sR prev_f))
    ∧ ((E.funcdef s1 prev_f obj lwobj p_ctrli funci).atomic = true
        ∧ (st.frame prev_f).atomic = false
        ∧ (st.rl (st.frame prev_f).rlim).noticks = false →
      100 ≤ (st.rl (st.frame prev_f).rlim).ticks
      ∧ ((funcallAtomic E (funcallSp E s3 prev_f n) prev_f).rl (st.frame prev_f).rlim).ticks
        = (st.rl (st.frame prev_f).rlim).ticks / 2
      ∧ ((funcallEnter E s3 prev_f pc1 n).rl (st.frame prev_f).rlim).ticks
        = (st.rl (st.frame prev_f).rlim).ticks / 2 - 10
      ∧ ((funcallReturn E sR prev_f).rl (st.frame prev_f).rlim).ticks
        = 2 * (sR.rl (st.frame prev_f).rlim).ticks
      ∧ ((sR.rl (st.frame prev_f).rlim).ticks
          ≤ ((funcallEnter E s3 prev_f pc1 n).rl (st.frame prev_f).rlim).ticks →
        ((funcallReturn E sR prev_f).rl (st.frame prev_f).rlim).ticks
          ≤ (st.rl (st.frame prev_f).rlim).ticks))
    ∧ (¬ ((E.funcdef s1 prev_f obj lwobj p_ctrli funci).atomic = true
        ∧ (st.frame prev_f).atomic = false
        ∧ (st.rl (st.frame prev_f).rlim).noticks = false) →
      (funcallAtomic E (funcallSp E s3 prev_f n) prev_f).rl = s3.rl
      ∧ ((funcallEnter E s3 prev_f pc1 n).rl (st.frame prev_f).rlim).ticks
        = (if (st.rl (st.frame prev_f).rlim).ticks < 100 then 0x7fffffff
          else (st.rl (st.frame prev_f).rlim).ticks) - 10
      ∧ (funcallReturn E sR prev_f).rl = sR.rl) := by
  have hp : prev_f ≠ E.fa := fun e => hfa e.symm
  obtain ⟨b1, b2, b3, b4, b5, c1, c2, c3⟩ :=
    funcallEnter_atomic E st prev_f obj lwobj p_ctrli funci nargs s1 s2 s3 pc pc1 n hfa h1 h2 h3
  obtain ⟨k1, k2, k3, k4⟩ := hkeep
  rw [c2] at k1
  rw [c1] at k2
  rw [c3] at k3
  have b6 : (s3.rl (st.frame prev_f).rlim).noticks = (st.rl (st.frame prev_f).rlim).noticks := by
    rw [b4]
    split <;> rfl
  obtain ⟨_, _, _, _, _, e6⟩ := funcallEnter_fields E s3 prev_f pc1 n hfa
  rw [b1, b2, b3, b6] at e6
  obtain ⟨_, _, _, _, _, r6⟩ := funcallReturn_fields E sR prev_f hfa
  rw [k1, k2, k3, k4] at r6
  obtain ⟨t1, _, _, _, t5⟩ := funcallSp_fields E s3 prev_f n
  obtain ⟨_, _, _, _, u5⟩ := funcallAtomic_fields E (funcallSp E s3 prev_f n) prev_f hfa
  have t2 : ((funcallSp E s3 prev_f n).frame E.fa).funcAtomic
      = (E.funcdef s1 prev_f obj lwobj p_ctrli funci).atomic := by
    rw [t1, Function.update_same]
    exact b2
  have t3 : ((funcallSp E s3 prev_f n).frame E.fa).rlim = (st.frame prev_f).rlim := by
    rw [t1, Function.update_same]
    exact b1
  have t4 : ((funcallSp E s3 prev_f n).frame prev_f).atomic = (st.frame prev_f).atomic := by
    rw [t1, Function.update_noteq hp]
    exact b3
  rw [t2, t3, t4, t5, b6] at u5
  refine ⟨?_, ?_, ?_⟩
  · exact i_funcall_returned E fuel st prev_f obj lwobj p_ctrli funci nargs _ sR
      (funcallPrepare_ok E st prev_f obj lwobj p_ctrli funci nargs s1 s2 s3 pc pc1 n h1 h2 h3)
      hrun
  · intro hc
    have hT : 100 ≤ (st.rl (st.frame prev_f).rlim).ticks := by
      by_contra hlt
      have := b5 (by omega)
      rw [hc.2.2] at this
      cases this
    have hs3 : (s3.rl (st.frame prev_f).rlim).ticks = (st.rl (st.frame prev_f).rlim).ticks := by
      rw [b4, if_neg (by omega)]
    have hsh : (st.rl (st.frame prev_f).rlim).ticks >>> 1
        = (st.rl (st.frame prev_f).rlim).ticks / 2 := by
      exact shiftRight_one_eq _
    rw [if_pos hc, hs3, hsh] at e6
    rw [if_pos hc] at r6 u5
    have x1 : ((funcallAtomic E (funcallSp E s3 prev_f n) prev_f).rl
        (st.frame prev_f).rlim).ticks = (st.rl (st.frame prev_f).rlim).ticks / 2 := by
      rw [u5, Function.update_same]
      show (s3.rl (st.frame prev_f).rlim).ticks >>> 1 = _
      rw [hs3, hsh]
    have x2 : ((funcallEnter E s3 prev_f pc1 n).rl (st.frame prev_f).rlim).ticks
        = (st.rl (st.frame prev_f).rlim).ticks / 2 - 10 := by
      rw [e6]
    have x3 : ((funcallReturn E sR prev_f).rl (st.frame prev_f).rlim).ticks
        = 2 * (sR.rl (st.frame prev_f).rlim).ticks := by
      rw [r6, Function.update_same]
      show (sR.rl (st.frame prev_f).rlim).ticks * 2 = _
      omega
    refine ⟨hT, x1, x2, x3, fun hle => ?_⟩
    rw [x3]
    rw [x2] at hle
    omega
  · intro hc
    rw [if_neg hc] at e6 r6 u5
    refine ⟨u5, ?_, r6⟩
    rw [e6, b4]
    split <;> rfl

theorem i_funcall_atomic_ticks_witness :
    exEnv.fa ≠ 1
    ∧ (exEnv.funcdef exCallS1 1 none 0 0 3).atomic = true
    ∧ (exInterp.frame 1).atomic = false
    ∧ (exInterp.rl (exInterp.frame 1).rlim).noticks = false
    ∧ (exInterp.rl (exInterp.frame 1).rlim).ticks = 100
    ∧ i_funcall exEnv 5 exInterp 1 none 0 0 3 0
      = some (.returned (funcallReturn exEnv exAtomRet 1))
    ∧ ((funcallEnter exEnv exAtomS2 1 66 0).rl (exInterp.frame 1).rlim).ticks = 100 / 2 - 10
    ∧ (exAtomRet.rl (exInterp.frame 1).rlim).ticks = 39
    ∧ ((funcallReturn exEnv exAtomRet 1).rl (exInterp.frame 1).rlim).ticks
      = 2 * (exAtomRet.rl (exInterp.frame 1).rlim).ticks
    ∧ ((funcallReturn exEnv exAtomRet 1).rl (exInterp.frame 1).rlim).ticks
      ≤ (exInterp.rl (exInterp.frame 1).rlim).ticks :=
  have H := i_funcall_atomic_ticks exEnv 5 exInterp 1 none 0 0 3 0 exCallS1 exAtomS2 exAtomS2
    exAtomRet 60 66 0 (by decide) rfl rfl rfl
    (i_interpret1_returns exEnv.exec 4 (funcallEnter exEnv exAtomS2 1 66 0) 9 exAtomRet
      (by decide!) rfl)
    ⟨by decide!, by decide!, by decide!, by decide!⟩
  have H2 := H.2.1 ⟨by decide, by decide, by decide⟩
  ⟨by decide, by decide, by decide, by decide, by decide, H.1, H2.2.2.1, by decide!,
    H2.2.2.2.1, H2.2.2.2.2 (by decide!)⟩

end Dgd

namespace Dgd

/-! ## `i_funcall`: the stack of the caller after the return -/

/-- The callee of the example call of the function 0 with one argument from
the frame 1 of `exLax` returns in the state `exLaxRet`. -/
theorem exLax_run :
    i_interpret1 exEnv.exec 5 (funcallEnter exEnv exLaxS3 1 12 3) exEnv.fa
      = some (.returned exLaxRet) :=
  i_interpret1_returns exEnv.exec 4 (funcallEnter exEnv exLaxS3 1 12 3) 9 exLaxRet
    (by decide!) rfl

/-- The example call of the function 0 with one argument from the frame 1 of
`exLax` returns. -/
theorem exLax_call :
    i_funcall exEnv 5 exLax 1 none 0 0 0 ((1 : Nat) : Int)
      = some (.returned (funcallReturn exEnv exLaxRet 1)) :=
  i_funcall_returned exEnv 5 exLax 1 none 0 0 0 ((1 : Nat) : Int) _ exLaxRet
    (funcallPrepare_ok exEnv exLax 1 none 0 0 0 ((1 : Nat) : Int) exLaxS1 exLaxS2 exLaxS3 0 12 3
      rfl rfl rfl)
    exLax_run

/-- C25, amended: take a call of `i_funcall` with `m` arguments on the stack
of the caller, `stack ≤ sp`, `sp + m ≤ fp`, that keeps the limits, finds the
function and handles the arguments, whose callee returns in the state `sR`
having left the frame of the caller, the number of its arguments and the
values of the caller above its arguments as they were. Then `i_funcall`
returns, the current frame is the caller again, the slot on top of the stack
of the caller holds the value that was on top of the stack of the callee, and
the stack of the caller holds one value in place of the `m` arguments: it has
`fp - sp - m + 1` values, and the values above the top slot are the values
that were above the arguments at the call, in the same order. The stack
pointer is `sp + m - 1`, for the `sp` at the call, unless the call had fewer
arguments than the function has parameters and less room than the missing
ones and `MIN_STACK` need: then `i_grow_stack` has moved the stack of the
caller to a larger block. A function with an ellipsis has at least one
parameter; `T_INT` and `T_FLOAT` are not class types. -/
theorem i_funcall_one_value (E : CallEnv) (fuel : Nat) (st : Interp) (prev_f : Nat)
    (obj : Option Nat) (lwobj p_ctrli funci m : Nat) (s1 s2 s3 sR : Interp)
    (pc pc1 : Nat) (n : Int)
    (hfa : E.fa ≠ prev_f)
    (hinv : (st.frame prev_f).stack ≤ (st.frame prev_f).sp
      ∧ (st.frame prev_f).sp ≤ (st.frame prev_f).fp)
    (hm : m ≤ (st.frame prev_f).fp - (st.frame prev_f).sp)
    (hsp : 0 < (st.frame prev_f).sp + m)
    (hInt : E.T_INT &&& E.T_TYPE ≠ E.T_CLASS) (hFloat : E.T_FLOAT &&& E.T_TYPE ≠ E.T_CLASS)
    (hellN : fetchU E.prog pc 1 &&& E.C_ELLIPSIS ≠ 0 →
      1 ≤ PROTO_NARGS E.prog pc + PROTO_VARGS E.prog pc)
    (h1 : funcallLimits (funcallFrame E st prev_f obj lwobj) E.fa = .ok s1)
    (h2 : funcallFunc E s1 prev_f obj lwobj p_ctrli funci m = .ok (s2, pc))
    (h3 : funcallArgs E s2 prev_f pc m = .ok (s3, n, pc1))
    (hrun : i_interpret1 E.exec fuel (funcallEnter E s3 prev_f pc1 n) E.fa
      = some (.returned sR))
    (hkeep : sR.frame prev_f = s3.frame prev_f
      ∧ (sR.frame E.fa).nargs = n.toNat
      ∧ ∀ a, (s3.frame prev_f).sp + n.toNat ≤ a → a < (s3.frame prev_f).fp →
          sR.mem a = s3.mem a) :
    i_funcall E fuel st prev_f obj lwobj p_ctrli funci m
      = some (.returned (funcallReturn E sR prev_f))
    ∧ (funcallReturn E sR prev_f).cframe = prev_f
    ∧ (funcallReturn E sR prev_f).mem ((funcallReturn E sR prev_f).frame prev_f).sp
      = sR.mem (sR.frame E.fa).sp
    ∧ ((funcallReturn E sR prev_f).frame prev_f).sp
      < ((funcallReturn E sR prev_f).frame prev_f).fp
    ∧ ((funcallReturn E sR prev_f).frame prev_f).fp
        - ((funcallReturn E sR prev_f).frame prev_f).sp + m
      = (st.frame prev_f).fp - (st.frame prev_f).sp + 1
    ∧ (∀ i, i < (st.frame prev_f).fp - ((st.frame prev_f).sp + m) →
        (funcallReturn E sR prev_f).mem (((funcallReturn E sR prev_f).frame prev_f).sp + 1 + i)
          = st.mem ((st.frame prev_f).sp + m + i))
    ∧ (¬ (m < PROTO_NARGS E.prog pc + PROTO_VARGS E.prog pc
          ∧ (st.frame prev_f).sp
            < (st.frame prev_f).stack + (PROTO_NARGS E.prog pc + PROTO_VARGS E.prog pc - m)
              + E.MIN_STACK) →
        ((funcallReturn E sR prev_f).frame prev_f).sp + 1 = (st.frame prev_f).sp + m
        ∧ ((funcallReturn E sR prev_f).frame prev_f).fp = (st.frame prev_f).fp) := by
  have hp : prev_f ≠ E.fa := fun e => hfa e.symm
  obtain ⟨q1, q2, _⟩ :=
    funcallPre_fields E st prev_f obj lwobj p_ctrli funci m s1 s2 pc h1 h2
  have q3 := q2 prev_f hp
  obtain ⟨k, hk, c1, c2, c3, c4, c5⟩ :=
    funcallArgs_caller E s2 prev_f pc m s3 n pc1 (by rw [q3]; exact hinv) (by rw [q3]; exact hm)
      hInt hFloat hfa hellN h3
  rw [q3] at c2 c3 c4 c5
  rw [q1] at c3
  obtain ⟨k1, k2, k3⟩ := hkeep
  rw [hk, Int.toNat_ofNat] at k2 k3
  obtain ⟨r1, _, r3, r4, _, _⟩ := funcallReturn_fields E sR prev_f hfa
  rw [k1, k2] at r1 r3
  have a1 : ((funcallReturn E sR prev_f).frame prev_f).sp = (s3.frame prev_f).sp + k - 1 := by
    rw [r1]
  have a2 : ((funcallReturn E sR prev_f).frame prev_f).fp = (s3.frame prev_f).fp := by
    rw [r1]
  have hpos := c4 hsp
  refine ⟨?_, r4, ?_, ?_, ?_, ?_, ?_⟩
  · exact i_funcall_returned E fuel st prev_f obj lwobj p_ctrli funci m _ sR
      (funcallPrepare_ok E st prev_f obj lwobj p_ctrli funci m s1 s2 s3 pc pc1 n h1 h2 h3)
      hrun
  · rw [a1, r3, Function.update_same]
  · rw [a1, a2]
    omega
  · rw [a1, a2]
    omega
  · intro i hi
    have e1 : ((funcallReturn E sR prev_f).frame prev_f).sp + 1 + i
        = (s3.frame prev_f).sp + k + i := by
      rw [a1]
      omega
    rw [e1, r3, Function.update_noteq (by omega), k3 _ (by omega) (by omega), c3 i hi]
  · intro hno
    obtain ⟨d1, d2⟩ := c5 hno
    rw [a1, a2]
    exact ⟨by omega, d2⟩

theorem i_funcall_one_value_witness :
    exEnv.fa ≠ 1
    ∧ ((exLax.frame 1).stack ≤ (exLax.frame 1).sp ∧ (exLax.frame 1).sp ≤ (exLax.frame 1).fp)
    ∧ 1 ≤ (exLax.frame 1).fp - (exLax.frame 1).sp
    ∧ exLaxRet.frame 1 = exLaxS3.frame 1
    ∧ i_funcall exEnv 5 exLax 1 none 0 0 0 ((1 : Nat) : Int)
      = some (.returned (funcallReturn exEnv exLaxRet 1))
    ∧ (funcallReturn exEnv exLaxRet 1).cframe = 1
    ∧ (funcallReturn exEnv exLaxRet 1).mem ((funcallReturn exEnv exLaxRet 1).frame 1).sp
      = { type := .int, modified := false, oindex := 0, u := 7 }
    ∧ ((funcallReturn exEnv exLaxRet 1).frame 1).fp
        - ((funcallReturn exEnv exLaxRet 1).frame 1).sp + 1
      = (exLax.frame 1).fp - (exLax.frame 1).sp + 1
    ∧ (funcallReturn exEnv exLaxRet 1).mem (((funcallReturn exEnv exLaxRet 1).frame 1).sp + 1 + 0)
      = exLax.mem ((exLax.frame 1).sp + 1 + 0) :=
  have hk : ∀ a, (exLaxS3.frame 1).sp + (3 : Int).toNat ≤ a → a < (exLaxS3.frame 1).fp →
      exLaxRet.mem a = exLaxS3.mem a := fun a h1 h2 => by
    have e1 : (exLaxS3.frame 1).sp + (3 : Int).toNat = 1015 := by decide!
    have e2 : (exLaxS3.frame 1).fp = 1016 := by decide!
    rw [e1] at h1
    rw [e2] at h2
    obtain rfl : a = 1015 := by omega
    decide!
  have H := i_funcall_one_value exEnv 5 exLax 1 none 0 0 0 1 exLaxS1 exLaxS2 exLaxS3 exLaxRet
    0 12 3 (by decide) ⟨by decide, by decide⟩ (by decide) (by decide) (by decide) (by decide)
    (fun h => absurd (by decide) h) rfl rfl rfl exLax_run ⟨by decide!, by decide!, hk⟩
  ⟨by decide, ⟨by decide, by decide⟩, by decide, by decide!, H.1, H.2.1,
    H.2.2.1.trans (by decide!), H.2.2.2.2.1, H.2.2.2.2.2.1 0 (by decide)⟩

/-- A call that `i_funcall` returns from with the stack pointer of the caller
not at `sp + nargs - 1`: the function 0 of `exEnv` has three parameters and is
called, without strict typechecking, with one argument from the frame 1 of
`exLax`, whose stack of 8 values at 100 has 6 free slots; the two missing
arguments and `MIN_STACK = 5` need 7, so `i_grow_stack` moves the stack to the
block at 1000, and after the return the stack pointer is 1014, not
`106 + 1 - 1`. -/
theorem i_funcall_moves_caller_stack :
    (exLax.frame 1).sp = 106
    ∧ i_funcall exEnv 5 exLax 1 none 0 0 0 ((1 : Nat) : Int)
      = some (.returned (funcallReturn exEnv exLaxRet 1))
    ∧ ((funcallReturn exEnv exLaxRet 1).frame 1).sp = 1014
    ∧ ((funcallReturn exEnv exLaxRet 1).frame 1).sp ≠ (exLax.frame 1).sp + 1 - 1 :=
  ⟨by decide, exLax_call, by decide!, by decide!⟩

end Dgd

namespace Dgd

/-! ## `i_call` -/

/-- The result of the statements of `i_call` from `if (func == NULL)` on, by
the symbol, the check of a static function and the result of `i_funcall`. -/
theorem callFunction_spec (E : CallEnv) (fuel : Nat) (st : Interp) (f : Nat)
    (obj : Option Nat) (lwobj : Nat) (func : Option String) (call_static : Bool) (nargs : Int) :
    (E.symb st obj (func.getD E.creator) = none →
      callFunction E fuel st f obj lwobj func call_static nargs
        = some (.done false (i_pop st f nargs)))
    ∧ (∀ symb, E.symb st obj (func.getD E.creator) = some symb →
        (call_static = false ∧ (E.funcdef st f obj lwobj symb.1 symb.2).static = true
            ∧ ((st.frame f).oindex ≠ obj.getD 0 ∨ (st.frame f).lwobj ≠ lwobj) →
          callFunction E fuel st f obj lwobj func call_static nargs
            = some (.done false (i_pop st f nargs)))
        ∧ (¬ (call_static = false ∧ (E.funcdef st f obj lwobj symb.1 symb.2).static = true
              ∧ ((st.frame f).oindex ≠ obj.getD 0 ∨ (st.frame f).lwobj ≠ lwobj)) →
          (∀ s, i_funcall E fuel st f obj lwobj symb.1 symb.2 nargs = some (.returned s) →
            callFunction E fuel st f obj lwobj func call_static nargs = some (.done true s))
          ∧ (∀ msg s, i_funcall E fuel st f obj lwobj symb.1 symb.2 nargs
              = some (.error msg s) →
            callFunction E fuel st f obj lwobj func call_static nargs = some (.error msg s))
          ∧ (∀ s, callFunction E fuel st f obj lwobj func call_static nargs
              ≠ some (.done false s)))) := by
  refine ⟨fun h => ?_, fun symb h => ⟨fun hc => ?_, fun hc => ?_⟩⟩
  · simp only [callFunction, h]
  · have hb : (!call_static && (E.funcdef st f obj lwobj symb.1 symb.2).static
        && ((st.frame f).oindex != obj.getD 0 || (st.frame f).lwobj != lwobj)) = true := by
      obtain ⟨c1, c2, c3⟩ := hc
      rw [c1, c2]
      rcases c3 with c3 | c3 <;> simp [c3]
    simp only [callFunction, h, hb, if_true]
  · have hb : (!call_static && (E.funcdef st f obj lwobj symb.1 symb.2).static
        && ((st.frame f).oindex != obj.getD 0 || (st.frame f).lwobj != lwobj)) = false := by
      cases c1 : call_static
      · cases c2 : (E.funcdef st f obj lwobj symb.1 symb.2).static
        · simp
        · by_cases c3 : (st.frame f).oindex = obj.getD 0
          · by_cases c4 : (st.frame f).lwobj = lwobj
            · simp [c3, c4]
            · exact absurd ⟨c1, c2, Or.inr c4⟩ hc
          · exact absurd ⟨c1, c2, Or.inl c3⟩ hc
      · simp
    refine ⟨fun s hs => ?_, fun msg s hs => ?_, fun s => ?_⟩
    · simp only [callFunction, h, hb, hs, Bool.false_eq_true, if_false]
    · simp only [callFunction, h, hb, hs, Bool.false_eq_true, if_false]
    · cases hr : i_funcall E fuel st f obj lwobj symb.1 symb.2 nargs with
      | none => simp only [callFunction, h, hb, hr, Bool.false_eq_true, if_false]; simp
      | some o =>
        cases o <;> simp [callFunction, h, hb, hr]

/-- The function `i_call` after the object has been touched: a lightweight
object of builtin type has no functions to call; any other target goes to the
symbol table. -/
theorem i_call_touched (E : CallEnv) (fuel : Nat) (st : Interp) (f : Nat) (obj : Option Nat)
    (lwobj : Nat) (func : Option String) (call_static : Bool) (nargs : Int)
    (st1 : Interp) (obj1 : Option Nat)
    (hobj : obj1 = if lwobj ≠ 0 ∧ (st.elt0 lwobj).type = .object
      then some (st.elt0 lwobj).oindex else obj)
    (htouch : (if lwobj ≠ 0 then E.touchLw st f lwobj func else E.touchObj st f obj func)
      = .ok st1) :
    i_call E fuel st f obj lwobj func call_static nargs
      = if lwobj ≠ 0 ∧ (st1.elt0 lwobj).type = .int then some (.done false (i_pop st1 f nargs))
        else callFunction E fuel st1 f obj1 lwobj func call_static nargs := by
  by_cases hl : lwobj ≠ 0
  · rw [if_pos hl] at htouch
    have ho : obj1 = if (st.elt0 lwobj).type = .object then some (st.elt0 lwobj).oindex
        else obj := by
      rw [hobj]
      by_cases ht : (st.elt0 lwobj).type = .object
      · rw [if_pos ⟨hl, ht⟩, if_pos ht]
      · rw [if_neg (fun h => ht h.2), if_neg ht]
    by_cases hi : (st1.elt0 lwobj).type = .int
    · rw [if_pos ⟨hl, hi⟩]
      simp only [i_call, if_pos hl, htouch, hi, if_true]
    · rw [if_neg (fun h => hi h.2)]
      simp only [i_call, if_pos hl, htouch, hi, if_false, ← ho]
  · rw [if_neg hl] at htouch
    have ho : obj1 = obj := by
      rw [hobj, if_neg (fun h => hl h.1)]
    rw [if_neg (fun h => hl h.1), ho]
    simp only [i_call, if_neg hl, htouch]

/-- C27: after the object has been touched, in the state `st1`, `i_call`
returns FALSE in the state `i_pop(f, nargs)` leaves, and without a call of
`i_funcall`, when the target is a lightweight object whose first element is
an integer (a builtin type), when the name of the function (the creator
function for a null name) is not in the symbol table of the target `obj1`, or
when the function is static, `call_static` is not set, and the calling frame
has another object index or another lightweight object than the target: the
stack pointer of the caller is `nargs` higher and nothing else of its frame,
no other frame, no value, no scope and not the current frame is changed. In
every other case the function is called with `i_funcall`: when that returns,
`i_call` returns TRUE in the state `i_funcall` leaves, an error of `i_funcall`
is the error of `i_call`, and `i_call` does not return FALSE. -/
theorem i_call_dispatch (E : CallEnv) (fuel : Nat) (st : Interp) (f : Nat) (obj : Option Nat)
    (lwobj : Nat) (func : Option String) (call_static : Bool) (nargs : Int)
    (st1 : Interp) (obj1 : Option Nat)
    (hobj : obj1 = if lwobj ≠ 0 ∧ (st.elt0 lwobj).type = .object
      then some (st.elt0 lwobj).oindex else obj)
    (htouch : (if lwobj ≠ 0 then E.touchLw st f lwobj func else E.touchObj st f obj func)
      = .ok st1) :
    ((lwobj ≠ 0 ∧ (st1.elt0 lwobj).type = .int)
        ∨ E.symb st1 obj1 (func.getD E.creator) = none
        ∨ (∃ symb, E.symb st1 obj1 (func.getD E.creator) = some symb
          ∧ call_static = false
          ∧ (E.funcdef st1 f obj1 lwobj symb.1 symb.2).static = true
          ∧ ((st1.frame f).oindex ≠ obj1.getD 0 ∨ (st1.frame f).lwobj ≠ lwobj)) →
      i_call E fuel st f obj lwobj func call_static nargs
        = some (.done false (i_pop st1 f nargs))
      ∧ (i_pop st1 f nargs).frame f
        = { st1.frame f with sp := (st1.frame f).sp + nargs.toNat }
      ∧ (∀ g, g ≠ f → (i_pop st1 f nargs).frame g = st1.frame g)
      ∧ (i_pop st1 f nargs).mem = st1.mem
      ∧ (i_pop st1 f nargs).rl = st1.rl
      ∧ (i_pop st1 f nargs).cframe = st1.cframe)
    ∧ (¬ (lwobj ≠ 0 ∧ (st1.elt0 lwobj).type = .int) →
      ∀ symb, E.symb st1 obj1 (func.getD E.creator) = some symb →
        ¬ (call_static = false
          ∧ (E.funcdef st1 f obj1 lwobj symb.1 symb.2).static = true
          ∧ ((st1.frame f).oindex ≠ obj1.getD 0 ∨ (st1.frame f).lwobj ≠ lwobj)) →
        (∀ s, i_funcall E fuel st1 f obj1 lwobj symb.1 symb.2 nargs = some (.returned s) →
          i_call E fuel st f obj lwobj func call_static nargs = some (.done true s))
        ∧ (∀ msg s, i_funcall E fuel st1 f obj1 lwobj symb.1 symb.2 nargs
            = some (.error msg s) →
          i_call E fuel st f obj lwobj func call_static nargs = some (.error msg s))
        ∧ (∀ s, i_call E fuel st f obj lwobj func call_static nargs
            ≠ some (.done false s))) := by
  have e := i_call_touched E fuel st f obj lwobj func call_static nargs st1 obj1 hobj htouch
  obtain ⟨c1, c2⟩ := callFunction_spec E fuel st1 f obj1 lwobj func call_static nargs
  obtain ⟨p1, p2, _, _⟩ := i_pop_fields st1 f nargs
  obtain ⟨q1, q2, _⟩ := i_pop_other st1 f nargs
  constructor
  · intro h
    refine ⟨?_, ?_, fun g hg => ?_, p2, q1, q2⟩
    · rw [e]
      by_cases hb : lwobj ≠ 0 ∧ (st1.elt0 lwobj).type = .int
      · rw [if_pos hb]
      · rw [if_neg hb]
        rcases h with h | h | ⟨symb, h1, h2⟩
        · exact absurd h hb
        · exact c1 h
        · exact (c2 symb h1).1 h2
    · rw [p1, Function.update_same]
    · rw [p1, Function.update_noteq hg]
  · intro hb symb hs hc
    rw [e, if_neg hb]
    exact (c2 symb hs).2 hc

theorem i_call_dispatch_witness :
    (none : Option Nat)
      = (if 0 ≠ 0 ∧ (exInterp.elt0 0).type = .object then some (exInterp.elt0 0).oindex
        else none)
    ∧ (if 0 ≠ 0 then exEnv.touchLw exInterp 1 0 (some "g")
        else exEnv.touchObj exInterp 1 none (some "g")) = .ok exInterp
    ∧ exEnv.symb exInterp none ((some "g" : Option String).getD exEnv.creator) = none
    ∧ i_call exEnv 5 exInterp 1 none 0 (some "g") false 2
      = some (.done false (i_pop exInterp 1 2))
    ∧ ((i_pop exInterp 1 2).frame 1).sp = 108
    ∧ (i_pop exInterp 1 2).mem = exInterp.mem :=
  have H := (i_call_dispatch exEnv 5 exInterp 1 none 0 (some "g") false 2 exInterp none
    rfl rfl).1 (Or.inr (Or.inl rfl))
  ⟨rfl, rfl, rfl, H.1, by rw [H.2.1]; rfl, H.2.2.2.1⟩

end Dgd

namespace Dgd

/-! ## Theorems: the order of the nodes of the splay tree -/

/-- The search order of a tree is the order of its nodes from left to right:
the sizes never decrease along the list of the nodes. -/
theorem ordered_iff_pairwise (sz : Nat → Nat) (t : Tree) :
    Ordered sz t ↔ t.nodes.Pairwise (fun x y => sz x ≤ sz y) := by
  induction t with
  | nil => simp [Ordered, Tree.nodes]
  | node l a r ihl ihr =>
    simp only [Ordered, Tree.nodes, List.pairwise_append, List.pairwise_cons, ihl, ihr,
      List.mem_cons]
    constructor
    · rintro ⟨h1, h2, h3, h4⟩
      refine ⟨h3, ⟨h2, h4⟩, ?_⟩
      intro x hx y hy
      rcases hy with rfl | hy
      · exact h1 x hx
      · exact le_trans (h1 x hx) (h2 y hy)
    · rintro ⟨h3, ⟨h2, h4⟩, h5⟩
      exact ⟨fun x hx => h5 x hx a (Or.inl rfl), h2, h3, h4⟩

theorem plugL_inorder (L : List (Tree × Nat)) :
    ∀ X : Tree, (plugL L X).nodes = (plugL L .nil).nodes ++ X.nodes := by
  induction L with
  | nil => intro X; simp [plugL, Tree.nodes]
  | cons f L ih =>
    obtain ⟨A, a⟩ := f
    intro X
    simp only [plugL]
    rw [ih (.node A a X), ih (.node A a .nil)]
    simp [Tree.nodes]

theorem plugR_inorder (R : List (Nat × Tree)) :
    ∀ X : Tree, (plugR R X).nodes = X.nodes ++ (plugR R .nil).nodes := by
  induction R with
  | nil => intro X; simp [plugR, Tree.nodes]
  | cons f R ih =>
    obtain ⟨a, B⟩ := f
    intro X
    simp only [plugR]
    rw [ih (.node X a B), ih (.node .nil a B)]
    simp [Tree.nodes]

theorem seekEnd_inorder (L : List (Tree × Nat)) (R : List (Nat × Tree)) :
    (seekEnd L R).2.nodes = (plugL L .nil).nodes ++ (plugR R .nil).nodes := by
  cases R with
  | nil => simp [seekEnd, plugR, Tree.nodes]
  | cons f R =>
    obtain ⟨r, B⟩ := f
    simp only [seekEnd, plugR, Tree.nodes]
    rw [plugR_inorder R B, plugR_inorder R (.node .nil r B)]
    simp [Tree.nodes]

/-- The function `seek` keeps the nodes in their order from left to right. -/
theorem seekA_inorder (sz : Nat → Nat) (size : Nat) :
    ∀ (k : Nat) (t : Tree) (L : List (Tree × Nat)) (R : List (Nat × Tree)), t.card ≤ k →
      t ≠ .nil → (seekA sz size t L R).2.nodes
        = (plugL L .nil).nodes ++ (t.nodes ++ (plugR R .nil).nodes) := by
  intro k
  induction k with
  | zero =>
    intro t L R hk hne
    cases t with
    | nil => exact absurd rfl hne
    | node A a B => simp [Tree.card] at hk
  | succ k ih =>
    intro t L R hk hne
    cases t with
    | nil => exact absurd rfl hne
    | node A a B =>
      simp only [Tree.card] at hk
      by_cases hlt : sz a < size
      · cases B with
        | nil =>
          rw [seekA_nilR _ _ _ _ _ _ hlt, seekEnd_inorder]
          simp only [plugL]
          rw [plugL_inorder L (.node A a .nil)]
          simp [Tree.nodes]
        | node B1 b B2 =>
          simp only [Tree.card] at hk
          by_cases hge : sz b ≥ size
          · rw [seekA_linkL _ _ _ _ _ _ _ _ _ hlt hge, ih _ _ _ (by simp only [Tree.card]; omega)
              (by simp)]
            simp only [plugL]
            rw [plugL_inorder L (.node A a .nil)]
            simp [Tree.nodes]
          · cases B2 with
            | nil =>
              rw [seekA_rotL_nil _ _ _ _ _ _ _ _ hlt hge, seekEnd_inorder]
              simp only [plugL]
              rw [plugL_inorder L (.node (.node A a B1) b .nil)]
              simp [Tree.nodes]
            | node C1 c C2 =>
              simp only [Tree.card] at hk
              rw [seekA_rotL _ _ _ _ _ _ _ _ _ _ _ hlt hge,
                ih _ _ _ (by simp only [Tree.card]; omega) (by simp)]
              simp only [plugL]
              rw [plugL_inorder L (.node (.node A a B1) b .nil)]
              simp [Tree.nodes]
      · cases A with
        | nil =>
          rw [seekA_nilL _ _ _ _ _ _ hlt]
          simp only [Tree.nodes]
          rw [plugR_inorder R B]
          simp
        | node A1 t A2 =>
          simp only [Tree.card] at hk
          by_cases htl : sz t < size
          · rw [seekA_linkR _ _ _ _ _ _ _ _ _ hlt htl, ih _ _ _ (by simp only [Tree.card]; omega)
              (by simp)]
            simp only [plugR]
            rw [plugR_inorder R (.node .nil a B)]
            simp [Tree.nodes]
          · cases A1 with
            | nil =>
              rw [seekA_rotR_nil _ _ _ _ _ _ _ _ hlt htl]
              simp only [Tree.nodes]
              rw [plugR_inorder R (.node A2 a B)]
              simp [Tree.nodes]
            | node C1 c C2 =>
              simp only [Tree.card] at hk
              rw [seekA_rotR _ _ _ _ _ _ _ _ _ _ _ hlt htl,
                ih _ _ _ (by simp only [Tree.card]; omega) (by simp)]
              simp only [plugR]
              rw [plugR_inorder R (.node .nil t (.node A2 a B))]
              simp [Tree.nodes]

/-- The loop of `insert` keeps the nodes in their order from left to right:
the left tree followed by the right tree is the old tree between the frames. -/
theorem insertA_inorder (sz : Nat → Nat) (size : Nat) :
    ∀ (k : Nat) (t : Tree) (L : List (Tree × Nat)) (R : List (Nat × Tree)), t.card ≤ k →
      (insertA sz size t L R).1.nodes ++ (insertA sz size t L R).2.nodes
        = (plugL L .nil).nodes ++ (t.nodes ++ (plugR R .nil).nodes) := by
  intro k
  induction k with
  | zero =>
    intro t L R hk
    cases t with
    | nil => simp [insertA, Tree.nodes]
    | node A a B => simp [Tree.card] at hk
  | succ k ih =>
    intro t L R hk
    cases t with
    | nil => simp [insertA, Tree.nodes]
    | node A a B =>
      simp only [Tree.card] at hk
      by_cases hlt : sz a < size
      · cases B with
        | nil =>
          rw [insertA_nilR _ _ _ _ _ _ hlt]
          simp only [plugL]
          rw [plugL_inorder L (.node A a .nil)]
          simp [Tree.nodes]
        | node B1 b B2 =>
          simp only [Tree.card] at hk
          by_cases hge : sz b ≥ size
          · rw [insertA_linkL _ _ _ _ _ _ _ _ _ hlt hge,
              ih _ _ _ (by simp only [Tree.card]; omega)]
            simp only [plugL]
            rw [plugL_inorder L (.node A a .nil)]
            simp [Tree.nodes]
          · cases B2 with
            | nil =>
              rw [insertA_rotL_nil _ _ _ _ _ _ _ _ hlt hge]
              simp only [plugL]
              rw [plugL_inorder L (.node (.node A a B1) b .nil)]
              simp [Tree.nodes]
            | node C1 c C2 =>
              simp only [Tree.card] at hk
              rw [insertA_rotL _ _ _ _ _ _ _ _ _ _ _ hlt hge,
                ih _ _ _ (by simp only [Tree.card]; omega)]
              simp only [plugL]
              rw [plugL_inorder L (.node (.node A a B1) b .nil)]
              simp [Tree.nodes]
      · cases A with
        | nil =>
          rw [insertA_nilL _ _ _ _ _ _ hlt]
          simp only [plugR]
          rw [plugR_inorder R (.node .nil a B)]
        | node A1 t A2 =>
          simp only [Tree.card] at hk
          by_cases htl : sz t < size
          · rw [insertA_linkR _ _ _ _ _ _ _ _ _ hlt htl,
              ih _ _ _ (by simp only [Tree.card]; omega)]
            simp only [plugR]
            rw [plugR_inorder R (.node .nil a B)]
            simp [Tree.nodes]
          · cases A1 with
            | nil =>
              rw [insertA_rotR_nil _ _ _ _ _ _ _ _ hlt htl]
              simp only [plugR]
              rw [plugR_inorder R (.node .nil t (.node A2 a B))]
              simp [Tree.nodes]
            | node C1 c C2 =>
              simp only [Tree.card] at hk
              rw [insertA_rotR _ _ _ _ _ _ _ _ _ _ _ hlt htl,
                ih _ _ _ (by simp only [Tree.card]; omega)]
              simp only [plugR]
              rw [plugR_inorder R (.node .nil t (.node A2 a B))]
              simp [Tree.nodes]

theorem plugL_cons_mem (L : List (Tree × Nat)) (A : Tree) (a x : Nat) :
    x ∈ (plugL ((A, a) :: L) .nil).nodes ↔ x ∈ (plugL L .nil).nodes ∨ x ∈ A.nodes ∨ x = a := by
  simp only [plugL]
  rw [plugL_inorder L (.node A a .nil)]
  simp [Tree.nodes]

theorem plugR_cons_mem (R : List (Nat × Tree)) (B : Tree) (a x : Nat) :
    x ∈ (plugR ((a, B) :: R) .nil).nodes ↔ x = a ∨ x ∈ B.nodes ∨ x ∈ (plugR R .nil).nodes := by
  simp only [plugR]
  rw [plugR_inorder R (.node .nil a B)]
  simp [Tree.nodes, or_assoc]

/-- The loop of `insert` on an ordered tree puts the nodes smaller than the
new one in the left tree and the others in the right tree. -/
theorem insertA_split (sz : Nat → Nat) (size : Nat) :
    ∀ (k : Nat) (t : Tree) (L : List (Tree × Nat)) (R : List (Nat × Tree)), t.card ≤ k →
      Ordered sz t → (∀ x ∈ (plugL L .nil).nodes, sz x < size) →
      (∀ x ∈ (plugR R .nil).nodes, size ≤ sz x) →
      (∀ x ∈ (insertA sz size t L R).1.nodes, sz x < size)
        ∧ (∀ x ∈ (insertA sz size t L R).2.nodes, size ≤ sz x) := by
  intro k
  induction k with
  | zero =>
    intro t L R hk _ hL hR
    cases t with
    | nil => exact ⟨hL, hR⟩
    | node A a B => simp [Tree.card] at hk
  | succ k ih =>
    intro t L R hk hord hL hR
    cases t with
    | nil => exact ⟨hL, hR⟩
    | node A a B =>
      simp only [Tree.card] at hk
      obtain ⟨oA, oB, ordA, ordB⟩ := hord
      by_cases hlt : sz a < size
      · have hLa : ∀ x ∈ (plugL ((A, a) :: L) .nil).nodes, sz x < size := by
          intro x hx
          rcases (plugL_cons_mem L A a x).1 hx with hx | hx | hx
          · exact hL x hx
          · exact lt_of_le_of_lt (oA x hx) hlt
          · rw [hx]; exact hlt
        cases B with
        | nil =>
          rw [insertA_nilR _ _ _ _ _ _ hlt]
          exact ⟨hLa, hR⟩
        | node B1 b B2 =>
          simp only [Tree.card] at hk
          obtain ⟨oB1, oB2, ordB1, ordB2⟩ := ordB
          by_cases hge : sz b ≥ size
          · rw [insertA_linkL _ _ _ _ _ _ _ _ _ hlt hge]
            exact ih _ _ _ (by simp only [Tree.card]; omega) ⟨oB1, oB2, ordB1, ordB2⟩ hLa hR
          · have hLb : ∀ x ∈ (plugL ((.node A a B1, b) :: L) .nil).nodes, sz x < size := by
              intro x hx
              rcases (plugL_cons_mem L _ b x).1 hx with hx | hx | hx
              · exact hL x hx
              · rw [mem_node] at hx
                rcases hx with hx | hx | hx
                · exact lt_of_le_of_lt (oA x hx) hlt
                · rw [hx]; exact hlt
                · exact lt_of_le_of_lt (oB1 x hx) (by omega)
              · rw [hx]; omega
            cases B2 with
            | nil =>
              rw [insertA_rotL_nil _ _ _ _ _ _ _ _ hlt hge]
              exact ⟨hLb, hR⟩
            | node C1 c C2 =>
              simp only [Tree.card] at hk
              rw [insertA_rotL _ _ _ _ _ _ _ _ _ _ _ hlt hge]
              exact ih _ _ _ (by simp only [Tree.card]; omega) ordB2 hLb hR
      · have hRa : ∀ x ∈ (plugR ((a, B) :: R) .nil).nodes, size ≤ sz x := by
          intro x hx
          rcases (plugR_cons_mem R B a x).1 hx with hx | hx | hx
          · rw [hx]; omega
          · exact le_trans (by omega) (oB x hx)
          · exact hR x hx
        cases A with
        | nil =>
          rw [insertA_nilL _ _ _ _ _ _ hlt]
          exact ⟨hL, hRa⟩
        | node A1 t A2 =>
          simp only [Tree.card] at hk
          obtain ⟨oA1, oA2, ordA1, ordA2⟩ := ordA
          by_cases htl : sz t < size
          · rw [insertA_linkR _ _ _ _ _ _ _ _ _ hlt htl]
            exact ih _ _ _ (by simp only [Tree.card]; omega) ⟨oA1, oA2, ordA1, ordA2⟩ hL hRa
          · have hRt : ∀ x ∈ (plugR ((t, .node A2 a B) :: R) .nil).nodes, size ≤ sz x := by
              intro x hx
              rcases (plugR_cons_mem R _ t x).1 hx with hx | hx | hx
              · rw [hx]; omega
              · rw [mem_node] at hx
                rcases hx with hx | hx | hx
                · exact le_trans (by omega) (oA2 x hx)
                · rw [hx]; omega
                · exact le_trans (by omega) (oB x hx)
              · exact hR x hx
            cases A1 with
            | nil =>
              rw [insertA_rotR_nil _ _ _ _ _ _ _ _ hlt htl]
              exact ⟨hL, hRt⟩
            | node C1 c C2 =>
              simp only [Tree.card] at hk
              rw [insertA_rotR _ _ _ _ _ _ _ _ _ _ _ hlt htl]
              exact ih _ _ _ (by simp only [Tree.card]; omega) ordA1 hL hRt

/-- The tree after `insert(c)` on an ordered tree: the nodes of the old tree
are below the new root in their old order, the smaller ones left of it and
the others right of it, and the search order holds. -/
theorem insertT_ordered (sz : Nat → Nat) (c : Nat) (T : Tree) (hord : Ordered sz T) :
    (insertA sz (sz c) T [] []).1.nodes ++ (insertA sz (sz c) T [] []).2.nodes = T.nodes
      ∧ (∀ x ∈ (insertA sz (sz c) T [] []).1.nodes, sz x < sz c)
      ∧ (∀ x ∈ (insertA sz (sz c) T [] []).2.nodes, sz c ≤ sz x)
      ∧ Ordered sz (insertT sz c T) := by
  have h1 := insertA_inorder sz (sz c) _ T [] [] (le_refl _)
  simp only [plugL, plugR, Tree.nodes, List.nil_append, List.append_nil] at h1
  have h2 := insertA_split sz (sz c) _ T [] [] (le_refl _) hord
    (by simp [plugL, Tree.nodes]) (by simp [plugR, Tree.nodes])
  refine ⟨h1, h2.1, h2.2, ?_⟩
  rw [ordered_iff_pairwise] at hord ⊢
  rw [← h1, List.pairwise_append] at hord
  simp only [insertT, Tree.nodes, List.pairwise_append, List.pairwise_cons, List.mem_cons]
  refine ⟨hord.1, ⟨h2.2, hord.2.1⟩, ?_⟩
  intro x hx y hy
  rcases hy with rfl | hy
  · exact le_of_lt (h2.1 x hx)
  · exact hord.2.2 x hx y hy

end Dgd

namespace Dgd

/-! ## Theorems: `seek`, `insert` and `delete` keep the nodes and the search order -/

/-- The tree `seek` leaves in the memory: the one its loop assembles on the
shape of the tree, with the nodes in the same order from left to right. -/
theorem seek_shape (d fuel size : Nat) (h : Heap) (T : Tree) (hT : IsTree h T)
    (hd0 : d ≠ 0) (hd : d ∉ T.nodes) (hfuel : T.card ≤ fuel) :
    ∃ h', seek d fuel h size = some ((seekA h.size size T [] []).1, h')
      ∧ IsTree h' (seekA h.size size T [] []).2 ∧ h'.size = h.size
      ∧ (seekA h.size size T [] []).2.nodes = T.nodes := by
  obtain ⟨hrepr, hnd⟩ := hT
  cases T with
  | nil =>
    have h0 : h.dtree = 0 := hrepr
    exact ⟨h, by simp [seek, h0, seekA], ⟨hrepr, hnd⟩, rfl, rfl⟩
  | node A a B =>
    have hda : h.dtree = a := hrepr.1
    have ha : a ≠ 0 := hrepr.2.1
    have hinv : SplayInv h d (.node A a B) [] [] h.dtree := by
      refine ⟨hd0, trivial, trivial, ⟨0, hrepr⟩, ?_⟩
      simp only [nodesL, nodesR, List.nil_append]
      exact List.nodup_cons.2 ⟨hd, hnd⟩
    obtain ⟨h', h1, h2, h3⟩ := seekLoop_refines d size fuel h _ [] [] h.dtree hinv
      (by rw [hda]; exact ha) hfuel
    have hin := seekA_inorder h.size size _ (.node A a B) [] [] (le_refl _) (by simp)
    simp only [plugL, plugR, List.nil_append, List.append_nil] at hin
    have hin' : (seekA h.size size (.node A a B) [] []).2.nodes = (Tree.node A a B).nodes := by
      rw [hin]
      simp [Tree.nodes]
    refine ⟨h', ?_, ⟨h2, by rw [hin']; exact hnd⟩, h3, hin'⟩
    simp only [seek, hda, ha, if_false]
    rw [hda] at h1
    exact h1

/-- C36: on a splay tree that satisfies the search order, `seek(s)` returns,
with a chunk or with NULL, and leaves a splay tree that holds the same nodes
in the same order from left to right, none dropped and none twice, and that
satisfies the search order; no size has changed. -/
theorem seek_keeps_nodes (d fuel size : Nat) (h : Heap) (T : Tree) (hT : IsTree h T)
    (hord : Ordered h.size T) (hd0 : d ≠ 0) (hd : d ∉ T.nodes) (hfuel : T.card ≤ fuel) :
    ∃ c h' T', seek d fuel h size = some (c, h') ∧ IsTree h' T' ∧ h'.size = h.size
      ∧ T'.nodes = T.nodes ∧ T'.nodes.Nodup ∧ Ordered h'.size T' := by
  obtain ⟨h', h1, h2, h3, h4⟩ := seek_shape d fuel size h T hT hd0 hd hfuel
  refine ⟨_, h', _, h1, h2, h3, h4, h2.2, ?_⟩
  rw [ordered_iff_pairwise] at hord ⊢
  rw [h3, h4]
  exact hord

theorem seek_keeps_nodes_witness :
    IsTree exTreeHeap exTree ∧ Ordered exTreeHeap.size exTree
    ∧ (seek 1 3 exTreeHeap 121).map (fun r => r.1) = some 0
    ∧ ∃ c h' T', seek 1 3 exTreeHeap 121 = some (c, h') ∧ IsTree h' T'
      ∧ h'.size = exTreeHeap.size ∧ T'.nodes = exTree.nodes ∧ T'.nodes.Nodup
      ∧ Ordered h'.size T' :=
  ⟨by decide, by decide, by decide,
    seek_keeps_nodes 1 3 121 exTreeHeap exTree (by decide) (by decide) (by decide) (by decide)
      (by decide)⟩

/-- C33: on a splay tree that satisfies the search order, `insert(c)` of a
chunk that is not in the tree returns and makes `c` the root of a splay tree
that holds the old nodes and `c`; every node of the left subtree of `c` has a
size smaller than that of `c`, every node of its right subtree a size that is
at least that of `c`, the old nodes keep their order from left to right, and
the search order holds for the whole tree. -/
theorem insert_root_order (fuel : Nat) (h : Heap) (T : Tree) (c : Nat) (hT : IsTree h T)
    (hord : Ordered h.size T) (hc0 : c ≠ 0) (hc : c ∉ T.nodes) (hfuel : T.card ≤ fuel) :
    ∃ h' l r, insert fuel h c = some h' ∧ IsTree h' (.node l c r) ∧ h'.dtree = c
      ∧ h'.size = h.size ∧ (Tree.node l c r).nodes.Perm (c :: T.nodes)
      ∧ l.nodes ++ r.nodes = T.nodes
      ∧ (∀ x ∈ l.nodes, h'.size x < h'.size c) ∧ (∀ x ∈ r.nodes, h'.size c ≤ h'.size x)
      ∧ Ordered h'.size (.node l c r) := by
  obtain ⟨h', h1, h2, h3, h4, h5⟩ := insert_correct fuel h T c hT hc0 hc hfuel
  obtain ⟨g1, g2, g3, g4⟩ := insertT_ordered h.size c T hord
  refine ⟨h', _, _, h1, h2, h3, h4, h5, g1, ?_, ?_, ?_⟩
  · rw [h4]; exact g2
  · rw [h4]; exact g3
  · rw [h4]; exact g4

theorem insert_root_order_witness :
    IsTree exTieHeap exTree ∧ Ordered exTieHeap.size exTree
    ∧ (insert 3 exTieHeap 400).map (fun h' => (h'.dtree, h'.left 400, h'.right 400, h'.left 200))
        = some (400, 100, 200, 0)
    ∧ ∃ h' l r, insert 3 exTieHeap 400 = some h' ∧ IsTree h' (.node l 400 r) ∧ h'.dtree = 400
      ∧ h'.size = exTieHeap.size ∧ (Tree.node l 400 r).nodes.Perm (400 :: exTree.nodes)
      ∧ l.nodes ++ r.nodes = exTree.nodes
      ∧ (∀ x ∈ l.nodes, h'.size x < h'.size 400) ∧ (∀ x ∈ r.nodes, h'.size 400 ≤ h'.size x)
      ∧ Ordered h'.size (.node l 400 r) :=
  ⟨by decide, by decide, by decide,
    insert_root_order 3 exTieHeap exTree 400 (by decide) (by decide) (by decide) (by decide)
      (by decide)⟩

end Dgd

namespace Dgd

/-! ## Theorems: `delete` keeps the search order -/

theorem rotUp_inorder (Y : Tree) : ∀ (X : Tree) (t : Nat),
    (rotUp X t Y).1.nodes ++ [(rotUp X t Y).2] = X.nodes ++ t :: Y.nodes := by
  induction Y with
  | nil => intro X t; simp [rotUp, Tree.nodes]
  | node Y1 r Y2 _ ih2 =>
    intro X t
    rw [rotUp, ih2]
    simp [Tree.nodes]

/-- The subtree `delete` puts in the place of a node has the nodes of the two
subtrees of the node, in their order from left to right. -/
theorem joinA_inorder (l r : Tree) : (joinA l r).nodes = l.nodes ++ r.nodes := by
  cases l with
  | nil => simp [joinA, Tree.nodes]
  | node X t Y =>
    have := rotUp_inorder Y X t
    simp only [joinA, Tree.nodes]
    rw [← this]
    simp

/-- With a left subtree, the root of the subtree `delete` puts in the place
of a node is the last node of the left subtree, and the right subtree is the
right subtree of the node. -/
theorem joinA_root (l r : Tree) (hl : l ≠ .nil) :
    l.nodes = (joinA l r).leftSub.nodes ++ [(joinA l r).root] ∧ (joinA l r).rightSub = r := by
  cases l with
  | nil => exact absurd rfl hl
  | node X t Y =>
    have := rotUp_inorder Y X t
    simp only [joinA, Tree.leftSub, Tree.root, Tree.rightSub, Tree.nodes]
    exact ⟨this.symm, trivial⟩

theorem subtreeAt_sublist (c : Nat) (t : Tree) : (t.subtreeAt c).nodes.Sublist t.nodes := by
  induction t with
  | nil => simp [Tree.subtreeAt]
  | node l a r ihl ihr =>
    simp only [Tree.subtreeAt]
    split
    · exact List.Sublist.refl _
    · split
      · exact ihl.trans (List.sublist_append_left _ _)
      · exact ihr.trans ((List.sublist_cons_self _ _).trans (List.sublist_append_right _ _))

/-- The nodes of a tree with a subtree replaced by a part of it are a part of
the nodes of the tree, in the same order. -/
theorem replaceAt_sublist (c : Nat) (S : Tree) (t : Tree) (hnd : t.nodes.Nodup)
    (hS : S.nodes.Sublist (t.subtreeAt c).nodes) : (t.replaceAt c S).nodes.Sublist t.nodes := by
  induction t with
  | nil => simp [Tree.replaceAt]
  | node l a r ihl ihr =>
    obtain ⟨n1, n2, n3, n4, n5⟩ := nodup_node _ _ _ hnd
    by_cases hac : a = c
    · simp only [Tree.replaceAt, Tree.subtreeAt, if_pos hac] at hS ⊢
      exact hS
    · simp only [Tree.replaceAt, Tree.subtreeAt, if_neg hac] at hS ⊢
      by_cases hcl : c ∈ l.nodes
      · rw [if_pos hcl] at hS
        rw [replaceAt_of_not_mem c S r (n5 c hcl)]
        simp only [Tree.nodes]
        exact List.Sublist.append (ihl n1 hS) (List.Sublist.refl _)
      · rw [if_neg hcl] at hS
        rw [replaceAt_of_not_mem c S l hcl]
        simp only [Tree.nodes]
        exact List.Sublist.append (List.Sublist.refl _) (List.Sublist.cons₂ _ (ihr n2 hS))

/-- C34: on a splay tree that satisfies the search order, with the parent
links of its shape, `delete(c)` of a node of the tree returns and leaves a
splay tree, again with the parent links of its shape, that holds the old
nodes without `c` and satisfies the search order. The subtree at `c` is
replaced by a subtree `S` with the nodes of the two subtrees of `c`: when `c`
has no left subtree `S` is the right subtree of `c`, whose root is the right
child of `c`; otherwise the root of `S` is the last node of the left subtree
of `c`, whose size is the largest there, over the other nodes of the left
subtree and the right subtree of `c`. -/
theorem delete_keeps_order (fuel : Nat) (h : Heap) (T : Tree) (c : Nat) (hT : IsTree h T)
    (hord : Ordered h.size T) (hc : c ∈ T.nodes) (hfuel : T.card ≤ fuel) :
    ∃ h' l r S, delete fuel h c = some h' ∧ T.subtreeAt c = .node l c r
      ∧ IsTree h' (T.replaceAt c S) ∧ h'.size = h.size
      ∧ (c :: (T.replaceAt c S).nodes).Perm T.nodes
      ∧ (∀ x, x ∈ (T.replaceAt c S).nodes ↔ x ∈ T.nodes ∧ x ≠ c)
      ∧ Ordered h'.size (T.replaceAt c S)
      ∧ S.nodes = l.nodes ++ r.nodes
      ∧ (h.left c = 0 → l = .nil ∧ S = r ∧ S.root = h.right c)
      ∧ (h.left c ≠ 0 → S.root ∈ l.nodes ∧ (∀ x ∈ l.nodes, h.size x ≤ h.size S.root)
          ∧ l.nodes = S.leftSub.nodes ++ [S.root] ∧ S.rightSub = r) := by
  obtain ⟨h', h1, h2, h3, h4⟩ := delete_correct fuel h T c hT hc hfuel
  obtain ⟨l, r, hsub, hS⟩ := repr_subtreeAt h c T 0 _ hT.1 hc
  have hdef : deleteT T c = T.replaceAt c (joinA l r) := by
    simp only [deleteT, hsub, Tree.leftSub, Tree.rightSub]
  rw [hdef] at h2 h4
  have hperm : (c :: (T.replaceAt c (joinA l r)).nodes).Perm T.nodes := by
    rw [List.perm_iff_count]
    intro x
    have := h4 x
    simp only [List.count_cons, beq_iff_eq]
    omega
  have hsl : (T.replaceAt c (joinA l r)).nodes.Sublist T.nodes := by
    apply replaceAt_sublist c _ T hT.2
    rw [hsub, joinA_inorder]
    simp only [Tree.nodes]
    exact List.Sublist.append (List.Sublist.refl _) (List.sublist_cons_self _ _)
  have hpw : T.nodes.Pairwise (fun x y => h.size x ≤ h.size y) :=
    (ordered_iff_pairwise _ _).1 hord
  have hlr : (Tree.node l c r).nodes.Pairwise (fun x y => h.size x ≤ h.size y) := by
    rw [← hsub]
    exact hpw.sublist (subtreeAt_sublist c T)
  refine ⟨h', l, r, joinA l r, h1, hsub, h2, h3, hperm, ?_, ?_, joinA_inorder l r, ?_, ?_⟩
  · intro x
    have hcnot : c ∉ (T.replaceAt c (joinA l r)).nodes := by
      intro hx
      have := h4 c
      have := List.count_pos_iff.2 hx
      have := List.nodup_iff_count_le_one.1 hT.2 c
      simp only [if_true] at *
      omega
    constructor
    · intro hx
      exact ⟨hsl.subset hx, fun e => hcnot (e ▸ hx)⟩
    · rintro ⟨hx, hne⟩
      have := hperm.symm.subset hx
      rcases List.mem_cons.1 this with e | e
      · exact absurd e hne
      · exact e
  · rw [ordered_iff_pairwise, h3]
    exact hpw.sublist hsl
  · intro h0
    have hl : Repr h c (h.left c) l := hS.2.2.2.1
    have hr : Repr h c (h.right c) r := hS.2.2.2.2
    rw [h0] at hl
    have hnil : l = .nil := repr_zero _ _ _ hl
    subst hnil
    exact ⟨rfl, rfl, (repr_root _ _ _ _ hr).symm⟩
  · intro h0
    have hl : Repr h c (h.left c) l := hS.2.2.2.1
    have hne : l ≠ .nil := by
      intro e
      rw [e] at hl
      exact h0 hl
    obtain ⟨j1, j2⟩ := joinA_root l r hne
    have hlp : l.nodes.Pairwise (fun x y => h.size x ≤ h.size y) := by
      simp only [Tree.nodes, List.pairwise_append] at hlr
      exact hlr.1
    refine ⟨by rw [j1]; simp, ?_, j1, j2⟩
    intro x hx
    rw [j1] at hx hlp
    rw [List.pairwise_append] at hlp
    rcases List.mem_append.1 hx with hx | hx
    · exact hlp.2.2 x hx _ (by simp)
    · simp only [List.mem_singleton] at hx
      rw [hx]

theorem delete_keeps_order_witness :
    IsTree exTreeHeap exTree ∧ Ordered exTreeHeap.size exTree
    ∧ (delete 3 exTreeHeap 200).map (fun h' => (h'.dtree, h'.left 100, h'.right 100,
        h'.parent 100, h'.parent 300)) = some (100, 0, 300, 0, 100)
    ∧ ∃ h' l r S, delete 3 exTreeHeap 200 = some h' ∧ exTree.subtreeAt 200 = .node l 200 r
      ∧ IsTree h' (exTree.replaceAt 200 S) ∧ h'.size = exTreeHeap.size
      ∧ (200 :: (exTree.replaceAt 200 S).nodes).Perm exTree.nodes
      ∧ (∀ x, x ∈ (exTree.replaceAt 200 S).nodes ↔ x ∈ exTree.nodes ∧ x ≠ 200)
      ∧ Ordered h'.size (exTree.replaceAt 200 S)
      ∧ S.nodes = l.nodes ++ r.nodes
      ∧ (exTreeHeap.left 200 = 0 → l = .nil ∧ S = r ∧ S.root = exTreeHeap.right 200)
      ∧ (exTreeHeap.left 200 ≠ 0 → S.root ∈ l.nodes
          ∧ (∀ x ∈ l.nodes, exTreeHeap.size x ≤ exTreeHeap.size S.root)
          ∧ l.nodes = S.leftSub.nodes ++ [S.root] ∧ S.rightSub = r) :=
  ⟨by decide, by decide, by decide,
    delete_keeps_order 3 exTreeHeap exTree 200 (by decide) (by decide) (by decide) (by decide)⟩

end Dgd

namespace Dgd

/-! ## Theorems: `lchunk`, the table of the large static free lists -/

/-- The binary search of `lchunk` on a table with strictly ascending sizes:
it finds the size where the table has it, and otherwise ends with `m` at the
place where the size belongs. -/
theorem lchunkSearch_spec (lc : Nat → Clist) (size N : Nat)
    (hs : ∀ i j, i < j → j < N → (lc i).size < (lc j).size) :
    ∀ (fuel l h m : Nat), l ≤ h → h ≤ N → h - l ≤ fuel → (l = h → m = l) →
      (∀ i, i < l → (lc i).size < size) → (∀ i, h ≤ i → i < N → size < (lc i).size) →
      ((lchunkSearch lc size fuel l h m).1 = true →
          (lchunkSearch lc size fuel l h m).2 < N
            ∧ (lc (lchunkSearch lc size fuel l h m).2).size = size)
        ∧ ((lchunkSearch lc size fuel l h m).1 = false →
          (lchunkSearch lc size fuel l h m).2 ≤ N
            ∧ (∀ i, i < (lchunkSearch lc size fuel l h m).2 → (lc i).size < size)
            ∧ (∀ i, (lchunkSearch lc size fuel l h m).2 ≤ i → i < N → size < (lc i).size)) := by
  intro fuel
  induction fuel with
  | zero =>
    intro l h m hlh hhN hf hm hlo hhi
    have e : l = h := by omega
    have em := hm e
    simp only [lchunkSearch]
    refine ⟨fun hc => by simp at hc, fun _ => ⟨by omega, ?_, ?_⟩⟩
    · intro i hi; exact hlo i (by omega)
    · intro i hi hiN; exact hhi i (by omega) hiN
  | succ fuel ih =>
    intro l h m hlh hhN hf hm hlo hhi
    rw [lchunkSearch]
    by_cases hl : l < h
    · have hmid1 : l ≤ (l + h) >>> 1 := by
        rw [Nat.shiftRight_eq_div_pow]; simp only [pow_one]; omega
      have hmid2 : (l + h) >>> 1 < h := by
        rw [Nat.shiftRight_eq_div_pow]; simp only [pow_one]; omega
      simp only [if_pos hl]
      generalize (l + h) >>> 1 = mid at hmid1 hmid2
      by_cases he : (lc mid).size = size
      · simp only [if_pos he]
        exact ⟨fun _ => ⟨by omega, he⟩, fun hc => by simp at hc⟩
      · simp only [if_neg he]
        by_cases hg : (lc mid).size > size
        · simp only [if_pos hg]
          refine ih l mid mid hmid1 (by omega) (by omega) (fun e => e.symm) hlo ?_
          intro i hi hiN
          rcases Nat.eq_or_lt_of_le hi with e | e
          · rw [← e]; exact hg
          · exact lt_trans hg (hs mid i e hiN)
        · simp only [if_neg hg]
          refine ih (mid + 1) h (mid + 1) (by omega) hhN (by omega) (fun _ => rfl) ?_ hhi
          intro i hi
          rcases Nat.eq_or_lt_of_le (Nat.lt_succ_iff.1 hi) with e | e
          · rw [e]; omega
          · have := hs i mid e (by omega)
            omega
    · have e : l = h := by omega
      have em := hm e
      simp only [if_neg hl]
      refine ⟨fun hc => by simp at hc, fun _ => ⟨by omega, ?_, ?_⟩⟩
      · intro i hi; exact hlo i (by omega)
      · intro i hi hiN; exact hhi i (by omega) hiN

/-- The loop of `lchunk` that makes room for a new entry: the entries from
`m` on move up by one place. -/
theorem lchunkShift_spec (m : Nat) :
    ∀ (n : Nat) (lc : Nat → Clist), m ≤ n →
      ∀ i, lchunkShift m n lc i = if m < i ∧ i ≤ n then lc (i - 1) else lc i := by
  intro n
  induction n with
  | zero =>
    intro lc hm i
    have : ¬ (m < i ∧ i ≤ 0) := by omega
    simp only [lchunkShift, if_neg this]
  | succ n ih =>
    intro lc hm i
    rw [lchunkShift]
    by_cases h1 : n + 1 > m
    · rw [if_pos h1, ih _ (by omega)]
      by_cases h2 : m < i ∧ i ≤ n
      · have h3 : m < i ∧ i ≤ n + 1 := by omega
        rw [if_pos h2, if_pos h3, Function.update_noteq (by omega)]
      · rw [if_neg h2]
        by_cases h4 : i = n + 1
        · have h3 : m < i ∧ i ≤ n + 1 := by omega
          rw [if_pos h3, h4, Function.update_same]
          rfl
        · have h3 : ¬ (m < i ∧ i ≤ n + 1) := by omega
          rw [if_neg h3, Function.update_noteq h4]
    · have h3 : ¬ (m < i ∧ i ≤ n + 1) := by omega
      rw [if_neg h1, if_neg h3]

/-- What `lchunk` does on a table with strictly ascending sizes. -/
theorem lchunk_spec (st : Alloc) (size : Nat) ( new : Bool)
    (hs : ∀ i j, i < j → j < st.nlc → (st.lchunks i).size < (st.lchunks j).size) :
    ((∃ i, i < st.nlc ∧ (st.lchunks i).size = size) →
        ∃ i, i < st.nlc ∧ (st.lchunks i).size = size ∧ lchunk st size new = .ok (some i) st)
    ∧ ((¬ ∃ i, i < st.nlc ∧ (st.lchunks i).size = size) →
        ∃ m, m ≤ st.nlc ∧ (∀ i, i < m → (st.lchunks i).size < size)
          ∧ (∀ i, m ≤ i → i < st.nlc → size < (st.lchunks i).size)
          ∧ lchunk st size new
            = if !new then .ok none st
              else if st.nlc = LCHUNKS then .fatal "too many different large static chunks" st
              else .ok (some m) { st with
                nlc := st.nlc + 1,
                lchunks := Function.update (lchunkShift m st.nlc st.lchunks) m
                  { size := size, list := 0 } }) := by
  obtain ⟨h1, h2⟩ := lchunkSearch_spec st.lchunks size st.nlc hs st.nlc 0 st.nlc 0
    (Nat.zero_le _) (le_refl _) (by omega) (fun _ => rfl) (fun i hi => absurd hi (by omega))
    (fun i hi hiN => absurd hiN (by omega))
  cases hr : lchunkSearch st.lchunks size st.nlc 0 st.nlc 0 with
  | mk b m =>
    rw [hr] at h1 h2
    cases b with
    | true =>
      obtain ⟨g1, g2⟩ := h1 rfl
      refine ⟨fun _ => ⟨m, g1, g2, by simp only [lchunk, hr]⟩, fun hne => ?_⟩
      exact absurd ⟨m, g1, g2⟩ hne
    | false =>
      obtain ⟨g1, g2, g3⟩ := h2 rfl
      refine ⟨fun hex => ?_, fun _ => ⟨m, g1, g2, g3, by simp only [lchunk, hr]⟩⟩
      obtain ⟨i, hi, he⟩ := hex
      by_cases him : i < m
      · have := g2 i him
        omega
      · have := g3 i (by omega) hi
        omega

/-- C35: on a table of large static free lists whose sizes are strictly
ascending, `lchunk(size, FALSE)` and `lchunk(size, TRUE)` return the list of
the entry with that size when the table has it, and do not modify the table.
When the table does not have it, `lchunk(size, FALSE)` returns NULL and does
not modify the table; `lchunk(size, TRUE)` fails fatally when `LCHUNKS`, 16,
sizes are stored, and with fewer sizes it returns a new entry with an empty
list at the place `m` that keeps the sizes strictly ascending, the entries
before `m` staying where they are and those from `m` on moving up by one
place, nothing else of the state changing. -/
theorem lchunk_sorted_table (st : Alloc) (size : Nat)
    (hs : ∀ i j, i < j → j < st.nlc → (st.lchunks i).size < (st.lchunks j).size) :
    LCHUNKS = 16
    ∧ ((∃ i, i < st.nlc ∧ (st.lchunks i).size = size) →
        ∃ i, i < st.nlc ∧ (st.lchunks i).size = size
          ∧ lchunk st size false = .ok (some i) st ∧ lchunk st size true = .ok (some i) st)
    ∧ ((¬ ∃ i, i < st.nlc ∧ (st.lchunks i).size = size) →
        lchunk st size false = .ok none st
        ∧ (st.nlc = LCHUNKS →
            lchunk st size true = .fatal "too many different large static chunks" st)
        ∧ (st.nlc < LCHUNKS →
            ∃ m lc, lchunk st size true = .ok (some m) { st with nlc := st.nlc + 1, lchunks := lc }
              ∧ m ≤ st.nlc ∧ lc m = { size := size, list := 0 }
              ∧ (∀ i, i < m → lc i = st.lchunks i)
              ∧ (∀ i, m ≤ i → i < st.nlc → lc (i + 1) = st.lchunks i)
              ∧ (∀ i j, i < j → j < st.nlc + 1 → (lc i).size < (lc j).size))) := by
  refine ⟨rfl, fun hex => ?_, fun hne => ?_⟩
  · obtain ⟨i, h1, h2, h3⟩ := (lchunk_spec st size false hs).1 hex
    obtain ⟨j, g1, g2, g3⟩ := (lchunk_spec st size true hs).1 hex
    have hij : i = j := by
      rcases Nat.lt_trichotomy i j with h | h | h
      · have := hs i j h g1; omega
      · exact h
      · have := hs j i h h1; omega
    subst hij
    exact ⟨i, h1, h2, h3, g3⟩
  · obtain ⟨m0, _, _, _, h4⟩ := (lchunk_spec st size false hs).2 hne
    obtain ⟨m, g1, g2, g3, g4⟩ := (lchunk_spec st size true hs).2 hne
    refine ⟨by simpa using h4, fun hfull => by simpa [hfull] using g4, fun hlt => ?_⟩
    have hnf : st.nlc ≠ LCHUNKS := by omega
    have hsh := lchunkShift_spec m st.nlc st.lchunks g1
    refine ⟨m, _, by simpa [hnf] using g4, g1, by simp, ?_, ?_, ?_⟩
    · intro i hi
      have hc : ¬ (m < i ∧ i ≤ st.nlc) := by omega
      rw [Function.update_noteq (by omega), hsh, if_neg hc]
    · intro i hi hin
      have hc : m < i + 1 ∧ i + 1 ≤ st.nlc := by omega
      rw [Function.update_noteq (by omega), hsh, if_pos hc]
      rfl
    · have hval : ∀ i, i < st.nlc + 1 →
          (Function.update (lchunkShift m st.nlc st.lchunks) m
            ({ size := size, list := 0 } : Clist) i).size
            = if i < m then (st.lchunks i).size else if i = m then size
              else (st.lchunks (i - 1)).size := by
        intro i hi
        by_cases h1 : i < m
        · have hc : ¬ (m < i ∧ i ≤ st.nlc) := by omega
          rw [Function.update_noteq (by omega), hsh, if_neg hc, if_pos h1]
        · by_cases h2 : i = m
          · rw [h2, Function.update_same, if_neg (by omega), if_pos rfl]
          · have hc : m < i ∧ i ≤ st.nlc := by omega
            rw [Function.update_noteq h2, hsh, if_pos hc, if_neg h1, if_neg h2]
      intro i j hij hj
      rw [hval i (by omega), hval j hj]
      by_cases hi1 : i < m
      · rw [if_pos hi1]
        by_cases hj1 : j < m
        · rw [if_pos hj1]; exact hs i j hij (by omega)
        · rw [if_neg hj1]
          by_cases hj2 : j = m
          · rw [if_pos hj2]; exact g2 i hi1
          · rw [if_neg hj2]
            exact lt_trans (g2 i hi1) (g3 (j - 1) (by omega) (by omega))
      · rw [if_neg hi1]
        have hj1 : ¬ j < m := by omega
        have hj2 : ¬ j = m := by omega
        rw [if_neg hj1, if_neg hj2]
        by_cases hi2 : i = m
        · rw [if_pos hi2]; exact g3 (j - 1) (by omega) (by omega)
        · rw [if_neg hi2]; exact hs (i - 1) (j - 1) (by omega) (by omega)

theorem exLchunks_sorted :
    ∀ i j, i < j → j < exLchunks.nlc → (exLchunks.lchunks i).size < (exLchunks.lchunks j).size := by
  intro i j hij hj
  have hn : exLchunks.nlc = 2 := rfl
  rw [hn] at hj
  have hi0 : i = 0 := by omega
  have hj1 : j = 1 := by omega
  subst hi0 hj1
  decide

theorem lchunk_sorted_table_witness :
    ((lchunk exLchunks 500 false).value none = some 1)
    ∧ ((lchunk exLchunks 400 false).value (some 0) = none)
    ∧ ((lchunk exLchunks 400 true).value none = some 1)
    ∧ ([0, 1, 2].map ((lchunk exLchunks 400 true).state exLchunks).lchunks
        = [{ size := 300, list := 0 }, { size := 400, list := 0 }, { size := 500, list := 7000 }])
    ∧ LCHUNKS = 16
    ∧ ((∃ i, i < exLchunks.nlc ∧ (exLchunks.lchunks i).size = 400) →
        ∃ i, i < exLchunks.nlc ∧ (exLchunks.lchunks i).size = 400
          ∧ lchunk exLchunks 400 false = .ok (some i) exLchunks
          ∧ lchunk exLchunks 400 true = .ok (some i) exLchunks)
    ∧ ((¬ ∃ i, i < exLchunks.nlc ∧ (exLchunks.lchunks i).size = 400) →
        lchunk exLchunks 400 false = .ok none exLchunks
        ∧ (exLchunks.nlc = LCHUNKS →
            lchunk exLchunks 400 true
              = .fatal "too many different large static chunks" exLchunks)
        ∧ (exLchunks.nlc < LCHUNKS →
            ∃ m lc, lchunk exLchunks 400 true
                = .ok (some m) { exLchunks with nlc := exLchunks.nlc + 1, lchunks := lc }
              ∧ m ≤ exLchunks.nlc ∧ lc m = { size := 400, list := 0 }
              ∧ (∀ i, i < m → lc i = exLchunks.lchunks i)
              ∧ (∀ i, m ≤ i → i < exLchunks.nlc → lc (i + 1) = exLchunks.lchunks i)
              ∧ (∀ i j, i < j → j < exLchunks.nlc + 1 → (lc i).size < (lc j).size))) :=
  ⟨by decide, by decide, by decide, by decide,
    lchunk_sorted_table exLchunks 400 exLchunks_sorted⟩

end Dgd

namespace Dgd

/-! ## Theorems: the index of the lists of small free chunks -/

theorem ALIGN_spec (x s : Nat) (hs : 0 < s) : x ≤ ALIGN x s ∧ ALIGN x s < x + s ∧ s ∣ ALIGN x s := by
  unfold ALIGN
  have h1 := Nat.div_add_mod (x + s - 1) s
  have h2 := Nat.mod_lt (x + s - 1) hs
  have h3 : (x + s - 1) / s * s = s * ((x + s - 1) / s) := Nat.mul_comm _ _
  refine ⟨by omega, by omega, Dvd.intro_left _ rfl⟩

/-- The index `(size - OFFSET) / STRUCT_AL - 1` of a chunk size that is
`OFFSET` and `k + 1` times the alignment is `k`. -/
theorem chunkIndex_of_mul (C : Config) (k : Nat) (hal : 0 < C.STRUCT_AL)
    (hlt : C.OFFSET + (k + 1) * C.STRUCT_AL < SIZE_MOD) :
    chunkIndex C (C.OFFSET + (k + 1) * C.STRUCT_AL) = k := by
  unfold chunkIndex
  have hk : (k + 1) * C.STRUCT_AL < SIZE_MOD := by omega
  have ho : C.OFFSET < SIZE_MOD := by omega
  have hkk : k + 1 ≤ (k + 1) * C.STRUCT_AL := Nat.le_mul_of_pos_right _ hal
  rw [Nat.mod_eq_of_lt ho]
  have e1 : C.OFFSET + (k + 1) * C.STRUCT_AL + SIZE_MOD - C.OFFSET
      = (k + 1) * C.STRUCT_AL + SIZE_MOD := by omega
  rw [e1, Nat.add_mod_right, Nat.mod_eq_of_lt hk, Nat.mul_div_cancel _ hal]
  have e2 : k + 1 + SIZE_MOD - 1 = k + SIZE_MOD := by omega
  rw [e2, Nat.add_mod_right, Nat.mod_eq_of_lt (by omega)]

/-- The chunk size `alloc` computes for a request of at least one byte that
does not wrap around: `OFFSET` and a positive multiple of the alignment. -/
theorem allocSize_of_pos (C : Config) (n : Nat) (hal : 0 < C.STRUCT_AL)
    (ho : C.STRUCT_AL ∣ C.OFFSET) (hn : 1 ≤ n) (hw : n + C.OFFSET + C.STRUCT_AL ≤ UINT_MOD) :
    ∃ k, allocSize C n = C.OFFSET + (k + 1) * C.STRUCT_AL := by
  obtain ⟨h1, h2, q, hq⟩ := ALIGN_spec (n + C.OFFSET) C.STRUCT_AL hal
  obtain ⟨o, ho⟩ := ho
  have hlt : ALIGN (n + C.OFFSET) C.STRUCT_AL < UINT_MOD := by omega
  have hsz : allocSize C n = ALIGN (n + C.OFFSET) C.STRUCT_AL := by
    unfold allocSize
    simp only [Nat.mod_eq_of_lt hlt]
    rw [if_neg (by omega)]
  have hoq : o < q := by
    by_contra hc
    have : C.STRUCT_AL * q ≤ C.STRUCT_AL * o := Nat.mul_le_mul_left _ (by omega)
    omega
  refine ⟨q - o - 1, ?_⟩
  rw [hsz, hq]
  have e : q = o + (q - o - 1 + 1) := by omega
  rw [ho]
  nth_rewrite 1 [e]
  rw [Nat.mul_add, Nat.mul_comm C.STRUCT_AL (q - o - 1 + 1)]

/-- C37: for a request of at least one byte that does not wrap around, with
an alignment that divides `OFFSET`, `STRINGSZ` and `DSMALL`, the index
`(size - OFFSET) / STRUCT_AL - 1` of the chunk size `alloc` computes is below
`SCHUNKS` when the size is below `SLIMIT`, and below `DCHUNKS` when the size
is below `DLIMIT`. For the request of 0 bytes, which the non-DEBUG build
accepts, this fails: on an LP64 platform the chunk size is `OFFSET`, 16, the
index wraps around to `SIZE_MOD - 1` (the index -1), outside both tables, and
`alloc(0)` returns the chunk that cell holds, in static mode the cell of
`schunks` and in dynamic mode, once the memory manager is initialized, the
cell of `dchunks`. -/
theorem alloc_index_bounds :
    (∀ (C : Config) (n : Nat), 0 < C.STRUCT_AL → C.STRUCT_AL ∣ C.OFFSET →
        C.STRUCT_AL ∣ C.STRINGSZ → C.STRUCT_AL ∣ DSMALL → 1 ≤ n →
        n + C.OFFSET + C.STRUCT_AL ≤ UINT_MOD →
        (allocSize C n < C.SLIMIT → chunkIndex C (allocSize C n) < C.SCHUNKS)
          ∧ (allocSize C n < C.DLIMIT → chunkIndex C (allocSize C n) < C.DCHUNKS))
    ∧ allocSize lp64 0 = 16
    ∧ allocSize lp64 0 < lp64.SLIMIT ∧ allocSize lp64 0 < lp64.DLIMIT
    ∧ lp64.SCHUNKS = 127 ∧ lp64.DCHUNKS = 23
    ∧ chunkIndex lp64 (allocSize lp64 0) = SIZE_MOD - 1
    ∧ ¬ chunkIndex lp64 (allocSize lp64 0) < lp64.SCHUNKS
    ∧ ¬ chunkIndex lp64 (allocSize lp64 0) < lp64.DCHUNKS
    ∧ (∀ (st : Alloc) (dummy fuel : Nat), st.slevel > 0 → st.schunks (SIZE_MOD - 1) ≠ 0 →
        (alloc lp64 dummy fuel st 0).value 0 = st.schunks (SIZE_MOD - 1) + 8)
    ∧ (∀ (st : Alloc) (dummy fuel : Nat), ¬ st.slevel > 0 → st.dchunksz ≠ 0 →
        st.dchunks (SIZE_MOD - 1) ≠ 0 →
        (alloc lp64 dummy (fuel + 1) st 0).value 0 = st.dchunks (SIZE_MOD - 1) + 8) := by
  have hsz : allocSize lp64 0 = 16 := by decide
  have hidx : chunkIndex lp64 16 = SIZE_MOD - 1 := by decide
  have hsl : (16 : Nat) < lp64.SLIMIT := by decide
  have hdl : (16 : Nat) < lp64.DLIMIT := by decide
  refine ⟨?_, hsz, by rw [hsz]; exact hsl, by rw [hsz]; exact hdl, by decide, by decide,
    by rw [hsz]; exact hidx, by rw [hsz, hidx]; decide, by rw [hsz, hidx]; decide, ?_, ?_⟩
  · intro C n hal ho hs hd hn hw
    obtain ⟨k, hk⟩ := allocSize_of_pos C n hal ho hn hw
    obtain ⟨h1, h2, _⟩ := ALIGN_spec (n + C.OFFSET) C.STRUCT_AL hal
    have hlt : C.OFFSET + (k + 1) * C.STRUCT_AL < SIZE_MOD := by
      have hsz : allocSize C n ≤ ALIGN (n + C.OFFSET) C.STRUCT_AL % UINT_MOD ∨
          allocSize C n = C.OFFSET := by
        unfold allocSize
        simp only
        split
        · exact Or.inr rfl
        · exact Or.inl (le_refl _)
      have hu : ALIGN (n + C.OFFSET) C.STRUCT_AL % UINT_MOD < UINT_MOD :=
        Nat.mod_lt _ (by decide)
      have : UINT_MOD < SIZE_MOD := by decide
      have hkk : k + 1 ≤ (k + 1) * C.STRUCT_AL := Nat.le_mul_of_pos_right _ hal
      rw [← hk]
      rcases hsz with h | h
      · omega
      · omega
    rw [hk, chunkIndex_of_mul C k hal hlt]
    constructor
    · intro hlim
      obtain ⟨s, hs⟩ := hs
      have h3 : (k + 1) * C.STRUCT_AL < C.STRUCT_AL * s := by
        unfold Config.SLIMIT at hlim
        omega
      have h4 : k + 1 < s := by
        by_contra hc
        have : C.STRUCT_AL * s ≤ C.STRUCT_AL * (k + 1) := Nat.mul_le_mul_left _ (by omega)
        rw [Nat.mul_comm C.STRUCT_AL (k + 1)] at this
        omega
      unfold Config.SCHUNKS
      rw [hs, Nat.mul_div_cancel_left _ hal]
      omega
    · intro hlim
      obtain ⟨s, hs⟩ := hd
      have h3 : (k + 1) * C.STRUCT_AL < C.STRUCT_AL * s := by
        unfold Config.DLIMIT at hlim
        omega
      have h4 : k + 1 < s := by
        by_contra hc
        have : C.STRUCT_AL * s ≤ C.STRUCT_AL * (k + 1) := Nat.mul_le_mul_left _ (by omega)
        rw [Nat.mul_comm C.STRUCT_AL (k + 1)] at this
        omega
      unfold Config.DCHUNKS
      rw [hs, Nat.mul_div_cancel_left _ hal]
      omega
  · intro st dummy fuel hlev hc
    have hns : ¬ (16 ≥ lp64.SLIMIT) := by decide
    simp only [alloc, hsz, hlev, if_true, salloc, hns, if_false, hidx, hc, ne_eq,
      not_false_eq_true, Res.value]
    rfl
  · intro st dummy fuel hlev hini hc
    simp only [alloc, hsz, hlev, if_false, dalloc, hini, hdl, if_true, hidx, hc, ne_eq,
      not_false_eq_true, Res.value]
    rfl

end Dgd

namespace Dgd

/-! ## Theorems: the ticks across an rlimits scope -/

/-- The function `i_set_rlimits` back to the parent of the current scope: it
returns, the parent is the current scope again and receives the remaining
ticks of the scope that ends, a negative count counting as 0, unless that
scope has unlimited ticks. -/
theorem i_set_rlimits_parent (fuel : Nat) (st : Interp) (f target : Nat)
    (hne : (st.frame f).rlim ≠ target) (hnext : (st.rl (st.frame f).rlim).next = target)
    (hfuel : 2 ≤ fuel) :
    ∃ st1, i_set_rlimits fuel st f target = some st1
      ∧ st1.frame f = { st.frame f with rlim := target }
      ∧ (∀ g, g ≠ f → st1.frame g = st.frame g)
      ∧ st1.rl target
        = { st.rl target with
            ticks := (st.rl target).ticks
              + if (st.rl (st.frame f).rlim).noticks then 0
                else max (st.rl (st.frame f).rlim).ticks 0 } := by
  obtain ⟨c1, c2, c3⟩ := clampTicks_spec st (st.frame f).rlim
  have hseg : ScopeSeg (fun y => ((st.clampTicks (st.frame f).rlim).rl y).next) target
      (st.frame f).rlim [(st.frame f).rlim] := by
    refine ⟨rfl, hne, ?_⟩
    show ((st.clampTicks (st.frame f).rlim).rl (st.frame f).rlim).next = target
    rw [c3, if_pos rfl]
    exact hnext
  obtain ⟨st1, k1, k2, _, _, k5⟩ := i_set_rlimitsLoop_spec target fuel
    (st.clampTicks (st.frame f).rlim) (st.frame f).rlim [(st.frame f).rlim] hseg
    (by simp only [List.length_singleton]; omega)
  have e : i_set_rlimits fuel st f target
      = some (st1.setFrame f { st1.frame f with rlim := target }) := by
    unfold i_set_rlimits
    simp only [k1]
  refine ⟨_, e, ?_, ?_, ?_⟩
  · rw [setFrame_frame, Function.update_same, k2, c1]
  · intro g hg
    rw [setFrame_frame, Function.update_noteq hg, k2, c1]
  · rw [setFrame_rl, k5, c3 target, if_neg (fun e1 => hne e1.symm)]
    simp only [carried]
    rw [c3 (st.frame f).rlim, if_pos rfl]
    simp

/-- C39: let the current scope of the frame `f` be tick-bounded. After
`i_new_rlimits(f, d, t)`, in a state where the new scope is still the current
one of `f`, its count has become `c` and the previous scope is as
`i_new_rlimits` left it, `i_set_rlimits(f, f->rlim->next)` returns and makes
the previous scope the current one again, with its depth limit, its flags
and its parent unchanged. For `t >= 0`, when `k` ticks of the new scope have
been used, `0 <= k` and `k` at most its initial count, the count of the
previous scope is its old count less `k`; for `t < 0` it is its old count,
whatever `c` is. -/
theorem rlimits_ticks_conserved (rlim : Nat) (st s2 : Interp) (f : Nat) (d t c k : Int)
    (fuel : Nat) (hfresh : rlim ≠ (st.frame f).rlim)
    (hb : (st.rl (st.frame f).rlim).noticks = false)
    (hf : (s2.frame f).rlim = rlim)
    (hin : s2.rl rlim = { (i_new_rlimits rlim st f d t).rl rlim with ticks := c })
    (hp : s2.rl (st.frame f).rlim = (i_new_rlimits rlim st f d t).rl (st.frame f).rlim)
    (hk : 0 ≤ t → 0 ≤ k ∧ k ≤ ((i_new_rlimits rlim st f d t).rl rlim).ticks
      ∧ c = ((i_new_rlimits rlim st f d t).rl rlim).ticks - k)
    (hfuel : 2 ≤ fuel) :
    ∃ s3, i_set_rlimits fuel s2 f (s2.rl (s2.frame f).rlim).next = some s3
      ∧ s3.frame f = { s2.frame f with rlim := (st.frame f).rlim }
      ∧ (∀ g, g ≠ f → s3.frame g = s2.frame g)
      ∧ s3.rl (st.frame f).rlim
        = { st.rl (st.frame f).rlim with
            ticks := if t < 0 then (st.rl (st.frame f).rlim).ticks
              else (st.rl (st.frame f).rlim).ticks - k } := by
  obtain ⟨n1, n2, _, _, _, _⟩ := i_new_rlimits_fields rlim st f d t hfresh
  have hnext : (s2.rl (s2.frame f).rlim).next = (st.frame f).rlim := by
    rw [hf, hin, n1]
  have hno : (s2.rl rlim).noticks
      = if t ≠ 0 then decide (t < 0) else (st.rl (st.frame f).rlim).noticks := by
    rw [hin, n1]
  have hti : (s2.rl rlim).ticks = c := by rw [hin]
  obtain ⟨s3, e1, e2, e3, e4⟩ := i_set_rlimits_parent fuel s2 f (st.frame f).rlim
    (by rw [hf]; exact hfresh) hnext hfuel
  rw [hnext]
  refine ⟨s3, e1, e2, e3, ?_⟩
  rw [e4, hf, hno, hti, hp, n2]
  rw [n1] at hk
  by_cases ht0 : t = 0
  · subst ht0
    obtain ⟨k1, k2, k3⟩ := hk (le_refl _)
    simp only [ne_eq, not_true_eq_false, if_false, hb, lt_self_iff_false, Bool.false_eq_true]
      at k2 k3 ⊢
    have : max c 0 = c := max_eq_left (by omega)
    rw [this, k3]
    congr 1
    omega
  · by_cases ht1 : t < 0
    · simp only [ne_eq, ht0, not_false_eq_true, if_true, ht1, decide_True, add_zero]
    · obtain ⟨k1, k2, k3⟩ := hk (by omega)
      simp only [ne_eq, ht0, not_false_eq_true, if_true, ht1, if_false, decide_False,
        Bool.false_eq_true] at k2 k3 ⊢
      have : max c 0 = c := max_eq_left (by omega)
      rw [this, k3]
      congr 1
      omega

theorem rlimits_ticks_conserved_witness :
    (5 : Nat) ≠ (exInterp.frame 1).rlim
    ∧ (exInterp.rl (exInterp.frame 1).rlim).noticks = false
    ∧ (exInterp.rl (exInterp.frame 1).rlim).ticks = 100
    ∧ ((i_new_rlimits 5 exInterp 1 0 10).rl 5).ticks = 10
    ∧ ((i_new_rlimits 5 exInterp 1 0 10).rl 1).ticks = 90
    ∧ ∃ s3, i_set_rlimits 2
          ((i_new_rlimits 5 exInterp 1 0 10).setRl 5
            { (i_new_rlimits 5 exInterp 1 0 10).rl 5 with ticks := 7 }) 1
          ((((i_new_rlimits 5 exInterp 1 0 10).setRl 5
            { (i_new_rlimits 5 exInterp 1 0 10).rl 5 with ticks := 7 }).rl
              ((((i_new_rlimits 5 exInterp 1 0 10).setRl 5
                { (i_new_rlimits 5 exInterp 1 0 10).rl 5 with ticks := 7 }).frame 1).rlim)).next)
          = some s3
      ∧ s3.frame 1
        = { (((i_new_rlimits 5 exInterp 1 0 10).setRl 5
            { (i_new_rlimits 5 exInterp 1 0 10).rl 5 with ticks := 7 }).frame 1) with
            rlim := (exInterp.frame 1).rlim }
      ∧ (∀ g, g ≠ 1 → s3.frame g
        = ((i_new_rlimits 5 exInterp 1 0 10).setRl 5
            { (i_new_rlimits 5 exInterp 1 0 10).rl 5 with ticks := 7 }).frame g)
      ∧ s3.rl (exInterp.frame 1).rlim
        = { exInterp.rl (exInterp.frame 1).rlim with
            ticks := if (10 : Int) < 0 then (exInterp.rl (exInterp.frame 1).rlim).ticks
              else (exInterp.rl (exInterp.frame 1).rlim).ticks - 3 } :=
  ⟨by decide, by decide, by decide, by decide, by decide,
    rlimits_ticks_conserved 5 exInterp
      ((i_new_rlimits 5 exInterp 1 0 10).setRl 5
        { (i_new_rlimits 5 exInterp 1 0 10).rl 5 with ticks := 7 }) 1 0 10 7 3 2
      (by decide) (by decide) (by decide) (by simp [Interp.setRl]) rfl
      (fun _ => ⟨by decide, by decide, by decide⟩) (le_refl _)⟩

end Dgd

namespace Dgd

/-! ## Theorems: `instanceof` and its cache -/

theorem strcmpEq_comm (a b : List Nat) : strcmpEq a b = strcmpEq b a := by
  unfold strcmpEq
  by_cases h : a.takeWhile (fun c => c != 0) = b.takeWhile (fun c => c != 0)
  · rw [h]
  · have h1 : (a.takeWhile (fun c => c != 0) == b.takeWhile (fun c => c != 0)) = false := by
      simpa using h
    have h2 : (b.takeWhile (fun c => c != 0) == a.takeWhile (fun c => c != 0)) = false := by
      simpa using fun e => h e.symm
    rw [h1, h2]

theorem strcmpEq_of_both (a b p : List Nat) (ha : strcmpEq a p = true)
    (hb : strcmpEq b p = true) : strcmpEq a b = true := by
  unfold strcmpEq at *
  simp only [beq_iff_eq] at *
  rw [ha, hb]

/-- The loop of `instanceof` returns an index below its start whose name is
the program's, and fails only when no name below its start is. -/
theorem instanceofLoop_spec (E : InstEnv) (o : Nat) (prog : List Nat) :
    ∀ n, (instanceofLoop E o prog n = none →
        ∀ j, j < n → strcmpEq (E.name (E.inherits o j).oindex) prog = false)
      ∧ (∀ i, instanceofLoop E o prog n = some i →
        i < n ∧ strcmpEq (E.name (E.inherits o i).oindex) prog = true) := by
  intro n
  induction n with
  | zero =>
    refine ⟨fun _ j hj => absurd hj (Nat.not_lt_zero _), fun i h => ?_⟩
    simp [instanceofLoop] at h
  | succ n ih =>
    rw [instanceofLoop]
    by_cases hm : strcmpEq prog (E.name (E.inherits o n).oindex) = true
    · rw [if_pos hm]
      refine ⟨fun h => by simp at h, fun i h => ?_⟩
      have hi : n = i := by simpa using h
      subst hi
      exact ⟨Nat.lt_succ_self _, by rw [strcmpEq_comm]; exact hm⟩
    · rw [if_neg hm]
      refine ⟨fun h j hj => ?_, fun i h => ?_⟩
      · rcases Nat.eq_or_lt_of_le (Nat.lt_succ_iff.1 hj) with e | e
        · rw [e, strcmpEq_comm]
          simpa using hm
        · exact ih.1 h j e
      · exact ⟨Nat.lt_succ_of_lt (ih.2 i h).1, (ih.2 i h).2⟩

/-- The search of the specification finds the one inherit with the name of
the program. -/
theorem instanceofSpec_found (E : InstEnv) (oindex : Nat) (prog : List Nat) (i : Nat)
    (hd : ∀ i j, i < E.ninherits (E.masterOf oindex) → j < E.ninherits (E.masterOf oindex) →
      strcmpEq (E.name (E.inherits (E.masterOf oindex) i).oindex)
        (E.name (E.inherits (E.masterOf oindex) j).oindex) = true → i = j)
    (hi : i < E.ninherits (E.masterOf oindex))
    (hm : strcmpEq (E.name (E.inherits (E.masterOf oindex) i).oindex) prog = true) :
    instanceofSpec E oindex prog = if (E.inherits (E.masterOf oindex) i).priv then -1 else 1 := by
  unfold instanceofSpec
  cases hf : (List.range (E.ninherits (E.masterOf oindex))).find?
      (fun i => strcmpEq (E.name (E.inherits (E.masterOf oindex) i).oindex) prog) with
  | none =>
    have := List.find?_eq_none.1 hf i (List.mem_range.2 hi)
    exact absurd hm this
  | some j =>
    have hj1 := List.mem_range.1 (List.mem_of_find?_eq_some hf)
    have hj2 := List.find?_some hf
    have hij : j = i := hd j i hj1 hi (strcmpEq_of_both _ _ prog hj2 hm)
    subst hij
    rfl

theorem instanceofSpec_none (E : InstEnv) (oindex : Nat) (prog : List Nat)
    (hno : ∀ j, j < E.ninherits (E.masterOf oindex) →
      strcmpEq (E.name (E.inherits (E.masterOf oindex) j).oindex) prog = false) :
    instanceofSpec E oindex prog = 0 := by
  unfold instanceofSpec
  cases hf : (List.range (E.ninherits (E.masterOf oindex))).find?
      (fun i => strcmpEq (E.name (E.inherits (E.masterOf oindex) i).oindex) prog) with
  | none => rfl
  | some j =>
    have hj1 := List.mem_range.1 (List.mem_of_find?_eq_some hf)
    have hj2 := List.find?_some hf
    have := hno j hj1
    simp only at hj2
    rw [this] at hj2
    exact absurd hj2 (by simp)

theorem charVal_unsigned (E : InstEnv) (b : Nat) (h : E.charSigned = false ∨ UCHAR b < 128) :
    E.charVal b = (UCHAR b : Int) := by
  unfold InstEnv.charVal UCHAR at *
  have hc : ¬ (E.charSigned = true ∧ 128 ≤ b % 256) := by
    rintro ⟨h1, h2⟩
    rcases h with h | h
    · rw [h] at h1; exact absurd h1 (by simp)
    · omega
  rw [if_neg hc]
  omega

/-- With a cache byte that is not negative as a `char`, `instanceof` returns
what the search without the cache returns, and the test of the cache reads
no element beyond `ninherits`. -/
theorem instanceof_refines (E : InstEnv) (ihash : Nat → Nat) (oindex : Nat) (prog : List Nat)
    (hash : Nat)
    (hd : ∀ i j, i < E.ninherits (E.masterOf oindex) → j < E.ninherits (E.masterOf oindex) →
      strcmpEq (E.name (E.inherits (E.masterOf oindex) i).oindex)
        (E.name (E.inherits (E.masterOf oindex) j).oindex) = true → i = j)
    (hn : E.ninherits (E.masterOf oindex) < 32768)
    (hc : E.charSigned = false
      ∨ UCHAR (ihash (E.slot (E.masterOf oindex) hash)) < 128) :
    (instanceof E ihash oindex prog hash).1 = instanceofSpec E oindex prog
      ∧ ∀ i, instanceofProbe E ihash oindex hash = some i → i < E.ninherits (E.masterOf oindex) := by
  have hcv := charVal_unsigned E _ hc
  constructor
  · unfold instanceof
    simp only [hcv]
    by_cases hhit : (UCHAR (ihash (E.slot (E.masterOf oindex) hash)) : Int)
        < (E.ninherits (E.masterOf oindex) : Int)
      ∧ strcmpEq (E.name (E.inherits (E.masterOf oindex)
          (UCHAR (ihash (E.slot (E.masterOf oindex) hash)))).oindex) prog = true
    · rw [if_pos hhit]
      exact (instanceofSpec_found E oindex prog _ hd (by exact_mod_cast hhit.1) hhit.2).symm
    · rw [if_neg hhit]
      have hmod : E.ninherits (E.masterOf oindex) % 65536 = E.ninherits (E.masterOf oindex) :=
        Nat.mod_eq_of_lt (by omega)
      rw [hmod]
      obtain ⟨l1, l2⟩ := instanceofLoop_spec E (E.masterOf oindex) prog
        (E.ninherits (E.masterOf oindex))
      cases hl : instanceofLoop E (E.masterOf oindex) prog (E.ninherits (E.masterOf oindex)) with
      | none => exact (instanceofSpec_none E oindex prog (l1 hl)).symm
      | some i =>
        obtain ⟨g1, g2⟩ := l2 i hl
        exact (instanceofSpec_found E oindex prog i hd g1 g2).symm
  · intro i hi
    unfold instanceofProbe at hi
    simp only [hcv] at hi
    by_cases hlt : (UCHAR (ihash (E.slot (E.masterOf oindex) hash)) : Int)
        < (E.ninherits (E.masterOf oindex) : Int)
    · rw [if_pos hlt] at hi
      have e : UCHAR (ihash (E.slot (E.masterOf oindex) hash)) = i := by simpa using hi
      rw [← e]
      exact_mod_cast hlt
    · rw [if_neg hlt] at hi
      exact absurd hi (by simp)

/-- C38: when the names of the inherited programs are pairwise distinct and
the byte of the cache is not negative as a `char` (the type `char` is
unsigned, or the byte is below 128), `instanceof` returns what the search of
the inherit list without the cache returns, 1 for a public inherit, -1 for a
private one and 0 for none, and the test of the cache reads no element of
`inherits` at an index of `ninherits` or more. With a signed `char` and a
byte of 128 or more this fails: the test `*h < ctrl->ninherits` compares the
negative `char`, the element read is the one at `UCHAR(*h)`. In the example
the object has two inherits, "a" and "b", the byte is 200 and the program
is "c": the element 200 is read, and as the memory there names an object
"c", the result is 1 where the search without the cache gives 0; with an
unsigned `char` the result is 0. -/
theorem instanceof_cache :
    (∀ (E : InstEnv) (ihash : Nat → Nat) (oindex : Nat) (prog : List Nat) (hash : Nat),
        (∀ i j, i < E.ninherits (E.masterOf oindex) → j < E.ninherits (E.masterOf oindex) →
          strcmpEq (E.name (E.inherits (E.masterOf oindex) i).oindex)
            (E.name (E.inherits (E.masterOf oindex) j).oindex) = true → i = j) →
        E.ninherits (E.masterOf oindex) < 32768 →
        (E.charSigned = false ∨ UCHAR (ihash (E.slot (E.masterOf oindex) hash)) < 128) →
        (instanceof E ihash oindex prog hash).1 = instanceofSpec E oindex prog
          ∧ ∀ i, instanceofProbe E ihash oindex hash = some i →
            i < E.ninherits (E.masterOf oindex))
    ∧ exInst.charSigned = true
    ∧ exInst.ninherits (exInst.masterOf 5) = 2
    ∧ (∀ i, i < 2 → ∀ j, j < 2 →
        strcmpEq (exInst.name (exInst.inherits (exInst.masterOf 5) i).oindex)
          (exInst.name (exInst.inherits (exInst.masterOf 5) j).oindex) = true → i = j)
    ∧ UCHAR (exIhash (exInst.slot (exInst.masterOf 5) 7)) = 200
    ∧ instanceofSpec exInst 5 [99, 0] = 0
    ∧ (instanceof exInst exIhash 5 [99, 0] 7).1 = 1
    ∧ (i_instanceof exInst exIhash 1 5 7).1 = 1
    ∧ (i_instancestr exInst exIhash 5 [99, 0]).1 = 1
    ∧ instanceofProbe exInst exIhash 5 7 = some 200
    ∧ (instanceof { exInst with charSigned := false } exIhash 5 [99, 0] 7).1 = 0
    ∧ instanceofProbe { exInst with charSigned := false } exIhash 5 7 = none := by
  refine ⟨?_, rfl, rfl, by decide, by decide, by decide, by decide, by decide, by decide,
    by decide, by decide, by decide⟩
  intro E ihash oindex prog hash hd hn hc
  exact instanceof_refines E ihash oindex prog hash hd hn hc

end Dgd

namespace Dgd

/-! ## Theorems: the stores to local and global variables -/

/-- C31: `i_store_local` and `i_store_global` charge their ticks and then
call `d_assign_var` (for a variable of a lightweight object `d_assign_elt`)
for the target variable when there is no verify operand, and with a verify
operand exactly when the variable holds a String whose handle is that of
the verify operand; otherwise they return after the ticks, with every value,
every element of an array and every reference count as before, and raise no
error. The local variable `k` is at `fp + k` for `k < 0` and at `argp + k`
for `k >= 0`; the global variable is the one `d_get_variable` returns for
the offset, or the element `2 + offset` of the lightweight object. -/
theorem i_store_verify (S : StoreEnv) (st : Interp) (f : Nat) (loc inherit index : Int)
    (val verify : Nat) :
    (loc < 0 → (localVar st f loc : Int) = (st.frame f).fp + loc ∨ (st.frame f).fp + loc < 0)
    ∧ (0 ≤ loc → (localVar st f loc : Int) = st.argp f + loc)
    ∧ i_store_local S st f loc val 0
        = S.assign_var (i_add_ticks st f 1) f (localVar st f loc) val
    ∧ ((st.mem (localVar st f loc)).type = .string
        ∧ (st.mem (localVar st f loc)).u = (st.mem verify).u →
      i_store_local S st f loc val verify
        = S.assign_var (i_add_ticks st f 1) f (localVar st f loc) val)
    ∧ (verify ≠ 0 → ¬ ((st.mem (localVar st f loc)).type = .string
        ∧ (st.mem (localVar st f loc)).u = (st.mem verify).u) →
      i_store_local S st f loc val verify = i_add_ticks st f 1)
    ∧ ((st.frame f).lwobj = 0 →
      i_store_global S st f inherit index val 0
          = S.assign_var (i_add_ticks st f 5) f
            (S.d_get_variable f (globalOffset S f inherit index)) val
      ∧ ((st.mem (S.d_get_variable f (globalOffset S f inherit index))).type = .string
          ∧ (st.mem (S.d_get_variable f (globalOffset S f inherit index))).u
            = (st.mem verify).u →
        i_store_global S st f inherit index val verify
          = S.assign_var (i_add_ticks st f 5) f
            (S.d_get_variable f (globalOffset S f inherit index)) val)
      ∧ (verify ≠ 0 →
        ¬ ((st.mem (S.d_get_variable f (globalOffset S f inherit index))).type = .string
          ∧ (st.mem (S.d_get_variable f (globalOffset S f inherit index))).u
            = (st.mem verify).u) →
        i_store_global S st f inherit index val verify = i_add_ticks st f 5))
    ∧ ((st.frame f).lwobj ≠ 0 →
      i_store_global S st f inherit index val 0
          = S.assign_elt (i_add_ticks st f 5) f (st.frame f).lwobj
            (2 + globalOffset S f inherit index) val
      ∧ ((st.elts (st.frame f).lwobj (2 + globalOffset S f inherit index)).type = .string
          ∧ (st.elts (st.frame f).lwobj (2 + globalOffset S f inherit index)).u
            = (st.mem verify).u →
        i_store_global S st f inherit index val verify
          = S.assign_elt (i_add_ticks st f 5) f (st.frame f).lwobj
            (2 + globalOffset S f inherit index) val)
      ∧ (verify ≠ 0 →
        ¬ ((st.elts (st.frame f).lwobj (2 + globalOffset S f inherit index)).type = .string
          ∧ (st.elts (st.frame f).lwobj (2 + globalOffset S f inherit index)).u
            = (st.mem verify).u) →
        i_store_global S st f inherit index val verify = i_add_ticks st f 5))
    ∧ (∀ t : Int, (i_add_ticks st f t).mem = st.mem ∧ (i_add_ticks st f t).elts = st.elts
        ∧ (i_add_ticks st f t).strRef = st.strRef ∧ (i_add_ticks st f t).arrRef = st.arrRef
        ∧ (i_add_ticks st f t).frame = st.frame ∧ (i_add_ticks st f t).argp = st.argp) := by
  have hm : ∀ t : Int, (i_add_ticks st f t).mem = st.mem := fun _ => rfl
  have hfr : ∀ t : Int, (i_add_ticks st f t).frame = st.frame := fun _ => rfl
  have he : ∀ t : Int, (i_add_ticks st f t).elts = st.elts := fun _ => rfl
  have hlv : ∀ t : Int, localVar (i_add_ticks st f t) f loc = localVar st f loc := fun _ => rfl
  refine ⟨?_, ?_, ?_, ?_, ?_, ?_, ?_, fun t => ⟨rfl, rfl, rfl, rfl, rfl, rfl⟩⟩
  · intro h
    unfold localVar
    rw [if_pos h]
    omega
  · intro h
    unfold localVar
    rw [if_neg (by omega)]
    omega
  · simp only [i_store_local, hlv, true_or, if_true]
  · intro h
    simp only [i_store_local, hlv, hm, h, and_self, or_true, if_true]
  · intro hv h
    simp only [i_store_local, hlv, hm, hv, false_or, h, if_false]
  · intro hl
    refine ⟨?_, ?_, ?_⟩
    · simp only [i_store_global, hfr, hl, true_or, if_true]
    · intro h
      simp only [i_store_global, hfr, hm, hl, h, and_self, or_true, if_true]
    · intro hv h
      simp only [i_store_global, hfr, hm, hl, hv, false_or, h, if_false, if_true]
  · intro hl
    refine ⟨?_, ?_, ?_⟩
    · simp only [i_store_global, hfr, hl, true_or, if_true, if_false]
    · intro h
      simp only [i_store_global, hfr, hm, he, hl, h, and_self, or_true, if_true, if_false]
    · intro hv h
      simp only [i_store_global, hfr, hm, he, hl, hv, false_or, h, if_false]

theorem i_store_verify_witness :
    localVar exStrings 1 (-2) = 106
    ∧ (exStrings.mem 106).type = .string ∧ (exStrings.mem 106).u = (exStrings.mem 300).u
    ∧ (exStrings.mem 106).u ≠ (exStrings.mem 303).u
    ∧ (i_store_local exStore exStrings 1 (-2) 302 300).mem 106 = exStrings.mem 302
    ∧ (i_store_local exStore exStrings 1 (-2) 302 303).mem 106 = exStrings.mem 106
    ∧ (i_store_local exStore exStrings 1 (-2) 302 0).mem 106 = exStrings.mem 302 := by
  obtain ⟨_, _, h3, h4, _, _, _, _⟩ := i_store_verify exStore exStrings 1 (-2) 0 0 302 300
  obtain ⟨_, _, _, _, g5, _, _, _⟩ := i_store_verify exStore exStrings 1 (-2) 0 0 302 303
  refine ⟨by decide, by decide, by decide, by decide, ?_, ?_, ?_⟩
  · rw [h4 ⟨by decide, by decide⟩]
    decide
  · rw [g5 (by decide) (by decide)]
    decide
  · rw [h3]
    decide

end Dgd

namespace Dgd

/-! ## Theorems: the indexed store -/

theorem getD_set_self (l : List Nat) (i c : Nat) (hi : i < l.length) :
    (l.set i c).getD i 0 = c := by
  rw [List.getD_eq_getElem?_getD, List.getElem?_set_self hi]
  rfl

theorem getD_set_ne (l : List Nat) (i j c : Nat) (hij : j ≠ i) :
    (l.set i c).getD j 0 = l.getD j 0 := by
  rw [List.getD_eq_getElem?_getD, List.getD_eq_getElem?_getD, List.getElem?_set_ne (Ne.symm hij)]

/-- The indexed store to a string with a valid index: a new string with one
byte changed, delivered in `var`. -/
theorem i_store_index_copy (S : StoreEnv) (st : Interp) (f var aval ival val i : Nat)
    (ha : (st.mem aval).type = .string) (hi : (st.mem ival).type = .int)
    (hv : (st.mem val).type = .int)
    (hidx : S.str_index (i_add_ticks st f 3) (st.mem aval).u (st.mem ival).number = .ok i)
    (hlen : i < (st.strText (st.mem aval).u).length) (hnew : S.str ≠ (st.mem aval).u) :
    ∃ st1, i_store_index S st f var aval ival val = .ok (true, st1)
      ∧ (st1.mem var).type = .string ∧ (st1.mem var).u = S.str
      ∧ (st1.strText S.str).length = (st.strText (st.mem aval).u).length
      ∧ (st1.strText S.str).getD i 0 = ((st.mem val).number % 256).toNat
      ∧ (∀ j, j ≠ i →
          (st1.strText S.str).getD j 0 = (st.strText (st.mem aval).u).getD j 0)
      ∧ (∀ s, s ≠ S.str → st1.strText s = st.strText s)
      ∧ st1.strText (st.mem aval).u = st.strText (st.mem aval).u
      ∧ (∀ a, a ≠ var → st1.mem a = st.mem a)
      ∧ st1.strRef S.str = 1
      ∧ (∀ s, s ≠ S.str → st1.strRef s = st.strRef s) := by
  have hm : (i_add_ticks st f 3).mem = st.mem := rfl
  have ht : (i_add_ticks st f 3).strText = st.strText := rfl
  have hr : (i_add_ticks st f 3).strRef = st.strRef := rfl
  have e : i_store_index S st f var aval ival val
      = .ok (true, PUT_STRVAL ((str_new (i_add_ticks st f 3) S.str
          (st.strText (st.mem aval).u) (st.strText (st.mem aval).u).length).setText S.str i
            (st.mem val).number) var S.str) := by
    unfold i_store_index
    simp only [hm, ht, ha, hi, hv, ne_eq, not_true_eq_false, if_false, hidx]
    rfl
  refine ⟨_, e, ?_, ?_, ?_, ?_, ?_, ?_, ?_, ?_, ?_, ?_⟩
  · simp [PUT_STRVAL, Interp.wrVal, str_ref]
  · simp [PUT_STRVAL, Interp.wrVal, str_ref]
  · simp [PUT_STRVAL, Interp.wrVal, str_ref, Interp.setText, str_new, ht]
  · simp only [PUT_STRVAL, Interp.wrVal, str_ref, Interp.setText, str_new, ht,
      Function.update_same]
    rw [getD_set_self]
    simp only [List.take_length]
    exact hlen
  · intro j hj
    simp only [PUT_STRVAL, Interp.wrVal, str_ref, Interp.setText, str_new, ht,
      Function.update_same]
    rw [getD_set_ne _ _ _ _ hj, List.take_length]
  · intro s hs
    simp only [PUT_STRVAL, Interp.wrVal, str_ref, Interp.setText, str_new, ht]
    rw [Function.update_noteq hs, Function.update_noteq hs]
  · simp only [PUT_STRVAL, Interp.wrVal, str_ref, Interp.setText, str_new, ht]
    rw [Function.update_noteq (Ne.symm hnew), Function.update_noteq (Ne.symm hnew)]
  · intro a hav
    simp only [PUT_STRVAL, Interp.wrVal, str_ref, Interp.setText, str_new, hm]
    rw [Function.update_noteq hav, Function.update_noteq hav]
  · simp [PUT_STRVAL, Interp.wrVal, str_ref, Interp.setText, str_new]
  · intro s hs
    simp only [PUT_STRVAL, Interp.wrVal, str_ref, Interp.setText, str_new, hr]
    rw [Function.update_noteq hs, Function.update_noteq hs]

/-- C32: for a String target, an Int index that `str_index` accepts and an
Int value `c`, `i_store_index` returns TRUE and delivers in `var` a String
with the new handle that `str_new` has returned, of the length of the target
string and with its bytes but for the byte at the index, which is the low 8
bits of `c`; no other string changes, so the target string keeps its bytes,
and no value but `var` changes. With an index that is not an Int it raises
"Non-numeric string index", and with an Int index and a value that is not an
Int "Non-numeric value in indexed string assignment". For an Array or a
Mapping target it never returns TRUE: it returns FALSE when `arr_index`, for
an Int index, or `map_index` returns, and raises an error otherwise. -/
theorem i_store_index_string (S : StoreEnv) (st : Interp) (f var aval ival val : Nat) :
    ((st.mem aval).type = .string → (st.mem ival).type = .int → (st.mem val).type = .int →
      ∀ i, S.str_index (i_add_ticks st f 3) (st.mem aval).u (st.mem ival).number = .ok i →
        i < (st.strText (st.mem aval).u).length → S.str ≠ (st.mem aval).u →
        ∃ st1, i_store_index S st f var aval ival val = .ok (true, st1)
          ∧ (st1.mem var).type = .string ∧ (st1.mem var).u = S.str
          ∧ (st1.strText S.str).length = (st.strText (st.mem aval).u).length
          ∧ (st1.strText S.str).getD i 0 = ((st.mem val).number % 256).toNat
          ∧ (∀ j, j ≠ i →
              (st1.strText S.str).getD j 0 = (st.strText (st.mem aval).u).getD j 0)
          ∧ (∀ s, s ≠ S.str → st1.strText s = st.strText s)
          ∧ st1.strText (st.mem aval).u = st.strText (st.mem aval).u
          ∧ (∀ a, a ≠ var → st1.mem a = st.mem a)
          ∧ st1.strRef S.str = 1
          ∧ (∀ s, s ≠ S.str → st1.strRef s = st.strRef s))
    ∧ ((st.mem aval).type = .string → (st.mem ival).type ≠ .int →
        i_store_index S st f var aval ival val
          = .error ("Non-numeric string index", i_add_ticks st f 3))
    ∧ ((st.mem aval).type = .string → (st.mem ival).type = .int → (st.mem val).type ≠ .int →
        i_store_index S st f var aval ival val
          = .error ("Non-numeric value in indexed string assignment", i_add_ticks st f 3))
    ∧ ((st.mem aval).type = .array ∨ (st.mem aval).type = .mapping →
        ∀ st1, i_store_index S st f var aval ival val ≠ .ok (true, st1))
    ∧ ((st.mem aval).type = .array → (st.mem ival).type = .int →
        ∀ i, S.arr_index (i_add_ticks st f 3) (st.mem aval).u (st.mem ival).number = .ok i →
          ∃ st1, i_store_index S st f var aval ival val = .ok (false, st1))
    ∧ ((st.mem aval).type = .mapping →
        ∀ s1, S.map_index (i_add_ticks st f 3) f (st.mem aval).u ival val
            (if (st.mem var).type ≠ .string then 0 else var) = .ok s1 →
          ∃ st1, i_store_index S st f var aval ival val = .ok (false, st1)) := by
  have hm : (i_add_ticks st f 3).mem = st.mem := rfl
  refine ⟨?_, ?_, ?_, ?_, ?_, ?_⟩
  · intro ha hi hv i hidx hlen hnew
    exact i_store_index_copy S st f var aval ival val i ha hi hv hidx hlen hnew
  · intro ha hi
    unfold i_store_index
    simp only [hm, ha, hi, ne_eq, not_false_eq_true, if_true]
  · intro ha hi hv
    unfold i_store_index
    simp only [hm, ha, hi, hv, ne_eq, not_true_eq_false, not_false_eq_true, if_true, if_false]
  · intro ha st1
    rcases ha with ha | ha
    · unfold i_store_index
      simp only [hm, ha]
      by_cases hi : (st.mem ival).type = .int
      · simp only [hi, ne_eq, not_true_eq_false, if_false]
        cases S.arr_index (i_add_ticks st f 3) (st.mem aval).u (st.mem ival).number with
        | error msg => simp
        | ok i => simp
      · simp only [ne_eq, hi, not_false_eq_true, if_true]
        simp
    · unfold i_store_index
      simp only [hm, ha]
      cases S.map_index (i_add_ticks st f 3) f (st.mem aval).u ival val
          (if (st.mem var).type ≠ .string then 0 else var) with
      | error e => simp
      | ok s1 => simp
  · intro ha hi i hidx
    unfold i_store_index
    simp only [hm, ha, hi, ne_eq, not_true_eq_false, if_false, hidx]
    exact ⟨_, rfl⟩
  · intro ha s1 hs
    unfold i_store_index
    simp only [hm, ha, hs]
    exact ⟨_, rfl⟩

theorem i_store_index_string_witness :
    (exStrings.mem 106).type = .string ∧ exStrings.strText (exStrings.mem 106).u = [97, 98, 99]
    ∧ (exStrings.mem 301).number = 1 ∧ (exStrings.mem 302).number = 120
    ∧ ∃ st1, i_store_index exStore exStrings 1 300 106 301 302 = .ok (true, st1)
      ∧ (st1.mem 300).type = .string ∧ (st1.mem 300).u = 6
      ∧ (st1.strText 6).length = 3
      ∧ (st1.strText 6).getD 1 0 = 120
      ∧ (∀ j, j ≠ 1 → (st1.strText 6).getD j 0 = [97, 98, 99].getD j 0)
      ∧ st1.strText 5 = [97, 98, 99] := by
  obtain ⟨h1, _⟩ := i_store_index_string exStore exStrings 1 300 106 301 302
  obtain ⟨st1, e, g1, g2, g3, g4, g5, _, g7, _⟩ := h1 (by decide) (by decide) (by decide) 1
    rfl (by decide) (by decide)
  exact ⟨by decide, by decide, by decide, by decide, st1, e, g1, g2, g3, g4, g5, g7⟩

end Dgd

namespace Dgd

/-! ## `i_aggregate` -/

/-- The loop of `i_aggregate` over `k` values from `v`: the value at `v`
goes to the element `e - 1` of the array, the next one to the element below,
and so on; no value, no frame and no reference count is changed. -/
theorem aggregateLoop_fields (a : Nat) : ∀ (k : Nat) (st : Interp) (e v : Nat), k ≤ e →
    (aggregateLoop a k st e v).2 = v + k
    ∧ (aggregateLoop a k st e v).1.mem = st.mem
    ∧ (aggregateLoop a k st e v).1.frame = st.frame
    ∧ (∀ i, (aggregateLoop a k st e v).1.elts a i
        = if e - k ≤ i ∧ i < e then st.mem (v + (e - 1 - i)) else st.elts a i)
    ∧ (∀ b, b ≠ a → (aggregateLoop a k st e v).1.elts b = st.elts b)
    ∧ (∀ b, b ≠ a → (aggregateLoop a k st e v).1.elt0 b = st.elt0 b)
    ∧ (aggregateLoop a k st e v).1.strRef = st.strRef
    ∧ (aggregateLoop a k st e v).1.arrRef = st.arrRef
    ∧ (aggregateLoop a k st e v).1.arrSize = st.arrSize
    ∧ (aggregateLoop a k st e v).1.objCount = st.objCount
    ∧ (aggregateLoop a k st e v).1.stricttc = st.stricttc
    ∧ (aggregateLoop a k st e v).1.stack0 = st.stack0 := by
  intro k
  induction k with
  | zero =>
    intro st e v _
    refine ⟨rfl, rfl, rfl, fun i => ?_, fun _ _ => rfl, fun _ _ => rfl, rfl, rfl, rfl, rfl,
      rfl, rfl⟩
    rw [if_neg (by omega)]
    rfl
  | succ k ih =>
    intro st e v hk
    have e1 : aggregateLoop a (k + 1) st e v
        = aggregateLoop a k (st.setElt a (e - 1) (st.mem v)) (e - 1) (v + 1) := rfl
    rw [e1]
    obtain ⟨i1, i2, i3, i4, i5, i6, i7, i8, i9, i10, i11, i12⟩ :=
      ih (st.setElt a (e - 1) (st.mem v)) (e - 1) (v + 1) (by omega)
    refine ⟨by rw [i1]; omega, i2, i3, fun i => ?_, fun b hb => ?_, fun b hb => ?_, i7, i8, i9,
      i10, i11, i12⟩
    · rw [i4 i]
      simp only [setElt_mem, setElt_elts, Function.update_same]
      by_cases h1 : e - 1 - k ≤ i ∧ i < e - 1
      · rw [if_pos h1, if_pos (by omega)]
        congr 1
        omega
      · rw [if_neg h1]
        by_cases h2 : i = e - 1
        · rw [h2, Function.update_same, if_pos (by omega)]
          congr 1
          omega
        · rw [Function.update_noteq h2, if_neg (by omega)]
    · rw [i5 b hb, setElt_elts, Function.update_noteq hb]
    · rw [i6 b hb]
      show (if e - 1 = 0 then Function.update st.elt0 a (st.mem v) else st.elt0) b = _
      split
      · rw [Function.update_noteq hb]
      · rfl

/-- The state after `i_aggregate(f, N)`, field by field: the `N` values on
top of the stack are the elements of the new array, the value on top last,
and the array is on the stack in their place, with one reference. -/
theorem i_aggregate_fields (a : Nat) (st : Interp) (f N : Nat) :
    (i_aggregate a st f N).frame
      = Function.update st.frame f { st.frame f with sp := (st.frame f).sp + N - 1 }
    ∧ (i_aggregate a st f N).mem
      = Function.update st.mem ((st.frame f).sp + N - 1)
          { st.mem ((st.frame f).sp + N - 1) with u := a, type := .array }
    ∧ (∀ i, i < N → (i_aggregate a st f N).elts a i = st.mem ((st.frame f).sp + (N - 1 - i)))
    ∧ (∀ b, b ≠ a → (i_aggregate a st f N).elts b = st.elts b)
    ∧ (∀ b, b ≠ a → (i_aggregate a st f N).elt0 b = st.elt0 b)
    ∧ (i_aggregate a st f N).strRef = st.strRef
    ∧ (i_aggregate a st f N).arrRef = Function.update st.arrRef a 1
    ∧ (i_aggregate a st f N).arrSize = Function.update st.arrSize a N
    ∧ (i_aggregate a st f N).objCount = st.objCount
    ∧ (i_aggregate a st f N).stricttc = st.stricttc
    ∧ (i_aggregate a st f N).stack0 = st.stack0 := by
  by_cases hN : N = 0
  · subst hN
    have e : i_aggregate a st f 0 = PUSH_ARRVAL (arr_new st a 0) f a := by
      unfold i_aggregate
      rw [if_pos rfl]
    rw [e]
    refine ⟨?_, ?_, fun i hi => absurd hi (Nat.not_lt_zero _), fun _ _ => rfl, fun _ _ => rfl,
      rfl, ?_, rfl, rfl, rfl, rfl⟩
    · rw [PUSH_ARRVAL_frame]
      rfl
    · rw [PUSH_ARRVAL_mem]
      rfl
    · rw [PUSH_ARRVAL_arrRef, arr_new_arrRef, Function.update_same, Function.update_idem]
      rfl
  · obtain ⟨i1, i2, i3, i4, i5, i6, i7, i8, i9, i10, i11, i12⟩ :=
      aggregateLoop_fields a N (arr_new (i_add_ticks st f N) a N) N (st.frame f).sp (le_refl _)
    have e : i_aggregate a st f N
        = PUSH_ARRVAL ((aggregateLoop a N (arr_new (i_add_ticks st f N) a N) N
            (st.frame f).sp).1.setSp f
              (aggregateLoop a N (arr_new (i_add_ticks st f N) a N) N (st.frame f).sp).2) f a := by
      unfold i_aggregate
      rw [if_neg hN]
      rfl
    rw [e]
    have hsp : (((aggregateLoop a N (arr_new (i_add_ticks st f N) a N) N
        (st.frame f).sp).1.setSp f
          (aggregateLoop a N (arr_new (i_add_ticks st f N) a N) N (st.frame f).sp).2).frame f).sp
        = (st.frame f).sp + N := by
      rw [setSp_frame, Function.update_same, i1]
    refine ⟨?_, ?_, fun i hi => ?_, fun b hb => ?_, fun b hb => ?_, ?_, ?_, ?_, ?_, ?_, ?_⟩
    · rw [PUSH_ARRVAL_frame, hsp, setSp_frame, Function.update_same, Function.update_idem, i3]
      rfl
    · rw [PUSH_ARRVAL_mem, hsp, setSp_mem, i2]
      rfl
    · rw [PUSH_ARRVAL_elts, setSp_elts, i4 i, if_pos (by omega)]
      rfl
    · rw [PUSH_ARRVAL_elts, setSp_elts, i5 b hb]
      rfl
    · rw [PUSH_ARRVAL_elt0, setSp_elt0, i6 b hb]
      rfl
    · rw [PUSH_ARRVAL_strRef, setSp_strRef, i7]
      rfl
    · rw [PUSH_ARRVAL_arrRef, setSp_arrRef, i8, arr_new_arrRef, Function.update_same,
        Function.update_idem]
      rfl
    · rw [PUSH_ARRVAL_arrSize, setSp_arrSize, i9]
      rfl
    · rw [PUSH_ARRVAL_objCount, setSp_objCount, i10]
      rfl
    · rw [PUSH_ARRVAL_stricttc, setSp_stricttc, i11]
      rfl
    · rw [PUSH_ARRVAL_stack0, setSp_stack0, i12]
      rfl

end Dgd

namespace Dgd

/-! ## `i_spread1` -/

/-- The state after `i_push_value` for a value that is not in the memory of
values, field by field. -/
theorem i_push_elt_fields (st : Interp) (f : Nat) (v : Value) :
    (i_push_elt st f v).frame = Function.update st.frame f
        { st.frame f with sp := (st.frame f).sp - 1 }
    ∧ (i_push_elt st f v).mem = Function.update st.mem ((st.frame f).sp - 1)
        (if st.refersDestructed v then nil_value st.stricttc else v)
    ∧ (∀ s, (i_push_elt st f v).strRef s = st.strRef s
        + (if ¬ st.refersDestructed v ∧ v.refsStr s then 1 else 0))
    ∧ (∀ a, (i_push_elt st f v).arrRef a = st.arrRef a
        + (if ¬ st.refersDestructed v ∧ v.refsArr a then 1 else 0)) := by
  have hsp : ((st.setSp f ((st.frame f).sp - 1)).frame f).sp = (st.frame f).sp - 1 := by
    simp
  unfold i_push_elt
  simp only [hsp, wrVal_frame]
  cases ht : v.type
  case string =>
    simp only [Interp.refersDestructed, Value.refsStr, Value.refsArr, ht, reduceCtorEq,
      decide_False, decide_True, Bool.false_and, Bool.true_and, Bool.or_false, Bool.false_or,
      Bool.false_eq_true, if_false, not_false_eq_true, true_and, false_and, and_false,
      Int.add_zero, decide_eq_true_eq]
    refine ⟨rfl, rfl, fun s => ?_, fun a => rfl⟩
    show Function.update st.strRef v.u (st.strRef v.u + 1) s = _
    by_cases e : v.u = s
    · rw [if_pos e, ← e, Function.update_same]
    · rw [if_neg e, Function.update_noteq (Ne.symm e)]
      omega
  case array =>
    simp only [Interp.refersDestructed, Value.refsStr, Value.refsArr, ht, reduceCtorEq,
      decide_False, decide_True, Bool.false_and, Bool.true_and, Bool.or_false, Bool.false_or,
      Bool.or_true, Bool.true_or,
      Bool.false_eq_true, if_false, not_false_eq_true, true_and, false_and, and_false,
      Int.add_zero, decide_eq_true_eq]
    refine ⟨rfl, rfl, fun s => rfl, fun a => ?_⟩
    show Function.update st.arrRef v.u (st.arrRef v.u + 1) a = _
    by_cases e : v.u = a
    · rw [if_pos e, ← e, Function.update_same]
    · rw [if_neg e, Function.update_noteq (Ne.symm e)]
      omega
  case mapping =>
    simp only [Interp.refersDestructed, Value.refsStr, Value.refsArr, ht, reduceCtorEq,
      decide_False, decide_True, Bool.false_and, Bool.true_and, Bool.or_false, Bool.false_or,
      Bool.or_true, Bool.true_or,
      Bool.false_eq_true, if_false, not_false_eq_true, true_and, false_and, and_false,
      Int.add_zero, decide_eq_true_eq]
    refine ⟨rfl, rfl, fun s => rfl, fun a => ?_⟩
    show Function.update st.arrRef v.u (st.arrRef v.u + 1) a = _
    by_cases e : v.u = a
    · rw [if_pos e, ← e, Function.update_same]
    · rw [if_neg e, Function.update_noteq (Ne.symm e)]
      omega
  case object =>
    have hd : st.refersDestructed v = DESTRUCTED st v := by
      simp [Interp.refersDestructed, ht]
    have hd1 : DESTRUCTED ((st.setSp f ((st.frame f).sp - 1)).wrVal ((st.frame f).sp - 1)
        v) v = DESTRUCTED st v := rfl
    simp only [hd, hd1, Value.refsStr, Value.refsArr, ht, reduceCtorEq, decide_False,
      Bool.false_and, Bool.false_or, Bool.false_eq_true, and_false, if_false, Int.add_zero]
    by_cases hdes : DESTRUCTED st v = true
    · simp only [hdes, if_true]
      refine ⟨rfl, ?_, fun s => rfl, fun a => rfl⟩
      simp only [wrVal_mem, setSp_mem, setSp_frame, Function.update_same, Function.update_idem,
        wrVal_stricttc, setSp_stricttc]
    · simp only [hdes, if_false]
      exact ⟨rfl, rfl, fun s => rfl, fun a => rfl⟩
  case lwobject =>
    have hd : st.refersDestructed v
        = (decide ((st.elt0 v.u).type = .object)
            && DESTRUCTED st (st.elt0 v.u)) := by
      simp [Interp.refersDestructed, ht]
    have hd1 : ∀ x, DESTRUCTED ((st.setSp f ((st.frame f).sp - 1)).wrVal ((st.frame f).sp - 1)
        v) x = DESTRUCTED st x := fun _ => rfl
    simp only [hd, hd1, wrVal_elt0, setSp_elt0, Value.refsStr, Value.refsArr, ht, reduceCtorEq,
      decide_False, decide_True, Bool.false_and, Bool.true_and, Bool.false_or, Bool.or_true,
      Bool.false_eq_true, and_false, if_false, Int.add_zero, decide_eq_true_eq]
    by_cases hdes : (decide ((st.elt0 v.u).type = .object)
        && DESTRUCTED st (st.elt0 v.u)) = true
    · simp only [hdes, if_true, not_true_eq_false, false_and, if_false, Int.add_zero]
      refine ⟨rfl, ?_, fun s => rfl, fun a => rfl⟩
      simp only [wrVal_mem, setSp_mem, setSp_frame, Function.update_same, Function.update_idem,
        wrVal_stricttc, setSp_stricttc]
    · simp only [hdes, if_false, not_false_eq_true, true_and, Bool.false_eq_true]
      refine ⟨rfl, rfl, fun s => rfl, fun a => ?_⟩
      show Function.update st.arrRef v.u (st.arrRef v.u + 1) a = _
      by_cases e : v.u = a
      · rw [if_pos e, ← e, Function.update_same]
      · rw [if_neg e, Function.update_noteq (Ne.symm e)]
        omega
  all_goals
    simp only [Interp.refersDestructed, Value.refsStr, Value.refsArr, ht, reduceCtorEq,
      decide_False, Bool.false_and, Bool.or_false, Bool.false_or, Bool.false_eq_true,
      if_false, and_false, Int.add_zero]
    exact ⟨rfl, rfl, fun s => rfl, fun a => rfl⟩

end Dgd

namespace Dgd

/-! ## `i_spread1`: the loop and the release of the array -/

theorem i_push_elt_light (st : Interp) (f : Nat) (v : Value) :
    (i_push_elt st f v).elts = st.elts ∧ (i_push_elt st f v).elt0 = st.elt0
    ∧ (i_push_elt st f v).objCount = st.objCount
    ∧ (i_push_elt st f v).stricttc = st.stricttc
    ∧ (i_push_elt st f v).arrSize = st.arrSize
    ∧ (i_push_elt st f v).stack0 = st.stack0 := by
  unfold i_push_elt
  cases v.type
  case object => simp only []; split <;> exact ⟨rfl, rfl, rfl, rfl, rfl, rfl⟩
  case lwobject => simp only []; split <;> exact ⟨rfl, rfl, rfl, rfl, rfl, rfl⟩
  all_goals exact ⟨rfl, rfl, rfl, rfl, rfl, rfl⟩

theorem refersDestructed_congr (s st : Interp) (v : Value) (h1 : s.elt0 = st.elt0)
    (h2 : s.objCount = st.objCount) : s.refersDestructed v = st.refersDestructed v := by
  unfold Interp.refersDestructed DESTRUCTED
  rw [h1, h2]

theorem countP_range_succ_shift (p : Nat → Bool) (k : Nat) :
    (List.range (k + 1)).countP p
      = (if p 0 then 1 else 0) + (List.range k).countP (fun j => p (j + 1)) := by
  rw [List.range_succ_eq_map, List.countP_cons, List.countP_map]
  have : (p ∘ Nat.succ) = fun j => p (j + 1) := rfl
  rw [this]
  omega

theorem countP_range_succ_last (p : Nat → Bool) (k : Nat) :
    (List.range (k + 1)).countP p = (List.range k).countP p + (if p k then 1 else 0) := by
  rw [List.range_succ, List.countP_append]
  simp [List.countP_cons]

/-- The loop of `i_spread1` over `k` elements from the index `i`, none of
which refers to a destructed object: the elements are on the stack, the one
with the index `i` pushed first, each with one more reference. -/
theorem spreadLoop_fields (f a : Nat) : ∀ (k : Nat) (st : Interp) (i : Nat),
    k ≤ (st.frame f).sp →
    (∀ j, j < k → st.refersDestructed (st.elts a (i + j)) = false) →
    (spreadLoop f a k st i).frame
      = Function.update st.frame f { st.frame f with sp := (st.frame f).sp - k }
    ∧ (∀ x, (spreadLoop f a k st i).mem x
        = if (st.frame f).sp - k ≤ x ∧ x < (st.frame f).sp then
            st.elts a (i + ((st.frame f).sp - 1 - x))
          else st.mem x)
    ∧ (∀ s, (spreadLoop f a k st i).strRef s
        = st.strRef s + ((List.range k).countP (fun j => (st.elts a (i + j)).refsStr s) : Nat))
    ∧ (∀ h, (spreadLoop f a k st i).arrRef h
        = st.arrRef h + ((List.range k).countP (fun j => (st.elts a (i + j)).refsArr h) : Nat))
    ∧ (spreadLoop f a k st i).elts = st.elts
    ∧ (spreadLoop f a k st i).elt0 = st.elt0
    ∧ (spreadLoop f a k st i).objCount = st.objCount
    ∧ (spreadLoop f a k st i).stricttc = st.stricttc
    ∧ (spreadLoop f a k st i).arrSize = st.arrSize := by
  intro k
  induction k with
  | zero =>
    intro st i _ _
    refine ⟨?_, fun x => ?_, fun s => ?_, fun h => ?_, rfl, rfl, rfl, rfl, rfl⟩
    · show st.frame = _
      exact (Function.update_eq_self f st.frame).symm
    · rw [if_neg (by omega)]
      rfl
    · simp [spreadLoop]
    · simp [spreadLoop]
  | succ k ih =>
    intro st i hk hlive
    have e : spreadLoop f a (k + 1) st i
        = spreadLoop f a k (i_push_elt st f (st.elts a i)) (i + 1) := rfl
    rw [e]
    obtain ⟨p1, p2, p3, p4⟩ := i_push_elt_fields st f (st.elts a i)
    obtain ⟨q1, q2, q3, q4, q5, q6⟩ := i_push_elt_light st f (st.elts a i)
    have hl0 : st.refersDestructed (st.elts a i) = false := by
      have := hlive 0 (Nat.succ_pos _)
      simpa using this
    have hsp : ((i_push_elt st f (st.elts a i)).frame f).sp = (st.frame f).sp - 1 := by
      rw [p1, Function.update_same]
    obtain ⟨i1, i2, i3, i4, i5, i6, i7, i8, i9⟩ := ih (i_push_elt st f (st.elts a i)) (i + 1)
      (by rw [hsp]; omega)
      (by
        intro j hj
        rw [refersDestructed_congr _ st _ q2 q3, q1]
        have := hlive (j + 1) (by omega)
        rw [← this]
        congr 2
        omega)
    rw [hsp] at i1 i2
    rw [q1] at i2 i3 i4
    refine ⟨?_, fun x => ?_, fun s => ?_, fun h => ?_, i5.trans q1, i6.trans q2, i7.trans q3,
      i8.trans q4, i9.trans q5⟩
    · rw [i1, p1, Function.update_same, Function.update_idem]
      show Function.update st.frame f { st.frame f with sp := (st.frame f).sp - 1 - k } = _
      rw [Nat.sub_sub, Nat.add_comm 1 k]
    · rw [i2 x, p2, hl0]
      simp only [Bool.false_eq_true, if_false]
      by_cases h1 : (st.frame f).sp - 1 - k ≤ x ∧ x < (st.frame f).sp - 1
      · rw [if_pos h1, if_pos (by omega)]
        congr 1
        omega
      · rw [if_neg h1]
        by_cases h2 : x = (st.frame f).sp - 1
        · subst h2
          rw [Function.update_same, if_pos ⟨by omega, by omega⟩]
          congr 1
          omega
        · rw [Function.update_noteq h2, if_neg (by omega)]
    · rw [i3 s, p3 s, hl0, countP_range_succ_shift]
      have hidx : ∀ j, i + 1 + j = i + (j + 1) := fun j => by omega
      simp only [hidx, Nat.add_zero, Bool.false_eq_true, not_false_eq_true, true_and]
      split <;> push_cast <;> omega
    · rw [i4 h, p4 h, hl0, countP_range_succ_shift]
      have hidx : ∀ j, i + 1 + j = i + (j + 1) := fun j => by omega
      simp only [hidx, Nat.add_zero, Bool.false_eq_true, not_false_eq_true, true_and]
      split <;> push_cast <;> omega

theorem i_grow_stack_heap (MIN_STACK stk : Nat) (st : Interp) (f : Nat) (size : Int) :
    (i_grow_stack MIN_STACK stk st f size).strRef = st.strRef
    ∧ (i_grow_stack MIN_STACK stk st f size).arrRef = st.arrRef
    ∧ (i_grow_stack MIN_STACK stk st f size).elts = st.elts
    ∧ (i_grow_stack MIN_STACK stk st f size).elt0 = st.elt0
    ∧ (i_grow_stack MIN_STACK stk st f size).objCount = st.objCount
    ∧ (i_grow_stack MIN_STACK stk st f size).stricttc = st.stricttc
    ∧ (i_grow_stack MIN_STACK stk st f size).arrSize = st.arrSize := by
  unfold i_grow_stack
  dsimp only
  split_ifs <;> exact ⟨rfl, rfl, rfl, rfl, rfl, rfl, rfl⟩

end Dgd

namespace Dgd

/-! ## Theorems: `i_aggregate` followed by `i_spread1` -/

/-- Whether a value refers to a destructed object does not depend on the
element 0 of an array the value does not hold. -/
theorem refersDestructed_fresh (s st : Interp) (a : Nat) (v : Value)
    (h0 : ∀ b, b ≠ a → s.elt0 b = st.elt0 b) (h2 : s.objCount = st.objCount)
    (hv : v.refsArr a = false) : s.refersDestructed v = st.refersDestructed v := by
  unfold Interp.refersDestructed DESTRUCTED
  rw [h2]
  by_cases ht : v.type = .lwobject
  · have hne : v.u ≠ a := by
      intro e
      simp [Value.refsArr, ht, e] at hv
    rw [h0 v.u hne]
  · simp [ht]

/-- The state `i_aggregate(f, N)` and then `i_spread1(f, n)` with `n < 0`
leave, for `N` values none of which refers to a destructed object. -/
theorem aggregate_spread_spec (MIN_STACK stk a : Nat) (st : Interp) (f N : Nat) (n : Int)
    (hn : n < 0) (hinv : (st.frame f).stack ≤ (st.frame f).sp)
    (hN : (st.frame f).sp + N ≤ (st.frame f).fp)
    (hroom : N = 0 → (st.frame f).stack < (st.frame f).sp)
    (hlive : ∀ j, j < N → st.refersDestructed (st.mem ((st.frame f).sp + j)) = false)
    (hfresh : ∀ j, j < N → (st.mem ((st.frame f).sp + j)).refsArr a = false)
    (hrefs : ∀ h, ((List.range N).countP
      (fun j => (st.mem ((st.frame f).sp + j)).refsArr h) : Int) ≤ st.arrRef h) :
    ∃ s2, i_spread1 MIN_STACK stk (i_aggregate a st f N) f n = .ok ((N : Int) - 1, s2)
      ∧ (s2.frame f).fp - (s2.frame f).sp = (st.frame f).fp - (st.frame f).sp
      ∧ (s2.frame f).stack ≤ (s2.frame f).sp ∧ (s2.frame f).sp ≤ (s2.frame f).fp
      ∧ (∀ j, j < (st.frame f).fp - (st.frame f).sp →
          s2.mem ((s2.frame f).sp + j) = st.mem ((st.frame f).sp + j))
      ∧ s2.arrRef a = 0
      ∧ s2.strRef = st.strRef
      ∧ (∀ h, h ≠ a → s2.arrRef h = st.arrRef h)
      ∧ (¬ ((st.frame f).sp : Int) < (st.frame f).stack + MIN_STACK →
          s2.frame f = st.frame f) := by
  obtain ⟨a1, a2, a3, a4, a5, a6, a7, a8, a9, a10, a11⟩ := i_aggregate_fields a st f N
  have hpos : 0 < (st.frame f).sp + N := by
    by_cases h0 : N = 0
    · have := hroom h0
      omega
    · omega
  have hsp1 : ((i_aggregate a st f N).frame f).sp = (st.frame f).sp + N - 1 := by
    rw [a1, Function.update_same]
  have htop : (i_aggregate a st f N).mem ((st.frame f).sp + N - 1)
      = { st.mem ((st.frame f).sp + N - 1) with u := a, type := .array } := by
    rw [a2, Function.update_same]
  have htype : ((i_aggregate a st f N).mem ((st.frame f).sp + N - 1)).type = .array := by
    rw [htop]
  have hu : ((i_aggregate a st f N).mem ((st.frame f).sp + N - 1)).u = a := by
    rw [htop]
  have hsz : (i_aggregate a st f N).arrSize a = N := by
    rw [a8, Function.update_same]
  /- the state before the loop -/
  have e : i_spread1 MIN_STACK stk (i_aggregate a st f N) f n
      = .ok ((N : Int) - 1,
          arr_del (spreadLoop f a N
            (i_grow_stack MIN_STACK stk
              ((i_add_ticks (i_aggregate a st f N) f N).setSp f ((st.frame f).sp + N)) f N) 0)
            a) := by
    unfold i_spread1
    simp only [hsp1, htype, hu, ne_eq, not_true_eq_false, if_false, hn, if_true, hsz,
      i_add_ticks_frame, Int.toNat_ofNat]
    have : (st.frame f).sp + N - 1 + 1 = (st.frame f).sp + N := by omega
    rw [this]
  generalize ht2 : (i_add_ticks (i_aggregate a st f N) f N).setSp f ((st.frame f).sp + N) = t2
    at e
  have t2frame : t2.frame f = { st.frame f with sp := (st.frame f).sp + N } := by
    rw [← ht2, setSp_frame, Function.update_same, i_add_ticks_frame, a1, Function.update_same]
  have t2mem : t2.mem = (i_aggregate a st f N).mem := by rw [← ht2]; rfl
  have t2elts : t2.elts = (i_aggregate a st f N).elts := by rw [← ht2]; rfl
  have t2elt0 : t2.elt0 = (i_aggregate a st f N).elt0 := by rw [← ht2]; rfl
  have t2str : t2.strRef = st.strRef := by rw [← ht2]; exact a6
  have t2arr : t2.arrRef = Function.update st.arrRef a 1 := by rw [← ht2]; exact a7
  have t2obj : t2.objCount = st.objCount := by rw [← ht2]; exact a9
  have hinv2 : (t2.frame f).stack ≤ (t2.frame f).sp ∧ (t2.frame f).sp ≤ (t2.frame f).fp := by
    rw [t2frame]
    show (st.frame f).stack ≤ (st.frame f).sp + N ∧ (st.frame f).sp + N ≤ (st.frame f).fp
    omega
  obtain ⟨g1, g2, g3, g4, g5, _, g7⟩ := i_grow_stack_spec MIN_STACK stk t2 f N hinv2
  obtain ⟨k1, k2, k3, k4, k5, _, k7⟩ := i_grow_stack_heap MIN_STACK stk t2 f N
  generalize i_grow_stack MIN_STACK stk t2 f N = t3 at e g1 g2 g3 g4 g5 g7 k1 k2 k3 k4 k5 k7
  have t2sp : (t2.frame f).sp = (st.frame f).sp + N := by rw [t2frame]
  have t2fp : (t2.frame f).fp = (st.frame f).fp := by rw [t2frame]
  have t2stack : (t2.frame f).stack = (st.frame f).stack := by rw [t2frame]
  rw [t2sp, t2fp] at g4
  rw [t2sp, t2fp] at g5
  have hNsp : N ≤ (t3.frame f).sp := by omega
  have helt : ∀ j, j < N → t3.elts a j = st.mem ((st.frame f).sp + (N - 1 - j)) := by
    intro j hj
    rw [k3, t2elts, a3 j hj]
  have hlive3 : ∀ j, j < N → t3.refersDestructed (t3.elts a (0 + j)) = false := by
    intro j hj
    rw [Nat.zero_add, helt j hj]
    rw [refersDestructed_fresh t3 st a _ (fun b hb => by rw [k4, t2elt0, a5 b hb])
      (by rw [k5, t2obj]) (hfresh _ (by omega))]
    exact hlive _ (by omega)
  obtain ⟨l1, l2, l3, l4, l5, _, _, _, l9⟩ := spreadLoop_fields f a N t3 0 hNsp hlive3
  generalize spreadLoop f a N t3 0 = t4 at e l1 l2 l3 l4 l5 l9
  have hcntS : ∀ s, (List.range N).countP (fun j => (t3.elts a (0 + j)).refsStr s)
      = (List.range N).countP
          (fun j => (st.mem ((st.frame f).sp + (N - 1 - j))).refsStr s) := by
    intro s
    apply List.countP_congr
    intro j hj
    rw [Nat.zero_add, helt j (List.mem_range.1 hj)]
  have hcntA : ∀ h, (List.range N).countP (fun j => (t3.elts a (0 + j)).refsArr h)
      = (List.range N).countP
          (fun j => (st.mem ((st.frame f).sp + (N - 1 - j))).refsArr h) := by
    intro h
    apply List.countP_congr
    intro j hj
    rw [Nat.zero_add, helt j (List.mem_range.1 hj)]
  have hcnt0 : (List.range N).countP
      (fun j => (st.mem ((st.frame f).sp + (N - 1 - j))).refsArr a) = 0 := by
    rw [List.countP_eq_zero]
    intro j hj
    rw [hfresh _ (by have := List.mem_range.1 hj; omega)]
    simp
  have f5 : (arr_del t4 a).frame f = { t3.frame f with sp := (t3.frame f).sp - N } := by
    rw [arr_del_frame, l1, Function.update_same]
  have t4size : t4.arrSize a = N := by
    rw [l9, k7, ← ht2]
    show (i_aggregate a st f N).arrSize a = N
    exact hsz
  have hconS : ∀ s, (contents t4 a).countP (Value.refsStr s)
      = (List.range N).countP
          (fun j => (st.mem ((st.frame f).sp + (N - 1 - j))).refsStr s) := by
    intro s
    unfold contents
    rw [t4size, List.countP_map]
    apply List.countP_congr
    intro j hj
    show (t4.elts a j).refsStr s = true ↔ _
    rw [l5, helt j (List.mem_range.1 hj)]
  have hconA : ∀ h, (contents t4 a).countP (Value.refsArr h)
      = (List.range N).countP
          (fun j => (st.mem ((st.frame f).sp + (N - 1 - j))).refsArr h) := by
    intro h
    unfold contents
    rw [t4size, List.countP_map]
    apply List.countP_congr
    intro j hj
    show (t4.elts a j).refsArr h = true ↔ _
    rw [l5, helt j (List.mem_range.1 hj)]
  have hS : ∀ s, t4.strRef s = st.strRef s
      + ((List.range N).countP
          (fun j => (st.mem ((st.frame f).sp + (N - 1 - j))).refsStr s) : Nat) := by
    intro s
    rw [l3 s, hcntS s, k1, t2str]
  have hA : ∀ h, h ≠ a → t4.arrRef h = st.arrRef h
      + ((List.range N).countP
          (fun j => (st.mem ((st.frame f).sp + (N - 1 - j))).refsArr h) : Nat) := by
    intro h hh
    rw [l4 h, hcntA h, k2, t2arr, Function.update_noteq hh]
  have hAa : t4.arrRef a = 1 := by
    rw [l4 a, hcntA a, hcnt0, k2, t2arr, Function.update_same]
    rfl
  /- a value that holds an array is one of its references -/
  have hpos : ∀ h, 0 < (List.range N).countP
      (fun j => (st.mem ((st.frame f).sp + (N - 1 - j))).refsArr h) → 0 < st.arrRef h := by
    intro h hc
    obtain ⟨j, hj, hp⟩ := List.countP_pos_iff.1 hc
    have hjN := List.mem_range.1 hj
    have : 0 < (List.range N).countP (fun j => (st.mem ((st.frame f).sp + j)).refsArr h) :=
      List.countP_pos_iff.2 ⟨N - 1 - j, List.mem_range.2 (by omega), hp⟩
    have := hrefs h
    omega
  obtain ⟨c1, c2, c3⟩ := arr_del_last_counts t4 a hAa (by
    intro h hh
    rw [hA h hh, hconA h]
    intro hc
    have := hpos h (by omega)
    omega)
  refine ⟨_, e, ?_, ?_, ?_, ?_, ?_, ?_, ?_, ?_⟩
  · rw [f5]
    show (t3.frame f).fp - ((t3.frame f).sp - N) = _
    omega
  · rw [f5]
    show (t3.frame f).stack ≤ (t3.frame f).sp - N
    omega
  · rw [f5]
    show (t3.frame f).sp - N ≤ (t3.frame f).fp
    omega
  · intro j hj
    rw [f5, arr_del_mem]
    show t4.mem ((t3.frame f).sp - N + j) = _
    rw [l2]
    by_cases hjN : j < N
    · rw [if_pos (by omega), Nat.zero_add, helt _ (by omega)]
      congr 1
      omega
    · rw [if_neg (by omega)]
      have e1 : (t3.frame f).sp - N + j = (t3.frame f).sp + (j - N) := by omega
      rw [e1, g5 (j - N) (by omega), t2mem, a2, Function.update_noteq (by omega)]
      congr 1
      omega
  · rw [c3, hconA a, hcnt0]
    rfl
  · funext s
    rw [c1 s, hconS s, hS s]
    omega
  · intro h hh
    rw [c2 h hh, hconA h, hA h hh]
    omega
  · intro hno
    have hno2 : ¬ ((t2.frame f).sp : Int) < (t2.frame f).stack + (N : Int) + MIN_STACK := by
      rw [t2sp, t2stack]
      push_cast
      omega
    have := g7 hno2
    rw [f5, this, t2frame]
    show { st.frame f with sp := (st.frame f).sp + N - N } = st.frame f
    rw [Nat.add_sub_cancel]

/-- C40, amended: let `N` values be on top of the stack of the frame `f`,
none of which is a destructed object or a lightweight object whose element 0
is a destructed object, and let `a` be the new array `arr_new` returns, which
none of them holds; every array has at least as many references as there are
slots among the `N` that hold it. `i_aggregate(f, N)` replaces the values by
the array `a` of size `N`, whose element `i` is the value that was
`N - 1 - i` slots below the top. A following `i_spread1(f, n)` with `n < 0`
returns `N - 1`: the stack of `f` has as many values as before
`i_aggregate`, the same values in the same order, the `N` values on top; the
array `a` has lost its last reference and its contents are released, and
every reference count of a string and of another array is the one before
`i_aggregate`. When the stack had `MIN_STACK` free slots the frame is as
before; otherwise `i_grow_stack` has moved the stack. -/
theorem i_aggregate_spread (MIN_STACK stk a : Nat) (st : Interp) (f N : Nat) (n : Int)
    (hn : n < 0) (hinv : (st.frame f).stack ≤ (st.frame f).sp)
    (hN : (st.frame f).sp + N ≤ (st.frame f).fp)
    (hroom : N = 0 → (st.frame f).stack < (st.frame f).sp)
    (hlive : ∀ j, j < N → st.refersDestructed (st.mem ((st.frame f).sp + j)) = false)
    (hfresh : ∀ j, j < N → (st.mem ((st.frame f).sp + j)).refsArr a = false)
    (hrefs : ∀ h, ((List.range N).countP
      (fun j => (st.mem ((st.frame f).sp + j)).refsArr h) : Int) ≤ st.arrRef h) :
    ((i_aggregate a st f N).frame f).sp + 1 = (st.frame f).sp + N
    ∧ ((i_aggregate a st f N).mem ((i_aggregate a st f N).frame f).sp).type = .array
    ∧ ((i_aggregate a st f N).mem ((i_aggregate a st f N).frame f).sp).u = a
    ∧ (i_aggregate a st f N).arrSize a = N
    ∧ (∀ i, i < N → (i_aggregate a st f N).elts a i = st.mem ((st.frame f).sp + (N - 1 - i)))
    ∧ ∃ s2, i_spread1 MIN_STACK stk (i_aggregate a st f N) f n = .ok ((N : Int) - 1, s2)
      ∧ (s2.frame f).fp - (s2.frame f).sp = (st.frame f).fp - (st.frame f).sp
      ∧ (s2.frame f).stack ≤ (s2.frame f).sp ∧ (s2.frame f).sp ≤ (s2.frame f).fp
      ∧ (∀ j, j < (st.frame f).fp - (st.frame f).sp →
          s2.mem ((s2.frame f).sp + j) = st.mem ((st.frame f).sp + j))
      ∧ s2.arrRef a = 0
      ∧ s2.strRef = st.strRef
      ∧ (∀ h, h ≠ a → s2.arrRef h = st.arrRef h)
      ∧ (¬ ((st.frame f).sp : Int) < (st.frame f).stack + MIN_STACK →
          s2.frame f = st.frame f) := by
  obtain ⟨a1, a2, a3, _, _, _, _, a8, _, _, _⟩ := i_aggregate_fields a st f N
  have hpos : 0 < (st.frame f).sp + N := by
    by_cases h0 : N = 0
    · have := hroom h0
      omega
    · omega
  have hsp1 : ((i_aggregate a st f N).frame f).sp = (st.frame f).sp + N - 1 := by
    rw [a1, Function.update_same]
  refine ⟨by rw [hsp1]; omega, ?_, ?_, by rw [a8, Function.update_same], a3,
    aggregate_spread_spec MIN_STACK stk a st f N n hn hinv hN hroom hlive hfresh hrefs⟩
  · rw [hsp1, a2, Function.update_same]
  · rw [hsp1, a2, Function.update_same]

theorem i_aggregate_spread_witness :
    exInterp.mem 106 = { type := .string, modified := false, oindex := 0, u := 5 }
    ∧ exInterp.mem 107 = { type := .int, modified := false, oindex := 0, u := 42 }
    ∧ (i_aggregate 9 exInterp 1 2).elts 9 0 = exInterp.mem 107
    ∧ (i_aggregate 9 exInterp 1 2).elts 9 1 = exInterp.mem 106
    ∧ (i_aggregate 9 exInterp 1 2).strRef 5 = exInterp.strRef 5
    ∧ ∃ s2, i_spread1 3 1000 (i_aggregate 9 exInterp 1 2) 1 (-1) = .ok (1, s2)
      ∧ s2.frame 1 = exInterp.frame 1
      ∧ s2.mem 106 = exInterp.mem 106 ∧ s2.mem 107 = exInterp.mem 107
      ∧ s2.arrRef 9 = 0 ∧ s2.strRef = exInterp.strRef
      ∧ s2.arrRef 7 = exInterp.arrRef 7 := by
  obtain ⟨_, _, _, _, _, s2, e, _, _, _, h5, h6, h7, h8, h11⟩ :=
    i_aggregate_spread 3 1000 9 exInterp 1 2 (-1) (by decide) (by decide) (by decide)
      (by decide) (by decide) (by decide) (by
        intro h
        have : (List.range 2).countP
            (fun j => (exInterp.mem ((exInterp.frame 1).sp + j)).refsArr h) = 0 := by
          simp [exInterp, Value.refsArr, List.range_succ]
        rw [this]
        show ((0 : Nat) : Int) ≤ 1
        decide)
  have hfr := h11 (by decide)
  refine ⟨rfl, rfl, by decide, by decide, by decide, s2, e, hfr, ?_, ?_, h6, h7,
    h8 7 (by decide)⟩
  · have := h5 0 (by decide)
    rw [hfr] at this
    exact this
  · have := h5 1 (by decide)
    rw [hfr] at this
    exact this

/-- C40 as stated fails for a lightweight object whose element 0 is a
destructed object: such a value is not a destructed object, but
`i_push_value` pushes nil in its place. The frame at address 1 of `exLwDead`
has one value on its stack, the lightweight object 7, which has one
reference; after `i_aggregate(f, 1)` and `i_spread1(f, -1)` the value on its
stack is nil, and the lightweight object has lost its reference. -/
theorem i_spread1_drops_lwobject :
    (exLwDead.frame 1).sp = 107 ∧ (exLwDead.frame 1).fp = 108
    ∧ (exLwDead.frame 1).stack ≤ (exLwDead.frame 1).sp
    ∧ (exLwDead.mem 107).type = .lwobject
    ∧ ¬ ((exLwDead.mem 107).type = .object ∧ DESTRUCTED exLwDead (exLwDead.mem 107) = true)
    ∧ (exLwDead.elt0 (exLwDead.mem 107).u).type = .object
    ∧ DESTRUCTED exLwDead (exLwDead.elt0 (exLwDead.mem 107).u) = true
    ∧ (exLwDead.mem 107).refsArr 9 = false
    ∧ exLwDead.arrRef 7 = 1
    ∧ (i_aggregate 9 exLwDead 1 1).elts 9 0 = exLwDead.mem 107
    ∧ ∃ s2, i_spread1 3 1000 (i_aggregate 9 exLwDead 1 1) 1 (-1) = .ok (0, s2)
      ∧ (s2.frame 1).sp = 107 ∧ (s2.frame 1).fp = 108
      ∧ s2.mem 107 = nil_value true
      ∧ s2.mem 107 ≠ exLwDead.mem 107
      ∧ s2.arrRef 7 = 0
      ∧ s2.arrRef 7 ≠ exLwDead.arrRef 7 :=
  ⟨by decide, by decide, by decide, by decide, by decide, by decide, by decide, by decide,
    rfl, by decide, _, rfl, by decide, by decide, by decide, by decide, by decide, by decide⟩

end Dgd

